import Mathlib

/-!
# slidekit: the Marp reader and writer

A shallow embedding of `backends/marp/reader.go`, `backends/marp/writer.go` and the
parts of `model/` they use, followed by theorems about them.

Conventions of the embedding.

* A Go `string` holding valid UTF-8 text is a list of Unicode code points
  (`GoString`).  All separators and markers the program looks for are ASCII, so byte
  offsets returned by `strings.Index` and used in slice expressions fall on
  code point boundaries; offsets in the embedding count code points.
* A Go run-time panic (slice or index out of range) and a loop that has not finished
  within its fuel are both `none`.  Functions that index or slice therefore return an
  `Option`.
* A Go `map[string]string` is an association list with unique keys; a Go pointer that
  may be `nil` is an `Option`.
-/

namespace Slidekit

/-- A Go string holding valid UTF-8 text, as its list of code points. -/
abbrev GoString := List Char

/-! ## Package `strings` and `unicode` -/

/-- Go `unicode.IsSpace`: the Unicode White_Space property. -/
def isSpace (c : Char) : Bool :=
  let n := c.toNat
  (9 ≤ n && n ≤ 13) || n == 32 || n == 0x85 || n == 0xA0 || n == 0x1680 ||
    (0x2000 ≤ n && n ≤ 0x200A) || n == 0x2028 || n == 0x2029 || n == 0x202F ||
    n == 0x205F || n == 0x3000

/-- Go `strings.TrimSpace`: removes leading and trailing Unicode white space. -/
def TrimSpace (s : GoString) : GoString :=
  List.rdropWhile isSpace (s.dropWhile isSpace)

/-- Go `strings.HasPrefix`. -/
def HasPrefix (s pre : GoString) : Bool :=
  pre.isPrefixOf s

/-- Go `strings.TrimPrefix`. -/
def TrimPrefix (s pre : GoString) : GoString :=
  if HasPrefix s pre then s.drop pre.length else s

/-- Go `strings.Split(s, sep)` for a one-character separator: all the pieces between
occurrences of `sep`; the empty string gives one empty piece. -/
def Split : GoString → Char → List GoString
  | [], _ => [[]]
  | c :: cs, sep =>
    if c = sep then [] :: Split cs sep
    else match Split cs sep with
      | [] => [[c]]
      | l :: ls => (c :: l) :: ls

/-- Go `strings.SplitN(s, sep, n)` for a one-character separator and `n ≥ 0`: at most
`n` pieces, the last one being the unsplit remainder. -/
def SplitN : GoString → Char → Nat → List GoString
  | _, _, 0 => []
  | s, _, 1 => [s]
  | [], _, _ + 2 => [[]]
  | c :: cs, sep, n + 2 =>
    if c = sep then [] :: SplitN cs sep (n + 1)
    else match SplitN cs sep (n + 2) with
      | [] => [[c]]
      | l :: ls => (c :: l) :: ls

/-- Go `strings.Join`. -/
def Join (elems : List GoString) (sep : GoString) : GoString :=
  sep.intercalate elems

/-- Go `strings.Index`: the offset of the first occurrence of `substr` in `s`, or `-1`. -/
def Index : GoString → GoString → Int
  | [], substr => if substr.isEmpty then 0 else -1
  | c :: cs, substr =>
    if HasPrefix (c :: cs) substr then 0
    else
      let r := Index cs substr
      if r < 0 then -1 else r + 1

/-- Go `strings.Contains`. -/
def Contains (s substr : GoString) : Bool :=
  decide (0 ≤ Index s substr)

/-- Go `strings.Repeat`. -/
def Repeat (s : GoString) : Nat → GoString
  | 0 => []
  | n + 1 => s ++ Repeat s n

/-- Go `strings.Repeat` with a count of type `int`, which panics when the count is
negative. -/
def RepeatInt (s : GoString) (count : Int) : Option GoString :=
  if count < 0 then none else some (Repeat s count.toNat)

/-- The slice expression `s[lo:]`; `none` when `lo` is out of range. -/
def sliceFrom (s : GoString) (lo : Int) : Option GoString :=
  if 0 ≤ lo ∧ lo ≤ (s.length : Int) then some (s.drop lo.toNat) else none

/-- The slice expression `s[:hi]`; `none` when `hi` is out of range. -/
def sliceTo (s : GoString) (hi : Int) : Option GoString :=
  if 0 ≤ hi ∧ hi ≤ (s.length : Int) then some (s.take hi.toNat) else none

/-- The index expression `xs[i]`; `none` when `i` is out of range. -/
def index {α : Type} (xs : List α) (i : Int) : Option α :=
  if 0 ≤ i then xs[i.toNat]? else none

/-! ## Package `regexp`

The patterns of `reader.go` use literals, character classes, greedy and lazy
repetition of a single class, an optional character, an alternation of literals,
`\b`, `^`, `$` and capture groups.  `RE` is that fragment; a pattern is a list of
items matched in sequence.  The matcher is a backtracking matcher, which finds the
leftmost-first match that package `regexp` specifies.  No pattern of `reader.go`
matches the empty string. -/

/-- One item of a pattern. -/
inductive RE where
  /-- A single character of a class. -/
  | chr (p : Char → Bool)
  /-- Zero or more characters of a class: `x*` (greedy) or `x*?` (lazy). -/
  | star (p : Char → Bool) (greedy : Bool)
  /-- An optional character of a class: `x?`. -/
  | opt (p : Char → Bool)
  /-- An alternation of literal words, tried from left to right. -/
  | alt (ws : List GoString)
  /-- The word boundary `\b`. -/
  | wordBoundary
  /-- Beginning of text `^`. -/
  | bot
  /-- End of text `$`. -/
  | eot
  /-- Opening parenthesis of a capture group. -/
  | openGroup
  /-- Closing parenthesis of a capture group. -/
  | closeGroup

/-- The class `\s` of package `regexp`: ASCII white space. -/
def reSpace (c : Char) : Bool :=
  c == '\t' || c == '\n' || c.toNat == 12 || c == '\r' || c == ' '

/-- The class `\d`. -/
def reDigit (c : Char) : Bool :=
  48 ≤ c.toNat && c.toNat ≤ 57

/-- The class `\w`: ASCII letters, digits and the underscore. -/
def reWord (c : Char) : Bool :=
  reDigit c || (65 ≤ c.toNat && c.toNat ≤ 90) || (97 ≤ c.toNat && c.toNat ≤ 122) || c == '_'

/-- The class `.` without the `s` flag: any character but a newline. -/
def reDot (c : Char) : Bool :=
  c != '\n'

/-- The class `.` under the `s` flag: any character. -/
def reAny (_ : Char) : Bool :=
  true

/-- A literal word as a sequence of pattern items. -/
def RE.lit (w : String) : List RE :=
  w.toList.map fun c => RE.chr (· == c)

/-- Whether a position is preceded, respectively followed, by a word character. -/
def isWordAt : Option Char → Bool
  | none => false
  | some c => reWord c

/-- Greedy repetition: take as many characters of the class as possible, giving
back one at a time until the continuation `k` succeeds. -/
def starGreedy {α : Type} (p : Char → Bool) (k : Option Char → GoString → Nat → Option α) :
    Option Char → GoString → Nat → Option α
  | prev, [], pos => k prev [] pos
  | prev, c :: cs, pos =>
    if p c then
      match starGreedy p k (some c) cs (pos + 1) with
      | some r => some r
      | none => k prev (c :: cs) pos
    else k prev (c :: cs) pos

/-- Lazy repetition: try the continuation `k` first, and take one more character of
the class only when it fails. -/
def starLazy {α : Type} (p : Char → Bool) (k : Option Char → GoString → Nat → Option α) :
    Option Char → GoString → Nat → Option α
  | prev, [], pos => k prev [] pos
  | prev, c :: cs, pos =>
    match k prev (c :: cs) pos with
    | some r => some r
    | none => if p c then starLazy p k (some c) cs (pos + 1) else none

/-- Try the literal words in order; the first that is a prefix of the input and
lets the continuation succeed wins. -/
def altWords {α : Type} (k : Option Char → GoString → Nat → Option α)
    (prev : Option Char) (s : GoString) (pos : Nat) : List GoString → Option α
  | [] => none
  | w :: ws =>
    let here :=
      if HasPrefix s w then
        k (if w.isEmpty then prev else w.getLast?) (s.drop w.length) (pos + w.length)
      else none
    match here with
    | some r => some r
    | none => altWords k prev s pos ws

/-- Match a pattern at the current position.  `prev` is the character before the
position, `s` the rest of the text, `pos` the number of characters consumed since
the start of the match.  The result is the list of offsets at which capture
parentheses were passed, in pattern order, and the offset of the end of the match. -/
def RE.run : List RE → Option Char → GoString → Nat → Option (List Nat × Nat)
  | [], _, _, pos => some ([], pos)
  | .chr p :: k, _, s, pos =>
    match s with
    | c :: cs => if p c then RE.run k (some c) cs (pos + 1) else none
    | [] => none
  | .star p true :: k, prev, s, pos => starGreedy p (RE.run k) prev s pos
  | .star p false :: k, prev, s, pos => starLazy p (RE.run k) prev s pos
  | .opt p :: k, prev, s, pos =>
    match s with
    | c :: cs =>
      if p c then
        match RE.run k (some c) cs (pos + 1) with
        | some r => some r
        | none => RE.run k prev s pos
      else RE.run k prev s pos
    | [] => RE.run k prev s pos
  | .alt ws :: k, prev, s, pos => altWords (RE.run k) prev s pos ws
  | .wordBoundary :: k, prev, s, pos =>
    if isWordAt prev != isWordAt s.head? then RE.run k prev s pos else none
  | .bot :: k, prev, s, pos =>
    if prev.isNone then RE.run k prev s pos else none
  | .eot :: k, prev, s, pos =>
    if s.isEmpty then RE.run k prev s pos else none
  | .openGroup :: k, prev, s, pos =>
    (RE.run k prev s pos).map fun r => (pos :: r.1, r.2)
  | .closeGroup :: k, prev, s, pos =>
    (RE.run k prev s pos).map fun r => (pos :: r.1, r.2)

/-- The text of the match and of its capture groups: element 0 is the whole match,
element `i` the text of group `i`. -/
def submatches (s : GoString) : List Nat → Nat → List GoString
  | marks, e => s.take e :: groups marks
where
  /-- The groups, from consecutive pairs of offsets. -/
  groups : List Nat → List GoString
    | o :: c :: rest => (s.drop o).take (c - o) :: groups rest
    | _ => []

/-- Go `FindAllStringSubmatch(s, -1)`: the successive leftmost non-overlapping
matches.  `skip` counts the characters of the text still covered by the previous
match. -/
def findAllFrom (re : List RE) : Option Char → GoString → Nat → List (List GoString)
  | prev, [], skip =>
    if skip = 0 then
      match RE.run re prev [] 0 with
      | some (marks, e) => [submatches [] marks e]
      | none => []
    else []
  | _, c :: cs, skip + 1 => findAllFrom re (some c) cs skip
  | prev, c :: cs, 0 =>
    match RE.run re prev (c :: cs) 0 with
    | some (marks, e) => submatches (c :: cs) marks e :: findAllFrom re (some c) cs (e - 1)
    | none => findAllFrom re (some c) cs 0

/-- Go `(*Regexp).FindAllStringSubmatch(s, -1)`. -/
def FindAllStringSubmatch (re : List RE) (s : GoString) : List (List GoString) :=
  findAllFrom re none s 0

/-- Go `(*Regexp).FindAllString(s, -1)`: the texts of the matches. -/
def FindAllString (re : List RE) (s : GoString) : List GoString :=
  (FindAllStringSubmatch re s).map fun m => m.headD []

/-- Go `(*Regexp).FindStringSubmatch(s)`: the first match with its groups, or the
empty slice. -/
def FindStringSubmatch (re : List RE) (s : GoString) : List GoString :=
  (FindAllStringSubmatch re s).headD []

/-- Go `(*Regexp).MatchString(s)`. -/
def MatchString (re : List RE) (s : GoString) : Bool :=
  !(FindAllStringSubmatch re s).isEmpty

/-- The text outside the matches of `re`: the characters that
`ReplaceAllString(s, "")` keeps. -/
def removeAllFrom (re : List RE) : Option Char → GoString → Nat → GoString
  | _, [], _ => []
  | _, c :: cs, skip + 1 => removeAllFrom re (some c) cs skip
  | prev, c :: cs, 0 =>
    match RE.run re prev (c :: cs) 0 with
    | some (_, e) => if e = 0 then c :: removeAllFrom re (some c) cs 0
                     else removeAllFrom re (some c) cs (e - 1)
    | none => c :: removeAllFrom re (some c) cs 0

/-- Go `(*Regexp).ReplaceAllString(s, "")`. -/
def ReplaceAllString (re : List RE) (s : GoString) : GoString :=
  removeAllFrom re none s 0

/-- The pattern `<!--\s*(_\w+)\s*:\s*(.+?)\s*-->`. -/
def reDirective : List RE :=
  RE.lit "<!--" ++ [.star reSpace true, .openGroup, .chr (· == '_'), .chr reWord,
    .star reWord true, .closeGroup, .star reSpace true, .chr (· == ':'),
    .star reSpace true, .openGroup, .chr reDot, .star reDot false, .closeGroup,
    .star reSpace true] ++ RE.lit "-->"

/-- The pattern `(?s)<!--\s*\n(.*?)\n\s*-->`. -/
def reNoteBlock : List RE :=
  RE.lit "<!--" ++ [.star reSpace true, .chr (· == '\n'), .openGroup, .star reAny false,
    .closeGroup, .chr (· == '\n'), .star reSpace true] ++ RE.lit "-->"

/-- The pattern `\[PAUSE:(\d+)\]`. -/
def rePause : List RE :=
  RE.lit "[PAUSE:" ++ [.openGroup, .chr reDigit, .star reDigit true, .closeGroup,
    .chr (· == ']')]

/-- The pattern `<break\s+time="(\d+)ms"\s*/?>`. -/
def reBreak : List RE :=
  RE.lit "<break" ++ [.chr reSpace, .star reSpace true] ++ RE.lit "time=\"" ++
    [.openGroup, .chr reDigit, .star reDigit true, .closeGroup] ++ RE.lit "ms\"" ++
    [.star reSpace true, .opt (· == '/'), .chr (· == '>')]

/-- The alternatives of the tag name group `(div|section|script|table|ol|ul)`. -/
def htmlTagNames : List GoString :=
  ["div".toList, "section".toList, "script".toList, "table".toList, "ol".toList,
    "ul".toList]

/-- The pattern `<(div|section|script|table|ol|ul)\b`. -/
def reHTMLOpen : List RE :=
  [.chr (· == '<'), .openGroup, .alt htmlTagNames, .closeGroup, .wordBoundary]

/-- The pattern `</(div|section|script|table|ol|ul)>`. -/
def reHTMLClose : List RE :=
  RE.lit "</" ++ [.openGroup, .alt htmlTagNames, .closeGroup, .chr (· == '>')]

/-- The pattern `^(\d+)\.\s+(.+)$`. -/
def reNumbered : List RE :=
  [.bot, .openGroup, .chr reDigit, .star reDigit true, .closeGroup, .chr (· == '.'),
    .chr reSpace, .star reSpace true, .openGroup, .chr reDot, .star reDot true,
    .closeGroup, .eot]

/-- The pattern `!\[([^\]]*)\]\(([^)]+)\)`. -/
def reImage : List RE :=
  RE.lit "![" ++ [.openGroup, .star (· != ']') true, .closeGroup] ++ RE.lit "](" ++
    [.openGroup, .chr (· != ')'), .star (· != ')') true, .closeGroup, .chr (· == ')')]

/-! ## Package `model` -/

/-- A Go `map[string]string`: an association list with unique keys. -/
abbrev GoMap := List (GoString × GoString)

/-- The map lookup `v, ok := m[k]`. -/
def mapGet (m : GoMap) (k : GoString) : Option GoString :=
  (m.find? fun e => e.1 = k).map Prod.snd

/-- The map index expression `m[k]`, which is the empty string for a missing key. -/
def mapIndex (m : GoMap) (k : GoString) : GoString :=
  (mapGet m k).getD []

/-- The map assignment `m[k] = v`. -/
def mapSet (m : GoMap) (k v : GoString) : GoMap :=
  (k, v) :: m.filter fun e => e.1 ≠ k

/-- Go `model.BlockKind`, a string type. -/
abbrev BlockKind := GoString

def BlockParagraph : BlockKind := "paragraph".toList
def BlockBullet : BlockKind := "bullet".toList
def BlockNumbered : BlockKind := "numbered".toList
def BlockCode : BlockKind := "code".toList
def BlockImage : BlockKind := "image".toList
def BlockQuote : BlockKind := "quote".toList
def BlockHeading : BlockKind := "heading".toList

/-- Go `model.Block`. -/
structure Block where
  Kind : BlockKind := []
  Text : GoString := []
  Level : Int := 0
  Lang : GoString := []
  URL : GoString := []
  Alt : GoString := []
  deriving DecidableEq, Repr

def NewParagraph (text : GoString) : Block := { Kind := BlockParagraph, Text := text }
def NewBullet (text : GoString) (level : Int) : Block :=
  { Kind := BlockBullet, Text := text, Level := level }
def NewNumbered (text : GoString) (level : Int) : Block :=
  { Kind := BlockNumbered, Text := text, Level := level }
def NewCode (code lang : GoString) : Block := { Kind := BlockCode, Text := code, Lang := lang }
def NewImage (url alt : GoString) : Block := { Kind := BlockImage, URL := url, Alt := alt }
def NewQuote (text : GoString) : Block := { Kind := BlockQuote, Text := text }
def NewHeading (text : GoString) (level : Int) : Block :=
  { Kind := BlockHeading, Text := text, Level := level }

/-- Go `model.Audio`; `Duration` is a `time.Duration` in nanoseconds. -/
structure Audio where
  Source : GoString := []
  Path : GoString := []
  URL : GoString := []
  Script : GoString := []
  Duration : Int := 0
  Voice : GoString := []
  deriving DecidableEq, Repr

/-- Go `model.Layout`, a string type. -/
abbrev Layout := GoString

def LayoutTitle : Layout := "title".toList
def LayoutTitleBody : Layout := "title_body".toList
def LayoutTitleTwoCol : Layout := "title_two_col".toList
def LayoutSection : Layout := "section".toList
def LayoutBlank : Layout := "blank".toList
def LayoutImage : Layout := "image".toList
def LayoutComparison : Layout := "comparison".toList

/-- Go `model.Slide`. -/
structure Slide where
  ID : GoString := []
  Layout : Layout := []
  Title : GoString := []
  Subtitle : GoString := []
  Body : List Block := []
  Notes : List Block := []
  Audio : Option Audio := none
  Transition : Option GoString := none
  Background : Option GoString := none
  deriving DecidableEq, Repr

/-- Go `model.Section`. -/
structure Section where
  ID : GoString := []
  Title : GoString := []
  Slides : List Slide := []
  Audio : Option Audio := none
  deriving DecidableEq, Repr

/-- Go `model.Theme`. -/
structure Theme where
  Name : GoString := []
  Primary : GoString := []
  Secondary : GoString := []
  Background : GoString := []
  Font : GoString := []
  Custom : GoMap := []
  deriving DecidableEq, Repr

/-- Go `model.Meta`. -/
structure Meta where
  Author : GoString := []
  Date : GoString := []
  Description : GoString := []
  Keywords : List GoString := []
  Custom : GoMap := []
  deriving DecidableEq, Repr

/-- Go `model.Deck`. -/
structure Deck where
  ID : GoString := []
  Title : GoString := []
  Meta : Meta := {}
  Sections : List Section := []
  Theme : Option Theme := none
  deriving DecidableEq, Repr

/-- Go `(*Deck).SlideCount`. -/
def Deck.SlideCount (d : Deck) : Int :=
  d.Sections.foldl (fun count s => count + (s.Slides.length : Int)) 0

/-- Go `(*Deck).AllSlides`. -/
def Deck.AllSlides (d : Deck) : List Slide :=
  d.Sections.foldl (fun slides s => slides ++ s.Slides) []

/-- A non-nil `*Slide` that points into a deck: the address
`&d.Sections[sec].Slides[slide]`. -/
structure SlidePtr where
  sec : Nat
  slide : Nat
  deriving DecidableEq, Repr

/-- The inner loop `for j := range d.Sections[i].Slides` of `FindSlide`, from index
`j`. -/
def Deck.FindSlide.slides (id : GoString) (i : Nat) : Nat → List Slide → Option SlidePtr
  | _, [] => none
  | j, s :: rest =>
    if s.ID = id then some { sec := i, slide := j }
    else Deck.FindSlide.slides id i (j + 1) rest

/-- The outer loop `for i := range d.Sections` of `FindSlide`, from index `i`. -/
def Deck.FindSlide.sections (id : GoString) : Nat → List Section → Option SlidePtr
  | _, [] => none
  | i, sec :: rest =>
    match Deck.FindSlide.slides id i 0 sec.Slides with
    | some p => some p
    | none => Deck.FindSlide.sections id (i + 1) rest

/-- Go `(*Deck).FindSlide`: a pointer to the first slide with the given ID, over all
sections, or nil. -/
def Deck.FindSlide (d : Deck) (id : GoString) : Option SlidePtr :=
  Deck.FindSlide.sections id 0 d.Sections

/-- The slide at an address of the deck. -/
def Deck.slideAt (d : Deck) (p : SlidePtr) : Option Slide :=
  d.Sections[p.sec]?.bind fun sec => sec.Slides[p.slide]?

/-- Go `(*Theme).GetCustom`. -/
def Theme.GetCustom (t : Option Theme) (key defaultValue : GoString) : GoString :=
  match t with
  | none => defaultValue
  | some t =>
    match mapGet t.Custom key with
    | some v => v
    | none => defaultValue

/-- Go `(*Theme).SetCustom`. -/
def Theme.SetCustom (t : Theme) (key value : GoString) : Theme :=
  { t with Custom := mapSet t.Custom key value }

/-! ## `backends/marp/reader.go` -/

/-- Go `marp.Frontmatter`. -/
structure Frontmatter where
  Marp : Bool := false
  Theme : GoString := []
  Paginate : Bool := false
  Style : GoString := []
  Custom : GoMap := []
  deriving DecidableEq, Repr

/-- The inner loop of `parseFrontmatter` that collects the lines of a multi-line
style block: it runs from line `i` while the line is non-empty and starts with a
space or a tab, and returns the index it stopped at with the collected lines. -/
def parseFrontmatter.styleLoop :
    Nat → List GoString → Int → List GoString → Option (Int × List GoString)
  | 0, _, _, _ => none
  | fuel + 1, lines, i, styleLines =>
    if i < (lines.length : Int) then
      (index lines i).bind fun sl =>
        if 0 < sl.length then
          (index sl 0).bind fun c =>
            if c = ' ' ∨ c = '\t' then
              parseFrontmatter.styleLoop fuel lines (i + 1) (styleLines ++ [sl])
            else some (i, styleLines)
        else some (i, styleLines)
    else some (i, styleLines)

/-- One iteration of the line loop of `parseFrontmatter` at line `i`: the index of
the next line to look at and the updated frontmatter. -/
def parseFrontmatter.step (lines : List GoString) (i : Int) (fm : Frontmatter) :
    Option (Int × Frontmatter) :=
  (index lines i).bind fun line =>
    let trimmed := TrimSpace line
    if trimmed = [] then some (i + 1, fm)
    else
      let parts := SplitN trimmed ':' 2
      if parts.length ≠ 2 then some (i + 1, fm)
      else
        (index parts 0).bind fun part0 =>
        (index parts 1).bind fun part1 =>
          let key := TrimSpace part0
          let value := TrimSpace part1
          if key = "marp".toList then
            some (i + 1, { fm with Marp := decide (value = "true".toList) })
          else if key = "theme".toList then
            some (i + 1, { fm with Theme := value })
          else if key = "paginate".toList then
            some (i + 1, { fm with Paginate := decide (value = "true".toList) })
          else if key = "style".toList then
            if value = "|".toList then
              (parseFrontmatter.styleLoop (lines.length + 1) lines (i + 1) []).bind fun r =>
                some (r.1, { fm with Style := Join r.2 "\n".toList })
            else some (i + 1, { fm with Style := value })
          else some (i + 1, { fm with Custom := mapSet fm.Custom key value })

/-- The line loop `for i < len(lines)` of `parseFrontmatter`. -/
def parseFrontmatter.loop : Nat → List GoString → Int → Frontmatter → Option Frontmatter
  | 0, _, _, _ => none
  | fuel + 1, lines, i, fm =>
    if i < (lines.length : Int) then
      (parseFrontmatter.step lines i fm).bind fun r =>
        parseFrontmatter.loop fuel lines r.1 r.2
    else some fm

/-- Go `parseFrontmatter`: extracts the YAML frontmatter from the content and returns
it with the remaining body. -/
def parseFrontmatter (content : GoString) : Option (Frontmatter × GoString) :=
  let fm : Frontmatter := { Custom := [] }
  let content := TrimSpace content
  if !HasPrefix content "---".toList then some (fm, content)
  else
    (sliceFrom content 3).bind fun rest =>
      let idx := Index rest "\n---".toList
      if idx < 0 then some (fm, content)
      else
        (sliceTo rest idx).bind fun head =>
          let fmContent := TrimSpace head
          (sliceFrom rest (idx + 4)).bind fun body =>
            let lines := Split fmContent '\n'
            (parseFrontmatter.loop (lines.length + 1) lines 0 fm).bind fun fm =>
              some (fm, body)

/-- The state of the line loop of `splitSlides`. -/
structure splitState where
  slides : List GoString := []
  current : List GoString := []
  inCodeBlock : Bool := false
  deriving DecidableEq, Repr

/-- One iteration of the line loop of `splitSlides`. -/
def splitSlides.step (st : splitState) (line : GoString) : splitState :=
  let trimmed := TrimSpace line
  let inCodeBlock :=
    if HasPrefix trimmed "```".toList then !st.inCodeBlock else st.inCodeBlock
  if !inCodeBlock ∧ trimmed = "---".toList then
    let slideContent := Join st.current "\n".toList
    if TrimSpace slideContent ≠ [] then
      { slides := st.slides ++ [slideContent], current := [], inCodeBlock := inCodeBlock }
    else
      { slides := st.slides, current := [], inCodeBlock := inCodeBlock }
  else
    { slides := st.slides, current := st.current ++ [line], inCodeBlock := inCodeBlock }

/-- Go `splitSlides`: splits the body into raw slide strings on `---` separator
lines that are not inside a fenced code block. -/
def splitSlides (body : GoString) : List GoString :=
  let lines := Split body '\n'
  let st := lines.foldl splitSlides.step {}
  if 0 < st.current.length then
    let slideContent := Join st.current "\n".toList
    if TrimSpace slideContent ≠ [] then st.slides ++ [slideContent] else st.slides
  else st.slides

/-- Go `marp.noteBlock`. -/
structure noteBlock where
  text : GoString := []
  deriving DecidableEq, Repr

/-- Go `marp.parsedSlide`: the intermediate parsed state of one slide. -/
structure parsedSlide where
  directives : GoMap := []
  notes : List noteBlock := []
  content : GoString := []
  rawContent : GoString := []
  deriving DecidableEq, Repr

/-- Go `cleanNoteText`: removes pause and break markers and joins the non-blank
trimmed lines with single spaces. -/
def cleanNoteText (text : GoString) : GoString :=
  let text := ReplaceAllString rePause text
  let text := ReplaceAllString reBreak text
  let lines := Split text '\n'
  let cleaned := lines.foldl
    (fun cleaned line =>
      let trimmed := TrimSpace line
      if trimmed ≠ [] then cleaned ++ [trimmed] else cleaned) []
  Join cleaned " ".toList

/-- Go `parseRawSlide`: parses directives, notes and content from a raw slide. -/
def parseRawSlide (raw : GoString) : Option parsedSlide :=
  let remaining := raw
  ((FindAllStringSubmatch reDirective remaining).foldlM
    (fun (directives : GoMap) m =>
      (index m 1).bind fun key =>
      (index m 2).bind fun value =>
        some (mapSet directives key value)) []).bind fun directives =>
  let remaining := ReplaceAllString reDirective remaining
  ((FindAllStringSubmatch reNoteBlock remaining).foldlM
    (fun (notes : List noteBlock) m =>
      (index m 1).bind fun noteText =>
        if Contains noteText "<script".toList then some notes
        else some (notes ++ [{ text := cleanNoteText noteText }])) []).bind fun notes =>
  let remaining := ReplaceAllString reNoteBlock remaining
  some { directives := directives, notes := notes, content := TrimSpace remaining,
         rawContent := raw }

/-- Go `extractSectionTitle`: the title of a section-divider slide, preferring the
second-level heading over the first-level one. -/
def extractSectionTitle (content : GoString) : GoString :=
  let lines := Split content '\n'
  let h := lines.foldl
    (fun (h : GoString × GoString) line =>
      let trimmed := TrimSpace line
      if h.1 = [] ∧ HasPrefix trimmed "# ".toList then (TrimPrefix trimmed "# ".toList, h.2)
      else if h.2 = [] ∧ HasPrefix trimmed "## ".toList then
        (h.1, TrimPrefix trimmed "## ".toList)
      else h) ([], [])
  if h.2 ≠ [] then h.2
  else if h.1 ≠ [] then h.1
  else "untitled".toList

/-- Go `containsColumns`. -/
def containsColumns (content : GoString) : Bool :=
  Contains content "class=\"columns\"".toList || Contains content "grid-template-columns".toList

/-- Go `isHTMLBlockStart`. -/
def isHTMLBlockStart (line : GoString) : Bool :=
  HasPrefix line "<div".toList || HasPrefix line "<section".toList ||
    HasPrefix line "<script".toList || HasPrefix line "<ol".toList ||
    HasPrefix line "<table".toList

/-- Go `countHTMLOpens`. -/
def countHTMLOpens (line : GoString) : Int :=
  ((FindAllString reHTMLOpen line).length : Int)

/-- Go `countHTMLCloses`. -/
def countHTMLCloses (line : GoString) : Int :=
  ((FindAllString reHTMLClose line).length : Int)

/-- Go `countIndentLevel`: the nesting level from the leading white space, four
spaces or one tab per level. -/
def countIndentLevel (line : GoString) : Int :=
  go line 0
where
  /-- The `range` loop over the characters of the line. -/
  go : GoString → Int → Int
    | [], spaces => spaces / 4
    | ch :: rest, spaces =>
      if ch = ' ' then go rest (spaces + 1)
      else if ch = '\t' then go rest (spaces + 4)
      else spaces / 4

/-- Go `isNumberedItem`. -/
def isNumberedItem (line : GoString) : Bool :=
  MatchString reNumbered line

/-- Go `extractNumberedText`. -/
def extractNumberedText (line : GoString) : Option GoString :=
  let m := FindStringSubmatch reNumbered line
  if 3 ≤ m.length then index m 2 else some line

/-- Go `parseImageLine`: the alt text and the URL of a Markdown image. -/
def parseImageLine (line : GoString) : Option (GoString × GoString) :=
  let m := FindStringSubmatch reImage line
  if 3 ≤ m.length then
    (index m 1).bind fun alt => (index m 2).bind fun url => some (alt, url)
  else some ([], [])

/-- The local variables of `parseSlideContent` together with the slide it fills. -/
structure contentState where
  slide : Slide := {}
  bodyLines : List GoString := []
  inCodeBlock : Bool := false
  codeBlockLang : GoString := []
  codeBlockLines : List GoString := []
  inHTMLBlock : Bool := false
  htmlBlockLines : List GoString := []
  htmlBlockDepth : Int := 0
  deriving DecidableEq, Repr

/-- Append a block to the body of the slide. -/
def contentState.appendBody (st : contentState) (b : Block) : contentState :=
  { st with slide := { st.slide with Body := st.slide.Body ++ [b] } }

/-- The inner loop of `parseSlideContent` that collects the lines of a table: it runs
from line `i` while the trimmed line starts with `|`. -/
def parseSlideContent.tableLoop :
    Nat → List GoString → Int → List GoString → Option (Int × List GoString)
  | 0, _, _, _ => none
  | fuel + 1, lines, i, tableLines =>
    if i < (lines.length : Int) then
      (index lines i).bind fun l =>
        if HasPrefix (TrimSpace l) "|".toList then
          (index lines i).bind fun l2 =>
            parseSlideContent.tableLoop fuel lines (i + 1) (tableLines ++ [l2])
        else some (i, tableLines)
    else some (i, tableLines)

/-- The body of the line loop of `parseSlideContent` at line `i`, for a line outside
code and HTML blocks that is not blank: headings, list items, quotes, images,
tables and paragraph text.  The result is the value of `i` at the end of the body
and the updated state. -/
def parseSlideContent.plainLine (lines : List GoString) (i : Int) (line trimmed : GoString)
    (st : contentState) : Option (Int × contentState) :=
  if HasPrefix trimmed "# ".toList then
    let title := TrimPrefix trimmed "# ".toList
    if st.slide.Title = [] then some (i, { st with slide := { st.slide with Title := title } })
    else some (i, st.appendBody (NewHeading title 1))
  else if HasPrefix trimmed "## ".toList then
    let subtitle := TrimPrefix trimmed "## ".toList
    if st.slide.Title = [] then
      some (i, { st with slide := { st.slide with Title := subtitle } })
    else if st.slide.Subtitle = [] then
      some (i, { st with slide := { st.slide with Subtitle := subtitle } })
    else some (i, st.appendBody (NewHeading subtitle 2))
  else if HasPrefix trimmed "### ".toList then
    some (i, st.appendBody (NewHeading (TrimPrefix trimmed "### ".toList) 3))
  else if HasPrefix trimmed "- ".toList ∨ HasPrefix trimmed "* ".toList then
    let level := countIndentLevel line
    (sliceFrom trimmed 2).bind fun t =>
      some (i, st.appendBody (NewBullet (TrimSpace t) level))
  else if isNumberedItem trimmed then
    let level := countIndentLevel line
    (extractNumberedText trimmed).bind fun text =>
      some (i, st.appendBody (NewNumbered text level))
  else if HasPrefix trimmed "> ".toList then
    some (i, st.appendBody (NewQuote (TrimPrefix trimmed "> ".toList)))
  else
    (if HasPrefix trimmed "![".toList then
      (parseImageLine trimmed).bind fun r =>
        if r.2 ≠ [] then some (some (st.appendBody (NewImage r.2 r.1))) else some none
     else some none).bind fun image =>
    match image with
    | some st' => some (i, st')
    | none =>
      if HasPrefix trimmed "|".toList then
        (parseSlideContent.tableLoop (lines.length + 1) lines i []).bind fun r =>
          some (r.1 - 1, st.appendBody { Kind := BlockParagraph, Text := Join r.2 "\n".toList })
      else some (i, { st with bodyLines := st.bodyLines ++ [trimmed] })

/-- The body of the line loop of `parseSlideContent` at line `i`.  The result is the
value of `i` at the end of the body, before the loop increments it, and the updated
state. -/
def parseSlideContent.step (lines : List GoString) (i : Int) (st : contentState) :
    Option (Int × contentState) :=
  (index lines i).bind fun line =>
    let trimmed := TrimSpace line
    if HasPrefix trimmed "```".toList then
      if !st.inCodeBlock then
        some (i, { st with inCodeBlock := true,
                           codeBlockLang := TrimPrefix trimmed "```".toList,
                           codeBlockLines := [] })
      else
        some (i, { st with inCodeBlock := false }.appendBody
          { Kind := BlockCode, Text := Join st.codeBlockLines "\n".toList,
            Lang := st.codeBlockLang })
    else if st.inCodeBlock then
      some (i, { st with codeBlockLines := st.codeBlockLines ++ [line] })
    else if !st.inHTMLBlock ∧ isHTMLBlockStart trimmed then
      let htmlBlockLines := [line]
      let htmlBlockDepth := 1 + (countHTMLOpens line - 1) - countHTMLCloses line
      if htmlBlockDepth ≤ 0 then
        some (i, { st with inHTMLBlock := false, htmlBlockDepth := htmlBlockDepth,
                           htmlBlockLines := [] }.appendBody
          { Kind := BlockParagraph, Text := Join htmlBlockLines "\n".toList })
      else
        some (i, { st with inHTMLBlock := true, htmlBlockDepth := htmlBlockDepth,
                           htmlBlockLines := htmlBlockLines })
    else if st.inHTMLBlock then
      let htmlBlockLines := st.htmlBlockLines ++ [line]
      let htmlBlockDepth := st.htmlBlockDepth + countHTMLOpens line - countHTMLCloses line
      if htmlBlockDepth ≤ 0 then
        some (i, { st with inHTMLBlock := false, htmlBlockDepth := htmlBlockDepth,
                           htmlBlockLines := [] }.appendBody
          { Kind := BlockParagraph, Text := Join htmlBlockLines "\n".toList })
      else
        some (i, { st with htmlBlockDepth := htmlBlockDepth,
                           htmlBlockLines := htmlBlockLines })
    else if trimmed = [] then some (i, st)
    else parseSlideContent.plainLine lines i line trimmed st

/-- The line loop `for i := 0; i < len(lines); i++` of `parseSlideContent`. -/
def parseSlideContent.loop : Nat → List GoString → Int → contentState → Option contentState
  | 0, _, _, _ => none
  | fuel + 1, lines, i, st =>
    if i < (lines.length : Int) then
      (parseSlideContent.step lines i st).bind fun r =>
        parseSlideContent.loop fuel lines (r.1 + 1) r.2
    else some st

/-- Go `parseSlideContent`: parses Markdown and HTML content into the title,
subtitle and body of the slide. -/
def parseSlideContent (slide : Slide) (content : GoString) : Option Slide :=
  let lines := Split content '\n'
  (parseSlideContent.loop (lines.length + 1) lines 0 { slide := slide }).bind fun st =>
    if 0 < st.bodyLines.length then
      let text := Join st.bodyLines "\n".toList
      if text ≠ [] then some { st.slide with Body := st.slide.Body ++ [NewParagraph text] }
      else some st.slide
    else some st.slide

/-- Go `strconv.Itoa` for a non-negative number, as `%d` prints it. -/
def itoa (n : Nat) : GoString :=
  Nat.toDigits 10 n

/-- Go `convertToSlide`: converts a parsed slide into a `model.Slide`. -/
def convertToSlide (ps : parsedSlide) (sectionIdx slideIdx : Nat) : Option Slide :=
  let slide : Slide := { ID := "s".toList ++ itoa sectionIdx ++ "-".toList ++ itoa slideIdx }
  let cls := mapIndex ps.directives "_class".toList
  let slide : Slide :=
    if cls = "section-divider".toList then { slide with Layout := LayoutSection }
    else if cls = "lead".toList then { slide with Layout := LayoutTitle }
    else { slide with Layout := LayoutTitleBody }
  (parseSlideContent slide ps.content).bind fun slide =>
    let slide : Slide := ps.notes.foldl
      (fun (slide : Slide) nb =>
        if nb.text ≠ [] then
          { slide with Notes := slide.Notes ++ [{ Kind := BlockParagraph, Text := nb.text }] }
        else slide) slide
    if containsColumns ps.content then some { slide with Layout := LayoutTitleTwoCol }
    else some slide

/-- The local type `sectionGroup` of `buildDeck`. -/
structure sectionGroup where
  title : GoString := []
  slides : List parsedSlide := []
  deriving DecidableEq, Repr

/-- The state of the grouping loop of `buildDeck`. -/
structure groupState where
  groups : List sectionGroup := []
  currentGroup : sectionGroup := {}
  deriving DecidableEq, Repr

/-- One iteration of the grouping loop of `buildDeck`. -/
def buildDeck.groupStep (st : groupState) (ps : parsedSlide) : groupState :=
  let cls := mapIndex ps.directives "_class".toList
  if cls = "section-divider".toList ∨ cls = "lead".toList then
    let groups :=
      if 0 < st.currentGroup.slides.length then st.groups ++ [st.currentGroup] else st.groups
    let title := extractSectionTitle ps.content
    let currentGroup : sectionGroup := { title := title }
    { groups := groups,
      currentGroup := { currentGroup with slides := currentGroup.slides ++ [ps] } }
  else
    { st with currentGroup :=
        { st.currentGroup with slides := st.currentGroup.slides ++ [ps] } }

/-- The grouping part of `buildDeck`: the slides grouped into sections. -/
def buildDeck.groupSlides (slides : List parsedSlide) : List sectionGroup :=
  let st := slides.foldl buildDeck.groupStep { currentGroup := { title := "default".toList } }
  if 0 < st.currentGroup.slides.length then st.groups ++ [st.currentGroup] else st.groups

/-- The loop `for j, ps := range group.slides` of `buildDeck`, from index `j`. -/
def buildDeck.convertSlides (i : Nat) : Nat → List parsedSlide → Option (List Slide)
  | _, [] => some []
  | j, ps :: rest =>
    (convertToSlide ps i j).bind fun slide =>
      (buildDeck.convertSlides i (j + 1) rest).bind fun slides => some (slide :: slides)

/-- The loop `for i, group := range groups` of `buildDeck`, from index `i`. -/
def buildDeck.convertGroups : Nat → List sectionGroup → Option (List Section)
  | _, [] => some []
  | i, group :: rest =>
    (buildDeck.convertSlides i 0 group.slides).bind fun slides =>
      let sec : Section :=
        { ID := "section-".toList ++ itoa i, Title := group.title, Slides := slides }
      (buildDeck.convertGroups (i + 1) rest).bind fun secs => some (sec :: secs)

/-- Go `buildDeck`: constructs a `Deck` from the frontmatter and the parsed slides. -/
def buildDeck (fm : Frontmatter) (slides : List parsedSlide) : Option Deck :=
  let theme : Option Theme :=
    if fm.Theme ≠ [] then
      let t : Theme := { Name := fm.Theme }
      if fm.Style ≠ [] then some (t.SetCustom "style".toList fm.Style) else some t
    else none
  let custom : GoMap := fm.Custom.foldl (fun custom e => mapSet custom e.1 e.2) []
  let groups := buildDeck.groupSlides slides
  (buildDeck.convertGroups 0 groups).bind fun sections =>
    let deck : Deck := { Meta := { Custom := custom }, Theme := theme, Sections := sections }
    match sections with
    | sec :: _ =>
      match sec.Slides with
      | first :: _ => some { deck with Title := first.Title }
      | [] => some deck
    | [] => some deck

/-- Go `(*Reader).Parse`: the deck (a pointer) and the error it returns. -/
def Parse (content : GoString) : Option (Option Deck × Option GoString) :=
  (parseFrontmatter content).bind fun r =>
    let rawSlides := splitSlides r.2
    (rawSlides.foldlM
      (fun (slides : List parsedSlide) raw =>
        (parseRawSlide raw).bind fun ps => some (slides ++ [ps])) []).bind fun slides =>
    (buildDeck r.1 slides).bind fun deck =>
      some (some deck, none)

/-! ## `backends/marp/writer.go`

A `strings.Builder` is the text written to it so far. -/

/-- Go `(*Writer).writeFrontmatter`: the text it writes. -/
def writeFrontmatter (deck : Deck) : GoString :=
  let b := "---\n".toList ++ "marp: true\n".toList
  let b :=
    match deck.Theme with
    | some t => if t.Name ≠ [] then b ++ "theme: ".toList ++ t.Name ++ "\n".toList else b
    | none => b
  let b := b ++ "paginate: true\n".toList
  let b :=
    match deck.Theme with
    | some t =>
      let style := Theme.GetCustom (some t) "style".toList []
      if style ≠ [] then
        (Split style '\n').foldl (fun b line => b ++ line ++ "\n".toList)
          (b ++ "style: |\n".toList)
      else b
    | none => b
  b ++ "---\n\n".toList

/-- Go `(*Writer).writeBlock`: the text it writes. -/
def writeBlock (block : Block) : Option GoString :=
  if block.Kind = BlockBullet then
    (RepeatInt "    ".toList block.Level).bind fun indent =>
      some (indent ++ "- ".toList ++ block.Text ++ "\n".toList)
  else if block.Kind = BlockNumbered then
    (RepeatInt "    ".toList block.Level).bind fun indent =>
      some (indent ++ "1. ".toList ++ block.Text ++ "\n".toList)
  else if block.Kind = BlockParagraph then
    if HasPrefix (TrimSpace block.Text) "<".toList then
      some (block.Text ++ "\n".toList)
    else if HasPrefix (TrimSpace block.Text) "|".toList then
      some (block.Text ++ "\n".toList)
    else some ("\n".toList ++ block.Text ++ "\n".toList)
  else if block.Kind = BlockCode then
    some ("\n```".toList ++ block.Lang ++ "\n".toList ++ block.Text ++ "\n```\n".toList)
  else if block.Kind = BlockImage then
    some ("![".toList ++ block.Alt ++ "](".toList ++ block.URL ++ ")\n".toList)
  else if block.Kind = BlockQuote then
    some ("> ".toList ++ block.Text ++ "\n".toList)
  else if block.Kind = BlockHeading then
    (RepeatInt "#".toList (block.Level + 1)).bind fun pre =>
      some (pre ++ " ".toList ++ block.Text ++ "\n".toList)
  else some []

/-- Go `(*Writer).writeSlide`: the text it writes. -/
def writeSlide (slide : Slide) : Option GoString :=
  let b : GoString :=
    if slide.Layout = LayoutSection then
      "<!-- _class: section-divider -->\n".toList ++ "<!-- _paginate: false -->\n\n".toList
    else if slide.Layout = LayoutTitle then
      "<!-- _class: lead -->\n".toList ++ "<!-- _paginate: false -->\n\n".toList
    else []
  let b :=
    if 0 < slide.Notes.length then
      slide.Notes.foldl (fun b note => b ++ note.Text ++ "\n".toList) (b ++ "<!--\n".toList)
        ++ "-->\n\n".toList
    else b
  let b := if slide.Title ≠ [] then b ++ "# ".toList ++ slide.Title ++ "\n".toList else b
  let b :=
    if slide.Subtitle ≠ [] then b ++ "## ".toList ++ slide.Subtitle ++ "\n".toList else b
  let b := if slide.Title ≠ [] ∨ slide.Subtitle ≠ [] then b ++ "\n".toList else b
  slide.Body.foldlM (fun b block => (writeBlock block).bind fun w => some (b ++ w)) b

/-- The state of the slide loops of `Encode`: the builder and the flag `first`. -/
structure encodeState where
  b : GoString := []
  first : Bool := true
  deriving DecidableEq, Repr

/-- One iteration of the inner loop of `Encode`. -/
def Encode.slideStep (st : encodeState) (slide : Slide) : Option encodeState :=
  let b := if !st.first then st.b ++ "\n---\n\n".toList else st.b
  (writeSlide slide).bind fun w => some { b := b ++ w, first := false }

/-- Go `(*Writer).Encode`: converts a deck to Marp Markdown. -/
def Encode (deck : Deck) : Option GoString :=
  (deck.Sections.foldlM
    (fun (st : encodeState) (sec : Section) => sec.Slides.foldlM Encode.slideStep st)
    { b := writeFrontmatter deck, first := true }).bind fun st => some st.b

/-- The sample document `sampleMarp` of `reader_test.go`. -/
def sampleMarp : GoString :=
  ("---\nmarp: true\ntheme: agentplexus\npaginate: true\nstyle: |\n  .columns \x7b\n" ++
   "    display: flex;\n    gap: 40px;\n  \x7d\n---\n\n<!-- _class: lead -->\n" ++
   "<!-- _paginate: false -->\n\n<!--\nWelcome to the presentation.\n[PAUSE:1000]\n" ++
   "This is the introduction.\n-->\n\n# My Presentation\n## A Subtitle Here\n\n" ++
   "**Built with AI**\n\n---\n\n# The Problem\n\nBuilding AI applications requires:\n\n" ++
   "- **Multiple LLM providers** for redundancy\n- **Different APIs** with incompatible formats\n" ++
   "- Code duplication for error handling\n\n---\n\n<!-- _class: section-divider -->\n" ++
   "<!-- _paginate: false -->\n\n<!--\nSection 2: Architecture. <break time=\"600ms\"/>\n" ++
   "Let's explore the design.\n-->\n\n# Section 2\n## Architecture\n\n" ++
   "Understanding the system design\n\n---\n\n<!--\nThe architecture uses a modular approach.\n" ++
   "[PAUSE:1500]\nEach component is independent.\n-->\n\n# Modular Design\n\n```go\n" ++
   "func main() \x7b\n    fmt.Println(\"Hello\")\n\x7d\n```\n\n---\n\n# Two Column Layout\n\n" ++
   "<div class=\"columns\">\n<div class=\"column-left\">\n\n**Left Side**\n- Item A\n- Item B\n\n" ++
   "</div>\n<div class=\"column-right\">\n\n**Right Side**\n- Item C\n- Item D\n\n</div>\n</div>\n\n" ++
   "---\n\n# Data Table\n\n| Feature | Status |\n|---------|--------|\n| Auth | Done |\n| API | WIP |\n\n" ++
   "---\n\n# With Image\n\n![Architecture diagram](./images/arch.png)\n\n> This is a blockquote\n\n" ++
   "---\n\n<!-- _class: section-divider -->\n\n# Section 3\n## Conclusion\n\nFinal thoughts\n\n" ++
   "---\n\n# Thank You\n\n1. Check the repo\n2. Star on GitHub\n3. Submit PRs\n").toList

/-! ## Notions used to state the properties -/

/-- The text after the marker `pre` on the first trimmed line that starts with it,
or the empty string when there is no such line. -/
def firstHeading (pre : GoString) (lines : List GoString) : GoString :=
  match (lines.map TrimSpace).find? (fun l => HasPrefix l pre) with
  | some l => l.drop pre.length
  | none => []

/-- The number of capture parentheses of a pattern. -/
def groupCount : List RE → Nat
  | [] => 0
  | .openGroup :: k => groupCount k + 1
  | .closeGroup :: k => groupCount k + 1
  | _ :: k => groupCount k

/-- A document that opens with a frontmatter fence, has the given header lines, a
closing fence, and then the text `rest`. -/
def fencedText (hdr : List GoString) (rest : GoString) : GoString :=
  "---\n".toList ++ Join hdr "\n".toList ++ "\n---".toList ++ rest

/-- The parsed fragment of the raw slide `# A`. -/
def fragmentPlain : parsedSlide :=
  { content := "# A".toList, rawContent := "# A".toList }

/-- The parsed fragment of a raw slide with the directive `_class: lead`. -/
def fragmentLead : parsedSlide :=
  { directives := [("_class".toList, "lead".toList)], content := "# B".toList,
    rawContent := "<!-- _class: lead -->\n# B".toList }

/-- The parsed fragment of a raw slide with the directive `_class: section-divider`. -/
def fragmentDivider : parsedSlide :=
  { directives := [("_class".toList, "section-divider".toList)], content := "# C".toList,
    rawContent := "<!-- _class: section-divider -->\n# C".toList }

/-- The key of a header line: the trimmed text before its first colon. -/
def lineKey (line : GoString) : GoString :=
  TrimSpace ((SplitN (TrimSpace line) ':' 2).headD [])

/-- The value of a header line: the trimmed text after its first colon. -/
def lineValue (line : GoString) : GoString :=
  TrimSpace ((SplitN (TrimSpace line) ':' 2).getD 1 [])

/-- Whether a header line opens a multi-line style block: `style: |`. -/
def opensStyleBlock (line : GoString) : Bool :=
  decide ((SplitN (TrimSpace line) ':' 2).length = 2 ∧ lineKey line = "style".toList ∧
    lineValue line = "|".toList)

/-- The effect on the frontmatter of one header line that does not open a style
block: the `switch` of `parseFrontmatter` on the key of the line. -/
def applyLine (fm : Frontmatter) (line : GoString) : Frontmatter :=
  if TrimSpace line = [] then fm
  else if (SplitN (TrimSpace line) ':' 2).length ≠ 2 then fm
  else if lineKey line = "marp".toList then
    { fm with Marp := decide (lineValue line = "true".toList) }
  else if lineKey line = "theme".toList then { fm with Theme := lineValue line }
  else if lineKey line = "paginate".toList then
    { fm with Paginate := decide (lineValue line = "true".toList) }
  else if lineKey line = "style".toList then { fm with Style := lineValue line }
  else { fm with Custom := mapSet fm.Custom (lineKey line) (lineValue line) }

/-- Whether a key is one of the recognised frontmatter keys other than `style`. -/
def isRecognisedKey (k : GoString) : Prop :=
  k = "marp".toList ∨ k = "theme".toList ∨ k = "paginate".toList

instance (k : GoString) : Decidable (isRecognisedKey k) := by
  unfold isRecognisedKey
  infer_instance

/-- The trimmed non-blank lines of a text. -/
def trimmedLines (s : GoString) : List GoString :=
  ((Split s '\n').map TrimSpace).filter (fun t => t ≠ [])

/-- Whether a line continues a multi-line style block: it is non-empty and starts
with a space or a tab. -/
def isIndented (sl : GoString) : Bool :=
  match sl with
  | c :: _ => c = ' ' ∨ c = '\t'
  | [] => false

/-- Whether a parsed fragment starts a new section in `buildDeck`: its `_class`
directive is `section-divider` or `lead`. -/
def startsSection (ps : parsedSlide) : Bool :=
  decide (mapIndex ps.directives "_class".toList = "section-divider".toList ∨
    mapIndex ps.directives "_class".toList = "lead".toList)

/-- The title of the section made of a run of fragments: derived from the first
fragment when it starts a section, and `default` otherwise. -/
def runTitle (run : List parsedSlide) : GoString :=
  match run.head? with
  | some ps => if startsSection ps then extractSectionTitle ps.content else "default".toList
  | none => "default".toList

/-- The groups that are complete when the grouping loop of `buildDeck` stops in
state `st`: the closed groups and the current one when it has slides. -/
def groupState.flush (st : groupState) : List sectionGroup :=
  if 0 < st.currentGroup.slides.length then st.groups ++ [st.currentGroup] else st.groups

/-- A list of section groups is well formed: every group has slides, is titled after
its first fragment, has no section-starting fragment after its first, and every
group but the first begins with a section-starting fragment. -/
def GoodGroups (gs : List sectionGroup) : Prop :=
  (∀ g ∈ gs, g.slides ≠ [] ∧ (∀ ps ∈ g.slides.tail, startsSection ps = false) ∧
    g.title = runTitle g.slides) ∧
  (∀ g ∈ gs.tail, ∀ ps ∈ g.slides.head?, startsSection ps = true)

/-- The invariant of the grouping loop of `buildDeck` after the fragments `pre`. -/
def GroupInv (st : groupState) (pre : List parsedSlide) : Prop :=
  GoodGroups st.groups ∧
  (∀ ps ∈ st.currentGroup.slides.tail, startsSection ps = false) ∧
  st.currentGroup.title = runTitle st.currentGroup.slides ∧
  (st.groups ≠ [] → st.currentGroup.slides ≠ [] ∧
    ∀ ps ∈ st.currentGroup.slides.head?, startsSection ps = true) ∧
  (st.groups.map (·.slides)).flatten ++ st.currentGroup.slides = pre

/-- The title that `buildDeck` gives the deck: that of the first slide of the first
section, when there is one. -/
def deckTitleOf (sections : List Section) : GoString :=
  match sections with
  | sec :: _ =>
    match sec.Slides with
    | first :: _ => first.Title
    | [] => []
  | [] => []

/-- A section was converted from a run of parsed fragments: it carries the title of
the run and one slide per fragment, in order. -/
def SectionOfRun (sec : Section) (run : List parsedSlide) : Prop :=
  sec.Title = runTitle run ∧
    List.Forall₂ (fun slide ps => ∃ i j, convertToSlide ps i j = some slide) sec.Slides run

/-- Whether a line belongs to a table: its trimmed text starts with `|`. -/
def isTableLine (l : GoString) : Bool :=
  HasPrefix (TrimSpace l) "|".toList

/-- Whether a line is a code fence line: its trimmed text starts with three
backticks. -/
def isFenceLine (line : GoString) : Bool :=
  HasPrefix (TrimSpace line) "```".toList

/-- Whether a line is a separator-like line: its trimmed text is `---`. -/
def isSeparatorLine (line : GoString) : Bool :=
  decide (TrimSpace line = "---".toList)

/-- Whether the position after the given lines is inside a fenced code block: an odd
number of them are fence lines. -/
def insideFence (before : List GoString) : Bool :=
  decide (before.countP isFenceLine % 2 = 1)

/-- The round trip of the reader and the writer: the deck parsed from a text, and
the deck parsed from what the writer emits for it. -/
def roundTrip (x : GoString) : Option (Deck × Deck) :=
  (Parse x).bind fun r1 =>
    r1.1.bind fun d1 =>
      (Encode d1).bind fun e =>
        (Parse e).bind fun r2 =>
          r2.1.bind fun d2 => some (d1, d2)

/-- Scan lines as `splitSlides` does, from fence state `b`: the fence state after the
lines, or `none` when a separator line is met outside a fence. -/
def fenceScan : Bool → List GoString → Option Bool
  | b, [] => some b
  | b, l :: ls =>
    let b' := if isFenceLine l then !b else b
    if !b' ∧ isSeparatorLine l then none else fenceScan b' ls

/-- A text has balanced code fences and no separator line outside them. -/
def fenceClosed (w : GoString) : Bool :=
  fenceScan false (Split w '\n') == some false

/-- The slide at position `j` of section `i` survives being written and read back on
its own: the text `writeSlide` emits is not blank, has balanced code fences and no
separator line outside them, and parses to a fragment that starts a section exactly
when the slide is the first of a section after the first; for the first slide of
the deck, the fragment also converts to a slide with the same title. -/
def slideRoundTrips (i j : Nat) (slide : Slide) : Bool :=
  match writeSlide slide with
  | none => false
  | some w =>
    match parseRawSlide w with
    | none => false
    | some ps =>
      decide (TrimSpace w ≠ []) && fenceClosed w &&
        (if j = 0 then decide (i = 0) || startsSection ps else !startsSection ps) &&
        (if i = 0 ∧ j = 0 then
          (convertToSlide ps 0 0).map (fun s => s.Title) == some slide.Title
         else true)

/-- All the slides of a list of slides, from position `j` of section `i` on, survive
being written and read back on their own. -/
def slidesRoundTrip (i : Nat) : Nat → List Slide → Bool
  | _, [] => true
  | j, slide :: rest => slideRoundTrips i j slide && slidesRoundTrip i (j + 1) rest

/-- All the slides of a list of sections, from section `i` on, survive being written
and read back on their own. -/
def sectionsRoundTrip : Nat → List Section → Bool
  | _, [] => true
  | i, sec :: rest => slidesRoundTrip i 0 sec.Slides && sectionsRoundTrip (i + 1) rest

/-- The header lines that `writeFrontmatter` writes between the fences. -/
def headerLines (deck : Deck) : List GoString :=
  ["marp: true".toList] ++
  (match deck.Theme with
   | some t => if t.Name ≠ [] then ["theme: ".toList ++ t.Name] else []
   | none => []) ++
  ["paginate: true".toList] ++
  (match deck.Theme with
   | some t =>
     if Theme.GetCustom (some t) "style".toList [] ≠ [] then
       "style: |".toList :: Split (Theme.GetCustom (some t) "style".toList []) '\n'
     else []
   | none => [])

/-- The frontmatter that the writer emits is read back as a frontmatter: no header
line contains a newline or starts with `---`, so that the closing fence is the first
`---` line. -/
def headerRoundTrips (deck : Deck) : Bool :=
  (headerLines deck).all fun l => !l.contains '\n' && !HasPrefix l "---".toList

/-- What the slide loops of `Encode` append to the builder for the slide texts `ws`,
from a state with the given flag `first`. -/
def encodeChunk : Bool → List GoString → GoString
  | _, [] => []
  | first, w :: rest =>
    (if first then [] else "\n---\n\n".toList) ++ w ++ encodeChunk false rest

/-- The text `f` is the text `w` up to white space around it: white space added in
front, white space removed at the end. -/
def Pad (f w : GoString) : Prop :=
  ∃ a core t, f = a ++ core ∧ w = core ++ t ∧
    (∀ c ∈ a, isSpace c = true) ∧ (∀ c ∈ t, isSpace c = true)

/-- The slide texts as they stand between the separator lines of the text of
`Encode`: the first after the prefix `p`, the others after a newline. -/
def padFrags : GoString → List GoString → List GoString
  | _, [] => []
  | p, w :: rest => (p ++ w) :: padFrags "\n".toList rest

/-- The list with the trailing white space of its last text removed. -/
def rtrimLast : List GoString → List GoString
  | [] => []
  | [w] => [List.rdropWhile isSpace w]
  | w :: w2 :: rest => w :: rtrimLast (w2 :: rest)

/-- A pattern item whose matching does not depend on the text around the match:
a character class, a repetition, an optional character or a capture parenthesis. -/
def RE.isPlain : RE → Bool
  | .chr _ => true
  | .star _ _ => true
  | .opt _ => true
  | .openGroup => true
  | .closeGroup => true
  | _ => false

/-- The result `r` of a match attempt at offset `pos` on the text `s` lies inside the
text: the end of the match and the offsets of the capture parentheses are between
`pos` and the end of the text, the parentheses not after the end of the match. -/
def MatchInside (pos : Nat) (s : GoString) (r : List Nat × Nat) : Prop :=
  pos ≤ r.2 ∧ r.2 ≤ pos + s.length ∧ ∀ m ∈ r.1, pos ≤ m ∧ m ≤ r.2

/-- The number of runs of a list of section-start flags: none without a fragment,
otherwise one and one more for every later fragment that starts a section. -/
def runCount (flags : List Bool) : Nat :=
  if flags = [] then 0 else 1 + flags.tail.count true

/-- The identifier `section-{i}` that `buildDeck` prints for the section at index
`i`. -/
def sectionID (i : Nat) : GoString :=
  "section-".toList ++ itoa i

/-- The identifier `s{i}-{j}` that `convertToSlide` prints for the slide at index `j`
of the section at index `i`. -/
def slideID (i j : Nat) : GoString :=
  "s".toList ++ itoa i ++ "-".toList ++ itoa j

/-- The sections, counted from index `i0`, and their slides carry the identifiers of
their positions. -/
def PositionalIDs (i0 : Nat) (secs : List Section) : Prop :=
  ∀ k sec, secs[k]? = some sec →
    sec.ID = sectionID (i0 + k) ∧
    ∀ j s, sec.Slides[j]? = some s → s.ID = slideID (i0 + k) j

/-- A raw fragment with the class `lead` and a two-column container. -/
def rawLeadColumns : GoString :=
  "<!-- _class: lead -->\n<div class=\"columns\"></div>".toList

/-- A raw fragment with the class `lead` and a title. -/
def rawLeadTitle : GoString :=
  "<!-- _class: lead -->\n# Welcome".toList

/-- A raw fragment without a class and with a two-column container. -/
def rawColumns : GoString :=
  "# Compare\n\n<div class=\"columns\"></div>".toList

/-! ### Lines of the content of a slide -/

/-- The block that the loop body of `parseSlideContent` appends for a line that is a
single-line construct other than a first- or second-level heading: a third-level
heading, a bullet, a numbered item, a quote or an image; `none` for any other
line. -/
def simpleBlock (line : GoString) : Option Block :=
  let trimmed := TrimSpace line
  if HasPrefix trimmed "```".toList ∨ isHTMLBlockStart trimmed ∨ trimmed = [] ∨
      HasPrefix trimmed "# ".toList ∨ HasPrefix trimmed "## ".toList then none
  else if HasPrefix trimmed "### ".toList then
    some (NewHeading (TrimPrefix trimmed "### ".toList) 3)
  else if HasPrefix trimmed "- ".toList ∨ HasPrefix trimmed "* ".toList then
    some (NewBullet (TrimSpace (trimmed.drop 2)) (countIndentLevel line))
  else if isNumberedItem trimmed then
    (extractNumberedText trimmed).map fun text => NewNumbered text (countIndentLevel line)
  else if HasPrefix trimmed "> ".toList then
    some (NewQuote (TrimPrefix trimmed "> ".toList))
  else if HasPrefix trimmed "![".toList then
    (parseImageLine trimmed).bind fun r =>
      if r.2 ≠ [] then some (NewImage r.2 r.1) else none
  else none

/-- A plain paragraph line: a non-blank line that opens no code fence, no HTML block
and no table and is no heading, list item, quote or image. -/
def isParagraphLine (line : GoString) : Bool :=
  let trimmed := TrimSpace line
  decide (trimmed ≠ []) && !HasPrefix trimmed "```".toList && !isHTMLBlockStart trimmed &&
    !HasPrefix trimmed "# ".toList && !HasPrefix trimmed "## ".toList &&
    (simpleBlock line).isNone && !HasPrefix trimmed "|".toList

/-- The effect of the loop body of `parseSlideContent` on the state for a line that
is met outside code and HTML blocks and opens no code fence, no HTML block and no
table. -/
def lineEffect (line : GoString) (st : contentState) : contentState :=
  let trimmed := TrimSpace line
  if trimmed = [] then st
  else if HasPrefix trimmed "# ".toList then
    if st.slide.Title = [] then
      { st with slide := { st.slide with Title := TrimPrefix trimmed "# ".toList } }
    else st.appendBody (NewHeading (TrimPrefix trimmed "# ".toList) 1)
  else if HasPrefix trimmed "## ".toList then
    if st.slide.Title = [] then
      { st with slide := { st.slide with Title := TrimPrefix trimmed "## ".toList } }
    else if st.slide.Subtitle = [] then
      { st with slide := { st.slide with Subtitle := TrimPrefix trimmed "## ".toList } }
    else st.appendBody (NewHeading (TrimPrefix trimmed "## ".toList) 2)
  else
    match simpleBlock line with
    | some b => st.appendBody b
    | none => { st with bodyLines := st.bodyLines ++ [trimmed] }

/-- A line that opens no code fence and no HTML block, and no table either. -/
def isRegularLine (line : GoString) : Bool :=
  let trimmed := TrimSpace line
  !HasPrefix trimmed "```".toList && !isHTMLBlockStart trimmed &&
    (decide (trimmed = []) || HasPrefix trimmed "# ".toList ||
      HasPrefix trimmed "## ".toList || (simpleBlock line).isSome ||
      !HasPrefix trimmed "|".toList)

/-- The level and the text of a line that is a heading of level 1 to 3. -/
def headingOf (line : GoString) : Option (Int × GoString) :=
  let trimmed := TrimSpace line
  if HasPrefix trimmed "# ".toList then some (1, TrimPrefix trimmed "# ".toList)
  else if HasPrefix trimmed "## ".toList then some (2, TrimPrefix trimmed "## ".toList)
  else if HasPrefix trimmed "### ".toList then some (3, TrimPrefix trimmed "### ".toList)
  else none

/-- The title among headings given with their levels: the text of the first heading
of level 1 or 2, and the empty text when there is none. -/
def headingsTitle (hs : List (Int × GoString)) : GoString :=
  ((hs.find? fun h => decide (h.1 ≤ 2)).map fun h => h.2).getD []

/-- The headings that come after the one that became the title. -/
def headingsAfterTitle (hs : List (Int × GoString)) : List (Int × GoString) :=
  (hs.dropWhile fun h => !decide (h.1 ≤ 2)).tail

/-- The subtitle among headings given with their levels: the text of the first
heading of level 2 after the title was set, and the empty text when there is none. -/
def headingsSubtitle (hs : List (Int × GoString)) : GoString :=
  (((headingsAfterTitle hs).find? fun h => decide (h.1 = 2)).map fun h => h.2).getD []

/-- The heading blocks among headings given with their levels: every heading that
became neither the title nor the subtitle, in order, with its own level. -/
def headingsBody (hs : List (Int × GoString)) : List Block :=
  ((hs.takeWhile fun h => !decide (h.1 ≤ 2)) ++
    ((headingsAfterTitle hs).takeWhile fun h => !decide (h.1 = 2)) ++
    ((headingsAfterTitle hs).dropWhile fun h => !decide (h.1 = 2)).tail).map
    fun h => NewHeading h.2 h.1

/-- The running depth of an HTML block after the given lines: the opening tags minus
the closing tags that `countHTMLOpens` and `countHTMLCloses` count, over the lines. -/
def htmlDepth (ls : List GoString) : Int :=
  (ls.map fun l => countHTMLOpens l - countHTMLCloses l).sum

/-- The effect of the loop body of `parseSlideContent` on the state for a heading
line, given the level and the text of the heading. -/
def headingEffect (h : Int × GoString) (st : contentState) : contentState :=
  if h.1 ≤ 2 ∧ st.slide.Title = [] then
    { st with slide := { st.slide with Title := h.2 } }
  else if h.1 = 2 ∧ st.slide.Subtitle = [] then
    { st with slide := { st.slide with Subtitle := h.2 } }
  else st.appendBody (NewHeading h.2 h.1)

/-- A content of headings: a second-level heading first, then headings of all three
levels and a blank line. -/
def headingsSample : GoString :=
  "## Intro\n# Main\n\n## Sub\n### Detail\n## More".toList

/-- A content with paragraph lines around a bullet and a quote. -/
def paragraphSample : GoString :=
  "First line\n- item\nSecond line\n\n> quoted\nThird line".toList

/-- The width of the indentation of a line: the number of spaces plus four times the
number of tabs in its leading run of spaces and tabs. -/
def indentWidth (line : GoString) : Nat :=
  (line.takeWhile fun c => c == ' ' || c == '\t').count ' ' +
    4 * (line.takeWhile fun c => c == ' ' || c == '\t').count '\t'

/-- The state of the loop of `parseSlideContent` inside an HTML block that holds the
first `k` lines of `ls`, for a slide that was not touched yet. -/
def htmlOpenState (slide : Slide) (ls : List GoString) (k : Nat) : contentState :=
  { slide := slide, inHTMLBlock := true, htmlBlockDepth := htmlDepth (ls.take k),
    htmlBlockLines := ls.take k }

/-- The state of the loop of `parseSlideContent` after it closed the HTML block that
holds the lines `ls`, for a slide that was not touched before. -/
def htmlClosedState (slide : Slide) (ls : List GoString) : contentState :=
  { slide := { slide with
      Body := slide.Body ++ [{ Kind := BlockParagraph, Text := Join ls "\n".toList }] },
    inHTMLBlock := false, htmlBlockDepth := htmlDepth ls, htmlBlockLines := [] }

/-- The lines of a nested HTML block. -/
def htmlSample : List GoString :=
  ["<div class=\"columns\">".toList, "<div>".toList, "# Not a title".toList,
   "- not a bullet".toList, "</div>".toList, "</div>".toList]

/-- A raw fragment of the tests: a directive comment followed by a title. -/
def rawDirective : GoString :=
  "<!-- _class: section-divider -->\n# Title".toList

/-- A raw fragment with a multi-line comment that holds a script, between a title
and a paragraph. -/
def rawScriptComment : GoString :=
  "# Title\n<!--\n<script>\nalert(1)\n</script>\n-->\ntext".toList

/-! ## `model/audio.go` and `model/diff.go` -/

def AudioSourceFile : GoString := "file".toList
def AudioSourceURL : GoString := "url".toList
def AudioSourceTTS : GoString := "tts".toList
def AudioSourceNotes : GoString := "notes".toList

/-- A value of the Go type `any` as the changes of a diff hold it: a string, an
integer or a boolean, or one of the values that `computeDiff` and `UpdateSlide` store:
a section, a slide or a list of blocks. -/
inductive GoValue where
  | str (s : GoString)
  | int (n : Int)
  | bool (b : Bool)
  | section (s : Section)
  | slide (s : Slide)
  | blocks (bs : List Block)
  deriving DecidableEq, Repr

/-- What the verb `%v` of package `fmt` prints for a value.  For a struct or a slice
of structs the text holds the addresses of the pointers that are set, which are no
part of this model: the result is `none` there. -/
def GoValue.format : GoValue → Option GoString
  | .str s => some s
  | .int n => some (if n < 0 then '-' :: itoa n.natAbs else itoa n.natAbs)
  | .bool b => some (if b then "true".toList else "false".toList)
  | .section _ => none
  | .slide _ => none
  | .blocks _ => none

/-- Go `model.ChangeOp`, a string type. -/
abbrev ChangeOp := GoString

def ChangeAdd : ChangeOp := "add".toList
def ChangeRemove : ChangeOp := "remove".toList
def ChangeUpdate : ChangeOp := "update".toList
def ChangeMove : ChangeOp := "move".toList

/-- Go `model.Change`; a value of type `any` that is `nil` is `none`. -/
structure Change where
  Op : ChangeOp := []
  Path : GoString := []
  SlideID : GoString := []
  SectionID : GoString := []
  OldValue : Option GoValue := none
  NewValue : Option GoValue := none
  deriving DecidableEq, Repr

/-- Go `model.Diff`. -/
structure Diff where
  DeckID : GoString := []
  Changes : List Change := []
  deriving DecidableEq, Repr

/-! ## Package `time`: how a `Duration` prints -/

/-- The loop of Go `time.fmtFrac`: it writes the digits of the fraction from the
right, leaving out the trailing zeros. -/
def fmtFrac.loop : Nat → Nat → Bool → GoString → GoString × Nat × Bool
  | 0, v, print, w => (w, v, print)
  | prec + 1, v, print, w =>
    let digit := v % 10
    let print := print || digit != 0
    let w := if print then Char.ofNat (digit + 48) :: w else w
    fmtFrac.loop prec (v / 10) print w

/-- Go `time.fmtFrac`: the text of the fraction `v / 10^prec`, with its decimal
point, and the integer part of the quotient. -/
def fmtFrac (v : Nat) (prec : Nat) : GoString × Nat :=
  let r := fmtFrac.loop prec v false []
  (if r.2.2 then '.' :: r.1 else r.1, r.2.1)

/-- Go `time.fmtInt`: the decimal digits of `v`. -/
def fmtInt (v : Nat) : GoString :=
  itoa v

/-- Go `time.Duration.String` for a duration given in nanoseconds, as the verb `%s`
prints it. -/
def Duration.String (d : Int) : GoString :=
  let u := d.natAbs
  let w : GoString :=
    if u < 1000000000 then
      if u = 0 then "0s".toList
      else if u < 1000 then fmtInt u ++ "ns".toList
      else if u < 1000000 then
        let r := fmtFrac u 3
        fmtInt r.2 ++ r.1 ++ "µs".toList
      else
        let r := fmtFrac u 6
        fmtInt r.2 ++ r.1 ++ "ms".toList
    else
      let r := fmtFrac u 9
      let u := r.2
      let w := fmtInt (u % 60) ++ r.1 ++ "s".toList
      let u := u / 60
      if 0 < u then
        let w := fmtInt (u % 60) ++ "m".toList ++ w
        let u := u / 60
        if 0 < u then fmtInt u ++ "h".toList ++ w else w
      else w
  if d < 0 ∧ u ≠ 0 then '-' :: w else w

/-! ## `format/toon.go`

Each function that writes to a `strings.Builder` is the text it writes. -/

/-- Go `format.TOONEncoder`. -/
structure TOONEncoder where
  indent : GoString := []
  deriving DecidableEq, Repr

/-- Go `NewTOONEncoder`. -/
def NewTOONEncoder : TOONEncoder :=
  { indent := "  ".toList }

/-- Go `(*TOONEncoder).encodeBlock`. -/
def TOONEncoder.encodeBlock (_e : TOONEncoder) (block : Block) : GoString :=
  if block.Kind = BlockBullet then
    let b := (List.range block.Level.toNat).foldl (fun b _ => b ++ "  ".toList) []
    b ++ "bullet ".toList ++ block.Text
  else if block.Kind = BlockNumbered then
    let b := (List.range block.Level.toNat).foldl (fun b _ => b ++ "  ".toList) []
    b ++ "numbered ".toList ++ block.Text
  else if block.Kind = BlockParagraph then
    "para ".toList ++ block.Text
  else if block.Kind = BlockCode then
    let b := "code ".toList
    let b := if block.Lang ≠ [] then b ++ block.Lang ++ " ".toList else b
    b ++ block.Text
  else if block.Kind = BlockImage then
    let b := "image ".toList ++ block.URL
    if block.Alt ≠ [] then b ++ " ".toList ++ block.Alt else b
  else if block.Kind = BlockQuote then
    "quote ".toList ++ block.Text
  else if block.Kind = BlockHeading then
    let b := "heading ".toList
    let b :=
      if 0 < block.Level then b ++ itoa block.Level.toNat ++ " ".toList else b
    b ++ block.Text
  else []

/-- Go `(*TOONEncoder).encodeAudio`. -/
def TOONEncoder.encodeAudio (_e : TOONEncoder) (a : Audio) : GoString :=
  let b := "audio ".toList ++ a.Source
  let b :=
    if a.Source = AudioSourceFile then b ++ " ".toList ++ a.Path
    else if a.Source = AudioSourceURL then b ++ " ".toList ++ a.URL
    else if a.Source = AudioSourceTTS then
      if a.Voice ≠ [] then b ++ " voice=".toList ++ a.Voice else b
    else if a.Source = AudioSourceNotes then
      if a.Voice ≠ [] then b ++ " voice=".toList ++ a.Voice else b
    else b
  if 0 < a.Duration then b ++ " duration=".toList ++ Duration.String a.Duration else b

/-- Go `(*TOONEncoder).encodeSlide`. -/
def TOONEncoder.encodeSlide (e : TOONEncoder) (s : Slide) : GoString :=
  let b := e.indent ++ "slide ".toList ++ s.ID ++ " ".toList ++ s.Layout ++ "\n".toList
  let indent2 := e.indent ++ e.indent
  let b :=
    if s.Title ≠ [] then b ++ indent2 ++ "title ".toList ++ s.Title ++ "\n".toList else b
  let b :=
    if s.Subtitle ≠ [] then b ++ indent2 ++ "subtitle ".toList ++ s.Subtitle ++ "\n".toList
    else b
  let b := s.Body.foldl
    (fun b block => b ++ indent2 ++ e.encodeBlock block ++ "\n".toList) b
  let b := s.Notes.foldl
    (fun b block => b ++ indent2 ++ "note ".toList ++ block.Text ++ "\n".toList) b
  let b :=
    match s.Audio with
    | some a => b ++ indent2 ++ e.encodeAudio a ++ "\n".toList
    | none => b
  match s.Transition with
  | some t => b ++ indent2 ++ "transition ".toList ++ t ++ "\n".toList
  | none => b

/-- Go `(*TOONEncoder).encodeSection`. -/
def TOONEncoder.encodeSection (e : TOONEncoder) (s : Section) : GoString :=
  let b := "section ".toList ++ s.ID
  let b := if s.Title ≠ [] then b ++ " ".toList ++ s.Title else b
  let b := b ++ "\n".toList
  let b :=
    match s.Audio with
    | some a => b ++ e.indent ++ e.encodeAudio a ++ "\n".toList
    | none => b
  s.Slides.foldl (fun b slide => b ++ e.encodeSlide slide) b

/-- Go `(*TOONEncoder).EncodeDeck`. -/
def TOONEncoder.EncodeDeck (e : TOONEncoder) (d : Deck) : GoString :=
  let b := "deck ".toList ++ d.Title ++ "\n".toList
  let b :=
    if d.Meta.Author ≠ [] then b ++ "meta author ".toList ++ d.Meta.Author ++ "\n".toList
    else b
  let b :=
    if d.Meta.Date ≠ [] then b ++ "meta date ".toList ++ d.Meta.Date ++ "\n".toList else b
  let b :=
    if d.Meta.Description ≠ [] then
      b ++ "meta description ".toList ++ d.Meta.Description ++ "\n".toList
    else b
  d.Sections.foldl (fun b sec => b ++ "\n".toList ++ e.encodeSection sec) b

/-- Go `(*TOONEncoder).encodeChange`: the text it writes; `none` when the text of
a value is outside the model. -/
def TOONEncoder.encodeChange (e : TOONEncoder) (c : Change) : Option GoString :=
  let b : GoString :=
    if c.Op = ChangeAdd then "+ ".toList
    else if c.Op = ChangeRemove then "- ".toList
    else if c.Op = ChangeUpdate then "~ ".toList
    else if c.Op = ChangeMove then "> ".toList
    else []
  let b := b ++ c.Path ++ "\n".toList
  (match c.OldValue with
   | some v => v.format.map fun t => b ++ e.indent ++ "- ".toList ++ t ++ "\n".toList
   | none => some b).bind fun b =>
  match c.NewValue with
  | some v => v.format.map fun t => b ++ e.indent ++ "+ ".toList ++ t ++ "\n".toList
  | none => some b

/-- Go `(*TOONEncoder).EncodeDiff`. -/
def TOONEncoder.EncodeDiff (e : TOONEncoder) (d : Diff) : Option GoString :=
  let b := "plan deck ".toList ++ d.DeckID ++ "\n".toList
  d.Changes.foldlM (fun b c => (e.encodeChange c).map fun t => b ++ t) b

/-! ### The texts of the writer, piece by piece -/

/-- The line `theme: <name>` of the frontmatter that the writer emits, present when
the deck has a theme with a non-empty name. -/
def themeLine (deck : Deck) : GoString :=
  match deck.Theme with
  | some t => if t.Name ≠ [] then "theme: ".toList ++ t.Name ++ "\n".toList else []
  | none => []

/-- The custom style of the theme of a deck, empty when there is none. -/
def customStyle (deck : Deck) : GoString :=
  Theme.GetCustom deck.Theme "style".toList []

/-- The literal block `style: |` with the lines of the custom style, present when
the style is not empty. -/
def styleBlock (deck : Deck) : GoString :=
  if customStyle deck ≠ [] then
    "style: |\n".toList ++ ((Split (customStyle deck) '\n').map (· ++ "\n".toList)).flatten
  else []

/-- The directive comments that open the text of a slide: the divider markers for
the layout `section`, the lead markers for the layout `title`, nothing otherwise. -/
def slideDirectives (layout : Layout) : GoString :=
  if layout = LayoutSection then
    "<!-- _class: section-divider -->\n<!-- _paginate: false -->\n\n".toList
  else if layout = LayoutTitle then
    "<!-- _class: lead -->\n<!-- _paginate: false -->\n\n".toList
  else []

/-- The one comment that holds the texts of the notes, one per line, present when
there are notes. -/
def slideNotes (notes : List Block) : GoString :=
  if notes ≠ [] then
    "<!--\n".toList ++ (notes.map fun n => n.Text ++ "\n".toList).flatten ++ "-->\n\n".toList
  else []

/-- The heading lines of a slide: `# <Title>` when the title is not empty,
`## <Subtitle>` when the subtitle is not empty, and a blank line after them when
there is one of them. -/
def slideHeadings (title subtitle : GoString) : GoString :=
  (if title ≠ [] then "# ".toList ++ title ++ "\n".toList else []) ++
  (if subtitle ≠ [] then "## ".toList ++ subtitle ++ "\n".toList else []) ++
  (if title ≠ [] ∨ subtitle ≠ [] then "\n".toList else [])

/-! ### The texts of the TOON encoder -/

/-- The marker that opens the line of a change. -/
def changeMarker (op : ChangeOp) : GoString :=
  if op = ChangeAdd then "+ ".toList
  else if op = ChangeRemove then "- ".toList
  else if op = ChangeUpdate then "~ ".toList
  else if op = ChangeMove then "> ".toList
  else []

/-- The indented line of an old or new value that is a string: the sign, the string
and a newline; nothing when the value is not set. -/
def valueLine (sign : GoString) : Option GoValue → GoString
  | some (.str s) => "  ".toList ++ sign ++ s ++ "\n".toList
  | _ => []

/-- Whether the values of a change are strings where they are set. -/
def Change.stringValues (c : Change) : Bool :=
  (match c.OldValue with
   | some (.str _) => true
   | some _ => false
   | none => true) &&
  (match c.NewValue with
   | some (.str _) => true
   | some _ => false
   | none => true)

/-- The diff of `TestTOONEncoderEncodeDiff`: an added slide, a removed slide, an
updated title and a moved slide. -/
def sampleDiff : Diff :=
  { DeckID := "deck123".toList,
    Changes := [
      { Op := ChangeAdd, Path := "sections/0/slides/0".toList,
        NewValue := some (.str "new slide".toList) },
      { Op := ChangeRemove, Path := "sections/1/slides/2".toList,
        OldValue := some (.str "old slide".toList) },
      { Op := ChangeUpdate, Path := "sections/0/slides/0/title".toList,
        OldValue := some (.str "Old Title".toList),
        NewValue := some (.str "New Title".toList) },
      { Op := ChangeMove, Path := "sections/0/slides/1".toList,
        NewValue := some (.str "sections/1/slides/0".toList) }] }

/-! ### Note texts -/

/-- The text of the first note of `sampleMarp`. -/
def noteSample : GoString :=
  "Welcome to the presentation.\n[PAUSE:1000]\nThis is the introduction.".toList

/-- A piece of a note text: plain text, a pause tag `[PAUSE:<digits>]`, or a break
tag `<break time="<digits>ms"/>` with the white space it has after `break` and
before the end of the tag, with or without the slash. -/
inductive NotePiece where
  | text (s : GoString)
  | pause (digits : GoString)
  | brk (ws1 digits ws2 : GoString) (slash : Bool)
  deriving DecidableEq, Repr

/-- The text of a piece. -/
def NotePiece.render : NotePiece → GoString
  | .text s => s
  | .pause d => "[PAUSE:".toList ++ d ++ "]".toList
  | .brk ws1 d ws2 slash =>
    "<break".toList ++ ws1 ++ "time=\"".toList ++ d ++ "ms\"".toList ++ ws2 ++
      (if slash then "/".toList else []) ++ ">".toList

/-- The text of a piece that is not a tag. -/
def NotePiece.plain : NotePiece → GoString
  | .text s => s
  | _ => []

/-- Whether a piece is a pause tag. -/
def NotePiece.isPause : NotePiece → Bool
  | .pause _ => true
  | _ => false

/-- Whether a piece is a break tag. -/
def NotePiece.isBreak : NotePiece → Bool
  | .brk _ _ _ _ => true
  | _ => false

/-- A plain piece holds no `[` and no `<`; the digits of a tag are ASCII digits, at
least one, and its white space is ASCII white space, at least one character after
`break`. -/
def NotePiece.wellFormed : NotePiece → Bool
  | .text s => s.all fun c => c != '[' && c != '<'
  | .pause d => !d.isEmpty && d.all reDigit
  | .brk ws1 d ws2 _ =>
    !ws1.isEmpty && ws1.all reSpace && !d.isEmpty && d.all reDigit && ws2.all reSpace

/-- The pattern `re`, tried on the text `s` after `pos` characters of a match, matches
up to offset `e`, whatever character stands before `s`. -/
def EndsAt (re : List RE) (s : GoString) (pos e : Nat) : Prop :=
  ∃ marks, ∀ prev, RE.run re prev s pos = some (marks, e)

/-- The pieces of the second note of `sampleMarp`. -/
def notePieces : List NotePiece :=
  [.text "Section 2: Architecture. ".toList, .brk " ".toList "600".toList [] true,
   .text "\nLet's explore the design.\n".toList, .pause "1500".toList]

/-! ### The lines of the TOON text of a deck -/

/-- Go `BlockKind.IsValid`. -/
def BlockKind.IsValid (k : BlockKind) : Bool :=
  k = BlockParagraph ∨ k = BlockBullet ∨ k = BlockNumbered ∨ k = BlockCode ∨
    k = BlockImage ∨ k = BlockQuote ∨ k = BlockHeading

/-- A line of TOON text: the number of spaces it is indented by and the text after
them. -/
structure ToonLine where
  indent : Nat := 0
  text : GoString := []
  deriving DecidableEq, Repr

/-- The line with its indentation, without the newline that ends it. -/
def ToonLine.render (l : ToonLine) : GoString :=
  List.replicate l.indent ' ' ++ l.text

/-- The line of a body block: four spaces, and two more per nesting level for a
bullet or a numbered item. -/
def blockLine (b : Block) : ToonLine :=
  if b.Kind = BlockBullet then
    { indent := 4 + 2 * b.Level.toNat, text := "bullet ".toList ++ b.Text }
  else if b.Kind = BlockNumbered then
    { indent := 4 + 2 * b.Level.toNat, text := "numbered ".toList ++ b.Text }
  else { indent := 4, text := NewTOONEncoder.encodeBlock b }

/-- The lines of a slide: the `slide` line with two spaces, then the title, subtitle,
body, note, audio and transition lines with four spaces. -/
def slideLines (s : Slide) : List ToonLine :=
  [{ indent := 2, text := "slide ".toList ++ s.ID ++ " ".toList ++ s.Layout }] ++
  (if s.Title ≠ [] then [{ indent := 4, text := "title ".toList ++ s.Title }] else []) ++
  (if s.Subtitle ≠ [] then [{ indent := 4, text := "subtitle ".toList ++ s.Subtitle }]
   else []) ++
  s.Body.map blockLine ++
  s.Notes.map (fun n => { indent := 4, text := "note ".toList ++ n.Text }) ++
  (match s.Audio with
   | some a => [{ indent := 4, text := NewTOONEncoder.encodeAudio a }]
   | none => []) ++
  (match s.Transition with
   | some t => [{ indent := 4, text := "transition ".toList ++ t }]
   | none => [])

/-- The lines of a section: the empty line in front of it, the `section` line without
indentation, the audio line of the section with two spaces, then the lines of its
slides. -/
def sectionLines (s : Section) : List ToonLine :=
  [{ indent := 0, text := [] },
   { indent := 0,
     text := "section ".toList ++ s.ID ++ (if s.Title ≠ [] then " ".toList ++ s.Title else []) }] ++
  (match s.Audio with
   | some a => [{ indent := 2, text := NewTOONEncoder.encodeAudio a }]
   | none => []) ++
  (s.Slides.map slideLines).flatten

/-- The lines of a deck: the `deck` line and the `meta` lines without indentation,
then the lines of its sections. -/
def deckLines (d : Deck) : List ToonLine :=
  [{ indent := 0, text := "deck ".toList ++ d.Title }] ++
  (if d.Meta.Author ≠ [] then [{ indent := 0, text := "meta author ".toList ++ d.Meta.Author }]
   else []) ++
  (if d.Meta.Date ≠ [] then [{ indent := 0, text := "meta date ".toList ++ d.Meta.Date }]
   else []) ++
  (if d.Meta.Description ≠ [] then
    [{ indent := 0, text := "meta description ".toList ++ d.Meta.Description }]
   else []) ++
  (d.Sections.map sectionLines).flatten

/-- The text fields of a block hold no newline. -/
def Block.noNewline (b : Block) : Bool :=
  decide ('\n' ∉ b.Text ∧ '\n' ∉ b.Lang ∧ '\n' ∉ b.URL ∧ '\n' ∉ b.Alt)

/-- The text fields of an audio attachment hold no newline. -/
def Audio.noNewline (a : Audio) : Bool :=
  decide ('\n' ∉ a.Source ∧ '\n' ∉ a.Path ∧ '\n' ∉ a.URL ∧ '\n' ∉ a.Voice)

/-- The text fields of a slide hold no newline. -/
def Slide.noNewline (s : Slide) : Bool :=
  decide ('\n' ∉ s.ID ∧ '\n' ∉ s.Layout ∧ '\n' ∉ s.Title ∧ '\n' ∉ s.Subtitle) &&
  s.Body.all Block.noNewline && s.Notes.all Block.noNewline &&
  (match s.Audio with
   | some a => a.noNewline
   | none => true) &&
  (match s.Transition with
   | some t => decide ('\n' ∉ t)
   | none => true)

/-- The text fields of a section hold no newline. -/
def Section.noNewline (s : Section) : Bool :=
  decide ('\n' ∉ s.ID ∧ '\n' ∉ s.Title) &&
  (match s.Audio with
   | some a => a.noNewline
   | none => true) &&
  s.Slides.all Slide.noNewline

/-- The text fields of a deck hold no newline. -/
def Deck.noNewline (d : Deck) : Bool :=
  decide ('\n' ∉ d.Title ∧ '\n' ∉ d.Meta.Author ∧ '\n' ∉ d.Meta.Date ∧
    '\n' ∉ d.Meta.Description) &&
  d.Sections.all Section.noNewline

/-- The kinds of all body blocks of a deck are kinds of the model. -/
def Deck.validKinds (d : Deck) : Bool :=
  d.Sections.all fun sec => sec.Slides.all fun s => s.Body.all fun b => BlockKind.IsValid b.Kind

/-- The keywords that open the lines of the TOON text of a deck. -/
def toonKeywords : List GoString :=
  ["deck".toList, "meta".toList, "section".toList, "slide".toList, "title".toList,
   "subtitle".toList, "bullet".toList, "numbered".toList, "para".toList, "code".toList,
   "image".toList, "quote".toList, "heading".toList, "note".toList, "audio".toList,
   "transition".toList]

/-- Whether a line, after its leading spaces, begins with one of the keywords. -/
def beginsWithKeyword (line : GoString) : Bool :=
  toonKeywords.any fun kw => HasPrefix (line.dropWhile (· == ' ')) kw

/-- The deck of `TestTOONEncoderEncodeBlocks`. -/
def blocksDeck : Deck :=
  { Title := "Test".toList,
    Sections := [
      { ID := "sec1".toList,
        Slides := [
          { ID := "s1".toList, Layout := LayoutTitleBody,
            Body := [
              NewBullet "First item".toList 0,
              NewBullet "Nested item".toList 1,
              NewNumbered "Numbered item".toList 0,
              NewParagraph "A paragraph".toList,
              NewCode "fmt.Println()".toList "go".toList,
              NewImage "https://example.com/img.png".toList "Example".toList,
              NewQuote "A quote".toList,
              NewHeading "Subheading".toList 2],
            Notes := [{ Text := "Speaker note".toList }] }] }] }

/-- A deck with one slide that holds a code block of two lines. -/
def codeDeck : Deck :=
  { Title := "Code".toList,
    Sections := [
      { ID := "section-0".toList, Title := "default".toList,
        Slides := [
          { ID := "s0-0".toList, Layout := LayoutTitleBody, Title := "Code".toList,
            Body := [NewCode "func main() \x7b\n\x7d".toList "go".toList] }] }] }

/-! ### Blocks through the writer and back -/

/-- The pattern `re`, tried on the text `s` after `pos` characters of a match, matches
up to offset `e` and passes the capture parentheses at the offsets `marks`, whatever
character stands before `s`. -/
def RunsTo (re : List RE) (s : GoString) (pos : Nat) (marks : List Nat) (e : Nat) : Prop :=
  ∀ prev, RE.run re prev s pos = some (marks, e)

/-- The block survives the writer and the reader: `writeBlock` emits a text for it,
and `parseSlideContent` reads that text into an empty slide as a body of this one
block, leaving the title and the subtitle empty. -/
def RoundTrips (b : Block) : Prop :=
  ∃ w, writeBlock b = some w ∧ parseSlideContent {} w = some { Body := [b] }

/-- What holds of the state of the loop of `parseSlideContent` at every line, when
the loop starts with an empty body: the blocks of the body are headings of a level
from 1 to 3 or survive the writer and the reader; the paragraph lines collected so
far are trimmed plain lines; inside a code block the language is what stood after the
fence on a trimmed line and no collected line opens a fence; inside an HTML block
the collected lines start with a line that opens an HTML block, hold no fence line,
and their running depth is the depth of the state and was positive after each of
them. -/
structure ContentInv (st : contentState) : Prop where
  body : ∀ b ∈ st.slide.Body,
    (b.Kind = BlockHeading ∧ 1 ≤ b.Level ∧ b.Level ≤ 3) ∨ RoundTrips b
  para : ∀ l ∈ st.bodyLines, isParagraphLine l = true ∧ TrimSpace l = l ∧ '\n' ∉ l
  code : st.inCodeBlock = true →
    TrimSpace ("```".toList ++ st.codeBlockLang) = "```".toList ++ st.codeBlockLang ∧
    '\n' ∉ st.codeBlockLang ∧
    ∀ l ∈ st.codeBlockLines, '\n' ∉ l ∧ HasPrefix (TrimSpace l) "```".toList = false
  html : st.inHTMLBlock = true →
    st.htmlBlockLines ≠ [] ∧
    (∀ l ∈ st.htmlBlockLines, '\n' ∉ l ∧ HasPrefix (TrimSpace l) "```".toList = false) ∧
    (∀ l ∈ st.htmlBlockLines.head?, isHTMLBlockStart (TrimSpace l) = true) ∧
    st.htmlBlockDepth = htmlDepth st.htmlBlockLines ∧
    ∀ k, 0 < k → k ≤ st.htmlBlockLines.length → 0 < htmlDepth (st.htmlBlockLines.take k)

/-- A content with a block of every kind: a bullet, a nested numbered item, a quote,
an image, a code block, an HTML block, a table and a paragraph of two lines. -/
def kindsSample : GoString :=
  "- a\n    2. b\n> q\n![alt](u.png)\n```go\nx := 1\n```\n<div>\nhi\n</div>\n| a | b |\n| 1 | 2 |\none\ntwo".toList

/-- The custom style of the deck parsed from the text `x` is empty, or it has the
shape of a literal block: each of its lines starts with a space or a tab, and it
does not end in white space. -/
def hasBlockStyle (x : GoString) : Bool :=
  match Parse x with
  | some (some d1, _) =>
    decide (customStyle d1 = []) ||
      ((Split (customStyle d1) '\n').all isIndented &&
        (customStyle d1).getLast?.all fun c => !isSpace c)
  | _ => false

/-- A document with a theme and a style given as a literal block. -/
def styledSample : GoString :=
  "---\nmarp: true\ntheme: corp\nstyle: |\n  h1 \x7b color: red; \x7d\n  p \x7b margin: 0; \x7d\n---\n\n# T\n".toList

/-- A document with a theme and a style given on the line of its key. -/
def inlineStyleSample : GoString :=
  "---\ntheme: a\nstyle: b\n---\n# T".toList

/-- A document with a theme and a one-line style that reads as a header line. -/
def themeStyleSample : GoString :=
  "---\ntheme: a\nstyle: theme: b\n---\n# T".toList

/-! ## `model/section.go` -/

/-- The value that an `int64` holds after an arithmetic operation with the exact
result `z`: the result modulo `2^64`, taken between `-2^63` and `2^63 - 1`. -/
def wrapInt64 (z : Int) : Int :=
  (z + 2 ^ 63) % 2 ^ 64 - 2 ^ 63

/-- The loop of `(*Section).TotalDuration` over the slides: it adds the duration of
every slide audio that is set and positive. -/
def Section.TotalDuration.slides (slides : List Slide) : Int :=
  slides.foldl (fun total slide =>
    match slide.Audio with
    | some a => if 0 < a.Duration then wrapInt64 (total + a.Duration) else total
    | none => total) 0

/-- Go `(*Section).TotalDuration`, in nanoseconds. -/
def Section.TotalDuration (s : Section) : Int :=
  match s.Audio with
  | some a =>
    if 0 < a.Duration then a.Duration else Section.TotalDuration.slides s.Slides
  | none => Section.TotalDuration.slides s.Slides

/-- The durations of the audio of the slides that count for the total of a section:
those that are set and positive, in order. -/
def positiveDurations (slides : List Slide) : List Int :=
  (slides.filterMap fun slide => slide.Audio.map fun a => a.Duration).filter fun d => 0 < d

/-- One minute as a `time.Duration`. -/
def minute : Int := 60000000000

/-- The first section of `TestSectionTotalDuration`: ten minutes of section audio over
slides of two and three minutes. -/
def sectionWithAudio : Section :=
  { Audio := some { Duration := 10 * minute },
    Slides := [{ Audio := some { Duration := 2 * minute } },
               { Audio := some { Duration := 3 * minute } }] }

/-- The second section of `TestSectionTotalDuration`: no section audio, slides of two
and three minutes. -/
def sectionWithSlideAudio : Section :=
  { Slides := [{ Audio := some { Duration := 2 * minute } },
               { Audio := some { Duration := 3 * minute } }] }

/-- A section whose audio is set without a duration, over a slide of two minutes. -/
def sectionAudioNoDuration : Section :=
  { Audio := some { Source := AudioSourceNotes },
    Slides := [{ Audio := some { Duration := 2 * minute } }] }

/-- A section without audio whose single slide has an audio of negative duration. -/
def sectionNegativeSlide : Section :=
  { Slides := [{ Audio := some { Duration := -minute } }] }

/-! ## Errors

An `error` made by `errors.New` is a pointer; the model identifies it by its text,
which tells the two sentinel errors of package `ops` apart. -/

/-- A Go `error`: made by `errors.New`, by `fmt.Errorf` without the verb `%w`, or by
`fmt.Errorf` with `%w` wrapping another error; each with its message. -/
inductive GoError where
  | new (text : GoString)
  | errorf (text : GoString)
  | wrap (text : GoString) (inner : GoError)
  deriving DecidableEq, Repr

/-- Go `error.Error()`: the message. -/
def GoError.Error : GoError → GoString
  | .new t => t
  | .errorf t => t
  | .wrap t _ => t

/-- Go `errors.Is`: whether the error is the target or wraps it. -/
def GoError.Is : GoError → GoError → Bool
  | .wrap t inner, target => decide (GoError.wrap t inner = target) || inner.Is target
  | e, target => decide (e = target)

/-- Go `ops.ErrSlideNotFound`. -/
def ErrSlideNotFound : GoError := .new "slide not found".toList

/-- Go `ops.ErrConfirmRequired`. -/
def ErrConfirmRequired : GoError :=
  .new "confirmation required: set confirm=true to apply changes".toList

/-! ## `model/diff.go` and `model/backend.go` -/

/-- Go `(*Diff).IsEmpty`. -/
def Diff.IsEmpty (d : Diff) : Bool :=
  d.Changes.length == 0

/-- Go `model.NewDiff`. -/
def NewDiff (deckID : GoString) : Diff :=
  { DeckID := deckID, Changes := [] }

/-- Go `(*Diff).AddChange`. -/
def Diff.AddChange (d : Diff) (c : Change) : Diff :=
  { d with Changes := d.Changes ++ [c] }

/-- Go `model.NewAddChange`. -/
def NewAddChange (path : GoString) (value : GoValue) : Change :=
  { Op := ChangeAdd, Path := path, NewValue := some value }

/-- Go `model.NewRemoveChange`. -/
def NewRemoveChange (path : GoString) (value : GoValue) : Change :=
  { Op := ChangeRemove, Path := path, OldValue := some value }

/-- Go `model.NewUpdateChange`. -/
def NewUpdateChange (path : GoString) (oldValue newValue : GoValue) : Change :=
  { Op := ChangeUpdate, Path := path, OldValue := some oldValue, NewValue := some newValue }

/-- Go `model.Ref`. -/
structure Ref where
  Backend : GoString := []
  ID : GoString := []
  Path : GoString := []
  deriving DecidableEq, Repr

/-- The methods `Read` and `Apply` of the Go interface `model.Backend`, over a world
`W` that holds what the backend stores: each takes the world and returns its results
with the world it leaves.  A `*Deck` or `*Diff` that is nil is `none`; a panic is
`none` for the whole result. -/
structure Backend (W : Type) where
  Read : W → Ref → Option ((Option Deck × Option GoError) × W)
  Apply : W → Ref → Option Diff → Option (Option GoError × W)

/-- Go `ops.Registry`: the map from backend names to backends. -/
structure Registry (W : Type) where
  backends : List (GoString × Backend W)

/-- Go `(*Registry).Get`. -/
def Registry.Get {W : Type} (r : Registry W) (name : GoString) :
    Option (Backend W) × Option GoError :=
  match r.backends.find? fun e => e.1 = name with
  | some e => (some e.2, none)
  | none => (none, some (.errorf ("unknown backend: ".toList ++ name)))

/-! ## Package `ops` -/

/-- Go `format.Format`, a string type. -/
abbrev Format := GoString

def FormatTOON : Format := "toon".toList
def FormatJSON : Format := "json".toList

/-- What the operations of package `ops` call that is not in the sources at hand:
`json.MarshalIndent` of the standard library on a deck pointer and on a slide, each
with the text and the error it returns, and the method `(*TOONEncoder).EncodeSlide`,
which the package `format` at hand does not hold. -/
structure Extern where
  marshalDeck : Option Deck → GoString × Option GoError
  marshalSlide : Slide → GoString × Option GoError
  EncodeSlide : Slide → GoString

/-- Go `ops.ReadOptions`. -/
structure ReadOptions where
  Format : Format := []
  deriving DecidableEq, Repr

/-- Go `ops.ReadResult`; the `*model.Deck` is `none` when nil. -/
structure ReadResult where
  Deck : Option Deck := none
  Output : GoString := []
  deriving DecidableEq, Repr

/-- Go `ops.encodeDeck`: the text and the error; `none` for the panic of the TOON
encoder on a nil deck. -/
def encodeDeck (x : Extern) (deck : Option Deck) (f : Format) :
    Option (GoString × Option GoError) :=
  if f = FormatJSON then
    let r := x.marshalDeck deck
    match r.2 with
    | some err => some ([], some err)
    | none => some (r.1, none)
  else
    deck.bind fun d => some (NewTOONEncoder.EncodeDeck d, none)

/-- Go `ops.ReadDeck`: the result, the error and the world that the backend leaves;
`none` for a panic. -/
def ReadDeck {W : Type} (x : Extern) (reg : Registry W) (w : W) (ref : Ref)
    (opts : ReadOptions) : Option ((Option ReadResult × Option GoError) × W) :=
  match reg.Get ref.Backend with
  | (_, some err) => some ((none, some err), w)
  | (none, none) => none
  | (some backend, none) =>
    (backend.Read w ref).bind fun r =>
      match r.1.2 with
      | some err => some ((none, some err), r.2)
      | none =>
        (encodeDeck x r.1.1 opts.Format).bind fun out =>
          match out.2 with
          | some err => some ((none, some err), r.2)
          | none => some ((some { Deck := r.1.1, Output := out.1 }, none), r.2)

/-- Go `ops.GetSlideResult`; the `*model.Slide` is the slide it points at. -/
structure GetSlideResult where
  Slide : Slide
  Output : GoString := []
  deriving DecidableEq, Repr

/-- Go `ops.encodeSlide`. -/
def encodeSlide (x : Extern) (slide : Slide) (f : Format) : GoString × Option GoError :=
  if f = FormatJSON then
    let r := x.marshalSlide slide
    match r.2 with
    | some err => ([], some err)
    | none => (r.1, none)
  else (x.EncodeSlide slide, none)

/-- The error `fmt.Errorf("%w: %s", ErrSlideNotFound, slideID)`. -/
def slideNotFound (slideID : GoString) : GoError :=
  .wrap (ErrSlideNotFound.Error ++ ": ".toList ++ slideID) ErrSlideNotFound

/-- Go `ops.GetSlide`: the result, the error and the world that the backend leaves;
`none` for a panic. -/
def GetSlide {W : Type} (x : Extern) (reg : Registry W) (w : W) (ref : Ref)
    (slideID : GoString) (f : Format) : Option ((Option GetSlideResult × Option GoError) × W) :=
  (ReadDeck x reg w ref {}).bind fun r =>
    match r.1.2 with
    | some err => some ((none, some err), r.2)
    | none =>
      r.1.1.bind fun result =>
      result.Deck.bind fun deck =>
        match deck.FindSlide slideID with
        | none => some ((none, some (slideNotFound slideID)), r.2)
        | some p =>
          (deck.slideAt p).bind fun slide =>
            let out := encodeSlide x slide f
            match out.2 with
            | some err => some ((none, some err), r.2)
            | none => some ((some { Slide := slide, Output := out.1 }, none), r.2)

/-- Go `ops.ApplyOptions`. -/
structure ApplyOptions where
  Confirm : Bool := false
  deriving DecidableEq, Repr

/-- Go `ops.ApplyResult`. -/
structure ApplyResult where
  Applied : Bool := false
  Message : GoString := []
  deriving DecidableEq, Repr

/-- Go `ops.ApplyChanges`: the result, the error and the world that the backend
leaves; `none` for a panic.  The `*model.Diff` is `none` when nil. -/
def ApplyChanges {W : Type} (reg : Registry W) (w : W) (ref : Ref) (diff : Option Diff)
    (opts : ApplyOptions) : Option ((Option ApplyResult × Option GoError) × W) :=
  if !opts.Confirm then
    some ((some { Applied := false, Message := "Set confirm=true to apply changes".toList },
      some ErrConfirmRequired), w)
  else
    diff.bind fun d =>
      if d.IsEmpty then
        some ((some { Applied := false, Message := "No changes to apply".toList }, none), w)
      else
        match reg.Get ref.Backend with
        | (_, some err) => some ((none, some err), w)
        | (none, none) => none
        | (some backend, none) =>
          (backend.Apply w ref diff).bind fun r =>
            match r.1 with
            | some err => some ((none, some err), r.2)
            | none =>
              some ((some { Applied := true,
                            Message := "Changes applied successfully".toList }, none), r.2)

/-- Go `ops.UpdateSlideOptions`. -/
structure UpdateSlideOptions where
  Confirm : Bool := false
  deriving DecidableEq, Repr

/-- Go `ops.UpdateSlideResult`. -/
structure UpdateSlideResult where
  Updated : Bool := false
  Message : GoString := []
  deriving DecidableEq, Repr

/-- The part of `ops.UpdateSlide` that builds the diff from the current slide and
the updates: a change for the title and for the subtitle when the update is not
empty and differs, and for the body and the notes when the update is not empty. -/
def UpdateSlide.changes (deckID slideID : GoString) (currentSlide updates : Slide) : Diff :=
  let diff := NewDiff deckID
  let diff :=
    if updates.Title ≠ [] ∧ updates.Title ≠ currentSlide.Title then
      diff.AddChange (NewUpdateChange ("slides/".toList ++ slideID ++ "/title".toList)
        (.str currentSlide.Title) (.str updates.Title))
    else diff
  let diff :=
    if updates.Subtitle ≠ [] ∧ updates.Subtitle ≠ currentSlide.Subtitle then
      diff.AddChange (NewUpdateChange ("slides/".toList ++ slideID ++ "/subtitle".toList)
        (.str currentSlide.Subtitle) (.str updates.Subtitle))
    else diff
  let diff :=
    if 0 < updates.Body.length then
      diff.AddChange (NewUpdateChange ("slides/".toList ++ slideID ++ "/body".toList)
        (.blocks currentSlide.Body) (.blocks updates.Body))
    else diff
  if 0 < updates.Notes.length then
    diff.AddChange (NewUpdateChange ("slides/".toList ++ slideID ++ "/notes".toList)
      (.blocks currentSlide.Notes) (.blocks updates.Notes))
  else diff

/-- Go `ops.UpdateSlide`: the result, the error and the world that the backends
leave; `none` for a panic.  The `*model.Slide` of the updates is `none` when nil.
The assignments to the fields of the current slide change the deck that was read,
which is not used again, and are left out. -/
def UpdateSlide {W : Type} (x : Extern) (reg : Registry W) (w : W) (ref : Ref)
    (slideID : GoString) (updates : Option Slide) (opts : UpdateSlideOptions) :
    Option ((Option UpdateSlideResult × Option GoError) × W) :=
  if !opts.Confirm then
    some ((some { Updated := false, Message := "Set confirm=true to apply changes".toList },
      some ErrConfirmRequired), w)
  else
    (ReadDeck x reg w ref {}).bind fun r =>
      match r.1.2 with
      | some err => some ((none, some err), r.2)
      | none =>
        r.1.1.bind fun readResult =>
        readResult.Deck.bind fun deck =>
          match deck.FindSlide slideID with
          | none => some ((none, some (slideNotFound slideID)), r.2)
          | some p =>
            (deck.slideAt p).bind fun currentSlide =>
            updates.bind fun upd =>
              let diff := UpdateSlide.changes deck.ID slideID currentSlide upd
              if diff.IsEmpty then
                some ((some { Updated := false, Message := "No changes to apply".toList },
                  none), r.2)
              else
                match reg.Get ref.Backend with
                | (_, some err) => some ((none, some err), r.2)
                | (none, none) => none
                | (some backend, none) =>
                  (backend.Apply r.2 ref (some diff)).bind fun a =>
                    match a.1 with
                    | some err => some ((none, some err), a.2)
                    | none =>
                      some ((some { Updated := true,
                                    Message := "Slide ".toList ++ slideID ++
                                      " updated successfully".toList }, none), a.2)

/-! ## `backends/marp/backend.go` -/

/-- A Go map with string keys, as the list of its entries. -/
abbrev GoMapOf (α : Type) := List (GoString × α)

/-- The map index expression `v, ok := m[k]`. -/
def goMapGet {α : Type} (m : GoMapOf α) (k : GoString) : Option α :=
  (m.find? fun e => e.1 = k).map Prod.snd

/-- The map assignment `m[k] = v`. -/
def goMapSet {α : Type} (m : GoMapOf α) (k : GoString) (v : α) : GoMapOf α :=
  (k, v) :: m.filter fun e => e.1 ≠ k

/-- Go `compareSectionSlides`: the diff with the changes it adds. -/
def compareSectionSlides (diff : Diff) (current desired : Section) : Diff :=
  let currentSlides : GoMapOf Slide :=
    current.Slides.foldl (fun m s => goMapSet m s.ID s) []
  desired.Slides.foldl (fun diff ds =>
    match goMapGet currentSlides ds.ID with
    | none =>
      diff.AddChange (NewAddChange
        ("sections/".toList ++ current.ID ++ "/slides/".toList ++ ds.ID) (.slide ds))
    | some cs =>
      if cs.Title ≠ ds.Title then
        diff.AddChange (NewUpdateChange
          ("sections/".toList ++ current.ID ++ "/slides/".toList ++ ds.ID ++ "/title".toList)
          (.str cs.Title) (.str ds.Title))
      else diff) diff

/-- Go `computeDiff`. -/
def computeDiff (current desired : Deck) : Diff :=
  let diff := NewDiff current.ID
  let diff :=
    if current.Title ≠ desired.Title then
      diff.AddChange (NewUpdateChange "title".toList (.str current.Title) (.str desired.Title))
    else diff
  let currentSections : GoMapOf Section :=
    current.Sections.foldl (fun m s => goMapSet m s.ID s) []
  let diff := desired.Sections.foldl (fun diff ds =>
    match goMapGet currentSections ds.ID with
    | none => diff.AddChange (NewAddChange ("sections/".toList ++ ds.ID) (.section ds))
    | some cs => compareSectionSlides diff cs ds) diff
  let desiredSections : GoMapOf Bool :=
    desired.Sections.foldl (fun m s => goMapSet m s.ID true) []
  current.Sections.foldl (fun diff s =>
    if !(goMapGet desiredSections s.ID).getD false then
      diff.AddChange (NewRemoveChange ("sections/".toList ++ s.ID) (.section s))
    else diff) diff

/-- Go `applyDiff`: the deck after the changes. -/
def applyDiff (deck : Deck) (diff : Diff) : Deck :=
  diff.Changes.foldl (fun deck change =>
    if change.Op = ChangeUpdate then
      if change.Path = "title".toList then
        match change.NewValue with
        | some (.str v) => { deck with Title := v }
        | _ => deck
      else deck
    else deck) deck

/-- The files that the Marp backend reads and writes: the map from paths to
contents.  Reading a path that is not there fails; writing succeeds. -/
abbrev FileSystem := GoMap

/-- The error of `os.ReadFile` on a path that is not there. -/
def noSuchFile (path : GoString) : GoError :=
  .errorf ("open ".toList ++ path ++ ": no such file or directory".toList)

/-- Go `(*Reader).ReadFile`; `none` for a panic. -/
def ReadFile (fs : FileSystem) (path : GoString) : Option (Option Deck × Option GoError) :=
  match mapGet fs path with
  | none =>
    some (none, some (.wrap ("reading file ".toList ++ path ++ ": ".toList ++
      (noSuchFile path).Error) (noSuchFile path)))
  | some data =>
    (Parse data).bind fun r =>
      some (r.1, r.2.map fun msg => GoError.errorf msg)

/-- Go `(*Reader).Read`. -/
def Read (fs : FileSystem) (ref : Ref) : Option (Option Deck × Option GoError) :=
  if ref.Path = [] then
    some (none, some (.errorf "marp backend requires a file path".toList))
  else ReadFile fs ref.Path

/-- Go `(*Writer).WriteFile`: the error and the files after the call; `none` for a
panic of `Encode`. -/
def WriteFile (fs : FileSystem) (deck : Deck) (path : GoString) :
    Option (Option GoError × FileSystem) :=
  (Encode deck).bind fun content => some (none, mapSet fs path content)

/-- Go `(*Backend).Apply` of the Marp backend: the error and the files after the
call; `none` for a panic. -/
def marpApply (fs : FileSystem) (ref : Ref) (diff : Option Diff) :
    Option (Option GoError × FileSystem) :=
  diff.bind fun d =>
    if d.IsEmpty then some (none, fs)
    else
      (ReadFile fs ref.Path).bind fun r =>
        match r.2 with
        | some err =>
          some (some (.wrap ("reading current deck: ".toList ++ err.Error) err), fs)
        | none =>
          r.1.bind fun current => WriteFile fs (applyDiff current d) ref.Path

/-- The Marp backend as a backend over its files. -/
def marpBackend : Backend FileSystem where
  Read := fun fs ref => (Read fs ref).map fun r => (r, fs)
  Apply := marpApply

/-- The deck of `TestDeckFindSlide`: the slides `s1` and `s2` in a first section and
the slide `s3` in a second one. -/
def findSlideDeck : Deck :=
  { Sections := [{ Slides := [{ ID := "s1".toList }, { ID := "s2".toList }] },
                 { Slides := [{ ID := "s3".toList }] }] }

/-- Stand-ins for the functions outside the sources at hand, for examples that do
not reach them: they return empty texts. -/
def sampleExtern : Extern where
  marshalDeck := fun _ => ([], none)
  marshalSlide := fun _ => ([], none)
  EncodeSlide := fun _ => []

/-- The registry with the Marp backend under the name `marp`. -/
def marpRegistry : Registry FileSystem :=
  { backends := [("marp".toList, marpBackend)] }

/-- The files of `TestApplyChangesRequiresConfirm`: one Marp file with a title. -/
def sampleFiles : FileSystem :=
  [("apply.md".toList, "---\nmarp: true\n---\n\n# Test\n".toList)]

/-- The reference to the file of `sampleFiles`. -/
def sampleRef : Ref :=
  { Backend := "marp".toList, Path := "apply.md".toList }

/-- The diff of `TestApplyChangesRequiresConfirm`: an update of the title. -/
def titleDiff : Diff :=
  (NewDiff "test".toList).AddChange
    (NewUpdateChange "title".toList (.str "Test".toList) (.str "New Title".toList))

/-- The parsed fragment of a raw slide with the directive `_class: lead` whose
heading is the word `default`. -/
def fragmentLeadDefault : parsedSlide :=
  { directives := [("_class".toList, "lead".toList)], content := "# default".toList,
    rawContent := "<!-- _class: lead -->\n# default".toList }

/-- The parsed fragment of a raw slide with the directive `_class: lead` with a
first-level and a second-level heading. -/
def fragmentLeadTwo : parsedSlide :=
  { directives := [("_class".toList, "lead".toList)],
    content := "# Part 2\n## Design".toList,
    rawContent := "<!-- _class: lead -->\n# Part 2\n## Design".toList }

/-- The diff of one change that adds a section. -/
def addSectionDiff : Diff :=
  (NewDiff "test".toList).AddChange (NewAddChange "sections/new".toList (.section {}))

/-- The lines of a frontmatter with a style block of two lines before a theme. -/
def styleBlockLines : List GoString :=
  ["marp: true".toList, "style: |".toList, "  a".toList, "  b".toList, "theme: x".toList]

/-- The lines of a slide with a table of three lines between two paragraphs. -/
def tableLines : List GoString :=
  ["before".toList, "| a | b |".toList, "|---|---|".toList, "| 1 | 2 |".toList,
   "after".toList]

/-- Three fragments: a heading with surrounding blank lines, a code block that holds
a line `---`, and a list. -/
def joinSample : List GoString :=
  ["\n# One\n".toList, "```\na\n---\nb\n```".toList, "  - x\n  - y  ".toList]

/-- A deck of two sections with the identifiers `a` and `b`, whose slides carry
identifiers that are distinct within each section and shared across them. -/
def twoSectionDeck : Deck :=
  { ID := "deck".toList, Title := "Two".toList,
    Sections := [{ ID := "a".toList, Slides := [{ ID := "1".toList, Title := "x".toList },
                                                { ID := "2".toList, Title := "y".toList }] },
                 { ID := "b".toList, Slides := [{ ID := "1".toList, Title := "z".toList }] }] }

/-- Whether a block has only the fields of its kind set: a bullet or numbered
block no language, URL or alternative text and a level that is not negative; a code
block the level 0 and no URL or alternative text; an image block no text, no
language and the level 0; a paragraph or quote block nothing but its text; a heading
block nothing but its text and a level from 1 to 3.  A block of another kind does
not qualify. -/
def Block.fieldsOfKind (b : Block) : Bool :=
  if b.Kind = BlockBullet ∨ b.Kind = BlockNumbered then
    decide (b.Lang = [] ∧ b.URL = [] ∧ b.Alt = [] ∧ 0 ≤ b.Level)
  else if b.Kind = BlockCode then
    decide (b.Level = 0 ∧ b.URL = [] ∧ b.Alt = [])
  else if b.Kind = BlockImage then
    decide (b.Text = [] ∧ b.Lang = [] ∧ b.Level = 0)
  else if b.Kind = BlockParagraph ∨ b.Kind = BlockQuote then
    decide (b.Level = 0 ∧ b.Lang = [] ∧ b.URL = [] ∧ b.Alt = [])
  else if b.Kind = BlockHeading then
    decide (1 ≤ b.Level ∧ b.Level ≤ 3 ∧ b.Lang = [] ∧ b.URL = [] ∧ b.Alt = [])
  else false

/-- The invariant of the line loop of `parseSlideContent` for the fields of the
blocks: every block of the body has the fields of its kind, and the notes of the
slide are the given ones. -/
def BodyFields (notes : List Block) (st : contentState) : Prop :=
  (∀ b ∈ st.slide.Body, b.fieldsOfKind = true) ∧ st.slide.Notes = notes

/-- The end of `parseSlideContent`, after the line loop: the paragraph lines that are
left over become a last paragraph of the body; what the state holds of a code block
or an HTML block that was not closed is dropped. -/
def contentState.flushBody (st : contentState) : Slide :=
  if 0 < st.bodyLines.length then
    let text := Join st.bodyLines "\n".toList
    if text ≠ [] then { st.slide with Body := st.slide.Body ++ [NewParagraph text] }
    else st.slide
  else st.slide

/-- The line loop of `parseSlideContent` over the given lines gets from line `i` in
one state to line `j` in another: by no iteration, or by the iteration at line `i`,
which leaves the index `m`, and the iterations from line `m + 1` on. -/
inductive Reaches (lines : List GoString) : Nat → contentState → Nat → contentState → Prop
  | refl (i : Nat) (st : contentState) : Reaches lines i st i st
  | step (i m j : Nat) (st st1 st2 : contentState) :
      i < lines.length →
      parseSlideContent.step lines (i : Int) st = some ((m : Int), st1) →
      Reaches lines (m + 1) st1 j st2 → Reaches lines i st j st2

/-- The lines after the opening line of an HTML block that the block does not
accumulate, when the block is not closed by the end: scanning the lines as the loop
of `parseSlideContent` does, from inside a code block or not and from a depth of the
HTML block, the fence lines and the lines inside code blocks are kept and the other
lines add their opening tags to the depth and take their closing tags from it.  The
result is `none` when the depth is no longer positive after one of those lines,
which closes the block. -/
def htmlUnclosed : Bool → Int → List GoString → Option (List GoString)
  | _, _, [] => some []
  | inCode, d, l :: ls =>
    if isFenceLine l then (htmlUnclosed (!inCode) d ls).map fun kept => l :: kept
    else if inCode then (htmlUnclosed inCode d ls).map fun kept => l :: kept
    else
      if d + countHTMLOpens l - countHTMLCloses l ≤ 0 then none
      else htmlUnclosed false (d + countHTMLOpens l - countHTMLCloses l) ls

/-- A content that ends inside a code block: a title and a paragraph line, then a
fence line that is never closed, followed by two lines. -/
def unclosedCode : GoString :=
  "# T\nintro\n```go\nx := 1\n# not a heading".toList

/-- The state of the loop of `parseSlideContent` after the two lines before the fence
line of `unclosedCode`. -/
def beforeCode : contentState :=
  { slide := { Title := "T".toList }, bodyLines := ["intro".toList] }

/-- A content that ends inside an HTML block: a title, then an opening `div` that is
never closed, followed by a list item, a code block and a heading. -/
def unclosedHTML : GoString :=
  "# T\n<div class=\"a\">\n- item\n```\ncode\n```\n# late".toList

/-- The state of the loop of `parseSlideContent` after the line before the opening
line of the block of `unclosedHTML`. -/
def beforeHTML : contentState :=
  { slide := { Title := "T".toList } }

/-! ## What a parsed deck needs to survive the writer and the reader -/

/-- The slide without its layout: `writeSlide` emits for it what it emits for the
slide after the directive lines, that is the comment of the notes, the title, the
subtitle and the blocks. -/
def Slide.noLayout (s : Slide) : Slide :=
  { s with Layout := [] }

/-- The slide without its layout and its notes: `writeSlide` emits for it what it
emits for the slide after the directive lines and the comment of the notes, that is
the title, the subtitle and the blocks. -/
def Slide.noNotes (s : Slide) : Slide :=
  { s with Layout := [], Notes := [] }

/-! ### The flags of the line loop of `parseSlideContent`

Whether a line can set the title depends on the state of the loop through its flags
only: inside a code block or an HTML block no line is read as a heading. -/

/-- The flags of the loop of `parseSlideContent`: whether it is inside a code block,
and the depth of the HTML block it is inside of, if any. -/
abbrev scanState := Bool × Option Int

/-- The flags of a state of the loop. -/
def flagsOf (st : contentState) : scanState :=
  (st.inCodeBlock, if st.inHTMLBlock then some st.htmlBlockDepth else none)

/-- The depth of an HTML block, as a flag: none when the block is closed. -/
def openDepth (d : Int) : Option Int :=
  if d ≤ 0 then none else some d

/-- What the loop body of `parseSlideContent` does to the flags at a line: a fence
line opens or closes a code block; inside a code block nothing changes; outside an
HTML block a line that starts one opens it, unless it closes it again; inside an
HTML block the line adds its opening tags to the depth and takes its closing tags
from it; any other line leaves the flags alone. -/
def scanLine (f : scanState) (line : GoString) : scanState :=
  if isFenceLine line then (!f.1, f.2)
  else if f.1 then f
  else
    match f.2 with
    | some d => (false, openDepth (d + countHTMLOpens line - countHTMLCloses line))
    | none =>
      if isHTMLBlockStart (TrimSpace line) then
        (false, openDepth (1 + (countHTMLOpens line - 1) - countHTMLCloses line))
      else f

/-- The flags after the given lines. -/
def scanLines (f : scanState) (ls : List GoString) : scanState :=
  ls.foldl scanLine f

/-- Whether a line begins, after white space, with `# ` or `## `. -/
def isTitleLine (line : GoString) : Bool :=
  HasPrefix (TrimSpace line) "# ".toList || HasPrefix (TrimSpace line) "## ".toList

/-- Whether the loop body reads the line as a heading of the first or second level:
the line is no fence line, the loop is outside code and HTML blocks, the line starts
no HTML block, and it begins with `# ` or `## `. -/
def titleMet (f : scanState) (line : GoString) : Bool :=
  !isFenceLine line && !f.1 && f.2.isNone && !isHTMLBlockStart (TrimSpace line) &&
    isTitleLine line

/-- No line of the list is read as a heading of the first or second level, from
the given flags on. -/
def titleFree : scanState → List GoString → Bool
  | _, [] => true
  | f, l :: ls => !titleMet f l && titleFree (scanLine f l) ls

/-- Lines that are read, outside code and HTML blocks, without a heading of the first
or second level among them and that leave the loop outside code and HTML blocks. -/
def InertLines (ls : List GoString) : Prop :=
  (∀ l ∈ ls, '\n' ∉ l) ∧ titleFree (false, none) ls = true ∧
    scanLines (false, none) ls = (false, none)

/-- A block that the writer emits as inert lines, each ended by a newline. -/
def InertBlock (b : Block) : Prop :=
  ∃ ls : List GoString,
    writeBlock b = some (ls.map fun l => l ++ "\n".toList).flatten ∧ InertLines ls

/-- What the first slide of a deck needs for its title to be read back: the texts of
its notes, one per line, hold no `-->`, and the text emitted for its title, subtitle
and blocks holds no note comment (the pattern of notes matches nowhere in it). -/
def titleSurvives (slide : Slide) : Bool :=
  match writeSlide slide.noNotes with
  | some t =>
    !Contains (Join (slide.Notes.map fun n => n.Text) "\n".toList) "-->".toList &&
      (FindAllStringSubmatch reNoteBlock t).isEmpty
  | none => false

/-- What the slide at position `j` of section `i` needs for the text that is written
for it to be read back as one fragment at the same place in the sections: the text
`writeSlide` emits is not blank, has balanced code fences and no separator line
outside them; the text emitted after the directive lines holds no directive comment
(the pattern of directives matches nowhere in it); the first slide of a section
after the first has the layout `section` or `title`, for which the writer emits the
class directive; and the first slide of the deck meets `titleSurvives`. -/
def slideSurvives (i j : Nat) (slide : Slide) : Bool :=
  match writeSlide slide, writeSlide slide.noLayout with
  | some w, some r =>
    decide (TrimSpace w ≠ []) && fenceClosed w &&
      (FindAllStringSubmatch reDirective r).isEmpty &&
      (decide (j ≠ 0 ∨ i = 0) ||
        decide (slide.Layout = LayoutSection ∨ slide.Layout = LayoutTitle)) &&
      (decide (i ≠ 0 ∨ j ≠ 0) || titleSurvives slide)
  | _, _ => false

/-- All the slides of a list, from position `j` of section `i` on, meet
`slideSurvives`. -/
def slidesSurvive (i : Nat) : Nat → List Slide → Bool
  | _, [] => true
  | j, slide :: rest => slideSurvives i j slide && slidesSurvive i (j + 1) rest

/-- All the slides of a list of sections, from section `i` on, meet
`slideSurvives`. -/
def sectionsSurvive : Nat → List Section → Bool
  | _, [] => true
  | i, sec :: rest => slidesSurvive i 0 sec.Slides && sectionsSurvive (i + 1) rest

/-- What a deck needs to survive the writer and the reader: the header lines that the
writer emits are read back as a frontmatter, and every slide meets `slideSurvives` at
its position. -/
def deckSurvives (d : Deck) : Bool :=
  headerRoundTrips d && sectionsSurvive 0 d.Sections

/-- A slide without title has no subtitle and a body of inert blocks. -/
def bodyInert (slide : Slide) : Prop :=
  slide.Title = [] → slide.Subtitle = [] ∧ ∀ b ∈ slide.Body, InertBlock b

/-- What the title, the notes and the body of a slide that the reader returns are
like: the title, when there is one, is a single line that does not end in white
space; the text of every note is not empty and has no white space around it; and a
slide without title has no subtitle and a body of inert blocks. -/
def readShape (slide : Slide) : Prop :=
  (slide.Title ≠ [] → '\n' ∉ slide.Title ∧ ∀ c ∈ slide.Title.getLast?, isSpace c = false) ∧
  (∀ n ∈ slide.Notes, n.Text ≠ [] ∧ TrimSpace n.Text = n.Text) ∧
  bodyInert slide

/-- The structure that the round trip should keep: the title, the number of sections
and the number of slides, of the deck read first and of the deck read back. -/
def roundTripShape (x : GoString) : Option ((GoString × Nat × Int) × (GoString × Nat × Int)) :=
  (roundTrip x).map fun p =>
    ((p.1.Title, p.1.Sections.length, p.1.SlideCount),
     (p.2.Title, p.2.Sections.length, p.2.SlideCount))

/-- Whether the deck parsed from a text meets `deckSurvives`. -/
def parsedSurvives (x : GoString) : Bool :=
  match Parse x with
  | some (some d, _) => deckSurvives d
  | _ => false

/-! # Theorems -/

/-! ## Lemmas about package `strings` -/

theorem HasPrefix_iff (s pre : GoString) : HasPrefix s pre = true ↔ pre <+: s := by
  simp [HasPrefix]

theorem HasPrefix_cons_cons (c d : Char) (s pre : GoString) :
    HasPrefix (c :: s) (d :: pre) = (decide (c = d) && HasPrefix s pre) := by
  simp only [HasPrefix, List.isPrefixOf]
  by_cases h : c = d
  · subst h; simp
  · have : ¬ d = c := fun e => h e.symm
    simp [h, this]

theorem HasPrefix_nil_cons (d : Char) (pre : GoString) : HasPrefix [] (d :: pre) = false := by
  simp [HasPrefix, List.isPrefixOf]

theorem HasPrefix_nil (s : GoString) : HasPrefix s [] = true := by
  simp [HasPrefix]

theorem Split_ne_nil (s : GoString) (sep : Char) : Split s sep ≠ [] := by
  induction s with
  | nil => simp [Split]
  | cons c cs ih =>
    simp only [Split]
    split_ifs
    · simp
    · split <;> simp

theorem Split_cons_sep (cs : GoString) (sep : Char) :
    Split (sep :: cs) sep = [] :: Split cs sep := by
  simp [Split]

theorem Split_cons_ne (c : Char) (cs : GoString) (sep : Char) (h : c ≠ sep) :
    Split (c :: cs) sep = (c :: (Split cs sep).headD []) :: (Split cs sep).tail := by
  simp only [Split, if_neg h]
  split
  · next e => exact absurd e (Split_ne_nil cs sep)
  · next l ls e => simp [e]

/-- Joining the pieces of a split with the separator gives the text back. -/
theorem Join_Split (s : GoString) (sep : Char) : Join (Split s sep) [sep] = s := by
  induction s with
  | nil => simp [Split, Join, List.intercalate]
  | cons c cs ih =>
    by_cases h : c = sep
    · subst h
      rw [Split_cons_sep]
      obtain ⟨l, ls, e⟩ := List.exists_cons_of_ne_nil (Split_ne_nil cs c)
      rw [e] at ih ⊢
      simp only [Join, List.intercalate] at ih ⊢
      simp [List.intersperse, ih]
    · rw [Split_cons_ne c cs sep h]
      obtain ⟨l, ls, e⟩ := List.exists_cons_of_ne_nil (Split_ne_nil cs sep)
      rw [e] at ih ⊢
      simp only [Join, List.intercalate] at ih ⊢
      cases ls with
      | nil => simpa [List.intersperse] using ih
      | cons l2 ls2 => simpa [List.intersperse] using ih

theorem TrimSpace_eq_nil_iff (s : GoString) : TrimSpace s = [] ↔ ∀ c ∈ s, isSpace c = true := by
  simp only [TrimSpace, List.rdropWhile_eq_nil_iff]
  constructor
  · intro h c hc
    by_contra hn
    have hne : s.dropWhile isSpace ≠ [] := by
      intro e
      rw [List.dropWhile_eq_nil_iff] at e
      exact hn (e c hc)
    have := List.head_dropWhile_not isSpace s hne
    have h2 := h _ (List.head_mem hne)
    simp [h2] at this
  · intro h c hc
    exact h c ((List.dropWhile_sublist _).subset hc)

theorem TrimSpace_nil : TrimSpace [] = [] := by
  simp [TrimSpace]

theorem TrimSpace_getLast_not_space (s : GoString) (h : TrimSpace s ≠ []) :
    isSpace ((TrimSpace s).getLast h) = false := by
  have := List.rdropWhile_last_not isSpace (s.dropWhile isSpace) h
  simpa [TrimSpace] using this

theorem TrimSpace_head_not_space (s : GoString) (h : TrimSpace s ≠ []) :
    isSpace ((TrimSpace s).head h) = false := by
  have hne : s.dropWhile isSpace ≠ [] := by
    intro e; apply h; simp [TrimSpace, e]
  have h1 := List.head_dropWhile_not isSpace s hne
  have hp : TrimSpace s <+: s.dropWhile isSpace := List.rdropWhile_prefix _ _
  obtain ⟨t, ht⟩ := hp
  have : (TrimSpace s).head? = (s.dropWhile isSpace).head? := by
    rw [← ht]
    cases hts : TrimSpace s with
    | nil => exact absurd hts h
    | cons a as => simp
  rw [List.head?_eq_head h, List.head?_eq_head hne] at this
  simp only [Option.some.injEq] at this
  rw [this]
  simpa using h1

/-- A text that neither starts nor ends with white space is left alone. -/
theorem TrimSpace_eq_self (s : GoString)
    (hh : ∀ c ∈ s.head?, isSpace c = false) (hl : ∀ c ∈ s.getLast?, isSpace c = false) :
    TrimSpace s = s := by
  cases s with
  | nil => rfl
  | cons a as =>
    have ha : isSpace a = false := hh a (by simp)
    have h1 : (a :: as).dropWhile isSpace = a :: as := by simp [List.dropWhile, ha]
    simp only [TrimSpace, h1]
    rw [List.rdropWhile_eq_self_iff]
    intro hne
    have := hl ((a :: as).getLast hne) (by simp [List.getLast?_eq_getLast])
    simp [this]

theorem TrimSpace_idem (s : GoString) : TrimSpace (TrimSpace s) = TrimSpace s := by
  apply TrimSpace_eq_self
  · intro c hc
    cases h : TrimSpace s with
    | nil => simp [h] at hc
    | cons a as =>
      have := TrimSpace_head_not_space s (by simp [h])
      simp only [h, List.head?_cons, Option.mem_def, Option.some.injEq] at hc
      subst hc
      simpa [h] using this
  · intro c hc
    by_cases h : TrimSpace s = []
    · simp [h] at hc
    · have := TrimSpace_getLast_not_space s h
      rw [List.getLast?_eq_getLast _ h] at hc
      simp only [Option.mem_def, Option.some.injEq] at hc
      subst hc
      exact this

/-- The text after a marker that ends in a space, on a trimmed line, is not empty. -/
theorem TrimPrefix_TrimSpace_ne_nil (line pre : GoString) (hpre : pre.getLast? = some ' ')
    (h : HasPrefix (TrimSpace line) pre = true) : TrimPrefix (TrimSpace line) pre ≠ [] := by
  intro e
  rw [HasPrefix_iff] at h
  obtain ⟨t, ht⟩ := h
  have hd : TrimPrefix (TrimSpace line) pre = t := by
    simp [TrimPrefix, HasPrefix_iff, ← ht]
  rw [hd] at e
  subst e
  simp only [List.append_nil] at ht
  have hne : TrimSpace line ≠ [] := by
    rw [← ht]; intro e; simp [e] at hpre
  have h1 := TrimSpace_getLast_not_space line hne
  have h2 : (TrimSpace line).getLast? = some ' ' := by rw [← ht]; exact hpre
  rw [List.getLast?_eq_getLast _ hne] at h2
  simp only [Option.some.injEq] at h2
  rw [h2] at h1
  revert h1
  decide

theorem firstHeading_nil (pre : GoString) : firstHeading pre [] = [] := rfl

theorem firstHeading_cons (pre line : GoString) (lines : List GoString) :
    firstHeading pre (line :: lines) =
      if HasPrefix (TrimSpace line) pre then TrimPrefix (TrimSpace line) pre
      else firstHeading pre lines := by
  simp only [firstHeading, List.map_cons, List.find?_cons]
  by_cases h : HasPrefix (TrimSpace line) pre = true
  · simp [h, TrimPrefix]
  · simp [h]

theorem not_h1_of_h2 (s : GoString) (h : HasPrefix s "## ".toList = true) :
    HasPrefix s "# ".toList = false :=
  match s with
  | [] => by simp [HasPrefix]
  | [_] => by simp [HasPrefix, List.isPrefixOf]
  | a :: b :: rest => by
    have e1 : "## ".toList = ['#', '#', ' '] := by decide
    have e2 : "# ".toList = ['#', ' '] := by decide
    rw [e1] at h; rw [e2]
    simp only [HasPrefix_cons_cons, Bool.and_eq_true, decide_eq_true_eq] at h
    simp only [HasPrefix_cons_cons, HasPrefix_nil]
    obtain ⟨_, hb, _⟩ := h
    subst hb
    simp

/-- The loop of `extractSectionTitle`, for any two markers that end in a space and of
which the second excludes the first, records the text of the first line with each
marker. -/
theorem extractSectionTitle_loop_gen (p1 p2 : GoString) (hp1 : p1.getLast? = some ' ')
    (hp2 : p2.getLast? = some ' ')
    (hex : ∀ s, HasPrefix s p2 = true → HasPrefix s p1 = false)
    (lines : List GoString) (h : GoString × GoString) :
    lines.foldl
      (fun (h : GoString × GoString) line =>
        let trimmed := TrimSpace line
        if h.1 = [] ∧ HasPrefix trimmed p1 then (TrimPrefix trimmed p1, h.2)
        else if h.2 = [] ∧ HasPrefix trimmed p2 then
          (h.1, TrimPrefix trimmed p2)
        else h) h =
      (if h.1 = [] then firstHeading p1 lines else h.1,
       if h.2 = [] then firstHeading p2 lines else h.2) := by
  induction lines generalizing h with
  | nil =>
    obtain ⟨a, b⟩ := h
    by_cases ha : a = [] <;> by_cases hb : b = [] <;> simp [ha, hb, firstHeading_nil]
  | cons line lines ih =>
    obtain ⟨a, b⟩ := h
    simp only [List.foldl_cons]
    rw [ih]
    simp only [firstHeading_cons]
    by_cases h1 : HasPrefix (TrimSpace line) p1 = true
    · have hn := TrimPrefix_TrimSpace_ne_nil line p1 hp1 h1
      have h2 : HasPrefix (TrimSpace line) p2 = false := by
        by_contra hc
        simp only [Bool.not_eq_false] at hc
        rw [hex _ hc] at h1
        exact absurd h1 (by simp)
      by_cases ha : a = [] <;> by_cases hb : b = [] <;> simp [ha, hb, h1, h2, hn]
    · by_cases h2 : HasPrefix (TrimSpace line) p2 = true
      · have hn := TrimPrefix_TrimSpace_ne_nil line p2 hp2 h2
        by_cases ha : a = [] <;> by_cases hb : b = [] <;> simp [ha, hb, h1, h2, hn]
      · by_cases ha : a = [] <;> by_cases hb : b = [] <;> simp [ha, hb, h1, h2]

theorem firstHeading_eq_nil_iff (pre : GoString) (hpre : pre.getLast? = some ' ')
    (lines : List GoString) :
    firstHeading pre lines = [] ↔
      (lines.map TrimSpace).find? (fun l => HasPrefix l pre) = none := by
  induction lines with
  | nil => simp [firstHeading]
  | cons line lines ih =>
    rw [firstHeading_cons]
    by_cases h : HasPrefix (TrimSpace line) pre = true
    · have := TrimPrefix_TrimSpace_ne_nil line pre hpre h
      simp [h, this]
    · simp only [h, Bool.false_eq_true, ↓reduceIte, ih, List.map_cons, List.find?_cons]

/-- C10: `extractSectionTitle` returns the text after `## ` of the first line whose
trimmed form starts with `## `; when there is none, the text after `# ` of the first
line whose trimmed form starts with `# `; and `untitled` when there is neither.  A
divider with `# Section 2` and `## Architecture` is titled `Architecture`, one with
only `# Section 3` is titled `Section 3`. -/
theorem extractSectionTitle_prefers_h2 (content : GoString) :
    extractSectionTitle content =
      (match ((Split content '\n').map TrimSpace).find? (fun l => HasPrefix l "## ".toList) with
       | some l => l.drop 3
       | none =>
         match ((Split content '\n').map TrimSpace).find? (fun l => HasPrefix l "# ".toList) with
         | some l => l.drop 2
         | none => "untitled".toList) ∧
    extractSectionTitle "# Section 2\n## Architecture".toList = "Architecture".toList ∧
    extractSectionTitle "# Section 3".toList = "Section 3".toList := by
  refine ⟨?_, by decide, by decide⟩
  have hloop := extractSectionTitle_loop_gen "# ".toList "## ".toList (by decide) (by decide)
    not_h1_of_h2 (Split content '\n') ([], [])
  simp only [extractSectionTitle]
  rw [hloop]
  simp only [↓reduceIte]
  have e2 := firstHeading_eq_nil_iff "## ".toList (by decide) (Split content '\n')
  have e1 := firstHeading_eq_nil_iff "# ".toList (by decide) (Split content '\n')
  cases h2 : ((Split content '\n').map TrimSpace).find? (fun l => HasPrefix l "## ".toList) with
  | some l =>
    have hv : firstHeading "## ".toList (Split content '\n') = l.drop 3 := by
      unfold firstHeading; rw [h2]; rfl
    have hne : firstHeading "## ".toList (Split content '\n') ≠ [] := by
      rw [Ne, e2, h2]; exact fun e => Option.noConfusion e
    rw [if_pos hne, hv]
  | none =>
    have hnil : firstHeading "## ".toList (Split content '\n') = [] := e2.mpr h2
    rw [if_neg (not_not.mpr hnil)]
    cases h1 : ((Split content '\n').map TrimSpace).find? (fun l => HasPrefix l "# ".toList) with
    | some l =>
      have hv : firstHeading "# ".toList (Split content '\n') = l.drop 2 := by
        unfold firstHeading; rw [h1]; rfl
      have hne : firstHeading "# ".toList (Split content '\n') ≠ [] := by
        rw [Ne, e1, h1]; exact fun e => Option.noConfusion e
      rw [if_pos hne, hv]
    | none =>
      have hnil1 : firstHeading "# ".toList (Split content '\n') = [] := e1.mpr h1
      rw [if_neg (not_not.mpr hnil1)]

/-! ## `splitSlides` -/

theorem splitSlides_step_slides_nonblank (st : splitState) (line : GoString)
    (h : ∀ f ∈ st.slides, TrimSpace f ≠ []) :
    ∀ f ∈ (splitSlides.step st line).slides, TrimSpace f ≠ [] := by
  unfold splitSlides.step
  simp only
  generalize (if HasPrefix (TrimSpace line) "```".toList = true then !st.inCodeBlock
    else st.inCodeBlock) = icb
  split_ifs with h1 h2
  · intro f hf
    simp only [List.mem_append, List.mem_singleton] at hf
    rcases hf with hf | hf
    · exact h f hf
    · subst hf; exact h2
  · exact h
  · exact h

theorem splitSlides_foldl_slides_nonblank (lines : List GoString) (st : splitState)
    (h : ∀ f ∈ st.slides, TrimSpace f ≠ []) :
    ∀ f ∈ (lines.foldl splitSlides.step st).slides, TrimSpace f ≠ [] := by
  induction lines generalizing st with
  | nil => exact h
  | cons l ls ih => exact ih _ (splitSlides_step_slides_nonblank st l h)

/-- On a line that is not a separator outside a fence, the loop of `splitSlides`
only appends the line to the current fragment and updates the fence state. -/
theorem splitSlides_step_keep (st : splitState) (line : GoString)
    (h : isSeparatorLine line = true → (st.inCodeBlock != isFenceLine line) = true) :
    splitSlides.step st line =
      { slides := st.slides, current := st.current ++ [line],
        inCodeBlock := (st.inCodeBlock != isFenceLine line) } := by
  unfold splitSlides.step
  simp only [isSeparatorLine, isFenceLine, decide_eq_true_eq] at h ⊢
  by_cases hf : HasPrefix (TrimSpace line) "```".toList = true
  · simp only [hf, if_true] at h ⊢
    by_cases hs : TrimSpace line = "---".toList
    · have := h hs
      cases hc : st.inCodeBlock <;> simp_all
    · cases hc : st.inCodeBlock <;> simp_all
  · simp only [hf] at h ⊢
    by_cases hs : TrimSpace line = "---".toList
    · have := h hs
      cases hc : st.inCodeBlock <;> simp_all
    · cases hc : st.inCodeBlock <;> simp_all

theorem insideFence_append_singleton (before : List GoString) (line : GoString) :
    insideFence (before ++ [line]) = (insideFence before != isFenceLine line) := by
  simp only [insideFence, List.countP_append, List.countP_cons, List.countP_nil]
  cases h : isFenceLine line
  · simp
  · simp only [if_true, Nat.zero_add, Bool.bne_true]
    have := Nat.mod_two_eq_zero_or_one (List.countP isFenceLine before)
    rcases this with h0 | h1
    · have : (List.countP isFenceLine before + 1) % 2 = 1 := by omega
      simp [h0, this]
    · have : (List.countP isFenceLine before + 1) % 2 = 0 := by omega
      simp [h1, this]

/-- When every separator-like line is inside a fence, the loop of `splitSlides`
closes no fragment: all the lines are gathered in the current fragment. -/
theorem splitSlides_foldl_no_split (lines : List GoString)
    (h : ∀ i, i < lines.length → isSeparatorLine (lines.getD i []) = true →
      insideFence (lines.take i) = true) (k : Nat) (hk : k ≤ lines.length) :
    (lines.take k).foldl splitSlides.step {} =
      { slides := [], current := lines.take k, inCodeBlock := insideFence (lines.take k) } := by
  induction k with
  | zero => simp [insideFence]
  | succ k ih =>
    have hk' : k < lines.length := hk
    have hget : lines.getD k [] = lines[k] := by simp [List.getD, List.getElem?_eq_getElem hk']
    have ht : lines.take (k + 1) = lines.take k ++ [lines[k]] := by
      rw [List.take_succ, List.getElem?_eq_getElem hk']; rfl
    rw [ht]
    simp only [List.foldl_append, List.foldl_cons, List.foldl_nil]
    rw [ih (Nat.le_of_lt hk')]
    rw [splitSlides_step_keep]
    · rw [insideFence_append_singleton]
    · intro hs
      have h1 := h k hk' (by rw [hget]; exact hs)
      simp only
      by_cases hf : isFenceLine lines[k] = true
      · exfalso
        simp only [isSeparatorLine, decide_eq_true_eq, isFenceLine] at hs hf
        rw [hs] at hf
        revert hf; decide
      · simp only [Bool.not_eq_true] at hf
        simp [hf, h1]

/-- When every separator-like line is inside a fence, `splitSlides` returns the
whole body as its only fragment, or nothing when the body is blank. -/
theorem splitSlides_eq_of_no_split (body : GoString)
    (h : ∀ i, i < (Split body '\n').length →
      isSeparatorLine ((Split body '\n').getD i []) = true →
      insideFence ((Split body '\n').take i) = true) :
    splitSlides body = (if TrimSpace body = [] then [] else [body]) := by
  have hfold := splitSlides_foldl_no_split (Split body '\n') h _ (le_refl _)
  rw [List.take_length] at hfold
  have hlen : 0 < (Split body '\n').length := List.length_pos.mpr (Split_ne_nil _ _)
  have hjoin : Join (Split body '\n') "\n".toList = body := Join_Split body '\n'
  unfold splitSlides
  simp only [hfold, hlen, if_true, hjoin]
  by_cases hb : TrimSpace body = [] <;> simp [hb]

/-- C4: when every line of the body whose trimmed text is `---` comes after an odd
number of fence lines, `splitSlides` returns at most one fragment, and that fragment
is the whole body, separator-like lines included. -/
theorem splitSlides_respects_code_fences (body : GoString)
    (h : ∀ i, i < (Split body '\n').length →
      isSeparatorLine ((Split body '\n').getD i []) = true →
      insideFence ((Split body '\n').take i) = true) :
    (splitSlides body).length ≤ 1 ∧ (∀ f ∈ splitSlides body, f = body) ∧
      splitSlides body = (if TrimSpace body = [] then [] else [body]) := by
  rw [splitSlides_eq_of_no_split body h]
  by_cases hb : TrimSpace body = [] <;> simp [hb]

theorem splitSlides_respects_code_fences_witness :
    (splitSlides "# Slide 1\n\n```\nfoo\n---\nbar\n```\n".toList).length ≤ 1 ∧
    (∀ f ∈ splitSlides "# Slide 1\n\n```\nfoo\n---\nbar\n```\n".toList,
      f = "# Slide 1\n\n```\nfoo\n---\nbar\n```\n".toList) ∧
    splitSlides "# Slide 1\n\n```\nfoo\n---\nbar\n```\n".toList =
      (if TrimSpace "# Slide 1\n\n```\nfoo\n---\nbar\n```\n".toList = [] then []
       else ["# Slide 1\n\n```\nfoo\n---\nbar\n```\n".toList]) :=
  splitSlides_respects_code_fences "# Slide 1\n\n```\nfoo\n---\nbar\n```\n".toList (by decide)

/-- C5: every fragment that `splitSlides` returns is non-blank after trimming, and a
body with no line whose trimmed text is `---` yields at most one fragment. -/
theorem splitSlides_fragments_nonblank (body : GoString) :
    (∀ f ∈ splitSlides body, TrimSpace f ≠ []) ∧
    ((∀ l ∈ Split body '\n', TrimSpace l ≠ "---".toList) → (splitSlides body).length ≤ 1) := by
  constructor
  · have hfold := splitSlides_foldl_slides_nonblank (Split body '\n') {}
      (by intro f hf; simp at hf)
    unfold splitSlides
    simp only
    split_ifs with h1 h2
    · intro f hf
      simp only [List.mem_append, List.mem_singleton] at hf
      rcases hf with hf | hf
      · exact hfold f hf
      · subst hf; exact h2
    · exact hfold
    · exact hfold
  · intro h
    have hno : ∀ i, i < (Split body '\n').length →
        isSeparatorLine ((Split body '\n').getD i []) = true →
        insideFence ((Split body '\n').take i) = true := by
      intro i hi hs
      exfalso
      have hmem : (Split body '\n').getD i [] ∈ Split body '\n' := by
        have e : (Split body '\n').getD i [] = (Split body '\n')[i] := by
          simp [List.getD, List.getElem?_eq_getElem hi]
        rw [e]
        exact List.getElem_mem hi
      simp only [isSeparatorLine, decide_eq_true_eq] at hs
      exact h _ hmem hs
    rw [splitSlides_eq_of_no_split body hno]
    by_cases hb : TrimSpace body = [] <;> simp [hb]

theorem splitSlides_fragments_nonblank_witness :
    (∀ f ∈ splitSlides "# A\n\ntext\n".toList, TrimSpace f ≠ []) ∧
    (splitSlides "# A\n\ntext\n".toList).length ≤ 1 :=
  ⟨(splitSlides_fragments_nonblank "# A\n\ntext\n".toList).1,
   (splitSlides_fragments_nonblank "# A\n\ntext\n".toList).2 (by decide)⟩

/-! ## Indexing and slicing -/

theorem index_natCast {α : Type} (xs : List α) (n : Nat) : index xs (n : Int) = xs[n]? := by
  simp [index]

theorem index_eq_some {α : Type} (xs : List α) (n : Nat) (h : n < xs.length) :
    index xs (n : Int) = some xs[n] := by
  rw [index_natCast, List.getElem?_eq_getElem h]

theorem index_zero_cons {α : Type} (x : α) (xs : List α) : index (x :: xs) 0 = some x := by
  simp [index]

theorem sliceFrom_natCast (s : GoString) (n : Nat) (h : n ≤ s.length) :
    sliceFrom s (n : Int) = some (s.drop n) := by
  simp [sliceFrom, h]

theorem sliceTo_natCast (s : GoString) (n : Nat) (h : n ≤ s.length) :
    sliceTo s (n : Int) = some (s.take n) := by
  simp [sliceTo, h]

/-! ## `strings.Index` -/

theorem Index_ge_neg_one (s sub : GoString) : -1 ≤ Index s sub := by
  induction s with
  | nil => simp only [Index]; split_ifs <;> omega
  | cons c cs ih =>
    simp only [Index]
    split_ifs <;> omega

theorem Index_le_length (s sub : GoString) : Index s sub ≤ (s.length : Int) := by
  induction s with
  | nil => simp only [Index]; split_ifs <;> simp
  | cons c cs ih =>
    simp only [Index, List.length_cons, Nat.cast_add, Nat.cast_one]
    split_ifs <;> omega

/-- At a non-negative result, `strings.Index` points at an occurrence of the
substring. -/
theorem Index_spec (s sub : GoString) (h : 0 ≤ Index s sub) :
    HasPrefix (s.drop (Index s sub).toNat) sub = true := by
  induction s with
  | nil =>
    simp only [Index] at h ⊢
    split_ifs at h ⊢ with h1
    · cases sub with
      | nil => simp [HasPrefix]
      | cons a as => simp at h1
    · omega
  | cons c cs ih =>
    simp only [Index] at h ⊢
    split_ifs at h ⊢ with h1 h2
    · simpa using h1
    · omega
    · have h3 : 0 ≤ Index cs sub := by omega
      have := ih h3
      have e : (Index cs sub + 1).toNat = (Index cs sub).toNat + 1 := by omega
      rw [e]
      simpa using this

theorem Index_add_length_le (s sub : GoString) (h : 0 ≤ Index s sub) :
    (Index s sub).toNat + sub.length ≤ s.length := by
  have h1 := Index_spec s sub h
  rw [HasPrefix_iff] at h1
  have h2 := h1.length_le
  have h3 := Index_le_length s sub
  rw [List.length_drop] at h2
  omega

theorem Index_of_HasPrefix (s sub : GoString) (h : HasPrefix s sub = true) :
    Index s sub = 0 := by
  cases s with
  | nil =>
    cases sub with
    | nil => simp [Index]
    | cons a as => simp [HasPrefix, List.isPrefixOf] at h
  | cons c cs => simp [Index, h]

/-- The first occurrence: `strings.Index` of a text in which the substring occurs
after a part `pre` and nowhere earlier. -/
theorem Index_append (pre tail sub : GoString) (ht : HasPrefix tail sub = true)
    (hno : ∀ k, k < pre.length → HasPrefix ((pre ++ tail).drop k) sub = false) :
    Index (pre ++ tail) sub = (pre.length : Int) := by
  induction pre with
  | nil => simpa using Index_of_HasPrefix tail sub ht
  | cons c cs ih =>
    have h0 : HasPrefix (c :: (cs ++ tail)) sub = false := hno 0 (by simp)
    have ih' := ih (fun k hk => by
      have := hno (k + 1) (by simpa using hk)
      simpa using this)
    show Index (c :: (cs ++ tail)) sub = _
    simp only [Index]
    rw [if_neg (by simp [h0]), ih']
    simp only [List.length_cons, Nat.cast_add, Nat.cast_one]
    rw [if_neg (by omega)]

/-! ## `parseFrontmatter` -/

/-- The style block loop, given enough fuel, consumes exactly the longest run of
indented lines from line `n` on. -/
theorem styleLoop_eq (fuel : Nat) (lines : List GoString) (n : Nat) (acc : List GoString)
    (hn : n ≤ lines.length) (hf : lines.length < fuel + n) :
    parseFrontmatter.styleLoop fuel lines (n : Int) acc =
      some (((n + ((lines.drop n).takeWhile isIndented).length : Nat) : Int),
        acc ++ (lines.drop n).takeWhile isIndented) := by
  induction fuel generalizing n acc with
  | zero => omega
  | succ fuel ih =>
    unfold parseFrontmatter.styleLoop
    by_cases hn : n < lines.length
    · have hlt : (n : Int) < (lines.length : Int) := by exact_mod_cast hn
      rw [if_pos hlt, index_eq_some lines n hn]
      simp only [Option.some_bind]
      have hdrop : lines.drop n = lines[n] :: lines.drop (n + 1) := by
        rw [List.drop_eq_getElem_cons hn]
      rw [hdrop]
      cases hsl : lines[n] with
      | nil => simp [isIndented]
      | cons c rest =>
        simp only [List.length_cons, Nat.zero_lt_succ, if_true, index_zero_cons,
          Option.some_bind]
        by_cases hc : c = ' ' ∨ c = '\t'
        · rw [if_pos hc]
          have e : (n : Int) + 1 = ((n + 1 : Nat) : Int) := by push_cast; rfl
          rw [e, ih (n + 1) _ (by omega) (by omega)]
          have hi : isIndented (c :: rest) = true := by simpa [isIndented] using hc
          simp only [List.takeWhile_cons, hi, if_true, List.length_cons, List.append_assoc,
            List.singleton_append]
          congr 2
          push_cast
          omega
        · rw [if_neg hc]
          have hi : isIndented (c :: rest) = false := by simpa [isIndented] using hc
          simp [List.takeWhile_cons, hi]
    · have hlt : ¬ (n : Int) < (lines.length : Int) := by
        intro h; exact hn (by exact_mod_cast h)
      rw [if_neg hlt]
      have : lines.drop n = [] := List.drop_eq_nil_of_le (by omega)
      simp [this]

theorem takeWhile_drop_length_le {α : Type} (p : α → Bool) (xs : List α) (n : Nat) :
    n + ((xs.drop n).takeWhile p).length ≤ max n xs.length := by
  have h1 : ((xs.drop n).takeWhile p).length ≤ (xs.drop n).length :=
    (List.takeWhile_sublist p).length_le
  rw [List.length_drop] at h1
  omega

theorem SplitN_length_two_index (parts : List GoString) (h : parts.length = 2) :
    ∃ a b, parts = [a, b] ∧ index parts 0 = some a ∧ index parts 1 = some b := by
  match parts, h with
  | [a, b], _ => exact ⟨a, b, rfl, by simp [index], by simp [index]⟩

/-- One iteration of the line loop of `parseFrontmatter` at a line inside the text
succeeds and moves to a later line, at most one past the end. -/
theorem parseFrontmatter_step_progress (lines : List GoString) (n : Nat) (fm : Frontmatter)
    (hn : n < lines.length) :
    ∃ (n' : Nat) (fm' : Frontmatter),
      parseFrontmatter.step lines (n : Int) fm = some ((n' : Int), fm') ∧
        n < n' ∧ n' ≤ lines.length := by
  unfold parseFrontmatter.step
  rw [index_eq_some lines n hn]
  simp only [Option.some_bind]
  have e : (n : Int) + 1 = ((n + 1 : Nat) : Int) := by push_cast; rfl
  by_cases h1 : TrimSpace lines[n] = []
  · rw [if_pos h1]; exact ⟨n + 1, fm, by rw [e], by omega, by omega⟩
  · rw [if_neg h1]
    by_cases h2 : (SplitN (TrimSpace lines[n]) ':' 2).length ≠ 2
    · rw [if_pos h2]; exact ⟨n + 1, fm, by rw [e], by omega, by omega⟩
    · rw [if_neg h2]
      obtain ⟨a, b, hab, ha, hb⟩ := SplitN_length_two_index _ (not_not.mp h2)
      rw [ha, hb]
      simp only [Option.some_bind]
      split_ifs
      · exact ⟨n + 1, _, by rw [e], by omega, by omega⟩
      · exact ⟨n + 1, _, by rw [e], by omega, by omega⟩
      · exact ⟨n + 1, _, by rw [e], by omega, by omega⟩
      · rw [e, styleLoop_eq _ lines (n + 1) [] (by omega) (by omega)]
        simp only [Option.some_bind]
        refine ⟨_, _, rfl, by omega, ?_⟩
        have := takeWhile_drop_length_le isIndented lines (n + 1)
        omega
      · exact ⟨n + 1, _, by rw [e], by omega, by omega⟩
      · exact ⟨n + 1, _, by rw [e], by omega, by omega⟩

/-- The line loop of `parseFrontmatter` finishes within its fuel. -/
theorem parseFrontmatter_loop_total (fuel : Nat) (lines : List GoString) (n : Nat)
    (fm : Frontmatter) (hn : n ≤ lines.length) (hf : lines.length < fuel + n) :
    ∃ fm', parseFrontmatter.loop fuel lines (n : Int) fm = some fm' := by
  induction fuel generalizing n fm with
  | zero =>
    exfalso; omega
  | succ fuel ih =>
    unfold parseFrontmatter.loop
    by_cases hn : n < lines.length
    · have hlt : (n : Int) < (lines.length : Int) := by exact_mod_cast hn
      rw [if_pos hlt]
      obtain ⟨n', fm', hs, h1, h2⟩ := parseFrontmatter_step_progress lines n fm hn
      rw [hs]
      simp only [Option.some_bind]
      exact ih n' fm' (by omega) (by omega)
    · have hlt : ¬ (n : Int) < (lines.length : Int) := by
        intro h; exact hn (by exact_mod_cast h)
      rw [if_neg hlt]
      exact ⟨fm, rfl⟩

theorem HasPrefix_length_le (s pre : GoString) (h : HasPrefix s pre = true) :
    pre.length ≤ s.length := by
  rw [HasPrefix_iff] at h
  exact h.length_le

/-- The shape of the result of `parseFrontmatter`: without a complete fence the
trimmed text is the body; with one, the body is what follows the closing fence. -/
theorem parseFrontmatter_eq (content : GoString) :
    (¬ (HasPrefix (TrimSpace content) "---".toList = true ∧
        0 ≤ Index ((TrimSpace content).drop 3) "\n---".toList) ∧
      parseFrontmatter content = some ({}, TrimSpace content)) ∨
    (HasPrefix (TrimSpace content) "---".toList = true ∧
      0 ≤ Index ((TrimSpace content).drop 3) "\n---".toList ∧
      ∃ fm, parseFrontmatter.loop
          ((Split (TrimSpace (((TrimSpace content).drop 3).take
            (Index ((TrimSpace content).drop 3) "\n---".toList).toNat)) '\n').length + 1)
          (Split (TrimSpace (((TrimSpace content).drop 3).take
            (Index ((TrimSpace content).drop 3) "\n---".toList).toNat)) '\n') 0 {} = some fm ∧
        parseFrontmatter content =
          some (fm, ((TrimSpace content).drop 3).drop
            ((Index ((TrimSpace content).drop 3) "\n---".toList).toNat + 4))) := by
  unfold parseFrontmatter
  simp only
  by_cases hp : HasPrefix (TrimSpace content) "---".toList = true
  · have hlen : 3 ≤ (TrimSpace content).length := HasPrefix_length_le _ _ hp
    have hs : sliceFrom (TrimSpace content) 3 = some ((TrimSpace content).drop 3) :=
      sliceFrom_natCast _ 3 hlen
    simp only [hp, Bool.not_true, Bool.false_eq_true, if_false, hs, Option.some_bind]
    by_cases hi : Index ((TrimSpace content).drop 3) "\n---".toList < 0
    · left
      rw [if_pos hi]
      exact ⟨by intro h; omega, rfl⟩
    · right
      rw [if_neg hi]
      have hi0 : 0 ≤ Index ((TrimSpace content).drop 3) "\n---".toList := by omega
      have hle := Index_add_length_le _ _ hi0
      have h4 : "\n---".toList.length = 4 := rfl
      rw [h4] at hle
      obtain ⟨k, hk⟩ : ∃ k : Nat, Index ((TrimSpace content).drop 3) "\n---".toList = (k : Int) :=
        ⟨_, (Int.toNat_of_nonneg hi0).symm⟩
      rw [hk] at hle ⊢
      simp only [Int.toNat_ofNat] at hle ⊢
      have e4 : (k : Int) + 4 = ((k + 4 : Nat) : Int) := by push_cast; rfl
      rw [sliceTo_natCast _ k (by omega), e4, sliceFrom_natCast _ (k + 4) hle]
      simp only [Option.some_bind]
      obtain ⟨fm, hfm⟩ := parseFrontmatter_loop_total
        ((Split (TrimSpace (((TrimSpace content).drop 3).take k)) '\n').length + 1)
        (Split (TrimSpace (((TrimSpace content).drop 3).take k)) '\n') 0 {} (by omega)
        (by omega)
      simp only [Nat.cast_zero] at hfm
      refine ⟨trivial, by omega, fm, hfm, ?_⟩
      rw [hfm]
      rfl
  · left
    refine ⟨fun h => hp h.1, ?_⟩
    have hp' : HasPrefix (TrimSpace content) "---".toList = false := by simpa using hp
    rw [hp']
    rfl

/-- Without a complete fence the result is the empty frontmatter and the trimmed
text. -/
theorem parseFrontmatter_of_no_fence (content : GoString)
    (h : ¬ (HasPrefix (TrimSpace content) "---".toList = true ∧
        0 ≤ Index ((TrimSpace content).drop 3) "\n---".toList)) :
    parseFrontmatter content = some ({}, TrimSpace content) := by
  rcases parseFrontmatter_eq content with ⟨_, h2⟩ | ⟨h1, h2, _⟩
  · exact h2
  · exact absurd ⟨h1, h2⟩ h

/-- C6, as the code has it: when the whitespace-trimmed text does not begin with
`---`, or begins with `---` but contains no later `\n---`, `parseFrontmatter` returns
an empty `Frontmatter` together with the whitespace-trimmed text as the body. -/
theorem parseFrontmatter_without_fence (content : GoString)
    (h : HasPrefix (TrimSpace content) "---".toList = false ∨
      (HasPrefix (TrimSpace content) "---".toList = true ∧
        Contains ((TrimSpace content).drop 3) "\n---".toList = false)) :
    parseFrontmatter content =
      some ({ Marp := false, Theme := [], Paginate := false, Style := [], Custom := [] },
        TrimSpace content) := by
  apply parseFrontmatter_of_no_fence
  rintro ⟨h1, h2⟩
  rcases h with h | ⟨_, h⟩
  · rw [h] at h1; exact absurd h1 (by simp)
  · simp only [Contains, decide_eq_false_iff_not] at h
    exact h h2

theorem parseFrontmatter_without_fence_witness :
    parseFrontmatter "  # Title\n\ntext\n".toList =
      some ({ Marp := false, Theme := [], Paginate := false, Style := [], Custom := [] },
        TrimSpace "  # Title\n\ntext\n".toList) :=
  parseFrontmatter_without_fence "  # Title\n\ntext\n".toList (Or.inl (by decide))

/-- C6 as stated fails: the text ` a` does not begin with `---`, yet the body that
`parseFrontmatter` returns is `a`, not the original text. -/
theorem parseFrontmatter_body_trimmed_counterexample :
    HasPrefix " a".toList "---".toList = false ∧
      parseFrontmatter " a".toList = some ({}, "a".toList) ∧
      parseFrontmatter " a".toList ≠ some ({}, " a".toList) := by
  decide

/-! ## The matcher: every match carries all its capture groups -/

theorem starGreedy_some {α : Type} (P : α → Prop) (p : Char → Bool)
    (k : Option Char → GoString → Nat → Option α)
    (hk : ∀ prev s pos r, k prev s pos = some r → P r)
    (prev : Option Char) (s : GoString) (pos : Nat) (r : α)
    (h : starGreedy p k prev s pos = some r) : P r := by
  induction s generalizing prev pos with
  | nil => exact hk _ _ _ _ (by simpa [starGreedy] using h)
  | cons c cs ih =>
    simp only [starGreedy] at h
    split_ifs at h with hp
    · cases hr : starGreedy p k (some c) cs (pos + 1) with
      | some r' =>
        rw [hr] at h
        simp only [Option.some.injEq] at h
        subst h
        exact ih _ _ hr
      | none =>
        rw [hr] at h
        exact hk _ _ _ _ h
    · exact hk _ _ _ _ h

theorem starLazy_some {α : Type} (P : α → Prop) (p : Char → Bool)
    (k : Option Char → GoString → Nat → Option α)
    (hk : ∀ prev s pos r, k prev s pos = some r → P r)
    (prev : Option Char) (s : GoString) (pos : Nat) (r : α)
    (h : starLazy p k prev s pos = some r) : P r := by
  induction s generalizing prev pos with
  | nil => exact hk _ _ _ _ (by simpa [starLazy] using h)
  | cons c cs ih =>
    simp only [starLazy] at h
    cases hr : k prev (c :: cs) pos with
    | some r' =>
      rw [hr] at h
      simp only [Option.some.injEq] at h
      subst h
      exact hk _ _ _ _ hr
    | none =>
      rw [hr] at h
      simp only at h
      split_ifs at h with hp
      exact ih _ _ h

theorem altWords_some {α : Type} (P : α → Prop)
    (k : Option Char → GoString → Nat → Option α)
    (hk : ∀ prev s pos r, k prev s pos = some r → P r)
    (prev : Option Char) (s : GoString) (pos : Nat) (ws : List GoString) (r : α)
    (h : altWords k prev s pos ws = some r) : P r := by
  induction ws with
  | nil => simp [altWords] at h
  | cons w ws ih =>
    simp only [altWords] at h
    split at h
    · next r' hr =>
      simp only [Option.some.injEq] at h
      subst h
      split_ifs at hr with hp
      all_goals exact hk _ _ _ _ hr
    · exact ih h

/-- A match records one offset for every capture parenthesis of the pattern. -/
theorem RE_run_marks_length (re : List RE) (prev : Option Char) (s : GoString) (pos : Nat)
    (r : List Nat × Nat) (h : RE.run re prev s pos = some r) :
    r.1.length = groupCount re := by
  induction re generalizing prev s pos r with
  | nil =>
    simp only [RE.run, Option.some.injEq] at h
    subst h
    rfl
  | cons item k ih =>
    cases item with
    | chr p =>
      simp only [RE.run] at h
      split at h
      · split_ifs at h
        exact ih _ _ _ _ h
      · exact absurd h (by simp)
    | star p greedy =>
      cases greedy with
      | true =>
        simp only [RE.run] at h
        exact starGreedy_some (fun r => r.1.length = groupCount k) p (RE.run k)
          (fun prev s pos r hr => ih prev s pos r hr) _ _ _ _ h
      | false =>
        simp only [RE.run] at h
        exact starLazy_some (fun r => r.1.length = groupCount k) p (RE.run k)
          (fun prev s pos r hr => ih prev s pos r hr) _ _ _ _ h
    | opt p =>
      simp only [RE.run] at h
      split at h
      · split_ifs at h
        · split at h
          · next r' hr =>
            simp only [Option.some.injEq] at h
            subst h
            exact ih _ _ _ _ hr
          · exact ih _ _ _ _ h
        · exact ih _ _ _ _ h
      · exact ih _ _ _ _ h
    | alt ws =>
      simp only [RE.run] at h
      exact altWords_some (fun r => r.1.length = groupCount k) (RE.run k)
        (fun prev s pos r hr => ih prev s pos r hr) _ _ _ _ _ h
    | wordBoundary =>
      simp only [RE.run] at h
      split_ifs at h
      exact ih _ _ _ _ h
    | bot =>
      simp only [RE.run] at h
      split_ifs at h
      exact ih _ _ _ _ h
    | eot =>
      simp only [RE.run] at h
      split_ifs at h
      exact ih _ _ _ _ h
    | openGroup =>
      simp only [RE.run, Option.map_eq_some'] at h
      obtain ⟨r', hr, e⟩ := h
      subst e
      simp [groupCount, ih _ _ _ _ hr]
    | closeGroup =>
      simp only [RE.run, Option.map_eq_some'] at h
      obtain ⟨r', hr, e⟩ := h
      subst e
      simp [groupCount, ih _ _ _ _ hr]

theorem submatches_groups_length (s : GoString) (marks : List Nat) :
    (submatches.groups s marks).length = marks.length / 2 := by
  have key : ∀ n (m : List Nat), m.length ≤ n →
      (submatches.groups s m).length = m.length / 2 := by
    intro n
    induction n with
    | zero =>
      intro m hm
      have : m = [] := List.length_eq_zero.mp (by omega)
      subst this
      simp [submatches.groups]
    | succ n ih =>
      intro m hm
      match m with
      | [] => simp [submatches.groups]
      | [a] => simp [submatches.groups]
      | a :: b :: m' =>
        have := ih m' (by simp only [List.length_cons] at hm; omega)
        simp only [submatches.groups, List.length_cons, this]
        omega
  exact key _ marks (le_refl _)

theorem submatches_length (s : GoString) (marks : List Nat) (e : Nat) :
    (submatches s marks e).length = 1 + marks.length / 2 := by
  simp only [submatches, List.length_cons, submatches_groups_length]
  omega

/-- Every match that `FindAllStringSubmatch` reports has the whole match and one
entry per capture group. -/
theorem findAllFrom_length (re : List RE) (prev : Option Char) (s : GoString) (skip : Nat) :
    ∀ m ∈ findAllFrom re prev s skip, m.length = 1 + groupCount re / 2 := by
  induction s generalizing prev skip with
  | nil =>
    intro m hm
    simp only [findAllFrom] at hm
    split_ifs at hm
    · split at hm
      · next marks e hr =>
        simp only [List.mem_singleton] at hm
        subst hm
        rw [submatches_length, ← RE_run_marks_length re _ _ _ _ hr]
      · simp at hm
    · simp at hm
  | cons c cs ih =>
    intro m hm
    cases skip with
    | succ k =>
      simp only [findAllFrom] at hm
      exact ih _ _ m hm
    | zero =>
      simp only [findAllFrom] at hm
      split at hm
      · next marks e hr =>
        simp only [List.mem_cons] at hm
        rcases hm with hm | hm
        · subst hm
          rw [submatches_length, ← RE_run_marks_length re _ _ _ _ hr]
        · exact ih _ _ m hm
      · exact ih _ _ m hm

theorem FindAllStringSubmatch_length (re : List RE) (s : GoString) :
    ∀ m ∈ FindAllStringSubmatch re s, m.length = 1 + groupCount re / 2 :=
  findAllFrom_length re none s 0

theorem index_of_lt {α : Type} (xs : List α) (n : Nat) (h : n < xs.length) :
    ∃ x, index xs (n : Int) = some x :=
  ⟨_, index_eq_some xs n h⟩

theorem foldlM_option_total {α β : Type} (f : β → α → Option β) (xs : List α)
    (P : α → Prop) (hP : ∀ x ∈ xs, P x) (hf : ∀ b x, P x → ∃ b', f b x = some b') (b : β) :
    ∃ b', xs.foldlM f b = some b' := by
  induction xs generalizing b with
  | nil => exact ⟨b, rfl⟩
  | cons x xs ih =>
    obtain ⟨b1, h1⟩ := hf b x (hP x (by simp))
    simp only [List.foldlM_cons, h1, Option.bind_eq_bind, Option.some_bind]
    exact ih (fun y hy => hP y (by simp [hy])) b1

/-- `parseRawSlide` never fails: the group indices it takes exist in every match. -/
theorem parseRawSlide_total (raw : GoString) :
    ∃ ps, parseRawSlide raw = some ps ∧ ps.rawContent = raw := by
  unfold parseRawSlide
  simp only
  obtain ⟨d, hd⟩ := foldlM_option_total
    (fun (directives : GoMap) m =>
      (index m 1).bind fun key =>
      (index m 2).bind fun value =>
        some (mapSet directives key value))
    (FindAllStringSubmatch reDirective raw) (fun m => m.length = 3)
    (fun m hm => by
      have := FindAllStringSubmatch_length reDirective raw m hm
      simpa [reDirective, RE.lit, groupCount] using this)
    (fun b m hm => by
      obtain ⟨k, hk⟩ := index_of_lt m 1 (by omega)
      obtain ⟨v, hv⟩ := index_of_lt m 2 (by omega)
      simp only [Nat.cast_one, Nat.cast_ofNat] at hk hv
      exact ⟨mapSet b k v, by simp only [hk, hv, Option.some_bind]⟩) []
  rw [hd]
  simp only [Option.some_bind]
  obtain ⟨n, hn⟩ := foldlM_option_total
    (fun (notes : List noteBlock) m =>
      (index m 1).bind fun noteText =>
        if Contains noteText "<script".toList then some notes
        else some (notes ++ [{ text := cleanNoteText noteText }]))
    (FindAllStringSubmatch reNoteBlock (ReplaceAllString reDirective raw))
    (fun m => m.length = 2)
    (fun m hm => by
      have := FindAllStringSubmatch_length reNoteBlock _ m hm
      simpa [reNoteBlock, RE.lit, groupCount] using this)
    (fun b m hm => by
      obtain ⟨k, hk⟩ := index_of_lt m 1 (by omega)
      simp only [Nat.cast_one] at hk
      simp only [hk, Option.some_bind]
      split_ifs
      · exact ⟨_, rfl⟩
      · exact ⟨_, rfl⟩) []
  rw [hn]
  exact ⟨_, rfl, rfl⟩

/-! ## `parseSlideContent` never fails -/

/-- The table loop, given enough fuel, consumes exactly the longest run of table
lines from line `n` on. -/
theorem tableLoop_eq (fuel : Nat) (lines : List GoString) (n : Nat) (acc : List GoString)
    (hn : n ≤ lines.length) (hf : lines.length < fuel + n) :
    parseSlideContent.tableLoop fuel lines (n : Int) acc =
      some (((n + ((lines.drop n).takeWhile isTableLine).length : Nat) : Int),
        acc ++ (lines.drop n).takeWhile isTableLine) := by
  induction fuel generalizing n acc with
  | zero => omega
  | succ fuel ih =>
    unfold parseSlideContent.tableLoop
    by_cases hn : n < lines.length
    · have hlt : (n : Int) < (lines.length : Int) := by exact_mod_cast hn
      rw [if_pos hlt, index_eq_some lines n hn]
      simp only [Option.some_bind]
      have hdrop : lines.drop n = lines[n] :: lines.drop (n + 1) := by
        rw [List.drop_eq_getElem_cons hn]
      rw [hdrop]
      by_cases hc : HasPrefix (TrimSpace lines[n]) "|".toList = true
      · rw [if_pos hc]
        have e : (n : Int) + 1 = ((n + 1 : Nat) : Int) := by push_cast; rfl
        rw [e, ih (n + 1) _ (by omega) (by omega)]
        have hi : isTableLine lines[n] = true := hc
        simp only [List.takeWhile_cons, hi, if_true, List.length_cons, List.append_assoc,
          List.singleton_append]
        congr 2
        push_cast
        omega
      · rw [if_neg hc]
        have hi : isTableLine lines[n] = false := by simpa [isTableLine] using hc
        simp [List.takeWhile_cons, hi]
    · have hlt : ¬ (n : Int) < (lines.length : Int) := by
        intro h; exact hn (by exact_mod_cast h)
      rw [if_neg hlt]
      have : lines.drop n = [] := List.drop_eq_nil_of_le (by omega)
      simp [this]

theorem sliceFrom_of_HasPrefix (t pre : GoString) (h : HasPrefix t pre = true) :
    sliceFrom t (pre.length : Int) = some (t.drop pre.length) :=
  sliceFrom_natCast t pre.length (HasPrefix_length_le t pre h)

theorem extractNumberedText_total (line : GoString) :
    ∃ r, extractNumberedText line = some r := by
  unfold extractNumberedText
  simp only
  split_ifs with h
  · exact index_of_lt _ 2 (by omega)
  · exact ⟨_, rfl⟩

theorem parseImageLine_total (line : GoString) : ∃ r, parseImageLine line = some r := by
  unfold parseImageLine
  simp only
  split_ifs with h
  · obtain ⟨a, ha⟩ := index_of_lt (FindStringSubmatch reImage line) 1 (by omega)
    obtain ⟨u, hu⟩ := index_of_lt (FindStringSubmatch reImage line) 2 (by omega)
    simp only [Nat.cast_one, Nat.cast_ofNat] at ha hu
    exact ⟨(a, u), by simp only [ha, hu, Option.some_bind]⟩
  · exact ⟨_, rfl⟩

/-- The part of the loop body of `parseSlideContent` for plain lines succeeds and
leaves the index on a line of the text, at or after the line it started from. -/
theorem parseSlideContent_plainLine_progress (lines : List GoString) (n : Nat)
    (st : contentState) (hn : n < lines.length) :
    ∃ (n' : Nat) (st' : contentState),
      parseSlideContent.plainLine lines (n : Int) lines[n] (TrimSpace lines[n]) st =
        some ((n' : Int), st') ∧ n ≤ n' ∧ n' < lines.length := by
  unfold parseSlideContent.plainLine
  by_cases h1 : HasPrefix (TrimSpace lines[n]) "# ".toList = true
  · rw [if_pos h1]
    by_cases ht : st.slide.Title = []
    · rw [if_pos ht]; exact ⟨n, _, rfl, le_refl _, hn⟩
    · rw [if_neg ht]; exact ⟨n, _, rfl, le_refl _, hn⟩
  rw [if_neg h1]
  by_cases h2 : HasPrefix (TrimSpace lines[n]) "## ".toList = true
  · rw [if_pos h2]
    by_cases ht : st.slide.Title = []
    · rw [if_pos ht]; exact ⟨n, _, rfl, le_refl _, hn⟩
    · rw [if_neg ht]
      by_cases hs : st.slide.Subtitle = []
      · rw [if_pos hs]; exact ⟨n, _, rfl, le_refl _, hn⟩
      · rw [if_neg hs]; exact ⟨n, _, rfl, le_refl _, hn⟩
  rw [if_neg h2]
  by_cases h3 : HasPrefix (TrimSpace lines[n]) "### ".toList = true
  · rw [if_pos h3]; exact ⟨n, _, rfl, le_refl _, hn⟩
  rw [if_neg h3]
  by_cases h4 : HasPrefix (TrimSpace lines[n]) "- ".toList = true ∨
      HasPrefix (TrimSpace lines[n]) "* ".toList = true
  · rw [if_pos h4]
    have : ∃ r, sliceFrom (TrimSpace lines[n]) 2 = some r := by
      rcases h4 with h | h
      · exact ⟨_, sliceFrom_of_HasPrefix _ _ h⟩
      · exact ⟨_, sliceFrom_of_HasPrefix _ _ h⟩
    obtain ⟨r, hr⟩ := this
    rw [hr]
    exact ⟨n, _, rfl, le_refl _, hn⟩
  rw [if_neg h4]
  by_cases h5 : isNumberedItem (TrimSpace lines[n]) = true
  · rw [if_pos h5]
    obtain ⟨r, hr⟩ := extractNumberedText_total (TrimSpace lines[n])
    rw [hr]
    exact ⟨n, _, rfl, le_refl _, hn⟩
  rw [if_neg h5]
  by_cases h6 : HasPrefix (TrimSpace lines[n]) "> ".toList = true
  · rw [if_pos h6]; exact ⟨n, _, rfl, le_refl _, hn⟩
  rw [if_neg h6]
  have himg : ∃ image : Option contentState,
      (if HasPrefix (TrimSpace lines[n]) "![".toList = true then
        (parseImageLine (TrimSpace lines[n])).bind fun r =>
          if r.2 ≠ [] then some (some (st.appendBody (NewImage r.2 r.1))) else some none
       else some none) = some image := by
    by_cases h7 : HasPrefix (TrimSpace lines[n]) "![".toList = true
    · rw [if_pos h7]
      obtain ⟨r, hr⟩ := parseImageLine_total (TrimSpace lines[n])
      rw [hr]
      simp only [Option.some_bind]
      by_cases h8 : r.2 ≠ []
      · rw [if_pos h8]; exact ⟨_, rfl⟩
      · rw [if_neg h8]; exact ⟨_, rfl⟩
    · rw [if_neg h7]; exact ⟨_, rfl⟩
  obtain ⟨image, hi⟩ := himg
  rw [hi]
  simp only [Option.some_bind]
  cases image with
  | some st' => exact ⟨n, _, rfl, le_refl _, hn⟩
  | none =>
    simp only
    by_cases ht : HasPrefix (TrimSpace lines[n]) "|".toList = true
    · rw [if_pos ht, tableLoop_eq _ lines n [] (by omega) (by omega)]
      simp only [Option.some_bind]
      have hdrop : lines.drop n = lines[n] :: lines.drop (n + 1) := by
        rw [List.drop_eq_getElem_cons hn]
      have hi : isTableLine lines[n] = true := ht
      have hpos : 1 ≤ ((lines.drop n).takeWhile isTableLine).length := by
        rw [hdrop, List.takeWhile_cons, hi]
        simp
      have hle := takeWhile_drop_length_le isTableLine lines n
      have e : ((n + ((lines.drop n).takeWhile isTableLine).length : Nat) : Int) - 1 =
          ((n + ((lines.drop n).takeWhile isTableLine).length - 1 : Nat) : Int) := by omega
      rw [e]
      exact ⟨_, _, rfl, by omega, by omega⟩
    · rw [if_neg ht]; exact ⟨n, _, rfl, le_refl _, hn⟩

/-- The loop body of `parseSlideContent` at a line of the text succeeds and leaves
the index on a line of the text, at or after the line it started from. -/
theorem parseSlideContent_step_progress (lines : List GoString) (n : Nat) (st : contentState)
    (hn : n < lines.length) :
    ∃ (n' : Nat) (st' : contentState),
      parseSlideContent.step lines (n : Int) st = some ((n' : Int), st') ∧
        n ≤ n' ∧ n' < lines.length := by
  unfold parseSlideContent.step
  rw [index_eq_some lines n hn]
  simp only [Option.some_bind]
  split_ifs
  all_goals first
    | exact ⟨n, _, rfl, le_refl _, hn⟩
    | exact parseSlideContent_plainLine_progress lines n st hn

/-- The line loop of `parseSlideContent` finishes within its fuel. -/
theorem parseSlideContent_loop_total (fuel : Nat) (lines : List GoString) (n : Nat)
    (st : contentState) (hn : n ≤ lines.length) (hf : lines.length < fuel + n) :
    ∃ st', parseSlideContent.loop fuel lines (n : Int) st = some st' := by
  induction fuel generalizing n st with
  | zero => exfalso; omega
  | succ fuel ih =>
    unfold parseSlideContent.loop
    by_cases hn : n < lines.length
    · have hlt : (n : Int) < (lines.length : Int) := by exact_mod_cast hn
      rw [if_pos hlt]
      obtain ⟨n', st', hs, h1, h2⟩ := parseSlideContent_step_progress lines n st hn
      rw [hs]
      simp only [Option.some_bind]
      have e : (n' : Int) + 1 = ((n' + 1 : Nat) : Int) := by push_cast; rfl
      rw [e]
      exact ih (n' + 1) st' (by omega) (by omega)
    · have hlt : ¬ (n : Int) < (lines.length : Int) := by
        intro h; exact hn (by exact_mod_cast h)
      rw [if_neg hlt]
      exact ⟨st, rfl⟩

/-- `parseSlideContent` never fails. -/
theorem parseSlideContent_total (slide : Slide) (content : GoString) :
    ∃ slide', parseSlideContent slide content = some slide' := by
  unfold parseSlideContent
  simp only
  obtain ⟨st, hst⟩ := parseSlideContent_loop_total ((Split content '\n').length + 1)
    (Split content '\n') 0 { slide := slide } (by omega) (by omega)
  simp only [Nat.cast_zero] at hst
  rw [hst]
  simp only [Option.some_bind]
  split_ifs
  · exact ⟨_, rfl⟩
  · exact ⟨_, rfl⟩
  · exact ⟨_, rfl⟩

/-- `convertToSlide` never fails. -/
theorem convertToSlide_total (ps : parsedSlide) (i j : Nat) :
    ∃ slide, convertToSlide ps i j = some slide := by
  unfold convertToSlide
  simp only
  obtain ⟨s, hs⟩ := parseSlideContent_total
    (if mapIndex ps.directives "_class".toList = "section-divider".toList then
      { ID := "s".toList ++ itoa i ++ "-".toList ++ itoa j, Layout := LayoutSection }
     else if mapIndex ps.directives "_class".toList = "lead".toList then
      { ID := "s".toList ++ itoa i ++ "-".toList ++ itoa j, Layout := LayoutTitle }
     else { ID := "s".toList ++ itoa i ++ "-".toList ++ itoa j, Layout := LayoutTitleBody })
    ps.content
  rw [hs]
  simp only [Option.some_bind]
  split_ifs
  · exact ⟨_, rfl⟩
  · exact ⟨_, rfl⟩

/-! ## `buildDeck`: grouping -/

theorem GoodGroups_nil : GoodGroups [] := by
  constructor <;> intro g hg <;> simp at hg

theorem GoodGroups_concat (gs : List sectionGroup) (g : sectionGroup) (h : GoodGroups gs)
    (h1 : g.slides ≠ []) (h2 : ∀ ps ∈ g.slides.tail, startsSection ps = false)
    (h3 : g.title = runTitle g.slides)
    (h4 : gs ≠ [] → ∀ ps ∈ g.slides.head?, startsSection ps = true) :
    GoodGroups (gs ++ [g]) := by
  constructor
  · intro g' hg'
    simp only [List.mem_append, List.mem_singleton] at hg'
    rcases hg' with hg' | hg'
    · exact h.1 g' hg'
    · subst hg'; exact ⟨h1, h2, h3⟩
  · intro g' hg'
    by_cases hne : gs = []
    · subst hne
      simp at hg'
    · rw [List.tail_append_of_ne_nil hne] at hg'
      simp only [List.mem_append, List.mem_singleton] at hg'
      rcases hg' with hg' | hg'
      · exact h.2 g' hg'
      · subst hg'; exact h4 hne

theorem tail_concat_mem {α : Type} (xs : List α) (x y : α) (h : y ∈ (xs ++ [x]).tail) :
    y ∈ xs.tail ∨ (xs ≠ [] ∧ y = x) := by
  cases xs with
  | nil => simp at h
  | cons a as =>
    simp only [List.cons_append, List.tail_cons, List.mem_append, List.mem_singleton] at h
    rcases h with h | h
    · left; simpa using h
    · right; exact ⟨by simp, h⟩

theorem runTitle_concat (run : List parsedSlide) (ps : parsedSlide)
    (h : run = [] → startsSection ps = false) : runTitle (run ++ [ps]) = runTitle run := by
  cases run with
  | nil =>
    have := h rfl
    simp [runTitle, this]
  | cons a as => simp [runTitle]

theorem GroupInv_flush_good (st : groupState) (pre : List parsedSlide) (h : GroupInv st pre) :
    GoodGroups st.flush ∧ (st.flush.map (·.slides)).flatten = pre := by
  obtain ⟨h1, h2, h3, h4, h5⟩ := h
  unfold groupState.flush
  by_cases hc : 0 < st.currentGroup.slides.length
  · rw [if_pos hc]
    have hne : st.currentGroup.slides ≠ [] := List.length_pos.mp hc
    refine ⟨GoodGroups_concat _ _ h1 hne h2 h3 (fun hg => (h4 hg).2), ?_⟩
    rw [List.map_append, List.flatten_append]
    simpa using h5
  · rw [if_neg hc]
    have he : st.currentGroup.slides = [] := by
      cases hs : st.currentGroup.slides with
      | nil => rfl
      | cons a as => rw [hs] at hc; simp at hc
    refine ⟨h1, ?_⟩
    rw [he] at h5
    simpa using h5

theorem GroupInv_step (st : groupState) (pre : List parsedSlide) (ps : parsedSlide)
    (h : GroupInv st pre) : GroupInv (buildDeck.groupStep st ps) (pre ++ [ps]) := by
  have hflush := GroupInv_flush_good st pre h
  obtain ⟨h1, h2, h3, h4, h5⟩ := h
  unfold buildDeck.groupStep
  simp only
  by_cases hd : mapIndex ps.directives "_class".toList = "section-divider".toList ∨
      mapIndex ps.directives "_class".toList = "lead".toList
  · rw [if_pos hd]
    have hs : startsSection ps = true := by simpa [startsSection] using hd
    refine ⟨hflush.1, ?_, ?_, ?_, ?_⟩
    · intro p hp; simp at hp
    · simp [runTitle, hs]
    · intro _
      refine ⟨by simp, ?_⟩
      intro p hp
      simp only [List.nil_append, List.head?_cons, Option.mem_def, Option.some.injEq] at hp
      subst hp; exact hs
    · have := hflush.2
      unfold groupState.flush at this
      simp only [List.nil_append]
      rw [this]
  · rw [if_neg hd]
    have hs : startsSection ps = false := by simpa [startsSection] using hd
    refine ⟨h1, ?_, ?_, ?_, ?_⟩
    · intro p hp
      simp only at hp
      rcases tail_concat_mem _ _ _ hp with hp | ⟨_, hp⟩
      · exact h2 p hp
      · subst hp; exact hs
    · simp only
      rw [runTitle_concat _ _ (fun _ => hs)]
      exact h3
    · intro hg
      obtain ⟨hne, hh⟩ := h4 hg
      refine ⟨by simp, ?_⟩
      simp only
      rw [List.head?_append_of_ne_nil _ hne]
      exact hh
    · simp only
      rw [← List.append_assoc, h5]

theorem GroupInv_foldl (slides : List parsedSlide) (st : groupState) (pre : List parsedSlide)
    (h : GroupInv st pre) :
    GroupInv (slides.foldl buildDeck.groupStep st) (pre ++ slides) := by
  induction slides generalizing st pre with
  | nil => simpa using h
  | cons ps rest ih =>
    simp only [List.foldl_cons]
    have := ih _ _ (GroupInv_step st pre ps h)
    simpa using this

/-- The groups of `buildDeck` are well formed and hold the fragments in order. -/
theorem groupSlides_good (slides : List parsedSlide) :
    GoodGroups (buildDeck.groupSlides slides) ∧
      ((buildDeck.groupSlides slides).map (·.slides)).flatten = slides := by
  have hinit : GroupInv { currentGroup := { title := "default".toList } } [] := by
    refine ⟨GoodGroups_nil, ?_, ?_, ?_, ?_⟩
    · intro p hp; simp at hp
    · simp [runTitle]
    · intro h; simp at h
    · simp
  have := GroupInv_flush_good _ _ (GroupInv_foldl slides _ _ hinit)
  simpa [buildDeck.groupSlides, groupState.flush] using this

/-! ## `buildDeck`: conversion -/

theorem convertSlides_spec (i j : Nat) (pss : List parsedSlide) :
    ∃ slides, buildDeck.convertSlides i j pss = some slides ∧
      List.Forall₂ (fun slide ps => ∃ i j, convertToSlide ps i j = some slide) slides pss := by
  induction pss generalizing j with
  | nil => exact ⟨[], rfl, List.Forall₂.nil⟩
  | cons ps rest ih =>
    obtain ⟨slide, hs⟩ := convertToSlide_total ps i j
    obtain ⟨slides, hr, hf⟩ := ih (j + 1)
    refine ⟨slide :: slides, ?_, List.Forall₂.cons ⟨i, j, hs⟩ hf⟩
    simp only [buildDeck.convertSlides, hs, hr, Option.some_bind]

theorem convertGroups_spec (i : Nat) (gs : List sectionGroup)
    (ht : ∀ g ∈ gs, g.title = runTitle g.slides) :
    ∃ secs, buildDeck.convertGroups i gs = some secs ∧
      List.Forall₂ SectionOfRun secs (gs.map (·.slides)) := by
  induction gs generalizing i with
  | nil => exact ⟨[], rfl, List.Forall₂.nil⟩
  | cons g rest ih =>
    obtain ⟨slides, hs, hf⟩ := convertSlides_spec i 0 g.slides
    obtain ⟨secs, hr, hfr⟩ := ih (i + 1) (fun g' hg' => ht g' (by simp [hg']))
    refine ⟨{ ID := "section-".toList ++ itoa i, Title := g.title, Slides := slides } :: secs,
      ?_, ?_⟩
    · simp only [buildDeck.convertGroups, hs, hr, Option.some_bind]
    · simp only [List.map_cons]
      exact List.Forall₂.cons ⟨ht g (by simp), hf⟩ hfr

/-! ## `buildDeck` and `Parse` as a whole -/

/-- The deck that `buildDeck` returns, field by field. -/
theorem buildDeck_eq (fm : Frontmatter) (slides : List parsedSlide) :
    ∃ secs, buildDeck.convertGroups 0 (buildDeck.groupSlides slides) = some secs ∧
      List.Forall₂ SectionOfRun secs ((buildDeck.groupSlides slides).map (·.slides)) ∧
      ∃ deck, buildDeck fm slides = some deck ∧ deck.Sections = secs ∧
        deck.Title = deckTitleOf secs ∧
        deck.Meta.Custom = fm.Custom.foldl (fun custom e => mapSet custom e.1 e.2) [] ∧
        deck.Theme =
          (if fm.Theme ≠ [] then
            if fm.Style ≠ [] then
              some (Theme.SetCustom { Name := fm.Theme } "style".toList fm.Style)
            else some { Name := fm.Theme }
           else none) := by
  obtain ⟨secs, hc, hf⟩ := convertGroups_spec 0 (buildDeck.groupSlides slides)
    (fun g hg => ((groupSlides_good slides).1.1 g hg).2.2)
  refine ⟨secs, hc, hf, ?_⟩
  unfold buildDeck
  simp only [hc, Option.some_bind]
  cases secs with
  | nil => exact ⟨_, rfl, rfl, rfl, rfl, rfl⟩
  | cons sec rest =>
    simp only
    cases hs : sec.Slides with
    | nil => exact ⟨_, rfl, rfl, by simp [deckTitleOf, hs], rfl, rfl⟩
    | cons first more => exact ⟨_, rfl, rfl, by simp [deckTitleOf, hs], rfl, rfl⟩

theorem parseFrontmatter_total (content : GoString) :
    ∃ fm body, parseFrontmatter content = some (fm, body) := by
  rcases parseFrontmatter_eq content with ⟨_, h⟩ | ⟨_, _, fm, _, h⟩
  · exact ⟨_, _, h⟩
  · exact ⟨_, _, h⟩

/-- The loop of `Parse` over the raw slides parses each of them, in order. -/
theorem Parse_rawSlides_loop (raws : List GoString) (acc : List parsedSlide) :
    ∃ pss, raws.foldlM
        (fun (slides : List parsedSlide) raw =>
          (parseRawSlide raw).bind fun ps => some (slides ++ [ps])) acc = some (acc ++ pss) ∧
      List.Forall₂ (fun ps raw => parseRawSlide raw = some ps) pss raws := by
  induction raws generalizing acc with
  | nil => exact ⟨[], by simp, List.Forall₂.nil⟩
  | cons raw rest ih =>
    obtain ⟨ps, hps, _⟩ := parseRawSlide_total raw
    obtain ⟨pss, hr, hf⟩ := ih (acc ++ [ps])
    refine ⟨ps :: pss, ?_, List.Forall₂.cons hps hf⟩
    simp only [List.foldlM_cons, hps, Option.bind_eq_bind, Option.some_bind]
    rw [hr]
    simp

/-- `Parse` succeeds, and its deck is the one `buildDeck` makes of the parsed
fragments of the body. -/
theorem Parse_eq (content : GoString) :
    ∃ fm body pss deck, parseFrontmatter content = some (fm, body) ∧
      List.Forall₂ (fun ps raw => parseRawSlide raw = some ps) pss (splitSlides body) ∧
      buildDeck fm pss = some deck ∧
      Parse content = some (some deck, none) := by
  obtain ⟨fm, body, hfm⟩ := parseFrontmatter_total content
  obtain ⟨pss, hl, hf⟩ := Parse_rawSlides_loop (splitSlides body) []
  obtain ⟨_, _, _, deck, hd, _⟩ := buildDeck_eq fm pss
  refine ⟨fm, body, pss, deck, hfm, hf, hd, ?_⟩
  unfold Parse
  simp only [hfm, Option.some_bind]
  rw [hl]
  simp only [List.nil_append, Option.some_bind, hd]

/-- C2: for every input string `Parse` returns a deck and a nil error: no slice or
index expression goes out of range and every loop finishes. -/
theorem Parse_never_fails (content : GoString) :
    ∃ deck, Parse content = some (some deck, none) := by
  obtain ⟨_, _, _, deck, _, _, _, h⟩ := Parse_eq content
  exact ⟨deck, h⟩

/-! ## Sections, slides and fragments -/

theorem AllSlides_eq (d : Deck) : d.AllSlides = (d.Sections.map (·.Slides)).flatten := by
  have key : ∀ (secs : List Section) (acc : List Slide),
      secs.foldl (fun slides s => slides ++ s.Slides) acc =
        acc ++ (secs.map (·.Slides)).flatten := by
    intro secs
    induction secs with
    | nil => intro acc; simp
    | cons s rest ih => intro acc; simp [ih]
  simpa [Deck.AllSlides] using key d.Sections []

theorem SlideCount_eq (d : Deck) : d.SlideCount = (d.AllSlides.length : Int) := by
  have key : ∀ (secs : List Section) (acc : Int),
      secs.foldl (fun count s => count + (s.Slides.length : Int)) acc =
        acc + (((secs.map (·.Slides)).flatten.length : Nat) : Int) := by
    intro secs
    induction secs with
    | nil => intro acc; simp
    | cons s rest ih =>
      intro acc
      simp only [List.foldl_cons, ih, List.map_cons, List.flatten_cons, List.length_append]
      push_cast
      omega
  rw [AllSlides_eq]
  simpa [Deck.SlideCount] using key d.Sections 0

theorem Forall₂_comp {α β γ : Type} {R : α → β → Prop} {S : β → γ → Prop}
    {as : List α} {bs : List β} {cs : List γ} (h1 : List.Forall₂ R as bs)
    (h2 : List.Forall₂ S bs cs) : List.Forall₂ (fun a c => ∃ b, R a b ∧ S b c) as cs := by
  induction h1 generalizing cs with
  | nil =>
    cases h2
    exact List.Forall₂.nil
  | cons hr _ ih =>
    cases h2 with
    | cons hs hrest => exact List.Forall₂.cons ⟨_, hr, hs⟩ (ih hrest)

theorem SectionOfRun_flatten (secs : List Section) (runs : List (List parsedSlide))
    (h : List.Forall₂ SectionOfRun secs runs) :
    List.Forall₂ (fun slide ps => ∃ i j, convertToSlide ps i j = some slide)
      (secs.map (·.Slides)).flatten runs.flatten := by
  induction h with
  | nil => exact List.Forall₂.nil
  | cons hr _ ih =>
    simp only [List.map_cons, List.flatten_cons]
    exact List.rel_append hr.2 ih

theorem SectionOfRun_nonempty (secs : List Section) (runs : List (List parsedSlide))
    (h : List.Forall₂ SectionOfRun secs runs) (hne : ∀ r ∈ runs, r ≠ []) :
    ∀ sec ∈ secs, sec.Slides ≠ [] := by
  induction h with
  | nil => intro sec hs; simp at hs
  | cons hr _ ih =>
    intro sec hs
    simp only [List.mem_cons] at hs
    rcases hs with hs | hs
    · subst hs
      intro e
      have hl := hr.2.length_eq
      rw [e] at hl
      exact hne _ (by simp) (List.length_eq_zero.mp hl.symm)
    · exact ih (fun r hr' => hne r (by simp [hr'])) sec hs

/-- The deck of `Parse` in terms of the fragments of the body: its sections convert
the runs of the grouping, which together are the parsed fragments in order. -/
theorem Parse_structure (content : GoString) :
    ∃ fm body pss deck, parseFrontmatter content = some (fm, body) ∧
      List.Forall₂ (fun ps raw => parseRawSlide raw = some ps) pss (splitSlides body) ∧
      buildDeck fm pss = some deck ∧
      Parse content = some (some deck, none) ∧
      ∃ runs : List (List parsedSlide), runs.flatten = pss ∧
        runs = (buildDeck.groupSlides pss).map (·.slides) ∧
        GoodGroups (buildDeck.groupSlides pss) ∧
        List.Forall₂ SectionOfRun deck.Sections runs ∧
        deck.Title = deckTitleOf deck.Sections := by
  obtain ⟨fm, body, pss, deck, h1, h2, h3, h4⟩ := Parse_eq content
  obtain ⟨secs, _, hf, deck', hd, hs, ht, _⟩ := buildDeck_eq fm pss
  rw [h3] at hd
  simp only [Option.some.injEq] at hd
  subst hd
  obtain ⟨hg, hfl⟩ := groupSlides_good pss
  refine ⟨fm, body, pss, deck, h1, h2, h3, h4, _, hfl, rfl, hg, ?_, ?_⟩
  · rw [hs]; exact hf
  · rw [ht, hs]

/-- C3: the slides of `Parse(text)`, flattened in section order, correspond one to
one and in order to the fragments that `splitSlides` returns for the body, so the
slide count is the fragment count; every section has at least one slide; and a text
of white space only gives a deck with no section, no slide and an empty title. -/
theorem Parse_slides_correspond_to_fragments (text : GoString) :
    ∃ deck fm body, parseFrontmatter text = some (fm, body) ∧
      Parse text = some (some deck, none) ∧
      List.Forall₂
        (fun slide raw => ∃ ps i j, parseRawSlide raw = some ps ∧
          convertToSlide ps i j = some slide)
        deck.AllSlides (splitSlides body) ∧
      deck.SlideCount = ((splitSlides body).length : Int) ∧
      (∀ sec ∈ deck.Sections, sec.Slides ≠ []) ∧
      ((∀ c ∈ text, isSpace c = true) →
        deck.Sections = [] ∧ deck.SlideCount = 0 ∧ deck.Title = []) := by
  obtain ⟨fm, body, pss, deck, h1, h2, h3, h4, runs, hfl, hruns, hg, hsec, htitle⟩ :=
    Parse_structure text
  have hall : List.Forall₂
      (fun slide raw => ∃ ps i j, parseRawSlide raw = some ps ∧
        convertToSlide ps i j = some slide)
      deck.AllSlides (splitSlides body) := by
    have ha := SectionOfRun_flatten _ _ hsec
    rw [hfl, ← AllSlides_eq] at ha
    refine (Forall₂_comp ha h2).imp ?_
    rintro slide raw ⟨ps, ⟨i, j, hc⟩, hp⟩
    exact ⟨ps, i, j, hp, hc⟩
  have hcount : deck.SlideCount = ((splitSlides body).length : Int) := by
    rw [SlideCount_eq, hall.length_eq]
  have hne : ∀ sec ∈ deck.Sections, sec.Slides ≠ [] := by
    apply SectionOfRun_nonempty _ _ hsec
    intro r hr
    rw [hruns] at hr
    simp only [List.mem_map] at hr
    obtain ⟨g, hg', e⟩ := hr
    rw [← e]
    exact (hg.1 g hg').1
  refine ⟨deck, fm, body, h1, h4, hall, hcount, hne, ?_⟩
  intro hsp
  have htrim : TrimSpace text = [] := (TrimSpace_eq_nil_iff text).mpr hsp
  have hfm := parseFrontmatter_of_no_fence text (by rw [htrim]; decide)
  rw [h1, htrim] at hfm
  simp only [Option.some.injEq, Prod.mk.injEq] at hfm
  obtain ⟨_, hb⟩ := hfm
  have hz : deck.SlideCount = 0 := by
    rw [hcount, hb]
    decide
  have hsecs : deck.Sections = [] := by
    cases hs : deck.Sections with
    | nil => rfl
    | cons sec rest =>
      exfalso
      have hne1 := hne sec (by simp [hs])
      have : deck.AllSlides.length = 0 := by
        have := SlideCount_eq deck
        omega
      rw [AllSlides_eq, hs] at this
      simp only [List.map_cons, List.flatten_cons, List.length_append] at this
      exact hne1 (List.length_eq_zero.mp (by omega))
  refine ⟨hsecs, hz, ?_⟩
  rw [htitle, hsecs]
  rfl

theorem Parse_slides_correspond_to_fragments_witness :
    ∃ deck, Parse " \n\t ".toList = some (some deck, none) ∧
      deck.Sections = [] ∧ deck.SlideCount = 0 ∧ deck.Title = [] := by
  obtain ⟨deck, _, _, _, hp, _, _, _, h⟩ :=
    Parse_slides_correspond_to_fragments " \n\t ".toList
  exact ⟨deck, hp, h (by decide)⟩

/-! ## Sections are the runs that begin at section-starting fragments -/

/-- An element of a flattened list of lists lies in one of the lists. -/
theorem flatten_eq_append_cons {α : Type} (L : List (List α)) (pre post : List α) (x : α)
    (h : L.flatten = pre ++ x :: post) :
    ∃ rs1 a b rs2, L = rs1 ++ (a ++ x :: b) :: rs2 ∧ pre = rs1.flatten ++ a ∧
      post = b ++ rs2.flatten := by
  induction L generalizing pre with
  | nil => simp at h
  | cons r L' ih =>
    simp only [List.flatten_cons] at h
    rw [List.append_eq_append_iff] at h
    rcases h with ⟨a', h1, h2⟩ | ⟨c', h1, h2⟩
    · obtain ⟨rs1, a, b, rs2, hL, hpre, hpost⟩ := ih a' h2
      refine ⟨r :: rs1, a, b, rs2, by simp [hL], ?_, hpost⟩
      rw [h1, hpre]
      simp
    · cases c' with
      | nil =>
        simp only [List.nil_append] at h2
        obtain ⟨rs1, a, b, rs2, hL, hpre, hpost⟩ := ih [] (by simpa using h2.symm)
        refine ⟨r :: rs1, a, b, rs2, by simp [hL], ?_, hpost⟩
        simp only [List.append_nil] at h1
        rw [h1]
        simpa using hpre
      | cons y c'' =>
        simp only [List.cons_append, List.cons.injEq] at h2
        obtain ⟨hy, hpost⟩ := h2
        subst hy
        exact ⟨[], pre, c'', L', by simp [h1], by simp, hpost⟩

/-- In well-formed runs, a fragment that is not the first of all is the first of a
run exactly when it starts a section. -/
theorem runs_start_iff (runs : List (List parsedSlide))
    (htail : ∀ r ∈ runs, ∀ ps ∈ r.tail, startsSection ps = false)
    (hhead : ∀ r ∈ runs.tail, ∀ ps ∈ r.head?, startsSection ps = true)
    (pre post : List parsedSlide) (ps : parsedSlide)
    (h : runs.flatten = pre ++ ps :: post) (hpre : pre ≠ []) :
    startsSection ps = true ↔
      ∃ rs1 r rs2, runs = rs1 ++ (ps :: r) :: rs2 ∧ rs1.flatten = pre := by
  constructor
  · intro hs
    obtain ⟨rs1, a, b, rs2, hL, hp, _⟩ := flatten_eq_append_cons runs pre post ps h
    cases a with
    | nil => exact ⟨rs1, b, rs2, by simpa using hL, by simpa using hp.symm⟩
    | cons y a' =>
      exfalso
      have hmem : (y :: a' ++ ps :: b) ∈ runs := by rw [hL]; simp
      have := htail _ hmem ps (by simp)
      rw [hs] at this
      exact absurd this (by simp)
  · rintro ⟨rs1, r, rs2, hL, hp⟩
    have hrs1 : rs1 ≠ [] := by
      intro e; subst e; simp at hp; exact hpre hp
    have hmem : (ps :: r) ∈ runs.tail := by
      rw [hL, List.tail_append_of_ne_nil hrs1]
      simp
    exact hhead _ hmem ps (by simp)

/-- C9, as the code has it: the sections of `buildDeck` are the maximal runs of
consecutive fragments that begin at a fragment whose `_class` directive is
`section-divider` or `lead`, preceded by a leading section titled `default` holding
the fragments before the first such fragment when there are any.  The runs together
are the fragments in order, none is empty, a section-starting fragment is always the
first of its run, every run but the first begins with one, and each section carries
the title of its run and one slide per fragment; so a fragment at a position after
the first is the first slide of a section exactly when it starts a section. -/
theorem buildDeck_sections_are_runs (fm : Frontmatter) (slides : List parsedSlide) :
    ∃ (deck : Deck) (runs : List (List parsedSlide)),
      buildDeck fm slides = some deck ∧
      runs.flatten = slides ∧
      (∀ r ∈ runs, r ≠ []) ∧
      (∀ r ∈ runs, ∀ ps ∈ r.tail, startsSection ps = false) ∧
      (∀ r ∈ runs.tail, ∀ ps ∈ r.head?, startsSection ps = true) ∧
      List.Forall₂ SectionOfRun deck.Sections runs ∧
      (∀ pre ps post, slides = pre ++ ps :: post → pre ≠ [] →
        (startsSection ps = true ↔
          ∃ rs1 r rs2, runs = rs1 ++ (ps :: r) :: rs2 ∧ rs1.flatten = pre)) := by
  obtain ⟨secs, _, hf, deck, hd, hs, _⟩ := buildDeck_eq fm slides
  obtain ⟨hg, hfl⟩ := groupSlides_good slides
  have hne : ∀ r ∈ (buildDeck.groupSlides slides).map (·.slides), r ≠ [] := by
    intro r hr
    simp only [List.mem_map] at hr
    obtain ⟨g, hg', e⟩ := hr
    rw [← e]; exact (hg.1 g hg').1
  have htail : ∀ r ∈ (buildDeck.groupSlides slides).map (·.slides),
      ∀ ps ∈ r.tail, startsSection ps = false := by
    intro r hr
    simp only [List.mem_map] at hr
    obtain ⟨g, hg', e⟩ := hr
    rw [← e]; exact (hg.1 g hg').2.1
  have hhead : ∀ r ∈ ((buildDeck.groupSlides slides).map (·.slides)).tail,
      ∀ ps ∈ r.head?, startsSection ps = true := by
    intro r hr
    rw [← List.map_tail] at hr
    simp only [List.mem_map] at hr
    obtain ⟨g, hg', e⟩ := hr
    rw [← e]; exact hg.2 g hg'
  refine ⟨deck, _, hd, hfl, hne, htail, hhead, by rw [hs]; exact hf, ?_⟩
  intro pre ps post hsl hpre
  exact runs_start_iff _ htail hhead pre post ps (by rw [hfl, hsl]) hpre

theorem buildDeck_sections_are_runs_witness :
    ∃ (deck : Deck) (runs : List (List parsedSlide)),
      buildDeck {} [fragmentPlain, fragmentDivider] = some deck ∧
      List.Forall₂ SectionOfRun deck.Sections runs ∧
      (startsSection fragmentDivider = true ↔
        ∃ rs1 r rs2, runs = rs1 ++ (fragmentDivider :: r) :: rs2 ∧
          rs1.flatten = [fragmentPlain]) := by
  obtain ⟨deck, runs, h1, _, _, _, _, h6, h7⟩ :=
    buildDeck_sections_are_runs {} [fragmentPlain, fragmentDivider]
  exact ⟨deck, runs, h1, h6, h7 _ _ [] rfl (by simp)⟩

/-- C9 as stated fails: of the two fragments `# A` and `<!-- _class: lead -->` with
`# B`, the second is the first slide of a section of its own, yet its `_class`
directive is `lead`, not `section-divider`. -/
theorem buildDeck_lead_starts_section_counterexample :
    parseRawSlide "# A".toList = some fragmentPlain ∧
    parseRawSlide "<!-- _class: lead -->\n# B".toList = some fragmentLead ∧
    (buildDeck {} [fragmentPlain, fragmentLead]).map
        (fun deck => deck.Sections.map (fun sec => sec.Slides.map (·.Title))) =
      some [["A".toList], ["B".toList]] ∧
    mapIndex fragmentLead.directives "_class".toList ≠ "section-divider".toList := by
  decide

/-! ## Lines, `Split` and `Join` -/

theorem Join_nil (sep : GoString) : Join [] sep = [] := rfl

theorem Join_singleton (l sep : GoString) : Join [l] sep = l := by
  simp [Join, List.intercalate, List.intersperse]

theorem Join_cons_cons (l l2 : GoString) (rest : List GoString) (sep : GoString) :
    Join (l :: l2 :: rest) sep = l ++ sep ++ Join (l2 :: rest) sep := by
  simp [Join, List.intercalate, List.intersperse]

theorem Join_cons_of_ne_nil (l : GoString) (rest : List GoString) (sep : GoString)
    (h : rest ≠ []) : Join (l :: rest) sep = l ++ sep ++ Join rest sep := by
  obtain ⟨l2, rest', e⟩ := List.exists_cons_of_ne_nil h
  subst e
  exact Join_cons_cons l l2 rest' sep

theorem Split_of_not_mem (l : GoString) (sep : Char) (h : sep ∉ l) : Split l sep = [l] := by
  induction l with
  | nil => rfl
  | cons c cs ih =>
    have hc : c ≠ sep := fun e => h (by simp [e])
    have hcs : sep ∉ cs := fun e => h (by simp [e])
    rw [Split_cons_ne c cs sep hc, ih hcs]
    rfl

theorem Split_append_sep (l : GoString) (sep : Char) (h : sep ∉ l) (t : GoString) :
    Split (l ++ sep :: t) sep = l :: Split t sep := by
  induction l with
  | nil => simp [Split]
  | cons c cs ih =>
    have hc : c ≠ sep := fun e => h (by simp [e])
    have hcs : sep ∉ cs := fun e => h (by simp [e])
    rw [List.cons_append, Split_cons_ne c _ sep hc, ih hcs]
    rfl

/-- Splitting the join of lines that contain no separator gives the lines back. -/
theorem Split_Join (lines : List GoString) (sep : Char) (hne : lines ≠ [])
    (h : ∀ l ∈ lines, sep ∉ l) : Split (Join lines [sep]) sep = lines := by
  induction lines with
  | nil => exact absurd rfl hne
  | cons l rest ih =>
    cases rest with
    | nil =>
      rw [Join_singleton]
      exact Split_of_not_mem l sep (h l (by simp))
    | cons l2 rest' =>
      rw [Join_cons_cons]
      have := ih (by simp) (fun x hx => h x (by simp [hx]))
      rw [List.append_assoc, List.singleton_append, Split_append_sep l sep (h l (by simp)), this]

/-! ## Finding the closing fence -/

/-- `strings.Index` skips a part of the text in which no occurrence starts. -/
theorem Index_skip (pre t sub : GoString)
    (hno : ∀ k, k < pre.length → HasPrefix ((pre ++ t).drop k) sub = false) :
    Index (pre ++ t) sub =
      if Index t sub < 0 then -1 else (pre.length : Int) + Index t sub := by
  induction pre with
  | nil =>
    have := Index_ge_neg_one t sub
    simp only [List.nil_append, List.length_nil, Nat.cast_zero, zero_add]
    split_ifs <;> omega
  | cons c cs ih =>
    have h0 : HasPrefix (c :: (cs ++ t)) sub = false := hno 0 (by simp)
    have ih' := ih (fun k hk => by
      have := hno (k + 1) (by simpa using hk)
      simpa using this)
    show Index (c :: (cs ++ t)) sub = _
    simp only [Index]
    rw [if_neg (by simp [h0]), ih']
    simp only [List.length_cons, Nat.cast_add, Nat.cast_one]
    have := Index_ge_neg_one t sub
    split_ifs <;> omega

theorem HasPrefix_false_of_head_ne (s sub : GoString) (c d : Char) (hs : s.head? = some c)
    (hsub : sub.head? = some d) (h : c ≠ d) : HasPrefix s sub = false := by
  cases s with
  | nil => simp at hs
  | cons a as =>
    cases sub with
    | nil => simp at hsub
    | cons b bs =>
      simp only [List.head?_cons, Option.some.injEq] at hs hsub
      subst hs hsub
      rw [HasPrefix_cons_cons]
      simp [h]

/-- A line without a newline that does not start with `---`, followed by a newline,
does not start with `---` either. -/
theorem not_fence_append (l Y : GoString) (hnl : '\n' ∉ l)
    (hf : HasPrefix l "---".toList = false) (hY : Y.head? = some '\n') :
    HasPrefix (l ++ Y) "---".toList = false := by
  have e : "---".toList = ['-', '-', '-'] := rfl
  rw [e] at hf ⊢
  obtain ⟨y, Y', rfl⟩ : ∃ y Y', Y = y :: Y' := by
    cases Y with
    | nil => simp at hY
    | cons y Y' => exact ⟨y, Y', rfl⟩
  simp only [List.head?_cons, Option.some.injEq] at hY
  subst hY
  match l, hnl, hf with
  | [], _, _ => simp [HasPrefix_cons_cons]
  | [a], _, _ => simp [HasPrefix_cons_cons]
  | [a, b], _, _ => simp [HasPrefix_cons_cons]
  | a :: b :: c :: l', _, hf =>
    simp only [HasPrefix_cons_cons, HasPrefix_nil, Bool.and_true] at hf
    simp only [List.cons_append, HasPrefix_cons_cons, HasPrefix_nil, Bool.and_true]
    exact hf

theorem Join_append_head (ls : List GoString) (tail : GoString) (hne : ls ≠ [])
    (ht : tail.head? = some '\n') :
    ∃ Y, Join ls "\n".toList ++ tail = ls.head hne ++ Y ∧ Y.head? = some '\n' := by
  cases ls with
  | nil => exact absurd rfl hne
  | cons l rest =>
    cases rest with
    | nil => exact ⟨tail, by simp [Join_singleton], ht⟩
    | cons l2 rest' =>
      refine ⟨"\n".toList ++ Join (l2 :: rest') "\n".toList ++ tail, ?_, ?_⟩
      · rw [Join_cons_cons]; simp
      · rfl

/-- In a text made of lines none of which, after the first, starts with `---`, the
first `\n---` is the one that follows the lines. -/
theorem Index_fence_lines (ls : List GoString) (tail : GoString) (hls : ls ≠ [])
    (hnl : ∀ l ∈ ls, '\n' ∉ l) (hf : ∀ l ∈ ls.tail, HasPrefix l "---".toList = false)
    (ht : HasPrefix tail "\n---".toList = true) :
    Index (Join ls "\n".toList ++ tail) "\n---".toList = ((Join ls "\n".toList).length : Int) := by
  have hthead : tail.head? = some '\n' := by
    cases tail with
    | nil => simp [HasPrefix, List.isPrefixOf] at ht
    | cons a as =>
      have e : "\n---".toList = ['\n', '-', '-', '-'] := rfl
      rw [e, HasPrefix_cons_cons] at ht
      simp only [Bool.and_eq_true, decide_eq_true_eq] at ht
      simp [ht.1]
  have hline : ∀ (l t : GoString), '\n' ∉ l → ∀ k, k < l.length →
      HasPrefix ((l ++ t).drop k) "\n---".toList = false := by
    intro l t hl k hk
    have hd : (l ++ t).drop k = l[k] :: (l.drop (k + 1) ++ t) := by
      rw [List.drop_append_of_le_length (by omega), List.drop_eq_getElem_cons hk]
      rfl
    rw [hd]
    apply HasPrefix_false_of_head_ne (l[k] :: (l.drop (k + 1) ++ t)) "\n---".toList
      l[k] '\n' rfl rfl
    intro e
    exact hl (e ▸ List.getElem_mem hk)
  induction ls with
  | nil => exact absurd rfl hls
  | cons l rest ih =>
    cases rest with
    | nil =>
      rw [Join_singleton]
      exact Index_append l tail _ ht (hline l tail (hnl l (by simp)))
    | cons l2 rest' =>
      have ih' := ih (by simp) (fun x hx => hnl x (by simp [hx]))
        (fun x hx => hf x (by
          simp only [List.tail_cons] at hx ⊢
          exact List.mem_of_mem_tail hx))
      rw [Join_cons_cons]
      have hassoc : l ++ "\n".toList ++ Join (l2 :: rest') "\n".toList ++ tail =
          (l ++ ['\n']) ++ (Join (l2 :: rest') "\n".toList ++ tail) := by
        simp
      rw [hassoc, Index_skip]
      · rw [ih']
        have hnn : ¬ ((Join (l2 :: rest') "\n".toList).length : Int) < 0 := by omega
        rw [if_neg hnn]
        simp only [List.length_append, List.length_singleton, List.length_cons,
          List.length_nil]
        push_cast
        have : "\n".toList.length = 1 := rfl
        omega
      · intro k hk
        simp only [List.length_append, List.length_singleton] at hk
        by_cases hkl : k < l.length
        · have := hline l (['\n'] ++ (Join (l2 :: rest') "\n".toList ++ tail))
            (hnl l (by simp)) k hkl
          simpa using this
        · have hk' : k = l.length := by omega
          subst hk'
          have hd : ((l ++ ['\n']) ++ (Join (l2 :: rest') "\n".toList ++ tail)).drop l.length =
              '\n' :: (Join (l2 :: rest') "\n".toList ++ tail) := by
            rw [List.append_assoc, List.drop_left]
            rfl
          rw [hd]
          have e : "\n---".toList = '\n' :: "---".toList := rfl
          rw [e, HasPrefix_cons_cons]
          obtain ⟨Y, hY, hYh⟩ := Join_append_head (l2 :: rest') tail (by simp) hthead
          rw [hY]
          simp only [List.head_cons, decide_True, Bool.true_and]
          exact not_fence_append l2 Y (hnl l2 (by simp)) (hf l2 (by simp)) hYh

/-! ## `parseFrontmatter` on a fenced header -/

theorem dropWhile_isSpace_of_head (x : GoString) (hx : x ≠ [])
    (hh : isSpace (x.head hx) = false) : x.dropWhile isSpace = x := by
  cases x with
  | nil => exact absurd rfl hx
  | cons a as =>
    simp only [List.head_cons] at hh
    simp [List.dropWhile, hh]

theorem rdropWhile_append_of_getLast (x B : GoString) (hx : x ≠ [])
    (hl : isSpace (x.getLast hx) = false) :
    List.rdropWhile isSpace (x ++ B) = x ++ List.rdropWhile isSpace B := by
  induction B using List.reverseRecOn with
  | nil =>
    simp only [List.append_nil, List.rdropWhile_nil]
    rw [List.rdropWhile_eq_self_iff]
    intro _
    simp [hl]
  | append_singleton B' c ih =>
    by_cases hc : isSpace c = true
    · rw [← List.append_assoc, List.rdropWhile_concat_pos _ _ _ hc,
        List.rdropWhile_concat_pos _ _ _ hc, ih]
    · rw [← List.append_assoc, List.rdropWhile_concat_neg _ _ _ hc,
        List.rdropWhile_concat_neg _ _ _ hc]
      simp

/-- Trimming a text that starts with a part without surrounding white space only
trims the end of what follows that part. -/
theorem TrimSpace_append_right (x B : GoString) (hx : x ≠ [])
    (hh : isSpace (x.head hx) = false) (hl : isSpace (x.getLast hx) = false) :
    TrimSpace (x ++ B) = x ++ List.rdropWhile isSpace B := by
  have hne : x ++ B ≠ [] := by simp [hx]
  have hhead : isSpace ((x ++ B).head hne) = false := by
    rw [List.head_append_of_ne_nil hx]; exact hh
  rw [TrimSpace, dropWhile_isSpace_of_head _ hne hhead, rdropWhile_append_of_getLast x B hx hl]

theorem TrimSpace_cons_space (c : Char) (s : GoString) (hc : isSpace c = true) :
    TrimSpace (c :: s) = TrimSpace s := by
  simp [TrimSpace, List.dropWhile, hc]

/-- On a document with a fenced header whose lines contain no newline and do not
start with `---`, `parseFrontmatter` runs its line loop on the lines of the trimmed
header and returns what follows the closing fence, without its trailing white
space, as the body. -/
theorem parseFrontmatter_fenced (hdr : List GoString) (B : GoString) (hne : hdr ≠ [])
    (hnl : ∀ l ∈ hdr, '\n' ∉ l) (hfence : ∀ l ∈ hdr, HasPrefix l "---".toList = false) :
    ∃ fm, parseFrontmatter.loop
        ((Split (TrimSpace ("\n".toList ++ Join hdr "\n".toList)) '\n').length + 1)
        (Split (TrimSpace ("\n".toList ++ Join hdr "\n".toList)) '\n') 0 {} = some fm ∧
      parseFrontmatter (fencedText hdr B) = some (fm, List.rdropWhile isSpace B) := by
  have hx : "---\n".toList ++ Join hdr "\n".toList ++ "\n---".toList ≠ [] := by
    intro e
    have := congrArg List.length e
    simp at this
  have htrim : TrimSpace (fencedText hdr B) =
      "---\n".toList ++ Join hdr "\n".toList ++ "\n---".toList ++ List.rdropWhile isSpace B := by
    unfold fencedText
    apply TrimSpace_append_right _ _ hx
    · have : ("---\n".toList ++ Join hdr "\n".toList ++ "\n---".toList).head hx = '-' := by
        simp [List.head_append_of_ne_nil]
      rw [this]; decide
    · have : ("---\n".toList ++ Join hdr "\n".toList ++ "\n---".toList).getLast hx = '-' := by
        rw [List.getLast_append_of_ne_nil (by decide)]
        rfl
      rw [this]; decide
  have hdrop : (TrimSpace (fencedText hdr B)).drop 3 =
      Join ([] :: hdr) "\n".toList ++ ("\n---".toList ++ List.rdropWhile isSpace B) := by
    rw [htrim, Join_cons_of_ne_nil _ _ _ hne]
    simp only [List.append_assoc, List.nil_append]
    rfl
  have hidx : Index ((TrimSpace (fencedText hdr B)).drop 3) "\n---".toList =
      ((Join ([] :: hdr) "\n".toList).length : Int) := by
    rw [hdrop]
    apply Index_fence_lines
    · simp
    · intro l hl
      simp only [List.mem_cons] at hl
      rcases hl with hl | hl
      · subst hl; simp
      · exact hnl l hl
    · intro l hl
      exact hfence l (by simpa using hl)
    · simp [HasPrefix]
  rcases parseFrontmatter_eq (fencedText hdr B) with ⟨h1, _⟩ | ⟨_, _, fm, hloop, hres⟩
  · exfalso
    apply h1
    refine ⟨?_, by rw [hidx]; omega⟩
    rw [htrim]
    simp [HasPrefix, List.append_assoc]
  · rw [hidx] at hloop hres
    simp only [Int.toNat_ofNat] at hloop hres
    rw [hdrop] at hloop hres
    rw [List.take_left] at hloop
    have e1 : Join ([] :: hdr) "\n".toList = "\n".toList ++ Join hdr "\n".toList := by
      rw [Join_cons_of_ne_nil _ _ _ hne]; rfl
    rw [e1] at hloop
    refine ⟨fm, hloop, ?_⟩
    rw [hres]
    congr 2
    have : (Join ([] :: hdr) "\n".toList).length + 4 =
        (Join ([] :: hdr) "\n".toList ++ "\n---".toList).length := by
      simp
    rw [this, ← List.append_assoc, List.drop_left]

/-! ## Unfolding the line loop -/

theorem parseFrontmatter_loop_done (fuel : Nat) (lines : List GoString) (n : Nat)
    (fm : Frontmatter) (hn : lines.length ≤ n) :
    parseFrontmatter.loop (fuel + 1) lines (n : Int) fm = some fm := by
  unfold parseFrontmatter.loop
  rw [if_neg (by omega)]

theorem parseFrontmatter_loop_next (fuel : Nat) (lines : List GoString) (n n' : Nat)
    (fm fm' : Frontmatter) (hn : n < lines.length)
    (hs : parseFrontmatter.step lines (n : Int) fm = some ((n' : Int), fm')) :
    parseFrontmatter.loop (fuel + 1) lines (n : Int) fm =
      parseFrontmatter.loop fuel lines (n' : Int) fm' := by
  rw [parseFrontmatter.loop, if_pos (by omega), hs]
  rfl

/-- One iteration on a line that splits at a colon: the `switch` on the key. -/
theorem parseFrontmatter_step_key (lines : List GoString) (n : Nat) (fm : Frontmatter)
    (t a b : GoString) (hn : n < lines.length) (ht : TrimSpace lines[n] = t) (hne : t ≠ [])
    (hs : SplitN t ':' 2 = [a, b]) :
    parseFrontmatter.step lines (n : Int) fm =
      (if TrimSpace a = "marp".toList then
        some ((n : Int) + 1, { fm with Marp := decide (TrimSpace b = "true".toList) })
      else if TrimSpace a = "theme".toList then
        some ((n : Int) + 1, { fm with Theme := TrimSpace b })
      else if TrimSpace a = "paginate".toList then
        some ((n : Int) + 1, { fm with Paginate := decide (TrimSpace b = "true".toList) })
      else if TrimSpace a = "style".toList then
        if TrimSpace b = "|".toList then
          (parseFrontmatter.styleLoop (lines.length + 1) lines ((n : Int) + 1) []).bind fun r =>
            some (r.1, { fm with Style := Join r.2 "\n".toList })
        else some ((n : Int) + 1, { fm with Style := TrimSpace b })
      else some ((n : Int) + 1, { fm with Custom := mapSet fm.Custom (TrimSpace a) (TrimSpace b) })) := by
  unfold parseFrontmatter.step
  rw [index_eq_some lines n hn]
  simp only [Option.some_bind, ht, if_neg hne, hs]
  have h0 : index [a, b] 0 = some a := by simp [index]
  have h1 : index [a, b] 1 = some b := by simp [index]
  simp only [List.length_cons, List.length_nil, h0, h1, Option.some_bind]
  simp

theorem Join_concat (ls : List GoString) (l sep : GoString) (h : ls ≠ []) :
    Join (ls ++ [l]) sep = Join ls sep ++ sep ++ l := by
  induction ls with
  | nil => exact absurd rfl h
  | cons a rest ih =>
    cases rest with
    | nil => simp [Join_cons_cons, Join_singleton]
    | cons b rest' =>
      have := ih (by simp)
      rw [List.cons_append, List.cons_append, Join_cons_cons, ← List.cons_append, this,
        Join_cons_cons]
      simp

theorem isIndented_iff (l : GoString) :
    isIndented l = true ↔ ∃ c rest, l = c :: rest ∧ (c = ' ' ∨ c = '\t') := by
  cases l with
  | nil => simp [isIndented]
  | cons c rest => simp [isIndented]

theorem takeWhile_eq_self {α : Type} (p : α → Bool) (xs : List α) (h : ∀ x ∈ xs, p x = true) :
    xs.takeWhile p = xs := by
  induction xs with
  | nil => rfl
  | cons x rest ih =>
    rw [List.takeWhile_cons, h x (by simp), if_pos rfl, ih (fun y hy => h y (by simp [hy]))]

theorem rdropWhile_isSpace_eq_self (B : GoString) (hB : ∀ c ∈ B.getLast?, isSpace c = false) :
    List.rdropWhile isSpace B = B := by
  rw [List.rdropWhile_eq_self_iff]
  intro hne
  have := hB (B.getLast hne) (by simp [List.getLast?_eq_getLast _ hne])
  simp [this]

/-- The frontmatter of a header with a theme and a multi-line style block. -/
theorem parseFrontmatter_style_lines (T : GoString) (styleLines : List GoString)
    (B : GoString)
    (hT : T ≠ []) (hTnl : '\n' ∉ T)
    (hTh : ∀ c ∈ T.head?, isSpace c = false) (hTl : ∀ c ∈ T.getLast?, isSpace c = false)
    (hS : styleLines ≠ []) (hSi : ∀ l ∈ styleLines, isIndented l = true)
    (hSnl : ∀ l ∈ styleLines, '\n' ∉ l)
    (hSl : ∀ l ∈ styleLines.getLast?, ∀ c ∈ l.getLast?, isSpace c = false)
    (hB : ∀ c ∈ B.getLast?, isSpace c = false) :
    parseFrontmatter
      ("---\nmarp: true\ntheme: ".toList ++ T ++ "\npaginate: true\nstyle: |\n".toList ++
        Join styleLines "\n".toList ++ "\n---".toList ++ B) =
      some ({ Marp := true, Theme := T, Paginate := true,
              Style := Join styleLines "\n".toList, Custom := [] }, B) := by
  have hSne := hS
  obtain ⟨s0, srest, hS0⟩ := List.exists_cons_of_ne_nil hS
  let hdr : List GoString :=
    ["marp: true".toList, "theme: ".toList ++ T, "paginate: true".toList, "style: |".toList] ++
      styleLines
  have hdr_def : hdr = ["marp: true".toList, "theme: ".toList ++ T, "paginate: true".toList,
      "style: |".toList] ++ styleLines := rfl
  -- the text is a fenced header
  have htext : "---\nmarp: true\ntheme: ".toList ++ T ++
      "\npaginate: true\nstyle: |\n".toList ++ Join styleLines "\n".toList ++
      "\n---".toList ++ B = fencedText hdr B := by
    rw [hdr_def, hS0]
    simp only [fencedText, List.cons_append, List.nil_append, Join_cons_cons]
    simp only [List.append_assoc]
    rfl
  have hlines_nl : ∀ l ∈ hdr, '\n' ∉ l := by
    intro l hl
    rw [hdr_def] at hl
    simp only [List.cons_append, List.nil_append, List.mem_cons] at hl
    rcases hl with hl | hl | hl | hl | hl
    · subst hl; decide
    · subst hl
      intro hm
      rw [List.mem_append] at hm
      rcases hm with hm | hm
      · revert hm; decide
      · exact hTnl hm
    · subst hl; decide
    · subst hl; decide
    · exact hSnl l hl
  have hlines_fence : ∀ l ∈ hdr, HasPrefix l "---".toList = false := by
    intro l hl
    rw [hdr_def] at hl
    simp only [List.cons_append, List.nil_append, List.mem_cons] at hl
    rcases hl with hl | hl | hl | hl | hl
    · subst hl; decide
    · subst hl; rfl
    · subst hl; decide
    · subst hl; decide
    · obtain ⟨c, rest, e, hc⟩ := (isIndented_iff l).mp (hSi l hl)
      subst e
      apply HasPrefix_false_of_head_ne (c :: rest) "---".toList c '-' rfl rfl
      rcases hc with hc | hc <;> subst hc <;> decide
  obtain ⟨fm, hloop, hres⟩ := parseFrontmatter_fenced hdr B (by simp [hdr_def]) hlines_nl
    hlines_fence
  rw [htext, hres, rdropWhile_isSpace_eq_self B hB]
  -- the lines the loop sees are the header lines
  have hjoin_last : (Join hdr "\n".toList).getLast? = (styleLines.getLast hS).getLast? := by
    have e : hdr = (["marp: true".toList, "theme: ".toList ++ T, "paginate: true".toList,
        "style: |".toList] ++ styleLines.dropLast) ++ [styleLines.getLast hS] := by
      rw [hdr_def, List.append_assoc, List.dropLast_append_getLast]
    rw [e, Join_concat _ _ _ (by simp)]
    obtain ⟨c, rest, e2, _⟩ := (isIndented_iff _).mp (hSi _ (List.getLast_mem hS))
    rw [e2]
    exact List.getLast?_append_of_ne_nil _ (List.cons_ne_nil c rest)
  have htrimhdr : TrimSpace ("\n".toList ++ Join hdr "\n".toList) = Join hdr "\n".toList := by
    have e : "\n".toList ++ Join hdr "\n".toList = '\n' :: Join hdr "\n".toList := rfl
    rw [e, TrimSpace_cons_space _ _ (by decide)]
    apply TrimSpace_eq_self
    · intro c hc
      have : (Join hdr "\n".toList).head? = some 'm' := by
        rw [hdr_def]
        simp only [List.cons_append, Join_cons_cons]
        rfl
      rw [this] at hc
      simp only [Option.mem_def, Option.some.injEq] at hc
      subst hc; decide
    · intro c hc
      rw [hjoin_last] at hc
      exact hSl _ (by simp [List.getLast?_eq_getLast _ hS]) c hc
  have hsplit : Split (Join hdr "\n".toList) '\n' = hdr :=
    Split_Join hdr '\n' (by simp [hdr_def]) hlines_nl
  rw [htrimhdr, hsplit] at hloop
  -- run the loop
  have hlen : hdr.length = styleLines.length + 4 := by
    rw [hdr_def]; simp
  have hb0 : 0 < hdr.length := by omega
  have hb1 : 1 < hdr.length := by omega
  have hb2 : 2 < hdr.length := by omega
  have hb3 : 3 < hdr.length := by omega
  have hg0 : hdr[0] = "marp: true".toList := rfl
  have hg1 : hdr[1] = "theme: ".toList ++ T := rfl
  have hg2 : hdr[2] = "paginate: true".toList := rfl
  have hg3 : hdr[3] = "style: |".toList := rfl
  have st0 : parseFrontmatter.step hdr ((0 : Nat) : Int) {} =
      some (((1 : Nat) : Int), { Marp := true }) := by
    rw [parseFrontmatter_step_key hdr 0 _ "marp: true".toList "marp".toList " true".toList
      (by omega) (by rw [hg0]; decide) (by decide) (by decide)]
    have e1 : TrimSpace "marp".toList = "marp".toList := by decide
    have e2 : TrimSpace " true".toList = "true".toList := by decide
    rw [e1, e2, if_pos rfl]
    rfl
  have st1 : parseFrontmatter.step hdr ((1 : Nat) : Int) { Marp := true } =
      some (((2 : Nat) : Int), { Marp := true, Theme := T }) := by
    have htr : TrimSpace ("theme: ".toList ++ T) = "theme: ".toList ++ T := by
      apply TrimSpace_eq_self
      · intro c hc
        have : ("theme: ".toList ++ T).head? = some 't' := rfl
        rw [this] at hc
        simp only [Option.mem_def, Option.some.injEq] at hc
        subst hc; decide
      · intro c hc
        rw [List.getLast?_append_of_ne_nil _ hT] at hc
        exact hTl c hc
    have hsp : SplitN ("theme: ".toList ++ T) ':' 2 = ["theme".toList, ' ' :: T] := by
      have e : "theme: ".toList ++ T = 't' :: 'h' :: 'e' :: 'm' :: 'e' :: ':' :: ' ' :: T := rfl
      rw [e]
      simp [SplitN]
    have hv : TrimSpace (' ' :: T) = T := by
      rw [TrimSpace_cons_space _ _ (by decide)]
      exact TrimSpace_eq_self T hTh hTl
    rw [parseFrontmatter_step_key hdr 1 _ ("theme: ".toList ++ T) "theme".toList (' ' :: T)
      (by omega) (by rw [hg1]; exact htr) (by simp) hsp]
    rw [hv]
    have e1 : TrimSpace "theme".toList = "theme".toList := by decide
    rw [e1, if_neg (by decide), if_pos rfl]
    rfl
  have st2 : parseFrontmatter.step hdr ((2 : Nat) : Int) { Marp := true, Theme := T } =
      some (((3 : Nat) : Int), { Marp := true, Theme := T, Paginate := true }) := by
    rw [parseFrontmatter_step_key hdr 2 _ "paginate: true".toList "paginate".toList
      " true".toList (by omega) (by rw [hg2]; decide) (by decide) (by decide)]
    have e1 : TrimSpace "paginate".toList = "paginate".toList := by decide
    have e2 : TrimSpace " true".toList = "true".toList := by decide
    rw [e1, e2, if_neg (by decide), if_neg (by decide), if_pos rfl]
    rfl
  have st3 : parseFrontmatter.step hdr ((3 : Nat) : Int)
      { Marp := true, Theme := T, Paginate := true } =
      some (((hdr.length : Nat) : Int),
        { Marp := true, Theme := T, Paginate := true,
          Style := Join styleLines "\n".toList }) := by
    rw [parseFrontmatter_step_key hdr 3 _ "style: |".toList "style".toList
      " |".toList (by omega) (by rw [hg3]; decide) (by decide) (by decide)]
    have e1 : TrimSpace "style".toList = "style".toList := by decide
    have e2 : TrimSpace " |".toList = "|".toList := by decide
    rw [e1, e2, if_neg (by decide), if_neg (by decide), if_neg (by decide), if_pos rfl,
      if_pos rfl]
    have e : ((3 : Nat) : Int) + 1 = ((4 : Nat) : Int) := rfl
    rw [e, styleLoop_eq _ hdr 4 [] (by omega) (by omega)]
    have hd : hdr.drop 4 = styleLines := rfl
    rw [hd, takeWhile_eq_self isIndented styleLines hSi]
    simp only [Option.some_bind, List.nil_append]
    rw [hlen]
    congr 3
    omega
  have hrun : parseFrontmatter.loop (hdr.length + 1) hdr ((0 : Nat) : Int) {} =
      some { Marp := true, Theme := T, Paginate := true,
             Style := Join styleLines "\n".toList } := by
    have f : hdr.length + 1 = (styleLines.length + 1) + 1 + 1 + 1 + 1 := by omega
    rw [f]
    rw [parseFrontmatter_loop_next _ hdr 0 1 _ _ (by omega) st0,
      parseFrontmatter_loop_next _ hdr 1 2 _ _ (by omega) st1,
      parseFrontmatter_loop_next _ hdr 2 3 _ _ (by omega) st2,
      parseFrontmatter_loop_next _ hdr 3 hdr.length _ _ (by omega) st3,
      parseFrontmatter_loop_done _ hdr hdr.length _ (le_refl _)]
  simp only [Nat.cast_zero] at hrun
  rw [hrun] at hloop
  simp only [Option.some.injEq] at hloop
  rw [← hloop]


/-- C7: on a header with `marp: true`, a theme `T`, `paginate: true` and a multi-line
style block of indented lines, followed by the closing fence and a body `B`,
`parseFrontmatter` returns `Marp = true`, `Theme = T`, `Paginate = true`, the style
lines joined by newlines with their indentation kept, an empty `Custom` map, and `B`
as the body. -/
theorem parseFrontmatter_style_block (T : GoString) (styleLines : List GoString)
    (B : GoString)
    (hT : T ≠ []) (hTnl : '\n' ∉ T)
    (hTh : ∀ c ∈ T.head?, isSpace c = false) (hTl : ∀ c ∈ T.getLast?, isSpace c = false)
    (hS : styleLines ≠ []) (hSi : ∀ l ∈ styleLines, isIndented l = true)
    (hSnl : ∀ l ∈ styleLines, '\n' ∉ l)
    (hSl : ∀ l ∈ styleLines.getLast?, ∀ c ∈ l.getLast?, isSpace c = false)
    (hB : ∀ c ∈ B.getLast?, isSpace c = false) :
    parseFrontmatter
      ("---\nmarp: true\ntheme: ".toList ++ T ++ "\npaginate: true\nstyle: |\n".toList ++
        Join styleLines "\n".toList ++ "\n---".toList ++ B) =
      some ({ Marp := true, Theme := T, Paginate := true,
              Style := Join styleLines "\n".toList, Custom := [] }, B) :=
  parseFrontmatter_style_lines T styleLines B hT hTnl hTh hTl hS hSi hSnl hSl hB

theorem parseFrontmatter_style_block_witness :
    parseFrontmatter
      ("---\nmarp: true\ntheme: ".toList ++ "agentplexus".toList ++
        "\npaginate: true\nstyle: |\n".toList ++
        Join ["  .columns \x7b".toList, "    gap: 40px;".toList, "  \x7d".toList] "\n".toList ++
        "\n---".toList ++ "\n\n# Title".toList) =
      some ({ Marp := true, Theme := "agentplexus".toList, Paginate := true,
              Style := Join ["  .columns \x7b".toList, "    gap: 40px;".toList,
                "  \x7d".toList] "\n".toList, Custom := [] }, "\n\n# Title".toList) :=
  parseFrontmatter_style_block "agentplexus".toList
    ["  .columns \x7b".toList, "    gap: 40px;".toList, "  \x7d".toList] "\n\n# Title".toList
    (by decide) (by decide) (by decide) (by decide) (by decide) (by decide) (by decide)
    (by decide) (by decide)

/-! ## The header loop on lines without a style block -/

theorem parseFrontmatter_step_applyLine (lines : List GoString) (n : Nat) (fm : Frontmatter)
    (hn : n < lines.length) (hs : opensStyleBlock lines[n] = false) :
    parseFrontmatter.step lines (n : Int) fm =
      some (((n + 1 : Nat) : Int), applyLine fm lines[n]) := by
  have e : (n : Int) + 1 = ((n + 1 : Nat) : Int) := by push_cast; rfl
  by_cases h1 : TrimSpace lines[n] = []
  · unfold parseFrontmatter.step
    rw [index_eq_some lines n hn]
    simp only [Option.some_bind, h1, if_true, applyLine, e]
  by_cases h2 : (SplitN (TrimSpace lines[n]) ':' 2).length ≠ 2
  · unfold parseFrontmatter.step
    rw [index_eq_some lines n hn]
    simp only [Option.some_bind, if_neg h1, if_pos h2, applyLine, e]
  obtain ⟨a, b, hab, _, _⟩ := SplitN_length_two_index _ (not_not.mp h2)
  rw [parseFrontmatter_step_key lines n fm _ a b hn rfl h1 hab]
  have hk : lineKey lines[n] = TrimSpace a := by simp [lineKey, hab]
  have hv : lineValue lines[n] = TrimSpace b := by simp [lineValue, hab]
  simp only [opensStyleBlock, decide_eq_false_iff_not, not_and] at hs
  have hs' := hs (not_not.mp h2)
  rw [hk, hv] at hs'
  unfold applyLine
  rw [if_neg h1, if_neg h2, hk, hv, e]
  by_cases k1 : TrimSpace a = "marp".toList
  · rw [if_pos k1, if_pos k1]
  rw [if_neg k1, if_neg k1]
  by_cases k2 : TrimSpace a = "theme".toList
  · rw [if_pos k2, if_pos k2]
  rw [if_neg k2, if_neg k2]
  by_cases k3 : TrimSpace a = "paginate".toList
  · rw [if_pos k3, if_pos k3]
  rw [if_neg k3, if_neg k3]
  by_cases k4 : TrimSpace a = "style".toList
  · rw [if_pos k4, if_pos k4, if_neg (hs' k4)]
  rw [if_neg k4, if_neg k4]

/-- On lines none of which opens a style block, the line loop applies the lines one
after the other. -/
theorem parseFrontmatter_loop_applyLine (fuel : Nat) (lines : List GoString) (n : Nat)
    (fm : Frontmatter) (hn : n ≤ lines.length) (hf : lines.length < fuel + n)
    (hs : ∀ l ∈ lines.drop n, opensStyleBlock l = false) :
    parseFrontmatter.loop fuel lines (n : Int) fm =
      some ((lines.drop n).foldl applyLine fm) := by
  induction fuel generalizing n fm with
  | zero => omega
  | succ fuel ih =>
    by_cases hlt : n < lines.length
    · have hdrop : lines.drop n = lines[n] :: lines.drop (n + 1) := by
        rw [List.drop_eq_getElem_cons hlt]
      have hsn : opensStyleBlock lines[n] = false :=
        hs _ (hdrop ▸ List.mem_cons_self _ _)
      rw [parseFrontmatter_loop_next fuel lines n (n + 1) fm _ hlt
        (parseFrontmatter_step_applyLine lines n fm hlt hsn)]
      rw [ih (n + 1) _ (by omega) (by omega)
        (fun l hl => hs l (hdrop ▸ List.mem_cons_of_mem _ hl))]
      rw [hdrop]
      rfl
    · have : lines.drop n = [] := List.drop_eq_nil_of_le (by omega)
      rw [parseFrontmatter_loop_done fuel lines n fm (by omega), this]
      rfl

theorem applyLine_congr (fm : Frontmatter) (l l' : GoString) (h : TrimSpace l = TrimSpace l') :
    applyLine fm l = applyLine fm l' := by
  simp only [applyLine, lineKey, lineValue, h]

theorem applyLine_blank (fm : Frontmatter) (l : GoString) (h : TrimSpace l = []) :
    applyLine fm l = fm := by
  simp [applyLine, h]

/-- Applying lines depends only on their trimmed, non-blank forms. -/
theorem foldl_applyLine_trimmed (lines : List GoString) (fm : Frontmatter) :
    lines.foldl applyLine fm =
      ((lines.map TrimSpace).filter (fun t => t ≠ [])).foldl applyLine fm := by
  induction lines generalizing fm with
  | nil => rfl
  | cons l rest ih =>
    simp only [List.foldl_cons, List.map_cons, List.filter_cons]
    by_cases hb : TrimSpace l = []
    · rw [applyLine_blank fm l hb, ih]
      simp [hb]
    · rw [ih]
      simp only [ne_eq, hb, not_false_eq_true, decide_True, if_true, List.foldl_cons]
      rw [applyLine_congr fm l (TrimSpace l) (TrimSpace_idem l).symm]

theorem opensStyleBlock_congr (l l' : GoString) (h : TrimSpace l = TrimSpace l') :
    opensStyleBlock l = opensStyleBlock l' := by
  simp only [opensStyleBlock, lineKey, lineValue, h]

/-! ## Trimming a text and its lines -/

theorem TrimSpace_concat_space (l : GoString) (c : Char) (hc : isSpace c = true) :
    TrimSpace (l ++ [c]) = TrimSpace l := by
  simp only [TrimSpace, List.dropWhile_append]
  by_cases he : (List.dropWhile isSpace l).isEmpty = true
  · rw [if_pos he]
    have : List.dropWhile isSpace l = [] := List.isEmpty_iff.mp he
    simp [this, List.dropWhile, hc]
  · rw [if_neg he, List.rdropWhile_concat_pos _ _ _ hc]

theorem Split_concat_sep (t : GoString) (sep : Char) :
    Split (t ++ [sep]) sep = Split t sep ++ [[]] := by
  induction t with
  | nil => simp [Split]
  | cons c cs ih =>
    by_cases h : c = sep
    · subst h
      rw [List.cons_append, Split_cons_sep, Split_cons_sep, ih]
      rfl
    · rw [List.cons_append, Split_cons_ne c _ sep h, Split_cons_ne c cs sep h, ih]
      obtain ⟨l, ls, e⟩ := List.exists_cons_of_ne_nil (Split_ne_nil cs sep)
      rw [e]
      rfl

theorem dropLast_append_getLastD {α : Type} (xs : List α) (d : α) (h : xs ≠ []) :
    xs.dropLast ++ [xs.getLastD d] = xs := by
  induction xs with
  | nil => exact absurd rfl h
  | cons a rest ih =>
    cases rest with
    | nil => rfl
    | cons b rest' =>
      have := ih (by simp)
      simp only [List.dropLast_cons₂, List.cons_append, List.getLastD_cons] at this ⊢
      rw [this]

theorem Split_concat_ne (t : GoString) (c sep : Char) (h : c ≠ sep) :
    Split (t ++ [c]) sep =
      (Split t sep).dropLast ++ [(Split t sep).getLastD [] ++ [c]] := by
  induction t with
  | nil => simp [Split, h]
  | cons d ds ih =>
    obtain ⟨l, ls, e⟩ := List.exists_cons_of_ne_nil (Split_ne_nil ds sep)
    by_cases hd : d = sep
    · subst hd
      rw [List.cons_append, Split_cons_sep, Split_cons_sep, ih, e]
      simp [List.dropLast]
    · rw [List.cons_append, Split_cons_ne d _ sep hd, ih, Split_cons_ne d ds sep hd, e]
      cases ls with
      | nil => simp
      | cons l2 ls2 => simp

theorem trimmedLines_cons_space (c : Char) (t : GoString) (hc : isSpace c = true) :
    trimmedLines (c :: t) = trimmedLines t := by
  unfold trimmedLines
  by_cases h : c = '\n'
  · subst h
    rw [Split_cons_sep]
    simp [TrimSpace_nil]
  · rw [Split_cons_ne c t '\n' h]
    obtain ⟨l, ls, e⟩ := List.exists_cons_of_ne_nil (Split_ne_nil t '\n')
    simp only [e, List.headD_cons, List.tail_cons, List.map_cons,
      TrimSpace_cons_space c l hc]

theorem trimmedLines_concat_space (t : GoString) (c : Char) (hc : isSpace c = true) :
    trimmedLines (t ++ [c]) = trimmedLines t := by
  unfold trimmedLines
  by_cases h : c = '\n'
  · subst h
    rw [Split_concat_sep]
    simp [TrimSpace_nil]
  · rw [Split_concat_ne t c '\n' h]
    conv_rhs => rw [← dropLast_append_getLastD _ [] (Split_ne_nil t '\n')]
    simp only [List.map_append, List.map_cons, List.map_nil, TrimSpace_concat_space _ c hc]

theorem trimmedLines_dropWhile (s : GoString) :
    trimmedLines (s.dropWhile isSpace) = trimmedLines s := by
  induction s with
  | nil => rfl
  | cons c t ih =>
    by_cases hc : isSpace c = true
    · rw [List.dropWhile_cons_of_pos hc, ih, trimmedLines_cons_space c t hc]
    · rw [List.dropWhile_cons_of_neg hc]

theorem trimmedLines_rdropWhile (s : GoString) :
    trimmedLines (s.rdropWhile isSpace) = trimmedLines s := by
  induction s using List.reverseRecOn with
  | nil => rfl
  | append_singleton t c ih =>
    by_cases hc : isSpace c = true
    · rw [List.rdropWhile_concat_pos _ _ _ hc, ih, trimmedLines_concat_space t c hc]
    · rw [List.rdropWhile_concat_neg _ _ _ hc]

/-- Trimming a text does not change its trimmed non-blank lines. -/
theorem trimmedLines_TrimSpace (s : GoString) : trimmedLines (TrimSpace s) = trimmedLines s := by
  rw [TrimSpace, trimmedLines_rdropWhile, trimmedLines_dropWhile]

/-! ## Maps -/

theorem mapGet_nil (k : GoString) : mapGet [] k = none := rfl

theorem mapGet_cons (e : GoString × GoString) (m : GoMap) (k : GoString) :
    mapGet (e :: m) k = if e.1 = k then some e.2 else mapGet m k := by
  simp only [mapGet, List.find?_cons]
  by_cases h : e.1 = k <;> simp [h]

theorem mapGet_filter_ne (m : GoMap) (k k' : GoString) (h : k' ≠ k) :
    mapGet (m.filter fun e => e.1 ≠ k) k' = mapGet m k' := by
  induction m with
  | nil => rfl
  | cons e rest ih =>
    by_cases he : e.1 = k
    · have : e.1 ≠ k' := fun e' => h (e'.symm.trans he)
      rw [List.filter_cons_of_neg (by simp [he]), ih, mapGet_cons, if_neg this]
    · rw [List.filter_cons_of_pos (by simp [he]), mapGet_cons, mapGet_cons, ih]

theorem mapGet_mapSet (m : GoMap) (k v k' : GoString) :
    mapGet (mapSet m k v) k' = if k' = k then some v else mapGet m k' := by
  unfold mapSet
  rw [mapGet_cons]
  by_cases h : k' = k
  · subst h; simp
  · have : ¬ k = k' := fun e => h e.symm
    simp only [this, if_false, h]
    exact mapGet_filter_ne m k k' h

theorem mapGet_eq_none_of_not_mem (m : GoMap) (k : GoString) (h : k ∉ m.map Prod.fst) :
    mapGet m k = none := by
  induction m with
  | nil => rfl
  | cons e rest ih =>
    simp only [List.map_cons, List.mem_cons, not_or] at h
    rw [mapGet_cons, if_neg (fun e' => h.1 e'.symm), ih h.2]

theorem mapSet_keys_nodup (m : GoMap) (k v : GoString) (h : (m.map Prod.fst).Nodup) :
    ((mapSet m k v).map Prod.fst).Nodup := by
  unfold mapSet
  simp only [List.map_cons, List.nodup_cons]
  constructor
  · intro hm
    simp only [List.mem_map, List.mem_filter] at hm
    obtain ⟨e, ⟨_, he⟩, hk⟩ := hm
    simp [hk] at he
  · exact (h.sublist ((List.filter_sublist m).map Prod.fst))

/-- Copying a map with distinct keys entry by entry gives a map with the same
lookups. -/
theorem mapGet_copy (m : GoMap) (acc : GoMap) (k : GoString) (h : (m.map Prod.fst).Nodup) :
    mapGet (m.foldl (fun custom e => mapSet custom e.1 e.2) acc) k =
      (match mapGet m k with
       | some v => some v
       | none => mapGet acc k) := by
  induction m generalizing acc with
  | nil => rfl
  | cons e rest ih =>
    simp only [List.map_cons, List.nodup_cons] at h
    simp only [List.foldl_cons]
    rw [ih _ h.2, mapGet_cons, mapGet_mapSet]
    by_cases hk : e.1 = k
    · subst hk
      rw [mapGet_eq_none_of_not_mem rest _ h.1]
      simp
    · have : ¬ k = e.1 := fun e' => hk e'.symm
      simp only [hk, this, if_false]

/-! ## Header lines and the `Custom` map -/

theorem mem_dropWhile_of_not {α : Type} (p : α → Bool) (l : List α) (x : α) (hx : x ∈ l)
    (hp : p x = false) : x ∈ l.dropWhile p := by
  induction l with
  | nil => simp at hx
  | cons a rest ih =>
    by_cases ha : p a = true
    · rw [List.dropWhile_cons_of_pos ha]
      simp only [List.mem_cons] at hx
      rcases hx with hx | hx
      · subst hx; rw [hp] at ha; exact absurd ha (by simp)
      · exact ih hx
    · rw [List.dropWhile_cons_of_neg ha]; exact hx

theorem mem_TrimSpace_of_not_space (l : GoString) (c : Char) (hc : c ∈ l)
    (hs : isSpace c = false) : c ∈ TrimSpace l := by
  have h1 := mem_dropWhile_of_not isSpace l c hc hs
  have h2 := mem_dropWhile_of_not isSpace (l.dropWhile isSpace).reverse c
    (List.mem_reverse.mpr h1) hs
  simpa [TrimSpace, List.rdropWhile] using h2

theorem SplitN_two_of_mem (t : GoString) (sep : Char) (h : sep ∈ t) :
    (SplitN t sep 2).length = 2 := by
  induction t with
  | nil => simp at h
  | cons c cs ih =>
    by_cases hc : c = sep
    · simp [SplitN, hc]
    · have hcs : sep ∈ cs := by
        simp only [List.mem_cons] at h
        rcases h with h | h
        · exact absurd h.symm hc
        · exact h
      have := ih hcs
      simp only [SplitN, if_neg hc]
      split
      · next e => rw [e] at this; simp at this
      · next l ls e => rw [e] at this; simpa using this

theorem lineKey_TrimSpace (l : GoString) : lineKey (TrimSpace l) = lineKey l := by
  simp [lineKey, TrimSpace_idem]

theorem lineValue_TrimSpace (l : GoString) : lineValue (TrimSpace l) = lineValue l := by
  simp [lineValue, TrimSpace_idem]

theorem applyLine_custom (fm : Frontmatter) (l : GoString) (hc : ':' ∈ l)
    (hs : lineKey l ≠ "style".toList) :
    (applyLine fm l).Custom =
      if isRecognisedKey (lineKey l) then fm.Custom
      else mapSet fm.Custom (lineKey l) (lineValue l) := by
  have hct : ':' ∈ TrimSpace l := mem_TrimSpace_of_not_space l ':' hc (by decide)
  have h1 : TrimSpace l ≠ [] := by intro e; rw [e] at hct; simp at hct
  have h2 : (SplitN (TrimSpace l) ':' 2).length = 2 := SplitN_two_of_mem _ _ hct
  unfold applyLine isRecognisedKey
  rw [if_neg h1, if_neg (by simp [h2])]
  by_cases k1 : lineKey l = "marp".toList
  · rw [if_pos k1, if_pos (Or.inl k1)]
  by_cases k2 : lineKey l = "theme".toList
  · rw [if_neg k1, if_pos k2, if_pos (Or.inr (Or.inl k2))]
  by_cases k3 : lineKey l = "paginate".toList
  · rw [if_neg k1, if_neg k2, if_pos k3, if_pos (Or.inr (Or.inr k3))]
  rw [if_neg k1, if_neg k2, if_neg k3, if_neg hs, if_neg (by
    rintro (h | h | h)
    · exact k1 h
    · exact k2 h
    · exact k3 h)]

theorem applyLine_custom_nodup (fm : Frontmatter) (l : GoString)
    (h : (fm.Custom.map Prod.fst).Nodup) : ((applyLine fm l).Custom.map Prod.fst).Nodup := by
  unfold applyLine
  split_ifs
  all_goals first
    | exact h
    | exact mapSet_keys_nodup _ _ _ h

theorem foldl_applyLine_custom_nodup (lines : List GoString) (fm : Frontmatter)
    (h : (fm.Custom.map Prod.fst).Nodup) :
    ((lines.foldl applyLine fm).Custom.map Prod.fst).Nodup := by
  induction lines generalizing fm with
  | nil => exact h
  | cons l rest ih => exact ih _ (applyLine_custom_nodup fm l h)

/-- After the header lines the `Custom` map holds, for every key that is not
recognised, the value of the last line with that key. -/
theorem foldl_applyLine_custom (lines : List GoString) (fm : Frontmatter)
    (hc : ∀ l ∈ lines, ':' ∈ l) (hs : ∀ l ∈ lines, lineKey l ≠ "style".toList)
    (k : GoString) :
    mapGet (lines.foldl applyLine fm).Custom k =
      if isRecognisedKey k then mapGet fm.Custom k
      else
        match lines.reverse.find? (fun l => lineKey l = k) with
        | some l => some (lineValue l)
        | none => mapGet fm.Custom k := by
  induction lines using List.reverseRecOn with
  | nil => simp
  | append_singleton rest l ih =>
    have ih' := ih (fun x hx => hc x (by simp [hx])) (fun x hx => hs x (by simp [hx]))
    rw [List.foldl_append, List.foldl_cons, List.foldl_nil,
      applyLine_custom _ l (hc l (by simp)) (hs l (by simp)), List.reverse_append]
    simp only [List.reverse_cons, List.reverse_nil, List.nil_append, List.singleton_append,
      List.find?_cons]
    by_cases hr : isRecognisedKey (lineKey l)
    · rw [if_pos hr, ih']
      by_cases hk : isRecognisedKey k
      · rw [if_pos hk, if_pos hk]
      · rw [if_neg hk, if_neg hk]
        have : ¬ lineKey l = k := fun e => hk (e ▸ hr)
        simp [this]
    · rw [if_neg hr, mapGet_mapSet]
      by_cases hk : isRecognisedKey k
      · have : ¬ k = lineKey l := fun e => hr (e ▸ hk)
        rw [if_neg this, ih', if_pos hk, if_pos hk]
      · rw [if_neg hk]
        by_cases he : k = lineKey l
        · subst he; simp
        · have : ¬ lineKey l = k := fun e => he e.symm
          rw [if_neg he, ih', if_neg hk]
          simp [this]

/-- On a fenced header none of whose lines opens a style block, `parseFrontmatter`
applies the header lines one after the other. -/
theorem parseFrontmatter_fenced_no_style (hdr : List GoString) (B : GoString) (hne : hdr ≠ [])
    (hnl : ∀ l ∈ hdr, '\n' ∉ l) (hfence : ∀ l ∈ hdr, HasPrefix l "---".toList = false)
    (hs : ∀ l ∈ hdr, opensStyleBlock l = false) :
    parseFrontmatter (fencedText hdr B) =
      some (hdr.foldl applyLine {}, List.rdropWhile isSpace B) := by
  obtain ⟨fm, hloop, hres⟩ := parseFrontmatter_fenced hdr B hne hnl hfence
  rw [hres]
  have htl : trimmedLines (TrimSpace ("\n".toList ++ Join hdr "\n".toList)) =
      (hdr.map TrimSpace).filter (fun t => t ≠ []) := by
    rw [trimmedLines_TrimSpace]
    have e : "\n".toList ++ Join hdr "\n".toList = Join ([] :: hdr) "\n".toList := by
      rw [Join_cons_of_ne_nil _ _ _ hne]; rfl
    have hsj : Split (Join ([] :: hdr) "\n".toList) '\n' = [] :: hdr :=
      Split_Join ([] :: hdr) '\n' (by simp) (by
        intro l hl
        simp only [List.mem_cons] at hl
        rcases hl with hl | hl
        · subst hl; simp
        · exact hnl l hl)
    rw [e, trimmedLines, hsj]
    simp [TrimSpace_nil]
  have hnostyle : ∀ l ∈ Split (TrimSpace ("\n".toList ++ Join hdr "\n".toList)) '\n',
      opensStyleBlock l = false := by
    intro l hl
    by_cases hb : TrimSpace l = []
    · simp [opensStyleBlock, hb, SplitN]
    · have hm : TrimSpace l ∈ trimmedLines (TrimSpace ("\n".toList ++ Join hdr "\n".toList)) := by
        unfold trimmedLines
        simp only [List.mem_filter, List.mem_map]
        exact ⟨⟨l, hl, rfl⟩, by simp [hb]⟩
      rw [htl] at hm
      simp only [List.mem_filter, List.mem_map] at hm
      obtain ⟨⟨h, hh, e⟩, _⟩ := hm
      rw [opensStyleBlock_congr l h e.symm]
      exact hs h hh
  have hrun := parseFrontmatter_loop_applyLine
    ((Split (TrimSpace ("\n".toList ++ Join hdr "\n".toList)) '\n').length + 1)
    (Split (TrimSpace ("\n".toList ++ Join hdr "\n".toList)) '\n') 0 {} (by omega) (by omega)
    (by simpa using hnostyle)
  simp only [Nat.cast_zero] at hrun
  rw [hrun] at hloop
  simp only [List.drop_zero, Option.some.injEq] at hloop
  rw [← hloop, foldl_applyLine_trimmed]
  have : ((Split (TrimSpace ("\n".toList ++ Join hdr "\n".toList)) '\n').map TrimSpace).filter
      (fun t => t ≠ []) = trimmedLines (TrimSpace ("\n".toList ++ Join hdr "\n".toList)) := rfl
  rw [this, htl, ← foldl_applyLine_trimmed]

/-- C8: for a frontmatter header made of `key: value` lines with no `style` key, the
`Custom` map of the frontmatter maps each key other than `marp`, `theme` and
`paginate` to the value of the last line with that key (the line split at its first
colon, both parts trimmed), holds no recognised key, and `Parse` copies exactly
these entries into `Deck.Meta.Custom`. -/
theorem frontmatter_custom_keys (hdr : List GoString) (B : GoString) (hne : hdr ≠ [])
    (hnl : ∀ l ∈ hdr, '\n' ∉ l) (hfence : ∀ l ∈ hdr, HasPrefix l "---".toList = false)
    (hcolon : ∀ l ∈ hdr, ':' ∈ l) (hstyle : ∀ l ∈ hdr, lineKey l ≠ "style".toList) :
    ∃ fm body deck, parseFrontmatter (fencedText hdr B) = some (fm, body) ∧
      (∀ k, mapGet fm.Custom k =
        if isRecognisedKey k then none
        else (hdr.reverse.find? (fun l => lineKey l = k)).map lineValue) ∧
      Parse (fencedText hdr B) = some (some deck, none) ∧
      (∀ k, mapGet deck.Meta.Custom k = mapGet fm.Custom k) := by
  have hns : ∀ l ∈ hdr, opensStyleBlock l = false := by
    intro l hl
    simp only [opensStyleBlock, decide_eq_false_iff_not, not_and]
    intro _ h
    exact absurd h (hstyle l hl)
  have hpf := parseFrontmatter_fenced_no_style hdr B hne hnl hfence hns
  obtain ⟨fm, body, pss, deck, h1, _, h3, h4⟩ := Parse_eq (fencedText hdr B)
  obtain ⟨_, _, _, deck', hd, _, _, hcustom, _⟩ := buildDeck_eq fm pss
  rw [h3] at hd
  simp only [Option.some.injEq] at hd
  subst hd
  rw [hpf] at h1
  simp only [Option.some.injEq, Prod.mk.injEq] at h1
  obtain ⟨hfm, hbody⟩ := h1
  refine ⟨fm, body, deck, by rw [hpf, hfm, hbody], ?_, h4, ?_⟩
  · intro k
    rw [← hfm, foldl_applyLine_custom hdr {} hcolon hstyle k]
    by_cases hk : isRecognisedKey k
    · rw [if_pos hk, if_pos hk]; rfl
    · rw [if_neg hk, if_neg hk]
      cases hdr.reverse.find? (fun l => lineKey l = k) <;> rfl
  · intro k
    rw [hcustom, mapGet_copy fm.Custom [] k (by
      rw [← hfm]
      exact foldl_applyLine_custom_nodup hdr {} (by simp))]
    cases mapGet fm.Custom k <;> rfl

theorem frontmatter_custom_keys_witness :
    ∃ fm body deck,
      parseFrontmatter (fencedText ["marp: true".toList, "author: Ann".toList,
        "title: A: B".toList, " author :  Bob ".toList] "\n# X".toList) = some (fm, body) ∧
      (∀ k, mapGet fm.Custom k =
        if isRecognisedKey k then none
        else (["marp: true".toList, "author: Ann".toList, "title: A: B".toList,
          " author :  Bob ".toList].reverse.find? (fun l => lineKey l = k)).map lineValue) ∧
      Parse (fencedText ["marp: true".toList, "author: Ann".toList,
        "title: A: B".toList, " author :  Bob ".toList] "\n# X".toList) = some (some deck, none) ∧
      (∀ k, mapGet deck.Meta.Custom k = mapGet fm.Custom k) :=
  frontmatter_custom_keys ["marp: true".toList, "author: Ann".toList,
    "title: A: B".toList, " author :  Bob ".toList] "\n# X".toList
    (by decide) (by decide) (by decide) (by decide) (by decide)

/-! ## `splitSlides` on fragments joined by separator lines -/

theorem Split_append_nl (u v : GoString) (sep : Char) :
    Split (u ++ sep :: v) sep = Split u sep ++ Split v sep := by
  induction u with
  | nil => simp [Split]
  | cons c cs ih =>
    by_cases h : c = sep
    · subst h
      rw [List.cons_append, Split_cons_sep, Split_cons_sep, ih]
      rfl
    · rw [List.cons_append, Split_cons_ne c _ sep h, Split_cons_ne c cs sep h, ih]
      obtain ⟨l, ls, e⟩ := List.exists_cons_of_ne_nil (Split_ne_nil cs sep)
      rw [e]
      rfl

/-- While `fenceScan` succeeds, the loop of `splitSlides` closes no fragment: it
gathers the lines in the current fragment and ends in the fence state of the
scan. -/
theorem splitSlides_foldl_of_fenceScan (lines : List GoString) (st : splitState) (b' : Bool)
    (h : fenceScan st.inCodeBlock lines = some b') :
    lines.foldl splitSlides.step st =
      { slides := st.slides, current := st.current ++ lines, inCodeBlock := b' } := by
  induction lines generalizing st with
  | nil =>
    simp only [fenceScan, Option.some.injEq] at h
    subst h
    simp
  | cons l ls ih =>
    have hb : (if isFenceLine l = true then !st.inCodeBlock else st.inCodeBlock) =
        (st.inCodeBlock != isFenceLine l) := by
      cases hf : isFenceLine l <;> cases hb : st.inCodeBlock <;> rfl
    simp only [fenceScan, hb] at h
    by_cases hc : (!(st.inCodeBlock != isFenceLine l)) = true ∧ isSeparatorLine l = true
    · rw [if_pos hc] at h
      exact absurd h (by simp)
    · rw [if_neg hc] at h
      have hkeep : isSeparatorLine l = true →
          (st.inCodeBlock != isFenceLine l) = true := by
        intro hs
        by_contra hn
        apply hc
        refine ⟨?_, hs⟩
        simpa using hn
      rw [List.foldl_cons, splitSlides_step_keep st l hkeep, ih _ h]
      simp

theorem splitSlides_step_separator (st : splitState) (h : st.inCodeBlock = false) :
    splitSlides.step st "---".toList =
      { slides := if TrimSpace (Join st.current "\n".toList) ≠ [] then
          st.slides ++ [Join st.current "\n".toList] else st.slides,
        current := [], inCodeBlock := false } := by
  unfold splitSlides.step
  have h1 : TrimSpace "---".toList = "---".toList := by decide
  have h2 : HasPrefix "---".toList "```".toList = false := by decide
  simp only [h1, h2, h, Bool.false_eq_true, if_false, Bool.not_false, true_and, if_true]
  split_ifs <;> rfl

/-- The state of the loop of `splitSlides` after the lines of fragments joined by
separator lines: all fragments but the last are closed, the last is current. -/
theorem splitSlides_foldl_Join (segs : List GoString) (last : GoString) (st : splitState)
    (hst : st.inCodeBlock = false ∧ st.current = [])
    (h : ∀ s ∈ segs ++ [last], TrimSpace s ≠ [] ∧ fenceClosed s = true) :
    (Split (Join (segs ++ [last]) "\n---\n".toList) '\n').foldl splitSlides.step st =
      { slides := st.slides ++ segs, current := Split last '\n', inCodeBlock := false } := by
  induction segs generalizing st with
  | nil =>
    have hl := (h last (by simp)).2
    simp only [fenceClosed, beq_iff_eq] at hl
    rw [List.nil_append, Join_singleton,
      splitSlides_foldl_of_fenceScan _ st false (by rw [hst.1]; exact hl), hst.2]
    simp
  | cons s rest ih =>
    have hs := h s (by simp)
    have hsc := hs.2
    simp only [fenceClosed, beq_iff_eq] at hsc
    have hj : Join (s :: rest ++ [last]) "\n---\n".toList =
        s ++ '\n' :: ("---".toList ++ '\n' :: Join (rest ++ [last]) "\n---\n".toList) := by
      rw [List.cons_append, Join_cons_of_ne_nil _ _ _ (by simp)]
      simp only [List.append_assoc]
      rfl
    rw [hj, Split_append_nl, Split_append_nl, List.foldl_append, List.foldl_append,
      splitSlides_foldl_of_fenceScan _ st false (by rw [hst.1]; exact hsc), hst.2]
    have hd : Split "---".toList '\n' = ["---".toList] := by decide
    rw [hd, List.foldl_cons, List.foldl_nil, splitSlides_step_separator _ rfl]
    simp only [List.nil_append, Join_Split s '\n' |> fun e => (e : Join (Split s '\n') "\n".toList = s)]
    rw [if_pos hs.1, ih _ ⟨rfl, rfl⟩ (fun x hx => h x (by simp [hx]))]
    simp

/-- `splitSlides` inverts joining with separator lines: fragments that are not blank,
have balanced code fences and no separator line outside them are returned as they
were joined. -/
theorem splitSlides_Join (segs : List GoString)
    (h : ∀ s ∈ segs, TrimSpace s ≠ [] ∧ fenceClosed s = true) :
    splitSlides (Join segs "\n---\n".toList) = segs := by
  rcases List.eq_nil_or_concat segs with e | ⟨init, last, e⟩
  · subst e; decide
  · subst e
    rw [List.concat_eq_append] at h ⊢
    unfold splitSlides
    simp only
    rw [splitSlides_foldl_Join init last {} ⟨rfl, rfl⟩ h]
    have hlen : 0 < (Split last '\n').length := List.length_pos.mpr (Split_ne_nil _ _)
    have hj : Join (Split last '\n') "\n".toList = last := Join_Split last '\n'
    simp only [hlen, if_true, hj, List.nil_append]
    rw [if_pos (h last (by simp)).1]

/-! ## The text that `Encode` writes -/

theorem foldl_append_lines (lines : List GoString) (nl acc : GoString) :
    lines.foldl (fun b line => b ++ line ++ nl) acc =
      acc ++ (lines.map (· ++ nl)).flatten := by
  induction lines generalizing acc with
  | nil => simp
  | cons l rest ih =>
    rw [List.foldl_cons, ih]
    simp

theorem isEmpty_append_eq {α : Type} (a b : List α) :
    (a ++ b).isEmpty = (a.isEmpty && b.isEmpty) := by
  cases a <;> simp

theorem Join_append_sep (lines : List GoString) (sep : GoString) (h : lines ≠ []) :
    Join lines sep ++ sep = (lines.map (· ++ sep)).flatten := by
  induction lines with
  | nil => exact absurd rfl h
  | cons l rest ih =>
    cases rest with
    | nil => simp [Join_singleton]
    | cons l2 rest' =>
      rw [Join_cons_cons, List.map_cons, List.flatten_cons, ← ih (by simp)]
      simp

theorem headerLines_ne_nil (deck : Deck) : headerLines deck ≠ [] := by
  simp [headerLines]

/-- The frontmatter that `writeFrontmatter` writes is the fenced header of the
header lines, followed by an empty line. -/
theorem writeFrontmatter_eq (deck : Deck) :
    writeFrontmatter deck = fencedText (headerLines deck) "\n\n".toList := by
  have key : fencedText (headerLines deck) "\n\n".toList =
      "---\n".toList ++ ((headerLines deck).map (· ++ "\n".toList)).flatten ++
        "---\n\n".toList := by
    unfold fencedText
    rw [← Join_append_sep _ _ (headerLines_ne_nil deck)]
    simp only [List.append_assoc]
    rfl
  rw [key]
  unfold writeFrontmatter headerLines
  cases ht : deck.Theme with
  | none => simp
  | some t =>
    simp only
    by_cases hn : t.Name ≠ []
    · by_cases hs : Theme.GetCustom (some t) "style".toList [] ≠ []
      · simp only [hn, hs, if_true, foldl_append_lines, ne_eq, not_false_eq_true]
        simp
      · simp only [hn, hs, if_true, if_false, ne_eq, not_false_eq_true]
        simp
    · by_cases hs : Theme.GetCustom (some t) "style".toList [] ≠ []
      · simp only [hn, hs, if_true, if_false, foldl_append_lines, ne_eq, not_false_eq_true]
        simp
      · simp only [hn, hs, if_false, ne_eq]
        simp

theorem encodeChunk_append (first : Bool) (a b : List GoString) :
    encodeChunk first (a ++ b) = encodeChunk first a ++ encodeChunk (first && a.isEmpty) b := by
  induction a generalizing first with
  | nil => simp [encodeChunk]
  | cons w rest ih =>
    have := ih false
    simp only [Bool.false_and] at this
    show (if first = true then [] else "\n---\n\n".toList) ++ w ++
        encodeChunk false (rest ++ b) = _
    rw [this]
    simp only [encodeChunk, List.isEmpty_cons, Bool.and_false, List.append_assoc]

theorem encodeChunk_false (ws : List GoString) (h : ws ≠ []) :
    encodeChunk false ws = "\n---\n\n".toList ++ Join ws "\n---\n\n".toList := by
  induction ws with
  | nil => exact absurd rfl h
  | cons w rest ih =>
    cases rest with
    | nil => simp [encodeChunk, Join_singleton]
    | cons w2 rest' =>
      rw [encodeChunk, ih (by simp), Join_cons_cons]
      simp

theorem encodeChunk_true (ws : List GoString) :
    encodeChunk true ws = Join ws "\n---\n\n".toList := by
  cases ws with
  | nil => rfl
  | cons w rest =>
    cases rest with
    | nil => simp [encodeChunk, Join_singleton]
    | cons w2 rest' =>
      rw [encodeChunk, encodeChunk_false _ (by simp), Join_cons_cons]
      simp

theorem Encode_slides_loop (slides : List Slide) (ws : List GoString) (st : encodeState)
    (h : List.Forall₂ (fun s w => writeSlide s = some w) slides ws) :
    slides.foldlM Encode.slideStep st =
      some { b := st.b ++ encodeChunk st.first ws, first := st.first && ws.isEmpty } := by
  induction h generalizing st with
  | nil => simp [encodeChunk]
  | cons hw _ ih =>
    simp only [List.foldlM_cons, Encode.slideStep, hw, Option.bind_eq_bind, Option.some_bind]
    rw [ih]
    simp only [encodeChunk, List.isEmpty_cons, Bool.and_false, List.append_assoc]
    cases st.first <;> simp

theorem Encode_sections_loop (secs : List Section) (wss : List (List GoString))
    (st : encodeState)
    (h : List.Forall₂ (fun sec ws =>
      List.Forall₂ (fun s w => writeSlide s = some w) sec.Slides ws) secs wss) :
    secs.foldlM (fun (st : encodeState) (sec : Section) =>
        sec.Slides.foldlM Encode.slideStep st) st =
      some { b := st.b ++ encodeChunk st.first wss.flatten,
             first := st.first && wss.flatten.isEmpty } := by
  induction h generalizing st with
  | nil => simp [encodeChunk]
  | cons hw _ ih =>
    simp only [List.foldlM_cons, Option.bind_eq_bind]
    rw [Encode_slides_loop _ _ st hw]
    simp only [Option.some_bind]
    rw [ih]
    simp only [List.flatten_cons, encodeChunk_append, List.append_assoc, isEmpty_append_eq,
      Bool.and_assoc]

/-- The text of `Encode`: the frontmatter, then the slide texts joined by separator
lines. -/
theorem Encode_eq (deck : Deck) (wss : List (List GoString))
    (h : List.Forall₂ (fun sec ws =>
      List.Forall₂ (fun s w => writeSlide s = some w) sec.Slides ws) deck.Sections wss) :
    Encode deck =
      some (fencedText (headerLines deck)
        ("\n\n".toList ++ Join wss.flatten "\n---\n\n".toList)) := by
  unfold Encode
  rw [Encode_sections_loop _ _ _ h]
  simp only [Option.some_bind, encodeChunk_true, writeFrontmatter_eq]
  simp [fencedText, List.append_assoc]

/-! ## White space around a fragment -/

theorem trimmedLines_append_left (a w : GoString) (ha : ∀ c ∈ a, isSpace c = true) :
    trimmedLines (a ++ w) = trimmedLines w := by
  induction a with
  | nil => rfl
  | cons c rest ih =>
    rw [List.cons_append, trimmedLines_cons_space c _ (ha c (by simp)),
      ih (fun x hx => ha x (by simp [hx]))]

theorem trimmedLines_append_right (w t : GoString) (ht : ∀ c ∈ t, isSpace c = true) :
    trimmedLines (w ++ t) = trimmedLines w := by
  induction t using List.reverseRecOn with
  | nil => simp
  | append_singleton rest c ih =>
    rw [← List.append_assoc, trimmedLines_concat_space _ c (ht c (by simp)),
      ih (fun x hx => ht x (by simp [hx]))]

theorem TrimSpace_append_left (a w : GoString) (ha : ∀ c ∈ a, isSpace c = true) :
    TrimSpace (a ++ w) = TrimSpace w := by
  induction a with
  | nil => rfl
  | cons c rest ih =>
    rw [List.cons_append, TrimSpace_cons_space c _ (ha c (by simp)),
      ih (fun x hx => ha x (by simp [hx]))]

theorem TrimSpace_append_space (w t : GoString) (ht : ∀ c ∈ t, isSpace c = true) :
    TrimSpace (w ++ t) = TrimSpace w := by
  induction t using List.reverseRecOn with
  | nil => simp
  | append_singleton rest c ih =>
    rw [← List.append_assoc, TrimSpace_concat_space _ c (ht c (by simp)),
      ih (fun x hx => ht x (by simp [hx]))]

theorem isFenceLine_TrimSpace (l : GoString) : isFenceLine (TrimSpace l) = isFenceLine l := by
  simp [isFenceLine, TrimSpace_idem]

theorem isSeparatorLine_TrimSpace (l : GoString) :
    isSeparatorLine (TrimSpace l) = isSeparatorLine l := by
  simp [isSeparatorLine, TrimSpace_idem]

/-- The fence scan only looks at the trimmed, non-blank lines. -/
theorem fenceScan_trimmed (lines : List GoString) (b : Bool) :
    fenceScan b lines = fenceScan b ((lines.map TrimSpace).filter (fun t => t ≠ [])) := by
  induction lines generalizing b with
  | nil => rfl
  | cons l rest ih =>
    by_cases hb : TrimSpace l = []
    · have h1 : isFenceLine l = false := by
        simp only [isFenceLine, hb]; decide
      have h2 : isSeparatorLine l = false := by
        simp only [isSeparatorLine, hb]; decide
      simp only [fenceScan, h1, h2, List.map_cons, List.filter_cons, hb]
      simp only [Bool.false_eq_true, if_false, and_false, ne_eq, not_true_eq_false,
        decide_False]
      exact ih b
    · simp only [List.map_cons, List.filter_cons, ne_eq, hb, not_false_eq_true, decide_True,
        if_true, fenceScan, isFenceLine_TrimSpace, isSeparatorLine_TrimSpace]
      split_ifs <;> first | rfl | exact ih _

theorem fenceClosed_of_trimmedLines_eq (f w : GoString)
    (h : trimmedLines f = trimmedLines w) : fenceClosed f = fenceClosed w := by
  unfold fenceClosed
  rw [fenceScan_trimmed (Split f '\n'), fenceScan_trimmed (Split w '\n')]
  have hf : ((Split f '\n').map TrimSpace).filter (fun t => t ≠ []) = trimmedLines f := rfl
  have hw : ((Split w '\n').map TrimSpace).filter (fun t => t ≠ []) = trimmedLines w := rfl
  rw [hf, hw, h]

theorem Pad_trimmedLines (f w : GoString) (h : Pad f w) : trimmedLines f = trimmedLines w := by
  obtain ⟨a, core, t, hf, hw, ha, ht⟩ := h
  rw [hf, hw, trimmedLines_append_left a core ha, trimmedLines_append_right core t ht]

theorem Pad_TrimSpace (f w : GoString) (h : Pad f w) : TrimSpace f = TrimSpace w := by
  obtain ⟨a, core, t, hf, hw, ha, ht⟩ := h
  rw [hf, hw, TrimSpace_append_left a core ha, TrimSpace_append_space core t ht]

theorem Pad_fenceClosed (f w : GoString) (h : Pad f w) : fenceClosed f = fenceClosed w :=
  fenceClosed_of_trimmedLines_eq f w (Pad_trimmedLines f w h)

/-! ## The body of the text of `Encode` -/

theorem rdropWhile_decomp (w : GoString) :
    ∃ t, w = List.rdropWhile isSpace w ++ t ∧ ∀ c ∈ t, isSpace c = true := by
  induction w using List.reverseRecOn with
  | nil => exact ⟨[], by simp, by simp⟩
  | append_singleton rest c ih =>
    by_cases hc : isSpace c = true
    · obtain ⟨t, ht, hsp⟩ := ih
      refine ⟨t ++ [c], ?_, ?_⟩
      · rw [List.rdropWhile_concat_pos _ _ _ hc, ← List.append_assoc, ← ht]
      · intro x hx
        simp only [List.mem_append, List.mem_singleton] at hx
        rcases hx with hx | hx
        · exact hsp x hx
        · subst hx; exact hc
    · exact ⟨[], by rw [List.rdropWhile_concat_neg _ _ _ hc]; simp, by simp⟩

theorem rdropWhile_ne_nil_of_TrimSpace (w : GoString) (h : TrimSpace w ≠ []) :
    List.rdropWhile isSpace w ≠ [] := by
  intro e
  apply h
  rw [TrimSpace_eq_nil_iff]
  rw [List.rdropWhile_eq_nil_iff] at e
  exact e

theorem rdropWhile_append_of_ne_nil (P w : GoString) (h : List.rdropWhile isSpace w ≠ []) :
    List.rdropWhile isSpace (P ++ w) = P ++ List.rdropWhile isSpace w := by
  induction w using List.reverseRecOn with
  | nil => simp at h
  | append_singleton rest c ih =>
    by_cases hc : isSpace c = true
    · rw [List.rdropWhile_concat_pos _ _ _ hc] at h
      rw [← List.append_assoc, List.rdropWhile_concat_pos _ _ _ hc,
        List.rdropWhile_concat_pos _ _ _ hc, ih h]
    · rw [← List.append_assoc, List.rdropWhile_concat_neg _ _ _ hc,
        List.rdropWhile_concat_neg _ _ _ hc]
      simp

theorem padFrags_ne_nil (p w : GoString) (rest : List GoString) :
    padFrags p (w :: rest) ≠ [] := by
  simp [padFrags]

theorem padFrags_cons (p w : GoString) (rest : List GoString) :
    padFrags p (w :: rest) = (p ++ w) :: padFrags "\n".toList rest := rfl

theorem Join_padFrags (p w : GoString) (rest : List GoString) :
    p ++ Join (w :: rest) "\n---\n\n".toList =
      Join (padFrags p (w :: rest)) "\n---\n".toList := by
  induction rest generalizing p w with
  | nil => simp [padFrags, Join_singleton]
  | cons w2 rest' ih =>
    rw [padFrags_cons, Join_cons_of_ne_nil _ _ _ (padFrags_ne_nil _ _ _),
      ← ih "\n".toList w2, Join_cons_cons]
    simp only [List.append_assoc]
    rfl

theorem rtrimLast_ne_nil (w : GoString) (rest : List GoString) :
    rtrimLast (w :: rest) ≠ [] := by
  cases rest <;> simp [rtrimLast]

theorem Join_padFrags_ne_nil (ws : List GoString) (h : ws ≠ []) :
    Join (padFrags "\n".toList ws) "\n---\n".toList ≠ [] := by
  obtain ⟨w, rest, e⟩ := List.exists_cons_of_ne_nil h
  subst e
  rw [← Join_padFrags]
  intro e
  have := congrArg List.length e
  simp at this

/-- Removing the trailing white space of the body only touches its last slide
text. -/
theorem rdropWhile_Join_padFrags (p : GoString) (ws : List GoString) (hne : ws ≠ [])
    (h : ∀ w ∈ ws, TrimSpace w ≠ []) :
    List.rdropWhile isSpace (Join (padFrags p ws) "\n---\n".toList) =
      Join (padFrags p (rtrimLast ws)) "\n---\n".toList := by
  induction ws generalizing p with
  | nil => exact absurd rfl hne
  | cons w rest ih =>
    cases rest with
    | nil =>
      simp only [padFrags, rtrimLast, Join_singleton]
      exact rdropWhile_append_of_ne_nil p w (rdropWhile_ne_nil_of_TrimSpace w (h w (by simp)))
    | cons w2 rest' =>
      have ih' := ih "\n".toList (by simp) (fun x hx => h x (by simp [hx]))
      have e2 : rtrimLast (w :: w2 :: rest') = w :: rtrimLast (w2 :: rest') := rfl
      have hne2 : padFrags "\n".toList (rtrimLast (w2 :: rest')) ≠ [] := by
        obtain ⟨a, b, e⟩ := List.exists_cons_of_ne_nil (rtrimLast_ne_nil w2 rest')
        rw [e]; exact padFrags_ne_nil _ _ _
      rw [e2, padFrags_cons p w (w2 :: rest'), padFrags_cons p w (rtrimLast (w2 :: rest')),
        Join_cons_of_ne_nil _ _ _ (padFrags_ne_nil _ _ _),
        Join_cons_of_ne_nil _ _ _ hne2, rdropWhile_append_of_ne_nil _ _ (by
          rw [ih']
          exact Join_padFrags_ne_nil _ (rtrimLast_ne_nil w2 rest')), ih']

theorem Pad_padFrags_rtrimLast (p : GoString) (ws : List GoString)
    (hp : ∀ c ∈ p, isSpace c = true) :
    List.Forall₂ Pad (padFrags p (rtrimLast ws)) ws := by
  induction ws generalizing p with
  | nil => exact List.Forall₂.nil
  | cons w rest ih =>
    cases rest with
    | nil =>
      simp only [rtrimLast, padFrags]
      obtain ⟨t, ht, hsp⟩ := rdropWhile_decomp w
      exact List.Forall₂.cons ⟨p, List.rdropWhile isSpace w, t, rfl, ht, hp, hsp⟩
        List.Forall₂.nil
    | cons w2 rest' =>
      rw [rtrimLast, padFrags]
      exact List.Forall₂.cons ⟨p, w, [], rfl, by simp, hp, by simp⟩
        (ih "\n".toList (by decide))

/-- The fragments that `splitSlides` finds in the body of the text of `Encode` are
the slide texts, up to white space around them. -/
theorem splitSlides_encoded_body (ws : List GoString)
    (h : ∀ w ∈ ws, TrimSpace w ≠ [] ∧ fenceClosed w = true) :
    ∃ F, splitSlides (List.rdropWhile isSpace
        ("\n\n".toList ++ Join ws "\n---\n\n".toList)) = F ∧ List.Forall₂ Pad F ws := by
  cases ws with
  | nil => exact ⟨[], by decide, List.Forall₂.nil⟩
  | cons w rest =>
    have hpad := Pad_padFrags_rtrimLast "\n\n".toList (w :: rest) (by decide)
    refine ⟨_, ?_, hpad⟩
    rw [Join_padFrags, rdropWhile_Join_padFrags _ _ (by simp) (fun x hx => (h x hx).1)]
    apply splitSlides_Join
    intro f hf
    obtain ⟨w', hw', hp⟩ : ∃ w' ∈ (w :: rest), Pad f w' := by
      have := List.forall₂_iff_zip.mp hpad
      obtain ⟨n, hn, e⟩ := List.getElem_of_mem hf
      have hlen := this.1
      have hn' : n < (w :: rest).length := by omega
      refine ⟨(w :: rest)[n], List.getElem_mem hn', ?_⟩
      apply this.2
      rw [← e]
      exact List.getElem_zip ▸ List.getElem_mem (l := List.zip _ _) (by
        simp only [List.length_zip]; omega)
    rw [Pad_TrimSpace f w' hp, Pad_fenceClosed f w' hp]
    exact h w' hw'

/-! ## Matching does not depend on the text around a match -/

theorem starGreedy_congr {α : Type} (p : Char → Bool)
    (k k' : Option Char → GoString → Nat → Option α) (s : GoString)
    (h : ∀ prev prev' s' pos, s'.length ≤ s.length → k prev s' pos = k' prev' s' pos)
    (prev prev' : Option Char) (pos : Nat) :
    starGreedy p k prev s pos = starGreedy p k' prev' s pos := by
  induction s generalizing prev prev' pos with
  | nil => simp only [starGreedy]; exact h _ _ _ _ (le_refl _)
  | cons c cs ih =>
    simp only [starGreedy]
    rw [ih (fun a b s' q hs => h a b s' q (by simp only [List.length_cons]; omega))
      (some c) (some c) (pos + 1), h prev prev' (c :: cs) pos (le_refl _)]

theorem starLazy_congr {α : Type} (p : Char → Bool)
    (k k' : Option Char → GoString → Nat → Option α) (s : GoString)
    (h : ∀ prev prev' s' pos, s'.length ≤ s.length → k prev s' pos = k' prev' s' pos)
    (prev prev' : Option Char) (pos : Nat) :
    starLazy p k prev s pos = starLazy p k' prev' s pos := by
  induction s generalizing prev prev' pos with
  | nil => simp only [starLazy]; exact h _ _ _ _ (le_refl _)
  | cons c cs ih =>
    simp only [starLazy]
    rw [ih (fun a b s' q hs => h a b s' q (by simp only [List.length_cons]; omega))
      (some c) (some c) (pos + 1), h prev prev' (c :: cs) pos (le_refl _)]

/-- A plain pattern matches the same way whatever character precedes the
position. -/
theorem RE_run_prev (re : List RE) (hplain : re.all RE.isPlain = true)
    (prev prev' : Option Char) (s : GoString) (pos : Nat) :
    RE.run re prev s pos = RE.run re prev' s pos := by
  induction re generalizing prev prev' s pos with
  | nil => rfl
  | cons item k ih =>
    simp only [List.all_cons, Bool.and_eq_true] at hplain
    have ihk := ih hplain.2
    cases item with
    | chr p => simp only [RE.run]
    | star p greedy =>
      cases greedy with
      | true =>
        simp only [RE.run]
        exact starGreedy_congr p _ _ s (fun a b s' q _ => ihk a b s' q) _ _ _
      | false =>
        simp only [RE.run]
        exact starLazy_congr p _ _ s (fun a b s' q _ => ihk a b s' q) _ _ _
    | opt p =>
      simp only [RE.run]
      cases s with
      | nil => exact ihk _ _ _ _
      | cons c cs => simp only [ihk prev prev' (c :: cs) pos]
    | openGroup => simp only [RE.run, ihk prev prev' s pos]
    | closeGroup => simp only [RE.run, ihk prev prev' s pos]
    | alt ws => simp [RE.isPlain] at hplain
    | wordBoundary => simp [RE.isPlain] at hplain
    | bot => simp [RE.isPlain] at hplain
    | eot => simp [RE.isPlain] at hplain

theorem findAllFrom_prev (re : List RE) (hplain : re.all RE.isPlain = true)
    (prev prev' : Option Char) (s : GoString) (skip : Nat) :
    findAllFrom re prev s skip = findAllFrom re prev' s skip := by
  cases s with
  | nil => simp only [findAllFrom, RE_run_prev re hplain prev prev']
  | cons c cs =>
    cases skip with
    | succ k => simp only [findAllFrom]
    | zero => simp only [findAllFrom, RE_run_prev re hplain prev prev']

theorem removeAllFrom_prev (re : List RE) (hplain : re.all RE.isPlain = true)
    (prev prev' : Option Char) (s : GoString) (skip : Nat) :
    removeAllFrom re prev s skip = removeAllFrom re prev' s skip := by
  cases s with
  | nil => simp only [removeAllFrom]
  | cons c cs =>
    cases skip with
    | succ k => simp only [removeAllFrom]
    | zero => simp only [removeAllFrom, RE_run_prev re hplain prev prev']

/-! ### Text in front of the matches -/

/-- In front of a text, characters that cannot begin a match are passed over. -/
theorem findAllFrom_append_left (p0 : Char → Bool) (k : List RE)
    (hplain : (RE.chr p0 :: k).all RE.isPlain = true) (a s : GoString)
    (ha : ∀ c ∈ a, p0 c = false) (prev : Option Char) :
    findAllFrom (RE.chr p0 :: k) prev (a ++ s) 0 = findAllFrom (RE.chr p0 :: k) none s 0 := by
  induction a generalizing prev with
  | nil => exact findAllFrom_prev _ hplain _ _ _ _
  | cons c rest ih =>
    have hc := ha c (by simp)
    simp only [List.cons_append, findAllFrom, RE.run, hc, Bool.false_eq_true, if_false]
    exact ih (fun x hx => ha x (by simp [hx])) _

theorem removeAllFrom_append_left (p0 : Char → Bool) (k : List RE)
    (hplain : (RE.chr p0 :: k).all RE.isPlain = true) (a s : GoString)
    (ha : ∀ c ∈ a, p0 c = false) (prev : Option Char) :
    removeAllFrom (RE.chr p0 :: k) prev (a ++ s) 0 =
      a ++ removeAllFrom (RE.chr p0 :: k) none s 0 := by
  induction a generalizing prev with
  | nil => exact removeAllFrom_prev _ hplain _ _ _ _
  | cons c rest ih =>
    have hc := ha c (by simp)
    have := ih (fun x hx => ha x (by simp [hx])) (some c)
    simp only [List.cons_append, removeAllFrom, RE.run, hc, Bool.false_eq_true, if_false]
    exact congrArg (c :: ·) this

/-! ### Text after the matches -/

theorem starGreedy_none {α : Type} (p : Char → Bool)
    (k : Option Char → GoString → Nat → Option α) (t : GoString)
    (h : ∀ prev t' pos, t' <:+ t → k prev t' pos = none) (prev : Option Char) (pos : Nat) :
    starGreedy p k prev t pos = none := by
  induction t generalizing prev pos with
  | nil => simp only [starGreedy]; exact h _ _ _ (List.suffix_refl _)
  | cons c cs ih =>
    simp only [starGreedy]
    rw [ih (fun a t' q hs => h a t' q (hs.trans (List.suffix_cons c cs))),
      h prev (c :: cs) pos (List.suffix_refl _)]
    simp

theorem starLazy_none {α : Type} (p : Char → Bool)
    (k : Option Char → GoString → Nat → Option α) (t : GoString)
    (h : ∀ prev t' pos, t' <:+ t → k prev t' pos = none) (prev : Option Char) (pos : Nat) :
    starLazy p k prev t pos = none := by
  induction t generalizing prev pos with
  | nil => simp only [starLazy]; exact h _ _ _ (List.suffix_refl _)
  | cons c cs ih =>
    simp only [starLazy]
    rw [ih (fun a t' q hs => h a t' q (hs.trans (List.suffix_cons c cs))),
      h prev (c :: cs) pos (List.suffix_refl _)]
    simp

/-- A plain pattern that ends with a character class cannot match inside a text
without a character of that class. -/
theorem RE_run_none_of_blocked (items : List RE) (p : Char → Bool)
    (hplain : items.all RE.isPlain = true) (t : GoString) (hp : ∀ c ∈ t, p c = false)
    (prev : Option Char) (pos : Nat) :
    RE.run (items ++ [RE.chr p]) prev t pos = none := by
  induction items generalizing t prev pos with
  | nil =>
    cases t with
    | nil => rfl
    | cons c ct => simp [RE.run, hp c (by simp)]
  | cons item k ih =>
    simp only [List.all_cons, Bool.and_eq_true] at hplain
    have ihk := ih hplain.2
    have hsuf : ∀ t', t' <:+ t → ∀ c ∈ t', p c = false :=
      fun t' hs c hc => hp c (hs.subset hc)
    cases item with
    | chr q =>
      cases t with
      | nil => rfl
      | cons c ct =>
        simp only [List.cons_append, RE.run, List.append_eq]
        split_ifs
        · exact ihk ct (fun x hx => hp x (by simp [hx])) _ _
        · rfl
    | star q greedy =>
      cases greedy with
      | true =>
        simp only [List.cons_append, RE.run, List.append_eq]
        exact starGreedy_none q _ t (fun a t' b hs => ihk t' (hsuf t' hs) a b) _ _
      | false =>
        simp only [List.cons_append, RE.run, List.append_eq]
        exact starLazy_none q _ t (fun a t' b hs => ihk t' (hsuf t' hs) a b) _ _
    | opt q =>
      cases t with
      | nil => simp only [List.cons_append, RE.run, List.append_eq]; exact ihk [] (by simp) _ _
      | cons c ct =>
        simp only [List.cons_append, RE.run, List.append_eq]
        rw [ihk ct (fun x hx => hp x (by simp [hx])), ihk (c :: ct) hp]
        split_ifs <;> rfl
    | openGroup => simp only [List.cons_append, RE.run, List.append_eq, ihk t hp, Option.map_none']
    | closeGroup => simp only [List.cons_append, RE.run, List.append_eq, ihk t hp, Option.map_none']
    | alt ws => simp [RE.isPlain] at hplain
    | wordBoundary => simp [RE.isPlain] at hplain
    | bot => simp [RE.isPlain] at hplain
    | eot => simp [RE.isPlain] at hplain

theorem starGreedy_append {α : Type} (p : Char → Bool)
    (k : Option Char → GoString → Nat → Option α) (t : GoString)
    (hq : ∀ prev s' pos, k prev (s' ++ t) pos = k prev s' pos)
    (hnone : ∀ prev t' pos, t' <:+ t → k prev t' pos = none)
    (prev : Option Char) (s : GoString) (pos : Nat) :
    starGreedy p k prev (s ++ t) pos = starGreedy p k prev s pos := by
  induction s generalizing prev pos with
  | nil =>
    have h1 := hq prev [] pos
    simp only [List.nil_append] at h1 ⊢
    rw [starGreedy_none p k t hnone, starGreedy, ← h1, hnone prev t pos (List.suffix_refl _)]
  | cons c cs ih =>
    simp only [List.cons_append, starGreedy, List.append_eq]
    rw [ih, ← List.cons_append, hq]

theorem starLazy_append {α : Type} (p : Char → Bool)
    (k : Option Char → GoString → Nat → Option α) (t : GoString)
    (hq : ∀ prev s' pos, k prev (s' ++ t) pos = k prev s' pos)
    (hnone : ∀ prev t' pos, t' <:+ t → k prev t' pos = none)
    (prev : Option Char) (s : GoString) (pos : Nat) :
    starLazy p k prev (s ++ t) pos = starLazy p k prev s pos := by
  induction s generalizing prev pos with
  | nil =>
    have h1 := hq prev [] pos
    simp only [List.nil_append] at h1 ⊢
    rw [starLazy_none p k t hnone, starLazy, ← h1, hnone prev t pos (List.suffix_refl _)]
  | cons c cs ih =>
    simp only [List.cons_append, starLazy, List.append_eq]
    rw [ih, ← List.cons_append, hq]

/-- A plain pattern that ends with a character class matches the same way when text
without a character of that class is added after the text. -/
theorem RE_run_append_blocked (items : List RE) (p : Char → Bool)
    (hplain : items.all RE.isPlain = true) (t : GoString) (hp : ∀ c ∈ t, p c = false)
    (prev : Option Char) (s : GoString) (pos : Nat) :
    RE.run (items ++ [RE.chr p]) prev (s ++ t) pos =
      RE.run (items ++ [RE.chr p]) prev s pos := by
  induction items generalizing s prev pos with
  | nil =>
    cases s with
    | nil =>
      have := RE_run_none_of_blocked [] p rfl t hp prev pos
      simp only [List.nil_append] at this ⊢
      rw [this]
      rfl
    | cons c cs => simp only [List.nil_append, List.cons_append, RE.run, List.append_eq]
  | cons item k ih =>
    have hall := hplain
    simp only [List.all_cons, Bool.and_eq_true] at hplain
    have ihk := ih hplain.2
    have hnone : ∀ prev t' pos, t' <:+ t → RE.run (k ++ [RE.chr p]) prev t' pos = none :=
      fun a t' b hs => RE_run_none_of_blocked k p hplain.2 t'
        (fun c hc => hp c (hs.subset hc)) a b
    have hnil : ∀ prev pos, RE.run (k ++ [RE.chr p]) prev [] pos = none := by
      intro a b
      have := ihk a [] b
      simp only [List.nil_append] at this
      rw [← this]
      exact hnone a t b (List.suffix_refl _)
    cases item with
    | chr q =>
      cases s with
      | nil =>
        simp only [List.nil_append]
        rw [RE_run_none_of_blocked (RE.chr q :: k) p hall t hp]
        rfl
      | cons c cs =>
        simp only [List.cons_append, RE.run, List.append_eq]
        split_ifs
        · exact ihk _ _ _
        · rfl
    | star q greedy =>
      cases greedy with
      | true =>
        simp only [List.cons_append, RE.run, List.append_eq]
        exact starGreedy_append q _ t (fun a s' b => ihk a s' b) hnone _ _ _
      | false =>
        simp only [List.cons_append, RE.run, List.append_eq]
        exact starLazy_append q _ t (fun a s' b => ihk a s' b) hnone _ _ _
    | opt q =>
      cases s with
      | nil =>
        simp only [List.nil_append]
        rw [RE_run_none_of_blocked (RE.opt q :: k) p hall t hp]
        simp only [List.cons_append, RE.run, List.append_eq, hnil]
      | cons c cs =>
        simp only [List.cons_append, RE.run, List.append_eq]
        rw [ihk (some c) cs (pos + 1)]
        have := ihk prev (c :: cs) pos
        simp only [List.cons_append] at this
        rw [this]
    | openGroup => simp only [List.cons_append, RE.run, List.append_eq, ihk prev s pos]
    | closeGroup => simp only [List.cons_append, RE.run, List.append_eq, ihk prev s pos]
    | alt ws => simp [RE.isPlain] at hplain
    | wordBoundary => simp [RE.isPlain] at hplain
    | bot => simp [RE.isPlain] at hplain
    | eot => simp [RE.isPlain] at hplain

/-! ### Matches lie inside the text -/

theorem MatchInside_step (pos : Nat) (c : Char) (cs : GoString) (r : List Nat × Nat)
    (h : MatchInside (pos + 1) cs r) : MatchInside pos (c :: cs) r := by
  obtain ⟨h1, h2, h3⟩ := h
  refine ⟨by omega, by simp only [List.length_cons]; omega, ?_⟩
  intro m hm
  have := h3 m hm
  omega

theorem starGreedy_inside (p : Char → Bool)
    (k : Option Char → GoString → Nat → Option (List Nat × Nat))
    (hk : ∀ prev s pos r, k prev s pos = some r → MatchInside pos s r)
    (prev : Option Char) (s : GoString) (pos : Nat) (r : List Nat × Nat)
    (h : starGreedy p k prev s pos = some r) : MatchInside pos s r := by
  induction s generalizing prev pos with
  | nil => exact hk _ _ _ _ (by simpa [starGreedy] using h)
  | cons c cs ih =>
    simp only [starGreedy] at h
    split_ifs at h with hp
    · cases hr : starGreedy p k (some c) cs (pos + 1) with
      | some r' =>
        rw [hr] at h
        simp only [Option.some.injEq] at h
        subst h
        exact MatchInside_step pos c cs _ (ih _ _ hr)
      | none =>
        rw [hr] at h
        exact hk _ _ _ _ h
    · exact hk _ _ _ _ h

theorem starLazy_inside (p : Char → Bool)
    (k : Option Char → GoString → Nat → Option (List Nat × Nat))
    (hk : ∀ prev s pos r, k prev s pos = some r → MatchInside pos s r)
    (prev : Option Char) (s : GoString) (pos : Nat) (r : List Nat × Nat)
    (h : starLazy p k prev s pos = some r) : MatchInside pos s r := by
  induction s generalizing prev pos with
  | nil => exact hk _ _ _ _ (by simpa [starLazy] using h)
  | cons c cs ih =>
    simp only [starLazy] at h
    cases hr : k prev (c :: cs) pos with
    | some r' =>
      rw [hr] at h
      simp only [Option.some.injEq] at h
      subst h
      exact hk _ _ _ _ hr
    | none =>
      rw [hr] at h
      simp only at h
      split_ifs at h with hp
      exact MatchInside_step pos c cs _ (ih _ _ h)

/-- The match of a plain pattern lies inside the text. -/
theorem RE_run_inside (re : List RE) (hplain : re.all RE.isPlain = true)
    (prev : Option Char) (s : GoString) (pos : Nat) (r : List Nat × Nat)
    (h : RE.run re prev s pos = some r) : MatchInside pos s r := by
  induction re generalizing prev s pos r with
  | nil =>
    simp only [RE.run, Option.some.injEq] at h
    subst h
    exact ⟨le_refl _, by simp, by simp⟩
  | cons item k ih =>
    simp only [List.all_cons, Bool.and_eq_true] at hplain
    have ihk := ih hplain.2
    cases item with
    | chr p =>
      simp only [RE.run] at h
      split at h
      · split_ifs at h
        exact MatchInside_step pos _ _ _ (ihk _ _ _ _ h)
      · exact absurd h (by simp)
    | star p greedy =>
      cases greedy with
      | true =>
        simp only [RE.run] at h
        exact starGreedy_inside p _ ihk _ _ _ _ h
      | false =>
        simp only [RE.run] at h
        exact starLazy_inside p _ ihk _ _ _ _ h
    | opt p =>
      simp only [RE.run] at h
      split at h
      · split_ifs at h
        · split at h
          · next r' hr =>
            simp only [Option.some.injEq] at h
            subst h
            exact MatchInside_step pos _ _ _ (ihk _ _ _ _ hr)
          · exact ihk _ _ _ _ h
        · exact ihk _ _ _ _ h
      · exact ihk _ _ _ _ h
    | openGroup =>
      simp only [RE.run, Option.map_eq_some'] at h
      obtain ⟨r', hr, e⟩ := h
      subst e
      obtain ⟨h1, h2, h3⟩ := ihk _ _ _ _ hr
      refine ⟨h1, h2, ?_⟩
      intro m hm
      simp only [List.mem_cons] at hm
      rcases hm with hm | hm
      · subst hm; exact ⟨le_refl _, h1⟩
      · exact h3 m hm
    | closeGroup =>
      simp only [RE.run, Option.map_eq_some'] at h
      obtain ⟨r', hr, e⟩ := h
      subst e
      obtain ⟨h1, h2, h3⟩ := ihk _ _ _ _ hr
      refine ⟨h1, h2, ?_⟩
      intro m hm
      simp only [List.mem_cons] at hm
      rcases hm with hm | hm
      · subst hm; exact ⟨le_refl _, h1⟩
      · exact h3 m hm
    | alt ws => simp [RE.isPlain] at hplain
    | wordBoundary => simp [RE.isPlain] at hplain
    | bot => simp [RE.isPlain] at hplain
    | eot => simp [RE.isPlain] at hplain

/-! ### Searching a text followed by text without matches -/

theorem submatches_groups_append (s t : GoString) : ∀ (marks : List Nat),
    (∀ m ∈ marks, m ≤ s.length) →
    submatches.groups (s ++ t) marks = submatches.groups s marks
  | [], _ => by simp [submatches.groups]
  | [_], _ => by simp [submatches.groups]
  | o :: c :: rest, h => by
    have ho := h o (by simp)
    have hc := h c (by simp)
    simp only [submatches.groups]
    rw [submatches_groups_append s t rest (fun m hm => h m (by simp [hm]))]
    congr 1
    rw [List.drop_append_of_le_length ho, List.take_append_of_le_length]
    simp only [List.length_drop]
    omega

theorem submatches_append (s t : GoString) (marks : List Nat) (e : Nat)
    (he : e ≤ s.length) (h : ∀ m ∈ marks, m ≤ s.length) :
    submatches (s ++ t) marks e = submatches s marks e := by
  simp only [submatches, submatches_groups_append s t marks h,
    List.take_append_of_le_length he]

theorem findAllFrom_none (re : List RE) (t : GoString)
    (h : ∀ prev t' pos, t' <:+ t → RE.run re prev t' pos = none) (prev : Option Char) :
    findAllFrom re prev t 0 = [] := by
  induction t generalizing prev with
  | nil => simp only [findAllFrom, h prev [] 0 (List.suffix_refl _), if_true]
  | cons c ct ih =>
    simp only [findAllFrom, h prev (c :: ct) 0 (List.suffix_refl _)]
    exact ih (fun a t' b hs => h a t' b (hs.trans (List.suffix_cons c ct))) _

theorem removeAllFrom_none (re : List RE) (t : GoString)
    (h : ∀ prev t' pos, t' <:+ t → RE.run re prev t' pos = none) (prev : Option Char) :
    removeAllFrom re prev t 0 = t := by
  induction t generalizing prev with
  | nil => simp only [removeAllFrom]
  | cons c ct ih =>
    simp only [removeAllFrom, h prev (c :: ct) 0 (List.suffix_refl _)]
    rw [ih (fun a t' b hs => h a t' b (hs.trans (List.suffix_cons c ct))) _]

theorem findAllFrom_append_blocked (items : List RE) (p : Char → Bool)
    (hplain : items.all RE.isPlain = true) (t : GoString) (hp : ∀ c ∈ t, p c = false)
    (prev : Option Char) (s : GoString) (skip : Nat) (hskip : skip ≤ s.length) :
    findAllFrom (items ++ [RE.chr p]) prev (s ++ t) skip =
      findAllFrom (items ++ [RE.chr p]) prev s skip := by
  have hnone : ∀ prev t' pos, t' <:+ t → RE.run (items ++ [RE.chr p]) prev t' pos = none :=
    fun a t' b hs => RE_run_none_of_blocked items p hplain t'
      (fun c hc => hp c (hs.subset hc)) a b
  have hall : (items ++ [RE.chr p]).all RE.isPlain = true := by
    simp only [List.all_append, hplain, Bool.true_and]
    rfl
  induction s generalizing prev skip with
  | nil =>
    simp only [List.length_nil, Nat.le_zero] at hskip
    subst hskip
    have h0 := RE_run_append_blocked items p hplain t hp prev [] 0
    simp only [List.nil_append] at h0 ⊢
    rw [findAllFrom_none _ t hnone]
    simp only [findAllFrom, ← h0, hnone prev t 0 (List.suffix_refl _), if_true]
  | cons c cs ih =>
    cases skip with
    | succ k =>
      simp only [List.cons_append, findAllFrom]
      exact ih _ _ (by simpa using hskip)
    | zero =>
      have h0 := RE_run_append_blocked items p hplain t hp prev (c :: cs) 0
      simp only [List.cons_append] at h0 ⊢
      simp only [findAllFrom, h0]
      cases hr : RE.run (items ++ [RE.chr p]) prev (c :: cs) 0 with
      | none => exact ih _ _ (Nat.zero_le _)
      | some r =>
        obtain ⟨marks, e⟩ := r
        obtain ⟨_, h2, h3⟩ := RE_run_inside _ hall _ _ _ _ hr
        simp only [Nat.zero_add, List.length_cons] at h2
        simp only
        rw [ih _ _ (by omega)]
        have := submatches_append (c :: cs) t marks e (by simpa using h2)
          (fun m hm => by have := (h3 m hm).2; simp only [List.length_cons]; omega)
        simp only [List.cons_append] at this
        rw [this]

theorem removeAllFrom_append_blocked (items : List RE) (p : Char → Bool)
    (hplain : items.all RE.isPlain = true) (t : GoString) (hp : ∀ c ∈ t, p c = false)
    (prev : Option Char) (s : GoString) (skip : Nat) (hskip : skip ≤ s.length) :
    removeAllFrom (items ++ [RE.chr p]) prev (s ++ t) skip =
      removeAllFrom (items ++ [RE.chr p]) prev s skip ++ t := by
  have hnone : ∀ prev t' pos, t' <:+ t → RE.run (items ++ [RE.chr p]) prev t' pos = none :=
    fun a t' b hs => RE_run_none_of_blocked items p hplain t'
      (fun c hc => hp c (hs.subset hc)) a b
  have hall : (items ++ [RE.chr p]).all RE.isPlain = true := by
    simp only [List.all_append, hplain, Bool.true_and]
    rfl
  induction s generalizing prev skip with
  | nil =>
    simp only [List.length_nil, Nat.le_zero] at hskip
    subst hskip
    simp only [List.nil_append]
    rw [removeAllFrom_none _ t hnone]
    simp only [removeAllFrom, List.nil_append]
  | cons c cs ih =>
    cases skip with
    | succ k =>
      simp only [List.cons_append, removeAllFrom]
      exact ih _ _ (by simpa using hskip)
    | zero =>
      have h0 := RE_run_append_blocked items p hplain t hp prev (c :: cs) 0
      simp only [List.cons_append] at h0 ⊢
      simp only [removeAllFrom, h0]
      cases hr : RE.run (items ++ [RE.chr p]) prev (c :: cs) 0 with
      | none => simp only [ih _ _ (Nat.zero_le _), List.cons_append]
      | some r =>
        obtain ⟨marks, e⟩ := r
        obtain ⟨_, h2, _⟩ := RE_run_inside _ hall _ _ _ _ hr
        simp only [Nat.zero_add, List.length_cons] at h2
        simp only
        split_ifs with he
        · simp only [ih _ _ (Nat.zero_le _), List.cons_append]
        · exact ih _ _ (by omega)

/-! ### The two patterns of the slide parser -/

theorem isSpace_ne_lt (c : Char) (h : isSpace c = true) : (c == '<') = false := by
  cases hc : c == '<' with
  | false => rfl
  | true =>
    have : c = '<' := by simpa using hc
    subst this
    exact absurd h (by decide)

theorem isSpace_ne_gt (c : Char) (h : isSpace c = true) : (c == '>') = false := by
  cases hc : c == '>' with
  | false => rfl
  | true =>
    have : c = '>' := by simpa using hc
    subst this
    exact absurd h (by decide)

/-- Both patterns begin with `<` and end with `>`, and have no anchor, so white
space around a text changes neither the matches nor what is left of the text. -/
theorem search_padded (re : List RE) (hplain : re.all RE.isPlain = true)
    (hhead : ∃ k, re = RE.chr (· == '<') :: k)
    (hlast : ∃ items, re = items ++ [RE.chr (· == '>')])
    (a core t : GoString) (ha : ∀ c ∈ a, isSpace c = true) (ht : ∀ c ∈ t, isSpace c = true) :
    FindAllStringSubmatch re (a ++ core) = FindAllStringSubmatch re core ∧
    ReplaceAllString re (a ++ core) = a ++ ReplaceAllString re core ∧
    FindAllStringSubmatch re (core ++ t) = FindAllStringSubmatch re core ∧
    ReplaceAllString re (core ++ t) = ReplaceAllString re core ++ t := by
  obtain ⟨k, hk⟩ := hhead
  obtain ⟨items, hitems⟩ := hlast
  have hpl : items.all RE.isPlain = true := by
    rw [hitems] at hplain
    simp only [List.all_append, Bool.and_eq_true] at hplain
    exact hplain.1
  refine ⟨?_, ?_, ?_, ?_⟩
  · rw [FindAllStringSubmatch, FindAllStringSubmatch, hk]
    exact findAllFrom_append_left _ k (hk ▸ hplain) a core
      (fun c hc => isSpace_ne_lt c (ha c hc)) none
  · rw [ReplaceAllString, ReplaceAllString, hk]
    exact removeAllFrom_append_left _ k (hk ▸ hplain) a core
      (fun c hc => isSpace_ne_lt c (ha c hc)) none
  · rw [FindAllStringSubmatch, FindAllStringSubmatch, hitems]
    exact findAllFrom_append_blocked items _ hpl t
      (fun c hc => isSpace_ne_gt c (ht c hc)) none core 0 (Nat.zero_le _)
  · rw [ReplaceAllString, ReplaceAllString, hitems]
    exact removeAllFrom_append_blocked items _ hpl t
      (fun c hc => isSpace_ne_gt c (ht c hc)) none core 0 (Nat.zero_le _)

theorem reDirective_shape : reDirective.all RE.isPlain = true ∧
    (∃ k, reDirective = RE.chr (· == '<') :: k) ∧
    (∃ items, reDirective = items ++ [RE.chr (· == '>')]) :=
  ⟨rfl, ⟨reDirective.tail, rfl⟩, ⟨reDirective.dropLast, rfl⟩⟩

theorem reNoteBlock_shape : reNoteBlock.all RE.isPlain = true ∧
    (∃ k, reNoteBlock = RE.chr (· == '<') :: k) ∧
    (∃ items, reNoteBlock = items ++ [RE.chr (· == '>')]) :=
  ⟨rfl, ⟨reNoteBlock.tail, rfl⟩, ⟨reNoteBlock.dropLast, rfl⟩⟩

/-! ### `parseRawSlide` on a text with white space around it -/

theorem parseRawSlide_congr (raw raw' : GoString)
    (h1 : FindAllStringSubmatch reDirective raw = FindAllStringSubmatch reDirective raw')
    (h2 : FindAllStringSubmatch reNoteBlock (ReplaceAllString reDirective raw) =
      FindAllStringSubmatch reNoteBlock (ReplaceAllString reDirective raw'))
    (h3 : TrimSpace (ReplaceAllString reNoteBlock (ReplaceAllString reDirective raw)) =
      TrimSpace (ReplaceAllString reNoteBlock (ReplaceAllString reDirective raw'))) :
    parseRawSlide raw = (parseRawSlide raw').map fun ps => { ps with rawContent := raw } := by
  unfold parseRawSlide
  simp only [h1, h2, h3]
  cases List.foldlM (fun (directives : GoMap) m =>
      (index m 1).bind fun key =>
      (index m 2).bind fun value =>
        some (mapSet directives key value)) [] (FindAllStringSubmatch reDirective raw') with
  | none => rfl
  | some d =>
    simp only [Option.some_bind]
    cases List.foldlM (fun (notes : List noteBlock) m =>
        (index m 1).bind fun noteText =>
          if Contains noteText "<script".toList then some notes
          else some (notes ++ [{ text := cleanNoteText noteText }])) []
        (FindAllStringSubmatch reNoteBlock (ReplaceAllString reDirective raw')) with
    | none => rfl
    | some n => rfl

theorem parseRawSlide_append_left (a core : GoString) (ha : ∀ c ∈ a, isSpace c = true) :
    parseRawSlide (a ++ core) =
      (parseRawSlide core).map fun ps => { ps with rawContent := a ++ core } := by
  obtain ⟨d1, d2, d3⟩ := reDirective_shape
  obtain ⟨n1, n2, n3⟩ := reNoteBlock_shape
  obtain ⟨e1, e2, _, _⟩ := search_padded reDirective d1 d2 d3 a core [] ha (by simp)
  obtain ⟨e3, e4, _, _⟩ := search_padded reNoteBlock n1 n2 n3 a
    (ReplaceAllString reDirective core) [] ha (by simp)
  apply parseRawSlide_congr
  · exact e1
  · rw [e2, e3]
  · rw [e2, e4, TrimSpace_append_left _ _ ha]

theorem parseRawSlide_append_right (core t : GoString) (ht : ∀ c ∈ t, isSpace c = true) :
    parseRawSlide (core ++ t) =
      (parseRawSlide core).map fun ps => { ps with rawContent := core ++ t } := by
  obtain ⟨d1, d2, d3⟩ := reDirective_shape
  obtain ⟨n1, n2, n3⟩ := reNoteBlock_shape
  obtain ⟨_, _, e1, e2⟩ := search_padded reDirective d1 d2 d3 [] core t (by simp) ht
  obtain ⟨_, _, e3, e4⟩ := search_padded reNoteBlock n1 n2 n3 []
    (ReplaceAllString reDirective core) t (by simp) ht
  apply parseRawSlide_congr
  · exact e1
  · rw [e2, e3]
  · rw [e2, e4, TrimSpace_append_space _ _ ht]

/-- White space around the text of a slide changes nothing of what `parseRawSlide`
finds in it but the raw text it records. -/
theorem parseRawSlide_Pad (f w : GoString) (h : Pad f w) (ps : parsedSlide)
    (hw : parseRawSlide w = some ps) :
    parseRawSlide f = some { ps with rawContent := f } := by
  obtain ⟨a, core, t, hf, hwt, ha, ht⟩ := h
  subst hf hwt
  rw [parseRawSlide_append_right core t ht] at hw
  rw [parseRawSlide_append_left a core ha]
  cases hc : parseRawSlide core with
  | none => rw [hc] at hw; exact absurd hw (by simp)
  | some pc =>
    rw [hc] at hw
    simp only [Option.map_some', Option.some.injEq] at hw ⊢
    subst hw
    rfl

theorem convertToSlide_rawContent (ps : parsedSlide) (raw : GoString) (i j : Nat) :
    convertToSlide { ps with rawContent := raw } i j = convertToSlide ps i j := rfl

theorem startsSection_rawContent (ps : parsedSlide) (raw : GoString) :
    startsSection { ps with rawContent := raw } = startsSection ps := rfl

/-! ### Counting the runs -/

theorem count_true_of_all_false (p : List Bool) (h : ∀ b ∈ p, b = false) :
    p.count true = 0 := by
  rw [List.count_eq_zero]
  intro hm
  exact absurd (h true hm) (by decide)

theorem count_true_runs (L : List (List Bool))
    (h : ∀ p ∈ L, p ≠ [] ∧ (∀ b ∈ p.tail, b = false) ∧ ∀ b ∈ p.head?, b = true) :
    L.flatten.count true = L.length := by
  induction L with
  | nil => rfl
  | cons p rest ih =>
    obtain ⟨hne, htl, hhd⟩ := h p (by simp)
    cases p with
    | nil => exact absurd rfl hne
    | cons b tl =>
      have hb : b = true := hhd b (by simp)
      subst hb
      simp only [List.tail_cons] at htl
      simp only [List.flatten_cons, List.cons_append, List.count_cons_self, List.count_append,
        count_true_of_all_false tl htl, ih (fun q hq => h q (by simp [hq])), List.length_cons]
      omega

/-- The number of runs is determined by the flags of the fragments: one run when
there is a fragment, and one more for every later fragment that starts a section. -/
theorem length_runs (L : List (List Bool))
    (h : ∀ p ∈ L, p ≠ [] ∧ ∀ b ∈ p.tail, b = false)
    (ht : ∀ p ∈ L.tail, ∀ b ∈ p.head?, b = true) :
    L.length = if L.flatten = [] then 0 else 1 + L.flatten.tail.count true := by
  cases L with
  | nil => rfl
  | cons p rest =>
    obtain ⟨hne, htl⟩ := h p (by simp)
    cases p with
    | nil => exact absurd rfl hne
    | cons b tl =>
      simp only [List.tail_cons] at htl ht
      have hr := count_true_runs rest (fun q hq =>
        ⟨(h q (by simp [hq])).1, (h q (by simp [hq])).2, ht q hq⟩)
      simp only [List.flatten_cons, List.cons_append, List.tail_cons, List.count_append,
        count_true_of_all_false tl htl, hr, List.length_cons]
      rw [if_neg (by simp)]
      omega

/-! ### The title of the deck -/

theorem buildDeck_Title (fm : Frontmatter) (pss : List parsedSlide) (deck : Deck)
    (h : buildDeck fm pss = some deck) :
    deck.Title =
      ((pss.head?.bind fun ps => convertToSlide ps 0 0).map fun s => s.Title).getD [] := by
  obtain ⟨secs, hc, hf, deck', hd, hs, ht, _⟩ := buildDeck_eq fm pss
  rw [h] at hd
  simp only [Option.some.injEq] at hd
  subst hd
  obtain ⟨hgood, hflat⟩ := groupSlides_good pss
  rw [ht]
  cases hg : buildDeck.groupSlides pss with
  | nil =>
    rw [hg] at hflat hc
    simp only [List.map_nil, List.flatten_nil] at hflat
    subst hflat
    simp only [buildDeck.convertGroups, Option.some.injEq] at hc
    subst hc
    rfl
  | cons g gs =>
    rw [hg] at hflat hc hgood
    have hne := (hgood.1 g (by simp)).1
    cases hgs : g.slides with
    | nil => exact absurd hgs hne
    | cons ps tl =>
      simp only [List.map_cons, List.flatten_cons, hgs, List.cons_append] at hflat
      subst hflat
      simp only [buildDeck.convertGroups, hgs, buildDeck.convertSlides] at hc
      cases hcs : convertToSlide ps 0 0 with
      | none => rw [hcs] at hc; exact absurd hc (by simp)
      | some s =>
        rw [hcs] at hc
        simp only [Option.some_bind] at hc
        cases hrest : buildDeck.convertSlides 0 (0 + 1) tl with
        | none => rw [hrest] at hc; exact absurd hc (by simp)
        | some ss =>
          rw [hrest] at hc
          simp only [Option.some_bind] at hc
          cases hgr : buildDeck.convertGroups (0 + 1) gs with
          | none => rw [hgr] at hc; exact absurd hc (by simp)
          | some rest =>
            rw [hgr] at hc
            simp only [Option.some_bind, Option.some.injEq] at hc
            subst hc
            simp only [List.head?_cons, Option.some_bind, hcs, Option.map_some',
              Option.getD_some]
            rfl

/-! ### What the round-trip conditions say -/

theorem slideRoundTrips_spec (i j : Nat) (slide : Slide)
    (h : slideRoundTrips i j slide = true) :
    ∃ w ps, writeSlide slide = some w ∧ parseRawSlide w = some ps ∧
      (TrimSpace w ≠ [] ∧ fenceClosed w = true) ∧
      (if j = 0 then i = 0 ∨ startsSection ps = true else startsSection ps = false) ∧
      (i = 0 → j = 0 →
        (convertToSlide ps 0 0).map (fun s => s.Title) = some slide.Title) := by
  unfold slideRoundTrips at h
  cases hw : writeSlide slide with
  | none => rw [hw] at h; exact absurd h (by simp)
  | some w =>
    rw [hw] at h
    simp only at h
    cases hp : parseRawSlide w with
    | none => rw [hp] at h; exact absurd h (by simp)
    | some ps =>
      rw [hp] at h
      simp only [Bool.and_eq_true, decide_eq_true_eq] at h
      obtain ⟨⟨⟨h1, h2⟩, h3⟩, h4⟩ := h
      refine ⟨w, ps, rfl, hp, ⟨h1, h2⟩, ?_, ?_⟩
      · by_cases hj : j = 0
        · rw [if_pos hj] at h3 ⊢
          simpa using h3
        · rw [if_neg hj] at h3 ⊢
          simpa using h3
      · intro hi hj
        rw [if_pos ⟨hi, hj⟩] at h4
        simpa using h4

theorem slidesRoundTrip_succ (i j : Nat) (slides : List Slide)
    (h : slidesRoundTrip i (j + 1) slides = true) :
    ∃ ws pss, List.Forall₂ (fun s w => writeSlide s = some w) slides ws ∧
      List.Forall₂ (fun w ps => parseRawSlide w = some ps) ws pss ∧
      (∀ w ∈ ws, TrimSpace w ≠ [] ∧ fenceClosed w = true) ∧
      ∀ ps ∈ pss, startsSection ps = false := by
  induction slides generalizing j with
  | nil => exact ⟨[], [], List.Forall₂.nil, List.Forall₂.nil, by simp, by simp⟩
  | cons s rest ih =>
    simp only [slidesRoundTrip, Bool.and_eq_true] at h
    obtain ⟨w, ps, hw, hp, hnb, hflag, _⟩ := slideRoundTrips_spec i (j + 1) s h.1
    obtain ⟨ws, pss, f1, f2, hn, hfl⟩ := ih (j + 1) h.2
    rw [if_neg (by omega)] at hflag
    refine ⟨w :: ws, ps :: pss, List.Forall₂.cons hw f1, List.Forall₂.cons hp f2, ?_, ?_⟩
    · intro x hx
      simp only [List.mem_cons] at hx
      rcases hx with hx | hx
      · subst hx; exact hnb
      · exact hn x hx
    · intro x hx
      simp only [List.mem_cons] at hx
      rcases hx with hx | hx
      · subst hx; exact hflag
      · exact hfl x hx

theorem slidesRoundTrip_zero (i : Nat) (slides : List Slide)
    (h : slidesRoundTrip i 0 slides = true) :
    ∃ ws pss, List.Forall₂ (fun s w => writeSlide s = some w) slides ws ∧
      List.Forall₂ (fun w ps => parseRawSlide w = some ps) ws pss ∧
      (∀ w ∈ ws, TrimSpace w ≠ [] ∧ fenceClosed w = true) ∧
      (∀ ps ∈ pss.tail, startsSection ps = false) ∧
      (∀ ps ∈ pss.head?, i = 0 ∨ startsSection ps = true) ∧
      (i = 0 → ∀ s ∈ slides.head?, ∀ ps ∈ pss.head?,
        (convertToSlide ps 0 0).map (fun s => s.Title) = some s.Title) := by
  cases slides with
  | nil =>
    exact ⟨[], [], List.Forall₂.nil, List.Forall₂.nil, by simp, by simp, by simp, by simp⟩
  | cons s rest =>
    simp only [slidesRoundTrip, Bool.and_eq_true] at h
    obtain ⟨w, ps, hw, hp, hnb, hflag, htitle⟩ := slideRoundTrips_spec i 0 s h.1
    obtain ⟨ws, pss, f1, f2, hn, hfl⟩ := slidesRoundTrip_succ i 0 rest h.2
    rw [if_pos rfl] at hflag
    refine ⟨w :: ws, ps :: pss, List.Forall₂.cons hw f1, List.Forall₂.cons hp f2, ?_, ?_, ?_, ?_⟩
    · intro x hx
      simp only [List.mem_cons] at hx
      rcases hx with hx | hx
      · subst hx; exact hnb
      · exact hn x hx
    · simpa using hfl
    · intro x hx
      simp only [List.head?_cons, Option.mem_def, Option.some.injEq] at hx
      subst hx
      exact hflag
    · intro hi a ha x hx
      simp only [List.head?_cons, Option.mem_def, Option.some.injEq] at ha hx
      subst ha hx
      exact htitle hi rfl

theorem sectionsRoundTrip_spec (i : Nat) (secs : List Section)
    (h : sectionsRoundTrip i secs = true) :
    ∃ wss psss,
      List.Forall₂ (fun (sec : Section) ws =>
        List.Forall₂ (fun s w => writeSlide s = some w) sec.Slides ws) secs wss ∧
      List.Forall₂ (List.Forall₂ (fun w ps => parseRawSlide w = some ps)) wss psss ∧
      (∀ ws ∈ wss, ∀ w ∈ ws, TrimSpace w ≠ [] ∧ fenceClosed w = true) ∧
      (∀ pss ∈ psss, ∀ ps ∈ pss.tail, startsSection ps = false) ∧
      (∀ pss ∈ psss, ∀ ps ∈ pss.head?, i = 0 ∨ startsSection ps = true) ∧
      (∀ pss ∈ psss.tail, ∀ ps ∈ pss.head?, startsSection ps = true) ∧
      (i = 0 → ∀ sec ∈ secs.head?, ∀ s ∈ sec.Slides.head?, ∀ pss ∈ psss.head?,
        ∀ ps ∈ pss.head?, (convertToSlide ps 0 0).map (fun s => s.Title) = some s.Title) := by
  induction secs generalizing i with
  | nil =>
    exact ⟨[], [], List.Forall₂.nil, List.Forall₂.nil, by simp, by simp, by simp, by simp,
      by simp⟩
  | cons sec rest ih =>
    simp only [sectionsRoundTrip, Bool.and_eq_true] at h
    obtain ⟨ws, pss, f1, f2, hn, htl, hhd, htitle⟩ := slidesRoundTrip_zero i sec.Slides h.1
    obtain ⟨wss, psss, g1, g2, gn, gtl, ghd, _, _⟩ := ih (i + 1) h.2
    have ghd' : ∀ q ∈ psss, ∀ ps ∈ q.head?, startsSection ps = true := by
      intro q hq ps hps
      rcases ghd q hq ps hps with h0 | h0
      · omega
      · exact h0
    refine ⟨ws :: wss, pss :: psss, List.Forall₂.cons f1 g1, List.Forall₂.cons f2 g2,
      ?_, ?_, ?_, ?_, ?_⟩
    · intro x hx
      simp only [List.mem_cons] at hx
      rcases hx with hx | hx
      · subst hx; exact hn
      · exact gn x hx
    · intro x hx
      simp only [List.mem_cons] at hx
      rcases hx with hx | hx
      · subst hx; exact htl
      · exact gtl x hx
    · intro x hx
      simp only [List.mem_cons] at hx
      rcases hx with hx | hx
      · subst hx; exact hhd
      · exact fun ps hps => Or.inr (ghd' x hx ps hps)
    · simpa using ghd'
    · intro hi a ha s hs q hq ps hps
      simp only [List.head?_cons, Option.mem_def, Option.some.injEq] at ha hq
      subst ha hq
      exact htitle hi s hs ps hps

theorem Forall₂_flatten {α β : Type} {R : α → β → Prop} {as : List (List α)}
    {bs : List (List β)} (h : List.Forall₂ (List.Forall₂ R) as bs) :
    List.Forall₂ R as.flatten bs.flatten := by
  induction h with
  | nil => exact List.Forall₂.nil
  | cons hr _ ih =>
    simp only [List.flatten_cons]
    exact List.rel_append hr ih

theorem Forall₂_ne_nil {α β : Type} {R : α → β → Prop} {as : List (List α)}
    {bs : List (List β)} (h : List.Forall₂ (List.Forall₂ R) as bs)
    (hne : ∀ a ∈ as, a ≠ []) : ∀ b ∈ bs, b ≠ [] := by
  induction h with
  | nil => intro b hb; simp at hb
  | cons hr _ ih =>
    intro b hb
    simp only [List.mem_cons] at hb
    rcases hb with hb | hb
    · subst hb
      intro e
      have hl := hr.length_eq
      rw [e] at hl
      exact hne _ (by simp) (List.length_eq_zero.mp hl)
    · exact ih (fun a ha => hne a (by simp [ha])) b hb

theorem flags_eq_of_raw (pss2 psw : List parsedSlide)
    (h : List.Forall₂ (fun (p2 p : parsedSlide) => ∃ raw, p2 = { p with rawContent := raw })
      pss2 psw) :
    pss2.map startsSection = psw.map startsSection ∧
      (pss2.head?.bind fun ps => convertToSlide ps 0 0) =
        (psw.head?.bind fun ps => convertToSlide ps 0 0) := by
  constructor
  · induction h with
    | nil => rfl
    | cons hr _ ih =>
      obtain ⟨raw, e⟩ := hr
      subst e
      simp only [List.map_cons, ih, startsSection_rawContent]
  · cases h with
    | nil => rfl
    | cons hr _ =>
      obtain ⟨raw, e⟩ := hr
      subst e
      simp only [List.head?_cons, Option.some_bind, convertToSlide_rawContent]

/-! ### The round trip -/

theorem runs_length (runs : List (List parsedSlide))
    (h1 : ∀ r ∈ runs, r ≠ [] ∧ ∀ ps ∈ r.tail, startsSection ps = false)
    (h2 : ∀ r ∈ runs.tail, ∀ ps ∈ r.head?, startsSection ps = true) :
    runs.length = runCount (runs.flatten.map startsSection) := by
  have := length_runs (runs.map (List.map startsSection))
    (by
      intro p hp
      obtain ⟨r, hr, e⟩ := List.mem_map.mp hp
      subst e
      obtain ⟨hne, htl⟩ := h1 r hr
      cases r with
      | nil => exact absurd rfl hne
      | cons a tl =>
        refine ⟨by simp, ?_⟩
        intro b hb
        simp only [List.map_cons, List.tail_cons, List.mem_map] at hb
        obtain ⟨ps, hps, e⟩ := hb
        subst e
        exact htl ps (by simpa using hps))
    (by
      cases runs with
      | nil => intro p hp; simp at hp
      | cons r0 rest =>
        intro p hp
        simp only [List.map_cons, List.tail_cons] at hp h2
        obtain ⟨r, hr, e⟩ := List.mem_map.mp hp
        subst e
        intro b hb
        cases r with
        | nil => simp at hb
        | cons a tl =>
          simp only [List.map_cons, List.head?_cons, Option.mem_def, Option.some.injEq] at hb
          subst hb
          exact h2 _ hr a (by simp))
  rw [List.length_map] at this
  rw [this, runCount, List.map_flatten]

/-- When the header and every slide of the parsed deck survive the round trip on
their own, the deck parsed from the text that `Encode` emits has the same title, the
same number of sections and the same number of slides. -/
theorem roundTrip_of_pieces (x : GoString) (d1 : Deck)
    (h1 : Parse x = some (some d1, none))
    (hhdr : headerRoundTrips d1 = true) (hs : sectionsRoundTrip 0 d1.Sections = true) :
    ∃ d2, roundTrip x = some (d1, d2) ∧ d2.Title = d1.Title ∧
      d2.Sections.length = d1.Sections.length ∧ d2.SlideCount = d1.SlideCount := by
  obtain ⟨_, _, _, deck1, _, _, _, hP1, runs1, _, hruns1, hgood1, hsec1, htitle1⟩ :=
    Parse_structure x
  rw [h1] at hP1
  simp only [Option.some.injEq, Prod.mk.injEq, and_true] at hP1
  subst hP1
  have hne1 : ∀ sec ∈ d1.Sections, sec.Slides ≠ [] :=
    SectionOfRun_nonempty _ _ hsec1 (by
      intro r hr
      rw [hruns1] at hr
      obtain ⟨g, hg, e⟩ := List.mem_map.mp hr
      subst e
      exact (hgood1.1 g hg).1)
  obtain ⟨wss, psss, f1, f2, hnb, htl, _, hhd, htitle⟩ := sectionsRoundTrip_spec 0 _ hs
  have hE := Encode_eq d1 wss f1
  have hall := hhdr
  unfold headerRoundTrips at hall
  rw [List.all_eq_true] at hall
  have hnl : ∀ l ∈ headerLines d1, '\n' ∉ l := by
    intro l hl
    have := hall l hl
    simp only [Bool.and_eq_true, Bool.not_eq_true', List.contains_eq_any_beq,
      List.any_eq_false, beq_iff_eq] at this
    intro hm
    exact this.1 _ hm rfl
  have hfence : ∀ l ∈ headerLines d1, HasPrefix l "---".toList = false := by
    intro l hl
    have := hall l hl
    simp only [Bool.and_eq_true, Bool.not_eq_true'] at this
    exact this.2
  obtain ⟨fm, _, hpf⟩ := parseFrontmatter_fenced (headerLines d1)
    ("\n\n".toList ++ Join wss.flatten "\n---\n\n".toList) (headerLines_ne_nil d1) hnl hfence
  obtain ⟨F, hF, hpad⟩ := splitSlides_encoded_body wss.flatten (by
    intro w hw
    obtain ⟨ws, hws, hw'⟩ := List.mem_flatten.mp hw
    exact hnb ws hws w hw')
  obtain ⟨fm2, body2, pss2, d2, hpf2, hraw2, hbd2, hP2, runs2, hflat2, hruns2, hgood2, hsec2,
    _⟩ := Parse_structure (fencedText (headerLines d1)
      ("\n\n".toList ++ Join wss.flatten "\n---\n\n".toList))
  rw [hpf] at hpf2
  simp only [Option.some.injEq, Prod.mk.injEq] at hpf2
  obtain ⟨_, hbody⟩ := hpf2
  rw [← hbody, hF] at hraw2
  have hR : List.Forall₂
      (fun (p2 p : parsedSlide) => ∃ raw, p2 = { p with rawContent := raw })
      pss2 psss.flatten :=
    (Forall₂_comp (Forall₂_comp hraw2 hpad) (Forall₂_flatten f2)).imp (by
      rintro p2 p ⟨w, ⟨f, hf, hp⟩, hw⟩
      have := parseRawSlide_Pad f w hp p hw
      rw [hf] at this
      exact ⟨f, Option.some.inj this⟩)
  obtain ⟨hflags, hhead⟩ := flags_eq_of_raw _ _ hR
  have f1' : List.Forall₂ (List.Forall₂ (fun s w => writeSlide s = some w))
      (d1.Sections.map (·.Slides)) wss := List.forall₂_map_left_iff.mpr f1
  refine ⟨d2, ?_, ?_, ?_, ?_⟩
  · unfold roundTrip
    simp only [h1, hE, hP2, Option.some_bind]
  · rw [buildDeck_Title fm2 pss2 d2 hbd2, hhead, htitle1]
    cases hsecs : d1.Sections with
    | nil =>
      rw [hsecs] at f1
      cases f1
      cases f2
      rfl
    | cons sec rest =>
      have hne := hne1 sec (by simp [hsecs])
      rw [hsecs] at f1 htitle
      cases f1 with
      | cons fa _ =>
        cases f2 with
        | cons fb _ =>
          cases hsl : sec.Slides with
          | nil => exact absurd hsl hne
          | cons s tl =>
            rw [hsl] at fa
            cases fa with
            | cons _ _ =>
              cases fb with
              | cons _ _ =>
                have := htitle rfl sec rfl s (by rw [hsl]; rfl) _ rfl _ rfl
                simp only [List.flatten_cons, List.cons_append, List.head?_cons,
                  Option.some_bind, this, Option.getD_some, deckTitleOf, hsl]
  · have hw : ∀ ws ∈ wss, ws ≠ [] := Forall₂_ne_nil f1' (by
      intro a ha
      obtain ⟨sec, hsec, e⟩ := List.mem_map.mp ha
      subst e
      exact hne1 sec hsec)
    have hp : ∀ pss ∈ psss, pss ≠ [] := Forall₂_ne_nil f2 hw
    have c2 := runs_length runs2 (by
        intro r hr
        rw [hruns2] at hr
        obtain ⟨g, hg, e⟩ := List.mem_map.mp hr
        subst e
        exact ⟨(hgood2.1 g hg).1, (hgood2.1 g hg).2.1⟩)
      (by
        intro r hr
        rw [hruns2, ← List.map_tail] at hr
        obtain ⟨g, hg, e⟩ := List.mem_map.mp hr
        subst e
        exact hgood2.2 g hg)
    have c1 := runs_length psss (fun pss hpss => ⟨hp pss hpss, htl pss hpss⟩) hhd
    rw [hsec2.length_eq, c2, hflat2, hflags, ← c1, ← f2.length_eq, ← f1.length_eq]
  · rw [SlideCount_eq, SlideCount_eq, AllSlides_eq, AllSlides_eq,
      (SectionOfRun_flatten _ _ hsec2).length_eq, hflat2, hraw2.length_eq, hpad.length_eq,
      (Forall₂_flatten f1').length_eq]



/-! ## The title of the parsed deck -/

/-- C11: for every input text `Parse` returns a deck; when the deck has at least one
slide, it has a first section with a first slide and the title of the deck is the
title of that slide, and when it has no slide its title is empty. -/
theorem Parse_title_of_first_slide (x : GoString) :
    ∃ d, Parse x = some (some d, none) ∧
      (0 < d.SlideCount → ∃ sec rest s tl, d.Sections = sec :: rest ∧
        sec.Slides = s :: tl ∧ d.Title = s.Title) ∧
      (d.SlideCount = 0 → d.Title = []) := by
  obtain ⟨_, _, _, d, _, _, _, hP, runs, _, hruns, hgood, hsec, htitle⟩ := Parse_structure x
  have hne : ∀ sec ∈ d.Sections, sec.Slides ≠ [] :=
    SectionOfRun_nonempty _ _ hsec (by
      intro r hr
      rw [hruns] at hr
      obtain ⟨g, hg, e⟩ := List.mem_map.mp hr
      subst e
      exact (hgood.1 g hg).1)
  refine ⟨d, hP, ?_, ?_⟩
  · intro hpos
    cases hs : d.Sections with
    | nil =>
      rw [SlideCount_eq, AllSlides_eq, hs] at hpos
      simp at hpos
    | cons sec rest =>
      cases hsl : sec.Slides with
      | nil => exact absurd hsl (hne sec (by simp [hs]))
      | cons s tl =>
        refine ⟨sec, rest, s, tl, rfl, hsl, ?_⟩
        rw [htitle, hs]
        simp only [deckTitleOf, hsl]
  · intro hzero
    cases hs : d.Sections with
    | nil => rw [htitle, hs]; rfl
    | cons sec rest =>
      exfalso
      cases hsl : sec.Slides with
      | nil => exact hne sec (by simp [hs]) hsl
      | cons s tl =>
        rw [SlideCount_eq, AllSlides_eq, hs] at hzero
        have : ((sec :: rest).map (·.Slides)).flatten = [] :=
          List.length_eq_zero.mp (by exact_mod_cast hzero)
        simp [hsl] at this

/-! ## Decimal numerals -/

theorem toDigitsCore_append (fuel n : Nat) (ds : List Char) :
    Nat.toDigitsCore 10 fuel n ds = Nat.toDigitsCore 10 fuel n [] ++ ds := by
  induction fuel generalizing n ds with
  | zero => simp [Nat.toDigitsCore]
  | succ fuel ih =>
    simp only [Nat.toDigitsCore]
    split_ifs
    · simp
    · rw [ih (n / 10) (Nat.digitChar (n % 10) :: ds), ih (n / 10) [Nat.digitChar (n % 10)]]
      simp

theorem digitChar_toNat (k : Nat) (hk : k < 10) : (Nat.digitChar k).toNat = 48 + k := by
  interval_cases k <;> rfl

theorem digitChar_ne_dash (k : Nat) (hk : k < 10) : Nat.digitChar k ≠ '-' := by
  interval_cases k <;> decide

theorem toDigitsCore_value (fuel n : Nat) (h : n < fuel) :
    (Nat.toDigitsCore 10 fuel n []).foldl (fun a c => 10 * a + (c.toNat - 48)) 0 = n := by
  induction fuel generalizing n with
  | zero => omega
  | succ fuel ih =>
    simp only [Nat.toDigitsCore]
    have hd := digitChar_toNat (n % 10) (Nat.mod_lt _ (by omega))
    split_ifs with h0
    · simp only [List.foldl_cons, List.foldl_nil, hd]
      omega
    · rw [toDigitsCore_append, List.foldl_append, ih (n / 10) (by omega)]
      simp only [List.foldl_cons, List.foldl_nil, hd]
      omega

theorem toDigitsCore_no_dash (fuel n : Nat) :
    '-' ∉ Nat.toDigitsCore 10 fuel n [] := by
  induction fuel generalizing n with
  | zero => simp [Nat.toDigitsCore]
  | succ fuel ih =>
    simp only [Nat.toDigitsCore]
    have hd := digitChar_ne_dash (n % 10) (Nat.mod_lt _ (by omega))
    split_ifs with h0
    · simp only [List.mem_singleton]
      exact fun e => hd e.symm
    · rw [toDigitsCore_append]
      simp only [List.mem_append, List.mem_singleton, not_or]
      exact ⟨ih _, fun e => hd e.symm⟩

/-- The decimal numeral determines the number. -/
theorem itoa_injective (m n : Nat) (h : itoa m = itoa n) : m = n := by
  have h1 := toDigitsCore_value (m + 1) m (by omega)
  have h2 := toDigitsCore_value (n + 1) n (by omega)
  unfold itoa Nat.toDigits at h
  rw [h] at h1
  rw [← h1, h2]

theorem itoa_no_dash (n : Nat) : '-' ∉ itoa n :=
  toDigitsCore_no_dash _ _

theorem append_dash_inj (a a' b b' : GoString) (ha : '-' ∉ a) (ha' : '-' ∉ a')
    (h : a ++ '-' :: b = a' ++ '-' :: b') : a = a' ∧ b = b' := by
  induction a generalizing a' with
  | nil =>
    cases a' with
    | nil => simpa using h
    | cons c cs =>
      simp only [List.nil_append, List.cons_append, List.cons.injEq] at h
      exact absurd h.1 (fun e => ha' (by rw [e]; simp))
  | cons c cs ih =>
    cases a' with
    | nil =>
      simp only [List.nil_append, List.cons_append, List.cons.injEq] at h
      exact absurd h.1 (fun e => ha (by rw [← e]; simp))
    | cons c' cs' =>
      simp only [List.cons_append, List.cons.injEq] at h
      obtain ⟨e1, e2⟩ := ih cs' (fun hm => ha (by simp [hm])) (fun hm => ha' (by simp [hm])) h.2
      exact ⟨by rw [h.1, e1], e2⟩

/-- The slide identifier `s{i}-{j}` determines the two indices. -/
theorem slideID_injective (i j i' j' : Nat)
    (h : "s".toList ++ itoa i ++ "-".toList ++ itoa j =
      "s".toList ++ itoa i' ++ "-".toList ++ itoa j') : i = i' ∧ j = j' := by
  have e : ∀ a b : Nat, "s".toList ++ itoa a ++ "-".toList ++ itoa b =
      's' :: (itoa a ++ '-' :: itoa b) := by
    intro a b
    simp
  rw [e, e] at h
  simp only [List.cons.injEq, true_and] at h
  obtain ⟨h1, h2⟩ := append_dash_inj _ _ _ _ (itoa_no_dash i) (itoa_no_dash i') h
  exact ⟨itoa_injective _ _ h1, itoa_injective _ _ h2⟩

/-- The section identifier `section-{i}` determines the index. -/
theorem sectionID_injective (i i' : Nat)
    (h : "section-".toList ++ itoa i = "section-".toList ++ itoa i') : i = i' :=
  itoa_injective _ _ (List.append_cancel_left h)

/-! ## What `parseSlideContent` leaves alone -/

theorem appendBody_frame (st : contentState) (b : Block) :
    (st.appendBody b).slide.ID = st.slide.ID ∧
      (st.appendBody b).slide.Layout = st.slide.Layout := ⟨rfl, rfl⟩

/-- The part of the loop body for plain lines changes neither the identifier nor the
layout of the slide. -/
theorem parseSlideContent_plainLine_frame (lines : List GoString) (i : Int)
    (line trimmed : GoString) (st : contentState) (r : Int × contentState)
    (h : parseSlideContent.plainLine lines i line trimmed st = some r) :
    r.2.slide.ID = st.slide.ID ∧ r.2.slide.Layout = st.slide.Layout := by
  unfold parseSlideContent.plainLine at h
  by_cases h1 : HasPrefix trimmed "# ".toList = true
  · rw [if_pos h1] at h
    by_cases ht : st.slide.Title = []
    · rw [if_pos ht] at h; cases h; exact ⟨rfl, rfl⟩
    · rw [if_neg ht] at h; cases h; exact ⟨rfl, rfl⟩
  rw [if_neg h1] at h
  by_cases h2 : HasPrefix trimmed "## ".toList = true
  · rw [if_pos h2] at h
    by_cases ht : st.slide.Title = []
    · rw [if_pos ht] at h; cases h; exact ⟨rfl, rfl⟩
    · rw [if_neg ht] at h
      by_cases hs : st.slide.Subtitle = []
      · rw [if_pos hs] at h; cases h; exact ⟨rfl, rfl⟩
      · rw [if_neg hs] at h; cases h; exact ⟨rfl, rfl⟩
  rw [if_neg h2] at h
  by_cases h3 : HasPrefix trimmed "### ".toList = true
  · rw [if_pos h3] at h; cases h; exact ⟨rfl, rfl⟩
  rw [if_neg h3] at h
  by_cases h4 : HasPrefix trimmed "- ".toList = true ∨ HasPrefix trimmed "* ".toList = true
  · rw [if_pos h4] at h
    cases hs : sliceFrom trimmed 2 with
    | none => rw [hs] at h; exact absurd h (by simp)
    | some t => rw [hs] at h; cases h; exact ⟨rfl, rfl⟩
  rw [if_neg h4] at h
  by_cases h5 : isNumberedItem trimmed = true
  · rw [if_pos h5] at h
    cases hs : extractNumberedText trimmed with
    | none => rw [hs] at h; exact absurd h (by simp)
    | some t => rw [hs] at h; cases h; exact ⟨rfl, rfl⟩
  rw [if_neg h5] at h
  by_cases h6 : HasPrefix trimmed "> ".toList = true
  · rw [if_pos h6] at h; cases h; exact ⟨rfl, rfl⟩
  rw [if_neg h6] at h
  have himg : ∀ image : Option contentState,
      (if HasPrefix trimmed "![".toList = true then
        (parseImageLine trimmed).bind fun r =>
          if r.2 ≠ [] then some (some (st.appendBody (NewImage r.2 r.1))) else some none
       else some none) = some image →
      ∀ st', image = some st' →
        st'.slide.ID = st.slide.ID ∧ st'.slide.Layout = st.slide.Layout := by
    intro image hi st' hst
    subst hst
    by_cases h7 : HasPrefix trimmed "![".toList = true
    · rw [if_pos h7] at hi
      cases hp : parseImageLine trimmed with
      | none => rw [hp] at hi; exact absurd hi (by simp)
      | some q =>
        rw [hp] at hi
        simp only [Option.some_bind] at hi
        by_cases h8 : q.2 ≠ []
        · rw [if_pos h8] at hi; cases hi; exact ⟨rfl, rfl⟩
        · rw [if_neg h8] at hi; cases hi
    · rw [if_neg h7] at hi; cases hi
  cases hi : (if HasPrefix trimmed "![".toList = true then
        (parseImageLine trimmed).bind fun r =>
          if r.2 ≠ [] then some (some (st.appendBody (NewImage r.2 r.1))) else some none
       else some none) with
  | none => rw [hi] at h; exact absurd h (by simp)
  | some image =>
    rw [hi] at h
    simp only [Option.some_bind] at h
    cases image with
    | some st' =>
      simp only [Option.some.injEq] at h
      subst h
      exact himg _ hi st' rfl
    | none =>
      simp only at h
      by_cases ht : HasPrefix trimmed "|".toList = true
      · rw [if_pos ht] at h
        cases hl : parseSlideContent.tableLoop (lines.length + 1) lines i [] with
        | none => rw [hl] at h; exact absurd h (by simp)
        | some q => rw [hl] at h; cases h; exact ⟨rfl, rfl⟩
      · rw [if_neg ht] at h; cases h; exact ⟨rfl, rfl⟩

/-- The loop body changes neither the identifier nor the layout of the slide. -/
theorem parseSlideContent_step_frame (lines : List GoString) (i : Int) (st : contentState)
    (r : Int × contentState) (h : parseSlideContent.step lines i st = some r) :
    r.2.slide.ID = st.slide.ID ∧ r.2.slide.Layout = st.slide.Layout := by
  unfold parseSlideContent.step at h
  cases hl : index lines i with
  | none => rw [hl] at h; exact absurd h (by simp)
  | some line =>
    rw [hl] at h
    simp only [Option.some_bind] at h
    split_ifs at h
    all_goals first
      | (cases h; exact ⟨rfl, rfl⟩)
      | exact parseSlideContent_plainLine_frame _ _ _ _ _ _ h

theorem parseSlideContent_loop_frame (fuel : Nat) (lines : List GoString) (i : Int)
    (st st' : contentState) (h : parseSlideContent.loop fuel lines i st = some st') :
    st'.slide.ID = st.slide.ID ∧ st'.slide.Layout = st.slide.Layout := by
  induction fuel generalizing i st with
  | zero => exact absurd h (by simp [parseSlideContent.loop])
  | succ fuel ih =>
    unfold parseSlideContent.loop at h
    split_ifs at h
    · cases hs : parseSlideContent.step lines i st with
      | none => rw [hs] at h; exact absurd h (by simp)
      | some r =>
        rw [hs] at h
        simp only [Option.some_bind] at h
        obtain ⟨a, b⟩ := parseSlideContent_step_frame _ _ _ _ hs
        obtain ⟨c, d⟩ := ih _ _ h
        exact ⟨c.trans a, d.trans b⟩
    · cases h; exact ⟨rfl, rfl⟩

/-- The function `parseSlideContent` changes neither the identifier nor the layout of
the slide. -/
theorem parseSlideContent_frame (slide slide' : Slide) (content : GoString)
    (h : parseSlideContent slide content = some slide') :
    slide'.ID = slide.ID ∧ slide'.Layout = slide.Layout := by
  unfold parseSlideContent at h
  simp only at h
  cases hl : parseSlideContent.loop ((Split content '\n').length + 1) (Split content '\n') 0
      { slide := slide } with
  | none => rw [hl] at h; exact absurd h (by simp)
  | some st =>
    rw [hl] at h
    simp only [Option.some_bind] at h
    have hf := parseSlideContent_loop_frame _ _ _ _ _ hl
    split_ifs at h
    all_goals (cases h; exact hf)

theorem foldl_notes_frame (notes : List noteBlock) (slide : Slide) :
    (notes.foldl (fun (slide : Slide) nb =>
        if nb.text ≠ [] then
          { slide with Notes := slide.Notes ++ [{ Kind := BlockParagraph, Text := nb.text }] }
        else slide) slide).ID = slide.ID ∧
    (notes.foldl (fun (slide : Slide) nb =>
        if nb.text ≠ [] then
          { slide with Notes := slide.Notes ++ [{ Kind := BlockParagraph, Text := nb.text }] }
        else slide) slide).Layout = slide.Layout := by
  induction notes generalizing slide with
  | nil => exact ⟨rfl, rfl⟩
  | cons nb rest ih =>
    simp only [List.foldl_cons]
    split_ifs
    · exact ⟨(ih _).1, (ih _).2⟩
    · exact ih _

/-- The identifier and the layout of the slide that `convertToSlide` returns. -/
theorem convertToSlide_ID_Layout (ps : parsedSlide) (i j : Nat) :
    ∃ slide, convertToSlide ps i j = some slide ∧
      slide.ID = "s".toList ++ itoa i ++ "-".toList ++ itoa j ∧
      slide.Layout =
        if containsColumns ps.content = true then LayoutTitleTwoCol
        else if mapIndex ps.directives "_class".toList = "section-divider".toList then
          LayoutSection
        else if mapIndex ps.directives "_class".toList = "lead".toList then LayoutTitle
        else LayoutTitleBody := by
  obtain ⟨slide, hs⟩ := convertToSlide_total ps i j
  refine ⟨slide, hs, ?_⟩
  unfold convertToSlide at hs
  simp only at hs
  cases hp : parseSlideContent
      (if mapIndex ps.directives "_class".toList = "section-divider".toList then
        { ID := "s".toList ++ itoa i ++ "-".toList ++ itoa j, Layout := LayoutSection }
       else if mapIndex ps.directives "_class".toList = "lead".toList then
        { ID := "s".toList ++ itoa i ++ "-".toList ++ itoa j, Layout := LayoutTitle }
       else { ID := "s".toList ++ itoa i ++ "-".toList ++ itoa j, Layout := LayoutTitleBody })
      ps.content with
  | none => rw [hp] at hs; exact absurd hs (by simp)
  | some s1 =>
    rw [hp] at hs
    simp only [Option.some_bind] at hs
    obtain ⟨f1, f2⟩ := parseSlideContent_frame _ _ _ hp
    obtain ⟨g1, g2⟩ := foldl_notes_frame ps.notes s1
    by_cases hc : containsColumns ps.content = true
    · rw [if_pos hc] at hs
      cases hs
      refine ⟨?_, by rw [if_pos hc]⟩
      show (List.foldl _ s1 ps.notes).ID = _
      rw [g1, f1]
      split_ifs <;> rfl
    · rw [if_neg hc] at hs
      cases hs
      rw [if_neg hc, g1, g2, f1, f2]
      split_ifs <;> exact ⟨rfl, rfl⟩

/-! ## Identifiers -/

theorem convertSlides_IDs (i j0 : Nat) (pss : List parsedSlide) (slides : List Slide)
    (h : buildDeck.convertSlides i j0 pss = some slides) :
    ∀ k s, slides[k]? = some s → s.ID = slideID i (j0 + k) := by
  induction pss generalizing j0 slides with
  | nil =>
    simp only [buildDeck.convertSlides, Option.some.injEq] at h
    subst h
    intro k s hk
    simp at hk
  | cons ps rest ih =>
    simp only [buildDeck.convertSlides] at h
    obtain ⟨s0, hs0, hid, _⟩ := convertToSlide_ID_Layout ps i j0
    rw [hs0] at h
    simp only [Option.some_bind] at h
    cases hr : buildDeck.convertSlides i (j0 + 1) rest with
    | none => rw [hr] at h; exact absurd h (by simp)
    | some ss =>
      rw [hr] at h
      simp only [Option.some_bind, Option.some.injEq] at h
      subst h
      intro k s hk
      cases k with
      | zero =>
        simp only [List.getElem?_cons_zero, Option.some.injEq] at hk
        subst hk
        exact hid
      | succ k =>
        simp only [List.getElem?_cons_succ] at hk
        have := ih (j0 + 1) ss hr k s hk
        rw [this]
        congr 1
        omega

theorem convertGroups_IDs (i0 : Nat) (gs : List sectionGroup) (secs : List Section)
    (h : buildDeck.convertGroups i0 gs = some secs) : PositionalIDs i0 secs := by
  induction gs generalizing i0 secs with
  | nil =>
    simp only [buildDeck.convertGroups, Option.some.injEq] at h
    subst h
    intro k sec hk
    simp at hk
  | cons g rest ih =>
    simp only [buildDeck.convertGroups] at h
    cases hs : buildDeck.convertSlides i0 0 g.slides with
    | none => rw [hs] at h; exact absurd h (by simp)
    | some slides =>
      rw [hs] at h
      simp only [Option.some_bind] at h
      cases hr : buildDeck.convertGroups (i0 + 1) rest with
      | none => rw [hr] at h; exact absurd h (by simp)
      | some ss =>
        rw [hr] at h
        simp only [Option.some_bind, Option.some.injEq] at h
        subst h
        intro k sec hk
        cases k with
        | zero =>
          simp only [List.getElem?_cons_zero, Option.some.injEq] at hk
          subst hk
          refine ⟨rfl, ?_⟩
          intro j s hj
          have := convertSlides_IDs i0 0 g.slides slides hs j s hj
          simpa using this
        | succ k =>
          simp only [List.getElem?_cons_succ] at hk
          have := ih (i0 + 1) ss hr k sec hk
          have e : i0 + 1 + k = i0 + (k + 1) := by omega
          rw [e] at this
          exact this

theorem PositionalIDs_tail (i0 : Nat) (sec : Section) (rest : List Section)
    (h : PositionalIDs i0 (sec :: rest)) : PositionalIDs (i0 + 1) rest := by
  intro k s hk
  have := h (k + 1) s (by simpa using hk)
  have e : i0 + (k + 1) = i0 + 1 + k := by omega
  rw [e] at this
  exact this

theorem slideID_ne_of_section (i i' j j' : Nat) (h : i ≠ i') : slideID i j ≠ slideID i' j' :=
  fun e => h (slideID_injective _ _ _ _ e).1

theorem slideID_ne_of_slide (i j j' : Nat) (h : j ≠ j') : slideID i j ≠ slideID i j' :=
  fun e => h (slideID_injective _ _ _ _ e).2

theorem sectionIDs_nodup (i0 : Nat) (secs : List Section) (h : PositionalIDs i0 secs) :
    (secs.map (·.ID)).Nodup ∧ ∀ id ∈ secs.map (·.ID), ∃ k, id = sectionID (i0 + k) := by
  induction secs generalizing i0 with
  | nil => exact ⟨List.nodup_nil, by simp⟩
  | cons sec rest ih =>
    obtain ⟨hn, hm⟩ := ih (i0 + 1) (PositionalIDs_tail _ _ _ h)
    have h0 := (h 0 sec (by simp)).1
    refine ⟨?_, ?_⟩
    · simp only [List.map_cons, List.nodup_cons]
      refine ⟨?_, hn⟩
      intro hmem
      obtain ⟨k, hk⟩ := hm _ hmem
      rw [h0] at hk
      have := sectionID_injective _ _ hk
      omega
    · intro id hid
      simp only [List.map_cons, List.mem_cons] at hid
      rcases hid with hid | hid
      · exact ⟨0, by rw [hid, h0]⟩
      · obtain ⟨k, hk⟩ := hm id hid
        exact ⟨k + 1, by rw [hk]; congr 1; omega⟩

theorem slideIDs_nodup_section (i j0 : Nat) (slides : List Slide)
    (h : ∀ k s, slides[k]? = some s → s.ID = slideID i (j0 + k)) :
    (slides.map (·.ID)).Nodup ∧ ∀ id ∈ slides.map (·.ID), ∃ k, id = slideID i (j0 + k) := by
  induction slides generalizing j0 with
  | nil => exact ⟨List.nodup_nil, by simp⟩
  | cons s rest ih =>
    have hrest : ∀ k s', rest[k]? = some s' → s'.ID = slideID i (j0 + 1 + k) := by
      intro k s' hk
      have := h (k + 1) s' (by simpa using hk)
      rw [this]
      congr 1
      omega
    obtain ⟨hn, hm⟩ := ih (j0 + 1) hrest
    have h0 := h 0 s (by simp)
    refine ⟨?_, ?_⟩
    · simp only [List.map_cons, List.nodup_cons]
      refine ⟨?_, hn⟩
      intro hmem
      obtain ⟨k, hk⟩ := hm _ hmem
      rw [h0] at hk
      have := (slideID_injective _ _ _ _ hk).2
      omega
    · intro id hid
      simp only [List.map_cons, List.mem_cons] at hid
      rcases hid with hid | hid
      · exact ⟨0, by rw [hid, h0]⟩
      · obtain ⟨k, hk⟩ := hm id hid
        exact ⟨k + 1, by rw [hk]; congr 1; omega⟩

theorem slideIDs_nodup (i0 : Nat) (secs : List Section) (h : PositionalIDs i0 secs) :
    ((secs.map (·.Slides)).flatten.map (·.ID)).Nodup ∧
      ∀ id ∈ (secs.map (·.Slides)).flatten.map (·.ID), ∃ k j, id = slideID (i0 + k) j := by
  induction secs generalizing i0 with
  | nil => exact ⟨List.nodup_nil, by simp⟩
  | cons sec rest ih =>
    obtain ⟨hn, hm⟩ := ih (i0 + 1) (PositionalIDs_tail _ _ _ h)
    have h0 : ∀ k s, sec.Slides[k]? = some s → s.ID = slideID i0 (0 + k) := by
      intro k s hk
      have := (h 0 sec (by simp)).2 k s hk
      simpa using this
    obtain ⟨hn0, hm0⟩ := slideIDs_nodup_section i0 0 sec.Slides h0
    simp only [List.map_cons, List.flatten_cons, List.map_append]
    refine ⟨?_, ?_⟩
    · rw [List.nodup_append]
      refine ⟨hn0, hn, ?_⟩
      intro id h1 h2
      obtain ⟨k, hk⟩ := hm0 id h1
      obtain ⟨k', j', hk'⟩ := hm id h2
      rw [hk] at hk'
      exact slideID_ne_of_section _ _ _ _ (by omega) hk'
    · intro id hid
      rw [List.mem_append] at hid
      rcases hid with hid | hid
      · obtain ⟨k, hk⟩ := hm0 id hid
        exact ⟨0, 0 + k, by rw [hk]; rfl⟩
      · obtain ⟨k, j, hk⟩ := hm id hid
        exact ⟨k + 1, j, by rw [hk]; congr 1; omega⟩

theorem FindSlide_slides_none (id : GoString) (i j0 : Nat) (slides : List Slide)
    (h : ∀ s ∈ slides, s.ID ≠ id) : Deck.FindSlide.slides id i j0 slides = none := by
  induction slides generalizing j0 with
  | nil => rfl
  | cons s rest ih =>
    simp only [Deck.FindSlide.slides]
    rw [if_neg (h s (by simp))]
    exact ih _ (fun x hx => h x (by simp [hx]))

theorem FindSlide_slides_found (i i' j0 : Nat) (slides : List Slide)
    (h : ∀ k s, slides[k]? = some s → s.ID = slideID i (j0 + k)) (k : Nat) (s : Slide)
    (hk : slides[k]? = some s) :
    Deck.FindSlide.slides s.ID i' j0 slides = some { sec := i', slide := j0 + k } := by
  induction slides generalizing j0 k with
  | nil => simp at hk
  | cons s0 rest ih =>
    simp only [Deck.FindSlide.slides]
    cases k with
    | zero =>
      simp only [List.getElem?_cons_zero, Option.some.injEq] at hk
      subst hk
      rw [if_pos rfl]
      rfl
    | succ k =>
      simp only [List.getElem?_cons_succ] at hk
      have e0 := h 0 s0 (by simp)
      have e1 := h (k + 1) s (by simpa using hk)
      rw [if_neg (by
        rw [e0, e1]
        exact slideID_ne_of_slide _ _ _ (by omega))]
      have := ih (j0 + 1) (by
        intro k' s' hk'
        have := h (k' + 1) s' (by simpa using hk')
        rw [this]
        congr 1
        omega) k hk
      rw [this]
      simp only [Option.some.injEq, SlidePtr.mk.injEq, true_and]
      omega

theorem FindSlide_sections_found (i0 : Nat) (secs : List Section)
    (h : PositionalIDs i0 secs) (k j : Nat) (sec : Section) (s : Slide)
    (hk : secs[k]? = some sec) (hj : sec.Slides[j]? = some s) :
    Deck.FindSlide.sections s.ID i0 secs = some { sec := i0 + k, slide := j } := by
  induction secs generalizing i0 k with
  | nil => simp at hk
  | cons sec0 rest ih =>
    simp only [Deck.FindSlide.sections]
    have h0 : ∀ k s, sec0.Slides[k]? = some s → s.ID = slideID i0 (0 + k) := by
      intro k s hk
      have := (h 0 sec0 (by simp)).2 k s hk
      simpa using this
    cases k with
    | zero =>
      simp only [List.getElem?_cons_zero, Option.some.injEq] at hk
      subst hk
      rw [FindSlide_slides_found i0 i0 0 sec0.Slides h0 j s hj]
      simp
    | succ k =>
      simp only [List.getElem?_cons_succ] at hk
      have hs := ((PositionalIDs_tail _ _ _ h) k sec hk).2 j s hj
      rw [FindSlide_slides_none _ _ _ _ (by
        intro s' hs'
        obtain ⟨n, hn, e⟩ := List.getElem_of_mem hs'
        have := h0 n s' (by rw [List.getElem?_eq_getElem hn, e])
        rw [this, hs]
        exact slideID_ne_of_section _ _ _ _ (by omega))]
      have := ih (i0 + 1) (PositionalIDs_tail _ _ _ h) k hk
      rw [this]
      simp only [Option.some.injEq, SlidePtr.mk.injEq, and_true]
      omega

/-- The sections of the deck that `Parse` returns come out of the conversion loop of
`buildDeck` started at index 0. -/
theorem Parse_PositionalIDs (x : GoString) :
    ∃ d, Parse x = some (some d, none) ∧ PositionalIDs 0 d.Sections := by
  obtain ⟨fm, _, pss, d, _, _, hb, hP⟩ := Parse_eq x
  obtain ⟨secs, hc, _, d', hd, hs, _⟩ := buildDeck_eq fm pss
  rw [hb] at hd
  simp only [Option.some.injEq] at hd
  subst hd
  exact ⟨d, hP, hs ▸ convertGroups_IDs 0 _ secs hc⟩

/-- C12: in the deck that `Parse` returns, the section at index `i` has the
identifier `section-i` and its slide at index `j` the identifier `s{i}-{j}`; the
identifiers of the sections are pairwise distinct, the identifiers of all the slides
of the deck are pairwise distinct, and `FindSlide` on the identifier of the slide at
any address of the deck returns that address. -/
theorem Parse_identifiers_positional (x : GoString) :
    ∃ d, Parse x = some (some d, none) ∧
      (∀ i sec, d.Sections[i]? = some sec →
        sec.ID = "section-".toList ++ itoa i ∧
        ∀ j s, sec.Slides[j]? = some s →
          s.ID = "s".toList ++ itoa i ++ "-".toList ++ itoa j) ∧
      (d.Sections.map (·.ID)).Nodup ∧
      (d.AllSlides.map (·.ID)).Nodup ∧
      ∀ p s, d.slideAt p = some s → d.FindSlide s.ID = some p := by
  obtain ⟨d, hP, hpos⟩ := Parse_PositionalIDs x
  refine ⟨d, hP, ?_, (sectionIDs_nodup 0 _ hpos).1, ?_, ?_⟩
  · intro i sec hi
    have := hpos i sec hi
    simpa [sectionID, slideID] using this
  · rw [AllSlides_eq]
    exact (slideIDs_nodup 0 _ hpos).1
  · intro p s hp
    unfold Deck.slideAt at hp
    cases hsec : d.Sections[p.sec]? with
    | none => rw [hsec] at hp; exact absurd hp (by simp)
    | some sec =>
      rw [hsec] at hp
      simp only [Option.some_bind] at hp
      have := FindSlide_sections_found 0 _ hpos p.sec p.slide sec s hsec hp
      simpa [Deck.FindSlide] using this

/-! ## Layouts -/

/-- The function `strings.Contains` holds exactly when the second text occurs in the
first. -/
theorem Contains_iff_occurs (s sub : GoString) : Contains s sub = true ↔ sub <:+: s := by
  constructor
  · intro h
    have h0 : 0 ≤ Index s sub := by simpa [Contains] using h
    have hp := (HasPrefix_iff _ _).mp (Index_spec s sub h0)
    exact hp.isInfix.trans (List.drop_suffix _ _).isInfix
  · rintro ⟨pre, post, e⟩
    have key : ∀ pre : GoString, 0 ≤ Index (pre ++ (sub ++ post)) sub := by
      intro pre
      induction pre with
      | nil =>
        have hp : HasPrefix ([] ++ (sub ++ post)) sub = true :=
          (HasPrefix_iff _ _).mpr ⟨post, by simp⟩
        rw [Index_of_HasPrefix _ _ hp]
      | cons c cs ih =>
        rw [List.cons_append]
        simp only [Index]
        split_ifs
        · exact le_refl _
        · omega
        · omega
    have := key pre
    rw [← List.append_assoc, e] at this
    simpa [Contains] using this

/-- C13 (amended): for every raw fragment whose residual content contains neither
`class="columns"` nor `grid-template-columns`, the resulting slide has Layout
`section` when the `_class` directive of the fragment is `section-divider`, and Layout
`title` when it is `lead`. -/
theorem convertToSlide_layout_of_class (raw : GoString) (ps : parsedSlide) (i j : Nat)
    (hps : parseRawSlide raw = some ps)
    (hcol : ¬ "class=\"columns\"".toList <:+: ps.content ∧
      ¬ "grid-template-columns".toList <:+: ps.content) :
    ∃ slide, (parseRawSlide raw).bind (fun p => convertToSlide p i j) = some slide ∧
      (mapIndex ps.directives "_class".toList = "section-divider".toList →
        slide.Layout = "section".toList) ∧
      (mapIndex ps.directives "_class".toList = "lead".toList →
        slide.Layout = "title".toList) := by
  obtain ⟨slide, hs, _, hl⟩ := convertToSlide_ID_Layout ps i j
  rw [hps, Option.some_bind]
  have hc : ¬ containsColumns ps.content = true := by
    intro h
    simp only [containsColumns, Bool.or_eq_true, Contains_iff_occurs] at h
    exact h.elim hcol.1 hcol.2
  rw [if_neg hc] at hl
  refine ⟨slide, hs, ?_, ?_⟩
  · intro h
    rw [hl, if_pos h]
    rfl
  · intro h
    rw [hl, if_neg (by rw [h]; decide), if_pos h]
    rfl

/-- The fragment with the class `lead` and a title gives a slide of Layout `title`. -/
theorem convertToSlide_layout_of_class_witness :
    parseRawSlide rawLeadTitle =
      some { directives := [("_class".toList, "lead".toList)], notes := [],
             content := "# Welcome".toList, rawContent := rawLeadTitle } ∧
    (¬ "class=\"columns\"".toList <:+: "# Welcome".toList ∧
      ¬ "grid-template-columns".toList <:+: "# Welcome".toList) ∧
    ∃ slide, (parseRawSlide rawLeadTitle).bind (fun p => convertToSlide p 0 0) =
        some slide ∧
      (mapIndex [("_class".toList, "lead".toList)] "_class".toList =
          "section-divider".toList → slide.Layout = "section".toList) ∧
      (mapIndex [("_class".toList, "lead".toList)] "_class".toList = "lead".toList →
        slide.Layout = "title".toList) :=
  ⟨by decide, by decide,
    convertToSlide_layout_of_class rawLeadTitle
      { directives := [("_class".toList, "lead".toList)], notes := [],
        content := "# Welcome".toList, rawContent := rawLeadTitle } 0 0
      (by decide) (by decide)⟩

/-- C13 as stated fails: a fragment with the class `lead` whose content has a
two-column container gives a slide of Layout `title_two_col`, not `title`. -/
theorem convertToSlide_lead_columns_counterexample :
    (parseRawSlide rawLeadColumns).map (fun ps =>
      (mapIndex ps.directives "_class".toList,
        (convertToSlide ps 0 0).map fun s => s.Layout)) =
      some ("lead".toList, some "title_two_col".toList) := by
  decide

/-- C14: for every raw fragment whose `_class` directive is neither `section-divider`
nor `lead`, the resulting slide has Layout `title_two_col` when the residual content
contains `class="columns"` or `grid-template-columns`, and Layout `title_body`
otherwise. -/
theorem convertToSlide_layout_default (raw : GoString) (ps : parsedSlide) (i j : Nat)
    (hps : parseRawSlide raw = some ps)
    (h1 : mapIndex ps.directives "_class".toList ≠ "section-divider".toList)
    (h2 : mapIndex ps.directives "_class".toList ≠ "lead".toList) :
    ∃ slide, (parseRawSlide raw).bind (fun p => convertToSlide p i j) = some slide ∧
      ("class=\"columns\"".toList <:+: ps.content ∨
          "grid-template-columns".toList <:+: ps.content →
        slide.Layout = "title_two_col".toList) ∧
      (¬ ("class=\"columns\"".toList <:+: ps.content ∨
          "grid-template-columns".toList <:+: ps.content) →
        slide.Layout = "title_body".toList) := by
  obtain ⟨slide, hs, _, hl⟩ := convertToSlide_ID_Layout ps i j
  rw [hps, Option.some_bind]
  have hc : containsColumns ps.content = true ↔
      ("class=\"columns\"".toList <:+: ps.content ∨
        "grid-template-columns".toList <:+: ps.content) := by
    simp only [containsColumns, Bool.or_eq_true, Contains_iff_occurs]
  refine ⟨slide, hs, ?_, ?_⟩
  · intro h
    rw [hl, if_pos (hc.mpr h)]
    rfl
  · intro h
    rw [hl, if_neg (fun e => h (hc.mp e)), if_neg h1, if_neg h2]
    rfl

/-- The fragment without a class and with a two-column container gives a slide of
Layout `title_two_col`. -/
theorem convertToSlide_layout_default_witness :
    parseRawSlide rawColumns =
      some { directives := [], notes := [],
             content := rawColumns, rawContent := rawColumns } ∧
    ∃ slide, (parseRawSlide rawColumns).bind (fun p => convertToSlide p 0 0) =
        some slide ∧
      ("class=\"columns\"".toList <:+: rawColumns ∨
          "grid-template-columns".toList <:+: rawColumns →
        slide.Layout = "title_two_col".toList) ∧
      (¬ ("class=\"columns\"".toList <:+: rawColumns ∨
          "grid-template-columns".toList <:+: rawColumns) →
        slide.Layout = "title_body".toList) :=
  ⟨by decide,
    convertToSlide_layout_default rawColumns
      { directives := [], notes := [], content := rawColumns, rawContent := rawColumns }
      0 0 (by decide) (by decide) (by decide)⟩

/-! ## The line loop of `parseSlideContent` on regular lines -/

theorem parseSlideContent_loop_next (fuel : Nat) (lines : List GoString) (n : Nat)
    (st st' : contentState) (hn : n < lines.length)
    (h : parseSlideContent.step lines (n : Int) st = some ((n : Int), st')) :
    parseSlideContent.loop (fuel + 1) lines (n : Int) st =
      parseSlideContent.loop fuel lines ((n + 1 : Nat) : Int) st' := by
  have hlt : (n : Int) < (lines.length : Int) := by exact_mod_cast hn
  rw [parseSlideContent.loop, if_pos hlt, h]
  simp only [Option.some_bind, Nat.cast_add, Nat.cast_one]

theorem parseSlideContent_loop_end (fuel : Nat) (lines : List GoString) (n : Nat)
    (st : contentState) (hn : lines.length ≤ n) :
    parseSlideContent.loop (fuel + 1) lines (n : Int) st = some st := by
  have hlt : ¬ (n : Int) < (lines.length : Int) := by
    intro h
    have : n < lines.length := by exact_mod_cast h
    omega
  rw [parseSlideContent.loop, if_neg hlt]

/-- When the loop body acts on every line as the function `f` does, keeping the
invariant `inv`, the loop folds `f` over the lines. -/
theorem parseSlideContent_loop_foldl (f : GoString → contentState → contentState)
    (inv : contentState → Prop) (lines : List GoString)
    (hstep : ∀ (n : Nat) (hn : n < lines.length) (st : contentState), inv st →
      parseSlideContent.step lines (n : Int) st = some ((n : Int), f lines[n] st) ∧
        inv (f lines[n] st))
    (fuel n : Nat) (st : contentState) (hn : n ≤ lines.length)
    (hf : lines.length < fuel + n) (hinv : inv st) :
    parseSlideContent.loop fuel lines (n : Int) st =
      some ((lines.drop n).foldl (fun st l => f l st) st) := by
  induction fuel generalizing n st with
  | zero => omega
  | succ fuel ih =>
    by_cases hlt : n < lines.length
    · obtain ⟨hs, hi⟩ := hstep n hlt st hinv
      rw [parseSlideContent_loop_next fuel lines n st _ hlt hs,
        ih (n + 1) _ (by omega) (by omega) hi, List.drop_eq_getElem_cons hlt]
      rfl
    · rw [parseSlideContent_loop_end fuel lines n st (by omega),
        List.drop_eq_nil_of_le (by omega)]
      rfl

/-- On a regular line met outside code and HTML blocks, the loop body of
`parseSlideContent` stays on the line and has the effect `lineEffect`. -/
theorem parseSlideContent_step_regular (lines : List GoString) (n : Nat)
    (st : contentState) (hn : n < lines.length)
    (hc : st.inCodeBlock = false) (hh : st.inHTMLBlock = false)
    (hreg : isRegularLine lines[n] = true) :
    parseSlideContent.step lines (n : Int) st = some ((n : Int), lineEffect lines[n] st) := by
  unfold isRegularLine at hreg
  simp only [Bool.and_eq_true, Bool.not_eq_true', Bool.or_eq_true, decide_eq_true_eq] at hreg
  obtain ⟨⟨hfence, hhtml⟩, hrest⟩ := hreg
  unfold parseSlideContent.step
  rw [index_eq_some lines n hn]
  simp only [Option.some_bind]
  rw [if_neg (by rw [hfence]; decide), if_neg (by rw [hc]; decide),
    if_neg (by rw [hhtml]; simp), if_neg (by rw [hh]; decide)]
  unfold lineEffect
  simp only
  by_cases hb : TrimSpace lines[n] = []
  · rw [if_pos hb, if_pos hb]
  rw [if_neg hb, if_neg hb]
  unfold parseSlideContent.plainLine
  by_cases h1 : HasPrefix (TrimSpace lines[n]) "# ".toList = true
  · rw [if_pos h1, if_pos h1]
    by_cases ht : st.slide.Title = []
    · rw [if_pos ht, if_pos ht]
    · rw [if_neg ht, if_neg ht]
  rw [if_neg h1, if_neg h1]
  by_cases h2 : HasPrefix (TrimSpace lines[n]) "## ".toList = true
  · rw [if_pos h2, if_pos h2]
    by_cases ht : st.slide.Title = []
    · rw [if_pos ht, if_pos ht]
    · rw [if_neg ht, if_neg ht]
      by_cases hs : st.slide.Subtitle = []
      · rw [if_pos hs, if_pos hs]
      · rw [if_neg hs, if_neg hs]
  rw [if_neg h2, if_neg h2]
  have hguard : ¬ (HasPrefix (TrimSpace lines[n]) "```".toList = true ∨
      isHTMLBlockStart (TrimSpace lines[n]) = true ∨ TrimSpace lines[n] = [] ∨
      HasPrefix (TrimSpace lines[n]) "# ".toList = true ∨
      HasPrefix (TrimSpace lines[n]) "## ".toList = true) := by
    rintro (h | h | h | h | h)
    · rw [hfence] at h; exact absurd h (by decide)
    · rw [hhtml] at h; exact absurd h (by decide)
    · exact hb h
    · exact h1 h
    · exact h2 h
  have hsb : simpleBlock lines[n] =
      (if HasPrefix (TrimSpace lines[n]) "### ".toList then
        some (NewHeading (TrimPrefix (TrimSpace lines[n]) "### ".toList) 3)
      else if HasPrefix (TrimSpace lines[n]) "- ".toList ∨
          HasPrefix (TrimSpace lines[n]) "* ".toList then
        some (NewBullet (TrimSpace ((TrimSpace lines[n]).drop 2)) (countIndentLevel lines[n]))
      else if isNumberedItem (TrimSpace lines[n]) then
        (extractNumberedText (TrimSpace lines[n])).map fun text =>
          NewNumbered text (countIndentLevel lines[n])
      else if HasPrefix (TrimSpace lines[n]) "> ".toList then
        some (NewQuote (TrimPrefix (TrimSpace lines[n]) "> ".toList))
      else if HasPrefix (TrimSpace lines[n]) "![".toList then
        (parseImageLine (TrimSpace lines[n])).bind fun r =>
          if r.2 ≠ [] then some (NewImage r.2 r.1) else none
      else none) := by
    unfold simpleBlock
    simp only
    rw [if_neg hguard]
  by_cases h3 : HasPrefix (TrimSpace lines[n]) "### ".toList = true
  · rw [if_pos h3] at hsb ⊢
    rw [hsb]
  rw [if_neg h3] at hsb ⊢
  by_cases h4 : HasPrefix (TrimSpace lines[n]) "- ".toList = true ∨
      HasPrefix (TrimSpace lines[n]) "* ".toList = true
  · rw [if_pos h4] at hsb ⊢
    have hs : sliceFrom (TrimSpace lines[n]) 2 = some ((TrimSpace lines[n]).drop 2) := by
      rcases h4 with h | h
      · exact sliceFrom_of_HasPrefix _ _ h
      · exact sliceFrom_of_HasPrefix _ _ h
    rw [hs, hsb]
    rfl
  rw [if_neg h4] at hsb ⊢
  by_cases h5 : isNumberedItem (TrimSpace lines[n]) = true
  · rw [if_pos h5] at hsb ⊢
    obtain ⟨text, ht⟩ := extractNumberedText_total (TrimSpace lines[n])
    rw [ht] at hsb ⊢
    rw [hsb]
    rfl
  rw [if_neg h5] at hsb ⊢
  by_cases h6 : HasPrefix (TrimSpace lines[n]) "> ".toList = true
  · rw [if_pos h6] at hsb ⊢
    rw [hsb]
  rw [if_neg h6] at hsb ⊢
  have htab : simpleBlock lines[n] = none →
      HasPrefix (TrimSpace lines[n]) "|".toList = false := by
    intro hnone
    rcases hrest with (((h | h) | h) | h) | h
    · exact absurd h hb
    · exact absurd h h1
    · exact absurd h h2
    · rw [hnone] at h; exact absurd h (by simp)
    · exact h
  by_cases h7 : HasPrefix (TrimSpace lines[n]) "![".toList = true
  · rw [if_pos h7] at hsb ⊢
    obtain ⟨r, hr⟩ := parseImageLine_total (TrimSpace lines[n])
    rw [hr] at hsb ⊢
    simp only [Option.some_bind] at hsb ⊢
    by_cases h8 : r.2 ≠ []
    · rw [if_pos h8] at hsb ⊢
      rw [hsb]
      rfl
    · rw [if_neg h8] at hsb ⊢
      simp only [Option.some_bind]
      rw [if_neg (by rw [htab hsb]; decide), hsb]
  · rw [if_neg h7] at hsb ⊢
    simp only [Option.some_bind]
    rw [if_neg (by rw [htab hsb]; decide), hsb]

theorem lineEffect_flags (line : GoString) (st : contentState) :
    (lineEffect line st).inCodeBlock = st.inCodeBlock ∧
      (lineEffect line st).inHTMLBlock = st.inHTMLBlock := by
  unfold lineEffect
  simp only
  split_ifs
  all_goals first
    | exact ⟨rfl, rfl⟩
    | (split <;> exact ⟨rfl, rfl⟩)

/-- On a content of regular lines the loop of `parseSlideContent` folds `lineEffect`
over the lines. -/
theorem parseSlideContent_loop_regular (lines : List GoString)
    (hreg : ∀ l ∈ lines, isRegularLine l = true) (st : contentState)
    (hc : st.inCodeBlock = false) (hh : st.inHTMLBlock = false) :
    parseSlideContent.loop (lines.length + 1) lines 0 st =
      some (lines.foldl (fun st l => lineEffect l st) st) := by
  have := parseSlideContent_loop_foldl lineEffect
    (fun st => st.inCodeBlock = false ∧ st.inHTMLBlock = false) lines
    (by
      intro n hn st hinv
      refine ⟨parseSlideContent_step_regular lines n st hn hinv.1 hinv.2
        (hreg _ (List.getElem_mem _)), ?_⟩
      obtain ⟨a, b⟩ := lineEffect_flags lines[n] st
      exact ⟨a.trans hinv.1, b.trans hinv.2⟩)
    (lines.length + 1) 0 st (by omega) (by omega) ⟨hc, hh⟩
  simpa using this

/-! ## Headings -/

theorem HasPrefix_head_ne (t : GoString) (a b : Char) (as bs : GoString)
    (h : HasPrefix t (a :: as) = true) (hab : a ≠ b) : HasPrefix t (b :: bs) = false := by
  cases t with
  | nil => exact HasPrefix_nil_cons _ _
  | cons c cs =>
    rw [HasPrefix_cons_cons] at h ⊢
    simp only [Bool.and_eq_true, decide_eq_true_eq] at h
    have : c ≠ b := by rw [h.1]; exact hab
    simp [this]

theorem isHTMLBlockStart_false_of_head (t : GoString) (a : Char) (as : GoString)
    (h : HasPrefix t (a :: as) = true) (ha : a ≠ '<') : isHTMLBlockStart t = false := by
  unfold isHTMLBlockStart
  have e : ∀ w : GoString, HasPrefix t ('<' :: w) = false :=
    fun w => HasPrefix_head_ne t a '<' as w h ha
  have e1 : HasPrefix t "<div".toList = false := e _
  have e2 : HasPrefix t "<section".toList = false := e _
  have e3 : HasPrefix t "<script".toList = false := e _
  have e4 : HasPrefix t "<ol".toList = false := e _
  have e5 : HasPrefix t "<table".toList = false := e _
  rw [e1, e2, e3, e4, e5]
  rfl

/-- A line whose trimmed text starts with a character that is none of the backtick,
`<` and `|` is a regular line. -/
theorem isRegularLine_of_head (line : GoString) (a : Char) (as : GoString)
    (h : HasPrefix (TrimSpace line) (a :: as) = true)
    (h1 : a ≠ '`') (h2 : a ≠ '<') (h3 : a ≠ '|') : isRegularLine line = true := by
  unfold isRegularLine
  have e1 : HasPrefix (TrimSpace line) "```".toList = false :=
    HasPrefix_head_ne _ a '`' as _ h h1
  have e2 := isHTMLBlockStart_false_of_head _ a as h h2
  have e3 : HasPrefix (TrimSpace line) "|".toList = false :=
    HasPrefix_head_ne _ a '|' as _ h h3
  simp only [e1, e2, e3]
  simp

theorem isRegularLine_of_blank (line : GoString) (h : TrimSpace line = []) :
    isRegularLine line = true := by
  unfold isRegularLine
  simp only [h]
  simp [HasPrefix, isHTMLBlockStart]

theorem headingOf_cases (line : GoString) (h : Int × GoString)
    (hh : headingOf line = some h) :
    (HasPrefix (TrimSpace line) "# ".toList = true ∧ h = (1, TrimPrefix (TrimSpace line) "# ".toList)) ∨
    (HasPrefix (TrimSpace line) "# ".toList = false ∧
      HasPrefix (TrimSpace line) "## ".toList = true ∧
      h = (2, TrimPrefix (TrimSpace line) "## ".toList)) ∨
    (HasPrefix (TrimSpace line) "# ".toList = false ∧
      HasPrefix (TrimSpace line) "## ".toList = false ∧
      HasPrefix (TrimSpace line) "### ".toList = true ∧
      h = (3, TrimPrefix (TrimSpace line) "### ".toList)) := by
  unfold headingOf at hh
  simp only at hh
  by_cases h1 : HasPrefix (TrimSpace line) "# ".toList = true
  · rw [if_pos h1] at hh
    exact Or.inl ⟨h1, (Option.some.inj hh).symm⟩
  rw [if_neg h1] at hh
  have h1' : HasPrefix (TrimSpace line) "# ".toList = false := by simpa using h1
  by_cases h2 : HasPrefix (TrimSpace line) "## ".toList = true
  · rw [if_pos h2] at hh
    exact Or.inr (Or.inl ⟨h1', h2, (Option.some.inj hh).symm⟩)
  rw [if_neg h2] at hh
  have h2' : HasPrefix (TrimSpace line) "## ".toList = false := by simpa using h2
  by_cases h3 : HasPrefix (TrimSpace line) "### ".toList = true
  · rw [if_pos h3] at hh
    exact Or.inr (Or.inr ⟨h1', h2', h3, (Option.some.inj hh).symm⟩)
  rw [if_neg h3] at hh
  exact absurd hh (by simp)

theorem headingOf_hash (line : GoString) (h : Int × GoString)
    (hh : headingOf line = some h) :
    ∃ as, HasPrefix (TrimSpace line) ('#' :: as) = true := by
  rcases headingOf_cases line h hh with ⟨h1, _⟩ | ⟨_, h2, _⟩ | ⟨_, _, h3, _⟩
  · exact ⟨_, h1⟩
  · exact ⟨_, h2⟩
  · exact ⟨_, h3⟩

/-- The level of a heading line is 1, 2 or 3 and its text is not empty. -/
theorem headingOf_level_text (line : GoString) (h : Int × GoString)
    (hh : headingOf line = some h) : (h.1 = 1 ∨ h.1 = 2 ∨ h.1 = 3) ∧ h.2 ≠ [] := by
  rcases headingOf_cases line h hh with ⟨h1, e⟩ | ⟨_, h2, e⟩ | ⟨_, _, h3, e⟩
  · subst e
    exact ⟨Or.inl rfl, TrimPrefix_TrimSpace_ne_nil line _ rfl h1⟩
  · subst e
    exact ⟨Or.inr (Or.inl rfl), TrimPrefix_TrimSpace_ne_nil line _ rfl h2⟩
  · subst e
    exact ⟨Or.inr (Or.inr rfl), TrimPrefix_TrimSpace_ne_nil line _ rfl h3⟩

theorem lineEffect_blank (line : GoString) (st : contentState) (h : TrimSpace line = []) :
    lineEffect line st = st := by
  unfold lineEffect
  simp only
  rw [if_pos h]

/-- On a heading line the effect of the loop body is `headingEffect`. -/
theorem lineEffect_heading (line : GoString) (h : Int × GoString) (st : contentState)
    (hh : headingOf line = some h) : lineEffect line st = headingEffect h st := by
  obtain ⟨as, hhash⟩ := headingOf_hash line h hh
  have hne : TrimSpace line ≠ [] := by
    intro e
    rw [e] at hhash
    exact absurd hhash (by simp [HasPrefix_nil_cons])
  unfold lineEffect headingEffect
  simp only
  rw [if_neg hne]
  rcases headingOf_cases line h hh with ⟨h1, e⟩ | ⟨h1, h2, e⟩ | ⟨h1, h2, h3, e⟩
  · subst e
    rw [if_pos h1]
    by_cases ht : st.slide.Title = []
    · simp [ht]
    · simp [ht]
  · subst e
    rw [if_neg (by rw [h1]; decide), if_pos h2]
    by_cases ht : st.slide.Title = []
    · simp [ht]
    · by_cases hs : st.slide.Subtitle = []
      · simp [ht, hs]
      · simp [ht, hs]
  · subst e
    have e1 : HasPrefix (TrimSpace line) "```".toList = false :=
      HasPrefix_head_ne _ '#' '`' _ _ hhash (by decide)
    have e2 := isHTMLBlockStart_false_of_head _ '#' _ hhash (by decide)
    have hsb : simpleBlock line =
        some (NewHeading (TrimPrefix (TrimSpace line) "### ".toList) 3) := by
      unfold simpleBlock
      simp only
      rw [if_neg, if_pos h3]
      rintro (c | c | c | c | c)
      · rw [e1] at c; exact absurd c (by decide)
      · rw [e2] at c; exact absurd c (by decide)
      · exact hne c
      · rw [h1] at c; exact absurd c (by decide)
      · rw [h2] at c; exact absurd c (by decide)
    rw [if_neg (by rw [h1]; decide), if_neg (by rw [h2]; decide), hsb]
    simp

/-- On lines that are blank or headings, folding `lineEffect` over the lines is
folding `headingEffect` over the headings. -/
theorem foldl_lineEffect_headings (lines : List GoString)
    (hl : ∀ l ∈ lines, TrimSpace l = [] ∨ (headingOf l).isSome = true) (st : contentState) :
    lines.foldl (fun st l => lineEffect l st) st =
      (lines.filterMap headingOf).foldl (fun st h => headingEffect h st) st := by
  induction lines generalizing st with
  | nil => rfl
  | cons l rest ih =>
    have ihr := ih (fun x hx => hl x (by simp [hx]))
    cases hh : headingOf l with
    | some h =>
      simp only [List.foldl_cons, List.filterMap_cons, hh]
      rw [lineEffect_heading l h st hh, ihr]
    | none =>
      have hb : TrimSpace l = [] := by
        rcases hl l (by simp) with h | h
        · exact h
        · rw [hh] at h; exact absurd h (by simp)
      simp only [List.foldl_cons, List.filterMap_cons, hh]
      rw [lineEffect_blank l st hb, ihr]

/-! ### Folding the headings -/

theorem headingEffect_append (h : Int × GoString) (st : contentState)
    (hc : ¬ (h.1 ≤ 2 ∧ st.slide.Title = [])) (hd : ¬ (h.1 = 2 ∧ st.slide.Subtitle = [])) :
    headingEffect h st = st.appendBody (NewHeading h.2 h.1) := by
  unfold headingEffect
  rw [if_neg hc, if_neg hd]

/-- Once the title and the subtitle are set, every heading becomes a heading block. -/
theorem foldl_headingEffect_body (hs : List (Int × GoString)) (st : contentState)
    (ht : st.slide.Title ≠ []) (hsub : st.slide.Subtitle ≠ []) :
    hs.foldl (fun st h => headingEffect h st) st =
      { st with slide := { st.slide with
          Body := st.slide.Body ++ hs.map fun h => NewHeading h.2 h.1 } } := by
  induction hs generalizing st with
  | nil => simp
  | cons h rest ih =>
    rw [List.foldl_cons, headingEffect_append h st (fun c => ht c.2) (fun c => hsub c.2),
      ih (st.appendBody (NewHeading h.2 h.1)) ht hsub]
    simp [contentState.appendBody]

/-- Once the title is set, the first heading of level 2 becomes the subtitle and every
other heading a heading block. -/
theorem foldl_headingEffect_subtitle (hs : List (Int × GoString))
    (hne : ∀ h ∈ hs, h.2 ≠ []) (st : contentState)
    (ht : st.slide.Title ≠ []) (hsub : st.slide.Subtitle = []) :
    hs.foldl (fun st h => headingEffect h st) st =
      { st with slide := { st.slide with
          Subtitle := (((hs.find? fun h => decide (h.1 = 2)).map fun h => h.2).getD []),
          Body := st.slide.Body ++
            ((hs.takeWhile fun h => !decide (h.1 = 2)) ++
              (hs.dropWhile fun h => !decide (h.1 = 2)).tail).map
              fun h => NewHeading h.2 h.1 } } := by
  induction hs generalizing st with
  | nil =>
    obtain ⟨slide, _, _, _, _, _, _, _⟩ := st
    obtain ⟨_, _, _, _, _, _, _, _, _⟩ := slide
    simp only at hsub
    subst hsub
    simp
  | cons h rest ih =>
    rw [List.foldl_cons]
    by_cases h2 : h.1 = 2
    · have e : headingEffect h st = { st with slide := { st.slide with Subtitle := h.2 } } := by
        unfold headingEffect
        rw [if_neg (fun c => ht c.2), if_pos ⟨h2, hsub⟩]
      rw [e, foldl_headingEffect_body rest
        { st with slide := { st.slide with Subtitle := h.2 } } ht (hne h (by simp))]
      simp [h2]
    · rw [headingEffect_append h st (fun c => ht c.2) (fun c => h2 c.1),
        ih (fun x hx => hne x (by simp [hx])) (st.appendBody (NewHeading h.2 h.1)) ht hsub]
      simp [h2, contentState.appendBody]

/-- From an empty title and subtitle, the headings give the title, the subtitle and
the heading blocks that `headingsTitle`, `headingsSubtitle` and `headingsBody`
describe. -/
theorem foldl_headingEffect_title (hs : List (Int × GoString))
    (hne : ∀ h ∈ hs, h.2 ≠ []) (st : contentState)
    (ht : st.slide.Title = []) (hsub : st.slide.Subtitle = []) :
    hs.foldl (fun st h => headingEffect h st) st =
      { st with slide := { st.slide with
          Title := headingsTitle hs, Subtitle := headingsSubtitle hs,
          Body := st.slide.Body ++ headingsBody hs } } := by
  induction hs generalizing st with
  | nil =>
    obtain ⟨slide, _, _, _, _, _, _, _⟩ := st
    obtain ⟨_, _, _, _, _, _, _, _, _⟩ := slide
    simp only at hsub ht
    subst hsub ht
    simp [headingsTitle, headingsSubtitle, headingsBody, headingsAfterTitle]
  | cons h rest ih =>
    rw [List.foldl_cons]
    by_cases h2 : h.1 ≤ 2
    · have e : headingEffect h st = { st with slide := { st.slide with Title := h.2 } } := by
        unfold headingEffect
        rw [if_pos ⟨h2, ht⟩]
      rw [e, foldl_headingEffect_subtitle rest (fun x hx => hne x (by simp [hx]))
        { st with slide := { st.slide with Title := h.2 } } (hne h (by simp)) hsub]
      simp [headingsTitle, headingsSubtitle, headingsBody, headingsAfterTitle, h2]
    · rw [headingEffect_append h st (fun c => h2 c.1) (fun c => h2 (by rw [c.1])),
        ih (fun x hx => hne x (by simp [hx])) (st.appendBody (NewHeading h.2 h.1)) ht hsub]
      simp [headingsTitle, headingsSubtitle, headingsBody, headingsAfterTitle, h2,
        contentState.appendBody]

theorem mem_takeWhile_or_tail_dropWhile {α : Type} (p : α → Bool) (l : List α) (a : α)
    (ha : a ∈ l) (hp : p a = true) : a ∈ l.takeWhile p ∨ a ∈ (l.dropWhile p).tail := by
  induction l with
  | nil => simp at ha
  | cons x rest ih =>
    by_cases hx : p x = true
    · simp only [List.takeWhile_cons, List.dropWhile_cons, hx, if_true]
      rcases List.mem_cons.mp ha with e | hm
      · exact Or.inl (by rw [e]; simp)
      · rcases ih hm with h | h
        · exact Or.inl (by simp [h])
        · exact Or.inr h
    · simp only [List.takeWhile_cons, List.dropWhile_cons, hx, if_false, Bool.false_eq_true]
      rcases List.mem_cons.mp ha with e | hm
      · rw [e] at hp; exact absurd hp hx
      · exact Or.inr hm

/-- C15: for every content whose non-blank lines are all headings of level 1 to 3 and
every slide without title and subtitle, `parseSlideContent` sets Title to the text of
the first heading of level 1 or 2, Subtitle to the text of the first heading of level
2 after the one that became the title, and appends every other heading to Body, in
source order, as a heading block of its own level; a heading of level 3 is always
among the blocks. -/
theorem parseSlideContent_headings (slide : Slide) (content : GoString)
    (ht : slide.Title = []) (hsub : slide.Subtitle = [])
    (hl : ∀ l ∈ Split content '\n', TrimSpace l = [] ∨ (headingOf l).isSome = true) :
    parseSlideContent slide content =
      some { slide with
        Title := headingsTitle ((Split content '\n').filterMap headingOf),
        Subtitle := headingsSubtitle ((Split content '\n').filterMap headingOf),
        Body := slide.Body ++ headingsBody ((Split content '\n').filterMap headingOf) } ∧
    ∀ h ∈ (Split content '\n').filterMap headingOf, h.1 = 3 →
      NewHeading h.2 3 ∈ headingsBody ((Split content '\n').filterMap headingOf) := by
  constructor
  · have hreg : ∀ l ∈ Split content '\n', isRegularLine l = true := by
      intro l hmem
      rcases hl l hmem with h | h
      · exact isRegularLine_of_blank l h
      · obtain ⟨hd, hhd⟩ := Option.isSome_iff_exists.mp h
        obtain ⟨as, has⟩ := headingOf_hash l hd hhd
        exact isRegularLine_of_head l '#' as has (by decide) (by decide) (by decide)
    have hne : ∀ h ∈ (Split content '\n').filterMap headingOf, h.2 ≠ [] := by
      intro h hmem
      obtain ⟨l, _, hh⟩ := List.mem_filterMap.mp hmem
      exact (headingOf_level_text l h hh).2
    unfold parseSlideContent
    simp only
    rw [parseSlideContent_loop_regular _ hreg _ rfl rfl, foldl_lineEffect_headings _ hl,
      foldl_headingEffect_title _ hne _ ht hsub]
    simp
  · intro h hmem h3
    unfold headingsBody headingsAfterTitle
    rw [List.mem_map]
    refine ⟨h, ?_, by rw [h3]⟩
    simp only [List.mem_append]
    have s1 := mem_takeWhile_or_tail_dropWhile
      (fun (h : Int × GoString) => !decide (h.1 ≤ 2)) _ h hmem (by simp [h3])
    rcases s1 with h1 | h1
    · exact Or.inl (Or.inl h1)
    · have s2 := mem_takeWhile_or_tail_dropWhile
        (fun (h : Int × GoString) => !decide (h.1 = 2)) _ h h1 (by simp [h3])
      rcases s2 with h2 | h2
      · exact Or.inl (Or.inr h2)
      · exact Or.inr h2

/-- On the sample content the second-level heading `Intro` becomes the title, `Sub`
the subtitle, and the other headings heading blocks. -/
theorem parseSlideContent_headings_witness :
    (∀ l ∈ Split headingsSample '\n', TrimSpace l = [] ∨ (headingOf l).isSome = true) ∧
    parseSlideContent {} headingsSample =
      some { Title := "Intro".toList, Subtitle := "Sub".toList,
             Body := [NewHeading "Main".toList 1, NewHeading "Detail".toList 3,
                      NewHeading "More".toList 2] } :=
  ⟨by decide,
    (parseSlideContent_headings {} headingsSample rfl rfl (by decide)).1.trans (by decide)⟩

/-! ## Paragraph lines -/

theorem simpleBlock_guard (line : GoString) (b : Block) (h : simpleBlock line = some b) :
    HasPrefix (TrimSpace line) "```".toList = false ∧
      isHTMLBlockStart (TrimSpace line) = false ∧ TrimSpace line ≠ [] ∧
      HasPrefix (TrimSpace line) "# ".toList = false ∧
      HasPrefix (TrimSpace line) "## ".toList = false := by
  unfold simpleBlock at h
  simp only at h
  by_cases hg : HasPrefix (TrimSpace line) "```".toList = true ∨
      isHTMLBlockStart (TrimSpace line) = true ∨ TrimSpace line = [] ∨
      HasPrefix (TrimSpace line) "# ".toList = true ∨
      HasPrefix (TrimSpace line) "## ".toList = true
  · rw [if_pos hg] at h
    exact absurd h (by simp)
  · simp only [not_or, Bool.not_eq_true] at hg
    exact hg

theorem simpleBlock_blank (line : GoString) (h : TrimSpace line = []) :
    simpleBlock line = none := by
  unfold simpleBlock
  simp only
  rw [if_pos (Or.inr (Or.inr (Or.inl h)))]

theorem isParagraphLine_blank (line : GoString) (h : TrimSpace line = []) :
    isParagraphLine line = false := by
  unfold isParagraphLine
  simp [h]

theorem isRegularLine_of_simpleBlock (line : GoString) (b : Block)
    (h : simpleBlock line = some b) : isRegularLine line = true := by
  obtain ⟨h1, h2, _⟩ := simpleBlock_guard line b h
  unfold isRegularLine
  simp only [h1, h2, h]
  simp

theorem isParagraphLine_spec (line : GoString) (h : isParagraphLine line = true) :
    TrimSpace line ≠ [] ∧ HasPrefix (TrimSpace line) "```".toList = false ∧
      isHTMLBlockStart (TrimSpace line) = false ∧
      HasPrefix (TrimSpace line) "# ".toList = false ∧
      HasPrefix (TrimSpace line) "## ".toList = false ∧
      simpleBlock line = none ∧ HasPrefix (TrimSpace line) "|".toList = false := by
  unfold isParagraphLine at h
  simp only [Bool.and_eq_true, decide_eq_true_eq, Bool.not_eq_true',
    Option.isNone_iff_eq_none] at h
  obtain ⟨⟨⟨⟨⟨⟨a, b⟩, c⟩, d⟩, e⟩, f⟩, g⟩ := h
  exact ⟨a, b, c, d, e, f, g⟩

theorem isRegularLine_of_paragraph (line : GoString) (h : isParagraphLine line = true) :
    isRegularLine line = true := by
  obtain ⟨_, h1, h2, _, _, _, h3⟩ := isParagraphLine_spec line h
  unfold isRegularLine
  simp only [h1, h2, h3]
  simp

theorem lineEffect_simpleBlock (line : GoString) (b : Block) (st : contentState)
    (h : simpleBlock line = some b) : lineEffect line st = st.appendBody b := by
  obtain ⟨_, _, h3, h4, h5⟩ := simpleBlock_guard line b h
  unfold lineEffect
  simp only
  rw [if_neg h3, if_neg (by rw [h4]; decide), if_neg (by rw [h5]; decide), h]

theorem lineEffect_paragraph (line : GoString) (st : contentState)
    (h : isParagraphLine line = true) :
    lineEffect line st = { st with bodyLines := st.bodyLines ++ [TrimSpace line] } := by
  obtain ⟨h3, _, _, h4, h5, h6, _⟩ := isParagraphLine_spec line h
  unfold lineEffect
  simp only
  rw [if_neg h3, if_neg (by rw [h4]; decide), if_neg (by rw [h5]; decide), h6]

/-- On lines that are blank, single-line constructs or paragraph lines, the loop
appends the blocks of the constructs to the body and collects the trimmed paragraph
lines in `bodyLines`. -/
theorem foldl_lineEffect_simple (lines : List GoString)
    (hl : ∀ l ∈ lines, TrimSpace l = [] ∨ (simpleBlock l).isSome = true ∨
      isParagraphLine l = true) (st : contentState) :
    lines.foldl (fun st l => lineEffect l st) st =
      { st with
        slide := { st.slide with Body := st.slide.Body ++ lines.filterMap simpleBlock },
        bodyLines := st.bodyLines ++ (lines.filter isParagraphLine).map TrimSpace } := by
  induction lines generalizing st with
  | nil => simp
  | cons l rest ih =>
    have ihr := ih (fun x hx => hl x (by simp [hx]))
    rw [List.foldl_cons]
    rcases hl l (by simp) with h | h | h
    · rw [lineEffect_blank l st h, ihr]
      simp [simpleBlock_blank l h, isParagraphLine_blank l h]
    · obtain ⟨b, hb⟩ := Option.isSome_iff_exists.mp h
      have hp : isParagraphLine l = false := by
        unfold isParagraphLine
        simp [hb]
      rw [lineEffect_simpleBlock l b st hb, ihr]
      simp [hb, hp, contentState.appendBody]
    · have hs := (isParagraphLine_spec l h).2.2.2.2.2.1
      rw [lineEffect_paragraph l st h, ihr]
      simp [hs, h]

theorem Join_ne_nil (ls : List GoString) (sep : GoString) (hne : ls ≠ [])
    (h : ∀ l ∈ ls, l ≠ []) : Join ls sep ≠ [] := by
  cases ls with
  | nil => exact absurd rfl hne
  | cons l rest =>
    cases rest with
    | nil => rw [Join_singleton]; exact h l (by simp)
    | cons l2 rest' =>
      rw [Join_cons_cons]
      intro e
      have := List.append_eq_nil.mp e
      exact h l (by simp) (List.append_eq_nil.mp this.1).1

/-- The slide read from a content of blank lines, single-line constructs and paragraph
lines. -/
theorem parseSlideContent_simple_lines (slide : Slide) (content : GoString)
    (hl : ∀ l ∈ Split content '\n', TrimSpace l = [] ∨ (simpleBlock l).isSome = true ∨
      isParagraphLine l = true) :
    parseSlideContent slide content =
      some { slide with
        Body := slide.Body ++ (Split content '\n').filterMap simpleBlock ++
          (if (Split content '\n').filter isParagraphLine = [] then []
           else [NewParagraph (Join (((Split content '\n').filter isParagraphLine).map
              TrimSpace) "\n".toList)]) } := by
  have hreg : ∀ l ∈ Split content '\n', isRegularLine l = true := by
    intro l hmem
    rcases hl l hmem with h | h | h
    · exact isRegularLine_of_blank l h
    · obtain ⟨b, hb⟩ := Option.isSome_iff_exists.mp h
      exact isRegularLine_of_simpleBlock l b hb
    · exact isRegularLine_of_paragraph l h
  unfold parseSlideContent
  simp only
  rw [parseSlideContent_loop_regular _ hreg _ rfl rfl, foldl_lineEffect_simple _ hl]
  simp only [Option.some_bind, List.nil_append, List.length_map]
  by_cases hp : (Split content '\n').filter isParagraphLine = []
  · rw [hp]
    simp
  · have hpos : 0 < ((Split content '\n').filter isParagraphLine).length :=
      List.length_pos.mpr hp
    have hj : Join (((Split content '\n').filter isParagraphLine).map TrimSpace)
        "\n".toList ≠ [] := by
      apply Join_ne_nil
      · simpa using hp
      · intro t ht
        obtain ⟨l, hl', e⟩ := List.mem_map.mp ht
        subst e
        exact (isParagraphLine_spec l (List.mem_filter.mp hl').2).1
    rw [if_pos hpos, if_pos hj, if_neg hp]


/-- What the code does with paragraph lines: for every slide content whose lines are
blank lines, single-line constructs (third-level headings, bullets, numbered items,
quotes, images) and plain paragraph lines, `parseSlideContent` appends to Body the
blocks of the constructs in source order, and after them, when there is a paragraph
line, one paragraph block with all the trimmed paragraph lines of the content joined
by newlines: paragraph lines are not flushed where a construct begins. -/
theorem parseSlideContent_paragraph_last (slide : Slide) (content : GoString)
    (hl : ∀ l ∈ Split content '\n', TrimSpace l = [] ∨ (simpleBlock l).isSome = true ∨
      isParagraphLine l = true) :
    parseSlideContent slide content =
      some { slide with
        Body := slide.Body ++ (Split content '\n').filterMap simpleBlock ++
          (if (Split content '\n').filter isParagraphLine = [] then []
           else [NewParagraph (Join (((Split content '\n').filter isParagraphLine).map
              TrimSpace) "\n".toList)]) } :=
  parseSlideContent_simple_lines slide content hl

set_option maxRecDepth 100000 in
/-- On the sample content the bullet and the quote come first, and the three
paragraph lines follow as one block. -/
theorem parseSlideContent_paragraph_last_sample :
    (∀ l ∈ Split paragraphSample '\n', TrimSpace l = [] ∨ (simpleBlock l).isSome = true ∨
      isParagraphLine l = true) ∧
    parseSlideContent {} paragraphSample =
      some { Body := [NewBullet "item".toList 0, NewQuote "quoted".toList,
                      NewParagraph "First line\nSecond line\nThird line".toList] } :=
  ⟨by decide, (parseSlideContent_paragraph_last {} paragraphSample (by decide)).trans
    (by decide)⟩

set_option maxRecDepth 100000 in
/-- C16: on the content `before`, `- item`, `after` the paragraph line written before
the bullet is not emitted where the bullet begins: the body is the bullet followed by
one paragraph of both paragraph lines, which the loop flushes after its last line
only.  The writer emits the body in its order, so the text read and written back
has the bullet before the line `before`. -/
theorem parseSlideContent_paragraph_order :
    (parseSlideContent {} "before\n- item\nafter".toList).map (fun s => s.Body) =
      some [NewBullet "item".toList 0, NewParagraph "before\nafter".toList] ∧
    (parseSlideContent {} "before\n- item\nafter".toList).bind writeSlide =
      some "- item\n\nbefore\nafter\n".toList ∧
    ((parseSlideContent {} "before\n- item\nafter".toList).bind writeSlide).bind
        (fun w => (parseSlideContent {} w).map (fun s => s.Body)) =
      some [NewBullet "item".toList 0, NewParagraph "before\nafter".toList] := by
  decide

/-! ## Indentation -/

theorem countIndentLevel_go_eq (line : GoString) (acc : Int) :
    countIndentLevel.go line acc = (acc + (indentWidth line : Int)) / 4 := by
  induction line generalizing acc with
  | nil => simp [countIndentLevel.go, indentWidth]
  | cons c cs ih =>
    unfold countIndentLevel.go
    by_cases h1 : c = ' '
    · subst h1
      rw [if_pos rfl, ih]
      have : indentWidth (' ' :: cs) = indentWidth cs + 1 := by
        simp [indentWidth, List.takeWhile_cons]
        omega
      rw [this]
      push_cast
      congr 1
      omega
    · rw [if_neg h1]
      by_cases h2 : c = '\t'
      · subst h2
        rw [if_pos rfl, ih]
        have : indentWidth ('\t' :: cs) = indentWidth cs + 4 := by
          simp [indentWidth, List.takeWhile_cons]
          omega
        rw [this]
        push_cast
        congr 1
        omega
      · rw [if_neg h2]
        have : indentWidth (c :: cs) = 0 := by
          simp [indentWidth, List.takeWhile_cons, h1, h2]
        rw [this]
        simp

theorem indentWidth_replicate (n : Nat) (rest : GoString)
    (h : ∀ c ∈ rest.head?, c ≠ ' ' ∧ c ≠ '\t') :
    indentWidth (List.replicate n ' ' ++ rest) = n := by
  induction n with
  | zero =>
    cases rest with
    | nil => simp [indentWidth]
    | cons c cs =>
      obtain ⟨h1, h2⟩ := h c (by simp)
      simp [indentWidth, List.takeWhile_cons, h1, h2]
  | succ n ih =>
    have e : indentWidth (List.replicate (n + 1) ' ' ++ rest) =
        indentWidth (List.replicate n ' ' ++ rest) + 1 := by
      simp [indentWidth, List.replicate_succ, List.takeWhile_cons]
      omega
    rw [e, ih]

theorem findAllFrom_bot_some (k : List RE) (s : GoString) (c : Char) :
    findAllFrom (RE.bot :: k) (some c) s 0 = [] := by
  induction s generalizing c with
  | nil => simp [findAllFrom, RE.run]
  | cons d ds ih => simp [findAllFrom, RE.run, ih]

/-- A numbered item starts with a digit. -/
theorem isNumberedItem_head (t : GoString) (h : isNumberedItem t = true) :
    ∃ c cs, t = c :: cs ∧ reDigit c = true := by
  cases t with
  | nil => exact absurd h (by decide)
  | cons c cs =>
    refine ⟨c, cs, rfl, ?_⟩
    by_contra hd
    have hd' : reDigit c = false := by simpa using hd
    have : isNumberedItem (c :: cs) = false := by
      unfold isNumberedItem MatchString FindAllStringSubmatch
      have hr : RE.run reNumbered none (c :: cs) 0 = none := by
        simp [reNumbered, RE.run, hd']
      rw [findAllFrom, hr]
      simp only
      rw [show reNumbered = RE.bot :: reNumbered.tail from rfl, findAllFrom_bot_some]
      rfl
    rw [this] at h
    exact absurd h (by decide)

/-- On a bullet or numbered line met outside code and HTML blocks, the loop body of
`parseSlideContent` appends a bullet or numbered block whose level is the
`countIndentLevel` of the line. -/
theorem parseSlideContent_step_listItem (lines : List GoString) (n : Nat)
    (st : contentState) (hn : n < lines.length)
    (hc : st.inCodeBlock = false) (hh : st.inHTMLBlock = false)
    (hitem : HasPrefix (TrimSpace lines[n]) "- ".toList = true ∨
      HasPrefix (TrimSpace lines[n]) "* ".toList = true ∨
      isNumberedItem (TrimSpace lines[n]) = true) :
    ∃ b, parseSlideContent.step lines (n : Int) st = some ((n : Int), st.appendBody b) ∧
      b.Level = countIndentLevel lines[n] ∧
      (b.Kind = BlockBullet ∨ b.Kind = BlockNumbered) := by
  have key : ∃ (a : Char) (as : GoString), HasPrefix (TrimSpace lines[n]) (a :: as) = true ∧
      a ≠ '`' ∧ a ≠ '<' ∧ a ≠ '|' ∧ a ≠ '#' := by
    rcases hitem with h | h | h
    · exact ⟨'-', _, h, by decide, by decide, by decide, by decide⟩
    · exact ⟨'*', _, h, by decide, by decide, by decide, by decide⟩
    · obtain ⟨c, cs, e, hd⟩ := isNumberedItem_head _ h
      refine ⟨c, [], ?_, ?_, ?_, ?_, ?_⟩
      · rw [e, HasPrefix_cons_cons, HasPrefix_nil]
        simp
      all_goals
        intro ec
        subst ec
        exact absurd hd (by decide)
  obtain ⟨a, as, ha, a1, a2, a3, a4⟩ := key
  have hne : TrimSpace lines[n] ≠ [] := by
    intro e
    rw [e, HasPrefix_nil_cons] at ha
    exact absurd ha (by decide)
  have e1 : HasPrefix (TrimSpace lines[n]) "```".toList = false :=
    HasPrefix_head_ne _ a '`' as _ ha a1
  have e2 := isHTMLBlockStart_false_of_head _ a as ha a2
  have e3 : HasPrefix (TrimSpace lines[n]) "# ".toList = false :=
    HasPrefix_head_ne _ a '#' as _ ha a4
  have e4 : HasPrefix (TrimSpace lines[n]) "## ".toList = false :=
    HasPrefix_head_ne _ a '#' as _ ha a4
  have e5 : HasPrefix (TrimSpace lines[n]) "### ".toList = false :=
    HasPrefix_head_ne _ a '#' as _ ha a4
  have hguard : ¬ (HasPrefix (TrimSpace lines[n]) "```".toList = true ∨
      isHTMLBlockStart (TrimSpace lines[n]) = true ∨ TrimSpace lines[n] = [] ∨
      HasPrefix (TrimSpace lines[n]) "# ".toList = true ∨
      HasPrefix (TrimSpace lines[n]) "## ".toList = true) := by
    rw [e1, e2, e3, e4]
    simp [hne]
  have hsb : ∃ b, simpleBlock lines[n] = some b ∧ b.Level = countIndentLevel lines[n] ∧
      (b.Kind = BlockBullet ∨ b.Kind = BlockNumbered) := by
    unfold simpleBlock
    simp only
    rw [if_neg hguard, if_neg (by rw [e5]; decide)]
    by_cases hb : HasPrefix (TrimSpace lines[n]) "- ".toList = true ∨
        HasPrefix (TrimSpace lines[n]) "* ".toList = true
    · rw [if_pos hb]
      exact ⟨_, rfl, rfl, Or.inl rfl⟩
    · rw [if_neg hb]
      have hnum : isNumberedItem (TrimSpace lines[n]) = true := by
        rcases hitem with h | h | h
        · exact absurd (Or.inl h) hb
        · exact absurd (Or.inr h) hb
        · exact h
      obtain ⟨text, ht⟩ := extractNumberedText_total (TrimSpace lines[n])
      rw [if_pos hnum, ht]
      exact ⟨_, rfl, rfl, Or.inr rfl⟩
  obtain ⟨b, hb, hlvl, hkind⟩ := hsb
  refine ⟨b, ?_, hlvl, hkind⟩
  rw [parseSlideContent_step_regular lines n st hn hc hh
    (isRegularLine_of_simpleBlock _ b hb), lineEffect_simpleBlock _ b st hb]

/-- C17: for every line `countIndentLevel` returns the integer quotient by 4 of the
width of its indentation, the number of spaces plus four times the number of tabs in
its leading run of spaces and tabs; so a line that begins with exactly `4n` spaces has
level `n`, and when it is a bullet or numbered line met outside code and HTML blocks,
the loop body of `parseSlideContent` appends for it a bullet or numbered block of
level `n`. -/
theorem countIndentLevel_quotient (line : GoString) :
    countIndentLevel line = (indentWidth line : Int) / 4 ∧
    ∀ (n : Nat) (rest : GoString), line = List.replicate (4 * n) ' ' ++ rest →
      (∀ c ∈ rest.head?, c ≠ ' ' ∧ c ≠ '\t') →
      countIndentLevel line = n ∧
      ∀ (lines : List GoString) (i : Nat) (st : contentState), lines[i]? = some line →
        st.inCodeBlock = false → st.inHTMLBlock = false →
        (HasPrefix (TrimSpace line) "- ".toList = true ∨
          HasPrefix (TrimSpace line) "* ".toList = true ∨
          isNumberedItem (TrimSpace line) = true) →
        ∃ b, parseSlideContent.step lines (i : Int) st = some ((i : Int), st.appendBody b) ∧
          b.Level = n ∧ (b.Kind = BlockBullet ∨ b.Kind = BlockNumbered) := by
  have h0 : countIndentLevel line = (indentWidth line : Int) / 4 := by
    unfold countIndentLevel
    rw [countIndentLevel_go_eq]
    simp
  refine ⟨h0, ?_⟩
  intro n rest e hrest
  have hn : countIndentLevel line = n := by
    rw [h0, e, indentWidth_replicate _ _ hrest]
    push_cast
    omega
  refine ⟨hn, ?_⟩
  intro lines i st hi hc hh hitem
  obtain ⟨hlt, hget⟩ := List.getElem?_eq_some_iff.mp hi
  subst hget
  obtain ⟨b, hb, hl, hk⟩ := parseSlideContent_step_listItem lines i st hlt hc hh hitem
  exact ⟨b, hb, hl.trans hn, hk⟩

/-- The line `    - item` has level 1 and gives a bullet block of level 1. -/
theorem countIndentLevel_quotient_witness :
    countIndentLevel "    - item".toList = ((1 : Nat) : Int) ∧
    ∃ b, parseSlideContent.step ["# T".toList, "    - item".toList] ((1 : Nat) : Int) {} =
        some (((1 : Nat) : Int), ({} : contentState).appendBody b) ∧
      b.Level = ((1 : Nat) : Int) ∧ (b.Kind = BlockBullet ∨ b.Kind = BlockNumbered) :=
  ⟨((countIndentLevel_quotient "    - item".toList).2 1 "- item".toList rfl
      (by intro c hc; cases hc; exact ⟨by decide, by decide⟩)).1,
    ((countIndentLevel_quotient "    - item".toList).2 1 "- item".toList rfl
      (by intro c hc; cases hc; exact ⟨by decide, by decide⟩)).2
      ["# T".toList, "    - item".toList] 1 {} rfl rfl rfl (Or.inl (by decide))⟩

/-! ## HTML blocks -/

theorem htmlDepth_take_succ (ls : List GoString) (k : Nat) (hk : k < ls.length) :
    htmlDepth (ls.take (k + 1)) =
      htmlDepth (ls.take k) + countHTMLOpens ls[k] - countHTMLCloses ls[k] := by
  rw [List.take_succ, List.getElem?_eq_getElem hk]
  simp only [htmlDepth, Option.toList_some, List.map_append, List.sum_append, List.map_cons,
    List.map_nil, List.sum_cons, List.sum_nil]
  omega

theorem take_succ_getElem (ls : List GoString) (k : Nat) (hk : k < ls.length) :
    ls.take k ++ [ls[k]] = ls.take (k + 1) := by
  rw [List.take_succ, List.getElem?_eq_getElem hk]
  rfl

/-- The loop body on the line that opens the HTML block. -/
theorem parseSlideContent_step_html_open (slide : Slide) (ls : List GoString)
    (h0 : 0 < ls.length)
    (hfence : HasPrefix (TrimSpace ls[0]) "```".toList = false)
    (hstart : isHTMLBlockStart (TrimSpace ls[0]) = true) :
    parseSlideContent.step ls ((0 : Nat) : Int) { slide := slide } =
      some (((0 : Nat) : Int),
        if htmlDepth (ls.take 1) ≤ 0 then htmlClosedState slide (ls.take 1)
        else htmlOpenState slide ls 1) := by
  have hd : htmlDepth (ls.take 1) =
      (1 : Int) + (countHTMLOpens ls[0] - (1 : Int)) - countHTMLCloses ls[0] := by
    rw [htmlDepth_take_succ ls 0 h0]
    simp [htmlDepth]
  have ht : ls.take 1 = [ls[0]] := by
    rw [← take_succ_getElem ls 0 h0]
    simp
  unfold parseSlideContent.step
  rw [index_eq_some ls 0 h0]
  simp only [Option.some_bind]
  rw [if_neg (by rw [hfence]; decide), if_neg (by decide),
    if_pos ⟨by decide, hstart⟩]
  rw [← hd]
  by_cases hle : htmlDepth (ls.take 1) ≤ 0
  · rw [if_pos hle, if_pos hle]
    simp only [htmlClosedState, contentState.appendBody, ht, List.take_take]
  · rw [if_neg hle, if_neg hle]
    simp only [htmlOpenState, ht]

/-- The loop body on a line inside the HTML block. -/
theorem parseSlideContent_step_html_inside (slide : Slide) (ls : List GoString) (k : Nat)
    (hk : k < ls.length) (hfence : HasPrefix (TrimSpace ls[k]) "```".toList = false) :
    parseSlideContent.step ls (k : Int) (htmlOpenState slide ls k) =
      some ((k : Int),
        if htmlDepth (ls.take (k + 1)) ≤ 0 then htmlClosedState slide (ls.take (k + 1))
        else htmlOpenState slide ls (k + 1)) := by
  unfold parseSlideContent.step
  rw [index_eq_some ls k hk]
  simp only [Option.some_bind]
  rw [if_neg (by rw [hfence]; decide), if_neg (by simp [htmlOpenState]),
    if_neg (by simp [htmlOpenState]), if_pos (by simp [htmlOpenState])]
  simp only [htmlOpenState, take_succ_getElem ls k hk, ← htmlDepth_take_succ ls k hk]
  by_cases hle : htmlDepth (ls.take (k + 1)) ≤ 0
  · rw [if_pos hle, if_pos hle]
    simp only [htmlClosedState, contentState.appendBody]
  · rw [if_neg hle, if_neg hle]

/-- Inside the HTML block the loop goes on to the line where the depth is no longer
positive, and closes the block there. -/
theorem parseSlideContent_loop_html (slide : Slide) (ls : List GoString)
    (hfence : ∀ l ∈ ls, HasPrefix (TrimSpace l) "```".toList = false)
    (hpos : ∀ k, 0 < k → k < ls.length → 0 < htmlDepth (ls.take k))
    (hend : htmlDepth ls ≤ 0) (fuel k : Nat) (hk1 : 0 < k) (hk : k < ls.length)
    (hf : ls.length < fuel + k) :
    parseSlideContent.loop fuel ls (k : Int) (htmlOpenState slide ls k) =
      some (htmlClosedState slide ls) := by
  induction fuel generalizing k with
  | zero => omega
  | succ fuel ih =>
    rw [parseSlideContent_loop_next fuel ls k _ _ hk
      (parseSlideContent_step_html_inside slide ls k hk (hfence _ (List.getElem_mem _)))]
    by_cases hlast : k + 1 < ls.length
    · rw [if_neg (by have := hpos (k + 1) (by omega) hlast; omega)]
      exact ih (k + 1) (by omega) hlast (by omega)
    · have e : ls.take (k + 1) = ls := List.take_of_length_le (by omega)
      rw [e, if_pos hend]
      cases fuel with
      | zero => omega
      | succ fuel => exact parseSlideContent_loop_end fuel ls (k + 1) _ (by omega)

/-- C18: for every sequence of lines without a code fence line whose first line,
trimmed, starts with `<div`, `<section`, `<script`, `<ol` or `<table`, and whose
running depth (opening minus closing tags counted by `countHTMLOpens` and
`countHTMLCloses`) is positive after every line but the last and not positive after
the last, `parseSlideContent` on the lines joined by newlines appends exactly one block
to Body: a paragraph whose Text is the lines joined by newlines, unmodified; the
title and the subtitle of the slide are untouched. -/
theorem parseSlideContent_html_block (slide : Slide) (ls : List GoString)
    (hne : ls ≠ []) (hnl : ∀ l ∈ ls, '\n' ∉ l)
    (hfence : ∀ l ∈ ls, HasPrefix (TrimSpace l) "```".toList = false)
    (hstart : ∀ l ∈ ls.head?, isHTMLBlockStart (TrimSpace l) = true)
    (hpos : ∀ k, 0 < k → k < ls.length → 0 < htmlDepth (ls.take k))
    (hend : htmlDepth ls ≤ 0) :
    parseSlideContent slide (Join ls "\n".toList) =
      some { slide with
        Body := slide.Body ++
          [{ Kind := BlockParagraph, Text := Join ls "\n".toList }] } := by
  have hsj : Split (Join ls "\n".toList) '\n' = ls := Split_Join ls '\n' hne hnl
  have h0 : 0 < ls.length := List.length_pos.mpr hne
  have hs0 : isHTMLBlockStart (TrimSpace ls[0]) = true :=
    hstart _ (by rw [List.head?_eq_getElem?, List.getElem?_eq_getElem h0]; rfl)
  have hloop : parseSlideContent.loop (ls.length + 1) ls ((0 : Nat) : Int) { slide := slide } =
      some (htmlClosedState slide ls) := by
    rw [parseSlideContent_loop_next ls.length ls 0 _ _ h0
      (parseSlideContent_step_html_open slide ls h0 (hfence _ (List.getElem_mem _)) hs0)]
    by_cases hlast : 1 < ls.length
    · rw [if_neg (by have := hpos 1 (by omega) hlast; omega)]
      exact parseSlideContent_loop_html slide ls hfence hpos hend ls.length 1 (by omega)
        hlast (by omega)
    · have e : ls.take 1 = ls := List.take_of_length_le (by omega)
      have e1 : ls.length = 1 := by omega
      rw [e, if_pos hend, e1]
      exact parseSlideContent_loop_end 0 ls 1 _ (by omega)
  unfold parseSlideContent
  simp only
  rw [hsj]
  simp only [Nat.cast_zero] at hloop
  rw [hloop]
  simp [htmlClosedState]

set_option maxRecDepth 100000 in
/-- The nested block of the sample is one paragraph block; its heading line and its
bullet line are not parsed. -/
theorem parseSlideContent_html_block_witness :
    htmlSample ≠ [] ∧ (∀ l ∈ htmlSample, '\n' ∉ l) ∧
    (∀ l ∈ htmlSample, HasPrefix (TrimSpace l) "```".toList = false) ∧
    (∀ l ∈ htmlSample.head?, isHTMLBlockStart (TrimSpace l) = true) ∧
    (∀ k, 0 < k → k < htmlSample.length → 0 < htmlDepth (htmlSample.take k)) ∧
    htmlDepth htmlSample ≤ 0 ∧
    parseSlideContent {} (Join htmlSample "\n".toList) =
      some { Body := [{ Kind := BlockParagraph, Text := Join htmlSample "\n".toList }] } :=
  have hpos : ∀ k, 0 < k → k < htmlSample.length → 0 < htmlDepth (htmlSample.take k) := by
    intro k h1 h2
    have h3 : k < 6 := h2
    interval_cases k <;> decide
  ⟨by decide, by decide, by decide, by decide, hpos, by decide,
    parseSlideContent_html_block {} htmlSample (by decide) (by decide) (by decide)
      (by decide) hpos (by decide)⟩

/-! ## Computing matches -/

theorem RE_run_chr_cons (p : Char → Bool) (k : List RE) (prev : Option Char) (c : Char)
    (cs : GoString) (pos : Nat) (h : p c = true) :
    RE.run (RE.chr p :: k) prev (c :: cs) pos = RE.run k (some c) cs (pos + 1) := by
  simp only [RE.run, h, if_true]

theorem RE_run_chr_some (p : Char → Bool) (k : List RE) (prev : Option Char) (s : GoString)
    (pos : Nat) (r : List Nat × Nat) (h : RE.run (RE.chr p :: k) prev s pos = some r) :
    ∃ c cs, s = c :: cs ∧ p c = true ∧ RE.run k (some c) cs (pos + 1) = some r := by
  cases s with
  | nil => simp [RE.run] at h
  | cons c cs =>
    simp only [RE.run] at h
    split_ifs at h with hp
    exact ⟨c, cs, rfl, hp, h⟩

theorem RE_run_chr_none (p : Char → Bool) (k : List RE) (prev : Option Char) (s : GoString)
    (pos : Nat) (h : ∀ c ∈ s.head?, p c = false) :
    RE.run (RE.chr p :: k) prev s pos = none := by
  cases s with
  | nil => rfl
  | cons c cs =>
    simp only [RE.run, h c (by simp)]
    rfl

theorem RE_run_openGroup (k : List RE) (prev : Option Char) (s : GoString) (pos : Nat) :
    RE.run (RE.openGroup :: k) prev s pos =
      (RE.run k prev s pos).map fun r => (pos :: r.1, r.2) := by
  simp only [RE.run]

theorem RE_run_closeGroup (k : List RE) (prev : Option Char) (s : GoString) (pos : Nat) :
    RE.run (RE.closeGroup :: k) prev s pos =
      (RE.run k prev s pos).map fun r => (pos :: r.1, r.2) := by
  simp only [RE.run]

theorem RE_run_star_greedy (p : Char → Bool) (k : List RE) (prev : Option Char)
    (s : GoString) (pos : Nat) :
    RE.run (RE.star p true :: k) prev s pos = starGreedy p (RE.run k) prev s pos := by
  simp only [RE.run]

theorem RE_run_star_lazy (p : Char → Bool) (k : List RE) (prev : Option Char)
    (s : GoString) (pos : Nat) :
    RE.run (RE.star p false :: k) prev s pos = starLazy p (RE.run k) prev s pos := by
  simp only [RE.run]

/-- A successful greedy repetition took some characters of the class and then its
continuation succeeded. -/
theorem starGreedy_decomp {α : Type} (p : Char → Bool)
    (k : Option Char → GoString → Nat → Option α) (prev : Option Char) (s : GoString)
    (pos : Nat) (r : α) (h : starGreedy p k prev s pos = some r) :
    ∃ ws rest prev', s = ws ++ rest ∧ (∀ c ∈ ws, p c = true) ∧
      k prev' rest (pos + ws.length) = some r := by
  induction s generalizing prev pos with
  | nil => exact ⟨[], [], prev, rfl, by simp, by simpa [starGreedy] using h⟩
  | cons c cs ih =>
    simp only [starGreedy] at h
    by_cases hp : p c = true
    · rw [if_pos hp] at h
      cases hr : starGreedy p k (some c) cs (pos + 1) with
      | some r' =>
        rw [hr] at h
        simp only [Option.some.injEq] at h
        subst h
        obtain ⟨ws, rest, prev', e, hws, hk⟩ := ih _ _ hr
        refine ⟨c :: ws, rest, prev', by rw [e]; rfl, ?_, ?_⟩
        · intro x hx
          rcases List.mem_cons.mp hx with e | e
          · rw [e]; exact hp
          · exact hws x e
        · rw [← hk]
          congr 1
          simp only [List.length_cons]
          omega
      | none =>
        rw [hr] at h
        exact ⟨[], c :: cs, prev, rfl, by simp, by simpa using h⟩
    · rw [if_neg hp] at h
      exact ⟨[], c :: cs, prev, rfl, by simp, by simpa using h⟩

/-- A successful lazy repetition took some characters of the class and then its
continuation succeeded. -/
theorem starLazy_decomp {α : Type} (p : Char → Bool)
    (k : Option Char → GoString → Nat → Option α) (prev : Option Char) (s : GoString)
    (pos : Nat) (r : α) (h : starLazy p k prev s pos = some r) :
    ∃ ws rest prev', s = ws ++ rest ∧ (∀ c ∈ ws, p c = true) ∧
      k prev' rest (pos + ws.length) = some r := by
  induction s generalizing prev pos with
  | nil => exact ⟨[], [], prev, rfl, by simp, by simpa [starLazy] using h⟩
  | cons c cs ih =>
    simp only [starLazy] at h
    cases hr : k prev (c :: cs) pos with
    | some r' =>
      rw [hr] at h
      simp only [Option.some.injEq] at h
      subst h
      exact ⟨[], c :: cs, prev, rfl, by simp, by simpa using hr⟩
    | none =>
      rw [hr] at h
      simp only at h
      by_cases hp : p c = true
      · rw [if_pos hp] at h
        obtain ⟨ws, rest, prev', e, hws, hk⟩ := ih _ _ h
        refine ⟨c :: ws, rest, prev', by rw [e]; rfl, ?_, ?_⟩
        · intro x hx
          rcases List.mem_cons.mp hx with e | e
          · rw [e]; exact hp
          · exact hws x e
        · rw [← hk]
          congr 1
          simp only [List.length_cons]
          omega
      · rw [if_neg hp] at h
        exact absurd h (by simp)

theorem starGreedy_stop {α : Type} (p : Char → Bool)
    (k : Option Char → GoString → Nat → Option α) (prev : Option Char) (s : GoString)
    (pos : Nat) (hs : ∀ c ∈ s.head?, p c = false) :
    starGreedy p k prev s pos = k prev s pos := by
  cases s with
  | nil => rfl
  | cons c cs =>
    simp only [starGreedy, hs c (by simp)]
    rfl

/-- A greedy repetition in front of a maximal run of the class takes the whole run
when the continuation succeeds after it. -/
theorem starGreedy_run {α : Type} (p : Char → Bool)
    (k : Option Char → GoString → Nat → Option α) (prev : Option Char) (xs s : GoString)
    (pos : Nat) (r : α) (hxs : ∀ c ∈ xs, p c = true) (hs : ∀ c ∈ s.head?, p c = false)
    (hk : ∀ prev', k prev' s (pos + xs.length) = some r) :
    starGreedy p k prev (xs ++ s) pos = some r := by
  induction xs generalizing prev pos with
  | nil =>
    rw [List.nil_append, starGreedy_stop p k prev s pos hs]
    exact hk prev
  | cons x xs ih =>
    rw [List.cons_append]
    simp only [starGreedy, hxs x (by simp), if_true]
    rw [ih (some x) (pos + 1) (fun c hc => hxs c (by simp [hc])) (by
      intro prev'
      rw [← hk prev']
      congr 1
      simp only [List.length_cons]
      omega)]

/-- A greedy repetition gives back the one character it took when the continuation
fails after it and succeeds before it. -/
theorem starGreedy_give_back {α : Type} (p : Char → Bool)
    (k : Option Char → GoString → Nat → Option α) (prev : Option Char) (x : Char)
    (s : GoString) (pos : Nat) (r : α) (hs : ∀ c ∈ s.head?, p c = false)
    (hfail : k (some x) s (pos + 1) = none) (hk : k prev (x :: s) pos = some r) :
    starGreedy p k prev (x :: s) pos = some r := by
  simp only [starGreedy]
  split_ifs
  · rw [starGreedy_stop p k (some x) s (pos + 1) hs, hfail]
    exact hk
  · exact hk

/-- A lazy repetition in front of a run of the class takes the whole run when the
continuation fails inside the run and succeeds after it. -/
theorem starLazy_run {α : Type} (p : Char → Bool)
    (k : Option Char → GoString → Nat → Option α) (prev : Option Char) (xs s : GoString)
    (pos : Nat) (r : α) (hxs : ∀ c ∈ xs, p c = true)
    (hfail : ∀ a b, xs = a ++ b → b ≠ [] → ∀ prev', k prev' (b ++ s) (pos + a.length) = none)
    (hk : ∀ prev', k prev' s (pos + xs.length) = some r) :
    starLazy p k prev (xs ++ s) pos = some r := by
  induction xs generalizing prev pos with
  | nil =>
    rw [List.nil_append]
    cases s with
    | nil => simpa [starLazy] using hk prev
    | cons c cs =>
      simp only [starLazy]
      have := hk prev
      simp only [List.length_nil, Nat.add_zero] at this
      rw [this]
  | cons x xs ih =>
    rw [List.cons_append]
    simp only [starLazy]
    have h0 := hfail [] (x :: xs) rfl (by simp) prev
    simp only [List.length_nil, Nat.add_zero, List.cons_append] at h0
    rw [h0]
    simp only [hxs x (by simp), if_true]
    apply ih
    · exact fun c hc => hxs c (by simp [hc])
    · intro a b e hb prev'
      have := hfail (x :: a) b (by rw [e]; rfl) hb prev'
      rw [← this]
      congr 1
      simp only [List.length_cons]
      omega
    · intro prev'
      rw [← hk prev']
      congr 1
      simp only [List.length_cons]
      omega

/-! ### Searching around one match -/

theorem findAllFrom_skip (re : List RE) (hplain : re.all RE.isPlain = true)
    (xs s : GoString) (prev : Option Char) :
    findAllFrom re prev (xs ++ s) xs.length = findAllFrom re none s 0 := by
  induction xs generalizing prev with
  | nil => exact findAllFrom_prev re hplain _ _ _ _
  | cons x xs ih =>
    simp only [List.cons_append, List.length_cons, findAllFrom]
    exact ih _

theorem removeAllFrom_skip (re : List RE) (hplain : re.all RE.isPlain = true)
    (xs s : GoString) (prev : Option Char) :
    removeAllFrom re prev (xs ++ s) xs.length = removeAllFrom re none s 0 := by
  induction xs generalizing prev with
  | nil => exact removeAllFrom_prev re hplain _ _ _ _
  | cons x xs ih =>
    simp only [List.cons_append, List.length_cons, removeAllFrom]
    exact ih _

/-- The search in a text where the pattern matches nowhere in `A`, and matches `M`
right after `A`: the first match is `M`, and the search goes on after it. -/
theorem findAllFrom_match_at (re : List RE) (hplain : re.all RE.isPlain = true)
    (A M B : GoString) (marks : List Nat)
    (hA : ∀ A1 A2, A = A1 ++ A2 → A2 ≠ [] → RE.run re none (A2 ++ (M ++ B)) 0 = none)
    (hM : RE.run re none (M ++ B) 0 = some (marks, M.length)) (hne : M ≠ [])
    (prev : Option Char) :
    findAllFrom re prev (A ++ (M ++ B)) 0 =
      submatches (M ++ B) marks M.length :: findAllFrom re none B 0 := by
  induction A generalizing prev with
  | nil =>
    cases M with
    | nil => exact absurd rfl hne
    | cons m ms =>
      simp only [List.nil_append, List.cons_append, findAllFrom, List.append_eq]
      have := hM
      simp only [List.cons_append] at this
      rw [RE_run_prev re hplain prev none, this]
      simp only [List.length_cons, Nat.add_sub_cancel]
      rw [findAllFrom_skip re hplain]
  | cons a A ih =>
    have h0 := hA [] (a :: A) rfl (by simp)
    simp only [List.cons_append] at h0 ⊢
    simp only [findAllFrom]
    rw [RE_run_prev re hplain prev none, h0]
    exact ih (fun A1 A2 e hne2 => hA (a :: A1) A2 (by rw [e]; rfl) hne2) _

/-- What is left of a text where the pattern matches nowhere in `A`, and matches `M`
right after `A`. -/
theorem removeAllFrom_match_at (re : List RE) (hplain : re.all RE.isPlain = true)
    (A M B : GoString) (marks : List Nat)
    (hA : ∀ A1 A2, A = A1 ++ A2 → A2 ≠ [] → RE.run re none (A2 ++ (M ++ B)) 0 = none)
    (hM : RE.run re none (M ++ B) 0 = some (marks, M.length)) (hne : M ≠ [])
    (prev : Option Char) :
    removeAllFrom re prev (A ++ (M ++ B)) 0 = A ++ removeAllFrom re none B 0 := by
  induction A generalizing prev with
  | nil =>
    cases M with
    | nil => exact absurd rfl hne
    | cons m ms =>
      simp only [List.nil_append, List.cons_append, removeAllFrom, List.append_eq]
      have := hM
      simp only [List.cons_append] at this
      rw [RE_run_prev re hplain prev none, this]
      simp only [List.length_cons, Nat.add_sub_cancel]
      rw [if_neg (by omega), removeAllFrom_skip re hplain]
  | cons a A ih =>
    have h0 := hA [] (a :: A) rfl (by simp)
    simp only [List.cons_append] at h0 ⊢
    simp only [removeAllFrom]
    rw [RE_run_prev re hplain prev none, h0]
    simp only
    rw [ih (fun A1 A2 e hne2 => hA (a :: A1) A2 (by rw [e]; rfl) hne2) _]

/-! ## Comment marks in a text -/

theorem reSpace_isSpace (c : Char) (h : reSpace c = true) : isSpace c = true := by
  simp only [reSpace, Bool.or_eq_true, beq_iff_eq] at h
  rcases h with (((h | h) | h) | h) | h
  · subst h; decide
  · subst h; decide
  · simp [isSpace, h]
  · subst h; decide
  · subst h; decide

/-- A text without surrounding white space that is not empty starts and ends with a
character outside the class `\s`. -/
theorem trimmed_ends (v : GoString) (hv : v ≠ []) (ht : TrimSpace v = v) :
    (∀ c ∈ v.head?, reSpace c = false) ∧ (∀ c ∈ v.getLast?, reSpace c = false) := by
  have hne : TrimSpace v ≠ [] := by rw [ht]; exact hv
  have h1 := TrimSpace_head_not_space v hne
  have h2 := TrimSpace_getLast_not_space v hne
  constructor
  · intro c hc
    cases hr : reSpace c with
    | false => rfl
    | true =>
      have hs := reSpace_isSpace c hr
      have e : (TrimSpace v).head hne = c := by
        have : (TrimSpace v).head? = some c := by rw [ht]; exact hc
        rw [List.head?_eq_head hne] at this
        exact Option.some.inj this
      rw [e, hs] at h1
      exact absurd h1 (by decide)
  · intro c hc
    cases hr : reSpace c with
    | false => rfl
    | true =>
      have hs := reSpace_isSpace c hr
      have e : (TrimSpace v).getLast hne = c := by
        have : (TrimSpace v).getLast? = some c := by rw [ht]; exact hc
        rw [List.getLast?_eq_getLast _ hne] at this
        exact Option.some.inj this
      rw [e, hs] at h2
      exact absurd h2 (by decide)

/-- A pattern that begins with the literal `<!--` matches only at an occurrence of
`<!--`. -/
theorem RE_run_needs_open (k : List RE) (prev : Option Char) (s : GoString) (pos : Nat)
    (r : List Nat × Nat) (h : RE.run (RE.lit "<!--" ++ k) prev s pos = some r) :
    HasPrefix s "<!--".toList = true := by
  have e : RE.lit "<!--" ++ k = RE.chr (· == '<') :: RE.chr (· == '!') ::
      RE.chr (· == '-') :: RE.chr (· == '-') :: k := rfl
  rw [e] at h
  obtain ⟨c1, s1, e1, p1, h1⟩ := RE_run_chr_some _ _ _ _ _ _ h
  obtain ⟨c2, s2, e2, p2, h2⟩ := RE_run_chr_some _ _ _ _ _ _ h1
  obtain ⟨c3, s3, e3, p3, h3⟩ := RE_run_chr_some _ _ _ _ _ _ h2
  obtain ⟨c4, s4, e4, p4, _⟩ := RE_run_chr_some _ _ _ _ _ _ h3
  simp only [beq_iff_eq] at p1 p2 p3 p4
  subst e1 e2 e3 e4 p1 p2 p3 p4
  rw [show "<!--".toList = ['<', '!', '-', '-'] from rfl]
  simp [HasPrefix, List.isPrefixOf]

/-- No suffix of the text starts with `<!--`. -/
theorem no_open_of_absent (s : GoString) (h : ¬ "<!--".toList <:+: s) :
    ∀ t, t <:+ s → HasPrefix t "<!--".toList = false := by
  intro t ht
  cases hp : HasPrefix t "<!--".toList with
  | false => rfl
  | true => exact absurd (((HasPrefix_iff _ _).mp hp).isInfix.trans ht.isInfix) h

theorem HasPrefix_open_append (X Y : GoString) (hX : X ≠ [])
    (hp : HasPrefix X "<!--".toList = false)
    (hY : ∀ y ∈ Y.head?, y ≠ '!' ∧ y ≠ '-') :
    HasPrefix (X ++ Y) "<!--".toList = false := by
  have e : "<!--".toList = ['<', '!', '-', '-'] := rfl
  rw [e] at hp ⊢
  match X, hX, hp with
  | [a], _, _ =>
    cases Y with
    | nil => simp [HasPrefix, List.isPrefixOf]
    | cons y Y' =>
      have := (hY y (by simp)).1
      simp [HasPrefix, List.isPrefixOf, this, this.symm]
  | [a, b], _, _ =>
    cases Y with
    | nil => simp [HasPrefix, List.isPrefixOf]
    | cons y Y' =>
      have := (hY y (by simp)).2
      simp [HasPrefix, List.isPrefixOf, this, this.symm]
  | [a, b, c], _, _ =>
    cases Y with
    | nil => simp [HasPrefix, List.isPrefixOf]
    | cons y Y' =>
      have := (hY y (by simp)).2
      simp [HasPrefix, List.isPrefixOf, this, this.symm]
  | a :: b :: c :: d :: rest, _, hp =>
    simp only [HasPrefix, List.isPrefixOf, List.cons_append] at hp ⊢
    simpa using hp

theorem HasPrefix_open_of_head (X : GoString) (h : ∀ x ∈ X.head?, x ≠ '<') :
    HasPrefix X "<!--".toList = false := by
  cases X with
  | nil => rfl
  | cons x X' =>
    have := h x (by simp)
    have e : "<!--".toList = ['<', '!', '-', '-'] := rfl
    rw [e]
    simp [HasPrefix, List.isPrefixOf, this, this.symm]

/-- A text put together from two texts without `<!--`, the second of which does not
begin with `!` or `-`, has no `<!--`. -/
theorem no_open_append (X Y : GoString)
    (hX : ∀ t, t <:+ X → HasPrefix t "<!--".toList = false)
    (hY : ∀ t, t <:+ Y → HasPrefix t "<!--".toList = false)
    (hy : ∀ y ∈ Y.head?, y ≠ '!' ∧ y ≠ '-') :
    ∀ t, t <:+ X ++ Y → HasPrefix t "<!--".toList = false := by
  induction X with
  | nil => simpa using hY
  | cons x X' ih =>
    intro t ht
    rw [List.cons_append, List.suffix_cons_iff] at ht
    rcases ht with e | ht
    · rw [e, ← List.cons_append]
      exact HasPrefix_open_append _ _ (by simp) (hX _ (List.suffix_refl _)) hy
    · exact ih (fun t' ht' => hX t' (ht'.trans (List.suffix_cons x X'))) t ht

/-- A text that begins with characters other than `<` and goes on without `<!--` has
no `<!--`. -/
theorem no_open_append_plain (X Y : GoString) (hX : '<' ∉ X)
    (hY : ∀ t, t <:+ Y → HasPrefix t "<!--".toList = false) :
    ∀ t, t <:+ X ++ Y → HasPrefix t "<!--".toList = false := by
  induction X with
  | nil => simpa using hY
  | cons x X' ih =>
    intro t ht
    rw [List.cons_append, List.suffix_cons_iff] at ht
    rcases ht with e | ht
    · rw [e]
      apply HasPrefix_open_of_head
      intro c hc
      simp only [List.head?_cons, Option.mem_def, Option.some.injEq] at hc
      subst hc
      intro ec
      exact hX (by rw [ec]; simp)
    · exact ih (fun hm => hX (by simp [hm])) t ht

/-- After white space, `-->` does not start inside a text that ends with a character
outside `\s`, has no `-->`, and is followed by a character other than `-` and `>`. -/
theorem no_close_inside (ws b Y : GoString) (hws : ∀ c ∈ ws, reSpace c = true)
    (hb : b ≠ []) (hlast : ∀ c ∈ b.getLast?, reSpace c = false)
    (hclose : ¬ "-->".toList <:+: b) (hY : ∀ y ∈ Y.head?, y ≠ '-' ∧ y ≠ '>') :
    ¬ (ws ++ "-->".toList <+: b ++ Y) := by
  have e : "-->".toList = ['-', '-', '>'] := rfl
  rw [e] at hclose ⊢
  induction ws generalizing b with
  | nil =>
    intro hp
    rw [List.nil_append] at hp
    have hp' := (HasPrefix_iff _ _).mpr hp
    match b, hb, hclose with
    | [a], _, _ =>
      cases Y with
      | nil => simp [HasPrefix, List.isPrefixOf] at hp'
      | cons y Y' =>
        have := (hY y (by simp)).1
        simp [HasPrefix, List.isPrefixOf, this, this.symm] at hp'
    | [a, c], _, _ =>
      cases Y with
      | nil => simp [HasPrefix, List.isPrefixOf] at hp'
      | cons y Y' =>
        have := (hY y (by simp)).2
        simp [HasPrefix, List.isPrefixOf, this, this.symm] at hp'
    | a :: c :: d :: rest, _, hclose =>
      apply hclose
      have : HasPrefix (a :: c :: d :: rest) ['-', '-', '>'] = true := by
        simp only [HasPrefix, List.isPrefixOf, List.cons_append] at hp' ⊢
        simpa using hp'
      exact ((HasPrefix_iff _ _).mp this).isInfix
  | cons w ws ih =>
    intro hp
    cases b with
    | nil => exact hb rfl
    | cons b0 b' =>
      rw [List.cons_append, List.cons_append, List.cons_prefix_cons] at hp
      obtain ⟨e0, hp⟩ := hp
      cases b' with
      | nil =>
        have := hlast b0 (by simp)
        rw [← e0, hws w (by simp)] at this
        exact absurd this (by decide)
      | cons b1 b'' =>
        refine ih (b1 :: b'') (fun c hc => hws c (by simp [hc])) (by simp) ?_ ?_ hp
        · intro c hc
          exact hlast c (by simpa using hc)
        · intro hin
          exact hclose (hin.trans (List.suffix_cons b0 _).isInfix)

/-! ## The end of a comment -/

theorem RE_run_close (prev : Option Char) (B : GoString) (pos : Nat) :
    RE.run (RE.lit "-->") prev ('-' :: '-' :: '>' :: B) pos = some ([], pos + 3) := by
  have e : RE.lit "-->" = [RE.chr (· == '-'), RE.chr (· == '-'), RE.chr (· == '>')] := rfl
  rw [e, RE_run_chr_cons _ _ _ _ _ _ (by decide), RE_run_chr_cons _ _ _ _ _ _ (by decide),
    RE_run_chr_cons _ _ _ _ _ _ (by decide)]
  rfl

theorem RE_run_close_some (prev : Option Char) (s : GoString) (pos : Nat)
    (r : List Nat × Nat) (h : RE.run (RE.lit "-->") prev s pos = some r) :
    "-->".toList <+: s := by
  have e : RE.lit "-->" = [RE.chr (· == '-'), RE.chr (· == '-'), RE.chr (· == '>')] := rfl
  rw [e] at h
  obtain ⟨c1, s1, e1, p1, h1⟩ := RE_run_chr_some _ _ _ _ _ _ h
  obtain ⟨c2, s2, e2, p2, h2⟩ := RE_run_chr_some _ _ _ _ _ _ h1
  obtain ⟨c3, s3, e3, p3, _⟩ := RE_run_chr_some _ _ _ _ _ _ h2
  simp only [beq_iff_eq] at p1 p2 p3
  subst e1 e2 e3 p1 p2 p3
  exact ⟨s3, rfl⟩

/-- The end `\s*-->` of a comment pattern, after the optional white space of the
text. -/
theorem RE_run_space_close (prev : Option Char) (ws B : GoString) (pos : Nat)
    (hws : ∀ c ∈ ws, reSpace c = true) :
    RE.run (RE.star reSpace true :: RE.lit "-->") prev (ws ++ '-' :: '-' :: '>' :: B) pos =
      some ([], pos + ws.length + 3) := by
  rw [RE_run_star_greedy]
  exact starGreedy_run _ _ _ ws _ pos _ hws
    (by intro c hc; simp only [List.head?_cons, Option.mem_def, Option.some.injEq] at hc
        subst hc; decide)
    (fun prev' => RE_run_close prev' B _)

/-- The end `\s*-->` of a comment pattern does not match inside a text that ends with
a character outside `\s`, has no `-->`, and is followed by a character other than
`-` and `>`. -/
theorem RE_run_space_close_none (prev : Option Char) (b Y : GoString) (pos : Nat)
    (hb : b ≠ []) (hlast : ∀ c ∈ b.getLast?, reSpace c = false)
    (hclose : ¬ "-->".toList <:+: b) (hY : ∀ y ∈ Y.head?, y ≠ '-' ∧ y ≠ '>') :
    RE.run (RE.star reSpace true :: RE.lit "-->") prev (b ++ Y) pos = none := by
  cases hr : RE.run (RE.star reSpace true :: RE.lit "-->") prev (b ++ Y) pos with
  | none => rfl
  | some r =>
    exfalso
    rw [RE_run_star_greedy] at hr
    obtain ⟨ws, rest, prev', e, hws, hk⟩ := starGreedy_decomp _ _ _ _ _ _ hr
    obtain ⟨t, ht⟩ := RE_run_close_some _ _ _ _ hk
    apply no_close_inside ws b Y hws hb hlast hclose hY
    rw [e, ← ht]
    exact ⟨t, by simp⟩

/-- The end `\n\s*-->` of the note pattern does not match inside such a text
either. -/
theorem RE_run_newline_close_none (prev : Option Char) (b Y : GoString) (pos : Nat)
    (hb : b ≠ []) (hlast : ∀ c ∈ b.getLast?, reSpace c = false)
    (hclose : ¬ "-->".toList <:+: b) (hY : ∀ y ∈ Y.head?, y ≠ '-' ∧ y ≠ '>') :
    RE.run (RE.chr (· == '\n') :: RE.star reSpace true :: RE.lit "-->") prev (b ++ Y) pos =
      none := by
  cases hr : RE.run (RE.chr (· == '\n') :: RE.star reSpace true :: RE.lit "-->") prev
      (b ++ Y) pos with
  | none => rfl
  | some r =>
    exfalso
    obtain ⟨c, cs, e0, hc, h1⟩ := RE_run_chr_some _ _ _ _ _ _ hr
    simp only [beq_iff_eq] at hc
    subst hc
    rw [RE_run_star_greedy] at h1
    obtain ⟨ws, rest, prev', e, hws, hk⟩ := starGreedy_decomp _ _ _ _ _ _ h1
    obtain ⟨t, ht⟩ := RE_run_close_some _ _ _ _ hk
    apply no_close_inside ('\n' :: ws) b Y (by
      intro x hx
      rcases List.mem_cons.mp hx with ex | ex
      · rw [ex]; decide
      · exact hws x ex) hb hlast hclose hY
    rw [e0, e, ← ht]
    exact ⟨t, by simp⟩

theorem getLast?_suffix (a b : GoString) (hb : b ≠ []) :
    (a ++ b).getLast? = b.getLast? := by
  rw [List.getLast?_append, List.getLast?_eq_getLast _ hb]
  rfl

/-! ## The match of a directive comment -/

/-- The pattern of directives matches the comment `<!-- _key: value -->` as a whole,
with the key and the value as its groups. -/
theorem RE_run_directive (w0 : Char) (ws : GoString) (v0 : Char) (vs B : GoString)
    (hw0 : reWord w0 = true) (hws : ∀ c ∈ ws, reWord c = true)
    (hnl : '\n' ∉ v0 :: vs) (hhead : reSpace v0 = false)
    (hlast : ∀ c ∈ (v0 :: vs).getLast?, reSpace c = false)
    (hclose : ¬ "-->".toList <:+: v0 :: vs) (prev : Option Char) :
    RE.run reDirective prev
      ('<' :: '!' :: '-' :: '-' :: ' ' :: '_' :: w0 :: (ws ++ ':' :: ' ' :: v0 ::
        (vs ++ ' ' :: '-' :: '-' :: '>' :: B))) 0 =
      some ([5, 7 + ws.length, 9 + ws.length, 10 + ws.length + vs.length],
        14 + ws.length + vs.length) := by
  have s17 : ∀ prev pos, RE.run (reDirective.drop 17) prev
      (' ' :: '-' :: '-' :: '>' :: B) pos = some ([], pos + 1 + 3) := by
    intro prev pos
    rw [show reDirective.drop 17 = RE.star reSpace true :: RE.lit "-->" from rfl]
    exact RE_run_space_close prev [' '] B pos (by simp [reSpace])
  have s16 : ∀ prev pos, RE.run (reDirective.drop 16) prev
      (' ' :: '-' :: '-' :: '>' :: B) pos = some ([pos], pos + 1 + 3) := by
    intro prev pos
    rw [show reDirective.drop 16 = RE.closeGroup :: reDirective.drop 17 from rfl,
      RE_run_closeGroup, s17]
    rfl
  have f16 : ∀ prev pos (b : GoString), b ≠ [] → (∀ c ∈ b.getLast?, reSpace c = false) →
      ¬ "-->".toList <:+: b →
      RE.run (reDirective.drop 16) prev (b ++ ' ' :: '-' :: '-' :: '>' :: B) pos = none := by
    intro prev pos b hb hl hc
    rw [show reDirective.drop 16 =
        RE.closeGroup :: RE.star reSpace true :: RE.lit "-->" from rfl,
      RE_run_closeGroup, RE_run_space_close_none prev b _ pos hb hl hc (by
        intro y hy
        simp only [List.head?_cons, Option.mem_def, Option.some.injEq] at hy
        subst hy
        exact ⟨by decide, by decide⟩)]
    rfl
  have s15 : ∀ prev pos, RE.run (reDirective.drop 15) prev
      (vs ++ ' ' :: '-' :: '-' :: '>' :: B) pos =
        some ([pos + vs.length], pos + vs.length + 1 + 3) := by
    intro prev pos
    rw [show reDirective.drop 15 = RE.star reDot false :: reDirective.drop 16 from rfl,
      RE_run_star_lazy]
    refine starLazy_run _ _ _ vs _ pos _ ?_ ?_ (fun prev' => s16 prev' _)
    · intro c hc
      have : c ≠ '\n' := fun e => hnl (by rw [← e]; simp [hc])
      simp [reDot, this]
    · intro a b e hb prev'
      apply f16 _ _ b hb
      · intro c hc
        apply hlast c
        rw [e, ← List.cons_append, getLast?_suffix _ b hb]
        exact hc
      · intro hin
        apply hclose
        rw [e]
        exact hin.trans ((List.suffix_append a b).isInfix.trans
          (List.suffix_cons v0 _).isInfix)
  have hv0 : reDot v0 = true := by
    have : v0 ≠ '\n' := fun e => hnl (by rw [e]; simp)
    simp [reDot, this]
  have s13 : ∀ prev pos, RE.run (reDirective.drop 13) prev
      (v0 :: (vs ++ ' ' :: '-' :: '-' :: '>' :: B)) pos =
        some ([pos, pos + 1 + vs.length], pos + 1 + vs.length + 1 + 3) := by
    intro prev pos
    rw [show reDirective.drop 13 =
        RE.openGroup :: RE.chr reDot :: reDirective.drop 15 from rfl,
      RE_run_openGroup, RE_run_chr_cons _ _ _ _ _ _ hv0, s15]
    rfl
  have s12 : ∀ prev pos, RE.run (reDirective.drop 12) prev
      (' ' :: v0 :: (vs ++ ' ' :: '-' :: '-' :: '>' :: B)) pos =
        some ([pos + 1, pos + 1 + 1 + vs.length], pos + 1 + 1 + vs.length + 1 + 3) := by
    intro prev pos
    rw [show reDirective.drop 12 = RE.star reSpace true :: reDirective.drop 13 from rfl,
      RE_run_star_greedy]
    exact starGreedy_run _ _ _ [' '] _ pos _ (by simp [reSpace])
      (by intro c hc
          simp only [List.head?_cons, Option.mem_def, Option.some.injEq] at hc
          subst hc; exact hhead)
      (fun prev' => s13 prev' _)
  have s10 : ∀ prev pos, RE.run (reDirective.drop 10) prev
      (':' :: ' ' :: v0 :: (vs ++ ' ' :: '-' :: '-' :: '>' :: B)) pos =
        some ([pos + 1 + 1, pos + 1 + 1 + 1 + vs.length],
          pos + 1 + 1 + 1 + vs.length + 1 + 3) := by
    intro prev pos
    rw [show reDirective.drop 10 =
        RE.star reSpace true :: RE.chr (· == ':') :: reDirective.drop 12 from rfl,
      RE_run_star_greedy, starGreedy_stop _ _ _ _ _ (by
        intro c hc
        simp only [List.head?_cons, Option.mem_def, Option.some.injEq] at hc
        subst hc; decide),
      RE_run_chr_cons _ _ _ _ _ _ (by decide), s12]
  have s8 : ∀ prev pos, RE.run (reDirective.drop 8) prev
      (ws ++ ':' :: ' ' :: v0 :: (vs ++ ' ' :: '-' :: '-' :: '>' :: B)) pos =
        some ([pos + ws.length, pos + ws.length + 1 + 1,
            pos + ws.length + 1 + 1 + 1 + vs.length],
          pos + ws.length + 1 + 1 + 1 + vs.length + 1 + 3) := by
    intro prev pos
    rw [show reDirective.drop 8 =
        RE.star reWord true :: RE.closeGroup :: reDirective.drop 10 from rfl,
      RE_run_star_greedy]
    refine starGreedy_run _ _ _ ws _ pos _ hws (by
        intro c hc
        simp only [List.head?_cons, Option.mem_def, Option.some.injEq] at hc
        subst hc; decide) ?_
    intro prev'
    rw [RE_run_closeGroup, s10]
    rfl
  rw [show reDirective = RE.chr (· == '<') :: RE.chr (· == '!') :: RE.chr (· == '-') ::
      RE.chr (· == '-') :: RE.star reSpace true :: RE.openGroup :: RE.chr (· == '_') ::
      RE.chr reWord :: reDirective.drop 8 from rfl,
    RE_run_chr_cons _ _ _ _ _ _ (by decide), RE_run_chr_cons _ _ _ _ _ _ (by decide),
    RE_run_chr_cons _ _ _ _ _ _ (by decide), RE_run_chr_cons _ _ _ _ _ _ (by decide),
    RE_run_star_greedy]
  have s5 : ∀ prev pos, RE.run (RE.openGroup :: RE.chr (· == '_') :: RE.chr reWord ::
      reDirective.drop 8) prev
      ('_' :: w0 :: (ws ++ ':' :: ' ' :: v0 :: (vs ++ ' ' :: '-' :: '-' :: '>' :: B))) pos =
        some ([pos, pos + 1 + 1 + ws.length, pos + 1 + 1 + ws.length + 1 + 1,
            pos + 1 + 1 + ws.length + 1 + 1 + 1 + vs.length],
          pos + 1 + 1 + ws.length + 1 + 1 + 1 + vs.length + 1 + 3) := by
    intro prev pos
    rw [RE_run_openGroup, RE_run_chr_cons _ _ _ _ _ _ (by decide),
      RE_run_chr_cons _ _ _ _ _ _ hw0, s8]
    rfl
  refine (starGreedy_run _ _ _ [' '] _ _ _ (by simp [reSpace])
      (by intro c hc
          simp only [List.head?_cons, Option.mem_def, Option.some.injEq] at hc
          subst hc; decide)
      (fun prev' => s5 prev' _)).trans ?_
  simp only [List.length_cons, List.length_nil, Option.some.injEq, Prod.mk.injEq,
    List.cons.injEq, and_true]
  refine ⟨⟨trivial, trivial, ?_, ?_⟩, ?_⟩ <;> omega

/-! ## `parseRawSlide` on a directive comment -/

theorem group_of_parts (X K Y : GoString) :
    ((X ++ (K ++ Y)).drop X.length).take (X.length + K.length - X.length) = K := by
  rw [List.drop_left, Nat.add_sub_cancel_left, List.take_left]

/-- In a text without `<!--` neither pattern of `parseRawSlide` finds a match, and
nothing is removed. -/
theorem search_without_open (re k : List RE) (hre : re = RE.lit "<!--" ++ k) (s : GoString)
    (h : ∀ t, t <:+ s → HasPrefix t "<!--".toList = false) (prev : Option Char) :
    findAllFrom re prev s 0 = [] ∧ removeAllFrom re prev s 0 = s := by
  have hnone : ∀ prev t' pos, t' <:+ s → RE.run re prev t' pos = none := by
    intro prev t' pos ht
    cases hr : RE.run re prev t' pos with
    | none => rfl
    | some r =>
      rw [hre] at hr
      have := RE_run_needs_open k prev t' pos r hr
      rw [h t' ht] at this
      exact absurd this (by decide)
  exact ⟨findAllFrom_none re s hnone prev, removeAllFrom_none re s hnone prev⟩

/-- A plain pattern that ends with the literal `-->` matches only in a text that
contains `-->`. -/
theorem RE_run_needs_close (items : List RE) (hplain : items.all RE.isPlain = true)
    (prev : Option Char) (s : GoString) (pos : Nat) (r : List Nat × Nat)
    (h : RE.run (items ++ RE.lit "-->") prev s pos = some r) : "-->".toList <:+: s := by
  induction items generalizing prev s pos r with
  | nil => exact (RE_run_close_some prev s pos r h).isInfix
  | cons item k ih =>
    simp only [List.all_cons, Bool.and_eq_true] at hplain
    have ihk := ih hplain.2
    rw [List.cons_append] at h
    cases item with
    | chr p =>
      obtain ⟨c, cs, e, _, h1⟩ := RE_run_chr_some _ _ _ _ _ _ h
      rw [e]
      exact (ihk _ _ _ _ h1).trans (List.suffix_cons c cs).isInfix
    | star p greedy =>
      cases greedy with
      | true =>
        rw [RE_run_star_greedy] at h
        obtain ⟨ws, rest, prev', e, _, hk⟩ := starGreedy_decomp _ _ _ _ _ _ h
        rw [e]
        exact (ihk _ _ _ _ hk).trans (List.suffix_append ws rest).isInfix
      | false =>
        rw [RE_run_star_lazy] at h
        obtain ⟨ws, rest, prev', e, _, hk⟩ := starLazy_decomp _ _ _ _ _ _ h
        rw [e]
        exact (ihk _ _ _ _ hk).trans (List.suffix_append ws rest).isInfix
    | opt p =>
      simp only [RE.run] at h
      split at h
      · next c cs =>
        split_ifs at h
        · split at h
          · next r' hr =>
            exact (ihk _ _ _ _ hr).trans (List.suffix_cons c cs).isInfix
          · exact ihk _ _ _ _ h
        · exact ihk _ _ _ _ h
      · exact ihk _ _ _ _ h
    | openGroup =>
      rw [RE_run_openGroup] at h
      cases hr : RE.run (k ++ RE.lit "-->") prev s pos with
      | none => rw [hr] at h; exact absurd h (by simp)
      | some r' => exact ihk _ _ _ _ hr
    | closeGroup =>
      rw [RE_run_closeGroup] at h
      cases hr : RE.run (k ++ RE.lit "-->") prev s pos with
      | none => rw [hr] at h; exact absurd h (by simp)
      | some r' => exact ihk _ _ _ _ hr
    | alt ws => simp [RE.isPlain] at hplain
    | wordBoundary => simp [RE.isPlain] at hplain
    | bot => simp [RE.isPlain] at hplain
    | eot => simp [RE.isPlain] at hplain

theorem RE_run_open_some (k : List RE) (prev : Option Char) (s : GoString) (pos : Nat)
    (r : List Nat × Nat) (h : RE.run (RE.lit "<!--" ++ k) prev s pos = some r) :
    ∃ s4 prev', s = "<!--".toList ++ s4 ∧ RE.run k prev' s4 (pos + 1 + 1 + 1 + 1) = some r := by
  have e : RE.lit "<!--" ++ k = RE.chr (· == '<') :: RE.chr (· == '!') ::
      RE.chr (· == '-') :: RE.chr (· == '-') :: k := rfl
  rw [e] at h
  obtain ⟨c1, s1, e1, p1, h1⟩ := RE_run_chr_some _ _ _ _ _ _ h
  obtain ⟨c2, s2, e2, p2, h2⟩ := RE_run_chr_some _ _ _ _ _ _ h1
  obtain ⟨c3, s3, e3, p3, h3⟩ := RE_run_chr_some _ _ _ _ _ _ h2
  obtain ⟨c4, s4, e4, p4, h4⟩ := RE_run_chr_some _ _ _ _ _ _ h3
  simp only [beq_iff_eq] at p1 p2 p3 p4
  subst e1 e2 e3 e4 p1 p2 p3 p4
  exact ⟨s4, _, rfl, h4⟩

/-- In a text without a comment (`<!--` followed somewhere by `-->`) neither pattern
of `parseRawSlide` finds a match, and nothing is removed. -/
theorem search_without_comment (re mid : List RE)
    (hre : re = RE.lit "<!--" ++ (mid ++ RE.lit "-->")) (hplain : mid.all RE.isPlain = true)
    (s : GoString)
    (h : ∀ X Y Z, s ≠ X ++ "<!--".toList ++ Y ++ "-->".toList ++ Z) (prev : Option Char) :
    findAllFrom re prev s 0 = [] ∧ removeAllFrom re prev s 0 = s := by
  have hnone : ∀ prev t' pos, t' <:+ s → RE.run re prev t' pos = none := by
    intro prev t' pos ht
    cases hr : RE.run re prev t' pos with
    | none => rfl
    | some r =>
      exfalso
      rw [hre] at hr
      obtain ⟨s4, prev', e4, h4⟩ := RE_run_open_some _ prev t' pos r hr
      obtain ⟨Y, Z, eYZ⟩ := RE_run_needs_close mid hplain _ _ _ _ h4
      obtain ⟨X, eX⟩ := ht
      apply h X Y Z
      rw [← eX, e4, ← eYZ]
      simp
  exact ⟨findAllFrom_none re s hnone prev, removeAllFrom_none re s hnone prev⟩

theorem reDirective_parts : reDirective =
    RE.lit "<!--" ++ ((reDirective.drop 4).take 14 ++ RE.lit "-->") ∧
    ((reDirective.drop 4).take 14).all RE.isPlain = true := ⟨rfl, rfl⟩

theorem reNoteBlock_parts : reNoteBlock =
    RE.lit "<!--" ++ ((reNoteBlock.drop 4).take 7 ++ RE.lit "-->") ∧
    ((reNoteBlock.drop 4).take 7).all RE.isPlain = true := ⟨rfl, rfl⟩

theorem no_comment_cons_newline (R : GoString)
    (h : ∀ X Y Z, R ≠ X ++ "<!--".toList ++ Y ++ "-->".toList ++ Z) :
    ∀ X Y Z, '\n' :: R ≠ X ++ "<!--".toList ++ Y ++ "-->".toList ++ Z := by
  intro X Y Z e
  cases X with
  | nil =>
    have e' : "<!--".toList = ['<', '!', '-', '-'] := rfl
    rw [e'] at e
    simp at e
  | cons x X' =>
    simp only [List.cons_append, List.cons.injEq] at e
    exact h X' Y Z (by rw [e.2])

theorem no_comment_of_no_open (R : GoString) (h : ¬ "<!--".toList <:+: R) :
    ∀ X Y Z, R ≠ X ++ "<!--".toList ++ Y ++ "-->".toList ++ Z := by
  intro X Y Z e
  exact h ⟨X, Y ++ "-->".toList ++ Z, by rw [e]; simp⟩

theorem reDirective_open : reDirective = RE.lit "<!--" ++ reDirective.drop 4 := rfl

theorem reNoteBlock_open : reNoteBlock = RE.lit "<!--" ++ reNoteBlock.drop 4 := rfl

/-- The function `parseRawSlide` on a text in which neither pattern matches. -/
theorem parseRawSlide_of_searches (raw rest : GoString) (ms : List (List GoString))
    (d : GoMap)
    (h1 : FindAllStringSubmatch reDirective raw = ms)
    (hd : ms.foldlM (fun (directives : GoMap) m =>
      (index m 1).bind fun key =>
      (index m 2).bind fun value =>
        some (mapSet directives key value)) [] = some d)
    (h2 : ReplaceAllString reDirective raw = rest)
    (h3 : FindAllStringSubmatch reNoteBlock rest = [])
    (h4 : ReplaceAllString reNoteBlock rest = rest) :
    parseRawSlide raw =
      some { directives := d, notes := [], content := TrimSpace rest, rawContent := raw } := by
  unfold parseRawSlide
  simp only [h1, hd, h2, h3, h4, Option.some_bind, List.foldlM_nil, Option.pure_def]

/-- C19: for every key made of an underscore and at least one word character, every
non-empty single-line value without surrounding white space that does not contain
`-->`, and every remaining text without an HTML comment (no `<!--` that is followed
somewhere by `-->`), `parseRawSlide` on the directive
comment `<!-- key: value -->` followed by a newline and the remaining text records
the value under the key, as the only directive, records no note, and returns as
content the remaining text with surrounding white space trimmed. -/
theorem parseRawSlide_directive (w v R : GoString)
    (hw : w ≠ []) (hword : ∀ c ∈ w, reWord c = true)
    (hv : v ≠ []) (hnl : '\n' ∉ v) (htrim : TrimSpace v = v)
    (hclose : ¬ "-->".toList <:+: v)
    (hR : ∀ X Y Z, R ≠ X ++ "<!--".toList ++ Y ++ "-->".toList ++ Z) :
    parseRawSlide ("<!-- ".toList ++ ('_' :: w) ++ ": ".toList ++ v ++ " -->\n".toList ++ R) =
      some { directives := [('_' :: w, v)], notes := [], content := TrimSpace R,
             rawContent :=
               "<!-- ".toList ++ ('_' :: w) ++ ": ".toList ++ v ++ " -->\n".toList ++ R } ∧
    mapIndex [('_' :: w, v)] ('_' :: w) = v := by
  obtain ⟨w0, ws, ew⟩ := List.exists_cons_of_ne_nil hw
  obtain ⟨v0, vs, ev⟩ := List.exists_cons_of_ne_nil hv
  obtain ⟨hhead, hlast⟩ := trimmed_ends v hv htrim
  subst ew ev
  have hplain : reDirective.all RE.isPlain = true := reDirective_shape.1
  -- the text as the comment followed by the rest
  have eT : "<!-- ".toList ++ ('_' :: w0 :: ws) ++ ": ".toList ++ (v0 :: vs) ++
      " -->\n".toList ++ R =
      [] ++ (("<!-- ".toList ++ (('_' :: w0 :: ws) ++ (": ".toList ++
        ((v0 :: vs) ++ " -->".toList)))) ++ ('\n' :: R)) := by
    simp
  have eM : ("<!-- ".toList ++ (('_' :: w0 :: ws) ++ (": ".toList ++
        ((v0 :: vs) ++ " -->".toList)))) ++ ('\n' :: R) =
      '<' :: '!' :: '-' :: '-' :: ' ' :: '_' :: w0 :: (ws ++ ':' :: ' ' :: v0 ::
        (vs ++ ' ' :: '-' :: '-' :: '>' :: '\n' :: R)) := by
    simp
  have eLen : ("<!-- ".toList ++ (('_' :: w0 :: ws) ++ (": ".toList ++
        ((v0 :: vs) ++ " -->".toList)))).length = 14 + ws.length + vs.length := by
    simp
    omega
  have hM := RE_run_directive w0 ws v0 vs ('\n' :: R) (hword w0 (by simp))
    (fun c hc => hword c (by simp [hc])) hnl (hhead v0 (by simp)) hlast hclose none
  rw [← eM, ← eLen] at hM
  have hB := no_comment_cons_newline R hR
  have hfind := findAllFrom_match_at reDirective hplain [] _ ('\n' :: R) _
    (by intro A1 A2 e hne; exact absurd (List.append_eq_nil.mp e.symm).2 hne) hM
    (by simp) none
  have hrem := removeAllFrom_match_at reDirective hplain [] _ ('\n' :: R) _
    (by intro A1 A2 e hne; exact absurd (List.append_eq_nil.mp e.symm).2 hne) hM
    (by simp) none
  obtain ⟨hd1, hd2⟩ := search_without_comment reDirective _ reDirective_parts.1
    reDirective_parts.2 _ hB none
  obtain ⟨hn1, hn2⟩ := search_without_comment reNoteBlock _ reNoteBlock_parts.1
    reNoteBlock_parts.2 _ hB none
  rw [hd1] at hfind
  rw [hd2] at hrem
  have hsub : submatches (("<!-- ".toList ++ (('_' :: w0 :: ws) ++ (": ".toList ++
        ((v0 :: vs) ++ " -->".toList)))) ++ ('\n' :: R))
      [5, 7 + ws.length, 9 + ws.length, 10 + ws.length + vs.length]
      ("<!-- ".toList ++ (('_' :: w0 :: ws) ++ (": ".toList ++
        ((v0 :: vs) ++ " -->".toList)))).length =
      ["<!-- ".toList ++ (('_' :: w0 :: ws) ++ (": ".toList ++
        ((v0 :: vs) ++ " -->".toList))), '_' :: w0 :: ws, v0 :: vs] := by
    simp only [submatches, submatches.groups, List.take_left]
    have g1 := group_of_parts "<!-- ".toList ('_' :: w0 :: ws)
      (": ".toList ++ ((v0 :: vs) ++ " -->".toList) ++ ('\n' :: R))
    have g2 := group_of_parts ("<!-- ".toList ++ ('_' :: w0 :: ws) ++ ": ".toList) (v0 :: vs)
      (" -->".toList ++ ('\n' :: R))
    have l1 : "<!-- ".toList.length = 5 := rfl
    have l2 : "<!-- ".toList.length + ('_' :: w0 :: ws).length = 7 + ws.length := by
      simp only [l1, List.length_cons]
      omega
    have l3 : ("<!-- ".toList ++ ('_' :: w0 :: ws) ++ ": ".toList).length = 9 + ws.length := by
      simp
      omega
    have l4 : ("<!-- ".toList ++ ('_' :: w0 :: ws) ++ ": ".toList).length + (v0 :: vs).length =
        10 + ws.length + vs.length := by
      simp
      omega
    rw [l2, l1] at g1
    rw [l4, l3] at g2
    simp only [List.append_assoc] at g1 g2 ⊢
    rw [g1, g2]
  rw [hsub] at hfind
  constructor
  · rw [eT]
    refine (parseRawSlide_of_searches _ ('\n' :: R) _ [('_' :: w0 :: ws, v0 :: vs)]
      hfind ?_ ?_ hn1 hn2).trans ?_
    · simp [index, mapSet]
    · exact hrem
    · rw [TrimSpace_cons_space '\n' R (by decide)]
  · simp [mapIndex, mapGet]

/-- The directive of the fragment `<!-- _class: section-divider -->` with a title
below it. -/
theorem parseRawSlide_directive_witness :
    parseRawSlide rawDirective =
      some { directives := [("_class".toList, "section-divider".toList)], notes := [],
             content := "# Title".toList, rawContent := rawDirective } ∧
    mapIndex [("_class".toList, "section-divider".toList)] "_class".toList =
      "section-divider".toList :=
  parseRawSlide_directive "class".toList "section-divider".toList "# Title".toList
    (by decide) (by decide) (by decide) (by decide) (by decide) (by decide)
    (no_comment_of_no_open _ (by decide))

/-! ## `parseRawSlide` on a multi-line comment with a script -/

theorem suffix_append_cases (A X t : GoString) (h : t <:+ A ++ X) :
    (∃ A1 A2, A = A1 ++ A2 ∧ A2 ≠ [] ∧ t = A2 ++ X) ∨ t <:+ X := by
  induction A with
  | nil => exact Or.inr (by simpa using h)
  | cons a A' ih =>
    rw [List.cons_append, List.suffix_cons_iff] at h
    rcases h with e | h
    · exact Or.inl ⟨[], a :: A', rfl, by simp, by rw [e]; rfl⟩
    · rcases ih h with ⟨A1, A2, e, hne, ht⟩ | h'
      · exact Or.inl ⟨a :: A1, A2, by rw [e]; rfl, hne, ht⟩
      · exact Or.inr h'

/-- The pattern of directives does not match a comment whose text begins on the line
after `<!--` with a character that is neither white space nor an underscore. -/
theorem RE_run_directive_none (b0 : Char) (rest : GoString) (hsp : reSpace b0 = false)
    (hkey : b0 ≠ '_') (prev : Option Char) (pos : Nat) :
    RE.run reDirective prev ('<' :: '!' :: '-' :: '-' :: '\n' :: b0 :: rest) pos = none := by
  rw [show reDirective = RE.chr (· == '<') :: RE.chr (· == '!') :: RE.chr (· == '-') ::
      RE.chr (· == '-') :: RE.star reSpace true :: RE.openGroup :: RE.chr (· == '_') ::
      RE.chr reWord :: reDirective.drop 8 from rfl,
    RE_run_chr_cons _ _ _ _ _ _ (by decide), RE_run_chr_cons _ _ _ _ _ _ (by decide),
    RE_run_chr_cons _ _ _ _ _ _ (by decide), RE_run_chr_cons _ _ _ _ _ _ (by decide),
    RE_run_star_greedy]
  cases hr : starGreedy reSpace (RE.run (RE.openGroup :: RE.chr (· == '_') ::
      RE.chr reWord :: reDirective.drop 8)) (some '-') ('\n' :: b0 :: rest)
      (pos + 1 + 1 + 1 + 1) with
  | none => rfl
  | some r =>
    exfalso
    obtain ⟨ws, tl, prev', e, hws, hk⟩ := starGreedy_decomp _ _ _ _ _ _ hr
    rw [RE_run_openGroup] at hk
    cases hk' : RE.run (RE.chr (· == '_') :: RE.chr reWord :: reDirective.drop 8) prev' tl
        (pos + 1 + 1 + 1 + 1 + ws.length) with
    | none => rw [hk'] at hk; exact absurd hk (by simp)
    | some r' =>
      obtain ⟨c, cs, ec, hc, _⟩ := RE_run_chr_some _ _ _ _ _ _ hk'
      simp only [beq_iff_eq] at hc
      subst hc ec
      match ws, hws, e with
      | [], _, e => simp at e
      | [x], _, e =>
        simp only [List.singleton_append, List.cons.injEq] at e
        exact hkey e.2.1
      | x :: y :: ws', hws, e =>
        simp only [List.cons_append, List.cons.injEq] at e
        have := hws y (by simp)
        rw [← e.2.1, hsp] at this
        exact absurd this (by decide)

/-- The pattern of notes matches the comment `<!--`, newline, body, newline, `-->` as
a whole, with the body as its group, when the body has no surrounding white space and
no `-->`. -/
theorem RE_run_noteBlock (b0 : Char) (bs B : GoString) (hsp : reSpace b0 = false)
    (hlast : ∀ c ∈ (b0 :: bs).getLast?, reSpace c = false)
    (hclose : ¬ "-->".toList <:+: b0 :: bs) (prev : Option Char) :
    RE.run reNoteBlock prev
      ('<' :: '!' :: '-' :: '-' :: '\n' :: ((b0 :: bs) ++ '\n' :: '-' :: '-' :: '>' :: B)) 0 =
      some ([5, 5 + (b0 :: bs).length], 5 + (b0 :: bs).length + 4) := by
  have s8 : ∀ prev pos, RE.run (reNoteBlock.drop 8) prev
      ('\n' :: '-' :: '-' :: '>' :: B) pos = some ([pos], pos + 1 + 0 + 3) := by
    intro prev pos
    rw [show reNoteBlock.drop 8 = RE.closeGroup :: RE.chr (· == '\n') ::
        RE.star reSpace true :: RE.lit "-->" from rfl,
      RE_run_closeGroup, RE_run_chr_cons _ _ _ _ _ _ (by decide)]
    have := RE_run_space_close (some '\n') [] B (pos + 1) (by simp)
    simp only [List.nil_append, List.length_nil] at this
    rw [this]
    rfl
  have f8 : ∀ prev pos (b : GoString), b ≠ [] → (∀ c ∈ b.getLast?, reSpace c = false) →
      ¬ "-->".toList <:+: b →
      RE.run (reNoteBlock.drop 8) prev (b ++ '\n' :: '-' :: '-' :: '>' :: B) pos = none := by
    intro prev pos b hb hl hc
    rw [show reNoteBlock.drop 8 = RE.closeGroup :: RE.chr (· == '\n') ::
        RE.star reSpace true :: RE.lit "-->" from rfl,
      RE_run_closeGroup, RE_run_newline_close_none prev b _ pos hb hl hc (by
        intro y hy
        simp only [List.head?_cons, Option.mem_def, Option.some.injEq] at hy
        subst hy
        exact ⟨by decide, by decide⟩)]
    rfl
  have s6 : ∀ prev pos, RE.run (reNoteBlock.drop 6) prev
      ((b0 :: bs) ++ '\n' :: '-' :: '-' :: '>' :: B) pos =
        some ([pos, pos + (b0 :: bs).length], pos + (b0 :: bs).length + 1 + 0 + 3) := by
    intro prev pos
    rw [show reNoteBlock.drop 6 = RE.openGroup :: RE.star reAny false ::
        reNoteBlock.drop 8 from rfl, RE_run_openGroup, RE_run_star_lazy]
    rw [starLazy_run reAny _ _ (b0 :: bs) _ pos _ (fun _ _ => rfl) ?_ (fun prev' => s8 prev' _)]
    · rfl
    · intro a b e hb prev'
      apply f8 _ _ b hb
      · intro c hc
        apply hlast c
        rw [e, getLast?_suffix _ b hb]
        exact hc
      · intro hin
        apply hclose
        rw [e]
        exact hin.trans (List.suffix_append a b).isInfix
  rw [show reNoteBlock = RE.chr (· == '<') :: RE.chr (· == '!') :: RE.chr (· == '-') ::
      RE.chr (· == '-') :: RE.star reSpace true :: RE.chr (· == '\n') ::
      reNoteBlock.drop 6 from rfl,
    RE_run_chr_cons _ _ _ _ _ _ (by decide), RE_run_chr_cons _ _ _ _ _ _ (by decide),
    RE_run_chr_cons _ _ _ _ _ _ (by decide), RE_run_chr_cons _ _ _ _ _ _ (by decide),
    RE_run_star_greedy]
  refine (starGreedy_give_back reSpace _ _ '\n' _ _
      ([0 + 1 + 1 + 1 + 1 + 1, 0 + 1 + 1 + 1 + 1 + 1 + (b0 :: bs).length],
        0 + 1 + 1 + 1 + 1 + 1 + (b0 :: bs).length + 1 + 0 + 3) ?_ ?_ ?_).trans ?_
  · intro c hc
    simp only [List.cons_append, List.head?_cons, Option.mem_def, Option.some.injEq] at hc
    subst hc
    exact hsp
  · rw [List.cons_append]
    apply RE_run_chr_none
    intro c hc
    simp only [List.head?_cons, Option.mem_def, Option.some.injEq] at hc
    subst hc
    cases hb : (b0 == '\n') with
    | false => rfl
    | true =>
      have : b0 = '\n' := by simpa using hb
      rw [this] at hsp
      exact absurd hsp (by decide)
  · rw [RE_run_chr_cons _ _ _ _ _ _ (by decide)]
    exact s6 _ _
  · simp only [Option.some.injEq, Prod.mk.injEq, List.cons.injEq, and_true]

/-- A text with a single comment, whose body has no `<!--`, has no `<!--` after the
opening mark of the comment. -/
theorem no_open_in_comment (body B : GoString)
    (hbody : ¬ "<!--".toList <:+: body) (hB : ¬ "<!--".toList <:+: B) :
    ∀ t, t <:+ '!' :: '-' :: '-' :: '\n' :: (body ++ '\n' :: '-' :: '-' :: '>' :: B) →
      HasPrefix t "<!--".toList = false := by
  have h1 : ∀ t, t <:+ '\n' :: '-' :: '-' :: '>' :: B → HasPrefix t "<!--".toList = false :=
    no_open_append_plain ['\n', '-', '-', '>'] B (by decide) (no_open_of_absent B hB)
  have h2 : ∀ t, t <:+ body ++ '\n' :: '-' :: '-' :: '>' :: B →
      HasPrefix t "<!--".toList = false :=
    no_open_append body _ (no_open_of_absent body hbody) h1 (by
      intro y hy
      simp only [List.head?_cons, Option.mem_def, Option.some.injEq] at hy
      subst hy
      exact ⟨by decide, by decide⟩)
  exact no_open_append_plain ['!', '-', '-', '\n'] _ (by decide) h2

theorem Contains_of_occurs (s sub : GoString) (h : sub <:+: s) : Contains s sub = true :=
  (Contains_iff_occurs s sub).mpr h

/-- C20 (amended): for every raw fragment made of a text, a multi-line comment
(`<!--`, newline, body, newline, `-->`) and a text, where neither text nor the body
contains `<!--`, and the body contains `<script`, has no surrounding white space,
contains no `-->` and does not begin with an underscore, `parseRawSlide` records no
directive and no speaker note, and deletes the comment: the content is what is
around the comment, with surrounding white space trimmed. -/
theorem parseRawSlide_script_comment (A body B : GoString)
    (hA : ¬ "<!--".toList <:+: A) (hB : ¬ "<!--".toList <:+: B)
    (hopen : ¬ "<!--".toList <:+: body) (hclose : ¬ "-->".toList <:+: body)
    (htrim : TrimSpace body = body) (hkey : ∀ c ∈ body.head?, c ≠ '_')
    (hscript : "<script".toList <:+: body) :
    parseRawSlide (A ++ "<!--\n".toList ++ body ++ "\n-->".toList ++ B) =
      some { directives := [], notes := [], content := TrimSpace (A ++ B),
             rawContent := A ++ "<!--\n".toList ++ body ++ "\n-->".toList ++ B } := by
  have hne : body ≠ [] := by
    intro e
    rw [e] at hscript
    exact absurd hscript (by decide)
  obtain ⟨b0, bs, eb⟩ := List.exists_cons_of_ne_nil hne
  obtain ⟨hhead, hlast⟩ := trimmed_ends body hne htrim
  subst eb
  have hsp : reSpace b0 = false := hhead b0 (by simp)
  have eT : A ++ "<!--\n".toList ++ (b0 :: bs) ++ "\n-->".toList ++ B =
      A ++ (("<!--\n".toList ++ ((b0 :: bs) ++ "\n-->".toList)) ++ B) := by
    simp
  have eM : ("<!--\n".toList ++ ((b0 :: bs) ++ "\n-->".toList)) ++ B =
      '<' :: '!' :: '-' :: '-' :: '\n' :: ((b0 :: bs) ++ '\n' :: '-' :: '-' :: '>' :: B) := by
    simp
  have eLen : ("<!--\n".toList ++ ((b0 :: bs) ++ "\n-->".toList)).length =
      5 + (b0 :: bs).length + 4 := by
    simp
    omega
  have hAt : ∀ A1 A2, A = A1 ++ A2 → A2 ≠ [] →
      HasPrefix (A2 ++ (("<!--\n".toList ++ ((b0 :: bs) ++ "\n-->".toList)) ++ B))
        "<!--".toList = false := by
    intro A1 A2 e hne2
    apply HasPrefix_open_append A2 _ hne2
    · exact no_open_of_absent A hA A2 (by rw [e]; exact List.suffix_append A1 A2)
    · rw [eM]
      intro y hy
      simp only [List.head?_cons, Option.mem_def, Option.some.injEq] at hy
      subst hy
      exact ⟨by decide, by decide⟩
  have hin := no_open_in_comment (b0 :: bs) B hopen hB
  -- the directive pattern matches nowhere
  have hdnone : ∀ prev t pos,
      t <:+ A ++ (("<!--\n".toList ++ ((b0 :: bs) ++ "\n-->".toList)) ++ B) →
      RE.run reDirective prev t pos = none := by
    intro prev t pos ht
    have hopenfail : HasPrefix t "<!--".toList = false → RE.run reDirective prev t pos = none := by
      intro hp
      cases hr : RE.run reDirective prev t pos with
      | none => rfl
      | some r =>
        rw [reDirective_open] at hr
        have := RE_run_needs_open _ prev t pos r hr
        rw [hp] at this
        exact absurd this (by decide)
    rcases suffix_append_cases A _ t ht with ⟨A1, A2, e, hne2, et⟩ | ht'
    · exact hopenfail (by rw [et]; exact hAt A1 A2 e hne2)
    · rw [eM, List.suffix_cons_iff] at ht'
      rcases ht' with e | ht''
      · rw [e]
        simp only [List.cons_append]
        exact RE_run_directive_none b0 _ hsp (hkey b0 (by simp)) prev pos
      · exact hopenfail (hin t ht'')
  have hd1 := findAllFrom_none reDirective _ hdnone none
  have hd2 := removeAllFrom_none reDirective _ hdnone none
  -- the note pattern matches the comment
  have hplain : reNoteBlock.all RE.isPlain = true := reNoteBlock_shape.1
  have hM := RE_run_noteBlock b0 bs B hsp hlast hclose none
  rw [← eM, show 5 + (b0 :: bs).length + 4 =
    ("<!--\n".toList ++ ((b0 :: bs) ++ "\n-->".toList)).length from eLen.symm] at hM
  have hAnone : ∀ A1 A2, A = A1 ++ A2 → A2 ≠ [] →
      RE.run reNoteBlock none
        (A2 ++ (("<!--\n".toList ++ ((b0 :: bs) ++ "\n-->".toList)) ++ B)) 0 = none := by
    intro A1 A2 e hne2
    cases hr : RE.run reNoteBlock none
        (A2 ++ (("<!--\n".toList ++ ((b0 :: bs) ++ "\n-->".toList)) ++ B)) 0 with
    | none => rfl
    | some r =>
      rw [reNoteBlock_open] at hr
      have := RE_run_needs_open _ none _ 0 r hr
      rw [hAt A1 A2 e hne2] at this
      exact absurd this (by decide)
  have hfind := findAllFrom_match_at reNoteBlock hplain A _ B _ hAnone hM (by simp) none
  have hrem := removeAllFrom_match_at reNoteBlock hplain A _ B _ hAnone hM (by simp) none
  obtain ⟨hn1, hn2⟩ := search_without_open reNoteBlock _ reNoteBlock_open B
    (no_open_of_absent B hB) none
  rw [hn1] at hfind
  rw [hn2] at hrem
  have hsub : submatches (("<!--\n".toList ++ ((b0 :: bs) ++ "\n-->".toList)) ++ B)
      [5, 5 + (b0 :: bs).length]
      ("<!--\n".toList ++ ((b0 :: bs) ++ "\n-->".toList)).length =
      ["<!--\n".toList ++ ((b0 :: bs) ++ "\n-->".toList), b0 :: bs] := by
    simp only [submatches, submatches.groups, List.take_left]
    have g1 := group_of_parts "<!--\n".toList (b0 :: bs) ("\n-->".toList ++ B)
    have l1 : "<!--\n".toList.length = 5 := rfl
    rw [l1] at g1
    simp only [List.append_assoc] at g1 ⊢
    rw [g1]
  rw [hsub] at hfind
  rw [eT]
  unfold parseRawSlide
  simp only [FindAllStringSubmatch, ReplaceAllString, hd1, hd2, hfind, hrem,
    List.foldlM_nil, List.foldlM_cons, Option.pure_def, Option.bind_eq_bind,
    Option.some_bind]
  have hidx : index ["<!--\n".toList ++ ((b0 :: bs) ++ "\n-->".toList), b0 :: bs] 1 =
      some (b0 :: bs) := by
    simp [index]
  rw [hidx]
  simp only [Option.some_bind]
  rw [if_pos (Contains_of_occurs _ _ hscript)]
  rfl

set_option maxRecDepth 100000 in
/-- In the sample the comment with the script, between a title and a paragraph, is
deleted and leaves no note. -/
theorem parseRawSlide_script_comment_witness :
    parseRawSlide rawScriptComment =
      some { directives := [], notes := [], content := "# Title\n\ntext".toList,
             rawContent := rawScriptComment } :=
  parseRawSlide_script_comment "# Title\n".toList "<script>\nalert(1)\n</script>".toList
    "\ntext".toList (by decide) (by decide) (by decide) (by decide) (by decide)
    (by intro c hc; cases hc; decide) (by decide)

set_option maxRecDepth 100000 in
/-- C20 as stated fails: the text of a multi-line comment with a script is not kept
in the content of the slide. -/
theorem parseRawSlide_script_comment_deleted_counterexample :
    (parseRawSlide "<!--\n<script>x</script>\n-->\n# T".toList).map
      (fun ps => (ps.notes, ps.content)) = some ([], "# T".toList) := by
  decide

/-! ## The TOON text of a diff -/

theorem foldl_append_map {α : Type} (f : α → GoString) (xs : List α) (b : GoString) :
    xs.foldl (fun b x => b ++ f x) b = b ++ (xs.map f).flatten := by
  induction xs generalizing b with
  | nil => simp
  | cons x xs ih => simp [ih, List.append_assoc]

theorem encodeChange_of_strings (c : Change) (h : c.stringValues = true) :
    NewTOONEncoder.encodeChange c =
      some (changeMarker c.Op ++ c.Path ++ "\n".toList ++ valueLine "- ".toList c.OldValue ++
        valueLine "+ ".toList c.NewValue) := by
  obtain ⟨op, path, sid, secid, old, new⟩ := c
  unfold Change.stringValues at h
  simp only [Bool.and_eq_true] at h
  have e2 : "  ".toList = [' ', ' '] := rfl
  rcases old with _ | (s | n | b | x | y | z) <;>
    rcases new with _ | (s' | n' | b' | x' | y' | z') <;>
    simp at h <;>
    simp [TOONEncoder.encodeChange, changeMarker, valueLine, NewTOONEncoder, GoValue.format,
      List.append_assoc, e2]

theorem foldlM_encodeChange (cs : List Change) (b : GoString)
    (h : ∀ c ∈ cs, c.stringValues = true) :
    cs.foldlM (fun b c => (NewTOONEncoder.encodeChange c).map fun t => b ++ t) b =
      some (b ++ (cs.map fun c =>
        changeMarker c.Op ++ c.Path ++ "\n".toList ++ valueLine "- ".toList c.OldValue ++
          valueLine "+ ".toList c.NewValue).flatten) := by
  induction cs generalizing b with
  | nil => simp
  | cons c rest ih =>
    rw [List.foldlM_cons, encodeChange_of_strings c (h c (by simp))]
    simp only [Option.map_some', Option.bind_eq_bind, Option.some_bind]
    rw [ih _ (fun x hx => h x (by simp [hx]))]
    simp [List.append_assoc]

/-- C30: the TOON text of a diff whose values are strings is the line `plan deck
<DeckID>` followed, for each change in order, by the marker of its operation (`+ `
add, `- ` remove, `~ ` update, `> ` move), its path and a newline, then the line
`  - <OldValue>` when the old value is set and the line `  + <NewValue>` when the new
value is set; a diff without changes is the line `plan deck <DeckID>` alone. -/
theorem EncodeDiff_text (d : Diff) (h : ∀ c ∈ d.Changes, c.stringValues = true) :
    NewTOONEncoder.EncodeDiff d =
        some ("plan deck ".toList ++ d.DeckID ++ "\n".toList ++
          (d.Changes.map fun c =>
            changeMarker c.Op ++ c.Path ++ "\n".toList ++ valueLine "- ".toList c.OldValue ++
              valueLine "+ ".toList c.NewValue).flatten) ∧
      changeMarker ChangeAdd = "+ ".toList ∧ changeMarker ChangeRemove = "- ".toList ∧
      changeMarker ChangeUpdate = "~ ".toList ∧ changeMarker ChangeMove = "> ".toList ∧
      (∀ sign s, valueLine sign (some (.str s)) = "  ".toList ++ sign ++ s ++ "\n".toList) ∧
      (∀ sign, valueLine sign none = []) ∧
      (d.Changes = [] →
        NewTOONEncoder.EncodeDiff d = some ("plan deck ".toList ++ d.DeckID ++ "\n".toList)) := by
  refine ⟨?_, by decide, by decide, by decide, by decide, fun _ _ => rfl, fun _ => rfl, ?_⟩
  · unfold TOONEncoder.EncodeDiff
    exact foldlM_encodeChange d.Changes _ h
  · intro he
    simp [TOONEncoder.EncodeDiff, he]

set_option maxRecDepth 100000 in
theorem EncodeDiff_text_witness :
    NewTOONEncoder.EncodeDiff sampleDiff =
      some ("plan deck deck123\n+ sections/0/slides/0\n  + new slide\n- sections/1/slides/2\n" ++
       "  - old slide\n~ sections/0/slides/0/title\n  - Old Title\n  + New Title\n" ++
       "> sections/0/slides/1\n  + sections/1/slides/0\n").toList :=
  ((EncodeDiff_text sampleDiff (by decide)).1).trans (by decide)

/-! ## The text of `Encode` and of `writeSlide` -/

theorem mapM_option_cons {α β : Type} (f : α → Option β) (x : α) (xs : List α) :
    (x :: xs).mapM f = (f x).bind fun y => (xs.mapM f).bind fun ys => some (y :: ys) := by
  rw [List.mapM_cons]
  rfl

theorem mapM_option_append {α β : Type} (f : α → Option β) (xs ys : List α) :
    (xs ++ ys).mapM f = (xs.mapM f).bind fun a => (ys.mapM f).bind fun b => some (a ++ b) := by
  rw [List.mapM_append]
  rfl

theorem mapM_option_length {α β : Type} (f : α → Option β) (xs : List α) (ys : List β)
    (h : xs.mapM f = some ys) : ys.length = xs.length := by
  induction xs generalizing ys with
  | nil =>
    simp only [List.mapM_nil] at h
    cases h
    rfl
  | cons x xs ih =>
    rw [mapM_option_cons] at h
    cases hx : f x with
    | none => rw [hx] at h; cases h
    | some y =>
      cases hxs : xs.mapM f with
      | none => rw [hx, hxs] at h; cases h
      | some ys' =>
        simp only [hx, hxs, Option.some_bind, Option.some.injEq] at h
        subst h
        simp [ih ys' hxs]

theorem mapM_option_forall₂ {α β : Type} (f : α → Option β) (xs : List α) (ys : List β)
    (h : xs.mapM f = some ys) : List.Forall₂ (fun x y => f x = some y) xs ys := by
  induction xs generalizing ys with
  | nil =>
    simp only [List.mapM_nil] at h
    cases h
    exact List.Forall₂.nil
  | cons x xs ih =>
    rw [mapM_option_cons] at h
    cases hx : f x with
    | none => rw [hx] at h; cases h
    | some y =>
      cases hxs : xs.mapM f with
      | none => rw [hx, hxs] at h; cases h
      | some ys' =>
        simp only [hx, hxs, Option.some_bind, Option.some.injEq] at h
        subst h
        exact List.Forall₂.cons hx (ih ys' hxs)

theorem forall₂_mapM_option {α β : Type} (f : α → Option β) (xs : List α) (ys : List β)
    (h : List.Forall₂ (fun x y => f x = some y) xs ys) : xs.mapM f = some ys := by
  induction h with
  | nil => rfl
  | cons hx _ ih => rw [mapM_option_cons, hx, ih]; rfl

theorem Encode_slides_fold (slides : List Slide) (st : encodeState) :
    slides.foldlM Encode.slideStep st =
      (slides.mapM writeSlide).map fun ws =>
        { b := st.b ++ encodeChunk st.first ws, first := st.first && ws.isEmpty } := by
  induction slides generalizing st with
  | nil =>
    show some st = some _
    simp [encodeChunk]
  | cons s rest ih =>
    rw [mapM_option_cons, List.foldlM_cons]
    cases hw : writeSlide s with
    | none => simp [Encode.slideStep, hw]
    | some w =>
      simp only [Encode.slideStep, hw, Option.bind_eq_bind, Option.some_bind]
      rw [ih]
      cases hr : rest.mapM writeSlide with
      | none => simp
      | some ws =>
        simp only [Option.map_some', Option.some_bind, encodeChunk, List.isEmpty_cons,
          Bool.and_false, List.append_assoc]
        cases st.first <;> simp

theorem Encode_sections_fold (secs : List Section) (st : encodeState) :
    secs.foldlM (fun (st : encodeState) (sec : Section) =>
        sec.Slides.foldlM Encode.slideStep st) st =
      ((secs.map (·.Slides)).flatten.mapM writeSlide).map fun ws =>
        { b := st.b ++ encodeChunk st.first ws, first := st.first && ws.isEmpty } := by
  induction secs generalizing st with
  | nil =>
    show some st = some _
    simp [encodeChunk]
  | cons sec rest ih =>
    rw [List.foldlM_cons, List.map_cons, List.flatten_cons, mapM_option_append,
      Encode_slides_fold]
    cases h1 : sec.Slides.mapM writeSlide with
    | none => simp
    | some ws1 =>
      simp only [Option.map_some', Option.bind_eq_bind, Option.some_bind]
      rw [ih]
      cases h2 : (rest.map (·.Slides)).flatten.mapM writeSlide with
      | none => simp
      | some ws2 =>
        simp only [Option.map_some', Option.some_bind, encodeChunk_append, List.append_assoc,
          isEmpty_append_eq, Bool.and_assoc]

theorem writeFrontmatter_pieces (deck : Deck) :
    writeFrontmatter deck =
      "---\nmarp: true\n".toList ++ themeLine deck ++ "paginate: true\n".toList ++
        styleBlock deck ++ "---\n\n".toList := by
  unfold writeFrontmatter themeLine styleBlock customStyle
  cases ht : deck.Theme with
  | none => simp [Theme.GetCustom]
  | some t =>
    simp only []
    have e : "style".toList = ['s', 't', 'y', 'l', 'e'] := rfl
    rw [e]
    by_cases hn : t.Name = [] <;>
      by_cases hs : Theme.GetCustom (some t) ['s', 't', 'y', 'l', 'e'] [] = []
    · simp [hn, hs]
    · simp only [hn, hs, ne_eq, not_true_eq_false, not_false_eq_true, ↓reduceIte,
        foldl_append_lines]
      simp [List.append_assoc]
    · simp [hn, hs, List.append_assoc]
    · simp only [hn, hs, ne_eq, not_false_eq_true, ↓reduceIte, foldl_append_lines]
      simp [List.append_assoc]

theorem Join_length (ws : List GoString) (sep : GoString) :
    (Join ws sep).length = (ws.map List.length).sum + (ws.length - 1) * sep.length := by
  induction ws with
  | nil => rw [Join_nil]; simp
  | cons w rest ih =>
    cases rest with
    | nil => simp [Join_singleton]
    | cons w2 rest' =>
      rw [Join_cons_cons]
      simp only [List.length_append, ih, List.map_cons, List.sum_cons, List.length_cons]
      simp only [Nat.add_sub_cancel]
      ring

/-- C23: the text of `Encode` is `---\nmarp: true\n`, then the line `theme: <name>`
exactly when the theme is present with a non-empty name, then `paginate: true\n`,
then `style: |\n` with each line of the custom style of the theme exactly when that
style is not empty, then `---\n\n`, then the texts of all slides in the order of the
deck, its sections and their slides, joined by `\n---\n\n`: with `n ≥ 1` slides there
are `n - 1` separators. -/
theorem Encode_text (deck : Deck) :
    Encode deck =
        (deck.AllSlides.mapM writeSlide).map (fun ws =>
          "---\nmarp: true\n".toList ++ themeLine deck ++ "paginate: true\n".toList ++
            styleBlock deck ++ "---\n\n".toList ++ Join ws "\n---\n\n".toList) ∧
      (∀ ws, deck.AllSlides.mapM writeSlide = some ws →
        ws.length = deck.AllSlides.length ∧
        (Join ws "\n---\n\n".toList).length =
          (ws.map List.length).sum + (ws.length - 1) * 6) ∧
      themeLine deck =
        (match deck.Theme with
         | some t => if t.Name ≠ [] then "theme: ".toList ++ t.Name ++ "\n".toList else []
         | none => []) ∧
      styleBlock deck =
        (if customStyle deck ≠ [] then
          "style: |\n".toList ++
            ((Split (customStyle deck) '\n').map (· ++ "\n".toList)).flatten
         else []) := by
  refine ⟨?_, ?_, rfl, rfl⟩
  · unfold Encode
    rw [Encode_sections_fold, AllSlides_eq]
    cases h : (deck.Sections.map (·.Slides)).flatten.mapM writeSlide with
    | none => simp
    | some ws =>
      simp only [Option.map_some', Option.some_bind, encodeChunk_true,
        writeFrontmatter_pieces, List.append_assoc]
  · intro ws h
    exact ⟨mapM_option_length _ _ _ h, Join_length ws _⟩

theorem foldlM_writeBlock (blocks : List Block) (b : GoString) :
    blocks.foldlM (fun b block => (writeBlock block).bind fun w => some (b ++ w)) b =
      (blocks.mapM writeBlock).map fun ws => b ++ ws.flatten := by
  induction blocks generalizing b with
  | nil =>
    show some b = some _
    simp
  | cons blk rest ih =>
    rw [mapM_option_cons, List.foldlM_cons]
    cases hw : writeBlock blk with
    | none => simp
    | some w =>
      simp only [Option.bind_eq_bind, Option.some_bind]
      rw [ih]
      cases hr : rest.mapM writeBlock with
      | none => simp
      | some ws => simp [List.append_assoc]

theorem foldl_append_texts {α : Type} (f : α → GoString) (nl : GoString) (xs : List α)
    (b : GoString) :
    xs.foldl (fun b x => b ++ f x ++ nl) b = b ++ (xs.map fun x => f x ++ nl).flatten := by
  induction xs generalizing b with
  | nil => simp
  | cons x xs ih =>
    rw [List.foldl_cons, ih]
    simp [List.append_assoc]

theorem writeSlide_head (slide : Slide) (d : GoString) :
    (if 0 < slide.Notes.length then
        slide.Notes.foldl (fun b note => b ++ note.Text ++ "\n".toList) (d ++ "<!--\n".toList)
          ++ "-->\n\n".toList
      else d) = d ++ slideNotes slide.Notes := by
  unfold slideNotes
  by_cases h : slide.Notes = []
  · simp [h]
  · have : 0 < slide.Notes.length := List.length_pos.mpr h
    rw [if_pos this, if_pos h, foldl_append_texts]
    simp [List.append_assoc]

/-- C24: the text of `writeSlide` is, in this order: the directive comments of the
layout (the divider markers for `section`, the lead markers for `title`, nothing for
any other layout); exactly when there are notes, one comment `<!--`, every note text
followed by a newline, `-->`; the line `# <Title>` when the title is not empty; the
line `## <Subtitle>` when the subtitle is not empty; then the texts of the body
blocks in order. -/
theorem writeSlide_text (slide : Slide) :
    writeSlide slide =
        (slide.Body.mapM writeBlock).map (fun ws =>
          slideDirectives slide.Layout ++ slideNotes slide.Notes ++
            slideHeadings slide.Title slide.Subtitle ++ ws.flatten) ∧
      slideDirectives LayoutSection =
        "<!-- _class: section-divider -->\n<!-- _paginate: false -->\n\n".toList ∧
      slideDirectives LayoutTitle =
        "<!-- _class: lead -->\n<!-- _paginate: false -->\n\n".toList ∧
      (∀ layout, layout ≠ LayoutSection → layout ≠ LayoutTitle →
        slideDirectives layout = []) ∧
      slideNotes [] = [] ∧
      (∀ notes, notes ≠ [] →
        slideNotes notes =
          "<!--\n".toList ++ (notes.map fun n => n.Text ++ "\n".toList).flatten ++
            "-->\n\n".toList) ∧
      slideHeadings slide.Title slide.Subtitle =
        (if slide.Title ≠ [] then "# ".toList ++ slide.Title ++ "\n".toList else []) ++
        (if slide.Subtitle ≠ [] then "## ".toList ++ slide.Subtitle ++ "\n".toList else []) ++
        (if slide.Title ≠ [] ∨ slide.Subtitle ≠ [] then "\n".toList else []) := by
  refine ⟨?_, by decide, by decide, ?_, rfl, ?_, rfl⟩
  · unfold writeSlide
    rw [foldlM_writeBlock]
    congr 1
    funext ws
    congr 1
    simp only [writeSlide_head]
    have hd : (if slide.Layout = LayoutSection then
          "<!-- _class: section-divider -->\n".toList ++ "<!-- _paginate: false -->\n\n".toList
        else if slide.Layout = LayoutTitle then
          "<!-- _class: lead -->\n".toList ++ "<!-- _paginate: false -->\n\n".toList
        else []) = slideDirectives slide.Layout := rfl
    rw [hd]
    unfold slideHeadings
    by_cases h4 : slide.Title = [] <;> by_cases h5 : slide.Subtitle = [] <;>
      simp [h4, h5, List.append_assoc]
  · intro layout h1 h2
    simp [slideDirectives, h1, h2]
  · intro notes h
    simp [slideNotes, h]

/-! ## Cleaning the text of a note -/

theorem foldl_nonblank (lines : List GoString) (acc : List GoString) :
    lines.foldl
      (fun cleaned line =>
        if TrimSpace line ≠ [] then cleaned ++ [TrimSpace line] else cleaned) acc =
      acc ++ (lines.map TrimSpace).filter (fun t => t ≠ []) := by
  induction lines generalizing acc with
  | nil => simp
  | cons l rest ih =>
    rw [List.foldl_cons, ih]
    by_cases h : TrimSpace l = [] <;> simp [h]

theorem cleanNoteText_eq (t : GoString) :
    cleanNoteText t =
      Join (trimmedLines (ReplaceAllString reBreak (ReplaceAllString rePause t))) " ".toList := by
  unfold cleanNoteText trimmedLines
  simp only [foldl_nonblank, List.nil_append]

theorem Split_not_mem (s : GoString) (sep : Char) : ∀ l ∈ Split s sep, sep ∉ l := by
  induction s with
  | nil => simp [Split]
  | cons c cs ih =>
    by_cases hc : c = sep
    · subst hc
      rw [Split_cons_sep]
      intro l hl
      rcases List.mem_cons.mp hl with rfl | hl
      · simp
      · exact ih l hl
    · obtain ⟨l0, ls, hs⟩ := List.exists_cons_of_ne_nil (Split_ne_nil cs sep)
      have : Split (c :: cs) sep = (c :: l0) :: ls := by
        simp only [Split, hc, if_false, hs]
      rw [this]
      intro l hl
      rcases List.mem_cons.mp hl with rfl | hl
      · have := ih l0 (by rw [hs]; simp)
        simp only [List.mem_cons, not_or]
        exact ⟨fun e => hc e.symm, this⟩
      · exact ih l (by rw [hs]; simp [hl])

theorem mem_of_mem_TrimSpace (s : GoString) (c : Char) (h : c ∈ TrimSpace s) : c ∈ s := by
  unfold TrimSpace at h
  have h1 : c ∈ s.dropWhile isSpace :=
    (List.rdropWhile_prefix isSpace _).subset h
  exact (List.dropWhile_suffix isSpace).subset h1

theorem mem_Join (ls : List GoString) (sep : GoString) (c : Char) (h : c ∈ Join ls sep) :
    c ∈ sep ∨ ∃ l ∈ ls, c ∈ l := by
  induction ls with
  | nil => rw [Join_nil] at h; cases h
  | cons l rest ih =>
    cases rest with
    | nil =>
      rw [Join_singleton] at h
      exact Or.inr ⟨l, by simp, h⟩
    | cons l2 rest' =>
      rw [Join_cons_cons] at h
      simp only [List.mem_append] at h
      rcases h with (h | h) | h
      · exact Or.inr ⟨l, by simp, h⟩
      · exact Or.inl h
      · rcases ih h with h | ⟨l', hl', hc⟩
        · exact Or.inl h
        · exact Or.inr ⟨l', by simp [hl'], hc⟩

theorem Join_head_eq (ls : List GoString) (sep : GoString) (l : GoString)
    (rest : List GoString) (h : ls = l :: rest) (hl : l ≠ []) :
    (Join ls sep).head? = l.head? := by
  subst h
  cases rest with
  | nil => rw [Join_singleton]
  | cons l2 rest' =>
    rw [Join_cons_cons]
    obtain ⟨a, as, rfl⟩ := List.exists_cons_of_ne_nil hl
    rfl

theorem Join_getLast_eq (ls : List GoString) (sep : GoString) (hne : ls ≠ [])
    (hl : ∀ l ∈ ls, l ≠ []) :
    (Join ls sep).getLast? = (ls.getLast hne).getLast? := by
  induction ls with
  | nil => exact absurd rfl hne
  | cons l rest ih =>
    cases rest with
    | nil => simp [Join_singleton]
    | cons l2 rest' =>
      rw [Join_cons_cons]
      have ih' := ih (by simp) (fun x hx => hl x (by simp [hx]))
      have hne2 : Join (l2 :: rest') sep ≠ [] := by
        intro e
        rw [e] at ih'
        have h2 := hl ((l2 :: rest').getLast (by simp)) (by
          exact List.mem_cons_of_mem _ (List.getLast_mem _))
        obtain ⟨a, as, ha⟩ := List.exists_cons_of_ne_nil h2
        have : ((l2 :: rest').getLast (by simp)).getLast? ≠ none := by
          rw [ha, List.getLast?_eq_getLast _ (by simp)]
          simp
        exact this ih'.symm
      rw [List.getLast?_append_of_ne_nil _ hne2, ih']
      simp

theorem trimmed_ends_isSpace (v : GoString) (hv : v ≠ []) (ht : TrimSpace v = v) :
    (∀ c ∈ v.head?, isSpace c = false) ∧ (∀ c ∈ v.getLast?, isSpace c = false) := by
  have hne : TrimSpace v ≠ [] := by rw [ht]; exact hv
  have h1 := TrimSpace_head_not_space v hne
  have h2 := TrimSpace_getLast_not_space v hne
  constructor
  · intro c hc
    have e : (TrimSpace v).head? = some c := by rw [ht]; exact hc
    rw [List.head?_eq_head hne] at e
    cases e
    exact h1
  · intro c hc
    have e : (TrimSpace v).getLast? = some c := by rw [ht]; exact hc
    rw [List.getLast?_eq_getLast _ hne] at e
    cases e
    exact h2

theorem trimmedLines_spec (s : GoString) :
    ∀ l ∈ trimmedLines s, l ≠ [] ∧ '\n' ∉ l ∧ TrimSpace l = l := by
  intro l hl
  unfold trimmedLines at hl
  simp only [List.mem_filter, List.mem_map, decide_eq_true_eq] at hl
  obtain ⟨⟨l0, hl0, rfl⟩, hne⟩ := hl
  refine ⟨hne, ?_, TrimSpace_idem l0⟩
  intro hc
  exact Split_not_mem s '\n' l0 hl0 (mem_of_mem_TrimSpace _ _ hc)

/-- The cleaned text is one line without white space around it. -/
theorem cleanNoteText_shape (t : GoString) :
    '\n' ∉ cleanNoteText t ∧ TrimSpace (cleanNoteText t) = cleanNoteText t := by
  rw [cleanNoteText_eq]
  generalize ReplaceAllString reBreak (ReplaceAllString rePause t) = s
  have hspec := trimmedLines_spec s
  constructor
  · intro hc
    rcases mem_Join _ _ _ hc with h | ⟨l, hl, hcl⟩
    · revert h; decide
    · exact (hspec l hl).2.1 hcl
  · cases hls : trimmedLines s with
    | nil => rw [Join_nil]; rfl
    | cons l rest =>
      have hne : ∀ x ∈ l :: rest, x ≠ [] := fun x hx => (hspec x (hls ▸ hx)).1
      apply TrimSpace_eq_self
      · rw [Join_head_eq _ _ l rest rfl (hne l (by simp))]
        have hl := hspec l (by rw [hls]; simp)
        exact (trimmed_ends_isSpace l hl.1 hl.2.2).1
      · rw [Join_getLast_eq _ _ (by simp) hne]
        have hmem : (l :: rest).getLast (by simp) ∈ trimmedLines s := by
          rw [hls]; exact List.getLast_mem _
        have hl := hspec _ hmem
        exact (trimmed_ends_isSpace _ hl.1 hl.2.2).2

theorem removeAllFrom_of_no_match (re : List RE) (s : GoString) (prev : Option Char)
    (h : findAllFrom re prev s 0 = []) : removeAllFrom re prev s 0 = s := by
  induction s generalizing prev with
  | nil => simp [removeAllFrom]
  | cons c cs ih =>
    simp only [findAllFrom] at h
    simp only [removeAllFrom]
    cases hr : RE.run re prev (c :: cs) 0 with
    | none =>
      simp only [hr] at h
      simp only [ih _ h]
    | some r => simp [hr] at h

theorem ReplaceAllString_of_no_match (re : List RE) (s : GoString)
    (h : MatchString re s = false) : ReplaceAllString re s = s := by
  apply removeAllFrom_of_no_match
  simpa [MatchString, FindAllStringSubmatch] using h

/-- A single line without white space around it and without markers is its own
cleaned text. -/
theorem cleanNoteText_of_clean (s : GoString) (hnl : '\n' ∉ s) (htrim : TrimSpace s = s)
    (hp : MatchString rePause s = false) (hb : MatchString reBreak s = false) :
    cleanNoteText s = s := by
  rw [cleanNoteText_eq, ReplaceAllString_of_no_match _ _ hp,
    ReplaceAllString_of_no_match _ _ hb]
  unfold trimmedLines
  rw [Split_of_not_mem s '\n' hnl]
  by_cases h : s = []
  · subst h
    rfl
  · simp [htrim, h, Join_singleton]

/-- C21: the cleaning of a note text is idempotent on every text whose cleaned text
holds no pacing marker, and a single-line text without white space around it and
without pacing markers is returned unchanged. -/
theorem cleanNoteText_idempotent (t : GoString)
    (hp : MatchString rePause (cleanNoteText t) = false)
    (hb : MatchString reBreak (cleanNoteText t) = false) :
    cleanNoteText (cleanNoteText t) = cleanNoteText t ∧
      ∀ s : GoString, '\n' ∉ s → TrimSpace s = s → MatchString rePause s = false →
        MatchString reBreak s = false → cleanNoteText s = s :=
  ⟨cleanNoteText_of_clean _ (cleanNoteText_shape t).1 (cleanNoteText_shape t).2 hp hb,
   cleanNoteText_of_clean⟩

set_option maxRecDepth 100000 in
theorem cleanNoteText_idempotent_witness :
    cleanNoteText noteSample =
        "Welcome to the presentation. This is the introduction.".toList ∧
      cleanNoteText (cleanNoteText noteSample) = cleanNoteText noteSample :=
  ⟨by decide, (cleanNoteText_idempotent noteSample (by decide) (by decide)).1⟩

/-- Deleting the inner pause tag of `[PAUSE:[PAUSE:1]1]` leaves the tag `[PAUSE:1]`,
which a second cleaning deletes. -/
theorem cleanNoteText_not_idempotent_counterexample :
    cleanNoteText "[PAUSE:[PAUSE:1]1]".toList = "[PAUSE:1]".toList ∧
      cleanNoteText (cleanNoteText "[PAUSE:[PAUSE:1]1]".toList) = [] ∧
      cleanNoteText (cleanNoteText "[PAUSE:[PAUSE:1]1]".toList) ≠
        cleanNoteText "[PAUSE:[PAUSE:1]1]".toList := by
  decide

/-! ## Matches of the pacing markers -/

theorem EndsAt_nil (s : GoString) (pos : Nat) : EndsAt [] s pos pos :=
  ⟨[], fun _ => rfl⟩

theorem EndsAt_chr (p : Char → Bool) (k : List RE) (c : Char) (cs : GoString) (pos e : Nat)
    (hc : p c = true) (h : EndsAt k cs (pos + 1) e) : EndsAt (RE.chr p :: k) (c :: cs) pos e := by
  obtain ⟨marks, hm⟩ := h
  exact ⟨marks, fun prev => by rw [RE_run_chr_cons _ _ _ _ _ _ hc]; exact hm _⟩

theorem EndsAt_openGroup (k : List RE) (s : GoString) (pos e : Nat) (h : EndsAt k s pos e) :
    EndsAt (RE.openGroup :: k) s pos e := by
  obtain ⟨marks, hm⟩ := h
  exact ⟨pos :: marks, fun prev => by rw [RE_run_openGroup, hm]; rfl⟩

theorem EndsAt_closeGroup (k : List RE) (s : GoString) (pos e : Nat) (h : EndsAt k s pos e) :
    EndsAt (RE.closeGroup :: k) s pos e := by
  obtain ⟨marks, hm⟩ := h
  exact ⟨pos :: marks, fun prev => by rw [RE_run_closeGroup, hm]; rfl⟩

theorem EndsAt_star (p : Char → Bool) (k : List RE) (xs s : GoString) (pos e : Nat)
    (hxs : ∀ c ∈ xs, p c = true) (hs : ∀ c ∈ s.head?, p c = false)
    (h : EndsAt k s (pos + xs.length) e) : EndsAt (RE.star p true :: k) (xs ++ s) pos e := by
  obtain ⟨marks, hm⟩ := h
  refine ⟨marks, fun prev => ?_⟩
  rw [RE_run_star_greedy]
  exact starGreedy_run _ _ _ xs s pos _ hxs hs hm

theorem EndsAt_opt_take (p : Char → Bool) (k : List RE) (c : Char) (cs : GoString)
    (pos e : Nat) (hc : p c = true) (h : EndsAt k cs (pos + 1) e) :
    EndsAt (RE.opt p :: k) (c :: cs) pos e := by
  obtain ⟨marks, hm⟩ := h
  refine ⟨marks, fun prev => ?_⟩
  simp only [RE.run, hc, if_true, hm]

theorem EndsAt_opt_skip (p : Char → Bool) (k : List RE) (s : GoString) (pos e : Nat)
    (hs : ∀ c ∈ s.head?, p c = false) (h : EndsAt k s pos e) :
    EndsAt (RE.opt p :: k) s pos e := by
  obtain ⟨marks, hm⟩ := h
  refine ⟨marks, fun prev => ?_⟩
  cases s with
  | nil => simp only [RE.run, hm]
  | cons c cs =>
    have := hs c (by simp)
    simp only [RE.run, this, Bool.false_eq_true, if_false, hm]

theorem EndsAt_lit (w : GoString) (k : List RE) (s : GoString) (pos e : Nat)
    (h : EndsAt k s (pos + w.length) e) :
    EndsAt (w.map (fun c => RE.chr (· == c)) ++ k) (w ++ s) pos e := by
  induction w generalizing pos with
  | nil => simpa using h
  | cons c w ih =>
    rw [List.map_cons, List.cons_append, List.cons_append]
    apply EndsAt_chr _ _ _ _ _ _ (by simp)
    apply ih
    rw [List.length_cons] at h
    rwa [Nat.add_assoc, Nat.add_comm 1]

theorem reDigit_ne (c : Char) (h : reDigit c = true) :
    c ≠ '[' ∧ c ≠ '<' ∧ c ≠ ']' ∧ c ≠ 'm' := by
  unfold reDigit at h
  refine ⟨?_, ?_, ?_, ?_⟩ <;> (rintro rfl; revert h; decide)

theorem reSpace_ne (c : Char) (h : reSpace c = true) :
    c ≠ '[' ∧ c ≠ '<' ∧ c ≠ 't' ∧ c ≠ '/' ∧ c ≠ '>' := by
  unfold reSpace at h
  refine ⟨?_, ?_, ?_, ?_, ?_⟩ <;> (rintro rfl; revert h; decide)

/-- The pattern of pause tags matches a pause tag as a whole. -/
theorem rePause_match (d B : GoString) (hd : d ≠ []) (hdig : ∀ c ∈ d, reDigit c = true) :
    EndsAt rePause (("[PAUSE:".toList ++ d ++ "]".toList) ++ B) 0
      ("[PAUSE:".toList ++ d ++ "]".toList).length := by
  obtain ⟨d0, ds, rfl⟩ := List.exists_cons_of_ne_nil hd
  have e : ("[PAUSE:".toList ++ (d0 :: ds) ++ "]".toList) ++ B =
      "[PAUSE:".toList ++ (d0 :: (ds ++ ']' :: B)) := by simp
  rw [e]
  have hre : rePause = "[PAUSE:".toList.map (fun c => RE.chr (· == c)) ++
      [RE.openGroup, RE.chr reDigit, RE.star reDigit true, RE.closeGroup,
        RE.chr (· == ']')] := rfl
  rw [hre]
  apply EndsAt_lit
  apply EndsAt_openGroup
  apply EndsAt_chr _ _ _ _ _ _ (hdig d0 (by simp))
  apply EndsAt_star _ _ ds _ _ _ (fun c hc => hdig c (by simp [hc]))
    (by intro c hc
        simp only [List.head?_cons, Option.mem_def, Option.some.injEq] at hc
        subst hc; decide)
  apply EndsAt_closeGroup
  apply EndsAt_chr _ _ _ _ _ _ (by decide)
  have : "[PAUSE:".toList.length = 7 := rfl
  have e2 : 0 + "[PAUSE:".toList.length + 1 + ds.length + 1 =
      ("[PAUSE:".toList ++ (d0 :: ds) ++ "]".toList).length := by
    simp only [List.length_append, List.length_cons, this]
    have : "]".toList.length = 1 := rfl
    omega
  rw [e2]
  exact EndsAt_nil _ _

/-- The pattern of break tags matches a break tag as a whole. -/
theorem reBreak_match (ws1 d ws2 : GoString) (slash : Bool) (B : GoString)
    (hw1 : ws1 ≠ []) (hws1 : ∀ c ∈ ws1, reSpace c = true)
    (hd : d ≠ []) (hdig : ∀ c ∈ d, reDigit c = true) (hws2 : ∀ c ∈ ws2, reSpace c = true) :
    EndsAt reBreak ((NotePiece.brk ws1 d ws2 slash).render ++ B) 0
      (NotePiece.brk ws1 d ws2 slash).render.length := by
  obtain ⟨d0, ds, rfl⟩ := List.exists_cons_of_ne_nil hd
  obtain ⟨w0, ws, rfl⟩ := List.exists_cons_of_ne_nil hw1
  have e : (NotePiece.brk (w0 :: ws) (d0 :: ds) ws2 slash).render ++ B =
      "<break".toList ++ (w0 :: (ws ++ ("time=\"".toList ++ (d0 :: (ds ++ ("ms\"".toList ++
        (ws2 ++ ((if slash then "/".toList else []) ++ '>' :: B)))))))) := by
    simp [NotePiece.render, List.append_assoc]
  have hlen : (NotePiece.brk (w0 :: ws) (d0 :: ds) ws2 slash).render.length =
      6 + 1 + ws.length + 6 + 1 + ds.length + 3 + ws2.length +
        (if slash then "/".toList else []).length + 1 := by
    simp only [NotePiece.render, List.length_append, List.length_cons]
    have h1 : "<break".toList.length = 6 := rfl
    have h2 : "time=\"".toList.length = 6 := rfl
    have h3 : "ms\"".toList.length = 3 := rfl
    have h4 : ">".toList.length = 1 := rfl
    omega
  rw [e, hlen]
  have hre : reBreak = "<break".toList.map (fun c => RE.chr (· == c)) ++
      (RE.chr reSpace :: RE.star reSpace true ::
        ("time=\"".toList.map (fun c => RE.chr (· == c)) ++
          (RE.openGroup :: RE.chr reDigit :: RE.star reDigit true :: RE.closeGroup ::
            ("ms\"".toList.map (fun c => RE.chr (· == c)) ++
              [RE.star reSpace true, RE.opt (· == '/'), RE.chr (· == '>')])))) := rfl
  rw [hre]
  apply EndsAt_lit
  apply EndsAt_chr _ _ _ _ _ _ (hws1 w0 (by simp))
  apply EndsAt_star _ _ ws _ _ _ (fun c hc => hws1 c (by simp [hc]))
    (by intro c hc
        have : c = 't' := by
          have : ("time=\"".toList ++ (d0 :: (ds ++ ("ms\"".toList ++
            (ws2 ++ ((if slash then "/".toList else []) ++ '>' :: B)))))).head? = some 't' := rfl
          rw [this] at hc
          exact (Option.some.inj hc).symm
        subst this; decide)
  apply EndsAt_lit
  apply EndsAt_openGroup
  apply EndsAt_chr _ _ _ _ _ _ (hdig d0 (by simp))
  apply EndsAt_star _ _ ds _ _ _ (fun c hc => hdig c (by simp [hc]))
    (by intro c hc
        have : c = 'm' := by
          have : ("ms\"".toList ++
            (ws2 ++ ((if slash then "/".toList else []) ++ '>' :: B))).head? = some 'm' := rfl
          rw [this] at hc
          exact (Option.some.inj hc).symm
        subst this; decide)
  apply EndsAt_closeGroup
  apply EndsAt_lit
  have hlens : "<break".toList.length = 6 ∧ "time=\"".toList.length = 6 ∧
      "ms\"".toList.length = 3 := ⟨rfl, rfl, rfl⟩
  cases slash with
  | true =>
    apply EndsAt_star _ _ ws2 _ _ _ hws2
      (by intro c hc
          simp only [if_true] at hc
          have : c = '/' := (Option.some.inj hc).symm
          subst this; decide)
    simp only [if_true]
    apply EndsAt_opt_take _ _ _ _ _ _ (by decide)
    apply EndsAt_chr _ _ _ _ _ _ (by decide)
    have : 0 + "<break".toList.length + 1 + ws.length + "time=\"".toList.length + 1 +
        ds.length + "ms\"".toList.length + ws2.length + 1 + 1 =
        6 + 1 + ws.length + 6 + 1 + ds.length + 3 + ws2.length + "/".toList.length + 1 := by
      have : "/".toList.length = 1 := rfl
      omega
    rw [this]
    exact EndsAt_nil _ _
  | false =>
    apply EndsAt_star _ _ ws2 _ _ _ hws2
      (by intro c hc
          simp only [Bool.false_eq_true, if_false, List.nil_append, List.head?_cons,
            Option.mem_def, Option.some.injEq] at hc
          subst hc; decide)
    simp only [Bool.false_eq_true, if_false, List.nil_append]
    apply EndsAt_opt_skip _ _ _ _ _
      (by intro c hc
          simp only [List.head?_cons, Option.mem_def, Option.some.injEq] at hc
          subst hc; decide)
    apply EndsAt_chr _ _ _ _ _ _ (by decide)
    have : 0 + "<break".toList.length + 1 + ws.length + "time=\"".toList.length + 1 +
        ds.length + "ms\"".toList.length + ws2.length + 1 =
        6 + 1 + ws.length + 6 + 1 + ds.length + 3 + ws2.length + ([] : GoString).length + 1 := by
      simp only [List.length_nil]
      omega
    rw [this]
    exact EndsAt_nil _ _

/-! ## Deleting the pacing markers of a note -/

/-- Deleting the matches of a pattern from a text made of pieces, where the pattern
matches each tag piece as a whole and the other pieces hold no character that can
start a match: the tag pieces go, the others stay. -/
theorem removeAllFrom_pieces (p0 : Char → Bool) (k : List RE)
    (hplain : (RE.chr p0 :: k).all RE.isPlain = true) (isTag : NotePiece → Bool)
    (ps : List NotePiece)
    (htag : ∀ p ∈ ps, isTag p = true →
      p.render ≠ [] ∧ ∀ B, EndsAt (RE.chr p0 :: k) (p.render ++ B) 0 p.render.length)
    (hother : ∀ p ∈ ps, isTag p = false → ∀ c ∈ p.render, p0 c = false)
    (prev : Option Char) :
    removeAllFrom (RE.chr p0 :: k) prev (ps.map NotePiece.render).flatten 0 =
      ((ps.filter fun p => !isTag p).map NotePiece.render).flatten := by
  induction ps generalizing prev with
  | nil => rfl
  | cons p rest ih =>
    have ih' := ih (fun q hq => htag q (by simp [hq])) (fun q hq => hother q (by simp [hq]))
    rw [List.map_cons, List.flatten_cons]
    cases ht : isTag p with
    | true =>
      obtain ⟨hne, hm⟩ := htag p (by simp) ht
      obtain ⟨marks, hrun⟩ := hm (rest.map NotePiece.render).flatten
      have := removeAllFrom_match_at (RE.chr p0 :: k) hplain [] p.render
        (rest.map NotePiece.render).flatten marks
        (by intro A1 A2 e h2
            have : A2 = [] := by
              have := congrArg List.length e
              simp only [List.length_nil, List.length_append] at this
              exact List.length_eq_zero.mp (by omega)
            exact absurd this h2)
        (hrun none) hne prev
      simp only [List.nil_append] at this
      rw [this, ih' none]
      simp [List.filter_cons, ht]
    | false =>
      rw [removeAllFrom_append_left p0 k hplain _ _ (hother p (by simp) ht) prev, ih' none]
      simp [List.filter_cons, ht]

theorem MatchString_of_no_head (p0 : Char → Bool) (k : List RE)
    (hplain : (RE.chr p0 :: k).all RE.isPlain = true) (s : GoString)
    (h : ∀ c ∈ s, p0 c = false) : MatchString (RE.chr p0 :: k) s = false := by
  have := findAllFrom_append_left p0 k hplain s [] h none
  rw [List.append_nil] at this
  simp [MatchString, FindAllStringSubmatch, this, findAllFrom, RE.run]

theorem mem_Join_of_mem (ls : List GoString) (sep l : GoString) (c : Char) (hl : l ∈ ls)
    (hc : c ∈ l) : c ∈ Join ls sep := by
  induction ls with
  | nil => cases hl
  | cons l0 rest ih =>
    cases rest with
    | nil =>
      rw [Join_singleton]
      rcases List.mem_cons.mp hl with rfl | h
      · exact hc
      · cases h
    | cons l2 rest' =>
      rw [Join_cons_cons]
      rcases List.mem_cons.mp hl with rfl | h
      · simp [hc]
      · simp [ih h]

theorem mem_of_mem_Split (s : GoString) (sep : Char) (l : GoString) (c : Char)
    (hl : l ∈ Split s sep) (hc : c ∈ l) : c ∈ s := by
  rw [← Join_Split s sep]
  exact mem_Join_of_mem _ _ l c hl hc

theorem mem_Join_trimmedLines (s : GoString) (c : Char)
    (h : c ∈ Join (trimmedLines s) " ".toList) : c = ' ' ∨ c ∈ s := by
  rcases mem_Join _ _ _ h with h | ⟨l, hl, hc⟩
  · left
    simpa using h
  · right
    unfold trimmedLines at hl
    simp only [List.mem_filter, List.mem_map] at hl
    obtain ⟨⟨l0, hl0, rfl⟩, _⟩ := hl
    exact mem_of_mem_Split s '\n' l0 c hl0 (mem_of_mem_TrimSpace _ _ hc)

theorem rePause_head : rePause = RE.chr (· == '[') :: rePause.drop 1 := rfl

theorem reBreak_head : reBreak = RE.chr (· == '<') :: reBreak.drop 1 := rfl

theorem render_brk_chars (ws1 d ws2 : GoString) (slash : Bool)
    (hws1 : ∀ c ∈ ws1, reSpace c = true) (hdig : ∀ c ∈ d, reDigit c = true)
    (hws2 : ∀ c ∈ ws2, reSpace c = true) :
    ∀ c ∈ (NotePiece.brk ws1 d ws2 slash).render, c ≠ '[' := by
  intro c hc
  simp only [NotePiece.render, List.mem_append] at hc
  rcases hc with (((((( h | h) | h) | h) | h) | h) | h) | h
  · rintro rfl; revert h; decide
  · exact (reSpace_ne c (hws1 c h)).1
  · rintro rfl; revert h; decide
  · exact (reDigit_ne c (hdig c h)).1
  · rintro rfl; revert h; decide
  · exact (reSpace_ne c (hws2 c h)).1
  · rintro rfl; cases slash <;> revert h <;> decide
  · rintro rfl; revert h; decide

theorem wellFormed_text (s : GoString) (h : (NotePiece.text s).wellFormed = true) :
    ∀ c ∈ s, c ≠ '[' ∧ c ≠ '<' := by
  intro c hc
  simp only [NotePiece.wellFormed, List.all_eq_true, Bool.and_eq_true, bne_iff_ne] at h
  exact h c hc

theorem wellFormed_pause (d : GoString) (h : (NotePiece.pause d).wellFormed = true) :
    d ≠ [] ∧ ∀ c ∈ d, reDigit c = true := by
  simp only [NotePiece.wellFormed, List.all_eq_true, Bool.and_eq_true, Bool.not_eq_true',
    List.isEmpty_eq_false] at h
  exact h

theorem wellFormed_brk (ws1 d ws2 : GoString) (slash : Bool)
    (h : (NotePiece.brk ws1 d ws2 slash).wellFormed = true) :
    ws1 ≠ [] ∧ (∀ c ∈ ws1, reSpace c = true) ∧ d ≠ [] ∧ (∀ c ∈ d, reDigit c = true) ∧
      ∀ c ∈ ws2, reSpace c = true := by
  simp only [NotePiece.wellFormed, List.all_eq_true, Bool.and_eq_true, Bool.not_eq_true',
    List.isEmpty_eq_false] at h
  obtain ⟨⟨⟨⟨h1, h2⟩, h3⟩, h4⟩, h5⟩ := h
  exact ⟨h1, h2, h3, h4, h5⟩

/-- Deleting the pause tags of a text of well-formed pieces leaves the other
pieces. -/
theorem ReplaceAllString_rePause_pieces (ps : List NotePiece)
    (h : ∀ p ∈ ps, p.wellFormed = true) :
    ReplaceAllString rePause (ps.map NotePiece.render).flatten =
      ((ps.filter fun p => !p.isPause).map NotePiece.render).flatten := by
  unfold ReplaceAllString
  rw [rePause_head]
  apply removeAllFrom_pieces _ _ (by decide) NotePiece.isPause
  · intro p hp ht
    cases p with
    | text s => cases ht
    | brk _ _ _ _ => cases ht
    | pause d =>
      obtain ⟨hd, hdig⟩ := wellFormed_pause d (h _ hp)
      refine ⟨by simp [NotePiece.render], fun B => ?_⟩
      rw [← rePause_head]
      exact rePause_match d B hd hdig
  · intro p hp ht c hc
    cases p with
    | pause d => cases ht
    | text s =>
      have := (wellFormed_text s (h _ hp) c hc).1
      simpa using this
    | brk ws1 d ws2 slash =>
      obtain ⟨_, h2, _, h4, h5⟩ := wellFormed_brk ws1 d ws2 slash (h _ hp)
      have := render_brk_chars ws1 d ws2 slash h2 h4 h5 c hc
      simpa using this

/-- Deleting the break tags of a text of well-formed pieces without pause tags
leaves the plain pieces. -/
theorem ReplaceAllString_reBreak_pieces (ps : List NotePiece)
    (h : ∀ p ∈ ps, p.wellFormed = true) (hp : ∀ p ∈ ps, p.isPause = false) :
    ReplaceAllString reBreak (ps.map NotePiece.render).flatten =
      ((ps.filter fun p => !p.isBreak).map NotePiece.render).flatten := by
  unfold ReplaceAllString
  rw [reBreak_head]
  apply removeAllFrom_pieces _ _ (by decide) NotePiece.isBreak
  · intro p hpm ht
    cases p with
    | text s => cases ht
    | pause _ => cases ht
    | brk ws1 d ws2 slash =>
      obtain ⟨h1, h2, h3, h4, h5⟩ := wellFormed_brk ws1 d ws2 slash (h _ hpm)
      refine ⟨by simp [NotePiece.render], fun B => ?_⟩
      rw [← reBreak_head]
      exact reBreak_match ws1 d ws2 slash B h1 h2 h3 h4 h5
  · intro p hpm ht c hc
    cases p with
    | brk _ _ _ _ => cases ht
    | pause d => exact absurd (hp _ hpm) (by simp [NotePiece.isPause])
    | text s =>
      have := (wellFormed_text s (h _ hpm) c hc).2
      simpa using this

theorem plain_of_filters (ps : List NotePiece) :
    (((ps.filter fun p => !p.isPause).filter fun p => !p.isBreak).map
      NotePiece.render).flatten = (ps.map NotePiece.plain).flatten := by
  induction ps with
  | nil => rfl
  | cons p rest ih =>
    cases p with
    | text s => exact congrArg (fun t => s ++ t) ih
    | pause d => exact ih
    | brk ws1 d ws2 slash => exact ih

theorem plain_chars (ps : List NotePiece) (h : ∀ p ∈ ps, p.wellFormed = true) :
    ∀ c ∈ (ps.map NotePiece.plain).flatten, c ≠ '[' ∧ c ≠ '<' := by
  intro c hc
  simp only [List.mem_flatten, List.mem_map] at hc
  obtain ⟨l, ⟨p, hp, rfl⟩, hcl⟩ := hc
  cases p with
  | text s => exact wellFormed_text s (h _ hp) c hcl
  | pause _ => cases hcl
  | brk _ _ _ _ => cases hcl

/-- C22: for a note text made of pause tags, break tags and plain pieces that hold no
`[` and no `<`, the cleaned text is the cleaned text of the plain pieces alone, and
it holds no pause tag and no break tag. -/
theorem cleanNoteText_strips_markers (ps : List NotePiece)
    (h : ∀ p ∈ ps, p.wellFormed = true) :
    cleanNoteText (ps.map NotePiece.render).flatten =
        cleanNoteText (ps.map NotePiece.plain).flatten ∧
      MatchString rePause (cleanNoteText (ps.map NotePiece.render).flatten) = false ∧
      MatchString reBreak (cleanNoteText (ps.map NotePiece.render).flatten) = false := by
  have hX := plain_chars ps h
  have hXp : MatchString rePause (ps.map NotePiece.plain).flatten = false := by
    rw [rePause_head]
    exact MatchString_of_no_head _ _ (by decide) _ (fun c hc => by simpa using (hX c hc).1)
  have hXb : MatchString reBreak (ps.map NotePiece.plain).flatten = false := by
    rw [reBreak_head]
    exact MatchString_of_no_head _ _ (by decide) _ (fun c hc => by simpa using (hX c hc).2)
  have h1 : cleanNoteText (ps.map NotePiece.render).flatten =
      Join (trimmedLines (ps.map NotePiece.plain).flatten) " ".toList := by
    rw [cleanNoteText_eq, ReplaceAllString_rePause_pieces ps h,
      ReplaceAllString_reBreak_pieces _ (fun p hp => h p (List.mem_filter.mp hp).1)
        (fun p hp => by simpa using (List.mem_filter.mp hp).2),
      plain_of_filters]
  have h2 : cleanNoteText (ps.map NotePiece.plain).flatten =
      Join (trimmedLines (ps.map NotePiece.plain).flatten) " ".toList := by
    rw [cleanNoteText_eq, ReplaceAllString_of_no_match _ _ hXp,
      ReplaceAllString_of_no_match _ _ hXb]
  have hout : ∀ c ∈ Join (trimmedLines (ps.map NotePiece.plain).flatten) " ".toList,
      c ≠ '[' ∧ c ≠ '<' := by
    intro c hc
    rcases mem_Join_trimmedLines _ c hc with rfl | hc
    · exact ⟨by decide, by decide⟩
    · exact hX c hc
  refine ⟨h1.trans h2.symm, ?_, ?_⟩
  · rw [h1, rePause_head]
    exact MatchString_of_no_head _ _ (by decide) _ (fun c hc => by simpa using (hout c hc).1)
  · rw [h1, reBreak_head]
    exact MatchString_of_no_head _ _ (by decide) _ (fun c hc => by simpa using (hout c hc).2)

set_option maxRecDepth 100000 in
theorem cleanNoteText_strips_markers_witness :
    (notePieces.map NotePiece.render).flatten =
        ("Section 2: Architecture. <break time=\"600ms\"/>\nLet's explore the design.\n" ++
          "[PAUSE:1500]").toList ∧
      cleanNoteText (notePieces.map NotePiece.render).flatten =
        "Section 2: Architecture. Let's explore the design.".toList ∧
      MatchString rePause (cleanNoteText (notePieces.map NotePiece.render).flatten) = false ∧
      MatchString reBreak (cleanNoteText (notePieces.map NotePiece.render).flatten) = false :=
  ⟨by decide, by decide, (cleanNoteText_strips_markers notePieces (by decide)).2⟩

set_option maxRecDepth 100000 in
/-- Deleting the break tag inside `[PAUSE:<break time="1ms"/>1]` leaves the pause tag
`[PAUSE:1]` in the cleaned text. -/
theorem cleanNoteText_keeps_marker_counterexample :
    cleanNoteText "[PAUSE:<break time=\"1ms\"/>1]".toList = "[PAUSE:1]".toList ∧
      MatchString rePause (cleanNoteText "[PAUSE:<break time=\"1ms\"/>1]".toList) = true := by
  decide

/-! ## Headings through the writer and back -/

set_option maxRecDepth 1000000 in
/-- C26: on a slide with a title, a subtitle and body headings of the levels 1, 2 and
3, the reader builds heading blocks of these levels, the writer emits them with one
`#` more than their level, and the reader of that text builds headings of the levels
2 and 3 and a paragraph `#### H3`: no heading keeps its level. -/
theorem roundTrip_heading_levels :
    (Parse "# T\n## S\n# H1\n## H2\n### H3\n".toList).bind
        (fun r => r.1.bind fun d => Encode d) =
      some "---\nmarp: true\npaginate: true\n---\n\n# T\n## S\n\n## H1\n### H2\n#### H3\n".toList ∧
    (roundTrip "# T\n## S\n# H1\n## H2\n### H3\n".toList).map
        (fun r => (r.1.AllSlides.map (·.Body), r.2.AllSlides.map (·.Body))) =
      some ([[NewHeading "H1".toList 1, NewHeading "H2".toList 2, NewHeading "H3".toList 3]],
            [[NewHeading "H1".toList 2, NewHeading "H2".toList 3,
              NewParagraph "#### H3".toList]]) := by
  decide!

/-! ## The TOON text of a deck, line by line -/

theorem foldl_append_of {α : Type} (step : GoString → α → GoString) (g : α → GoString)
    (h : ∀ b x, step b x = b ++ g x) (xs : List α) (b : GoString) :
    xs.foldl step b = b ++ (xs.map g).flatten := by
  induction xs generalizing b with
  | nil => simp
  | cons x xs ih =>
    rw [List.foldl_cons, h, ih]
    simp [List.append_assoc]

theorem foldl_range_spaces (n : Nat) (acc : GoString) :
    (List.range n).foldl (fun b _ => b ++ "  ".toList) acc =
      acc ++ List.replicate (2 * n) ' ' := by
  induction n generalizing acc with
  | zero => simp
  | succ n ih =>
    rw [List.range_succ, List.foldl_append, ih]
    have : 2 * (n + 1) = 2 * n + 2 := by ring
    rw [this, List.replicate_add]
    simp [List.append_assoc]

theorem replicate_four_append (n : Nat) (t : GoString) :
    "    ".toList ++ (List.replicate n ' ' ++ t) = List.replicate (4 + n) ' ' ++ t := by
  rw [List.replicate_add, List.append_assoc]
  rfl

/-- The line that `encodeSlide` writes for a body block. -/
theorem encodeBlock_line (b : Block) :
    "    ".toList ++ NewTOONEncoder.encodeBlock b = (blockLine b).render := by
  unfold blockLine ToonLine.render
  by_cases h1 : b.Kind = BlockBullet
  · simp only [TOONEncoder.encodeBlock, h1, if_true, foldl_range_spaces, List.nil_append,
      List.append_assoc]
    exact replicate_four_append _ _
  · by_cases h2 : b.Kind = BlockNumbered
    · simp only [TOONEncoder.encodeBlock, h1, h2, if_true, if_false, foldl_range_spaces,
        List.nil_append, List.append_assoc]
      exact replicate_four_append _ _
    · simp only [h1, h2, if_false]
      rfl

theorem encodeSlide_lines (s : Slide) :
    NewTOONEncoder.encodeSlide s =
      ((slideLines s).map fun l => l.render ++ "\n".toList).flatten := by
  have hbody : ∀ acc : GoString,
      s.Body.foldl (fun b block =>
        b ++ (NewTOONEncoder.indent ++ NewTOONEncoder.indent) ++
          NewTOONEncoder.encodeBlock block ++ "\n".toList) acc =
        acc ++ ((s.Body.map blockLine).map fun l => l.render ++ "\n".toList).flatten := by
    intro acc
    rw [foldl_append_of _ (fun block => (blockLine block).render ++ "\n".toList)]
    · rw [List.map_map]
      rfl
    · intro b x
      rw [← encodeBlock_line]
      simp [NewTOONEncoder, List.append_assoc]
  have hnotes : ∀ acc : GoString,
      s.Notes.foldl (fun b block =>
        b ++ (NewTOONEncoder.indent ++ NewTOONEncoder.indent) ++ "note ".toList ++
          block.Text ++ "\n".toList) acc =
        acc ++ ((s.Notes.map fun n =>
          ({ indent := 4, text := "note ".toList ++ n.Text } : ToonLine)).map
            fun l => l.render ++ "\n".toList).flatten := by
    intro acc
    rw [foldl_append_of _ (fun n : Block =>
      (({ indent := 4, text := "note ".toList ++ n.Text } : ToonLine).render ++ "\n".toList))]
    · rw [List.map_map]
      rfl
    · intro b x
      simp [NewTOONEncoder, ToonLine.render, List.append_assoc, List.replicate]
  unfold TOONEncoder.encodeSlide slideLines
  simp only [hbody, hnotes]
  have e2 : NewTOONEncoder.indent = [' ', ' '] := rfl
  by_cases ht : s.Title = [] <;> by_cases hs : s.Subtitle = [] <;>
    cases s.Audio <;> cases s.Transition <;>
    simp [ht, hs, e2, ToonLine.render, List.append_assoc, List.replicate]

theorem encodeSection_lines (s : Section) :
    "\n".toList ++ NewTOONEncoder.encodeSection s =
      ((sectionLines s).map fun l => l.render ++ "\n".toList).flatten := by
  have hslides : ∀ acc : GoString,
      s.Slides.foldl (fun b slide => b ++ NewTOONEncoder.encodeSlide slide) acc =
        acc ++ (((s.Slides.map slideLines).flatten).map
          fun l => l.render ++ "\n".toList).flatten := by
    intro acc
    rw [foldl_append_of _ (fun slide => NewTOONEncoder.encodeSlide slide) (fun _ _ => rfl)]
    congr 1
    induction s.Slides with
    | nil => rfl
    | cons x xs ih =>
      rw [List.map_cons, List.flatten_cons, ih, List.map_cons, List.flatten_cons,
        List.map_append, List.flatten_append]
      show NewTOONEncoder.encodeSlide x ++ _ = _
      rw [encodeSlide_lines]
  unfold TOONEncoder.encodeSection sectionLines
  simp only [hslides]
  have e2 : NewTOONEncoder.indent = [' ', ' '] := rfl
  by_cases ht : s.Title = [] <;> cases s.Audio <;>
    simp [ht, e2, ToonLine.render, List.append_assoc, List.replicate]

/-- The TOON text of a deck is its lines, each followed by a newline. -/
theorem EncodeDeck_eq_lines (d : Deck) :
    NewTOONEncoder.EncodeDeck d =
      ((deckLines d).map fun l => l.render ++ "\n".toList).flatten := by
  have hsecs : ∀ acc : GoString,
      d.Sections.foldl (fun b sec => b ++ "\n".toList ++ NewTOONEncoder.encodeSection sec) acc =
        acc ++ (((d.Sections.map sectionLines).flatten).map
          fun l => l.render ++ "\n".toList).flatten := by
    intro acc
    rw [foldl_append_of _ (fun sec => "\n".toList ++ NewTOONEncoder.encodeSection sec)
      (fun _ _ => by simp [List.append_assoc])]
    congr 1
    induction d.Sections with
    | nil => rfl
    | cons x xs ih =>
      rw [List.map_cons, List.flatten_cons, ih, List.map_cons, List.flatten_cons,
        List.map_append, List.flatten_append]
      show ("\n".toList ++ NewTOONEncoder.encodeSection x) ++ _ = _
      rw [encodeSection_lines]
  unfold TOONEncoder.EncodeDeck deckLines
  simp only [hsecs]
  by_cases h1 : d.Meta.Author = [] <;> by_cases h2 : d.Meta.Date = [] <;>
    by_cases h3 : d.Meta.Description = [] <;>
    simp [h1, h2, h3, ToonLine.render, List.append_assoc]

/-! ## No newline inside a line of TOON text -/

theorem digitChar_reDigit (k : Nat) (hk : k < 10) : reDigit (Nat.digitChar k) = true := by
  interval_cases k <;> rfl

theorem toDigitsCore_digits (fuel n : Nat) :
    ∀ c ∈ Nat.toDigitsCore 10 fuel n [], reDigit c = true := by
  induction fuel generalizing n with
  | zero => simp [Nat.toDigitsCore]
  | succ fuel ih =>
    simp only [Nat.toDigitsCore]
    have hd := digitChar_reDigit (n % 10) (Nat.mod_lt _ (by omega))
    split_ifs with h0
    · intro c hc
      simp only [List.mem_singleton] at hc
      rw [hc]; exact hd
    · rw [toDigitsCore_append]
      intro c hc
      simp only [List.mem_append, List.mem_singleton] at hc
      rcases hc with hc | hc
      · exact ih _ c hc
      · rw [hc]; exact hd

theorem itoa_digits (n : Nat) : ∀ c ∈ itoa n, reDigit c = true :=
  toDigitsCore_digits _ _

theorem reDigit_ne_newline (c : Char) (h : reDigit c = true) : c ≠ '\n' := by
  rintro rfl
  revert h
  decide

theorem itoa_no_newline (n : Nat) : '\n' ∉ itoa n :=
  fun h => reDigit_ne_newline _ (itoa_digits n _ h) rfl

theorem ofNat_digit_ne_newline (k : Nat) (hk : k < 10) : Char.ofNat (k + 48) ≠ '\n' := by
  interval_cases k <;> decide

theorem fmtFrac_loop_no_newline (prec v : Nat) (print : Bool) (w : GoString)
    (hw : '\n' ∉ w) : '\n' ∉ (fmtFrac.loop prec v print w).1 := by
  induction prec generalizing v print w with
  | zero => exact hw
  | succ prec ih =>
    simp only [fmtFrac.loop]
    apply ih
    split_ifs
    · simp only [List.mem_cons, not_or]
      exact ⟨fun e => ofNat_digit_ne_newline (v % 10) (Nat.mod_lt _ (by omega)) e.symm, hw⟩
    · exact hw

theorem fmtFrac_no_newline (v prec : Nat) : '\n' ∉ (fmtFrac v prec).1 := by
  unfold fmtFrac
  have := fmtFrac_loop_no_newline prec v false [] (by simp)
  simp only []
  split_ifs
  · simp only [List.mem_cons, not_or]
    exact ⟨by decide, this⟩
  · exact this

theorem fmtInt_no_newline (v : Nat) : '\n' ∉ fmtInt v :=
  itoa_no_newline v

theorem not_mem_append {c : Char} {a b : GoString} (ha : c ∉ a) (hb : c ∉ b) : c ∉ a ++ b := by
  simp [ha, hb]

/-- The text of a duration holds no newline. -/
theorem Duration_String_no_newline (d : Int) : '\n' ∉ Duration.String d := by
  have hi := fmtInt_no_newline
  have hf := fmtFrac_no_newline
  have hm : '\n' ∉ "m".toList := by decide
  have hh : '\n' ∉ "h".toList := by decide
  have hs : '\n' ∉ "s".toList := by decide
  have hns : '\n' ∉ "ns".toList := by decide
  have hus : '\n' ∉ "µs".toList := by decide
  have hms : '\n' ∉ "ms".toList := by decide
  have h0 : '\n' ∉ "0s".toList := by decide
  have body : '\n' ∉ (if d.natAbs < 1000000000 then
      if d.natAbs = 0 then "0s".toList
      else if d.natAbs < 1000 then fmtInt d.natAbs ++ "ns".toList
      else if d.natAbs < 1000000 then
        fmtInt (fmtFrac d.natAbs 3).2 ++ (fmtFrac d.natAbs 3).1 ++ "µs".toList
      else fmtInt (fmtFrac d.natAbs 6).2 ++ (fmtFrac d.natAbs 6).1 ++ "ms".toList
    else
      if 0 < (fmtFrac d.natAbs 9).2 / 60 then
        if 0 < (fmtFrac d.natAbs 9).2 / 60 / 60 then
          fmtInt ((fmtFrac d.natAbs 9).2 / 60 / 60) ++ "h".toList ++
            (fmtInt ((fmtFrac d.natAbs 9).2 / 60 % 60) ++ "m".toList ++
              (fmtInt ((fmtFrac d.natAbs 9).2 % 60) ++ (fmtFrac d.natAbs 9).1 ++ "s".toList))
        else
          fmtInt ((fmtFrac d.natAbs 9).2 / 60 % 60) ++ "m".toList ++
            (fmtInt ((fmtFrac d.natAbs 9).2 % 60) ++ (fmtFrac d.natAbs 9).1 ++ "s".toList)
      else fmtInt ((fmtFrac d.natAbs 9).2 % 60) ++ (fmtFrac d.natAbs 9).1 ++ "s".toList) := by
    split_ifs
    · exact h0
    · exact not_mem_append (hi _) hns
    · exact not_mem_append (not_mem_append (hi _) (hf _ _)) hus
    · exact not_mem_append (not_mem_append (hi _) (hf _ _)) hms
    · exact not_mem_append (not_mem_append (hi _) hh)
        (not_mem_append (not_mem_append (hi _) hm)
          (not_mem_append (not_mem_append (hi _) (hf _ _)) hs))
    · exact not_mem_append (not_mem_append (hi _) hm)
        (not_mem_append (not_mem_append (hi _) (hf _ _)) hs)
    · exact not_mem_append (not_mem_append (hi _) (hf _ _)) hs
  have outer : ∀ X : GoString, '\n' ∉ X →
      '\n' ∉ (if d < 0 ∧ d.natAbs ≠ 0 then '-' :: X else X) := by
    intro X hX
    split_ifs
    · simp only [List.mem_cons, not_or]
      exact ⟨by decide, hX⟩
    · exact hX
  exact outer _ body

theorem encodeAudio_no_newline (a : Audio) (h : a.noNewline = true) :
    '\n' ∉ NewTOONEncoder.encodeAudio a := by
  simp only [Audio.noNewline, decide_eq_true_eq] at h
  obtain ⟨h1, h2, h3, h4⟩ := h
  have hd := Duration_String_no_newline a.Duration
  have ha : '\n' ∉ "audio ".toList := by decide
  have hsp : '\n' ∉ " ".toList := by decide
  have hv : '\n' ∉ " voice=".toList := by decide
  have hdu : '\n' ∉ " duration=".toList := by decide
  have b0 : '\n' ∉ "audio ".toList ++ a.Source := not_mem_append ha h1
  have b1 : '\n' ∉ (if a.Source = AudioSourceFile then "audio ".toList ++ a.Source ++ " ".toList ++ a.Path
      else if a.Source = AudioSourceURL then "audio ".toList ++ a.Source ++ " ".toList ++ a.URL
      else if a.Source = AudioSourceTTS then
        if a.Voice ≠ [] then "audio ".toList ++ a.Source ++ " voice=".toList ++ a.Voice
        else "audio ".toList ++ a.Source
      else if a.Source = AudioSourceNotes then
        if a.Voice ≠ [] then "audio ".toList ++ a.Source ++ " voice=".toList ++ a.Voice
        else "audio ".toList ++ a.Source
      else "audio ".toList ++ a.Source) := by
    split_ifs
    · exact not_mem_append (not_mem_append b0 hsp) h2
    · exact not_mem_append (not_mem_append b0 hsp) h3
    · exact not_mem_append (not_mem_append b0 hv) h4
    · exact b0
    · exact not_mem_append (not_mem_append b0 hv) h4
    · exact b0
    · exact b0
  have outer : ∀ X : GoString, '\n' ∉ X →
      '\n' ∉ (if 0 < a.Duration then X ++ " duration=".toList ++ Duration.String a.Duration
        else X) := by
    intro X hX
    split_ifs
    · exact not_mem_append (not_mem_append hX hdu) hd
    · exact hX
  exact outer _ b1

theorem replicate_space_no_newline (n : Nat) : '\n' ∉ List.replicate n ' ' := by
  intro h
  have := List.eq_of_mem_replicate h
  revert this
  decide

theorem blockLine_no_newline (b : Block) (h : b.noNewline = true) :
    '\n' ∉ (blockLine b).text := by
  simp only [Block.noNewline, decide_eq_true_eq] at h
  obtain ⟨h1, h2, h3, h4⟩ := h
  have hsp : '\n' ∉ " ".toList := by decide
  unfold blockLine
  split_ifs with k1 k2
  · exact not_mem_append (by decide) h1
  · exact not_mem_append (by decide) h1
  · show '\n' ∉ NewTOONEncoder.encodeBlock b
    unfold TOONEncoder.encodeBlock
    simp only [k1, k2, if_false]
    split_ifs
    · exact not_mem_append (by decide) h1
    · exact not_mem_append (not_mem_append (not_mem_append (by decide) h2) hsp) h1
    · exact not_mem_append (by decide) h1
    · exact not_mem_append (not_mem_append (not_mem_append (by decide) h3) hsp) h4
    · exact not_mem_append (by decide) h3
    · exact not_mem_append (by decide) h1
    · exact not_mem_append (not_mem_append (not_mem_append (by decide) (itoa_no_newline _)) hsp) h1
    · exact not_mem_append (by decide) h1
    · simp

theorem slideLines_no_newline (s : Slide) (h : s.noNewline = true) :
    ∀ l ∈ slideLines s, '\n' ∉ l.text := by
  simp only [Slide.noNewline, Bool.and_eq_true, decide_eq_true_eq, List.all_eq_true] at h
  obtain ⟨⟨⟨⟨⟨h1, h2, h3, h4⟩, hb⟩, hn⟩, ha⟩, ht⟩ := h
  have hsp : '\n' ∉ " ".toList := by decide
  intro l hl
  simp only [slideLines, List.mem_append, List.mem_map] at hl
  rcases hl with (((((hl | hl) | hl) | ⟨b, hb', rfl⟩) | ⟨n, hn', rfl⟩) | hl) | hl
  · simp only [List.mem_singleton] at hl
    subst hl
    exact not_mem_append (not_mem_append (not_mem_append (by decide) h1) hsp) h2
  · split_ifs at hl
    · simp only [List.mem_singleton] at hl
      subst hl
      exact not_mem_append (by decide) h3
    · cases hl
  · split_ifs at hl
    · simp only [List.mem_singleton] at hl
      subst hl
      exact not_mem_append (by decide) h4
    · cases hl
  · exact blockLine_no_newline b (hb b hb')
  · have := hn n hn'
    simp only [Block.noNewline, decide_eq_true_eq] at this
    exact not_mem_append (by decide) this.1
  · cases hA : s.Audio with
    | none => rw [hA] at hl; cases hl
    | some a =>
      rw [hA] at hl ha
      simp only [List.mem_singleton] at hl
      subst hl
      exact encodeAudio_no_newline a ha
  · cases hT : s.Transition with
    | none => rw [hT] at hl; cases hl
    | some t =>
      rw [hT] at hl ht
      simp only [List.mem_singleton] at hl
      subst hl
      simp only [decide_eq_true_eq] at ht
      exact not_mem_append (by decide) ht

theorem sectionLines_no_newline (s : Section) (h : s.noNewline = true) :
    ∀ l ∈ sectionLines s, '\n' ∉ l.text := by
  simp only [Section.noNewline, Bool.and_eq_true, decide_eq_true_eq, List.all_eq_true] at h
  obtain ⟨⟨⟨h1, h2⟩, ha⟩, hs⟩ := h
  intro l hl
  simp only [sectionLines, List.mem_append, List.mem_flatten, List.mem_map] at hl
  rcases hl with (hl | hl) | ⟨ls, ⟨sl, hsl, rfl⟩, hl⟩
  · simp only [List.mem_cons, List.mem_singleton, List.not_mem_nil, or_false] at hl
    rcases hl with rfl | rfl
    · simp
    · refine not_mem_append (not_mem_append (by decide) h1) ?_
      split_ifs
      · exact not_mem_append (by decide) h2
      · simp
  · cases hA : s.Audio with
    | none => rw [hA] at hl; cases hl
    | some a =>
      rw [hA] at hl ha
      simp only [List.mem_singleton] at hl
      subst hl
      exact encodeAudio_no_newline a ha
  · exact slideLines_no_newline sl (hs sl hsl) l hl

theorem deckLines_no_newline (d : Deck) (h : d.noNewline = true) :
    ∀ l ∈ deckLines d, '\n' ∉ l.text := by
  simp only [Deck.noNewline, Bool.and_eq_true, decide_eq_true_eq, List.all_eq_true] at h
  obtain ⟨⟨h1, h2, h3, h4⟩, hs⟩ := h
  intro l hl
  simp only [deckLines, List.mem_append, List.mem_flatten, List.mem_map] at hl
  rcases hl with (((hl | hl) | hl) | hl) | ⟨ls, ⟨sec, hsec, rfl⟩, hl⟩
  · simp only [List.mem_singleton] at hl
    subst hl
    exact not_mem_append (by decide) h1
  · split_ifs at hl
    · simp only [List.mem_singleton] at hl
      subst hl
      exact not_mem_append (by decide) h2
    · cases hl
  · split_ifs at hl
    · simp only [List.mem_singleton] at hl
      subst hl
      exact not_mem_append (by decide) h3
    · cases hl
  · split_ifs at hl
    · simp only [List.mem_singleton] at hl
      subst hl
      exact not_mem_append (by decide) h4
    · cases hl
  · exact sectionLines_no_newline sec (hs sec hsec) l hl

/-- A text of lines that each end in a newline splits into these lines and a last
empty piece. -/
theorem Split_lines (ls : List GoString) (h : ∀ l ∈ ls, '\n' ∉ l) :
    Split ((ls.map fun l => l ++ "\n".toList).flatten) '\n' = ls ++ [[]] := by
  induction ls with
  | nil => rfl
  | cons l rest ih =>
    rw [List.map_cons, List.flatten_cons]
    have : l ++ "\n".toList ++ (rest.map fun l => l ++ "\n".toList).flatten =
        l ++ '\n' :: (rest.map fun l => l ++ "\n".toList).flatten := by simp
    rw [this, Split_append_sep l '\n' (h l (by simp)), ih (fun x hx => h x (by simp [hx]))]
    rfl

/-- The lines of the TOON text of a deck whose text fields hold no newline. -/
theorem Split_EncodeDeck (d : Deck) (h : d.noNewline = true) :
    Split (NewTOONEncoder.EncodeDeck d) '\n' = (deckLines d).map ToonLine.render ++ [[]] := by
  rw [EncodeDeck_eq_lines]
  have : ((deckLines d).map fun l => l.render ++ "\n".toList) =
      ((deckLines d).map ToonLine.render).map fun l => l ++ "\n".toList := by
    rw [List.map_map]
    rfl
  rw [this, Split_lines]
  intro l hl
  simp only [List.mem_map] at hl
  obtain ⟨tl, htl, rfl⟩ := hl
  exact not_mem_append (replicate_space_no_newline _) (deckLines_no_newline d h tl htl)

/-! ## The keyword that opens a line of TOON text -/

theorem keyword_any (kw : GoString) (hk : kw ∈ toonKeywords) (t : GoString)
    (h : HasPrefix t kw = true) : toonKeywords.any (fun kw => HasPrefix t kw) = true :=
  List.any_eq_true.mpr ⟨kw, hk, h⟩

theorem keyword_head (t : GoString)
    (h : toonKeywords.any (fun kw => HasPrefix t kw) = true) : t.head? ≠ some ' ' := by
  obtain ⟨kw, hk, hp⟩ := List.any_eq_true.mp h
  rw [HasPrefix_iff] at hp
  obtain ⟨r, rfl⟩ := hp
  simp only [toonKeywords, List.mem_cons, List.mem_singleton, List.not_mem_nil, or_false] at hk
  rcases hk with rfl | rfl | rfl | rfl | rfl | rfl | rfl | rfl | rfl | rfl | rfl | rfl | rfl |
    rfl | rfl | rfl <;> simp

theorem blockLine_keyword (b : Block) :
    ((blockLine b).text = [] ∧ BlockKind.IsValid b.Kind = false) ∨
      toonKeywords.any (fun kw => HasPrefix (blockLine b).text kw) = true := by
  unfold blockLine
  split_ifs with k1 k2
  · exact Or.inr (keyword_any "bullet".toList (by decide) _ rfl)
  · exact Or.inr (keyword_any "numbered".toList (by decide) _ rfl)
  · show (NewTOONEncoder.encodeBlock b = [] ∧ _) ∨
      toonKeywords.any (fun kw => HasPrefix (NewTOONEncoder.encodeBlock b) kw) = true
    unfold TOONEncoder.encodeBlock
    simp only [k1, k2, if_false]
    split_ifs with k3 k4 _ k5 _ k6 k7
    · exact Or.inr (keyword_any "para".toList (by decide) _ rfl)
    · exact Or.inr (keyword_any "code".toList (by decide) _ rfl)
    · exact Or.inr (keyword_any "code".toList (by decide) _ rfl)
    · exact Or.inr (keyword_any "image".toList (by decide) _ rfl)
    · exact Or.inr (keyword_any "image".toList (by decide) _ rfl)
    · exact Or.inr (keyword_any "quote".toList (by decide) _ rfl)
    · exact Or.inr (keyword_any "heading".toList (by decide) _ rfl)
    · exact Or.inr (keyword_any "heading".toList (by decide) _ rfl)
    · left
      refine ⟨rfl, ?_⟩
      simp [BlockKind.IsValid, k1, k2, k3, k4, k5, k6, k7]

theorem encodeAudio_keyword (a : Audio) :
    toonKeywords.any (fun kw => HasPrefix (NewTOONEncoder.encodeAudio a) kw) = true := by
  apply keyword_any "audio".toList (by decide)
  rw [HasPrefix_iff]
  unfold TOONEncoder.encodeAudio
  simp only []
  split_ifs <;> exact ⟨_, by simp only [List.append_assoc, List.cons_append, List.nil_append,
    show "audio ".toList = "audio".toList ++ [' '] from rfl]; rfl⟩

/-- A line of the text of a slide is empty only for a block of a kind outside the
model; any other line opens with a keyword. -/
theorem slideLines_keyword (s : Slide) :
    ∀ l ∈ slideLines s,
      (l.text = [] ∧ ∃ b ∈ s.Body, BlockKind.IsValid b.Kind = false) ∨
        toonKeywords.any (fun kw => HasPrefix l.text kw) = true := by
  intro l hl
  simp only [slideLines, List.mem_append, List.mem_map] at hl
  rcases hl with (((((hl | hl) | hl) | ⟨b, hb', rfl⟩) | ⟨n, hn', rfl⟩) | hl) | hl
  · simp only [List.mem_singleton] at hl
    subst hl
    exact Or.inr (keyword_any "slide".toList (by decide) _ rfl)
  · split_ifs at hl
    · simp only [List.mem_singleton] at hl
      subst hl
      exact Or.inr (keyword_any "title".toList (by decide) _ rfl)
    · cases hl
  · split_ifs at hl
    · simp only [List.mem_singleton] at hl
      subst hl
      exact Or.inr (keyword_any "subtitle".toList (by decide) _ rfl)
    · cases hl
  · rcases blockLine_keyword b with ⟨h1, h2⟩ | h
    · exact Or.inl ⟨h1, b, hb', h2⟩
    · exact Or.inr h
  · exact Or.inr (keyword_any "note".toList (by decide) _ rfl)
  · cases hA : s.Audio with
    | none => rw [hA] at hl; cases hl
    | some a =>
      rw [hA] at hl
      simp only [List.mem_singleton] at hl
      subst hl
      exact Or.inr (encodeAudio_keyword a)
  · cases hT : s.Transition with
    | none => rw [hT] at hl; cases hl
    | some t =>
      rw [hT] at hl
      simp only [List.mem_singleton] at hl
      subst hl
      exact Or.inr (keyword_any "transition".toList (by decide) _ rfl)

/-- A line of the text of a deck is the empty line in front of a section, the line of
a block of a kind outside the model, or opens with a keyword. -/
theorem deckLines_keyword (d : Deck) :
    ∀ l ∈ deckLines d,
      (l.text = [] ∧ (l.indent = 0 ∨ d.validKinds = false)) ∨
        toonKeywords.any (fun kw => HasPrefix l.text kw) = true := by
  intro l hl
  simp only [deckLines, List.mem_append, List.mem_flatten, List.mem_map] at hl
  rcases hl with (((hl | hl) | hl) | hl) | ⟨ls, ⟨sec, hsec, rfl⟩, hl⟩
  · simp only [List.mem_singleton] at hl
    subst hl
    exact Or.inr (keyword_any "deck".toList (by decide) _ rfl)
  · split_ifs at hl
    · simp only [List.mem_singleton] at hl
      subst hl
      exact Or.inr (keyword_any "meta".toList (by decide) _ rfl)
    · cases hl
  · split_ifs at hl
    · simp only [List.mem_singleton] at hl
      subst hl
      exact Or.inr (keyword_any "meta".toList (by decide) _ rfl)
    · cases hl
  · split_ifs at hl
    · simp only [List.mem_singleton] at hl
      subst hl
      exact Or.inr (keyword_any "meta".toList (by decide) _ rfl)
    · cases hl
  · simp only [sectionLines, List.mem_append, List.mem_flatten, List.mem_map] at hl
    rcases hl with (hl | hl) | ⟨ls, ⟨sl, hsl, rfl⟩, hl⟩
    · simp only [List.mem_cons, List.mem_singleton, List.not_mem_nil, or_false] at hl
      rcases hl with rfl | rfl
      · exact Or.inl ⟨rfl, Or.inl rfl⟩
      · exact Or.inr (keyword_any "section".toList (by decide) _ rfl)
    · cases hA : sec.Audio with
      | none => rw [hA] at hl; cases hl
      | some a =>
        rw [hA] at hl
        simp only [List.mem_singleton] at hl
        subst hl
        exact Or.inr (encodeAudio_keyword a)
    · rcases slideLines_keyword sl l hl with ⟨h1, b, hb, hv⟩ | h
      · refine Or.inl ⟨h1, Or.inr ?_⟩
        cases hvk : d.validKinds with
        | false => rfl
        | true =>
          simp only [Deck.validKinds, List.all_eq_true] at hvk
          rw [hvk sec hsec sl hsl b hb] at hv
          cases hv
      · exact Or.inr h

theorem deckLines_head (d : Deck) : ∀ l ∈ deckLines d, l.text.head? ≠ some ' ' := by
  intro l hl
  rcases deckLines_keyword d l hl with ⟨h, _⟩ | h
  · rw [h]
    simp
  · exact keyword_head _ h

/-- C29: for a deck whose text fields hold no newline, the lines of its TOON text are
the lines `deckLines` lists with their indentation: the `deck`, `meta` and `section`
lines without indentation, each `slide` line after two spaces, each title, subtitle,
body, note, audio and transition line of a slide after four spaces, and a bullet or
numbered item of nesting level `L` after `4 + 2 * L` spaces; the text after the
indentation does not start with a space.  A deck without metadata and without
sections has the text `deck <Title>` and a newline. -/
theorem EncodeDeck_indentation (d : Deck) (h : d.noNewline = true) :
    Split (NewTOONEncoder.EncodeDeck d) '\n' = (deckLines d).map ToonLine.render ++ [[]] ∧
    (∀ l ∈ deckLines d, l.text.head? ≠ some ' ') ∧
    (∀ b : Block, b.Kind = BlockBullet ∨ b.Kind = BlockNumbered → 0 ≤ b.Level →
      ((blockLine b).indent : Int) = 4 + 2 * b.Level) ∧
    (∀ b : Block, b.Kind ≠ BlockBullet → b.Kind ≠ BlockNumbered → (blockLine b).indent = 4) ∧
    (d.Meta.Author = [] → d.Meta.Date = [] → d.Meta.Description = [] → d.Sections = [] →
      NewTOONEncoder.EncodeDeck d = "deck ".toList ++ d.Title ++ "\n".toList) := by
  refine ⟨Split_EncodeDeck d h, deckLines_head d, ?_, ?_, ?_⟩
  · intro b hb hl
    unfold blockLine
    rcases hb with hb | hb
    · rw [if_pos hb]
      push_cast
      rw [Int.toNat_of_nonneg hl]
    · by_cases h1 : b.Kind = BlockBullet
      · rw [if_pos h1]
        push_cast
        rw [Int.toNat_of_nonneg hl]
      · rw [if_neg h1, if_pos hb]
        push_cast
        rw [Int.toNat_of_nonneg hl]
  · intro b h1 h2
    simp [blockLine, h1, h2]
  · intro h1 h2 h3 h4
    simp [TOONEncoder.EncodeDeck, h1, h2, h3, h4]

set_option maxRecDepth 100000 in
theorem EncodeDeck_indentation_witness :
    Split (NewTOONEncoder.EncodeDeck blocksDeck) '\n' =
      ["deck Test".toList, [], "section sec1".toList, "  slide s1 title_body".toList,
       "    bullet First item".toList, "      bullet Nested item".toList,
       "    numbered Numbered item".toList, "    para A paragraph".toList,
       "    code go fmt.Println()".toList,
       "    image https://example.com/img.png Example".toList, "    quote A quote".toList,
       "    heading 2 Subheading".toList, "    note Speaker note".toList, []] :=
  ((EncodeDeck_indentation blocksDeck (by decide)).1).trans (by decide)

theorem dropWhile_replicate_append (n : Nat) (t : GoString) (h : t.head? ≠ some ' ') :
    (List.replicate n ' ' ++ t).dropWhile (· == ' ') = t := by
  induction n with
  | zero =>
    cases t with
    | nil => rfl
    | cons c cs =>
      have : (c == ' ') = false := by
        rw [beq_eq_false_iff_ne]
        exact fun e => h (by rw [e]; rfl)
      simp only [List.replicate_zero, List.nil_append, List.dropWhile, this]
  | succ n ih =>
    rw [List.replicate_succ, List.cons_append, List.dropWhile_cons]
    simpa using ih

/-- C28: for a deck whose text fields hold no newline and whose body blocks have
kinds of the model, every non-empty line of the TOON text, after its leading spaces,
begins with one of the keywords `deck`, `meta`, `section`, `slide`, `title`,
`subtitle`, `bullet`, `numbered`, `para`, `code`, `image`, `quote`, `heading`, `note`,
`audio`, `transition`. -/
theorem EncodeDeck_keywords (d : Deck) (h : d.noNewline = true) (hk : d.validKinds = true) :
    ∀ line ∈ Split (NewTOONEncoder.EncodeDeck d) '\n',
      line = [] ∨ beginsWithKeyword line = true := by
  intro line hline
  rw [Split_EncodeDeck d h] at hline
  simp only [List.mem_append, List.mem_map, List.mem_singleton] at hline
  rcases hline with ⟨l, hl, rfl⟩ | rfl
  · rcases deckLines_keyword d l hl with ⟨ht, hi⟩ | hkw
    · left
      rcases hi with hi | hi
      · simp [ToonLine.render, ht, hi]
      · rw [hk] at hi
        cases hi
    · right
      unfold beginsWithKeyword ToonLine.render
      rw [dropWhile_replicate_append _ _ (keyword_head _ hkw)]
      exact hkw
  · exact Or.inl rfl

set_option maxRecDepth 100000 in
theorem EncodeDeck_keywords_witness :
    Split (NewTOONEncoder.EncodeDeck blocksDeck) '\n' ≠ [] ∧
      ∀ line ∈ Split (NewTOONEncoder.EncodeDeck blocksDeck) '\n',
        line = [] ∨ beginsWithKeyword line = true :=
  ⟨by decide, EncodeDeck_keywords blocksDeck (by decide) (by decide)⟩

set_option maxRecDepth 100000 in
/-- The text of a code block of two lines spreads over two lines of the TOON text,
and the second one begins with no keyword. -/
theorem EncodeDeck_code_lines_counterexample :
    NewTOONEncoder.EncodeDeck codeDeck =
        ("deck Code\n\nsection section-0 default\n  slide s0-0 title_body\n    title Code\n" ++
          "    code go func main() \x7b\n\x7d\n").toList ∧
      "\x7d".toList ∈ Split (NewTOONEncoder.EncodeDeck codeDeck) '\n' ∧
      beginsWithKeyword "\x7d".toList = false ∧
      ¬ ∀ line ∈ Split (NewTOONEncoder.EncodeDeck codeDeck) '\n',
        line = [] ∨ beginsWithKeyword line = true := by
  decide

/-! ## Matches with their capture offsets -/

theorem RunsTo_nil (s : GoString) (pos : Nat) : RunsTo [] s pos [] pos :=
  fun _ => rfl

theorem RunsTo_chr (p : Char → Bool) (k : List RE) (c : Char) (cs : GoString) (pos e : Nat)
    (marks : List Nat) (hc : p c = true) (h : RunsTo k cs (pos + 1) marks e) :
    RunsTo (RE.chr p :: k) (c :: cs) pos marks e :=
  fun prev => by rw [RE_run_chr_cons _ _ _ _ _ _ hc]; exact h _

theorem RunsTo_openGroup (k : List RE) (s : GoString) (pos e : Nat) (marks : List Nat)
    (h : RunsTo k s pos marks e) : RunsTo (RE.openGroup :: k) s pos (pos :: marks) e :=
  fun prev => by rw [RE_run_openGroup, h]; rfl

theorem RunsTo_closeGroup (k : List RE) (s : GoString) (pos e : Nat) (marks : List Nat)
    (h : RunsTo k s pos marks e) : RunsTo (RE.closeGroup :: k) s pos (pos :: marks) e :=
  fun prev => by rw [RE_run_closeGroup, h]; rfl

theorem RunsTo_star (p : Char → Bool) (k : List RE) (xs s : GoString) (pos e : Nat)
    (marks : List Nat) (hxs : ∀ c ∈ xs, p c = true) (hs : ∀ c ∈ s.head?, p c = false)
    (h : RunsTo k s (pos + xs.length) marks e) :
    RunsTo (RE.star p true :: k) (xs ++ s) pos marks e := by
  intro prev
  rw [RE_run_star_greedy]
  exact starGreedy_run _ _ _ xs s pos _ hxs hs h

theorem RunsTo_lit (w : GoString) (k : List RE) (s : GoString) (pos e : Nat)
    (marks : List Nat) (h : RunsTo k s (pos + w.length) marks e) :
    RunsTo (w.map (fun c => RE.chr (· == c)) ++ k) (w ++ s) pos marks e := by
  induction w generalizing pos with
  | nil => simpa using h
  | cons c w ih =>
    rw [List.map_cons, List.cons_append, List.cons_append]
    apply RunsTo_chr _ _ _ _ _ _ _ (by simp)
    apply ih
    rw [List.length_cons] at h
    rwa [Nat.add_assoc, Nat.add_comm 1]

theorem RunsTo_bot (k : List RE) (s : GoString) (pos e : Nat) (marks : List Nat)
    (h : RunsTo k s pos marks e) :
    RE.run (RE.bot :: k) none s pos = some (marks, e) := by
  simp only [RE.run, Option.isNone_none, if_true]
  exact h none

theorem RunsTo_eot (pos : Nat) : RunsTo [RE.eot] [] pos [] pos :=
  fun _ => rfl

/-- The pattern of numbered items matches a line made of digits, a dot, white space
and a text that starts with no white space and holds no newline, with the digits and
the text as its groups. -/
theorem reNumbered_match (ds ws rest : GoString)
    (hds : ds ≠ []) (hdig : ∀ c ∈ ds, reDigit c = true)
    (hws : ws ≠ []) (hsp : ∀ c ∈ ws, reSpace c = true)
    (hrest : rest ≠ []) (hhead : ∀ c ∈ rest.head?, reSpace c = false)
    (hnl : '\n' ∉ rest) :
    RE.run reNumbered none (ds ++ '.' :: (ws ++ rest)) 0 =
      some ([0, ds.length, ds.length + 1 + ws.length,
          ds.length + 1 + ws.length + rest.length],
        ds.length + 1 + ws.length + rest.length) := by
  obtain ⟨d0, ds', rfl⟩ := List.exists_cons_of_ne_nil hds
  obtain ⟨w0, ws', rfl⟩ := List.exists_cons_of_ne_nil hws
  obtain ⟨r0, rest', rfl⟩ := List.exists_cons_of_ne_nil hrest
  have hre : reNumbered = RE.bot :: RE.openGroup :: RE.chr reDigit :: RE.star reDigit true ::
      RE.closeGroup :: RE.chr (· == '.') :: RE.chr reSpace :: RE.star reSpace true ::
      RE.openGroup :: RE.chr reDot :: RE.star reDot true :: RE.closeGroup :: [RE.eot] := rfl
  rw [hre]
  have hdot : ∀ c ∈ r0 :: rest', reDot c = true := by
    intro c hc
    have : c ≠ '\n' := fun e => hnl (e ▸ hc)
    simp [reDot, this]
  apply RunsTo_bot
  have key : RunsTo (RE.openGroup :: RE.chr reDigit :: RE.star reDigit true ::
      RE.closeGroup :: RE.chr (· == '.') :: RE.chr reSpace :: RE.star reSpace true ::
      RE.openGroup :: RE.chr reDot :: RE.star reDot true :: RE.closeGroup :: [RE.eot])
      (d0 :: (ds' ++ '.' :: (w0 :: (ws' ++ (r0 :: (rest' ++ [])))))) 0
      [0, 0 + 1 + ds'.length, 0 + 1 + ds'.length + 1 + 1 + ws'.length,
        0 + 1 + ds'.length + 1 + 1 + ws'.length + 1 + rest'.length]
      (0 + 1 + ds'.length + 1 + 1 + ws'.length + 1 + rest'.length) := by
    apply RunsTo_openGroup
    apply RunsTo_chr _ _ _ _ _ _ _ (hdig d0 (by simp))
    apply RunsTo_star _ _ ds' _ _ _ _ (fun c hc => hdig c (by simp [hc]))
      (by intro c hc
          simp only [List.head?_cons, Option.mem_def, Option.some.injEq] at hc
          subst hc; decide)
    apply RunsTo_closeGroup
    apply RunsTo_chr _ _ _ _ _ _ _ (by decide)
    apply RunsTo_chr _ _ _ _ _ _ _ (hsp w0 (by simp))
    apply RunsTo_star _ _ ws' _ _ _ _ (fun c hc => hsp c (by simp [hc]))
      (by intro c hc
          simp only [List.head?_cons, Option.mem_def, Option.some.injEq] at hc
          exact hhead c (by simp [hc]))
    apply RunsTo_openGroup
    apply RunsTo_chr _ _ _ _ _ _ _ (hdot r0 (by simp))
    apply RunsTo_star _ _ rest' _ _ _ _ (fun c hc => hdot c (by simp [hc])) (by simp)
    apply RunsTo_closeGroup
    exact RunsTo_eot _
  have e1 : (d0 :: ds') ++ '.' :: ((w0 :: ws') ++ (r0 :: rest')) =
      d0 :: (ds' ++ '.' :: (w0 :: (ws' ++ (r0 :: (rest' ++ []))))) := by simp
  rw [e1]
  have e2 : [0, (d0 :: ds').length, (d0 :: ds').length + 1 + (w0 :: ws').length,
      (d0 :: ds').length + 1 + (w0 :: ws').length + (r0 :: rest').length] =
      [0, 0 + 1 + ds'.length, 0 + 1 + ds'.length + 1 + 1 + ws'.length,
        0 + 1 + ds'.length + 1 + 1 + ws'.length + 1 + rest'.length] := by
    simp only [List.length_cons, List.cons.injEq, and_true, true_and]
    omega
  have e3 : (d0 :: ds').length + 1 + (w0 :: ws').length + (r0 :: rest').length =
      0 + 1 + ds'.length + 1 + 1 + ws'.length + 1 + rest'.length := by
    simp only [List.length_cons]
    omega
  rw [e2, e3]
  exact key

/-! ## Numbered items -/

theorem findAllFrom_bot_skip (k : List RE) (s : GoString) (c : Char) (skip : Nat) :
    findAllFrom (RE.bot :: k) (some c) s skip = [] := by
  induction s generalizing c skip with
  | nil => cases skip <;> simp [findAllFrom, RE.run]
  | cons d ds ih =>
    cases skip with
    | zero => simp [findAllFrom, RE.run, ih]
    | succ n => simp [findAllFrom, ih]

/-- The search for the pattern of numbered items finds a match only at the start of
the text. -/
theorem FindAllStringSubmatch_reNumbered (t : GoString) :
    FindAllStringSubmatch reNumbered t =
      match RE.run reNumbered none t 0 with
      | some (marks, e) => [submatches t marks e]
      | none => [] := by
  have hre : reNumbered = RE.bot :: reNumbered.tail := rfl
  unfold FindAllStringSubmatch
  cases t with
  | nil => rfl
  | cons c cs =>
    simp only [findAllFrom]
    cases hr : RE.run reNumbered none (c :: cs) 0 with
    | none =>
      simp only
      rw [hre, findAllFrom_bot_some]
    | some r =>
      simp only
      rw [hre, findAllFrom_bot_skip]

theorem numbered_of_parts (ds ws rest : GoString)
    (hds : ds ≠ []) (hdig : ∀ c ∈ ds, reDigit c = true)
    (hws : ws ≠ []) (hsp : ∀ c ∈ ws, reSpace c = true)
    (hrest : rest ≠ []) (hhead : ∀ c ∈ rest.head?, reSpace c = false)
    (hnl : '\n' ∉ rest) :
    isNumberedItem (ds ++ '.' :: (ws ++ rest)) = true ∧
      extractNumberedText (ds ++ '.' :: (ws ++ rest)) = some rest := by
  have hm := reNumbered_match ds ws rest hds hdig hws hsp hrest hhead hnl
  have hf := FindAllStringSubmatch_reNumbered (ds ++ '.' :: (ws ++ rest))
  rw [hm] at hf
  simp only at hf
  constructor
  · unfold isNumberedItem MatchString
    rw [hf]
    rfl
  · unfold extractNumberedText FindStringSubmatch
    rw [hf]
    simp only [List.headD_cons, submatches, submatches.groups, List.length_cons,
      List.length_nil]
    rw [if_pos (by omega)]
    have e : (List.drop (ds.length + 1 + ws.length) (ds ++ '.' :: (ws ++ rest))) = rest := by
      have : ds ++ '.' :: (ws ++ rest) = (ds ++ '.' :: ws) ++ rest := by simp
      rw [this]
      have hl : (ds ++ '.' :: ws).length = ds.length + 1 + ws.length := by
        simp only [List.length_append, List.length_cons]; omega
      rw [← hl, List.drop_left]
    rw [e]
    have e2 : ds.length + 1 + ws.length + rest.length - (ds.length + 1 + ws.length) =
        rest.length := by omega
    rw [e2, List.take_length]
    rfl

theorem Option_map_some_elim {α β : Type} (f : α → β) (o : Option α) (r : β)
    (h : o.map f = some r) : ∃ a, o = some a := by
  cases o with
  | none => cases h
  | some a => exact ⟨a, rfl⟩

/-- A trimmed line that is a numbered item is made of digits, a dot, white space and
a text that starts with no white space. -/
theorem numbered_shape (t : GoString) (h : isNumberedItem t = true)
    (htrim : TrimSpace t = t) :
    ∃ ds ws rest, t = ds ++ '.' :: (ws ++ rest) ∧ ds ≠ [] ∧ (∀ c ∈ ds, reDigit c = true) ∧
      ws ≠ [] ∧ (∀ c ∈ ws, reSpace c = true) ∧ rest ≠ [] ∧
      (∀ c ∈ rest.head?, reSpace c = false) := by
  have hrun : ∃ r, RE.run reNumbered none t 0 = some r := by
    unfold isNumberedItem MatchString at h
    rw [FindAllStringSubmatch_reNumbered] at h
    cases hr : RE.run reNumbered none t 0 with
    | none => rw [hr] at h; simp at h
    | some r => exact ⟨r, rfl⟩
  obtain ⟨r, hr⟩ := hrun
  have hre : reNumbered = RE.bot :: RE.openGroup :: RE.chr reDigit :: RE.star reDigit true ::
      RE.closeGroup :: RE.chr (· == '.') :: RE.chr reSpace :: RE.star reSpace true ::
      RE.openGroup :: RE.chr reDot :: RE.star reDot true :: RE.closeGroup :: [RE.eot] := rfl
  rw [hre] at hr
  simp only [RE.run, Option.isNone_none, if_true] at hr
  obtain ⟨r1, hr1⟩ := Option_map_some_elim _ _ _ hr
  clear hr
  cases t with
  | nil => simp at hr1
  | cons d0 t1 =>
    simp only at hr1
    split_ifs at hr1 with hd0
    obtain ⟨ds, t2, prev2, e2, hds, hk2⟩ := starGreedy_decomp _ _ _ _ _ _ hr1
    obtain ⟨r2, hr2⟩ := Option_map_some_elim _ _ _ hk2
    cases t2 with
    | nil => simp [RE.run] at hr2
    | cons dot t3 =>
      simp only [RE.run] at hr2
      split_ifs at hr2 with hdot
      have hdot' : dot = '.' := by simpa using hdot
      cases t3 with
      | nil => simp at hr2
      | cons w0 t4 =>
        simp only at hr2
        split_ifs at hr2 with hw0
        obtain ⟨ws', t5, prev5, e5, hws', hk5⟩ := starGreedy_decomp _ _ _ _ _ _ hr2
        obtain ⟨r5, hr5⟩ := Option_map_some_elim _ _ _ hk5
        have ht5 : t5 ≠ [] := by
          intro e
          rw [e] at hr5
          simp at hr5
        have ht4 : t4 ≠ [] := by
          rw [e5]
          intro e
          exact ht5 (List.append_eq_nil.mp e).2
        have hlast : ∀ c ∈ t4.getLast?, reSpace c = false := by
          intro c hc
          have hends := (trimmed_ends (d0 :: t1) (by simp) htrim).2
          apply hends c
          rw [e2, hdot']
          have : d0 :: (ds ++ '.' :: w0 :: t4) = (d0 :: (ds ++ ['.', w0])) ++ t4 := by simp
          rw [this, getLast?_suffix _ t4 ht4]
          exact hc
        have hdrop : t4.dropWhile reSpace ≠ [] := by
          intro e
          have hall : ∀ c ∈ t4, reSpace c = true := by
            intro c hc
            by_contra hn
            have : c ∈ t4.dropWhile reSpace := mem_dropWhile_of_not reSpace t4 c hc (by simpa using hn)
            rw [e] at this
            cases this
          obtain ⟨c, hc⟩ : ∃ c, t4.getLast? = some c := by
            rw [List.getLast?_eq_getLast _ ht4]; exact ⟨_, rfl⟩
          have h1 := hlast c hc
          have h2 := hall c (List.mem_of_mem_getLast? hc)
          rw [h1] at h2
          cases h2
        refine ⟨d0 :: ds, w0 :: t4.takeWhile reSpace, t4.dropWhile reSpace, ?_, by simp, ?_,
          by simp, ?_, hdrop, ?_⟩
        · rw [e2, hdot']
          simp [List.takeWhile_append_dropWhile]
        · intro c hc
          rcases List.mem_cons.mp hc with rfl | hc
          · exact hd0
          · exact hds c hc
        · intro c hc
          rcases List.mem_cons.mp hc with rfl | hc
          · exact hw0
          · exact (List.mem_takeWhile_imp hc)
        · intro c hc
          have hne := hdrop
          have := List.head_dropWhile_not reSpace t4 hne
          rw [List.head?_eq_head hne] at hc
          simp only [Option.mem_def, Option.some.injEq] at hc
          rw [← hc]
          simpa using this

/-! ## Images -/

theorem reImage_items : reImage =
    RE.chr (· == '!') :: RE.chr (· == '[') :: RE.openGroup :: RE.star (· != ']') true ::
      RE.closeGroup :: RE.chr (· == ']') :: RE.chr (· == '(') :: RE.openGroup ::
      RE.chr (· != ')') :: RE.star (· != ')') true :: RE.closeGroup ::
      [RE.chr (· == ')')] := rfl

/-- The pattern of images matches `![alt](url)` at the start of a text, with the alt
text and the URL as its groups. -/
theorem reImage_match (alt url rest : GoString) (halt : ']' ∉ alt) (hurl : url ≠ [])
    (hu : ')' ∉ url) :
    RunsTo reImage ('!' :: '[' :: (alt ++ ']' :: '(' :: (url ++ ')' :: rest))) 0
      [2, 2 + alt.length, 4 + alt.length, 4 + alt.length + url.length]
      (5 + alt.length + url.length) := by
  obtain ⟨u0, url', rfl⟩ := List.exists_cons_of_ne_nil hurl
  have hp : ∀ c ∈ u0 :: url', (c != ')') = true := by
    intro c hc
    have : c ≠ ')' := fun e => hu (e ▸ hc)
    simpa using this
  have key : RunsTo reImage ('!' :: '[' :: (alt ++ ']' :: '(' :: (u0 :: (url' ++ ')' :: rest)))) 0
      [0 + 1 + 1, 0 + 1 + 1 + alt.length, 0 + 1 + 1 + alt.length + 1 + 1,
        0 + 1 + 1 + alt.length + 1 + 1 + 1 + url'.length]
      (0 + 1 + 1 + alt.length + 1 + 1 + 1 + url'.length + 1) := by
    rw [reImage_items]
    apply RunsTo_chr _ _ _ _ _ _ _ (by decide)
    apply RunsTo_chr _ _ _ _ _ _ _ (by decide)
    apply RunsTo_openGroup
    apply RunsTo_star (· != ']') _ alt _ _ _ _
      (by intro c hc
          have : c ≠ ']' := fun e => halt (e ▸ hc)
          simpa using this)
      (by intro c hc
          simp only [List.head?_cons, Option.mem_def, Option.some.injEq] at hc
          subst hc; decide)
    apply RunsTo_closeGroup
    apply RunsTo_chr _ _ _ _ _ _ _ (by decide)
    apply RunsTo_chr _ _ _ _ _ _ _ (by decide)
    apply RunsTo_openGroup
    apply RunsTo_chr (· != ')') _ _ _ _ _ _ (hp u0 (by simp))
    apply RunsTo_star (· != ')') _ url' _ _ _ _ (fun c hc => hp c (by simp [hc]))
      (by intro c hc
          simp only [List.head?_cons, Option.mem_def, Option.some.injEq] at hc
          subst hc; decide)
    apply RunsTo_closeGroup
    apply RunsTo_chr _ _ _ _ _ _ _ (by decide)
    exact RunsTo_nil _ _
  have e1 : (u0 :: url') ++ ')' :: rest = u0 :: (url' ++ ')' :: rest) := rfl
  have e2 : [2, 2 + alt.length, 4 + alt.length, 4 + alt.length + (u0 :: url').length] =
      [0 + 1 + 1, 0 + 1 + 1 + alt.length, 0 + 1 + 1 + alt.length + 1 + 1,
        0 + 1 + 1 + alt.length + 1 + 1 + 1 + url'.length] := by
    simp only [List.length_cons, List.cons.injEq, and_true, true_and]
    omega
  have e3 : 5 + alt.length + (u0 :: url').length =
      0 + 1 + 1 + alt.length + 1 + 1 + 1 + url'.length + 1 := by
    simp only [List.length_cons]
    omega
  rw [e1, e2, e3]
  exact key

theorem drop_take_middle (a b c : GoString) (n : Nat) (hn : n = a.length) :
    ((a ++ (b ++ c)).drop n).take b.length = b := by
  subst hn
  rw [List.drop_left, List.take_left]

/-- The reader of image lines on the line `![alt](url)`. -/
theorem parseImageLine_of_parts (alt url : GoString) (halt : ']' ∉ alt) (hurl : url ≠ [])
    (hu : ')' ∉ url) :
    parseImageLine ("![".toList ++ alt ++ "](".toList ++ url ++ ")".toList) =
      some (alt, url) := by
  have e : "![".toList ++ alt ++ "](".toList ++ url ++ ")".toList =
      '!' :: '[' :: (alt ++ ']' :: '(' :: (url ++ ')' :: [])) := by simp
  rw [e]
  have hm := reImage_match alt url [] halt hurl hu none
  unfold parseImageLine FindStringSubmatch FindAllStringSubmatch
  simp only [findAllFrom, hm, List.headD_cons, submatches, submatches.groups,
    List.length_cons, List.length_nil]
  rw [if_pos (by omega)]
  have g1 : (List.drop 2 ('!' :: '[' :: (alt ++ ']' :: '(' :: (url ++ [')'])))).take
      (2 + alt.length - 2) = alt := by
    have : 2 + alt.length - 2 = alt.length := by omega
    rw [this]
    simp
  have g2 : (List.drop (4 + alt.length)
      ('!' :: '[' :: (alt ++ ']' :: '(' :: (url ++ [')'])))).take
      (4 + alt.length + url.length - (4 + alt.length)) = url := by
    have : 4 + alt.length + url.length - (4 + alt.length) = url.length := by omega
    rw [this]
    have e : '!' :: '[' :: (alt ++ ']' :: '(' :: (url ++ [')'])) =
        ('!' :: '[' :: (alt ++ [']', '('])) ++ (url ++ [')']) := by simp
    rw [e]
    apply drop_take_middle
    simp only [List.length_cons, List.length_append, List.length_nil]
    omega
  rw [g1, g2]
  rfl

/-- The first match of a search is a match of the pattern on a suffix of the text. -/
theorem findAllFrom_head_run (re : List RE) (prev : Option Char) (t : GoString)
    (m : List GoString) (rest : List (List GoString))
    (h : findAllFrom re prev t 0 = m :: rest) :
    ∃ a s prev' marks e, t = a ++ s ∧ RE.run re prev' s 0 = some (marks, e) ∧
      m = submatches s marks e := by
  induction t generalizing prev with
  | nil =>
    simp only [findAllFrom, if_true] at h
    cases hr : RE.run re prev [] 0 with
    | none => rw [hr] at h; cases h
    | some r =>
      rw [hr] at h
      simp only [List.cons.injEq] at h
      exact ⟨[], [], prev, r.1, r.2, rfl, hr, h.1.symm⟩
  | cons c cs ih =>
    simp only [findAllFrom] at h
    cases hr : RE.run re prev (c :: cs) 0 with
    | none =>
      rw [hr] at h
      obtain ⟨a, s, prev', marks, e, e1, h1, h2⟩ := ih _ h
      exact ⟨c :: a, s, prev', marks, e, by rw [e1]; rfl, h1, h2⟩
    | some r =>
      rw [hr] at h
      simp only [List.cons.injEq] at h
      exact ⟨[], c :: cs, prev, r.1, r.2, rfl, hr, h.1.symm⟩

theorem Option_map_mark {pos : Nat} {o : Option (List Nat × Nat)} {marks : List Nat} {e : Nat}
    (h : o.map (fun r => (pos :: r.1, r.2)) = some (marks, e)) :
    ∃ m', marks = pos :: m' ∧ o = some (m', e) := by
  cases o with
  | none => cases h
  | some r =>
    simp only [Option.map_some', Option.some.injEq, Prod.mk.injEq] at h
    exact ⟨r.1, h.1.symm, by rw [← h.2]⟩

/-- A match of the pattern of images is `![alt](url)` with an alt text without `]`
and a URL of at least one character without `)`, and its capture offsets are the
ends of the two. -/
theorem reImage_shape (prev : Option Char) (s : GoString) (marks : List Nat) (e : Nat)
    (h : RE.run reImage prev s 0 = some (marks, e)) :
    ∃ alt url rest, s = '!' :: '[' :: (alt ++ ']' :: '(' :: (url ++ ')' :: rest)) ∧
      ']' ∉ alt ∧ url ≠ [] ∧ ')' ∉ url ∧
      marks = [2, 2 + alt.length, 4 + alt.length, 4 + alt.length + url.length] ∧
      e = 5 + alt.length + url.length := by
  rw [reImage_items] at h
  obtain ⟨c1, s1, rfl, hc1, h1⟩ := RE_run_chr_some _ _ _ _ _ _ h
  obtain ⟨c2, s2, rfl, hc2, h2⟩ := RE_run_chr_some _ _ _ _ _ _ h1
  rw [RE_run_openGroup] at h2
  obtain ⟨m1, em1, h3⟩ := Option_map_mark h2
  rw [RE_run_star_greedy] at h3
  obtain ⟨alt, s3, prev3, rfl, halt, h4⟩ := starGreedy_decomp _ _ _ _ _ _ h3
  rw [RE_run_closeGroup] at h4
  obtain ⟨m2, em2, h5⟩ := Option_map_mark h4
  obtain ⟨c3, s4, rfl, hc3, h6⟩ := RE_run_chr_some _ _ _ _ _ _ h5
  obtain ⟨c4, s5, rfl, hc4, h7⟩ := RE_run_chr_some _ _ _ _ _ _ h6
  rw [RE_run_openGroup] at h7
  obtain ⟨m3, em3, h8⟩ := Option_map_mark h7
  obtain ⟨u0, s6, rfl, hu0, h9⟩ := RE_run_chr_some _ _ _ _ _ _ h8
  rw [RE_run_star_greedy] at h9
  obtain ⟨url', s7, prev7, rfl, hurl, h10⟩ := starGreedy_decomp _ _ _ _ _ _ h9
  rw [RE_run_closeGroup] at h10
  obtain ⟨m4, em4, h11⟩ := Option_map_mark h10
  obtain ⟨c5, s8, rfl, hc5, h12⟩ := RE_run_chr_some _ _ _ _ _ _ h11
  simp only [RE.run, Option.some.injEq, Prod.mk.injEq] at h12
  obtain ⟨em5, ee⟩ := h12
  clear h h1 h2 h3 h4 h5 h6 h7 h8 h9 h10 h11
  subst ee em5 em4 em3 em2 em1
  simp only [beq_iff_eq] at hc1 hc2 hc3 hc4 hc5
  subst hc1 hc2 hc3 hc4 hc5
  refine ⟨alt, u0 :: url', s8, by simp, ?_, by simp, ?_, ?_, ?_⟩
  · intro hm
    have := halt _ hm
    simp at this
  · intro hm
    rcases List.mem_cons.mp hm with e | hm
    · rw [← e] at hu0
      simp at hu0
    · have := hurl _ hm
      simp at this
  · simp only [List.length_cons, List.cons.injEq, and_true, true_and]
    constructor <;> omega
  · simp only [List.length_cons]
    omega

/-! ## Single-line blocks -/

/-- What the reader of image lines returns for a line with an image: an alt text
without `]` and a URL without `)`, both made of characters of the line. -/
theorem parseImageLine_parts (t : GoString) (r : GoString × GoString)
    (h : parseImageLine t = some r) (hne : r.2 ≠ []) :
    ']' ∉ r.1 ∧ ')' ∉ r.2 ∧ (∀ c ∈ r.1, c ∈ t) ∧ (∀ c ∈ r.2, c ∈ t) := by
  unfold parseImageLine FindStringSubmatch FindAllStringSubmatch at h
  cases hf : findAllFrom reImage none t 0 with
  | nil =>
    rw [hf] at h
    simp only [List.headD_nil, List.length_nil] at h
    rw [if_neg (by omega)] at h
    cases h
    exact absurd rfl hne
  | cons m rest =>
    rw [hf] at h
    simp only [List.headD_cons] at h
    obtain ⟨a, s, prev', marks, e, hts, hrun, hm⟩ := findAllFrom_head_run _ _ _ _ _ hf
    obtain ⟨alt, url, tail, hs, halt, hurl, hu, hmarks, he⟩ := reImage_shape _ _ _ _ hrun
    have g1 : (List.drop 2 s).take (2 + alt.length - 2) = alt := by
      have : 2 + alt.length - 2 = alt.length := by omega
      rw [this, hs]
      simp
    have g2 : (List.drop (4 + alt.length) s).take
        (4 + alt.length + url.length - (4 + alt.length)) = url := by
      have : 4 + alt.length + url.length - (4 + alt.length) = url.length := by omega
      rw [this, hs]
      have e : '!' :: '[' :: (alt ++ ']' :: '(' :: (url ++ ')' :: tail)) =
          ('!' :: '[' :: (alt ++ [']', '('])) ++ (url ++ ')' :: tail) := by simp
      rw [e]
      apply drop_take_middle
      simp only [List.length_cons, List.length_append, List.length_nil]
      omega
    have hmv : m = [s.take e, alt, url] := by
      rw [hm, hmarks]
      simp only [submatches, submatches.groups, g1, g2]
    rw [hmv] at h
    simp only [List.length_cons, List.length_nil] at h
    rw [if_pos (by omega)] at h
    have hr : r = (alt, url) := by
      have : (index [s.take e, alt, url] 1).bind (fun a =>
          (index [s.take e, alt, url] 2).bind fun u => some (a, u)) = some (alt, url) := rfl
      rw [this] at h
      exact (Option.some.inj h).symm
    rw [hr]
    have hsub : ∀ c, c ∈ s → c ∈ t := by
      intro c hc
      rw [hts]
      exact List.mem_append_right _ hc
    refine ⟨halt, hu, fun c hc => hsub c ?_, fun c hc => hsub c ?_⟩
    · rw [hs]
      simp [hc]
    · rw [hs]
      simp [hc]

/-- The content of one line that is a single-line construct, followed by a newline,
is read as the block of that line. -/
theorem parseSlideContent_one_line (line : GoString) (b : Block) (hnl : '\n' ∉ line)
    (hb : simpleBlock line = some b) :
    parseSlideContent {} (line ++ "\n".toList) = some { Body := [b] } := by
  have hsplit : Split (line ++ "\n".toList) '\n' = [line, []] := by
    have : line ++ "\n".toList = line ++ '\n' :: [] := rfl
    rw [this, Split_append_sep line '\n' hnl]
    rfl
  have h := parseSlideContent_simple_lines {} (line ++ "\n".toList) (by
    rw [hsplit]
    intro l hl
    simp only [List.mem_cons, List.mem_singleton, List.not_mem_nil, or_false] at hl
    rcases hl with rfl | rfl
    · right; left; rw [hb]; rfl
    · left; rfl)
  rw [h, hsplit]
  have hp : isParagraphLine line = false := by
    unfold isParagraphLine
    simp [hb]
  have hp0 : isParagraphLine [] = false := by decide
  have hs0 : simpleBlock [] = none := by decide
  simp [List.filterMap_cons, hb, hs0, List.filter_cons, hp, hp0]

theorem Repeat_four_spaces (n : Nat) : Repeat "    ".toList n = List.replicate (4 * n) ' ' := by
  induction n with
  | zero => rfl
  | succ n ih =>
    rw [Repeat, ih]
    have : 4 * (n + 1) = 4 + 4 * n := by ring
    rw [this, List.replicate_add]
    rfl

theorem countIndentLevel_nonneg (line : GoString) : 0 ≤ countIndentLevel line := by
  unfold countIndentLevel
  rw [countIndentLevel_go_eq]
  apply Int.ediv_nonneg <;> omega

theorem countIndentLevel_indent (n : Nat) (rest : GoString)
    (h : ∀ c ∈ rest.head?, c ≠ ' ' ∧ c ≠ '\t') :
    countIndentLevel (Repeat "    ".toList n ++ rest) = (n : Int) := by
  unfold countIndentLevel
  rw [countIndentLevel_go_eq, Repeat_four_spaces, indentWidth_replicate _ _ h]
  push_cast
  omega

theorem TrimSpace_indent (n : Nat) (w : GoString) :
    TrimSpace (Repeat "    ".toList n ++ w) = TrimSpace w := by
  apply TrimSpace_append_left
  rw [Repeat_four_spaces]
  intro c hc
  rw [List.eq_of_mem_replicate hc]
  decide

theorem not_mem_of_subset {c : Char} {a b : GoString} (h : ∀ x ∈ a, x ∈ b) (hb : c ∉ b) :
    c ∉ a :=
  fun ha => hb (h c ha)

/-! ## Reading back the line written for a single-line block -/

theorem isNumberedItem_false_of_head (c : Char) (cs : GoString) (hd : reDigit c = false) :
    isNumberedItem (c :: cs) = false := by
  cases h : isNumberedItem (c :: cs) with
  | false => rfl
  | true =>
    obtain ⟨c', cs', e, hc⟩ := isNumberedItem_head _ h
    cases e
    rw [hd] at hc
    cases hc

/-- The block of a line whose trimmed text starts with a character that is no
backtick, no `<` and no `#`. -/
theorem simpleBlock_eval (line : GoString) (c : Char) (cs : GoString)
    (ht : TrimSpace line = c :: cs) (h1 : c ≠ '`') (h2 : c ≠ '<') (h3 : c ≠ '#') :
    simpleBlock line =
      if HasPrefix (c :: cs) "- ".toList ∨ HasPrefix (c :: cs) "* ".toList then
        some (NewBullet (TrimSpace ((c :: cs).drop 2)) (countIndentLevel line))
      else if isNumberedItem (c :: cs) then
        (extractNumberedText (c :: cs)).map fun text =>
          NewNumbered text (countIndentLevel line)
      else if HasPrefix (c :: cs) "> ".toList then
        some (NewQuote (TrimPrefix (c :: cs) "> ".toList))
      else if HasPrefix (c :: cs) "![".toList then
        (parseImageLine (c :: cs)).bind fun r =>
          if r.2 ≠ [] then some (NewImage r.2 r.1) else none
      else none := by
  have hp : HasPrefix (c :: cs) [c] = true := by simp [HasPrefix]
  have e1 : HasPrefix (c :: cs) "```".toList = false := HasPrefix_head_ne _ c '`' [] _ hp h1
  have e2 : isHTMLBlockStart (c :: cs) = false := isHTMLBlockStart_false_of_head _ c [] hp h2
  have e3 : HasPrefix (c :: cs) "# ".toList = false := HasPrefix_head_ne _ c '#' [] _ hp h3
  have e4 : HasPrefix (c :: cs) "## ".toList = false := HasPrefix_head_ne _ c '#' [] _ hp h3
  have e5 : HasPrefix (c :: cs) "### ".toList = false := HasPrefix_head_ne _ c '#' [] _ hp h3
  unfold simpleBlock
  simp only [ht]
  rw [if_neg (by rw [e1, e2, e3, e4]; simp), if_neg (by rw [e5]; simp)]

theorem TrimSpace_drop_ne_nil (t : GoString) (n : Nat) (ht : TrimSpace t = t)
    (h : t.drop n ≠ []) : TrimSpace (t.drop n) ≠ [] := by
  intro e
  rw [TrimSpace_eq_nil_iff] at e
  have htne : t ≠ [] := by
    intro e2
    rw [e2] at h
    exact h (by simp)
  have hl := TrimSpace_getLast_not_space t (by rw [ht]; exact htne)
  have h2 := e ((t.drop n).getLast h) (List.getLast_mem h)
  rw [List.getLast_drop] at h2
  simp only [ht] at hl
  rw [hl] at h2
  cases h2

theorem getLast_non_space_append (a T : GoString) (hT : T ≠ [])
    (hl : isSpace (T.getLast hT) = false) : ∀ c ∈ (a ++ T).getLast?, isSpace c = false := by
  intro c hc
  rw [List.getLast?_append_of_ne_nil _ hT, List.getLast?_eq_getLast _ hT] at hc
  simp only [Option.mem_def, Option.some.injEq] at hc
  rw [← hc]
  exact hl

theorem replicate_space_not_newline (n : Nat) : '\n' ∉ List.replicate n ' ' := by
  intro h
  have := List.eq_of_mem_replicate h
  exact absurd this (by decide)

theorem getLast_of_trimmed (T : GoString) (hT : T ≠ []) (hTt : TrimSpace T = T) :
    isSpace (T.getLast hT) = false := by
  have := TrimSpace_getLast_not_space T (by rw [hTt]; exact hT)
  simpa only [hTt] using this

/-- A bullet block with a trimmed text on one line and a level that is not negative
is written as a line that is read back as the same block. -/
theorem bullet_RoundTrips (T : GoString) (L : Nat) (hT : T ≠ []) (hTt : TrimSpace T = T)
    (hnl : '\n' ∉ T) : RoundTrips (NewBullet T (L : Int)) := by
  have hw : writeBlock (NewBullet T (L : Int)) =
      some ((Repeat "    ".toList L ++ '-' :: ' ' :: T) ++ "\n".toList) := by
    unfold writeBlock
    have hL : ¬ ((L : Int) < 0) := by omega
    simp [NewBullet, RepeatInt, hL]
  refine ⟨_, hw, ?_⟩
  apply parseSlideContent_one_line
  · rw [Repeat_four_spaces]
    intro h
    rcases List.mem_append.mp h with h | h
    · exact replicate_space_not_newline _ h
    · simp only [List.mem_cons] at h
      rcases h with h | h | h
      · exact absurd h (by decide)
      · exact absurd h (by decide)
      · exact hnl h
  · have ht : TrimSpace (Repeat "    ".toList L ++ '-' :: ' ' :: T) = '-' :: ' ' :: T := by
      rw [TrimSpace_indent]
      apply TrimSpace_eq_self
      · intro c hc
        simp only [List.head?_cons, Option.mem_def, Option.some.injEq] at hc
        rw [← hc]
        decide
      · exact getLast_non_space_append ['-', ' '] T hT (getLast_of_trimmed T hT hTt)
    rw [simpleBlock_eval _ '-' (' ' :: T) ht (by decide) (by decide) (by decide)]
    rw [if_pos (Or.inl (by simp [HasPrefix]))]
    rw [countIndentLevel_indent L _ (by simp)]
    simp only [List.drop_succ_cons, List.drop_zero, hTt]

/-- A numbered block whose text starts with no regex white space and ends with no
white space, on one line, with a level that is not negative, is written as a line
that is read back as the same block. -/
theorem numbered_RoundTrips (rest : GoString) (L : Nat) (hrest : rest ≠ [])
    (hhead : ∀ c ∈ rest.head?, reSpace c = false)
    (hlast : isSpace (rest.getLast hrest) = false)
    (hnl : '\n' ∉ rest) : RoundTrips (NewNumbered rest (L : Int)) := by
  have hw : writeBlock (NewNumbered rest (L : Int)) =
      some ((Repeat "    ".toList L ++ '1' :: '.' :: ' ' :: rest) ++ "\n".toList) := by
    unfold writeBlock
    have hL : ¬ ((L : Int) < 0) := by omega
    simp [NewNumbered, RepeatInt, BlockNumbered, BlockBullet, hL]
  refine ⟨_, hw, ?_⟩
  apply parseSlideContent_one_line
  · rw [Repeat_four_spaces]
    intro h
    rcases List.mem_append.mp h with h | h
    · exact replicate_space_not_newline _ h
    · simp only [List.mem_cons] at h
      rcases h with h | h | h | h
      · exact absurd h (by decide)
      · exact absurd h (by decide)
      · exact absurd h (by decide)
      · exact hnl h
  · have ht : TrimSpace (Repeat "    ".toList L ++ '1' :: '.' :: ' ' :: rest) =
        '1' :: '.' :: ' ' :: rest := by
      rw [TrimSpace_indent]
      apply TrimSpace_eq_self
      · intro c hc
        simp only [List.head?_cons, Option.mem_def, Option.some.injEq] at hc
        rw [← hc]
        decide
      · exact getLast_non_space_append ['1', '.', ' '] rest hrest hlast
    have hn := numbered_of_parts ['1'] [' '] rest (by simp) (by decide) (by simp) (by decide)
      hrest hhead hnl
    have e : ['1'] ++ '.' :: ([' '] ++ rest) = '1' :: '.' :: ' ' :: rest := rfl
    rw [e] at hn
    rw [simpleBlock_eval _ '1' ('.' :: ' ' :: rest) ht (by decide) (by decide) (by decide)]
    rw [if_neg (by simp [HasPrefix]), if_pos hn.1, hn.2]
    rw [countIndentLevel_indent L _ (by simp)]
    rfl

/-- A quote block whose text ends with no white space, on one line, is written as a
line that is read back as the same block. -/
theorem quote_RoundTrips (T : GoString) (hT : T ≠ [])
    (hlast : isSpace (T.getLast hT) = false) (hnl : '\n' ∉ T) : RoundTrips (NewQuote T) := by
  have hw : writeBlock (NewQuote T) = some (('>' :: ' ' :: T) ++ "\n".toList) := by
    unfold writeBlock
    simp [NewQuote, BlockNumbered, BlockBullet, BlockQuote, BlockParagraph, BlockCode,
      BlockImage]
  refine ⟨_, hw, ?_⟩
  apply parseSlideContent_one_line
  · intro h
    simp only [List.mem_cons] at h
    rcases h with h | h | h
    · exact absurd h (by decide)
    · exact absurd h (by decide)
    · exact hnl h
  · have ht : TrimSpace ('>' :: ' ' :: T) = '>' :: ' ' :: T := by
      apply TrimSpace_eq_self
      · intro c hc
        simp only [List.head?_cons, Option.mem_def, Option.some.injEq] at hc
        rw [← hc]
        decide
      · exact getLast_non_space_append ['>', ' '] T hT hlast
    rw [simpleBlock_eval _ '>' (' ' :: T) ht (by decide) (by decide) (by decide)]
    rw [if_neg (by simp [HasPrefix]),
      if_neg (by rw [isNumberedItem_false_of_head _ _ (by decide)]; simp),
      if_pos (by simp [HasPrefix])]
    simp [TrimPrefix, HasPrefix]

/-- An image block with a URL that is not empty and holds no `)` and an alt text
without `]`, both on one line, is written as a line that is read back as the same
block. -/
theorem image_RoundTrips (alt url : GoString) (halt : ']' ∉ alt) (hurl : url ≠ [])
    (hu : ')' ∉ url) (hna : '\n' ∉ alt) (hnu : '\n' ∉ url) :
    RoundTrips (NewImage url alt) := by
  have hw : writeBlock (NewImage url alt) =
      some (("![".toList ++ alt ++ "](".toList ++ url ++ ")".toList) ++ "\n".toList) := by
    unfold writeBlock
    simp [NewImage, BlockNumbered, BlockBullet, BlockQuote, BlockParagraph, BlockCode,
      BlockImage]
  refine ⟨_, hw, ?_⟩
  have e : "![".toList ++ alt ++ "](".toList ++ url ++ ")".toList =
      '!' :: '[' :: (alt ++ ']' :: '(' :: (url ++ [')'])) := by simp
  have hp := parseImageLine_of_parts alt url halt hurl hu
  rw [e] at hp ⊢
  apply parseSlideContent_one_line
  · intro h
    simp only [List.mem_cons, List.mem_append, List.mem_singleton, List.not_mem_nil,
      or_false] at h
    rcases h with h | h | h | h | h | h | h
    · exact absurd h (by decide)
    · exact absurd h (by decide)
    · exact hna h
    · exact absurd h (by decide)
    · exact absurd h (by decide)
    · exact hnu h
    · exact absurd h (by decide)
  · have ht : TrimSpace ('!' :: '[' :: (alt ++ ']' :: '(' :: (url ++ [')']))) =
        '!' :: '[' :: (alt ++ ']' :: '(' :: (url ++ [')'])) := by
      apply TrimSpace_eq_self
      · intro c hc
        simp only [List.head?_cons, Option.mem_def, Option.some.injEq] at hc
        rw [← hc]
        decide
      · have e2 : '!' :: '[' :: (alt ++ ']' :: '(' :: (url ++ [')'])) =
            ('!' :: '[' :: (alt ++ ']' :: '(' :: url)) ++ [')'] := by simp
        rw [e2]
        exact getLast_non_space_append _ [')'] (by simp) (by decide)
    rw [simpleBlock_eval _ '!' _ ht (by decide) (by decide) (by decide)]
    rw [if_neg (by simp [HasPrefix]),
      if_neg (by rw [isNumberedItem_false_of_head _ _ (by decide)]; simp),
      if_neg (by simp [HasPrefix]), if_pos (by simp [HasPrefix]), hp]
    simp only [Option.some_bind]
    rw [if_pos hurl]

theorem getLast_suffix_not_space (a rest : GoString) (ht : TrimSpace (a ++ rest) = a ++ rest)
    (h : rest ≠ []) : isSpace (rest.getLast h) = false := by
  have hne : a ++ rest ≠ [] := by simp [h]
  have h1 := getLast_of_trimmed (a ++ rest) hne ht
  rw [List.getLast_append_of_ne_nil h] at h1
  exact h1

theorem getLast_drop_not_space (t : GoString) (n : Nat) (ht : TrimSpace t = t)
    (h : t.drop n ≠ []) : isSpace ((t.drop n).getLast h) = false := by
  apply getLast_suffix_not_space (t.take n) (t.drop n)
  rw [List.take_append_drop]
  exact ht

theorem TrimPrefix_eq_drop (t pre : GoString) (h : HasPrefix t pre = true) :
    TrimPrefix t pre = t.drop pre.length := by
  unfold TrimPrefix
  rw [if_pos h]

theorem Int_toNat_of_nonneg (z : Int) (h : 0 ≤ z) : ((z.toNat : Nat) : Int) = z :=
  Int.toNat_of_nonneg h

/-- Every block that `parseSlideContent` makes of a single line, other than a
third-level heading, is written by `writeBlock` as a text that is read back as that
block. -/
theorem simpleBlock_RoundTrips (line : GoString) (b : Block) (hnl : '\n' ∉ line)
    (hb : simpleBlock line = some b) :
    (b.Kind = BlockHeading ∧ b.Level = 3) ∨ RoundTrips b := by
  have hidem : TrimSpace (TrimSpace line) = TrimSpace line := TrimSpace_idem line
  have htnl : '\n' ∉ TrimSpace line := fun h => hnl (mem_of_mem_TrimSpace _ _ h)
  have hlev := Int_toNat_of_nonneg _ (countIndentLevel_nonneg line)
  unfold simpleBlock at hb
  simp only at hb
  by_cases h0 : HasPrefix (TrimSpace line) "```".toList = true ∨
      isHTMLBlockStart (TrimSpace line) = true ∨ TrimSpace line = [] ∨
      HasPrefix (TrimSpace line) "# ".toList = true ∨
      HasPrefix (TrimSpace line) "## ".toList = true
  · rw [if_pos h0] at hb
    cases hb
  rw [if_neg h0] at hb
  by_cases h1 : HasPrefix (TrimSpace line) "### ".toList = true
  · rw [if_pos h1] at hb
    cases hb
    exact Or.inl ⟨rfl, rfl⟩
  rw [if_neg h1] at hb
  right
  by_cases h2 : HasPrefix (TrimSpace line) "- ".toList = true ∨
      HasPrefix (TrimSpace line) "* ".toList = true
  · rw [if_pos h2] at hb
    cases hb
    have hd : (TrimSpace line).drop 2 ≠ [] := by
      rcases h2 with h2 | h2
      · have := TrimPrefix_TrimSpace_ne_nil line "- ".toList rfl h2
        rw [TrimPrefix_eq_drop _ _ h2] at this
        exact this
      · have := TrimPrefix_TrimSpace_ne_nil line "* ".toList rfl h2
        rw [TrimPrefix_eq_drop _ _ h2] at this
        exact this
    rw [← hlev]
    apply bullet_RoundTrips
    · exact TrimSpace_drop_ne_nil _ 2 hidem hd
    · exact TrimSpace_idem _
    · intro h
      exact htnl ((List.drop_sublist 2 _).subset (mem_of_mem_TrimSpace _ _ h))
  rw [if_neg h2] at hb
  by_cases h3 : isNumberedItem (TrimSpace line) = true
  · rw [if_pos h3] at hb
    obtain ⟨ds, ws, rest, e, hds, hdig, hws, hsp, hrest, hhead⟩ :=
      numbered_shape (TrimSpace line) h3 hidem
    have hrnl : '\n' ∉ rest := by
      intro h
      apply htnl
      rw [e]
      simp [h]
    have hn := numbered_of_parts ds ws rest hds hdig hws hsp hrest hhead hrnl
    rw [← e] at hn
    rw [hn.2] at hb
    cases hb
    rw [← hlev]
    apply numbered_RoundTrips rest _ hrest hhead _ hrnl
    apply getLast_suffix_not_space (ds ++ '.' :: ws) rest
    have e2 : (ds ++ '.' :: ws) ++ rest = ds ++ '.' :: (ws ++ rest) := by simp
    rw [e2, ← e]
    exact hidem
  rw [if_neg h3] at hb
  by_cases h4 : HasPrefix (TrimSpace line) "> ".toList = true
  · rw [if_pos h4] at hb
    cases hb
    have hd := TrimPrefix_TrimSpace_ne_nil line "> ".toList rfl h4
    have hd2 : (TrimSpace line).drop 2 ≠ [] := by
      rw [TrimPrefix_eq_drop _ _ h4] at hd
      exact hd
    have e : TrimPrefix (TrimSpace line) "> ".toList = (TrimSpace line).drop 2 :=
      TrimPrefix_eq_drop _ _ h4
    rw [e]
    apply quote_RoundTrips _ hd2 (getLast_drop_not_space _ 2 hidem hd2)
    intro h
    exact htnl ((List.drop_sublist 2 _).subset h)
  rw [if_neg h4] at hb
  by_cases h5 : HasPrefix (TrimSpace line) "![".toList = true
  · rw [if_pos h5] at hb
    cases hp : parseImageLine (TrimSpace line) with
    | none => rw [hp] at hb; cases hb
    | some r =>
      rw [hp] at hb
      simp only [Option.some_bind] at hb
      by_cases hr : r.2 ≠ []
      · rw [if_pos hr] at hb
        cases hb
        obtain ⟨p1, p2, p3, p4⟩ := parseImageLine_parts _ r hp hr
        exact image_RoundTrips r.1 r.2 p1 hr p2 (not_mem_of_subset p3 htnl)
          (not_mem_of_subset p4 htnl)
      · rw [if_neg hr] at hb
        cases hb
  rw [if_neg h5] at hb
  cases hb

/-! ## Reading back the text written for a paragraph -/

theorem filterMap_none {α β : Type} (f : α → Option β) (l : List α)
    (h : ∀ x ∈ l, f x = none) : l.filterMap f = [] := by
  induction l with
  | nil => rfl
  | cons a rest ih =>
    rw [List.filterMap_cons, h a (by simp)]
    exact ih (fun x hx => h x (by simp [hx]))

theorem filter_none {α : Type} (p : α → Bool) (l : List α)
    (h : ∀ x ∈ l, p x = false) : l.filter p = [] := by
  induction l with
  | nil => rfl
  | cons a rest ih =>
    rw [List.filter_cons, h a (by simp)]
    exact ih (fun x hx => h x (by simp [hx]))

theorem filter_all {α : Type} (p : α → Bool) (l : List α)
    (h : ∀ x ∈ l, p x = true) : l.filter p = l := by
  induction l with
  | nil => rfl
  | cons a rest ih =>
    rw [List.filter_cons, h a (by simp), if_pos rfl, ih (fun x hx => h x (by simp [hx]))]

theorem map_fixed {α : Type} (f : α → α) (l : List α)
    (h : ∀ x ∈ l, f x = x) : l.map f = l := by
  induction l with
  | nil => rfl
  | cons a rest ih =>
    rw [List.map_cons, h a (by simp), ih (fun x hx => h x (by simp [hx]))]

theorem simpleBlock_of_paragraph (l : GoString) (h : isParagraphLine l = true) :
    simpleBlock l = none :=
  (isParagraphLine_spec l h).2.2.2.2.2.1

/-- A text whose lines are blank lines, then paragraph lines that are trimmed, then
one empty line, is read as one paragraph block of these paragraph lines. -/
theorem parseSlideContent_paragraph_text (w : GoString) (pre ls : List GoString)
    (hs : Split w '\n' = pre ++ ls ++ [[]]) (hpre : ∀ l ∈ pre, l = [])
    (hne : ls ≠ []) (hp : ∀ l ∈ ls, isParagraphLine l = true ∧ TrimSpace l = l) :
    parseSlideContent {} w = some { Body := [NewParagraph (Join ls "\n".toList)] } := by
  have hl : ∀ l ∈ Split w '\n', TrimSpace l = [] ∨ (simpleBlock l).isSome = true ∨
      isParagraphLine l = true := by
    rw [hs]
    intro l hl
    simp only [List.mem_append, List.mem_singleton] at hl
    rcases hl with (hl | hl) | hl
    · left; rw [hpre l hl]; rfl
    · right; right; exact (hp l hl).1
    · left; rw [hl]; rfl
  rw [parseSlideContent_simple_lines {} w hl, hs]
  have f1 : (pre ++ ls ++ [[]]).filterMap simpleBlock = [] := by
    apply filterMap_none
    intro l hl
    simp only [List.mem_append, List.mem_singleton] at hl
    rcases hl with (hl | hl) | hl
    · rw [hpre l hl]; exact simpleBlock_blank [] rfl
    · exact simpleBlock_of_paragraph l (hp l hl).1
    · rw [hl]; exact simpleBlock_blank [] rfl
  have f2 : (pre ++ ls ++ [[]]).filter isParagraphLine = ls := by
    rw [List.filter_append, List.filter_append,
      filter_none _ pre (fun l hl => by rw [hpre l hl]; exact isParagraphLine_blank [] rfl),
      filter_all _ ls (fun l hl => (hp l hl).1)]
    simp [isParagraphLine_blank [] rfl]
  rw [f1, f2, if_neg hne, map_fixed _ ls (fun l hl => (hp l hl).2)]
  rfl

theorem writeBlock_paragraph_raw (T : GoString)
    (h : HasPrefix (TrimSpace T) "<".toList = true ∨ HasPrefix (TrimSpace T) "|".toList = true) :
    writeBlock { Kind := BlockParagraph, Text := T } = some (T ++ "\n".toList) := by
  unfold writeBlock
  rw [if_neg (show ¬ BlockParagraph = BlockBullet by decide),
    if_neg (show ¬ BlockParagraph = BlockNumbered by decide), if_pos rfl]
  by_cases h1 : HasPrefix (TrimSpace T) "<".toList = true
  · rw [if_pos h1]
  · rw [if_neg h1]
    rcases h with h | h
    · exact absurd h h1
    · rw [if_pos h]

theorem writeBlock_paragraph_plain (T : GoString)
    (h1 : HasPrefix (TrimSpace T) "<".toList = false)
    (h2 : HasPrefix (TrimSpace T) "|".toList = false) :
    writeBlock { Kind := BlockParagraph, Text := T } =
      some ("\n".toList ++ T ++ "\n".toList) := by
  unfold writeBlock
  rw [if_neg (show ¬ BlockParagraph = BlockBullet by decide),
    if_neg (show ¬ BlockParagraph = BlockNumbered by decide), if_pos rfl,
    if_neg (by rw [h1]; decide),
    if_neg (by rw [h2]; decide)]

theorem Split_Join_newline (ls : List GoString) (hne : ls ≠ []) (h : ∀ l ∈ ls, '\n' ∉ l) :
    Split (Join ls "\n".toList ++ "\n".toList) '\n' = ls ++ [[]] := by
  rw [Join_append_sep ls _ hne]
  exact Split_lines ls h

/-- A paragraph block of trimmed paragraph lines is written as a text that is read
back as the same block. -/
theorem paragraph_RoundTrips (ls : List GoString) (hne : ls ≠ [])
    (hp : ∀ l ∈ ls, isParagraphLine l = true ∧ TrimSpace l = l ∧ '\n' ∉ l) :
    RoundTrips (NewParagraph (Join ls "\n".toList)) := by
  have hs := Split_Join_newline ls hne (fun l hl => (hp l hl).2.2)
  have hp2 : ∀ l ∈ ls, isParagraphLine l = true ∧ TrimSpace l = l :=
    fun l hl => ⟨(hp l hl).1, (hp l hl).2.1⟩
  by_cases h : HasPrefix (TrimSpace (Join ls "\n".toList)) "<".toList = true ∨
      HasPrefix (TrimSpace (Join ls "\n".toList)) "|".toList = true
  · refine ⟨_, writeBlock_paragraph_raw _ h, ?_⟩
    exact parseSlideContent_paragraph_text _ [] ls (by rw [hs]; rfl) (by simp) hne hp2
  · have h1 : HasPrefix (TrimSpace (Join ls "\n".toList)) "<".toList = false := by
      cases e : HasPrefix (TrimSpace (Join ls "\n".toList)) "<".toList with
      | false => rfl
      | true => exact absurd (Or.inl e) h
    have h2 : HasPrefix (TrimSpace (Join ls "\n".toList)) "|".toList = false := by
      cases e : HasPrefix (TrimSpace (Join ls "\n".toList)) "|".toList with
      | false => rfl
      | true => exact absurd (Or.inr e) h
    refine ⟨_, writeBlock_paragraph_plain _ h1 h2, ?_⟩
    apply parseSlideContent_paragraph_text _ [[]] ls _ (by simp) hne hp2
    have e : "\n".toList ++ Join ls "\n".toList ++ "\n".toList =
        '\n' :: (Join ls "\n".toList ++ "\n".toList) := rfl
    rw [e, Split_cons_sep, hs]
    rfl

/-! ## Tables -/

/-- The first character of a trimmed text is the first character of the trimmed
text that goes on after it. -/
theorem HasPrefix_TrimSpace_append (a b : GoString) (c : Char)
    (h : HasPrefix (TrimSpace a) [c] = true) : HasPrefix (TrimSpace (a ++ b)) [c] = true := by
  rw [HasPrefix_iff] at h
  obtain ⟨x, hx⟩ := h
  have hne : TrimSpace a ≠ [] := by rw [← hx]; simp
  have hsp := TrimSpace_head_not_space a hne
  have hc : isSpace c = false := by
    have e : (TrimSpace a).head hne = c := by
      simp only [← hx]
      rfl
    rw [e] at hsp
    exact hsp
  obtain ⟨t, ht⟩ : TrimSpace a <+: a.dropWhile isSpace := List.rdropWhile_prefix _ _
  have hd : (a ++ b).dropWhile isSpace = [c] ++ (x ++ t ++ b) := by
    rw [List.dropWhile_append, ← ht, ← hx]
    simp
  unfold TrimSpace
  rw [hd, rdropWhile_append_of_getLast [c] _ (by simp) (by simpa using hc)]
  simp [HasPrefix]

theorem isTableLine_head (l : GoString) (h : isTableLine l = true) :
    ∃ cs, TrimSpace l = '|' :: cs := by
  unfold isTableLine at h
  rw [HasPrefix_iff] at h
  obtain ⟨x, hx⟩ := h
  exact ⟨x, hx.symm⟩

/-- On a table line met outside code and HTML blocks the loop body of
`parseSlideContent` appends one paragraph block with the run of table lines from
there on, joined by newlines, and leaves the index on the last line of the run. -/
theorem parseSlideContent_step_table (lines : List GoString) (n : Nat)
    (st : contentState) (hn : n < lines.length)
    (hc : st.inCodeBlock = false) (hh : st.inHTMLBlock = false)
    (ht : isTableLine lines[n] = true) :
    parseSlideContent.step lines (n : Int) st =
      some (((n + ((lines.drop n).takeWhile isTableLine).length - 1 : Nat) : Int),
        st.appendBody { Kind := BlockParagraph,
                        Text := Join ((lines.drop n).takeWhile isTableLine) "\n".toList }) := by
  obtain ⟨cs, hcs⟩ := isTableLine_head _ ht
  have hp : HasPrefix ('|' :: cs) ['|'] = true := by simp [HasPrefix]
  have e1 : HasPrefix ('|' :: cs) "```".toList = false :=
    HasPrefix_head_ne _ '|' '`' [] _ hp (by decide)
  have e2 : isHTMLBlockStart ('|' :: cs) = false :=
    isHTMLBlockStart_false_of_head _ '|' [] hp (by decide)
  have e3 : HasPrefix ('|' :: cs) "# ".toList = false :=
    HasPrefix_head_ne _ '|' '#' [] _ hp (by decide)
  have e4 : HasPrefix ('|' :: cs) "## ".toList = false :=
    HasPrefix_head_ne _ '|' '#' [] _ hp (by decide)
  have e5 : HasPrefix ('|' :: cs) "### ".toList = false :=
    HasPrefix_head_ne _ '|' '#' [] _ hp (by decide)
  have e6 : HasPrefix ('|' :: cs) "- ".toList = false :=
    HasPrefix_head_ne _ '|' '-' [] _ hp (by decide)
  have e7 : HasPrefix ('|' :: cs) "* ".toList = false :=
    HasPrefix_head_ne _ '|' '*' [] _ hp (by decide)
  have e8 : isNumberedItem ('|' :: cs) = false :=
    isNumberedItem_false_of_head _ _ (by decide)
  have e9 : HasPrefix ('|' :: cs) "> ".toList = false :=
    HasPrefix_head_ne _ '|' '>' [] _ hp (by decide)
  have e10 : HasPrefix ('|' :: cs) "![".toList = false :=
    HasPrefix_head_ne _ '|' '!' [] _ hp (by decide)
  have e11 : HasPrefix ('|' :: cs) "|".toList = true := hp
  unfold parseSlideContent.step
  rw [index_eq_some lines n hn]
  simp only [Option.some_bind, hcs]
  rw [if_neg (by rw [e1]; decide), if_neg (by rw [hc]; decide),
    if_neg (by rw [e2]; simp), if_neg (by rw [hh]; decide), if_neg (by simp)]
  unfold parseSlideContent.plainLine
  rw [if_neg (by rw [e3]; decide), if_neg (by rw [e4]; decide), if_neg (by rw [e5]; decide),
    if_neg (by rw [e6, e7]; simp), if_neg (by rw [e8]; decide), if_neg (by rw [e9]; decide),
    if_neg (by rw [e10]; decide)]
  simp only [Option.some_bind]
  rw [if_pos e11, tableLoop_eq _ lines n [] (by omega) (by omega)]
  simp only [Option.some_bind, List.nil_append]
  have hdrop : lines.drop n = lines[n] :: lines.drop (n + 1) := by
    rw [List.drop_eq_getElem_cons hn]
  have hpos : 1 ≤ ((lines.drop n).takeWhile isTableLine).length := by
    rw [hdrop, List.takeWhile_cons, ht]
    simp
  have e : ((n + ((lines.drop n).takeWhile isTableLine).length : Nat) : Int) - 1 =
      ((n + ((lines.drop n).takeWhile isTableLine).length - 1 : Nat) : Int) := by omega
  rw [e]

theorem parseSlideContent_loop_jump (fuel : Nat) (lines : List GoString) (n m : Nat)
    (st st' : contentState) (hn : n < lines.length)
    (h : parseSlideContent.step lines (n : Int) st = some ((m : Int), st')) :
    parseSlideContent.loop (fuel + 1) lines (n : Int) st =
      parseSlideContent.loop fuel lines ((m + 1 : Nat) : Int) st' := by
  have hlt : (n : Int) < (lines.length : Int) := by exact_mod_cast hn
  rw [parseSlideContent.loop, if_pos hlt, h]
  simp only [Option.some_bind, Nat.cast_add, Nat.cast_one]

/-- On a last line that is empty, outside code and HTML blocks, the loop ends with
the state unchanged. -/
theorem parseSlideContent_loop_last_blank (fuel : Nat) (lines : List GoString) (n : Nat)
    (st : contentState) (hn : n + 1 = lines.length) (hb : lines[n] = [])
    (hc : st.inCodeBlock = false) (hh : st.inHTMLBlock = false) :
    parseSlideContent.loop (fuel + 2) lines (n : Int) st = some st := by
  have hs := parseSlideContent_step_regular lines n st (by omega) hc hh
    (isRegularLine_of_blank _ (by rw [hb]; rfl))
  rw [lineEffect_blank _ _ (by rw [hb]; rfl)] at hs
  rw [parseSlideContent_loop_next (fuel + 1) lines n st st (by omega) hs]
  exact parseSlideContent_loop_end fuel lines (n + 1) st (by omega)

/-- The end of `parseSlideContent`: with no paragraph line left over, the slide of
the final state is the result. -/
theorem parseSlideContent_of_loop (slide : Slide) (content : GoString) (st : contentState)
    (h : parseSlideContent.loop ((Split content '\n').length + 1) (Split content '\n') 0
      { slide := slide } = some st) (hb : st.bodyLines = []) :
    parseSlideContent slide content = some st.slide := by
  unfold parseSlideContent
  simp only
  rw [h]
  simp only [Option.some_bind, hb, List.length_nil, lt_self_iff_false, if_false]

theorem takeWhile_all_append {α : Type} (p : α → Bool) (l : List α) (x : α) (rest : List α)
    (h : ∀ a ∈ l, p a = true) (hx : p x = false) :
    (l ++ x :: rest).takeWhile p = l := by
  induction l with
  | nil => simp [List.takeWhile_cons, hx]
  | cons a l' ih =>
    rw [List.cons_append, List.takeWhile_cons, h a (by simp),
      ih (fun b hb => h b (by simp [hb]))]
    rfl

/-- A paragraph block that holds a run of table lines is written as a text that is
read back as the same block. -/
theorem table_RoundTrips (tls : List GoString) (hne : tls ≠ [])
    (ht : ∀ l ∈ tls, isTableLine l = true ∧ '\n' ∉ l) :
    RoundTrips { Kind := BlockParagraph, Text := Join tls "\n".toList } := by
  obtain ⟨l0, rest, e0⟩ := List.exists_cons_of_ne_nil hne
  have h0 : isTableLine l0 = true := (ht l0 (by rw [e0]; simp)).1
  have hpre : HasPrefix (TrimSpace (Join tls "\n".toList)) "|".toList = true := by
    rw [e0]
    cases rest with
    | nil => rw [Join_singleton]; exact h0
    | cons l1 rest' =>
      rw [Join_cons_cons, List.append_assoc]
      exact HasPrefix_TrimSpace_append _ _ '|' h0
  refine ⟨_, writeBlock_paragraph_raw _ (Or.inr hpre), ?_⟩
  have hs := Split_Join_newline tls hne (fun l hl => (ht l hl).2)
  have hlen : 0 < tls.length := List.length_pos.mpr hne
  have htw : ((tls ++ [[]]).drop 0).takeWhile isTableLine = tls := by
    rw [List.drop_zero]
    exact takeWhile_all_append _ tls [] [] (fun l hl => (ht l hl).1) (by decide)
  have h1 := parseSlideContent_step_table (tls ++ [[]]) 0 {} (by simp) rfl rfl
    (by simpa [e0] using h0)
  rw [htw] at h1
  have hloop : parseSlideContent.loop ((tls ++ [[]]).length + 1) (tls ++ [[]]) ((0 : Nat) : Int)
      {} = some (({} : contentState).appendBody
        { Kind := BlockParagraph, Text := Join tls "\n".toList }) := by
    rw [parseSlideContent_loop_jump _ _ 0 (0 + tls.length - 1) _ _ (by simp) h1]
    have e : (tls ++ [[]]).length = (tls.length - 1) + 2 := by
      rw [List.length_append]
      simp
      omega
    have e2 : 0 + tls.length - 1 + 1 = tls.length := by omega
    rw [e, e2]
    exact parseSlideContent_loop_last_blank _ _ _ _ (by simp) (by simp) rfl rfl
  have := parseSlideContent_of_loop {} (Join tls "\n".toList ++ "\n".toList) _
    (by rw [hs]; exact hloop) rfl
  rw [this]
  rfl

/-! ## Reading back the text written for an HTML block -/

theorem isHTMLBlockStart_open (t : GoString) (h : isHTMLBlockStart t = true) :
    HasPrefix t ['<'] = true := by
  cases t with
  | nil => exact absurd h (by decide)
  | cons c cs =>
    by_cases hc : c = '<'
    · subst hc
      simp [HasPrefix]
    · have := isHTMLBlockStart_false_of_head (c :: cs) c [] (by simp [HasPrefix]) hc
      rw [this] at h
      cases h

theorem take_append_of_le {α : Type} (ls tail : List α) (k : Nat) (hk : k ≤ ls.length) :
    (ls ++ tail).take k = ls.take k := by
  rw [List.take_append_of_le_length hk]

/-- Inside an HTML block that is followed by more lines the loop goes on to the line
where the depth is no longer positive, and closes the block there. -/
theorem parseSlideContent_loop_html_tail (slide : Slide) (ls tail : List GoString)
    (hfence : ∀ l ∈ ls, HasPrefix (TrimSpace l) "```".toList = false)
    (hpos : ∀ k, 0 < k → k < ls.length → 0 < htmlDepth (ls.take k))
    (hend : htmlDepth ls ≤ 0) (fuel m k : Nat) (hk1 : 0 < k) (hm : 0 < m)
    (hkm : k + m = ls.length) :
    parseSlideContent.loop (fuel + m) (ls ++ tail) (k : Int)
        (htmlOpenState slide (ls ++ tail) k) =
      parseSlideContent.loop fuel (ls ++ tail) (ls.length : Int)
        (htmlClosedState slide ls) := by
  induction m generalizing k with
  | zero => omega
  | succ m ih =>
    have hk : k < (ls ++ tail).length := by rw [List.length_append]; omega
    have hk2 : k < ls.length := by omega
    have hget : (ls ++ tail)[k] = ls[k] := by
      rw [List.getElem_append_left]
    have hf : HasPrefix (TrimSpace (ls ++ tail)[k]) "```".toList = false := by
      rw [hget]
      exact hfence _ (List.getElem_mem _)
    rw [← Nat.add_assoc, parseSlideContent_loop_next (fuel + m) (ls ++ tail) k _ _ hk
      (parseSlideContent_step_html_inside slide (ls ++ tail) k hk hf)]
    rw [take_append_of_le ls tail (k + 1) (by omega)]
    by_cases hlast : k + 1 < ls.length
    · rw [if_neg (by have := hpos (k + 1) (by omega) hlast; omega)]
      exact ih (k + 1) (by omega) (by omega) (by omega)
    · have e : ls.take (k + 1) = ls := List.take_of_length_le (by omega)
      have em : m = 0 := by omega
      have ek : k + 1 = ls.length := by omega
      rw [e, if_pos hend, em, ek]
      rfl

/-- A paragraph block that holds the lines of an HTML block is written as a text
that is read back as the same block. -/
theorem html_RoundTrips (ls : List GoString) (hne : ls ≠ [])
    (hl : ∀ l ∈ ls, '\n' ∉ l ∧ HasPrefix (TrimSpace l) "```".toList = false)
    (hstart : ∀ l ∈ ls.head?, isHTMLBlockStart (TrimSpace l) = true)
    (hpos : ∀ k, 0 < k → k < ls.length → 0 < htmlDepth (ls.take k))
    (hend : htmlDepth ls ≤ 0) :
    RoundTrips { Kind := BlockParagraph, Text := Join ls "\n".toList } := by
  obtain ⟨l0, rest, e0⟩ := List.exists_cons_of_ne_nil hne
  have h0 : isHTMLBlockStart (TrimSpace l0) = true := hstart l0 (by rw [e0]; simp)
  have hpre : HasPrefix (TrimSpace (Join ls "\n".toList)) "<".toList = true := by
    rw [e0]
    cases rest with
    | nil => rw [Join_singleton]; exact isHTMLBlockStart_open _ h0
    | cons l1 rest' =>
      rw [Join_cons_cons, List.append_assoc]
      exact HasPrefix_TrimSpace_append _ _ '<' (isHTMLBlockStart_open _ h0)
  refine ⟨_, writeBlock_paragraph_raw _ (Or.inl hpre), ?_⟩
  have hs := Split_Join_newline ls hne (fun l hl' => (hl l hl').1)
  have hfence : ∀ l ∈ ls, HasPrefix (TrimSpace l) "```".toList = false :=
    fun l hl' => (hl l hl').2
  have hlen : 0 < ls.length := List.length_pos.mpr hne
  have hlen2 : 0 < (ls ++ [[]]).length := by simp
  have hget0 : (ls ++ [[]])[0] = l0 := by simp [e0]
  have h1 := parseSlideContent_step_html_open {} (ls ++ [[]]) hlen2
    (by rw [hget0]; exact hfence l0 (by rw [e0]; simp)) (by rw [hget0]; exact h0)
  rw [take_append_of_le ls [[]] 1 (by omega)] at h1
  have hloop : parseSlideContent.loop ((ls ++ [[]]).length + 1) (ls ++ [[]]) ((0 : Nat) : Int)
      {} = some (htmlClosedState {} ls) := by
    rw [parseSlideContent_loop_next _ _ 0 _ _ hlen2 h1]
    by_cases hlast : 1 < ls.length
    · rw [if_neg (by have := hpos 1 (by omega) hlast; omega)]
      have e : (ls ++ [[]]).length = 2 + (ls.length - 1) := by
        rw [List.length_append]
        simp
        omega
      rw [e, parseSlideContent_loop_html_tail {} ls [[]] hfence hpos hend 2 (ls.length - 1) 1
        (by omega) (by omega) (by omega)]
      exact parseSlideContent_loop_last_blank 0 _ _ _ (by simp) (by simp) rfl rfl
    · have e : ls.take 1 = ls := List.take_of_length_le (by omega)
      have e1 : ls.length = 1 := by omega
      rw [e, if_pos hend]
      have e2 : (ls ++ [[]]).length = 0 + 2 := by
        rw [List.length_append, e1]
        rfl
      rw [e2]
      have e3 : ((0 + 1 : Nat) : Int) = (ls.length : Int) := by rw [e1]
      rw [e3]
      exact parseSlideContent_loop_last_blank 0 _ _ _ (by simp) (by simp) rfl rfl
  have := parseSlideContent_of_loop {} (Join ls "\n".toList ++ "\n".toList) _
    (by rw [hs]; exact hloop) rfl
  rw [this]
  rfl

/-! ## Reading back the text written for a code block -/

/-- The loop body on a fence line outside a code block: the block opens. -/
theorem parseSlideContent_step_fence_open (lines : List GoString) (n : Nat)
    (st : contentState) (hn : n < lines.length)
    (hf : HasPrefix (TrimSpace lines[n]) "```".toList = true)
    (hc : st.inCodeBlock = false) :
    parseSlideContent.step lines (n : Int) st =
      some ((n : Int), { st with inCodeBlock := true,
                                 codeBlockLang := TrimPrefix (TrimSpace lines[n]) "```".toList,
                                 codeBlockLines := [] }) := by
  unfold parseSlideContent.step
  rw [index_eq_some lines n hn]
  simp only [Option.some_bind]
  rw [if_pos hf, if_pos (by rw [hc]; rfl)]

/-- The loop body on a fence line inside a code block: the block closes and is
appended to the body. -/
theorem parseSlideContent_step_fence_close (lines : List GoString) (n : Nat)
    (st : contentState) (hn : n < lines.length)
    (hf : HasPrefix (TrimSpace lines[n]) "```".toList = true)
    (hc : st.inCodeBlock = true) :
    parseSlideContent.step lines (n : Int) st =
      some ((n : Int), { st with inCodeBlock := false }.appendBody
        { Kind := BlockCode, Text := Join st.codeBlockLines "\n".toList,
          Lang := st.codeBlockLang }) := by
  unfold parseSlideContent.step
  rw [index_eq_some lines n hn]
  simp only [Option.some_bind]
  rw [if_pos hf, if_neg (by rw [hc]; decide)]

/-- The loop body on a line inside a code block that is no fence line: the line is
kept as it is. -/
theorem parseSlideContent_step_code_line (lines : List GoString) (n : Nat)
    (st : contentState) (hn : n < lines.length)
    (hf : HasPrefix (TrimSpace lines[n]) "```".toList = false)
    (hc : st.inCodeBlock = true) :
    parseSlideContent.step lines (n : Int) st =
      some ((n : Int), { st with codeBlockLines := st.codeBlockLines ++ [lines[n]] }) := by
  unfold parseSlideContent.step
  rw [index_eq_some lines n hn]
  simp only [Option.some_bind]
  rw [if_neg (by rw [hf]; decide), if_pos hc]

/-- Inside a code block the loop collects the lines that are no fence lines. -/
theorem parseSlideContent_loop_code_lines (lines : List GoString) (fuel m n : Nat)
    (st : contentState) (hnm : n + m ≤ lines.length) (hc : st.inCodeBlock = true)
    (hf : ∀ l ∈ (lines.drop n).take m, HasPrefix (TrimSpace l) "```".toList = false) :
    parseSlideContent.loop (fuel + m) lines (n : Int) st =
      parseSlideContent.loop fuel lines ((n + m : Nat) : Int)
        { st with codeBlockLines := st.codeBlockLines ++ (lines.drop n).take m } := by
  induction m generalizing n st with
  | zero => simp
  | succ m ih =>
    have hn : n < lines.length := by omega
    have hdrop : lines.drop n = lines[n] :: lines.drop (n + 1) := by
      rw [List.drop_eq_getElem_cons hn]
    rw [hdrop, List.take_succ_cons] at hf ⊢
    rw [← Nat.add_assoc, parseSlideContent_loop_next (fuel + m) lines n _ _ hn
      (parseSlideContent_step_code_line lines n st hn (hf _ (by simp)) hc)]
    rw [ih (n + 1) { st with codeBlockLines := st.codeBlockLines ++ [lines[n]] } (by omega) hc
      (fun l hl => hf l (by simp [hl]))]
    simp only [List.append_assoc, List.singleton_append]
    have e : n + 1 + m = n + (m + 1) := by omega
    rw [e]

theorem getElem?_append_length {α : Type} (S : List α) (x : α) (rest : List α) :
    (S ++ x :: rest)[S.length]? = some x := by
  induction S with
  | nil => simp
  | cons a S ih =>
    rw [List.cons_append, List.length_cons, List.getElem?_cons_succ]
    exact ih

theorem getElem?_append_length_succ {α : Type} (S : List α) (x y : α) (rest : List α) :
    (S ++ x :: y :: rest)[S.length + 1]? = some y := by
  have e : S ++ x :: y :: rest = (S ++ [x]) ++ y :: rest := by simp
  have e2 : S.length + 1 = (S ++ [x]).length := by simp
  rw [e, e2]
  exact getElem?_append_length _ _ _

theorem writeBlock_code (text lang : GoString) :
    writeBlock { Kind := BlockCode, Text := text, Lang := lang } =
      some ("\n```".toList ++ lang ++ "\n".toList ++ text ++ "\n```\n".toList) := by
  unfold writeBlock
  rw [if_neg (show ¬ BlockCode = BlockBullet by decide),
    if_neg (show ¬ BlockCode = BlockNumbered by decide),
    if_neg (show ¬ BlockCode = BlockParagraph by decide), if_pos rfl]

/-- The text written for a code block is read back as the same block, when the
language tag is what is left of a trimmed fence line and the text holds no fence
line. -/
theorem code_text_RoundTrips (lang text : GoString)
    (hlang : TrimSpace ("```".toList ++ lang) = "```".toList ++ lang) (hlnl : '\n' ∉ lang)
    (hcl : ∀ l ∈ Split text '\n', HasPrefix (TrimSpace l) "```".toList = false) :
    RoundTrips { Kind := BlockCode, Text := text, Lang := lang } := by
  refine ⟨_, writeBlock_code text lang, ?_⟩
  have hfnl : '\n' ∉ "```".toList ++ lang := by
    intro h
    rcases List.mem_append.mp h with h | h
    · exact absurd h (by decide)
    · exact hlnl h
  have hw : "\n```".toList ++ lang ++ "\n".toList ++ text ++ "\n```\n".toList =
      [] ++ '\n' :: (("```".toList ++ lang) ++ '\n' :: (text ++ '\n' :: ("```".toList ++
        '\n' :: []))) := by
    simp
  have hs : Split ("\n```".toList ++ lang ++ "\n".toList ++ text ++ "\n```\n".toList) '\n' =
      [] :: ("```".toList ++ lang) :: (Split text '\n' ++ ["```".toList, []]) := by
    rw [hw, Split_append_nl, Split_append_nl, Split_append_nl, Split_append_nl,
      Split_of_not_mem _ _ hfnl]
    rfl
  obtain ⟨L, hL⟩ : ∃ L : List GoString, L = [] :: ("```".toList ++ lang) ::
      (Split text '\n' ++ ["```".toList, []]) := ⟨_, rfl⟩
  obtain ⟨k, hk⟩ : ∃ k : Nat, k = (Split text '\n').length := ⟨_, rfl⟩
  rw [← hL] at hs
  have hlen : L.length = k + 4 := by
    rw [hL, hk]
    simp
  have h0 : 0 < L.length := by omega
  have h1 : 1 < L.length := by omega
  have h2 : k + 2 < L.length := by omega
  have h3 : k + 3 < L.length := by omega
  have g0 : L[0] = [] := by subst hL; rfl
  have g1 : L[1] = "```".toList ++ lang := by subst hL; rfl
  have g2 : L[k + 2] = "```".toList := by
    have : L[k + 2]? = some "```".toList := by
      subst hL
      rw [List.getElem?_cons_succ, List.getElem?_cons_succ, hk]
      exact getElem?_append_length _ _ _
    rw [List.getElem?_eq_getElem h2] at this
    exact Option.some.inj this
  have g3 : L[k + 3] = [] := by
    have : L[k + 3]? = some [] := by
      subst hL
      rw [List.getElem?_cons_succ, List.getElem?_cons_succ, hk]
      exact getElem?_append_length_succ _ _ _ _
    rw [List.getElem?_eq_getElem h3] at this
    exact Option.some.inj this
  have gd : (L.drop 2).take k = Split text '\n' := by
    subst hL
    show (Split text '\n' ++ ["```".toList, []]).take k = Split text '\n'
    rw [hk, List.take_left]
  have hloop : parseSlideContent.loop (L.length + 1) L ((0 : Nat) : Int) {} =
      some (({ inCodeBlock := false, codeBlockLang := lang,
               codeBlockLines := Split text '\n' } : contentState).appendBody
        { Kind := BlockCode, Text := text, Lang := lang }) := by
    have s0 := parseSlideContent_step_regular L 0 {} h0 rfl rfl
      (isRegularLine_of_blank _ (by rw [g0]; rfl))
    rw [lineEffect_blank _ _ (by rw [g0]; rfl)] at s0
    rw [parseSlideContent_loop_next L.length L 0 _ _ h0 s0, hlen]
    have hf1 : HasPrefix (TrimSpace L[1]) "```".toList = true := by
      rw [g1, hlang]
      simp [HasPrefix]
    have s1 := parseSlideContent_step_fence_open L 1 {} h1 hf1 rfl
    have hlangeq : TrimPrefix (TrimSpace L[1]) "```".toList = lang := by
      rw [g1, hlang]
      simp [TrimPrefix, HasPrefix]
    rw [hlangeq] at s1
    show parseSlideContent.loop ((k + 3) + 1) L ((1 : Nat) : Int) {} = _
    rw [parseSlideContent_loop_next (k + 3) L 1 _ _ h1 s1]
    have e3 : k + 3 = 3 + k := by omega
    rw [e3]
    show parseSlideContent.loop (3 + k) L ((2 : Nat) : Int) _ = _
    rw [parseSlideContent_loop_code_lines L 3 k 2 _ (by omega) rfl (by rw [gd]; exact hcl), gd]
    have e4 : 2 + k = k + 2 := by omega
    rw [e4]
    have s2 := parseSlideContent_step_fence_close L (k + 2)
      { inCodeBlock := true, codeBlockLang := lang, codeBlockLines := [] ++ Split text '\n' }
      h2 (by rw [g2]; rfl) rfl
    show parseSlideContent.loop (2 + 1) L ((k + 2 : Nat) : Int) _ = _
    rw [parseSlideContent_loop_next 2 L (k + 2) _ _ h2 s2]
    have hj : Join ([] ++ Split text '\n') "\n".toList = text := Join_Split text '\n'
    simp only [hj]
    exact parseSlideContent_loop_last_blank 0 L (k + 3) _ (by omega) g3 rfl rfl
  have := parseSlideContent_of_loop {} _ _ (by rw [hs]; exact hloop) rfl
  rw [this]
  rfl

/-- A code block with the lines collected between two fence lines is written as a
text that is read back as the same block. -/
theorem code_RoundTrips (lang : GoString) (cls : List GoString)
    (hlang : TrimSpace ("```".toList ++ lang) = "```".toList ++ lang) (hlnl : '\n' ∉ lang)
    (hcl : ∀ l ∈ cls, '\n' ∉ l ∧ HasPrefix (TrimSpace l) "```".toList = false) :
    RoundTrips { Kind := BlockCode, Text := Join cls "\n".toList, Lang := lang } := by
  apply code_text_RoundTrips lang _ hlang hlnl
  cases cls with
  | nil =>
    intro l hl
    have e : Split (Join [] "\n".toList) '\n' = [[]] := rfl
    rw [e] at hl
    simp only [List.mem_singleton] at hl
    rw [hl]
    rfl
  | cons c rest =>
    have e : Split (Join (c :: rest) "\n".toList) '\n' = c :: rest :=
      Split_Join (c :: rest) '\n' (by simp) (fun l hl => (hcl l hl).1)
    rw [e]
    exact fun l hl => (hcl l hl).2

/-! ## What the line loop of `parseSlideContent` keeps true -/

theorem simpleBlock_trimmed_none (line : GoString) (h : simpleBlock line = none) :
    simpleBlock (TrimSpace line) = none := by
  unfold simpleBlock at h ⊢
  simp only [TrimSpace_idem] at h ⊢
  by_cases h0 : HasPrefix (TrimSpace line) "```".toList = true ∨
      isHTMLBlockStart (TrimSpace line) = true ∨ TrimSpace line = [] ∨
      HasPrefix (TrimSpace line) "# ".toList = true ∨
      HasPrefix (TrimSpace line) "## ".toList = true
  · rw [if_pos h0]
  rw [if_neg h0] at h ⊢
  by_cases h1 : HasPrefix (TrimSpace line) "### ".toList = true
  · rw [if_pos h1] at h
    cases h
  rw [if_neg h1] at h ⊢
  by_cases h2 : HasPrefix (TrimSpace line) "- ".toList = true ∨
      HasPrefix (TrimSpace line) "* ".toList = true
  · rw [if_pos h2] at h
    cases h
  rw [if_neg h2] at h ⊢
  by_cases h3 : isNumberedItem (TrimSpace line) = true
  · rw [if_pos h3] at h ⊢
    cases he : extractNumberedText (TrimSpace line) with
    | none => rfl
    | some t => rw [he] at h; cases h
  rw [if_neg h3] at h ⊢
  by_cases h4 : HasPrefix (TrimSpace line) "> ".toList = true
  · rw [if_pos h4] at h
    cases h
  rw [if_neg h4] at h ⊢
  exact h

theorem isParagraphLine_trimmed (line : GoString) (h : isParagraphLine line = true) :
    isParagraphLine (TrimSpace line) = true := by
  obtain ⟨p1, p2, p3, p4, p5, p6, p7⟩ := isParagraphLine_spec line h
  unfold isParagraphLine
  simp only [TrimSpace_idem, p2, p3, p4, p5, p7, simpleBlock_trimmed_none line p6]
  simp [p1]

theorem ContentInv_init (slide : Slide) (h : slide.Body = []) :
    ContentInv { slide := slide } := by
  constructor
  · intro b hb
    rw [h] at hb
    cases hb
  · intro l hl
    cases hl
  · intro hc
    cases hc
  · intro hh
    cases hh

theorem ContentInv_appendBody (st : contentState) (b : Block) (h : ContentInv st)
    (hb : (b.Kind = BlockHeading ∧ 1 ≤ b.Level ∧ b.Level ≤ 3) ∨ RoundTrips b) :
    ContentInv (st.appendBody b) := by
  constructor
  · intro b' hb'
    simp only [contentState.appendBody, List.mem_append, List.mem_singleton] at hb'
    rcases hb' with hb' | hb'
    · exact h.body b' hb'
    · rw [hb']; exact hb
  · exact h.para
  · exact h.code
  · exact h.html

theorem ContentInv_slide (st : contentState) (slide : Slide) (h : ContentInv st)
    (hs : slide.Body = st.slide.Body) : ContentInv { st with slide := slide } := by
  constructor
  · intro b hb
    simp only [hs] at hb
    exact h.body b hb
  · exact h.para
  · exact h.code
  · exact h.html

/-- The effect of a regular line keeps the invariant. -/
theorem ContentInv_lineEffect (line : GoString) (st : contentState) (hnl : '\n' ∉ line)
    (hreg : isRegularLine line = true) (h : ContentInv st) :
    ContentInv (lineEffect line st) := by
  unfold isRegularLine at hreg
  simp only [Bool.and_eq_true, Bool.not_eq_true', Bool.or_eq_true, decide_eq_true_eq] at hreg
  obtain ⟨⟨hfence, hhtml⟩, hrest⟩ := hreg
  unfold lineEffect
  simp only
  by_cases h0 : TrimSpace line = []
  · rw [if_pos h0]; exact h
  rw [if_neg h0]
  by_cases h1 : HasPrefix (TrimSpace line) "# ".toList = true
  · rw [if_pos h1]
    by_cases ht : st.slide.Title = []
    · rw [if_pos ht]
      exact ContentInv_slide st _ h rfl
    · rw [if_neg ht]
      exact ContentInv_appendBody st _ h (Or.inl ⟨rfl, by show (1 : Int) ≤ _; simp [NewHeading], by simp [NewHeading]⟩)
  rw [if_neg h1]
  by_cases h2 : HasPrefix (TrimSpace line) "## ".toList = true
  · rw [if_pos h2]
    by_cases ht : st.slide.Title = []
    · rw [if_pos ht]
      exact ContentInv_slide st _ h rfl
    · rw [if_neg ht]
      by_cases hs : st.slide.Subtitle = []
      · rw [if_pos hs]
        exact ContentInv_slide st _ h rfl
      · rw [if_neg hs]
        exact ContentInv_appendBody st _ h (Or.inl ⟨rfl, by show (1 : Int) ≤ _; simp [NewHeading], by simp [NewHeading]⟩)
  rw [if_neg h2]
  cases hb : simpleBlock line with
  | some b =>
    simp only
    apply ContentInv_appendBody st b h
    rcases simpleBlock_RoundTrips line b hnl hb with hh | hh
    · left
      exact ⟨hh.1, by rw [hh.2]; decide, by rw [hh.2]⟩
    · exact Or.inr hh
  | none =>
    simp only
    have hbar : HasPrefix (TrimSpace line) "|".toList = false := by
      rcases hrest with (((hr | hr) | hr) | hr) | hr
      · exact absurd hr h0
      · exact absurd hr h1
      · exact absurd hr h2
      · rw [hb] at hr; cases hr
      · exact hr
    have hpl : isParagraphLine line = true := by
      unfold isParagraphLine
      simp only [hfence, hhtml, hbar, hb]
      have e1 : HasPrefix (TrimSpace line) "# ".toList = false := by simpa using h1
      have e2 : HasPrefix (TrimSpace line) "## ".toList = false := by simpa using h2
      rw [e1, e2]
      simp [h0]
    constructor
    · exact h.body
    · intro l hl
      simp only [List.mem_append, List.mem_singleton] at hl
      rcases hl with hl | hl
      · exact h.para l hl
      · rw [hl]
        exact ⟨isParagraphLine_trimmed line hpl, TrimSpace_idem line,
          fun hm => hnl (mem_of_mem_TrimSpace _ _ hm)⟩
    · exact h.code
    · exact h.html

theorem TrimPrefix_append (t pre : GoString) (h : HasPrefix t pre = true) :
    pre ++ TrimPrefix t pre = t := by
  rw [TrimPrefix_eq_drop t pre h]
  rw [HasPrefix_iff] at h
  obtain ⟨x, hx⟩ := h
  rw [← hx]
  simp

theorem mem_of_mem_TrimPrefix (t pre : GoString) (c : Char) (h : c ∈ TrimPrefix t pre) :
    c ∈ t := by
  unfold TrimPrefix at h
  by_cases hp : HasPrefix t pre = true
  · rw [if_pos hp] at h
    exact (List.drop_sublist _ _).subset h
  · rw [if_neg hp] at h
    exact h

theorem htmlDepth_singleton (l : GoString) :
    htmlDepth [l] = 1 + (countHTMLOpens l - 1) - countHTMLCloses l := by
  simp only [htmlDepth, List.map_cons, List.map_nil, List.sum_cons, List.sum_nil]
  omega

theorem htmlDepth_concat (ls : List GoString) (l : GoString) :
    htmlDepth (ls ++ [l]) = htmlDepth ls + countHTMLOpens l - countHTMLCloses l := by
  simp only [htmlDepth, List.map_append, List.sum_append, List.map_cons, List.map_nil,
    List.sum_cons, List.sum_nil]
  omega

/-- The loop body on a line that opens an HTML block. -/
theorem parseSlideContent_step_html_start (lines : List GoString) (n : Nat)
    (st : contentState) (hn : n < lines.length)
    (hf : HasPrefix (TrimSpace lines[n]) "```".toList = false)
    (hc : st.inCodeBlock = false) (hh : st.inHTMLBlock = false)
    (hs : isHTMLBlockStart (TrimSpace lines[n]) = true) :
    parseSlideContent.step lines (n : Int) st =
      some ((n : Int),
        if htmlDepth [lines[n]] ≤ 0 then
          { st with inHTMLBlock := false, htmlBlockDepth := htmlDepth [lines[n]],
                    htmlBlockLines := [] }.appendBody
            { Kind := BlockParagraph, Text := Join [lines[n]] "\n".toList }
        else
          { st with inHTMLBlock := true, htmlBlockDepth := htmlDepth [lines[n]],
                    htmlBlockLines := [lines[n]] }) := by
  unfold parseSlideContent.step
  rw [index_eq_some lines n hn]
  simp only [Option.some_bind]
  rw [if_neg (by rw [hf]; decide), if_neg (by rw [hc]; decide),
    if_pos ⟨by rw [hh]; rfl, hs⟩, ← htmlDepth_singleton]
  by_cases hle : htmlDepth [lines[n]] ≤ 0
  · rw [if_pos hle, if_pos hle]
  · rw [if_neg hle, if_neg hle]

/-- The loop body on a line inside an HTML block. -/
theorem parseSlideContent_step_html_line (lines : List GoString) (n : Nat)
    (st : contentState) (hn : n < lines.length)
    (hf : HasPrefix (TrimSpace lines[n]) "```".toList = false)
    (hc : st.inCodeBlock = false) (hh : st.inHTMLBlock = true) :
    parseSlideContent.step lines (n : Int) st =
      some ((n : Int),
        if st.htmlBlockDepth + countHTMLOpens lines[n] - countHTMLCloses lines[n] ≤ 0 then
          { st with inHTMLBlock := false,
                    htmlBlockDepth :=
                      st.htmlBlockDepth + countHTMLOpens lines[n] - countHTMLCloses lines[n],
                    htmlBlockLines := [] }.appendBody
            { Kind := BlockParagraph,
              Text := Join (st.htmlBlockLines ++ [lines[n]]) "\n".toList }
        else
          { st with htmlBlockDepth :=
                      st.htmlBlockDepth + countHTMLOpens lines[n] - countHTMLCloses lines[n],
                    htmlBlockLines := st.htmlBlockLines ++ [lines[n]] }) := by
  unfold parseSlideContent.step
  rw [index_eq_some lines n hn]
  simp only [Option.some_bind]
  rw [if_neg (by rw [hf]; decide), if_neg (by rw [hc]; decide),
    if_neg (by rw [hh]; simp), if_pos hh]
  by_cases hle : st.htmlBlockDepth + countHTMLOpens lines[n] - countHTMLCloses lines[n] ≤ 0
  · rw [if_pos hle, if_pos hle]
  · rw [if_neg hle, if_neg hle]

theorem isTableLine_of_not_regular (line : GoString)
    (hf : HasPrefix (TrimSpace line) "```".toList = false)
    (hs : isHTMLBlockStart (TrimSpace line) = false)
    (hreg : ¬ isRegularLine line = true) : isTableLine line = true := by
  unfold isRegularLine at hreg
  simp only [hf, hs, Bool.not_false, Bool.true_and, Bool.or_eq_true, Bool.not_eq_true',
    not_or, Bool.not_eq_false] at hreg
  exact hreg.2

/-- The loop body of `parseSlideContent` keeps the invariant. -/
theorem ContentInv_step (lines : List GoString) (n : Nat) (st : contentState)
    (hn : n < lines.length) (hnl : ∀ l ∈ lines, '\n' ∉ l) (h : ContentInv st)
    (r : Int × contentState) (hr : parseSlideContent.step lines (n : Int) st = some r) :
    ContentInv r.2 := by
  have hline : '\n' ∉ lines[n] := hnl _ (List.getElem_mem _)
  by_cases hf : HasPrefix (TrimSpace lines[n]) "```".toList = true
  · by_cases hc : st.inCodeBlock = true
    · rw [parseSlideContent_step_fence_close lines n st hn hf hc] at hr
      cases hr
      obtain ⟨c1, c2, c3⟩ := h.code hc
      apply ContentInv_appendBody
      · constructor
        · exact h.body
        · exact h.para
        · intro hc'
          cases hc'
        · exact h.html
      · exact Or.inr (code_RoundTrips _ _ c1 c2 c3)
    · have hc' : st.inCodeBlock = false := by simpa using hc
      rw [parseSlideContent_step_fence_open lines n st hn hf hc'] at hr
      cases hr
      constructor
      · exact h.body
      · exact h.para
      · intro _
        refine ⟨?_, ?_, ?_⟩
        · show TrimSpace ("```".toList ++ TrimPrefix (TrimSpace lines[n]) "```".toList) = _
          rw [TrimPrefix_append _ _ hf]
          exact TrimSpace_idem _
        · intro hm
          exact hline (mem_of_mem_TrimSpace _ _ (mem_of_mem_TrimPrefix _ _ _ hm))
        · intro l hl
          cases hl
      · exact h.html
  have hf' : HasPrefix (TrimSpace lines[n]) "```".toList = false := by simpa using hf
  by_cases hc : st.inCodeBlock = true
  · rw [parseSlideContent_step_code_line lines n st hn hf' hc] at hr
    cases hr
    obtain ⟨c1, c2, c3⟩ := h.code hc
    constructor
    · exact h.body
    · exact h.para
    · intro _
      refine ⟨c1, c2, ?_⟩
      intro l hl
      simp only [List.mem_append, List.mem_singleton] at hl
      rcases hl with hl | hl
      · exact c3 l hl
      · rw [hl]
        exact ⟨hline, hf'⟩
    · exact h.html
  have hc' : st.inCodeBlock = false := by simpa using hc
  by_cases hh : st.inHTMLBlock = true
  · rw [parseSlideContent_step_html_line lines n st hn hf' hc' hh] at hr
    cases hr
    obtain ⟨d1, d2, d3, d4, d5⟩ := h.html hh
    have hdep : htmlDepth (st.htmlBlockLines ++ [lines[n]]) =
        st.htmlBlockDepth + countHTMLOpens lines[n] - countHTMLCloses lines[n] := by
      rw [htmlDepth_concat, d4]
    have hmem : ∀ l ∈ st.htmlBlockLines ++ [lines[n]],
        '\n' ∉ l ∧ HasPrefix (TrimSpace l) "```".toList = false := by
      intro l hl
      simp only [List.mem_append, List.mem_singleton] at hl
      rcases hl with hl | hl
      · exact d2 l hl
      · rw [hl]
        exact ⟨hline, hf'⟩
    have hhead : ∀ l ∈ (st.htmlBlockLines ++ [lines[n]]).head?,
        isHTMLBlockStart (TrimSpace l) = true := by
      rw [List.head?_append_of_ne_nil _ d1]
      exact d3
    simp only
    by_cases hle : st.htmlBlockDepth + countHTMLOpens lines[n] - countHTMLCloses lines[n] ≤ 0
    · rw [if_pos hle]
      apply ContentInv_appendBody
      · constructor
        · exact h.body
        · exact h.para
        · exact h.code
        · intro hh'
          cases hh'
      · right
        apply html_RoundTrips _ (by simp) hmem hhead
        · intro k hk1 hk2
          rw [List.length_append, List.length_singleton] at hk2
          rw [take_append_of_le _ _ k (by omega)]
          exact d5 k hk1 (by omega)
        · rw [hdep]
          exact hle
    · rw [if_neg hle]
      constructor
      · exact h.body
      · exact h.para
      · exact h.code
      · intro _
        refine ⟨by simp, hmem, hhead, hdep.symm, ?_⟩
        intro k hk1 hk2
        simp only [List.length_append, List.length_singleton] at hk2
        by_cases hk3 : k ≤ st.htmlBlockLines.length
        · show 0 < htmlDepth ((st.htmlBlockLines ++ [lines[n]]).take k)
          rw [take_append_of_le _ _ k hk3]
          exact d5 k hk1 hk3
        · show 0 < htmlDepth ((st.htmlBlockLines ++ [lines[n]]).take k)
          rw [List.take_of_length_le (by simp; omega), hdep]
          omega
  have hh' : st.inHTMLBlock = false := by simpa using hh
  by_cases hs : isHTMLBlockStart (TrimSpace lines[n]) = true
  · rw [parseSlideContent_step_html_start lines n st hn hf' hc' hh' hs] at hr
    cases hr
    have hmem : ∀ l ∈ [lines[n]], '\n' ∉ l ∧ HasPrefix (TrimSpace l) "```".toList = false := by
      intro l hl
      simp only [List.mem_singleton] at hl
      rw [hl]
      exact ⟨hline, hf'⟩
    have hhead : ∀ l ∈ [lines[n]].head?, isHTMLBlockStart (TrimSpace l) = true := by
      intro l hl
      simp only [List.head?_cons, Option.mem_def, Option.some.injEq] at hl
      rw [← hl]
      exact hs
    simp only
    by_cases hle : htmlDepth [lines[n]] ≤ 0
    · rw [if_pos hle]
      apply ContentInv_appendBody
      · constructor
        · exact h.body
        · exact h.para
        · exact h.code
        · intro hh2
          cases hh2
      · right
        apply html_RoundTrips _ (by simp) hmem hhead
        · intro k hk1 hk2
          simp only [List.length_singleton] at hk2
          omega
        · exact hle
    · rw [if_neg hle]
      constructor
      · exact h.body
      · exact h.para
      · exact h.code
      · intro _
        refine ⟨by simp, hmem, hhead, rfl, ?_⟩
        intro k hk1 hk2
        simp only [List.length_singleton] at hk2
        have ek : k = 1 := by omega
        show 0 < htmlDepth ([lines[n]].take k)
        rw [ek]
        simp only [List.take_succ_cons, List.take_zero]
        omega
  have hs' : isHTMLBlockStart (TrimSpace lines[n]) = false := by simpa using hs
  by_cases hreg : isRegularLine lines[n] = true
  · rw [parseSlideContent_step_regular lines n st hn hc' hh' hreg] at hr
    cases hr
    exact ContentInv_lineEffect _ st hline hreg h
  · have ht := isTableLine_of_not_regular _ hf' hs' hreg
    rw [parseSlideContent_step_table lines n st hn hc' hh' ht] at hr
    cases hr
    apply ContentInv_appendBody st _ h
    right
    have hdrop : lines.drop n = lines[n] :: lines.drop (n + 1) := by
      rw [List.drop_eq_getElem_cons hn]
    apply table_RoundTrips
    · rw [hdrop, List.takeWhile_cons, ht]
      simp
    · intro l hl
      refine ⟨?_, ?_⟩
      · exact (List.mem_takeWhile_imp hl)
      · exact hnl l ((List.drop_sublist _ _).subset ((List.takeWhile_sublist _).subset hl))

/-- The line loop of `parseSlideContent` keeps the invariant. -/
theorem ContentInv_loop (fuel : Nat) (lines : List GoString) (n : Nat) (st st' : contentState)
    (hnl : ∀ l ∈ lines, '\n' ∉ l) (h : ContentInv st)
    (hl : parseSlideContent.loop fuel lines (n : Int) st = some st') : ContentInv st' := by
  induction fuel generalizing n st with
  | zero => simp [parseSlideContent.loop] at hl
  | succ fuel ih =>
    unfold parseSlideContent.loop at hl
    by_cases hn : n < lines.length
    · have hlt : (n : Int) < (lines.length : Int) := by exact_mod_cast hn
      rw [if_pos hlt] at hl
      obtain ⟨n', st1, hs, _, _⟩ := parseSlideContent_step_progress lines n st hn
      rw [hs] at hl
      simp only [Option.some_bind] at hl
      have e : (n' : Int) + 1 = ((n' + 1 : Nat) : Int) := by push_cast; rfl
      rw [e] at hl
      exact ih (n' + 1) st1 (ContentInv_step lines n st hn hnl h _ hs) hl
    · have hlt : ¬ (n : Int) < (lines.length : Int) := by
        intro h'; exact hn (by exact_mod_cast h')
      rw [if_neg hlt] at hl
      cases hl
      exact h

/-- Every block of the body that `parseSlideContent` makes from an empty body is a
heading of level 1 to 3 or survives the writer and the reader. -/
theorem parseSlideContent_blocks (slide slide' : Slide) (c : GoString)
    (h0 : slide.Body = []) (hp : parseSlideContent slide c = some slide') :
    ∀ b ∈ slide'.Body,
      (b.Kind = BlockHeading ∧ 1 ≤ b.Level ∧ b.Level ≤ 3) ∨ RoundTrips b := by
  unfold parseSlideContent at hp
  simp only at hp
  cases hl : parseSlideContent.loop ((Split c '\n').length + 1) (Split c '\n') 0
      { slide := slide } with
  | none => rw [hl] at hp; cases hp
  | some st =>
    rw [hl] at hp
    simp only [Option.some_bind] at hp
    have hinv : ContentInv st :=
      ContentInv_loop _ (Split c '\n') 0 _ st (Split_not_mem c '\n') (ContentInv_init slide h0)
        (by simpa using hl)
    by_cases hb : 0 < st.bodyLines.length
    · rw [if_pos hb] at hp
      by_cases ht : Join st.bodyLines "\n".toList ≠ []
      · rw [if_pos ht] at hp
        cases hp
        intro b hmem
        simp only [List.mem_append, List.mem_singleton] at hmem
        rcases hmem with hmem | hmem
        · exact hinv.body b hmem
        · rw [hmem]
          exact Or.inr (paragraph_RoundTrips st.bodyLines (List.length_pos.mp hb) hinv.para)
      · rw [if_neg ht] at hp
        cases hp
        exact hinv.body
    · rw [if_neg hb] at hp
      cases hp
      exact hinv.body

/-- C25: for every content string `c`, read by `parseSlideContent` into a slide whose
body is empty, the parse succeeds, and for every block `b` of the resulting body
whose kind is bullet, numbered, quote, image, code or paragraph (HTML blocks and
tables are paragraph blocks), `writeBlock` emits a text for `b`, and
`parseSlideContent` reads that text into an empty slide as the slide whose body is
exactly `[b]` and whose other fields, title and subtitle among them, are empty. -/
theorem writeBlock_read_back (slide : Slide) (c : GoString) (h0 : slide.Body = []) :
    ∃ slide', parseSlideContent slide c = some slide' ∧
      ∀ b ∈ slide'.Body,
        (b.Kind = BlockBullet ∨ b.Kind = BlockNumbered ∨ b.Kind = BlockQuote ∨
          b.Kind = BlockImage ∨ b.Kind = BlockCode ∨ b.Kind = BlockParagraph) →
        ∃ w, writeBlock b = some w ∧ parseSlideContent {} w = some { Body := [b] } := by
  obtain ⟨slide', hp⟩ := parseSlideContent_total slide c
  refine ⟨slide', hp, ?_⟩
  intro b hb hk
  rcases parseSlideContent_blocks slide slide' c h0 hp b hb with hh | hh
  · exfalso
    rw [hh.1] at hk
    revert hk
    decide
  · exact hh

set_option maxRecDepth 1000000 in
/-- The sample content is read into an empty slide as eight blocks, one of each kind
and three paragraph blocks (an HTML block, a table, plain text), and each of them is
written and read back as itself. -/
theorem writeBlock_read_back_witness :
    ({} : Slide).Body = [] ∧
    (parseSlideContent {} kindsSample).map (fun s => s.Body.map fun b => b.Kind) =
      some [BlockBullet, BlockNumbered, BlockQuote, BlockImage, BlockCode, BlockParagraph,
        BlockParagraph, BlockParagraph] ∧
    ∃ slide', parseSlideContent {} kindsSample = some slide' ∧
      ∀ b ∈ slide'.Body,
        (b.Kind = BlockBullet ∨ b.Kind = BlockNumbered ∨ b.Kind = BlockQuote ∨
          b.Kind = BlockImage ∨ b.Kind = BlockCode ∨ b.Kind = BlockParagraph) →
        ∃ w, writeBlock b = some w ∧ parseSlideContent {} w = some { Body := [b] } :=
  ⟨rfl, by decide!, writeBlock_read_back {} kindsSample rfl⟩

/-! ## The theme name that `parseFrontmatter` reads -/

theorem index_mem {α : Type} (xs : List α) (i : Int) (x : α) (h : index xs i = some x) :
    x ∈ xs := by
  unfold index at h
  by_cases hi : 0 ≤ i
  · rw [if_pos hi] at h
    exact List.getElem?_mem h
  · rw [if_neg hi] at h
    cases h

theorem SplitN_mem (s : GoString) (sep : Char) (n : Nat) :
    ∀ p ∈ SplitN s sep n, ∀ c ∈ p, c ∈ s := by
  induction s generalizing n with
  | nil =>
    intro p hp c hc
    match n with
    | 0 => simp [SplitN] at hp
    | 1 =>
      simp only [SplitN, List.mem_singleton] at hp
      rw [hp] at hc
      exact hc
    | k + 2 =>
      simp only [SplitN, List.mem_singleton] at hp
      rw [hp] at hc
      exact hc
  | cons a as ih =>
    intro p hp c hc
    match n with
    | 0 => simp [SplitN] at hp
    | 1 =>
      simp only [SplitN, List.mem_singleton] at hp
      rw [hp] at hc
      exact hc
    | k + 2 =>
      simp only [SplitN] at hp
      by_cases ha : a = sep
      · rw [if_pos ha] at hp
        simp only [List.mem_cons] at hp
        rcases hp with hp | hp
        · rw [hp] at hc
          cases hc
        · exact List.mem_cons_of_mem _ (ih (k + 1) p hp c hc)
      · rw [if_neg ha] at hp
        cases hs : SplitN as sep (k + 2) with
        | nil =>
          rw [hs] at hp
          simp only [List.mem_singleton] at hp
          rw [hp] at hc
          simp only [List.mem_singleton] at hc
          rw [hc]
          exact List.mem_cons_self _ _
        | cons l ls =>
          rw [hs] at hp
          simp only [List.mem_cons] at hp
          rcases hp with hp | hp
          · rw [hp] at hc
            simp only [List.mem_cons] at hc
            rcases hc with hc | hc
            · rw [hc]
              exact List.mem_cons_self _ _
            · exact List.mem_cons_of_mem _ (ih (k + 2) l (by rw [hs]; simp) c hc)
          · exact List.mem_cons_of_mem _ (ih (k + 2) p (by rw [hs]; simp [hp]) c hc)

/-- One iteration of the line loop of `parseFrontmatter` leaves a theme name that is
trimmed and holds no newline. -/
theorem parseFrontmatter_step_theme (lines : List GoString) (i : Int) (fm : Frontmatter)
    (r : Int × Frontmatter) (hnl : ∀ l ∈ lines, '\n' ∉ l)
    (h : TrimSpace fm.Theme = fm.Theme ∧ '\n' ∉ fm.Theme)
    (hs : parseFrontmatter.step lines i fm = some r) :
    TrimSpace r.2.Theme = r.2.Theme ∧ '\n' ∉ r.2.Theme := by
  unfold parseFrontmatter.step at hs
  cases hl : index lines i with
  | none => rw [hl] at hs; cases hs
  | some line =>
    rw [hl] at hs
    simp only [Option.some_bind] at hs
    by_cases h1 : TrimSpace line = []
    · rw [if_pos h1] at hs; cases hs; exact h
    rw [if_neg h1] at hs
    by_cases h2 : (SplitN (TrimSpace line) ':' 2).length ≠ 2
    · rw [if_pos h2] at hs; cases hs; exact h
    rw [if_neg h2] at hs
    cases hp0 : index (SplitN (TrimSpace line) ':' 2) 0 with
    | none => rw [hp0] at hs; cases hs
    | some part0 =>
      cases hp1 : index (SplitN (TrimSpace line) ':' 2) 1 with
      | none => rw [hp0, hp1] at hs; cases hs
      | some part1 =>
        rw [hp0, hp1] at hs
        simp only [Option.some_bind] at hs
        by_cases k1 : TrimSpace part0 = "marp".toList
        · rw [if_pos k1] at hs; cases hs; exact h
        rw [if_neg k1] at hs
        by_cases k2 : TrimSpace part0 = "theme".toList
        · rw [if_pos k2] at hs
          cases hs
          refine ⟨TrimSpace_idem _, ?_⟩
          intro hm
          have m1 := mem_of_mem_TrimSpace _ _ hm
          have m2 := SplitN_mem _ _ _ part1 (index_mem _ _ _ hp1) _ m1
          exact hnl line (index_mem _ _ _ hl) (mem_of_mem_TrimSpace _ _ m2)
        rw [if_neg k2] at hs
        by_cases k3 : TrimSpace part0 = "paginate".toList
        · rw [if_pos k3] at hs; cases hs; exact h
        rw [if_neg k3] at hs
        by_cases k4 : TrimSpace part0 = "style".toList
        · rw [if_pos k4] at hs
          by_cases k5 : TrimSpace part1 = "|".toList
          · rw [if_pos k5] at hs
            cases hsl : parseFrontmatter.styleLoop (lines.length + 1) lines (i + 1) [] with
            | none => rw [hsl] at hs; cases hs
            | some q => rw [hsl] at hs; cases hs; exact h
          · rw [if_neg k5] at hs; cases hs; exact h
        rw [if_neg k4] at hs
        cases hs
        exact h

theorem parseFrontmatter_loop_theme (fuel : Nat) (lines : List GoString) (i : Int)
    (fm fm' : Frontmatter) (hnl : ∀ l ∈ lines, '\n' ∉ l)
    (h : TrimSpace fm.Theme = fm.Theme ∧ '\n' ∉ fm.Theme)
    (hl : parseFrontmatter.loop fuel lines i fm = some fm') :
    TrimSpace fm'.Theme = fm'.Theme ∧ '\n' ∉ fm'.Theme := by
  induction fuel generalizing i fm with
  | zero => simp [parseFrontmatter.loop] at hl
  | succ fuel ih =>
    unfold parseFrontmatter.loop at hl
    by_cases hi : i < (lines.length : Int)
    · rw [if_pos hi] at hl
      cases hs : parseFrontmatter.step lines i fm with
      | none => rw [hs] at hl; cases hl
      | some r =>
        rw [hs] at hl
        simp only [Option.some_bind] at hl
        exact ih r.1 r.2 (parseFrontmatter_step_theme lines i fm r hnl h hs) hl
    · rw [if_neg hi] at hl
      cases hl
      exact h

theorem theme_init :
    TrimSpace ({} : Frontmatter).Theme = ({} : Frontmatter).Theme ∧
      '\n' ∉ ({} : Frontmatter).Theme :=
  ⟨rfl, List.not_mem_nil _⟩

/-- The theme name that `parseFrontmatter` reads is trimmed and holds no newline. -/
theorem parseFrontmatter_theme (content : GoString) (fm : Frontmatter) (body : GoString)
    (h : parseFrontmatter content = some (fm, body)) :
    TrimSpace fm.Theme = fm.Theme ∧ '\n' ∉ fm.Theme := by
  rcases parseFrontmatter_eq content with ⟨_, h2⟩ | ⟨_, _, fm2, hloop, h2⟩
  · rw [h2] at h
    cases h
    exact theme_init
  · rw [h2] at h
    cases h
    exact parseFrontmatter_loop_theme _ _ _ _ _ (Split_not_mem _ '\n') theme_init
      (by simpa using hloop)

/-! ## The writer on a deck that was read -/

theorem foldl_notes_Body (notes : List noteBlock) (slide : Slide) :
    (notes.foldl (fun (slide : Slide) nb =>
        if nb.text ≠ [] then
          { slide with Notes := slide.Notes ++ [{ Kind := BlockParagraph, Text := nb.text }] }
        else slide) slide).Body = slide.Body := by
  induction notes generalizing slide with
  | nil => rfl
  | cons nb rest ih =>
    simp only [List.foldl_cons]
    split_ifs
    · exact ih _
    · exact ih _

/-- The blocks of the body of a slide that `convertToSlide` returns are headings of
level 1 to 3 or survive the writer and the reader. -/
theorem convertToSlide_blocks (ps : parsedSlide) (i j : Nat) (slide : Slide)
    (hs : convertToSlide ps i j = some slide) :
    ∀ b ∈ slide.Body,
      (b.Kind = BlockHeading ∧ 1 ≤ b.Level ∧ b.Level ≤ 3) ∨ RoundTrips b := by
  unfold convertToSlide at hs
  simp only at hs
  cases hp : parseSlideContent
      (if mapIndex ps.directives "_class".toList = "section-divider".toList then
        { ID := "s".toList ++ itoa i ++ "-".toList ++ itoa j, Layout := LayoutSection }
       else if mapIndex ps.directives "_class".toList = "lead".toList then
        { ID := "s".toList ++ itoa i ++ "-".toList ++ itoa j, Layout := LayoutTitle }
       else { ID := "s".toList ++ itoa i ++ "-".toList ++ itoa j, Layout := LayoutTitleBody })
      ps.content with
  | none => rw [hp] at hs; exact absurd hs (by simp)
  | some s1 =>
    rw [hp] at hs
    simp only [Option.some_bind] at hs
    have hb := parseSlideContent_blocks _ s1 ps.content (by split_ifs <;> rfl) hp
    have g := foldl_notes_Body ps.notes s1
    by_cases hc : containsColumns ps.content = true
    · rw [if_pos hc] at hs
      cases hs
      intro b hmem
      have hmem' : b ∈ (List.foldl (fun (slide : Slide) nb =>
        if nb.text ≠ [] then
          { slide with Notes := slide.Notes ++ [{ Kind := BlockParagraph, Text := nb.text }] }
        else slide) s1 ps.notes).Body := hmem
      rw [g] at hmem'
      exact hb b hmem'
    · rw [if_neg hc] at hs
      cases hs
      rw [g]
      exact hb

theorem writeBlock_total_of (b : Block)
    (h : (b.Kind = BlockHeading ∧ 1 ≤ b.Level ∧ b.Level ≤ 3) ∨ RoundTrips b) :
    ∃ w, writeBlock b = some w := by
  rcases h with ⟨hk, h1, _⟩ | ⟨w, hw, _⟩
  · unfold writeBlock
    rw [hk]
    rw [if_neg (show ¬ BlockHeading = BlockBullet by decide),
      if_neg (show ¬ BlockHeading = BlockNumbered by decide),
      if_neg (show ¬ BlockHeading = BlockParagraph by decide),
      if_neg (show ¬ BlockHeading = BlockCode by decide),
      if_neg (show ¬ BlockHeading = BlockImage by decide),
      if_neg (show ¬ BlockHeading = BlockQuote by decide), if_pos rfl]
    unfold RepeatInt
    rw [if_neg (by omega)]
    exact ⟨_, rfl⟩
  · exact ⟨w, hw⟩

theorem foldlM_writeBlock_total (blocks : List Block)
    (h : ∀ b ∈ blocks, ∃ w, writeBlock b = some w) (b0 : GoString) :
    ∃ r, blocks.foldlM (fun b block => (writeBlock block).bind fun w => some (b ++ w)) b0 =
      some r := by
  induction blocks generalizing b0 with
  | nil => exact ⟨b0, rfl⟩
  | cons blk rest ih =>
    obtain ⟨w, hw⟩ := h blk (by simp)
    rw [List.foldlM_cons, hw]
    exact ih (fun b hb => h b (by simp [hb])) _

theorem writeSlide_total_of (slide : Slide)
    (h : ∀ b ∈ slide.Body, ∃ w, writeBlock b = some w) : ∃ w, writeSlide slide = some w := by
  unfold writeSlide
  exact foldlM_writeBlock_total _ h _

theorem forall₂_total {α β : Type} (R : α → β → Prop) (xs : List α)
    (h : ∀ x ∈ xs, ∃ y, R x y) : ∃ ys, List.Forall₂ R xs ys := by
  induction xs with
  | nil => exact ⟨[], List.Forall₂.nil⟩
  | cons x rest ih =>
    obtain ⟨y, hy⟩ := h x (by simp)
    obtain ⟨ys, hys⟩ := ih (fun a ha => h a (by simp [ha]))
    exact ⟨y :: ys, List.Forall₂.cons hy hys⟩

theorem forall₂_mem_left {α β : Type} {R : α → β → Prop} {xs : List α} {ys : List β}
    (h : List.Forall₂ R xs ys) : ∀ x ∈ xs, ∃ y, R x y := by
  induction h with
  | nil => intro x hx; cases hx
  | cons hr _ ih =>
    intro x hx
    simp only [List.mem_cons] at hx
    rcases hx with hx | hx
    · rw [hx]; exact ⟨_, hr⟩
    · exact ih x hx

/-- `Encode` succeeds on every deck that `Parse` returns, and its text is the fenced
header of the deck followed by the slide texts. -/
theorem Encode_of_Parse (x : GoString) (d : Deck) (h : Parse x = some (some d, none)) :
    ∃ rest, Encode d = some (fencedText (headerLines d) ("\n\n".toList ++ rest)) := by
  obtain ⟨fm, body, pss, deck, _, _, hd, hP⟩ := Parse_eq x
  rw [hP] at h
  cases h
  obtain ⟨secs, _, hf, deck', hd', hsec, _⟩ := buildDeck_eq fm pss
  rw [hd] at hd'
  cases hd'
  have hw : ∀ sec ∈ d.Sections, ∃ ws,
      List.Forall₂ (fun s w => writeSlide s = some w) sec.Slides ws := by
    intro sec hsecm
    rw [hsec] at hsecm
    obtain ⟨run, hrun⟩ := forall₂_mem_left hf sec hsecm
    apply forall₂_total
    intro s hsm
    obtain ⟨ps, i, j, hc⟩ := forall₂_mem_left hrun.2 s hsm
    apply writeSlide_total_of
    intro b hb
    exact writeBlock_total_of b (convertToSlide_blocks ps i j s hc b hb)
  obtain ⟨wss, hwss⟩ := forall₂_total _ d.Sections hw
  exact ⟨_, Encode_eq d wss hwss⟩

/-! ## The header that the writer emits, read back -/

theorem parseFrontmatter_TrimSpace (c : GoString) :
    parseFrontmatter (TrimSpace c) = parseFrontmatter c := by
  unfold parseFrontmatter
  simp only [TrimSpace_idem]

theorem head_of_trimmed (T : GoString) (hTt : TrimSpace T = T) :
    ∀ c ∈ T.head?, isSpace c = false := by
  intro c hc
  cases T with
  | nil => cases hc
  | cons a as =>
    have h := TrimSpace_head_not_space (a :: as) (by rw [hTt]; simp)
    simp only [hTt, List.head_cons] at h
    simp only [List.head?_cons, Option.mem_def, Option.some.injEq] at hc
    rw [← hc]
    exact h

theorem last_of_trimmed (T : GoString) (hTt : TrimSpace T = T) :
    ∀ c ∈ T.getLast?, isSpace c = false := by
  intro c hc
  by_cases hT : T = []
  · rw [hT] at hc
    cases hc
  · rw [List.getLast?_eq_getLast _ hT] at hc
    simp only [Option.mem_def, Option.some.injEq] at hc
    rw [← hc]
    exact getLast_of_trimmed T hT hTt

theorem themeLine_trimmed (T : GoString) (hT : T ≠ []) (hTt : TrimSpace T = T) :
    TrimSpace ("theme: ".toList ++ T) = "theme: ".toList ++ T := by
  apply TrimSpace_eq_self
  · intro c hc
    have e : "theme: ".toList ++ T = 't' :: ("heme: ".toList ++ T) := rfl
    rw [e] at hc
    simp only [List.head?_cons, Option.mem_def, Option.some.injEq] at hc
    rw [← hc]
    decide
  · exact getLast_non_space_append _ T hT (getLast_of_trimmed T hT hTt)

theorem themeLine_SplitN (T : GoString) :
    SplitN ("theme: ".toList ++ T) ':' 2 = ["theme".toList, ' ' :: T] := by
  have e : "theme: ".toList ++ T = 't' :: 'h' :: 'e' :: 'm' :: 'e' :: ':' :: ' ' :: T := rfl
  rw [e]
  simp [SplitN]

theorem themeLine_key (T : GoString) (hT : T ≠ []) (hTt : TrimSpace T = T) :
    lineKey ("theme: ".toList ++ T) = "theme".toList := by
  unfold lineKey
  rw [themeLine_trimmed T hT hTt, themeLine_SplitN]
  show TrimSpace "theme".toList = "theme".toList
  decide

theorem themeLine_value (T : GoString) (hT : T ≠ []) (hTt : TrimSpace T = T) :
    lineValue ("theme: ".toList ++ T) = T := by
  unfold lineValue
  rw [themeLine_trimmed T hT hTt, themeLine_SplitN]
  show TrimSpace (' ' :: T) = T
  rw [TrimSpace_cons_space _ _ (by decide)]
  exact hTt

theorem applyLine_theme (fm : Frontmatter) (T : GoString) (hT : T ≠ [])
    (hTt : TrimSpace T = T) :
    applyLine fm ("theme: ".toList ++ T) = { fm with Theme := T } := by
  unfold applyLine
  rw [themeLine_key T hT hTt, themeLine_value T hT hTt, themeLine_trimmed T hT hTt,
    themeLine_SplitN]
  rw [if_neg (by simp), if_neg (by simp), if_neg (by decide), if_pos rfl]

theorem opensStyleBlock_theme (T : GoString) (hT : T ≠ []) (hTt : TrimSpace T = T) :
    opensStyleBlock ("theme: ".toList ++ T) = false := by
  unfold opensStyleBlock
  rw [themeLine_key T hT hTt]
  simp

theorem applyLine_marp (fm : Frontmatter) :
    applyLine fm "marp: true".toList = { fm with Marp := true } := by
  unfold applyLine
  rw [if_neg (by decide), if_neg (by decide), if_pos (by decide)]
  have : lineValue "marp: true".toList = "true".toList := by decide
  rw [this]
  rfl

theorem applyLine_paginate (fm : Frontmatter) :
    applyLine fm "paginate: true".toList = { fm with Paginate := true } := by
  unfold applyLine
  rw [if_neg (by decide), if_neg (by decide), if_neg (by decide), if_neg (by decide),
    if_pos (by decide)]
  have : lineValue "paginate: true".toList = "true".toList := by decide
  rw [this]
  rfl

theorem Split_getLast_suffix (s : GoString) (sep : Char) :
    ∀ l ∈ (Split s sep).getLast?, ∃ t, s = t ++ l := by
  intro l hl
  have hne := Split_ne_nil s sep
  rw [List.getLast?_eq_getLast _ hne] at hl
  simp only [Option.mem_def, Option.some.injEq] at hl
  have hd := List.dropLast_append_getLast hne
  rw [hl] at hd
  have hj := Join_Split s sep
  rw [← hd] at hj
  by_cases h0 : (Split s sep).dropLast = []
  · rw [h0] at hj
    simp only [List.nil_append] at hj
    rw [Join_singleton] at hj
    exact ⟨[], by rw [← hj]; rfl⟩
  · rw [Join_concat _ _ _ h0] at hj
    exact ⟨_, hj.symm⟩

/-- The deck that `Parse` returns has the theme that `buildDeck` makes of the
frontmatter. -/
theorem Parse_Theme (x : GoString) (fm : Frontmatter) (body : GoString)
    (h : parseFrontmatter x = some (fm, body)) :
    ∃ d, Parse x = some (some d, none) ∧
      d.Theme =
        (if fm.Theme ≠ [] then
          if fm.Style ≠ [] then
            some (Theme.SetCustom { Name := fm.Theme } "style".toList fm.Style)
          else some { Name := fm.Theme }
         else none) := by
  obtain ⟨fm', body', pss, deck, hfm, _, hd, hP⟩ := Parse_eq x
  rw [h] at hfm
  cases hfm
  obtain ⟨_, _, _, deck', hd', _, _, _, hth⟩ := buildDeck_eq fm pss
  rw [hd] at hd'
  cases hd'
  exact ⟨deck, hP, hth⟩

theorem headerLines_none (d : Deck) (h : d.Theme = none) :
    headerLines d = ["marp: true".toList, "paginate: true".toList] := by
  unfold headerLines
  rw [h]
  rfl

theorem headerLines_name (d : Deck) (T : GoString) (hT : T ≠ [])
    (h : d.Theme = some { Name := T }) :
    headerLines d = ["marp: true".toList, "theme: ".toList ++ T, "paginate: true".toList] := by
  unfold headerLines
  rw [h]
  simp only [ne_eq, hT, not_false_eq_true, if_true]
  rfl

theorem GetCustom_style (T S : GoString) :
    Theme.GetCustom (some (Theme.SetCustom { Name := T } "style".toList S)) "style".toList [] =
      S := by
  simp [Theme.GetCustom, Theme.SetCustom, mapSet, mapGet]

theorem headerLines_style (d : Deck) (T S : GoString) (hT : T ≠ []) (hS : S ≠ [])
    (h : d.Theme = some (Theme.SetCustom { Name := T } "style".toList S)) :
    headerLines d = ["marp: true".toList, "theme: ".toList ++ T, "paginate: true".toList,
      "style: |".toList] ++ Split S '\n' := by
  unfold headerLines
  rw [h]
  simp only [GetCustom_style]
  have hn : (Theme.SetCustom { Name := T } "style".toList S).Name = T := rfl
  rw [hn]
  simp only [ne_eq, hT, hS, not_false_eq_true, if_true]
  rfl

theorem fencedText_trimmed (hdr : List GoString) (B : GoString) :
    TrimSpace (fencedText hdr B) = fencedText hdr (List.rdropWhile isSpace B) := by
  have hx : "---\n".toList ++ Join hdr "\n".toList ++ "\n---".toList ≠ [] := by
    intro e
    have := congrArg List.length e
    simp at this
  unfold fencedText
  apply TrimSpace_append_right _ _ hx
  · have : ("---\n".toList ++ Join hdr "\n".toList ++ "\n---".toList).head hx = '-' := by
      simp [List.head_append_of_ne_nil]
    rw [this]; decide
  · have : ("---\n".toList ++ Join hdr "\n".toList ++ "\n---".toList).getLast hx = '-' := by
      rw [List.getLast_append_of_ne_nil (by decide)]
      rfl
    rw [this]; decide

theorem fencedText_style (T : GoString) (sl : List GoString) (hsl : sl ≠ []) (B : GoString) :
    fencedText (["marp: true".toList, "theme: ".toList ++ T, "paginate: true".toList,
        "style: |".toList] ++ sl) B =
      "---\nmarp: true\ntheme: ".toList ++ T ++ "\npaginate: true\nstyle: |\n".toList ++
        Join sl "\n".toList ++ "\n---".toList ++ B := by
  unfold fencedText
  have e : ["marp: true".toList, "theme: ".toList ++ T, "paginate: true".toList,
      "style: |".toList] ++ sl =
      "marp: true".toList :: ("theme: ".toList ++ T) :: "paginate: true".toList ::
        "style: |".toList :: sl := rfl
  rw [e, Join_cons_of_ne_nil _ _ _ (by simp), Join_cons_of_ne_nil _ _ _ (by simp),
    Join_cons_of_ne_nil _ _ _ (by simp), Join_cons_of_ne_nil _ _ _ hsl]
  simp only [List.append_assoc]
  rfl

/-- The header that the writer emits for a deck whose theme was made by `buildDeck`
from a frontmatter is read back by `parseFrontmatter` as a frontmatter of which
`buildDeck` makes the same theme, when the theme name is trimmed on one line and
the style, if any, has the shape of a literal block. -/
theorem parseFrontmatter_header (d : Deck) (B : GoString) (fm : Frontmatter)
    (hth : d.Theme =
      (if fm.Theme ≠ [] then
        if fm.Style ≠ [] then
          some (Theme.SetCustom { Name := fm.Theme } "style".toList fm.Style)
        else some { Name := fm.Theme }
       else none))
    (hTt : TrimSpace fm.Theme = fm.Theme) (hTnl : '\n' ∉ fm.Theme)
    (hst : fm.Theme ≠ [] → fm.Style ≠ [] →
      (∀ l ∈ Split fm.Style '\n', isIndented l = true) ∧
        ∀ c ∈ fm.Style.getLast?, isSpace c = false) :
    ∃ fm2 body2, parseFrontmatter (fencedText (headerLines d) B) = some (fm2, body2) ∧
      (if fm2.Theme ≠ [] then
        if fm2.Style ≠ [] then
          some (Theme.SetCustom { Name := fm2.Theme } "style".toList fm2.Style)
        else some { Name := fm2.Theme }
       else none) = d.Theme := by
  by_cases hT : fm.Theme = []
  · rw [if_neg (by simp [hT])] at hth
    rw [headerLines_none d hth, hth]
    refine ⟨_, _, parseFrontmatter_fenced_no_style _ B (by simp) (by decide) (by decide)
      (by decide), ?_⟩
    simp only [List.foldl, applyLine_marp, applyLine_paginate]
    rfl
  rw [if_pos hT] at hth
  by_cases hS : fm.Style = []
  · rw [if_neg (by simp [hS])] at hth
    rw [headerLines_name d _ hT hth, hth]
    have hnl : ∀ l ∈ ["marp: true".toList, "theme: ".toList ++ fm.Theme,
        "paginate: true".toList], '\n' ∉ l := by
      intro l hl
      simp only [List.mem_cons, List.mem_singleton, List.not_mem_nil, or_false] at hl
      rcases hl with hl | hl | hl
      · rw [hl]; decide
      · rw [hl]
        intro hm
        rcases List.mem_append.mp hm with hm | hm
        · exact absurd hm (by decide)
        · exact hTnl hm
      · rw [hl]; decide
    have hfence : ∀ l ∈ ["marp: true".toList, "theme: ".toList ++ fm.Theme,
        "paginate: true".toList], HasPrefix l "---".toList = false := by
      intro l hl
      simp only [List.mem_cons, List.mem_singleton, List.not_mem_nil, or_false] at hl
      rcases hl with hl | hl | hl
      · rw [hl]; decide
      · rw [hl]; rfl
      · rw [hl]; decide
    have hso : ∀ l ∈ ["marp: true".toList, "theme: ".toList ++ fm.Theme,
        "paginate: true".toList], opensStyleBlock l = false := by
      intro l hl
      simp only [List.mem_cons, List.mem_singleton, List.not_mem_nil, or_false] at hl
      rcases hl with hl | hl | hl
      · rw [hl]; decide
      · rw [hl]; exact opensStyleBlock_theme _ hT hTt
      · rw [hl]; decide
    refine ⟨_, _, parseFrontmatter_fenced_no_style _ B (by simp) hnl hfence hso, ?_⟩
    simp only [List.foldl, applyLine_marp, applyLine_paginate, applyLine_theme _ _ hT hTt]
    rw [if_pos hT, if_neg (by simp)]
  · rw [if_pos hS] at hth
    obtain ⟨hSi, hSl⟩ := hst hT hS
    rw [headerLines_style d _ _ hT hS hth, hth]
    rw [← parseFrontmatter_TrimSpace, fencedText_trimmed,
      fencedText_style _ _ (Split_ne_nil _ _)]
    have hlast : ∀ l ∈ (Split fm.Style '\n').getLast?, ∀ c ∈ l.getLast?, isSpace c = false := by
      intro l hl c hc
      obtain ⟨t, ht⟩ := Split_getLast_suffix fm.Style '\n' l hl
      have hlne : l ≠ [] := by
        intro e
        have := hSi l (List.mem_of_mem_getLast? hl)
        rw [e] at this
        cases this
      apply hSl c
      rw [ht, List.getLast?_append_of_ne_nil _ hlne]
      exact hc
    have hB : ∀ c ∈ (List.rdropWhile isSpace B).getLast?, isSpace c = false := by
      intro c hc
      have hne : List.rdropWhile isSpace B ≠ [] := by
        intro e
        rw [e] at hc
        cases hc
      rw [List.getLast?_eq_getLast _ hne] at hc
      simp only [Option.mem_def, Option.some.injEq] at hc
      have := List.rdropWhile_last_not isSpace B hne
      rw [← hc]
      simpa using this
    refine ⟨_, _, parseFrontmatter_style_lines fm.Theme (Split fm.Style '\n')
      (List.rdropWhile isSpace B) hT hTnl (head_of_trimmed _ hTt) (last_of_trimmed _ hTt)
      (Split_ne_nil _ _) hSi (Split_not_mem _ _) hlast hB, ?_⟩
    have hj : Join (Split fm.Style '\n') "\n".toList = fm.Style := Join_Split _ _
    simp only [hj]
    rw [if_pos hT, if_pos hS]

/-- C27 (amended): for every input text `x` such that the custom style of the deck
`d1 = Parse(x)` is empty or has the shape of a literal block (each of its lines
starts with a space or a tab, and it does not end in white space), `Encode(d1)` is
parsed to a deck `d2` whose theme is the theme of `d1`: both have none, or both have
one with the same name and the same custom style text. -/
theorem roundTrip_theme (x : GoString) (h : hasBlockStyle x = true) :
    ∃ d1 d2, roundTrip x = some (d1, d2) ∧ d2.Theme = d1.Theme := by
  obtain ⟨fm, body, hfm⟩ := parseFrontmatter_total x
  obtain ⟨d1, hP, hth⟩ := Parse_Theme x fm body hfm
  obtain ⟨hTt, hTnl⟩ := parseFrontmatter_theme x fm body hfm
  obtain ⟨rest, hE⟩ := Encode_of_Parse x d1 hP
  unfold hasBlockStyle at h
  rw [hP] at h
  simp only [Bool.or_eq_true, decide_eq_true_eq, Bool.and_eq_true, List.all_eq_true] at h
  have hst : fm.Theme ≠ [] → fm.Style ≠ [] →
      (∀ l ∈ Split fm.Style '\n', isIndented l = true) ∧
        ∀ c ∈ fm.Style.getLast?, isSpace c = false := by
    intro hT hS
    have hcs : customStyle d1 = fm.Style := by
      unfold customStyle
      rw [hth, if_pos hT, if_pos hS]
      exact GetCustom_style _ _
    rw [hcs] at h
    rcases h with h | h
    · exact absurd h hS
    · refine ⟨h.1, ?_⟩
      intro c hc
      have h2 := h.2
      simp only [Option.mem_def] at hc
      rw [hc] at h2
      simpa using h2
  obtain ⟨fm2, body2, hfm2, hth2⟩ :=
    parseFrontmatter_header d1 ("\n\n".toList ++ rest) fm hth hTt hTnl hst
  obtain ⟨d2, hP2, hd2⟩ := Parse_Theme _ fm2 body2 hfm2
  refine ⟨d1, d2, ?_, ?_⟩
  · unfold roundTrip
    rw [hP]
    simp only [Option.some_bind]
    rw [hE]
    simp only [Option.some_bind]
    rw [hP2]
    rfl
  · rw [hd2, hth2]

set_option maxRecDepth 1000000 in
/-- The sample with a theme and a style block of two indented lines keeps its theme,
with the name and the style text, through the writer and the reader. -/
theorem roundTrip_theme_witness :
    hasBlockStyle styledSample = true ∧
    (roundTrip styledSample).map (fun p => p.1.Theme) =
      some (some { Name := "corp".toList,
                   Custom := [("style".toList,
                     "  h1 \x7b color: red; \x7d\n  p \x7b margin: 0; \x7d".toList)] }) ∧
    ∃ d1 d2, roundTrip styledSample = some (d1, d2) ∧ d2.Theme = d1.Theme :=
  ⟨by decide!, by decide!, roundTrip_theme styledSample (by decide!)⟩

set_option maxRecDepth 1000000 in
/-- C27 as stated fails for a style given on the line of its key: the writer emits
it as an unindented line after `style: |`, which `parseFrontmatter` does not read as
part of the block. The style `b` is lost, and the style `theme: b` is read back as
the theme name. -/
theorem roundTrip_style_lost_counterexample :
    (roundTrip inlineStyleSample).map (fun p => (p.1.Theme, p.2.Theme)) =
      some (some { Name := "a".toList, Custom := [("style".toList, "b".toList)] },
            some { Name := "a".toList }) ∧
    (roundTrip themeStyleSample).map (fun p => (p.1.Theme, p.2.Theme)) =
      some (some { Name := "a".toList, Custom := [("style".toList, "theme: b".toList)] },
            some { Name := "b".toList }) :=
  ⟨by decide!, by decide!⟩

/-! ## The total duration of a section -/

theorem wrapInt64_of_range (z : Int) (h1 : -2 ^ 63 ≤ z) (h2 : z < 2 ^ 63) :
    wrapInt64 z = z := by
  unfold wrapInt64
  rw [Int.emod_eq_of_lt (by omega) (by omega)]
  omega

theorem positiveDurations_cons (slide : Slide) (rest : List Slide) :
    positiveDurations (slide :: rest) =
      (match slide.Audio with
       | some a => if 0 < a.Duration then [a.Duration] else []
       | none => []) ++ positiveDurations rest := by
  unfold positiveDurations
  cases h : slide.Audio with
  | none => simp [List.filterMap_cons, h]
  | some a =>
    by_cases hd : 0 < a.Duration
    · simp [List.filterMap_cons, h, hd, List.filter_cons]
    · simp [List.filterMap_cons, h, hd, List.filter_cons]

theorem positiveDurations_sum_nonneg (slides : List Slide) :
    0 ≤ (positiveDurations slides).sum := by
  apply List.sum_nonneg
  intro d hd
  unfold positiveDurations at hd
  have := (List.mem_filter.mp hd).2
  simp only [decide_eq_true_eq] at this
  omega

/-- The loop over the slides adds up the positive durations, as long as the sum
fits in an `int64`. -/
theorem TotalDuration_slides_fold (slides : List Slide) (t : Int) (h0 : 0 ≤ t)
    (h : t + (positiveDurations slides).sum < 2 ^ 63) :
    slides.foldl (fun total slide =>
      match slide.Audio with
      | some a => if 0 < a.Duration then wrapInt64 (total + a.Duration) else total
      | none => total) t = t + (positiveDurations slides).sum := by
  induction slides generalizing t with
  | nil => simp [positiveDurations]
  | cons slide rest ih =>
    have hn := positiveDurations_sum_nonneg rest
    rw [List.foldl_cons]
    cases ha : slide.Audio with
    | none =>
      have hpd : positiveDurations (slide :: rest) = positiveDurations rest := by
        rw [positiveDurations_cons, ha]
        rfl
      rw [hpd] at h ⊢
      exact ih t h0 h
    | some a =>
      by_cases hd : 0 < a.Duration
      · have hpd : positiveDurations (slide :: rest) = a.Duration :: positiveDurations rest := by
          rw [positiveDurations_cons, ha]
          simp [hd]
        rw [hpd, List.sum_cons] at h ⊢
        simp only [hd, if_true]
        rw [wrapInt64_of_range _ (by omega) (by omega), ih _ (by omega) (by omega)]
        omega
      · have hpd : positiveDurations (slide :: rest) = positiveDurations rest := by
          rw [positiveDurations_cons, ha]
          simp [hd]
        rw [hpd] at h ⊢
        simp only [hd, if_false]
        exact ih t h0 h

/-- What the code computes: for every section whose section-level Audio is set with a
positive Duration, `TotalDuration` returns that Duration; for every section whose
section-level Audio is not set, or set with a Duration that is not positive, it
returns the sum of the positive Durations of the audio of its slides, when this sum
fits in an `int64`. -/
theorem TotalDuration_value (s : Section) :
    (∀ a, s.Audio = some a → 0 < a.Duration → s.TotalDuration = a.Duration) ∧
    ((∀ a, s.Audio = some a → a.Duration ≤ 0) →
      (positiveDurations s.Slides).sum < 2 ^ 63 →
      s.TotalDuration = (positiveDurations s.Slides).sum) := by
  constructor
  · intro a ha hd
    unfold Section.TotalDuration
    rw [ha]
    simp only
    rw [if_pos hd]
  · intro hs hsum
    have hfold : Section.TotalDuration.slides s.Slides = (positiveDurations s.Slides).sum := by
      have := TotalDuration_slides_fold s.Slides 0 (le_refl 0) (by omega)
      rw [Int.zero_add] at this
      exact this
    unfold Section.TotalDuration
    cases ha : s.Audio with
    | none => exact hfold
    | some a =>
      simp only
      rw [if_neg (by have := hs a ha; omega)]
      exact hfold

/-- The two sections of `TestSectionTotalDuration` last ten and five minutes. -/
theorem TotalDuration_value_tests :
    sectionWithAudio.TotalDuration = 10 * minute ∧
    sectionWithSlideAudio.TotalDuration = 5 * minute :=
  ⟨(TotalDuration_value sectionWithAudio).1 { Duration := 10 * minute } rfl (by decide),
   ((TotalDuration_value sectionWithSlideAudio).2 (fun _ h => by cases h) (by decide)).trans
     (by decide)⟩

/-- C35: the code departs from the comment above it.  A section whose audio is set,
with the duration zero, over a slide with an audio of two minutes: the comment has
`TotalDuration` return the duration of the section audio, which is zero, and the code
returns the two minutes of the slide.  A section without audio over a slide whose
audio has a negative duration: the comment has it return the sum of the durations of
the slide audio, which is minus one minute, and the code returns zero. -/
theorem TotalDuration_departs_from_comment :
    sectionAudioNoDuration.Audio.isSome = true ∧
    (sectionAudioNoDuration.Audio.map fun a => a.Duration) = some 0 ∧
    sectionAudioNoDuration.TotalDuration = 2 * minute ∧
    sectionNegativeSlide.Audio = none ∧
    ((sectionNegativeSlide.Slides.filterMap fun s => s.Audio).map fun a => a.Duration).sum =
      -minute ∧
    sectionNegativeSlide.TotalDuration = 0 := by
  decide

/-! ## `FindSlide` and `GetSlide` -/

/-- The inner loop of `FindSlide` finds nothing exactly when no slide has the ID. -/
theorem FindSlide_slides_none_iff (id : GoString) (i j : Nat) (slides : List Slide) :
    Deck.FindSlide.slides id i j slides = none ↔ ∀ s ∈ slides, s.ID ≠ id := by
  induction slides generalizing j with
  | nil => simp [Deck.FindSlide.slides]
  | cons s rest ih =>
    unfold Deck.FindSlide.slides
    by_cases h : s.ID = id
    · rw [if_pos h]
      simp [h]
    · rw [if_neg h, ih]
      simp [h]

/-- What the inner loop of `FindSlide` finds is the first slide with the ID. -/
theorem FindSlide_slides_first (id : GoString) (i j : Nat) (slides : List Slide) (p : SlidePtr)
    (h : Deck.FindSlide.slides id i j slides = some p) :
    p.sec = i ∧ ∃ k s, p.slide = j + k ∧ slides[k]? = some s ∧ s.ID = id ∧
      ∀ x ∈ slides.take k, x.ID ≠ id := by
  induction slides generalizing j with
  | nil => simp [Deck.FindSlide.slides] at h
  | cons s rest ih =>
    unfold Deck.FindSlide.slides at h
    by_cases hs : s.ID = id
    · rw [if_pos hs] at h
      cases h
      exact ⟨rfl, 0, s, rfl, by simp, hs, by simp⟩
    · rw [if_neg hs] at h
      obtain ⟨h1, k, s', h2, h3, h4, h5⟩ := ih (j + 1) h
      refine ⟨h1, k + 1, s', by omega, by simpa using h3, h4, ?_⟩
      intro x hx
      simp only [List.take_succ_cons, List.mem_cons] at hx
      rcases hx with hx | hx
      · rw [hx]; exact hs
      · exact h5 x hx

theorem FindSlide_sections_none_iff (id : GoString) (i : Nat) (secs : List Section) :
    Deck.FindSlide.sections id i secs = none ↔
      ∀ sec ∈ secs, ∀ s ∈ sec.Slides, s.ID ≠ id := by
  induction secs generalizing i with
  | nil => simp [Deck.FindSlide.sections]
  | cons sec rest ih =>
    unfold Deck.FindSlide.sections
    cases hf : Deck.FindSlide.slides id i 0 sec.Slides with
    | some p =>
      simp only [false_iff, reduceCtorEq]
      intro hall
      have := (FindSlide_slides_none_iff id i 0 sec.Slides).mpr (hall sec (by simp))
      rw [this] at hf
      cases hf
    | none =>
      simp only
      rw [ih]
      have h0 := (FindSlide_slides_none_iff id i 0 sec.Slides).mp hf
      constructor
      · intro hr sec' hsec'
        simp only [List.mem_cons] at hsec'
        rcases hsec' with e | e
        · rw [e]; exact h0
        · exact hr sec' e
      · intro hall sec' hsec'
        exact hall sec' (by simp [hsec'])

theorem FindSlide_sections_first (id : GoString) (i : Nat) (secs : List Section) (p : SlidePtr)
    (h : Deck.FindSlide.sections id i secs = some p) :
    ∃ n sec s, p.sec = i + n ∧ secs[n]? = some sec ∧ sec.Slides[p.slide]? = some s ∧
      s.ID = id ∧ (∀ sec' ∈ secs.take n, ∀ x ∈ sec'.Slides, x.ID ≠ id) ∧
      ∀ x ∈ sec.Slides.take p.slide, x.ID ≠ id := by
  induction secs generalizing i with
  | nil => simp [Deck.FindSlide.sections] at h
  | cons sec rest ih =>
    unfold Deck.FindSlide.sections at h
    cases hf : Deck.FindSlide.slides id i 0 sec.Slides with
    | some q =>
      rw [hf] at h
      simp only [Option.some.injEq] at h
      rw [h] at hf
      obtain ⟨h1, k, s, h2, h3, h4, h5⟩ := FindSlide_slides_first id i 0 sec.Slides p hf
      have hk : p.slide = k := by omega
      refine ⟨0, sec, s, by omega, by simp, by rw [hk]; exact h3, h4, by simp,
        by rw [hk]; exact h5⟩
    | none =>
      rw [hf] at h
      simp only at h
      obtain ⟨n, sec', s, h1, h2, h3, h4, h5, h6⟩ := ih (i + 1) h
      have h0 := (FindSlide_slides_none_iff id i 0 sec.Slides).mp hf
      refine ⟨n + 1, sec', s, by omega, by simpa using h2, h3, h4, ?_, h6⟩
      intro sec'' hs x hx
      simp only [List.take_succ_cons, List.mem_cons] at hs
      rcases hs with e | e
      · rw [e] at hx; exact h0 x hx
      · exact h5 sec'' e x hx

theorem flatten_split_at {α : Type} (L : List (List α)) (n : Nat) (l : List α)
    (h : L[n]? = some l) :
    L.flatten = (L.take n).flatten ++ l ++ (L.drop (n + 1)).flatten := by
  induction L generalizing n with
  | nil => simp at h
  | cons a rest ih =>
    cases n with
    | zero =>
      simp only [List.getElem?_cons_zero, Option.some.injEq] at h
      rw [h]
      simp
    | succ m =>
      simp only [List.getElem?_cons_succ] at h
      simp only [List.flatten_cons, List.take_succ_cons, List.drop_succ_cons]
      rw [ih m h]
      simp [List.append_assoc]

theorem split_at_getElem {α : Type} (l : List α) (k : Nat) (x : α) (h : l[k]? = some x) :
    l = l.take k ++ x :: l.drop (k + 1) ∧ (l.take k).length = k := by
  have hk : k < l.length := by
    by_contra hc
    rw [List.getElem?_eq_none (by omega)] at h
    cases h
  constructor
  · rw [List.getElem?_eq_getElem hk] at h
    simp only [Option.some.injEq] at h
    rw [← h, ← List.drop_eq_getElem_cons hk, List.take_append_drop]
  · rw [List.length_take]
    omega

/-- C31: for every deck and every id, `FindSlide` returns nil exactly when no slide of
`AllSlides` has that ID; otherwise the pointer it returns addresses a slide with
that ID before which, in the order of `AllSlides` (sections in order, the slides of
each in order), no slide has the ID.  `GetSlide`, when `ReadDeck` returns a deck in
which no slide has the ID, returns no result and the error `ErrSlideNotFound`
wrapped with the ID in its message, and leaves the world as `ReadDeck` left it. -/
theorem FindSlide_spec (d : Deck) (id : GoString) :
    (d.FindSlide id = none ↔ ∀ s ∈ d.AllSlides, s.ID ≠ id) ∧
    (∀ p, d.FindSlide id = some p →
      ∃ s pre post, d.slideAt p = some s ∧ s.ID = id ∧ d.AllSlides = pre ++ s :: post ∧
        (∀ x ∈ pre, x.ID ≠ id) ∧
        pre.length =
          ((d.Sections.take p.sec).map fun sec => sec.Slides.length).sum + p.slide) ∧
    (∀ (W : Type) (x : Extern) (reg : Registry W) (w w' : W) (ref : Ref) (f : Format)
        (output : GoString),
      ReadDeck x reg w ref {} = some ((some { Deck := some d, Output := output }, none), w') →
      (∀ s ∈ d.AllSlides, s.ID ≠ id) →
      GetSlide x reg w ref id f = some ((none, some (slideNotFound id)), w') ∧
        (slideNotFound id).Is ErrSlideNotFound = true ∧
        (slideNotFound id).Error = "slide not found: ".toList ++ id) := by
  have hnone : d.FindSlide id = none ↔ ∀ s ∈ d.AllSlides, s.ID ≠ id := by
    unfold Deck.FindSlide
    rw [FindSlide_sections_none_iff, AllSlides_eq]
    constructor
    · intro h s hs
      obtain ⟨l, hl, hsl⟩ := List.mem_flatten.mp hs
      obtain ⟨sec, hsec, e⟩ := List.mem_map.mp hl
      rw [← e] at hsl
      exact h sec hsec s hsl
    · intro h sec hsec s hs
      exact h s (List.mem_flatten.mpr ⟨sec.Slides, List.mem_map.mpr ⟨sec, hsec, rfl⟩, hs⟩)
  refine ⟨hnone, ?_, ?_⟩
  · intro p hp
    unfold Deck.FindSlide at hp
    obtain ⟨n, sec, s, h1, h2, h3, h4, h5, h6⟩ := FindSlide_sections_first id 0 d.Sections p hp
    have hn : p.sec = n := by omega
    obtain ⟨e1, e2⟩ := split_at_getElem sec.Slides p.slide s h3
    have hm : (d.Sections.map (·.Slides))[n]? = some sec.Slides := by
      rw [List.getElem?_map, h2]
      rfl
    refine ⟨s, ((d.Sections.take n).map (·.Slides)).flatten ++ sec.Slides.take p.slide,
      sec.Slides.drop (p.slide + 1) ++ ((d.Sections.drop (n + 1)).map (·.Slides)).flatten,
      ?_, h4, ?_, ?_, ?_⟩
    · unfold Deck.slideAt
      rw [hn, h2]
      exact h3
    · rw [AllSlides_eq, flatten_split_at _ n _ hm, List.map_take, List.map_drop]
      nth_rewrite 1 [e1]
      simp [List.append_assoc]
    · intro x hx
      rcases List.mem_append.mp hx with hx | hx
      · obtain ⟨l, hl, hxl⟩ := List.mem_flatten.mp hx
        obtain ⟨sec', hsec', e⟩ := List.mem_map.mp hl
        rw [← e] at hxl
        exact h5 sec' hsec' x hxl
      · exact h6 x hx
    · rw [List.length_append, e2, hn, List.length_flatten, List.map_map]
      rfl
  · intro W x reg w w' ref f output hr hall
    refine ⟨?_, by simp [slideNotFound, GoError.Is, ErrSlideNotFound], rfl⟩
    unfold GetSlide
    rw [hr]
    simp only [Option.some_bind]
    rw [hnone.mpr hall]

set_option maxRecDepth 100000 in
/-- On the deck of `TestDeckFindSlide`, `FindSlide` finds `s2` as the second slide of
the first section and finds nothing for an ID that no slide has; `GetSlide` on the
sample file, which has no slide `zz`, returns the wrapped `ErrSlideNotFound`. -/
theorem FindSlide_spec_witness :
    findSlideDeck.FindSlide "s2".toList = some { sec := 0, slide := 1 } ∧
    (∀ s ∈ findSlideDeck.AllSlides, s.ID ≠ "nonexistent".toList) ∧
    findSlideDeck.FindSlide "nonexistent".toList = none ∧
    GetSlide sampleExtern marpRegistry sampleFiles sampleRef "zz".toList [] =
      some ((none, some (slideNotFound "zz".toList)), sampleFiles) :=
  ⟨by decide, by decide, (FindSlide_spec findSlideDeck "nonexistent".toList).1.mpr (by decide),
    by decide⟩

/-! ## `applyDiff` changes the title only -/

/-- The loop of `applyDiff` leaves every field but the title, and the title it leaves
is the one it found or the string of an update change of the path `title`. -/
theorem applyDiff_fold (cs : List Change) (i : GoString) (d : Deck) :
    ∃ t, applyDiff d { DeckID := i, Changes := cs } = { d with Title := t } ∧
      (t = d.Title ∨ ∃ c ∈ cs, c.Op = ChangeUpdate ∧ c.Path = "title".toList ∧
        c.NewValue = some (.str t)) := by
  induction cs generalizing d with
  | nil => exact ⟨d.Title, rfl, Or.inl rfl⟩
  | cons c cs ih =>
    have step : ∀ d', applyDiff d { DeckID := i, Changes := c :: cs } =
        applyDiff d' { DeckID := i, Changes := cs } →
        (d' = d ∨ ∃ v, d' = { d with Title := v } ∧ c.Op = ChangeUpdate ∧
          c.Path = "title".toList ∧ c.NewValue = some (.str v)) →
        ∃ t, applyDiff d { DeckID := i, Changes := c :: cs } = { d with Title := t } ∧
          (t = d.Title ∨ ∃ c' ∈ c :: cs, c'.Op = ChangeUpdate ∧ c'.Path = "title".toList ∧
            c'.NewValue = some (.str t)) := by
      intro d' e hd'
      obtain ⟨t, ht, hc⟩ := ih d'
      rw [e, ht]
      rcases hd' with rfl | ⟨v, rfl, h1, h2, h3⟩
      · refine ⟨t, rfl, ?_⟩
        rcases hc with h | ⟨c', hm, h⟩
        · exact Or.inl h
        · exact Or.inr ⟨c', List.mem_cons_of_mem _ hm, h⟩
      · refine ⟨t, rfl, ?_⟩
        rcases hc with h | ⟨c', hm, h⟩
        · exact Or.inr ⟨c, List.mem_cons_self _ _, h1, h2, by rw [h3, h]⟩
        · exact Or.inr ⟨c', List.mem_cons_of_mem _ hm, h⟩
    by_cases h1 : c.Op = ChangeUpdate
    · by_cases h2 : c.Path = "title".toList
      · cases h3 : c.NewValue with
        | none =>
          exact step d (by simp only [applyDiff, List.foldl_cons, h1, h2, h3, if_true]) (Or.inl rfl)
        | some v =>
          cases v with
          | str v =>
            exact step { d with Title := v }
              (by simp only [applyDiff, List.foldl_cons, h1, h2, h3, if_true])
              (Or.inr ⟨v, rfl, h1, h2, h3⟩)
          | int n =>
            exact step d (by simp only [applyDiff, List.foldl_cons, h1, h2, h3, if_true]) (Or.inl rfl)
          | bool b =>
            exact step d (by simp only [applyDiff, List.foldl_cons, h1, h2, h3, if_true]) (Or.inl rfl)
          | «section» s =>
            exact step d (by simp only [applyDiff, List.foldl_cons, h1, h2, h3, if_true]) (Or.inl rfl)
          | slide s =>
            exact step d (by simp only [applyDiff, List.foldl_cons, h1, h2, h3, if_true]) (Or.inl rfl)
          | blocks bs =>
            exact step d (by simp only [applyDiff, List.foldl_cons, h1, h2, h3, if_true]) (Or.inl rfl)
      · exact step d (by simp only [applyDiff, List.foldl_cons, h1, h2, if_true, if_false]) (Or.inl rfl)
    · exact step d (by simp only [applyDiff, List.foldl_cons, h1, if_false]) (Or.inl rfl)

/-- The text that `Encode` writes is the same for two decks with the same sections and
the same theme. -/
theorem Encode_of_sections_theme (d d' : Deck) (hs : d'.Sections = d.Sections)
    (ht : d'.Theme = d.Theme) : Encode d' = Encode d := by
  unfold Encode writeFrontmatter
  rw [hs, ht]

/-- The title does not reach the text that `Encode` writes. -/
theorem Encode_Title (d : Deck) (t : GoString) : Encode { d with Title := t } = Encode d :=
  Encode_of_sections_theme d _ rfl rfl

/-- C40: for every deck and every diff, the deck after `applyDiff` is the deck with
at most the title replaced, the new title being the old one or the string value of
an update change of the path `title`; its sections, theme, identifier and metadata
are unchanged, `Encode` writes the same text for it as for the deck before, and so
`Apply` of the Marp backend does the same for any two diffs that are not empty. -/
theorem applyDiff_frame (d : Deck) (diff : Diff) :
    (∃ t, applyDiff d diff = { d with Title := t } ∧
      (t = d.Title ∨ ∃ c ∈ diff.Changes, c.Op = ChangeUpdate ∧ c.Path = "title".toList ∧
        c.NewValue = some (.str t))) ∧
    (applyDiff d diff).Sections = d.Sections ∧
    (applyDiff d diff).Theme = d.Theme ∧
    (applyDiff d diff).ID = d.ID ∧
    (applyDiff d diff).Meta = d.Meta ∧
    Encode (applyDiff d diff) = Encode d ∧
    (∀ t, Encode { d with Title := t } = Encode d) ∧
    ∀ (fs : FileSystem) (ref : Ref) (other : Diff),
      diff.IsEmpty = false → other.IsEmpty = false →
      marpApply fs ref (some diff) = marpApply fs ref (some other) := by
  have key : ∀ (d : Deck) (diff : Diff), ∃ t, applyDiff d diff = { d with Title := t } ∧
      (t = d.Title ∨ ∃ c ∈ diff.Changes, c.Op = ChangeUpdate ∧ c.Path = "title".toList ∧
        c.NewValue = some (.str t)) := fun d diff => applyDiff_fold diff.Changes diff.DeckID d
  have enc : ∀ (d : Deck) (diff : Diff), Encode (applyDiff d diff) = Encode d := by
    intro d diff
    obtain ⟨t, ht, -⟩ := key d diff
    rw [ht]
    exact Encode_Title d t
  obtain ⟨t, ht, hc⟩ := key d diff
  refine ⟨⟨t, ht, hc⟩, by rw [ht], by rw [ht], by rw [ht], by rw [ht], enc d diff,
    Encode_Title d, ?_⟩
  intro fs ref other h1 h2
  unfold marpApply
  simp only [Option.bind, h1, h2]
  cases ReadFile fs ref.Path with
  | none => rfl
  | some r =>
    rcases r with ⟨_ | current, _ | err⟩
    · rfl
    · rfl
    · simp only [WriteFile, enc, Bool.false_eq_true, if_false]
    · rfl

/-- C40 on the deck of `TestDeckFindSlide` with the title update of the tests: the
text is the one of the deck before, and the Marp backend writes the same file for the
title update as for the addition of a section. -/
theorem applyDiff_frame_witness :
    Encode (applyDiff findSlideDeck titleDiff) = Encode findSlideDeck ∧
    (applyDiff findSlideDeck titleDiff).Title = "New Title".toList ∧
    marpApply sampleFiles sampleRef (some titleDiff) =
      marpApply sampleFiles sampleRef (some addSectionDiff) :=
  ⟨(applyDiff_frame findSlideDeck titleDiff).2.2.2.2.2.1, by decide,
   (applyDiff_frame findSlideDeck titleDiff).2.2.2.2.2.2.2 sampleFiles sampleRef
     addSectionDiff (by decide) (by decide)⟩

/-! ## Confirmation -/

/-- C33: for every registry, every state of what the backends store, every reference
and every diff (nil included), `ApplyChanges` without confirmation returns the error
`ErrConfirmRequired` with a result that is not applied and leaves the state as it
was, whatever the registry holds; and `UpdateSlide` without confirmation returns the
same error with a result that is not updated and leaves the state as it was, for every
slide identifier and every update. -/
theorem confirm_required {W : Type} (x : Extern) (reg : Registry W) (w : W) (ref : Ref)
    (diff : Option Diff) (slideID : GoString) (updates : Option Slide) :
    ApplyChanges reg w ref diff { Confirm := false } =
      some ((some { Applied := false, Message := "Set confirm=true to apply changes".toList },
        some ErrConfirmRequired), w) ∧
    UpdateSlide x reg w ref slideID updates { Confirm := false } =
      some ((some { Updated := false, Message := "Set confirm=true to apply changes".toList },
        some ErrConfirmRequired), w) ∧
    (∀ (reg' : Registry W),
      ApplyChanges reg' w ref diff { Confirm := false } =
        ApplyChanges reg w ref diff { Confirm := false } ∧
      UpdateSlide x reg' w ref slideID updates { Confirm := false } =
        UpdateSlide x reg w ref slideID updates { Confirm := false }) :=
  ⟨rfl, rfl, fun _ => ⟨rfl, rfl⟩⟩

/-! ## Termination of the line loops -/

/-- One iteration of the loop of `splitSlides` adds at most one line to what the
state holds: the closed fragments and the lines of the current one. -/
theorem splitSlides_step_size (st : splitState) (line : GoString) :
    (splitSlides.step st line).slides.length + (splitSlides.step st line).current.length ≤
      st.slides.length + st.current.length + 1 := by
  unfold splitSlides.step
  simp only
  split_ifs <;> simp <;> omega

/-- The loop of `splitSlides` over a list of lines adds at most one to the size of
the state for each line. -/
theorem splitSlides_foldl_size (lines : List GoString) (st : splitState) :
    (lines.foldl splitSlides.step st).slides.length +
        (lines.foldl splitSlides.step st).current.length ≤
      st.slides.length + st.current.length + lines.length := by
  induction lines generalizing st with
  | nil => simp
  | cons l ls ih =>
    rw [List.foldl_cons]
    have h1 := ih (splitSlides.step st l)
    have h2 := splitSlides_step_size st l
    simp only [List.length_cons]
    omega

/-- The fragments that `splitSlides` returns are at most as many as the lines. -/
theorem splitSlides_length_le (body : GoString) :
    (splitSlides body).length ≤ (Split body '\n').length := by
  have h := splitSlides_foldl_size (Split body '\n') {}
  simp only [List.length_nil, Nat.zero_add] at h
  unfold splitSlides
  simp only
  split_ifs <;> simp <;> omega

/-- The run of table lines from a table line on has at least one line. -/
theorem tableRun_pos (lines : List GoString) (n : Nat) (hn : n < lines.length)
    (ht : isTableLine lines[n] = true) :
    1 ≤ ((lines.drop n).takeWhile isTableLine).length := by
  rw [List.drop_eq_getElem_cons hn, List.takeWhile_cons_of_pos ht]
  simp

/-- C37: the line loops of `parseFrontmatter`, `splitSlides` and `parseSlideContent`
end on every input.  An iteration of the loop of `parseFrontmatter` at a line of the
text leaves the index after that line and at most at the end, the style block
included, and `parseFrontmatter` returns.  The loop of `splitSlides` is one pass over
the lines, and it returns at most as many fragments as there are lines.  An iteration
of the loop of `parseSlideContent` at a line of the text leaves the index on a line
at or after it, to which the loop adds one; on a table line outside code and HTML
blocks the index it leaves is the line plus the length of the run of table lines,
which is at least one, minus one; the loop ends within a fuel of the number of lines
plus one from every line index, and `parseSlideContent` returns. -/
theorem line_loops_terminate :
    (∀ (lines : List GoString) (n : Nat) (fm : Frontmatter), n < lines.length →
      ∃ (n' : Nat) (fm' : Frontmatter),
        parseFrontmatter.step lines (n : Int) fm = some ((n' : Int), fm') ∧
          n < n' ∧ n' ≤ lines.length) ∧
    (∀ (fuel : Nat) (lines : List GoString) (n : Nat) (fm : Frontmatter),
      n ≤ lines.length → lines.length < fuel + n →
      ∃ fm', parseFrontmatter.loop fuel lines (n : Int) fm = some fm') ∧
    (∀ content, ∃ fm body, parseFrontmatter content = some (fm, body)) ∧
    (∀ body, splitSlides body =
        (let st := (Split body '\n').foldl splitSlides.step {}
         if 0 < st.current.length then
           if TrimSpace (Join st.current "\n".toList) ≠ [] then
             st.slides ++ [Join st.current "\n".toList]
           else st.slides
         else st.slides) ∧
      (splitSlides body).length ≤ (Split body '\n').length) ∧
    (∀ (lines : List GoString) (n : Nat) (st : contentState), n < lines.length →
      ∃ (n' : Nat) (st' : contentState),
        parseSlideContent.step lines (n : Int) st = some ((n' : Int), st') ∧
          n ≤ n' ∧ n' < lines.length) ∧
    (∀ (lines : List GoString) (n : Nat) (st : contentState) (hn : n < lines.length),
      st.inCodeBlock = false → st.inHTMLBlock = false → isTableLine lines[n] = true →
      ∃ (k : Nat) (st' : contentState), 1 ≤ k ∧
        k = ((lines.drop n).takeWhile isTableLine).length ∧
        parseSlideContent.step lines (n : Int) st = some (((n + k - 1 : Nat) : Int), st')) ∧
    (∀ (fuel : Nat) (lines : List GoString) (n : Nat) (st : contentState),
      n ≤ lines.length → lines.length < fuel + n →
      ∃ st', parseSlideContent.loop fuel lines (n : Int) st = some st') ∧
    (∀ slide content, ∃ slide', parseSlideContent slide content = some slide') := by
  refine ⟨parseFrontmatter_step_progress, parseFrontmatter_loop_total, parseFrontmatter_total,
    fun body => ⟨rfl, splitSlides_length_le body⟩, parseSlideContent_step_progress, ?_,
    parseSlideContent_loop_total, parseSlideContent_total⟩
  intro lines n st hn hc hh ht
  exact ⟨_, _, tableRun_pos lines n hn ht, rfl, parseSlideContent_step_table lines n st hn hc hh ht⟩

/-- C37 on a frontmatter with a style block and on a slide with a table: the
iteration at the style key leaves the index after the block, and the iteration at
the first table line leaves it on the last table line. -/
theorem line_loops_terminate_witness :
    (∃ (n' : Nat) (fm' : Frontmatter),
        parseFrontmatter.step styleBlockLines ((1 : Nat) : Int) {} = some ((n' : Int), fm') ∧
          1 < n' ∧ n' ≤ styleBlockLines.length) ∧
    (parseFrontmatter.step styleBlockLines 1 {}).map Prod.fst = some 4 ∧
    (∃ (k : Nat) (st' : contentState), 1 ≤ k ∧
        k = ((tableLines.drop 1).takeWhile isTableLine).length ∧
        parseSlideContent.step tableLines ((1 : Nat) : Int) {} =
          some (((1 + k - 1 : Nat) : Int), st')) ∧
    (parseSlideContent.step tableLines 1 {}).map Prod.fst = some 3 :=
  ⟨line_loops_terminate.1 styleBlockLines 1 {} (by decide), by decide,
   line_loops_terminate.2.2.2.2.2.1 tableLines 1 {} (by decide) rfl rfl (by decide),
   by decide⟩

/-! ## `splitSlides` on fragments joined by separator lines -/

/-- A separator line is not a fence line. -/
theorem isFenceLine_of_separator (l : GoString) (h : isSeparatorLine l = true) :
    isFenceLine l = false := by
  simp only [isSeparatorLine, decide_eq_true_eq] at h
  simp only [isFenceLine, h]
  decide

/-- The fence state after one more line. -/
theorem insideFence_cons (l : GoString) (ls : List GoString) :
    insideFence (l :: ls) = (isFenceLine l != insideFence ls) := by
  unfold insideFence
  rw [List.countP_cons]
  cases hl : isFenceLine l <;>
    rcases Nat.mod_two_eq_zero_or_one (List.countP isFenceLine ls) with h | h <;>
    simp [h, Nat.add_mod]

/-- The scan of `splitSlides` over lines whose separator lines all stand inside a
fence, from a fence state: it ends, in the state that the fence lines give. -/
theorem fenceScan_of_separators_inside (lines : List GoString) (b : Bool)
    (h : ∀ i, i < lines.length → isSeparatorLine (lines.getD i []) = true →
      (b != insideFence (lines.take i)) = true) :
    fenceScan b lines = some (b != insideFence lines) := by
  induction lines generalizing b with
  | nil => cases b <;> rfl
  | cons l ls ih =>
    unfold fenceScan
    simp only
    have h0 := h 0 (by simp)
    simp only [List.getD_cons_zero, List.take_zero] at h0
    have hsep : ¬ ((!(if isFenceLine l = true then !b else b)) = true ∧
        isSeparatorLine l = true) := by
      rintro ⟨h1, h2⟩
      have h3 := h0 h2
      rw [isFenceLine_of_separator l h2] at h1
      cases b <;> simp_all [insideFence]
    rw [if_neg hsep, ih]
    · rw [insideFence_cons]
      cases isFenceLine l <;> cases b <;> cases insideFence ls <;> rfl
    · intro i hi hs
      have := h (i + 1) (by simpa using hi) (by simpa using hs)
      rw [List.take_succ_cons, insideFence_cons] at this
      revert this
      cases isFenceLine l <;> cases b <;> cases insideFence (List.take i ls) <;> decide

/-- A text with an even number of fence lines whose separator lines all stand inside
a fence has closed fences. -/
theorem fenceClosed_of_even (s : GoString)
    (he : (Split s '\n').countP isFenceLine % 2 = 0)
    (h : ∀ i, i < (Split s '\n').length → isSeparatorLine ((Split s '\n').getD i []) = true →
      insideFence ((Split s '\n').take i) = true) :
    fenceClosed s = true := by
  unfold fenceClosed
  rw [fenceScan_of_separators_inside _ false (by simpa using h)]
  simp [insideFence, he]

/-- C39: for every list of fragments each of which is not blank, has an even number
of fence lines (lines whose trimmed text starts with three backticks) and has every
line that trims to `---` inside a fenced span, `splitSlides` of the fragments joined
by `\n---\n` is that list. -/
theorem splitSlides_inverts_Join (segs : List GoString)
    (hb : ∀ s ∈ segs, TrimSpace s ≠ [])
    (he : ∀ s ∈ segs, (Split s '\n').countP isFenceLine % 2 = 0)
    (hs : ∀ s ∈ segs, ∀ i, i < (Split s '\n').length →
      isSeparatorLine ((Split s '\n').getD i []) = true →
      insideFence ((Split s '\n').take i) = true) :
    splitSlides (Join segs "\n---\n".toList) = segs :=
  splitSlides_Join segs fun s hm =>
    ⟨hb s hm, fenceClosed_of_even s (he s hm) (hs s hm)⟩

/-- C39 on three fragments, one with a line `---` inside a fence and two with white
space around them. -/
theorem splitSlides_inverts_Join_witness :
    splitSlides (Join joinSample "\n---\n".toList) = joinSample :=
  splitSlides_inverts_Join joinSample (by decide) (by decide) (by decide)

/-! ## A lead fragment starts a section -/

/-- In runs where no fragment after the first of a run starts a section, a fragment
that starts a section is the first of its run. -/
theorem runs_start_of_startsSection (runs : List (List parsedSlide))
    (htail : ∀ r ∈ runs, ∀ ps ∈ r.tail, startsSection ps = false)
    (pre post : List parsedSlide) (ps : parsedSlide)
    (h : runs.flatten = pre ++ ps :: post) (hs : startsSection ps = true) :
    ∃ rs1 r rs2, runs = rs1 ++ (ps :: r) :: rs2 ∧ rs1.flatten = pre := by
  obtain ⟨rs1, a, b, rs2, hL, hp, _⟩ := flatten_eq_append_cons runs pre post ps h
  cases a with
  | nil => exact ⟨rs1, b, rs2, by simpa using hL, by simpa using hp.symm⟩
  | cons y a' =>
    exfalso
    have hmem : (y :: a' ++ ps :: b) ∈ runs := by rw [hL]; simp
    have := htail _ hmem ps (by simp)
    rw [hs] at this
    exact absurd this (by simp)

/-- The sections converted from runs split where the runs split. -/
theorem SectionOfRun_split (secs : List Section) (rs1 rs2 : List (List parsedSlide))
    (run : List parsedSlide)
    (h : List.Forall₂ SectionOfRun secs (rs1 ++ run :: rs2)) :
    ∃ secs1 sec secs2, secs = secs1 ++ sec :: secs2 ∧ secs1.length = rs1.length ∧
      SectionOfRun sec run := by
  have hlen := h.length_eq
  have hd := List.forall₂_drop rs1.length h
  rw [List.drop_left] at hd
  cases hdrop : secs.drop rs1.length with
  | nil => rw [hdrop] at hd; cases hd
  | cons sec secs2 =>
    rw [hdrop] at hd
    cases hd with
    | cons h1 _ =>
      refine ⟨secs.take rs1.length, sec, secs2, ?_, ?_, h1⟩
      · rw [← hdrop, List.take_append_drop]
      · rw [List.length_take]
        simp only [List.length_append, List.length_cons] at hlen
        omega

/-- A fragment whose `_class` directive is `lead` starts a section. -/
theorem startsSection_of_lead (ps : parsedSlide)
    (h : mapIndex ps.directives "_class".toList = "lead".toList) : startsSection ps = true := by
  unfold startsSection
  rw [h]
  decide

/-- A fragment whose `_class` directive is `section-divider` starts a section. -/
theorem startsSection_of_divider (ps : parsedSlide)
    (h : mapIndex ps.directives "_class".toList = "section-divider".toList) :
    startsSection ps = true := by
  unfold startsSection
  rw [h]
  decide

/-- C38, as the code has it: `buildDeck` returns a deck for every list of parsed
fragments, and a fragment whose `_class` directive is `lead`, like one whose
directive is `section-divider`, is the first fragment of a section: the sections
before it hold the fragments before it, the section it starts is titled by
`extractSectionTitle` of its content, and the first slide of that section is
converted from it.  A lead fragment in first position so yields a first section
titled by `extractSectionTitle` of its content, which is not `default` unless that
title is itself the word `default`. -/
theorem buildDeck_lead_section (fm : Frontmatter) (slides : List parsedSlide) :
    ∃ deck : Deck, buildDeck fm slides = some deck ∧
      (∀ pre ps post, slides = pre ++ ps :: post →
        (mapIndex ps.directives "_class".toList = "lead".toList ∨
          mapIndex ps.directives "_class".toList = "section-divider".toList) →
        ∃ secs1 sec secs2 slide rest i j,
          deck.Sections = secs1 ++ sec :: secs2 ∧
          (List.Forall₂ (fun slide ps => ∃ i j, convertToSlide ps i j = some slide)
            (secs1.map (·.Slides)).flatten pre) ∧
          sec.Title = extractSectionTitle ps.content ∧
          sec.Slides = slide :: rest ∧ convertToSlide ps i j = some slide) ∧
      (∀ ps post, slides = ps :: post →
        mapIndex ps.directives "_class".toList = "lead".toList →
        deck.Sections.head?.map (·.Title) = some (extractSectionTitle ps.content) ∧
        (extractSectionTitle ps.content ≠ "default".toList →
          deck.Sections.head?.map (·.Title) ≠ some "default".toList)) := by
  obtain ⟨secs, _, hf, deck, hd, hs, _⟩ := buildDeck_eq fm slides
  obtain ⟨hg, hfl⟩ := groupSlides_good slides
  have htail : ∀ r ∈ (buildDeck.groupSlides slides).map (·.slides),
      ∀ ps ∈ r.tail, startsSection ps = false := by
    intro r hr
    simp only [List.mem_map] at hr
    obtain ⟨g, hg', e⟩ := hr
    rw [← e]; exact (hg.1 g hg').2.1
  have hne : ∀ r ∈ (buildDeck.groupSlides slides).map (·.slides), r ≠ [] := by
    intro r hr
    simp only [List.mem_map] at hr
    obtain ⟨g, hg', e⟩ := hr
    rw [← e]; exact (hg.1 g hg').1
  have hsne : ∀ sec ∈ secs, sec.Slides ≠ [] := SectionOfRun_nonempty secs _ hf hne
  have main : ∀ pre ps post, slides = pre ++ ps :: post → startsSection ps = true →
      ∃ secs1 sec secs2 slide rest i j,
        deck.Sections = secs1 ++ sec :: secs2 ∧
        (List.Forall₂ (fun slide ps => ∃ i j, convertToSlide ps i j = some slide)
          (secs1.map (·.Slides)).flatten pre) ∧
        sec.Title = extractSectionTitle ps.content ∧
        sec.Slides = slide :: rest ∧ convertToSlide ps i j = some slide := by
    intro pre ps post hsl hst
    obtain ⟨rs1, r, rs2, hruns, hpre⟩ :=
      runs_start_of_startsSection _ htail pre post ps (by rw [hfl, hsl]) hst
    rw [hruns] at hf
    obtain ⟨secs1, sec, secs2, hsecs, hlen, hsec⟩ := SectionOfRun_split secs rs1 rs2 _ hf
    have hpref : List.Forall₂ SectionOfRun secs1 rs1 := by
      have := List.forall₂_take rs1.length hf
      rw [List.take_left, hsecs, ← hlen, List.take_left] at this
      exact this
    obtain ⟨ht, hslides⟩ := hsec
    cases hss : sec.Slides with
    | nil => rw [hss] at hslides; cases hslides
    | cons slide rest =>
      rw [hss] at hslides
      cases hslides with
      | cons h1 _ =>
        obtain ⟨i, j, hc⟩ := h1
        refine ⟨secs1, sec, secs2, slide, rest, i, j, by rw [hs, hsecs], ?_, ?_, hss, hc⟩
        · rw [← hpre]
          exact SectionOfRun_flatten secs1 rs1 hpref
        · rw [ht]
          simp [runTitle, hst]
  refine ⟨deck, hd, ?_, ?_⟩
  · intro pre ps post hsl hcls
    rcases hcls with h | h
    · exact main pre ps post hsl (startsSection_of_lead ps h)
    · exact main pre ps post hsl (startsSection_of_divider ps h)
  · intro ps post hsl hcls
    obtain ⟨secs1, sec, secs2, slide, rest, i, j, h1, h2, h3, _⟩ :=
      main [] ps post hsl (startsSection_of_lead ps hcls)
    have hnil : secs1 = [] := by
      cases secs1 with
      | nil => rfl
      | cons s0 ss =>
        exfalso
        have h0 : s0.Slides ≠ [] := hsne s0 (by rw [← hs, h1]; simp)
        cases h2' : s0.Slides with
        | nil => exact h0 h2'
        | cons x xs =>
          simp only [List.map_cons, List.flatten_cons, h2', List.cons_append] at h2
          cases h2
    subst hnil
    have e : deck.Sections.head?.map (·.Title) = some (extractSectionTitle ps.content) := by
      rw [h1]; simp [h3]
    refine ⟨e, fun hne => ?_⟩
    rw [e]
    intro h
    exact hne (Option.some.inj h)

/-- C38 on a lead fragment with two headings after a plain fragment and on one in
first position: the section it starts is titled by the second-level heading. -/
theorem buildDeck_lead_section_witness :
    (∃ deck : Deck, buildDeck {} [fragmentPlain, fragmentLeadTwo] = some deck ∧
      ∃ secs1 sec secs2 slide rest i j,
        deck.Sections = secs1 ++ sec :: secs2 ∧
        (List.Forall₂ (fun slide ps => ∃ i j, convertToSlide ps i j = some slide)
          (secs1.map (·.Slides)).flatten [fragmentPlain]) ∧
        sec.Title = extractSectionTitle fragmentLeadTwo.content ∧
        sec.Slides = slide :: rest ∧ convertToSlide fragmentLeadTwo i j = some slide) ∧
    (∃ deck : Deck, buildDeck {} [fragmentLeadTwo, fragmentPlain] = some deck ∧
      deck.Sections.head?.map (·.Title) = some "Design".toList ∧
      deck.Sections.head?.map (·.Title) ≠ some "default".toList) := by
  constructor
  · obtain ⟨deck, hd, h1, _⟩ := buildDeck_lead_section {} [fragmentPlain, fragmentLeadTwo]
    exact ⟨deck, hd, h1 [fragmentPlain] fragmentLeadTwo [] rfl (Or.inl (by decide))⟩
  · obtain ⟨deck, hd, _, h2⟩ := buildDeck_lead_section {} [fragmentLeadTwo, fragmentPlain]
    have h := h2 fragmentLeadTwo [fragmentPlain] rfl (by decide)
    exact ⟨deck, hd, h.1, h.2 (by decide)⟩

/-- C38 as stated fails: the fragment `<!-- _class: lead -->` with `# default` in
first position yields a first section whose title is `default`, the text of its
heading. -/
theorem buildDeck_lead_default_counterexample :
    parseRawSlide "<!-- _class: lead -->\n# default".toList = some fragmentLeadDefault ∧
    mapIndex fragmentLeadDefault.directives "_class".toList = "lead".toList ∧
    extractSectionTitle fragmentLeadDefault.content = "default".toList ∧
    (buildDeck {} [fragmentLeadDefault]).map
        (fun deck => deck.Sections.map (fun sec => sec.Title)) =
      some ["default".toList] := by
  decide

/-! ## `computeDiff` of a deck with itself -/

/-- A lookup after a map assignment: the value assigned for the key itself, the
earlier lookup for another key. -/
theorem goMapGet_goMapSet {α : Type} (m : GoMapOf α) (k k' : GoString) (v : α) :
    goMapGet (goMapSet m k v) k' = if k = k' then some v else goMapGet m k' := by
  unfold goMapGet goMapSet
  by_cases h : k = k'
  · simp [h]
  · simp only [if_neg h]
    rw [List.find?_cons_of_neg _ (by simpa using h)]
    congr 1
    induction m with
    | nil => rfl
    | cons e m ih =>
      by_cases he : e.1 = k
      · have hne : ¬ e.1 = k' := by rw [he]; exact h
        rw [List.filter_cons_of_neg (by simpa using he),
          List.find?_cons_of_neg _ (by simpa using hne)]
        exact ih
      · rw [List.filter_cons_of_pos (by simpa using he)]
        by_cases hk : e.1 = k'
        · rw [List.find?_cons_of_pos _ (by simpa using hk),
            List.find?_cons_of_pos _ (by simpa using hk)]
        · rw [List.find?_cons_of_neg _ (by simpa using hk),
            List.find?_cons_of_neg _ (by simpa using hk)]
          exact ih

/-- A map filled from a list by keys holds, under the key of an element of the list,
the value of an element of the list with that key. -/
theorem goMapGet_foldl {α β : Type} (k : α → GoString) (v : α → β) (xs : List α)
    (m0 : GoMapOf β) (x : α) (hx : x ∈ xs) :
    ∃ y ∈ xs, k y = k x ∧
      goMapGet (xs.foldl (fun m s => goMapSet m (k s) (v s)) m0) (k x) = some (v y) := by
  induction xs using List.reverseRecOn with
  | nil => simp at hx
  | append_singleton xs z ih =>
    rw [List.foldl_append, List.foldl_cons, List.foldl_nil, goMapGet_goMapSet]
    by_cases hz : k z = k x
    · exact ⟨z, by simp, hz, by rw [if_pos hz]⟩
    · rw [if_neg hz]
      have hx' : x ∈ xs := by
        rcases List.mem_append.mp hx with h | h
        · exact h
        · simp only [List.mem_singleton] at h
          subst h
          exact absurd rfl hz
      obtain ⟨y, hy, hk, hg⟩ := ih hx'
      exact ⟨y, List.mem_append_left _ hy, hk, hg⟩

/-- With pairwise distinct keys, a map filled from a list holds each element of the
list under its key. -/
theorem goMapGet_foldl_nodup {α : Type} (k : α → GoString) (xs : List α)
    (hn : (xs.map k).Nodup) (x : α) (hx : x ∈ xs) :
    goMapGet (xs.foldl (fun m s => goMapSet m (k s) s) []) (k x) = some x := by
  obtain ⟨y, hy, hk, hg⟩ := goMapGet_foldl k (fun s => s) xs [] x hx
  have : y = x := List.inj_on_of_nodup_map hn hy hx hk
  rw [hg, this]

/-- A loop whose body leaves the accumulator as it is on every element of the list
leaves it as it is. -/
theorem foldl_fixed {α β : Type} (f : β → α → β) (xs : List α) (b : β)
    (h : ∀ x ∈ xs, f b x = b) : xs.foldl f b = b := by
  induction xs with
  | nil => rfl
  | cons x xs ih =>
    rw [List.foldl_cons, h x (by simp)]
    exact ih fun y hy => h y (by simp [hy])

/-- With pairwise distinct slide identifiers, `compareSectionSlides` of a section
with itself adds no change. -/
theorem compareSectionSlides_self (diff : Diff) (s : Section)
    (hn : (s.Slides.map (·.ID)).Nodup) : compareSectionSlides diff s s = diff := by
  unfold compareSectionSlides
  simp only
  apply foldl_fixed
  intro ds hds
  have := goMapGet_foldl_nodup (fun s : Slide => s.ID) s.Slides hn ds hds
  simp only at this
  rw [this]
  simp

/-- With pairwise distinct section identifiers, and slide identifiers that are
pairwise distinct within each section, `computeDiff` of a deck with itself is the
empty diff of the deck. -/
theorem computeDiff_self_of_nodup (d : Deck) (hsec : (d.Sections.map (·.ID)).Nodup)
    (hsl : ∀ sec ∈ d.Sections, (sec.Slides.map (·.ID)).Nodup) :
    computeDiff d d = NewDiff d.ID := by
  unfold computeDiff
  simp only [ne_eq, not_true_eq_false, if_false]
  rw [foldl_fixed _ d.Sections (NewDiff d.ID)]
  · apply foldl_fixed
    intro s hs
    obtain ⟨y, _, _, hg⟩ := goMapGet_foldl (fun s : Section => s.ID) (fun _ => true)
      d.Sections [] s hs
    rw [hg]
    rfl
  · intro ds hds
    have := goMapGet_foldl_nodup (fun s : Section => s.ID) d.Sections hsec ds hds
    simp only at this
    simp only [this]
    exact compareSectionSlides_self _ ds (hsl ds hds)

/-- The slide identifiers of each section are pairwise distinct when those of all
the slides are. -/
theorem nodup_of_flatten (secs : List Section)
    (h : ((secs.map (·.Slides)).flatten.map (·.ID)).Nodup) :
    ∀ sec ∈ secs, (sec.Slides.map (·.ID)).Nodup := by
  induction secs with
  | nil => intro sec hs; simp at hs
  | cons s rest ih =>
    simp only [List.map_cons, List.flatten_cons, List.map_append] at h
    have h' := List.nodup_append.mp h
    intro sec hs
    simp only [List.mem_cons] at hs
    rcases hs with hs | hs
    · subst hs; exact h'.1
    · exact ih h'.2.1 sec hs

/-- C34: for every deck whose section identifiers are pairwise distinct and whose
slide identifiers are pairwise distinct within each section, `computeDiff` of the
deck with itself is the empty diff of the deck: it holds no change.  Every text is
parsed to such a deck, so `computeDiff` of a parsed deck with itself holds no
change. -/
theorem computeDiff_self :
    (∀ d : Deck, (d.Sections.map (·.ID)).Nodup →
      (∀ sec ∈ d.Sections, (sec.Slides.map (·.ID)).Nodup) →
      computeDiff d d = NewDiff d.ID ∧ (computeDiff d d).Changes = [] ∧
        (computeDiff d d).IsEmpty = true) ∧
    (∀ x : GoString, ∃ d, Parse x = some (some d, none) ∧
      (d.Sections.map (·.ID)).Nodup ∧
      (∀ sec ∈ d.Sections, (sec.Slides.map (·.ID)).Nodup) ∧
      (computeDiff d d).Changes = [] ∧ (computeDiff d d).IsEmpty = true) := by
  constructor
  · intro d h1 h2
    have := computeDiff_self_of_nodup d h1 h2
    rw [this]
    exact ⟨rfl, rfl, rfl⟩
  · intro x
    obtain ⟨d, hP, hpos⟩ := Parse_PositionalIDs x
    have h1 := (sectionIDs_nodup 0 _ hpos).1
    have h2 := nodup_of_flatten _ (slideIDs_nodup 0 _ hpos).1
    have := computeDiff_self_of_nodup d h1 h2
    exact ⟨d, hP, h1, h2, by rw [this]; rfl, by rw [this]; rfl⟩

/-- C34 on a deck of two sections whose slides share an identifier across the
sections but not within one. -/
theorem computeDiff_self_witness :
    computeDiff twoSectionDeck twoSectionDeck = NewDiff twoSectionDeck.ID ∧
    (computeDiff twoSectionDeck twoSectionDeck).Changes = [] ∧
    (computeDiff twoSectionDeck twoSectionDeck).IsEmpty = true :=
  computeDiff_self.1 twoSectionDeck (by decide) (by decide)

/-! ## The fields of the blocks that the reader makes -/

theorem fieldsOfKind_paragraph (t : GoString) :
    ({ Kind := BlockParagraph, Text := t } : Block).fieldsOfKind = true := by
  unfold Block.fieldsOfKind
  rw [if_neg (show ¬ (BlockParagraph = BlockBullet ∨ BlockParagraph = BlockNumbered) by decide),
    if_neg (show ¬ BlockParagraph = BlockCode by decide),
    if_neg (show ¬ BlockParagraph = BlockImage by decide), if_pos (Or.inl rfl)]
  simp

theorem fieldsOfKind_quote (t : GoString) : (NewQuote t).fieldsOfKind = true := by
  unfold Block.fieldsOfKind NewQuote
  rw [if_neg (show ¬ (BlockQuote = BlockBullet ∨ BlockQuote = BlockNumbered) by decide),
    if_neg (show ¬ BlockQuote = BlockCode by decide),
    if_neg (show ¬ BlockQuote = BlockImage by decide), if_pos (Or.inr rfl)]
  simp

theorem fieldsOfKind_code (t l : GoString) :
    ({ Kind := BlockCode, Text := t, Lang := l } : Block).fieldsOfKind = true := by
  unfold Block.fieldsOfKind
  rw [if_neg (show ¬ (BlockCode = BlockBullet ∨ BlockCode = BlockNumbered) by decide),
    if_pos rfl]
  simp

theorem fieldsOfKind_image (u a : GoString) : (NewImage u a).fieldsOfKind = true := by
  unfold Block.fieldsOfKind NewImage
  rw [if_neg (show ¬ (BlockImage = BlockBullet ∨ BlockImage = BlockNumbered) by decide),
    if_neg (show ¬ BlockImage = BlockCode by decide), if_pos rfl]
  simp

theorem fieldsOfKind_bullet (t : GoString) (l : Int) (h : 0 ≤ l) :
    (NewBullet t l).fieldsOfKind = true := by
  unfold Block.fieldsOfKind NewBullet
  rw [if_pos (Or.inl rfl)]
  simp [h]

theorem fieldsOfKind_numbered (t : GoString) (l : Int) (h : 0 ≤ l) :
    (NewNumbered t l).fieldsOfKind = true := by
  unfold Block.fieldsOfKind NewNumbered
  rw [if_pos (Or.inr rfl)]
  simp [h]

theorem fieldsOfKind_heading (t : GoString) (l : Int) (h1 : 1 ≤ l) (h3 : l ≤ 3) :
    (NewHeading t l).fieldsOfKind = true := by
  unfold Block.fieldsOfKind NewHeading
  rw [if_neg (show ¬ (BlockHeading = BlockBullet ∨ BlockHeading = BlockNumbered) by decide),
    if_neg (show ¬ BlockHeading = BlockCode by decide),
    if_neg (show ¬ BlockHeading = BlockImage by decide),
    if_neg (show ¬ (BlockHeading = BlockParagraph ∨ BlockHeading = BlockQuote) by decide),
    if_pos rfl]
  simp [h1, h3]

/-- A result of the loop body whose state has the body and the notes it started with
keeps the invariant. -/
theorem fieldsOfKind_same (N : List Block) (st st' : contentState) (i : Int)
    (r : Int × contentState)
    (hs : some (i, st') = some r) (hb : st'.slide.Body = st.slide.Body)
    (hn : st'.slide.Notes = st.slide.Notes) (h : BodyFields N st) : BodyFields N r.2 := by
  rw [← Option.some.inj hs]
  unfold BodyFields
  simp only [hb, hn]
  exact h

/-- A result of the loop body whose state has one more block, with the fields of its
kind, and the notes it started with keeps the invariant. -/
theorem fieldsOfKind_append (N : List Block) (st st' : contentState) (b : Block) (i : Int)
    (r : Int × contentState)
    (hs : some (i, st') = some r) (hb' : st'.slide.Body = st.slide.Body ++ [b])
    (hn : st'.slide.Notes = st.slide.Notes)
    (hb : b.fieldsOfKind = true) (h : BodyFields N st) : BodyFields N r.2 := by
  rw [← Option.some.inj hs]
  unfold BodyFields
  simp only [hb', hn]
  refine ⟨?_, h.2⟩
  intro b' hm
  simp only [List.mem_append, List.mem_singleton] at hm
  rcases hm with hm | rfl
  · exact h.1 b' hm
  · exact hb

/-- The branch of the loop body of `parseSlideContent` for a line outside code and
HTML blocks keeps a body of blocks with the fields of their kinds. -/
theorem fieldsOfKind_plainLine (lines : List GoString) (i : Int) (line trimmed : GoString)
    (st : contentState) (r : Int × contentState)
    (N : List Block) (h : BodyFields N st)
    (hs : parseSlideContent.plainLine lines i line trimmed st = some r) :
    BodyFields N r.2 := by
  unfold parseSlideContent.plainLine at hs
  by_cases h1 : HasPrefix trimmed "# ".toList = true
  · rw [if_pos h1] at hs
    by_cases ht : st.slide.Title = []
    · rw [if_pos ht] at hs; exact fieldsOfKind_same N st _ _ r hs rfl rfl h
    · rw [if_neg ht] at hs
      exact fieldsOfKind_append N st _ _ _ r hs rfl rfl
        (fieldsOfKind_heading _ 1 (by decide) (by decide)) h
  rw [if_neg h1] at hs
  by_cases h2 : HasPrefix trimmed "## ".toList = true
  · rw [if_pos h2] at hs
    by_cases ht : st.slide.Title = []
    · rw [if_pos ht] at hs; exact fieldsOfKind_same N st _ _ r hs rfl rfl h
    · rw [if_neg ht] at hs
      by_cases hsub : st.slide.Subtitle = []
      · rw [if_pos hsub] at hs; exact fieldsOfKind_same N st _ _ r hs rfl rfl h
      · rw [if_neg hsub] at hs
        exact fieldsOfKind_append N st _ _ _ r hs rfl rfl
          (fieldsOfKind_heading _ 2 (by decide) (by decide)) h
  rw [if_neg h2] at hs
  by_cases h3 : HasPrefix trimmed "### ".toList = true
  · rw [if_pos h3] at hs
    exact fieldsOfKind_append N st _ _ _ r hs rfl rfl
      (fieldsOfKind_heading _ 3 (by decide) (by decide)) h
  rw [if_neg h3] at hs
  by_cases h4 : HasPrefix trimmed "- ".toList = true ∨ HasPrefix trimmed "* ".toList = true
  · rw [if_pos h4] at hs
    cases ht : sliceFrom trimmed 2 with
    | none => rw [ht] at hs; exact absurd hs (by simp)
    | some t =>
      rw [ht] at hs
      simp only [Option.some_bind] at hs
      exact fieldsOfKind_append N st _ _ _ r hs rfl rfl
        (fieldsOfKind_bullet _ _ (countIndentLevel_nonneg line)) h
  rw [if_neg h4] at hs
  by_cases h5 : isNumberedItem trimmed = true
  · rw [if_pos h5] at hs
    cases ht : extractNumberedText trimmed with
    | none => rw [ht] at hs; exact absurd hs (by simp)
    | some t =>
      rw [ht] at hs
      simp only [Option.some_bind] at hs
      exact fieldsOfKind_append N st _ _ _ r hs rfl rfl
        (fieldsOfKind_numbered _ _ (countIndentLevel_nonneg line)) h
  rw [if_neg h5] at hs
  by_cases h6 : HasPrefix trimmed "> ".toList = true
  · rw [if_pos h6] at hs
    exact fieldsOfKind_append N st _ _ _ r hs rfl rfl (fieldsOfKind_quote _) h
  rw [if_neg h6] at hs
  have himg : ∀ image : Option contentState,
      (if HasPrefix trimmed "![".toList = true then
        (parseImageLine trimmed).bind fun r =>
          if r.2 ≠ [] then some (some (st.appendBody (NewImage r.2 r.1))) else some none
       else some none) = some image →
      image = none ∨ ∃ u a, image = some (st.appendBody (NewImage u a)) := by
    intro image hi
    by_cases h7 : HasPrefix trimmed "![".toList = true
    · rw [if_pos h7] at hi
      cases hp : parseImageLine trimmed with
      | none => rw [hp] at hi; exact absurd hi (by simp)
      | some p =>
        rw [hp] at hi
        simp only [Option.some_bind] at hi
        by_cases h8 : p.2 ≠ []
        · rw [if_pos h8] at hi
          exact Or.inr ⟨_, _, (Option.some.inj hi).symm⟩
        · rw [if_neg h8] at hi
          exact Or.inl (Option.some.inj hi).symm
    · rw [if_neg h7] at hi
      exact Or.inl (Option.some.inj hi).symm
  cases hi : (if HasPrefix trimmed "![".toList = true then
        (parseImageLine trimmed).bind fun r =>
          if r.2 ≠ [] then some (some (st.appendBody (NewImage r.2 r.1))) else some none
       else some none) with
  | none => rw [hi] at hs; exact absurd hs (by simp)
  | some image =>
    rw [hi] at hs
    simp only [Option.some_bind] at hs
    rcases himg image hi with e | ⟨u, a, e⟩
    · subst e
      simp only at hs
      by_cases h9 : HasPrefix trimmed "|".toList = true
      · rw [if_pos h9] at hs
        cases ht : parseSlideContent.tableLoop (lines.length + 1) lines i [] with
        | none => rw [ht] at hs; exact absurd hs (by simp)
        | some t =>
          rw [ht] at hs
          simp only [Option.some_bind] at hs
          exact fieldsOfKind_append N st _ _ _ r hs rfl rfl (fieldsOfKind_paragraph _) h
      · rw [if_neg h9] at hs
        exact fieldsOfKind_same N st _ _ r hs rfl rfl h
    · subst e
      simp only at hs
      exact fieldsOfKind_append N st _ _ _ r hs rfl rfl (fieldsOfKind_image _ _) h

/-- The loop body of `parseSlideContent` keeps a body of blocks with the fields of
their kinds. -/
theorem fieldsOfKind_step (lines : List GoString) (i : Int) (st : contentState)
    (r : Int × contentState)
    (N : List Block) (h : BodyFields N st)
    (hs : parseSlideContent.step lines i st = some r) :
    BodyFields N r.2 := by
  unfold parseSlideContent.step at hs
  cases hl : index lines i with
  | none => rw [hl] at hs; exact absurd hs (by simp)
  | some line =>
    rw [hl] at hs
    simp only [Option.some_bind] at hs
    by_cases h1 : HasPrefix (TrimSpace line) "```".toList = true
    · rw [if_pos h1] at hs
      by_cases h2 : (!st.inCodeBlock) = true
      · rw [if_pos h2] at hs; exact fieldsOfKind_same N st _ _ r hs rfl rfl h
      · rw [if_neg h2] at hs
        exact fieldsOfKind_append N st _ _ _ r hs rfl rfl (fieldsOfKind_code _ _) h
    rw [if_neg h1] at hs
    by_cases h2 : st.inCodeBlock = true
    · rw [if_pos h2] at hs; exact fieldsOfKind_same N st _ _ r hs rfl rfl h
    rw [if_neg h2] at hs
    by_cases h3 : (!st.inHTMLBlock) = true ∧ isHTMLBlockStart (TrimSpace line) = true
    · rw [if_pos h3] at hs
      by_cases h4 : 1 + (countHTMLOpens line - 1) - countHTMLCloses line ≤ 0
      · rw [if_pos h4] at hs
        exact fieldsOfKind_append N st _ _ _ r hs rfl rfl (fieldsOfKind_paragraph _) h
      · rw [if_neg h4] at hs; exact fieldsOfKind_same N st _ _ r hs rfl rfl h
    rw [if_neg h3] at hs
    by_cases h4 : st.inHTMLBlock = true
    · rw [if_pos h4] at hs
      by_cases h5 : st.htmlBlockDepth + countHTMLOpens line - countHTMLCloses line ≤ 0
      · rw [if_pos h5] at hs
        exact fieldsOfKind_append N st _ _ _ r hs rfl rfl (fieldsOfKind_paragraph _) h
      · rw [if_neg h5] at hs; exact fieldsOfKind_same N st _ _ r hs rfl rfl h
    rw [if_neg h4] at hs
    by_cases h5 : TrimSpace line = []
    · rw [if_pos h5] at hs; exact fieldsOfKind_same N st _ _ r hs rfl rfl h
    rw [if_neg h5] at hs
    exact fieldsOfKind_plainLine lines i line _ st r N h hs

/-- The line loop of `parseSlideContent` keeps the invariant. -/
theorem fieldsOfKind_loop (fuel : Nat) (lines : List GoString) (i : Int)
    (st st' : contentState) (N : List Block) (h : BodyFields N st)
    (hl : parseSlideContent.loop fuel lines i st = some st') : BodyFields N st' := by
  induction fuel generalizing i st with
  | zero => simp [parseSlideContent.loop] at hl
  | succ fuel ih =>
    unfold parseSlideContent.loop at hl
    by_cases hn : i < (lines.length : Int)
    · rw [if_pos hn] at hl
      cases hs : parseSlideContent.step lines i st with
      | none => rw [hs] at hl; exact absurd hl (by simp)
      | some r =>
        rw [hs] at hl
        simp only [Option.some_bind] at hl
        exact ih (r.1 + 1) r.2 (fieldsOfKind_step lines i st r N h hs) hl
    · rw [if_neg hn] at hl
      rw [← Option.some.inj hl]
      exact h

/-- Every block of the body that `parseSlideContent` makes from an empty body has
the fields of its kind, and the notes of the slide are those it was given. -/
theorem fieldsOfKind_parseSlideContent (slide slide' : Slide) (c : GoString)
    (h0 : slide.Body = []) (hp : parseSlideContent slide c = some slide') :
    (∀ b ∈ slide'.Body, b.fieldsOfKind = true) ∧ slide'.Notes = slide.Notes := by
  unfold parseSlideContent at hp
  simp only at hp
  cases hl : parseSlideContent.loop ((Split c '\n').length + 1) (Split c '\n') 0
      { slide := slide } with
  | none => rw [hl] at hp; exact absurd hp (by simp)
  | some st =>
    rw [hl] at hp
    simp only [Option.some_bind] at hp
    have hinv : BodyFields slide.Notes st :=
      fieldsOfKind_loop _ (Split c '\n') 0 { slide := slide } st slide.Notes
        ⟨by intro b hb; rw [h0] at hb; simp at hb, rfl⟩ hl
    have happ : ∀ b ∈ st.slide.Body ++ [NewParagraph (Join st.bodyLines "\n".toList)],
        b.fieldsOfKind = true := by
      intro b hm
      simp only [List.mem_append, List.mem_singleton] at hm
      rcases hm with hm | rfl
      · exact hinv.1 b hm
      · exact fieldsOfKind_paragraph _
    by_cases hb : 0 < st.bodyLines.length
    · rw [if_pos hb] at hp
      by_cases ht : Join st.bodyLines "\n".toList ≠ []
      · rw [if_pos ht] at hp
        rw [← Option.some.inj hp]
        exact ⟨happ, hinv.2⟩
      · rw [if_neg ht] at hp
        rw [← Option.some.inj hp]
        exact hinv
    · rw [if_neg hb] at hp
      rw [← Option.some.inj hp]
      exact hinv

/-- The loop of `convertToSlide` over the notes leaves the body and appends to the
notes paragraph blocks with a text that is not empty. -/
theorem foldl_notes_fields (notes : List noteBlock) (slide : Slide)
    (h : ∀ b ∈ slide.Notes, ∃ t, t ≠ [] ∧ b = NewParagraph t) :
    ∀ b ∈ (notes.foldl (fun (slide : Slide) nb =>
        if nb.text ≠ [] then
          { slide with Notes := slide.Notes ++ [{ Kind := BlockParagraph, Text := nb.text }] }
        else slide) slide).Notes, ∃ t, t ≠ [] ∧ b = NewParagraph t := by
  induction notes generalizing slide with
  | nil => exact h
  | cons nb rest ih =>
    simp only [List.foldl_cons]
    by_cases hn : nb.text ≠ []
    · rw [if_pos hn]
      apply ih
      intro b hm
      simp only [List.mem_append, List.mem_singleton] at hm
      rcases hm with hm | rfl
      · exact h b hm
      · exact ⟨nb.text, hn, rfl⟩
    · rw [if_neg hn]
      exact ih slide h

/-- The blocks of the body of a slide that `convertToSlide` returns have the fields
of their kinds, and the blocks of its notes are paragraphs with a text that is not
empty. -/
theorem convertToSlide_fields (ps : parsedSlide) (i j : Nat) (slide : Slide)
    (hs : convertToSlide ps i j = some slide) :
    (∀ b ∈ slide.Body, b.fieldsOfKind = true) ∧
      ∀ b ∈ slide.Notes, ∃ t, t ≠ [] ∧ b = NewParagraph t := by
  unfold convertToSlide at hs
  simp only at hs
  cases hp : parseSlideContent
      (if mapIndex ps.directives "_class".toList = "section-divider".toList then
        { ID := "s".toList ++ itoa i ++ "-".toList ++ itoa j, Layout := LayoutSection }
       else if mapIndex ps.directives "_class".toList = "lead".toList then
        { ID := "s".toList ++ itoa i ++ "-".toList ++ itoa j, Layout := LayoutTitle }
       else { ID := "s".toList ++ itoa i ++ "-".toList ++ itoa j, Layout := LayoutTitleBody })
      ps.content with
  | none => rw [hp] at hs; exact absurd hs (by simp)
  | some s1 =>
    rw [hp] at hs
    simp only [Option.some_bind] at hs
    obtain ⟨hb, hn⟩ := fieldsOfKind_parseSlideContent _ s1 ps.content (by split_ifs <;> rfl) hp
    have hn0 : s1.Notes = [] := by rw [hn]; split_ifs <;> rfl
    have g := foldl_notes_Body ps.notes s1
    have gn := foldl_notes_fields ps.notes s1 (by rw [hn0]; intro b hb; simp at hb)
    by_cases hc : containsColumns ps.content = true
    · rw [if_pos hc] at hs
      rw [← Option.some.inj hs]
      refine ⟨?_, gn⟩
      intro b hmem
      have hmem' : b ∈ (List.foldl (fun (slide : Slide) nb =>
        if nb.text ≠ [] then
          { slide with Notes := slide.Notes ++ [{ Kind := BlockParagraph, Text := nb.text }] }
        else slide) s1 ps.notes).Body := hmem
      rw [g] at hmem'
      exact hb b hmem'
    · rw [if_neg hc] at hs
      rw [← Option.some.inj hs]
      refine ⟨?_, gn⟩
      rw [g]
      exact hb

/-- C32: every text is parsed to a deck, and every block of the body of every slide
of the deck has only the fields of its kind set: a bullet or numbered block has no
language, URL or alternative text and a level that is not negative, a code block
has the level 0 and no URL or alternative text, an image block has no text, no
language and the level 0, a paragraph or quote block has only its text, and a
heading block has only its text and a level from 1 to 3; every block of the notes
of every slide is a paragraph with only a text, which is not empty. -/
theorem Parse_block_fields (x : GoString) :
    ∃ d, Parse x = some (some d, none) ∧
      ∀ sec ∈ d.Sections, ∀ s ∈ sec.Slides,
        (∀ b ∈ s.Body,
          (b.Kind = BlockBullet ∨ b.Kind = BlockNumbered →
            b.Lang = [] ∧ b.URL = [] ∧ b.Alt = [] ∧ 0 ≤ b.Level) ∧
          (b.Kind = BlockCode → b.Level = 0 ∧ b.URL = [] ∧ b.Alt = []) ∧
          (b.Kind = BlockImage → b.Text = [] ∧ b.Lang = [] ∧ b.Level = 0) ∧
          (b.Kind = BlockParagraph ∨ b.Kind = BlockQuote →
            b.Level = 0 ∧ b.Lang = [] ∧ b.URL = [] ∧ b.Alt = []) ∧
          (b.Kind = BlockHeading →
            1 ≤ b.Level ∧ b.Level ≤ 3 ∧ b.Lang = [] ∧ b.URL = [] ∧ b.Alt = []) ∧
          b.fieldsOfKind = true) ∧
        (∀ b ∈ s.Notes, b.Kind = BlockParagraph ∧ b.Text ≠ [] ∧ b.Level = 0 ∧
          b.Lang = [] ∧ b.URL = [] ∧ b.Alt = []) := by
  obtain ⟨fm, body, pss, d, _, _, _, hP, runs, hfl, _, _, hf, _⟩ := Parse_structure x
  refine ⟨d, hP, ?_⟩
  have hall := SectionOfRun_flatten d.Sections runs hf
  intro sec hsec s hs
  have hmem : s ∈ (d.Sections.map (·.Slides)).flatten := by
    simp only [List.mem_flatten, List.mem_map]
    exact ⟨sec.Slides, ⟨sec, hsec, rfl⟩, hs⟩
  obtain ⟨ps, i, j, hc⟩ := forall₂_mem_left hall s hmem
  obtain ⟨hb, hn⟩ := convertToSlide_fields ps i j s hc
  constructor
  · intro b hm
    have hk := hb b hm
    refine ⟨?_, ?_, ?_, ?_, ?_, hk⟩
    · intro h
      unfold Block.fieldsOfKind at hk
      rw [if_pos h] at hk
      simpa using hk
    · intro h
      unfold Block.fieldsOfKind at hk
      rw [if_neg (by rw [h]; decide), if_pos h] at hk
      simpa using hk
    · intro h
      unfold Block.fieldsOfKind at hk
      rw [if_neg (by rw [h]; decide), if_neg (by rw [h]; decide), if_pos h] at hk
      simpa using hk
    · intro h
      unfold Block.fieldsOfKind at hk
      rw [if_neg (by rcases h with h | h <;> rw [h] <;> decide),
        if_neg (by rcases h with h | h <;> rw [h] <;> decide),
        if_neg (by rcases h with h | h <;> rw [h] <;> decide), if_pos h] at hk
      simpa using hk
    · intro h
      unfold Block.fieldsOfKind at hk
      rw [if_neg (by rw [h]; decide), if_neg (by rw [h]; decide), if_neg (by rw [h]; decide),
        if_neg (by rw [h]; decide), if_pos h] at hk
      simpa using hk
  · intro b hm
    obtain ⟨t, ht, rfl⟩ := hn b hm
    exact ⟨rfl, ht, rfl, rfl, rfl, rfl⟩

/-! ## The line loop of `parseSlideContent`, from line to line -/

/-- The index that an iteration at a line of the text leaves is at or after the line
and on a line of the text. -/
theorem step_index_bounds (lines : List GoString) (n m : Nat) (st st1 : contentState)
    (hn : n < lines.length)
    (h : parseSlideContent.step lines (n : Int) st = some ((m : Int), st1)) :
    n ≤ m ∧ m < lines.length := by
  obtain ⟨n', st', hs, h1, h2⟩ := parseSlideContent_step_progress lines n st hn
  rw [hs] at h
  have e : (n' : Int) = (m : Int) := congrArg Prod.fst (Option.some.inj h)
  have e' : n' = m := by exact_mod_cast e
  subst e'
  exact ⟨h1, h2⟩

/-- The loop only moves forward, within the text. -/
theorem Reaches_le (lines : List GoString) (i j : Nat) (st st' : contentState)
    (h : Reaches lines i st j st') (hi : i ≤ lines.length) : i ≤ j ∧ j ≤ lines.length := by
  induction h with
  | refl i st => exact ⟨le_refl _, hi⟩
  | step i m j st st1 st2 hlt hs _ ih =>
    have hb := step_index_bounds lines i m st st1 hlt hs
    have := ih (by omega)
    omega

/-- Two stretches of the loop make one. -/
theorem Reaches_trans (lines : List GoString) (i j k : Nat) (st st1 st2 : contentState)
    (h1 : Reaches lines i st j st1) (h2 : Reaches lines j st1 k st2) :
    Reaches lines i st k st2 := by
  induction h1 with
  | refl i st => exact h2
  | step i m j st sta stb hlt hs _ ih => exact Reaches.step i m k st sta st2 hlt hs (ih h2)

/-- One iteration that stays on its line is a stretch of the loop to the next line. -/
theorem Reaches_one (lines : List GoString) (n : Nat) (st st1 : contentState)
    (hn : n < lines.length)
    (h : parseSlideContent.step lines (n : Int) st = some ((n : Int), st1)) :
    Reaches lines n st (n + 1) st1 :=
  Reaches.step n n (n + 1) st st1 st1 hn h (Reaches.refl _ _)

/-- A stretch of the loop to the end of the text is what the loop returns, with
enough fuel. -/
theorem Reaches_loop (lines : List GoString) (i j : Nat) (st st' : contentState)
    (h : Reaches lines i st j st') (hj : j = lines.length) (fuel : Nat)
    (hf : lines.length < fuel + i) :
    parseSlideContent.loop fuel lines (i : Int) st = some st' := by
  induction h generalizing fuel with
  | refl i st =>
    cases fuel with
    | zero => omega
    | succ fuel => exact parseSlideContent_loop_end fuel lines i st (by omega)
  | step i m j st st1 st2 hlt hs _ ih =>
    have hb := step_index_bounds lines i m st st1 hlt hs
    cases fuel with
    | zero => omega
    | succ fuel =>
      rw [parseSlideContent_loop_jump fuel lines i m st st1 hlt hs]
      exact ih hj fuel (by omega)

/-- From every line, the loop gets to the end of the text. -/
theorem Reaches_total (lines : List GoString) (k i : Nat) (st : contentState)
    (hk : lines.length - i = k) (hi : i ≤ lines.length) :
    ∃ st', Reaches lines i st lines.length st' := by
  induction k using Nat.strong_induction_on generalizing i st with
  | _ k ih =>
    by_cases hlt : i < lines.length
    · obtain ⟨m, st1, hs, h1, h2⟩ := parseSlideContent_step_progress lines i st hlt
      obtain ⟨st', hr⟩ := ih (lines.length - (m + 1)) (by omega) (m + 1) st1 rfl (by omega)
      exact ⟨st', Reaches.step i m _ st st1 st' hlt hs hr⟩
    · have e : i = lines.length := by omega
      subst e
      exact ⟨st, Reaches.refl _ _⟩

/-- The state that the loop returns for a text is the one that it reaches at the end
of the text. -/
theorem Reaches_of_loop (lines : List GoString) (st st' : contentState)
    (h : parseSlideContent.loop (lines.length + 1) lines 0 st = some st') :
    Reaches lines 0 st lines.length st' := by
  obtain ⟨st'', hr⟩ := Reaches_total lines lines.length 0 st (by omega) (by omega)
  have := Reaches_loop lines 0 lines.length st st'' hr rfl (lines.length + 1) (by omega)
  simp only [Nat.cast_zero] at this
  rw [this] at h
  rw [← Option.some.inj h]
  exact hr

/-- The loop body depends on the lines through the line at the index and the run of
table lines from there on only. -/
theorem step_congr (l1 l2 : List GoString) (i : Int) (st : contentState)
    (h1 : index l1 i = index l2 i)
    (h2 : parseSlideContent.tableLoop (l1.length + 1) l1 i [] =
      parseSlideContent.tableLoop (l2.length + 1) l2 i []) :
    parseSlideContent.step l1 i st = parseSlideContent.step l2 i st := by
  unfold parseSlideContent.step parseSlideContent.plainLine
  rw [h1, h2]

/-- A run taken from the front of a list ends before lines appended to the list when
the first of them does not belong to it. -/
theorem takeWhile_append_head {α : Type} (p : α → Bool) (xs ys : List α)
    (h : ∀ y ∈ ys.head?, p y = false) : (xs ++ ys).takeWhile p = xs.takeWhile p := by
  induction xs with
  | nil =>
    cases ys with
    | nil => rfl
    | cons y ys => simp [List.takeWhile_cons, h y (by simp)]
  | cons x xs ih =>
    rw [List.cons_append, List.takeWhile_cons, List.takeWhile_cons, ih]

/-- The loop body at a line of a text is the same when lines are appended to the text
of which the first is no table line. -/
theorem step_append (a b : List GoString) (n : Nat) (st : contentState) (hn : n < a.length)
    (hb : ∀ l ∈ b.head?, isTableLine l = false) :
    parseSlideContent.step (a ++ b) (n : Int) st = parseSlideContent.step a (n : Int) st := by
  apply step_congr
  · rw [index_eq_some a n hn, index_eq_some (a ++ b) n (by rw [List.length_append]; omega),
      List.getElem_append_left hn]
  · rw [tableLoop_eq _ a n [] (by omega) (by omega),
      tableLoop_eq _ (a ++ b) n [] (by rw [List.length_append]; omega) (by omega),
      List.drop_append_of_le_length (by omega), takeWhile_append_head _ _ _ hb]

/-- A stretch of the loop over a text is a stretch of the loop over the text with
lines appended of which the first is no table line. -/
theorem Reaches_append (a b : List GoString) (i j : Nat) (st st' : contentState)
    (h : Reaches a i st j st') (hb : ∀ l ∈ b.head?, isTableLine l = false) :
    Reaches (a ++ b) i st j st' := by
  induction h with
  | refl i st => exact Reaches.refl _ _
  | step i m j st st1 st2 hlt hs _ ih =>
    exact Reaches.step i m j st st1 st2 (by rw [List.length_append]; omega)
      (by rw [step_append a b i st hlt hb]; exact hs) ih

/-- The slide that `parseSlideContent` returns for lines joined by newlines, from
the state that the loop reaches at the end of the lines. -/
theorem parseSlideContent_Join (slide : Slide) (ls : List GoString) (st : contentState)
    (hnl : ∀ l ∈ ls, '\n' ∉ l)
    (h : Reaches ls 0 { slide := slide } ls.length st) :
    parseSlideContent slide (Join ls "\n".toList) = some st.flushBody := by
  unfold parseSlideContent contentState.flushBody
  simp only
  cases ls with
  | nil =>
    have e : st = { slide := slide } := by
      cases h with
      | refl => rfl
      | step i m j st st1 st2 hlt _ _ => simp at hlt
    subst e
    have hj : Join ([] : List GoString) "\n".toList = [] := Join_nil _
    rw [hj]
    have hs : Split ([] : GoString) '\n' = [[]] := by decide
    rw [hs]
    rfl
  | cons l rest =>
    have hsj : Split (Join (l :: rest) "\n".toList) '\n' = l :: rest :=
      Split_Join (l :: rest) '\n' (by simp) hnl
    rw [hsj]
    have := Reaches_loop (l :: rest) 0 _ _ st h rfl ((l :: rest).length + 1) (by omega)
    simp only [Nat.cast_zero] at this
    rw [this]
    simp only [Option.some_bind]
    split_ifs <;> rfl

/-! ## Blocks that are not closed -/

/-- A list whose tail from an index starts with an element has the element at the
index and the rest after it. -/
theorem drop_eq_cons {α : Type} (l : List α) (k : Nat) (x : α) (xs : List α)
    (h : l.drop k = x :: xs) : ∃ hk : k < l.length, l[k] = x ∧ l.drop (k + 1) = xs := by
  have hk : k < l.length := by
    by_contra hge
    rw [List.drop_eq_nil_of_le (by omega)] at h
    cases h
  rw [List.drop_eq_getElem_cons hk] at h
  injection h with h1 h2
  exact ⟨hk, h1, h2⟩

/-- A fence line is no table line. -/
theorem isTableLine_of_fence (l : GoString) (h : isFenceLine l = true) :
    isTableLine l = false := by
  unfold isFenceLine at h
  unfold isTableLine
  exact HasPrefix_head_ne _ '`' '|' _ _ h (by decide)

/-- A line that starts an HTML block starts with `<`. -/
theorem isHTMLBlockStart_head (t : GoString) (h : isHTMLBlockStart t = true) :
    HasPrefix t "<".toList = true := by
  unfold isHTMLBlockStart at h
  simp only [Bool.or_eq_true] at h
  have key : ∀ w : GoString, HasPrefix t ('<' :: w) = true → HasPrefix t "<".toList = true := by
    intro w hw
    rw [HasPrefix_iff] at hw ⊢
    obtain ⟨x, hx⟩ := hw
    exact ⟨w ++ x, by rw [← hx]; rfl⟩
  rcases h with (((h | h) | h) | h) | h
  all_goals exact key _ h

/-- Inside a code block without a fence line after it, the loop collects the lines
to the end of the text and leaves all the rest of the state. -/
theorem Reaches_code_lines (lines : List GoString) (m n : Nat) (st : contentState)
    (hnm : n + m = lines.length) (hc : st.inCodeBlock = true)
    (hf : ∀ l ∈ lines.drop n, isFenceLine l = false) :
    Reaches lines n st lines.length
      { st with codeBlockLines := st.codeBlockLines ++ lines.drop n } := by
  induction m generalizing n st with
  | zero =>
    have e : n = lines.length := by omega
    subst e
    rw [List.drop_length, List.append_nil]
    exact Reaches.refl _ _
  | succ m ih =>
    have hn : n < lines.length := by omega
    have hdrop : lines.drop n = lines[n] :: lines.drop (n + 1) := by
      rw [List.drop_eq_getElem_cons hn]
    have hs := parseSlideContent_step_code_line lines n st hn
      (hf _ (by rw [hdrop]; exact List.mem_cons_self _ _)) hc
    have := ih (n + 1) { st with codeBlockLines := st.codeBlockLines ++ [lines[n]] }
      (by omega) hc (fun l hl => hf l (by rw [hdrop]; exact List.mem_cons_of_mem _ hl))
    simp only [List.append_assoc, List.singleton_append] at this
    rw [← hdrop] at this
    exact Reaches.step n n _ st _ _ hn hs this

/-- The lines kept of an HTML block that is not closed are lines of the block. -/
theorem htmlUnclosed_subset (rest : List GoString) (inCode : Bool) (d : Int)
    (kept : List GoString) (h : htmlUnclosed inCode d rest = some kept) :
    ∀ l ∈ kept, l ∈ rest := by
  induction rest generalizing inCode d kept with
  | nil =>
    simp only [htmlUnclosed, Option.some.injEq] at h
    subst h
    intro l hl
    exact hl
  | cons x xs ih =>
    unfold htmlUnclosed at h
    by_cases hf : isFenceLine x = true
    · rw [if_pos hf] at h
      cases hk : htmlUnclosed (!inCode) d xs with
      | none => rw [hk] at h; exact absurd h (by simp)
      | some kept' =>
        rw [hk] at h
        simp only [Option.map_some', Option.some.injEq] at h
        subst h
        intro l hl
        simp only [List.mem_cons] at hl ⊢
        rcases hl with hl | hl
        · exact Or.inl hl
        · exact Or.inr (ih _ _ _ hk l hl)
    · rw [if_neg hf] at h
      by_cases hc : inCode = true
      · rw [if_pos hc] at h
        cases hk : htmlUnclosed inCode d xs with
        | none => rw [hk] at h; exact absurd h (by simp)
        | some kept' =>
          rw [hk] at h
          simp only [Option.map_some', Option.some.injEq] at h
          subst h
          intro l hl
          simp only [List.mem_cons] at hl ⊢
          rcases hl with hl | hl
          · exact Or.inl hl
          · exact Or.inr (ih _ _ _ hk l hl)
      · rw [if_neg hc] at h
        by_cases hd : d + countHTMLOpens x - countHTMLCloses x ≤ 0
        · rw [if_pos hd] at h; exact absurd h (by simp)
        · rw [if_neg hd] at h
          intro l hl
          exact List.mem_cons_of_mem _ (ih _ _ _ h l hl)

/-- The first line kept of an HTML block that is not closed, scanned from outside a
code block, is a fence line. -/
theorem htmlUnclosed_head (rest : List GoString) (d : Int) (kept : List GoString)
    (h : htmlUnclosed false d rest = some kept) :
    ∀ l ∈ kept.head?, isFenceLine l = true := by
  induction rest generalizing d kept with
  | nil =>
    simp only [htmlUnclosed, Option.some.injEq] at h
    subst h
    intro l hl
    simp at hl
  | cons x xs ih =>
    unfold htmlUnclosed at h
    by_cases hf : isFenceLine x = true
    · rw [if_pos hf] at h
      cases hk : htmlUnclosed (!false) d xs with
      | none => rw [hk] at h; exact absurd h (by simp)
      | some kept' =>
        rw [hk] at h
        simp only [Option.map_some', Option.some.injEq] at h
        subst h
        intro l hl
        simp only [List.head?_cons, Option.mem_def, Option.some.injEq] at hl
        subst hl
        exact hf
    · rw [if_neg hf, if_neg (by decide)] at h
      by_cases hd : d + countHTMLOpens x - countHTMLCloses x ≤ 0
      · rw [if_pos hd] at h; exact absurd h (by simp)
      · rw [if_neg hd] at h
        exact ih _ _ h

/-- Inside an HTML block that is not closed by the end of the text, the loop over the
text and the loop over the text without the lines that the block accumulates end
with the same slide and the same paragraph lines. -/
theorem Reaches_htmlUnclosed (l1 l2 : List GoString) (rest : List GoString) :
    ∀ (inCode : Bool) (d : Int) (kept : List GoString) (k1 k2 : Nat) (s1 s2 : contentState),
      l1.drop k1 = rest → k1 ≤ l1.length → l2.drop k2 = kept → k2 ≤ l2.length →
      htmlUnclosed inCode d rest = some kept →
      s1.slide = s2.slide → s1.bodyLines = s2.bodyLines →
      s1.inCodeBlock = inCode → s2.inCodeBlock = inCode →
      s1.codeBlockLang = s2.codeBlockLang → s1.codeBlockLines = s2.codeBlockLines →
      s1.inHTMLBlock = true → s1.htmlBlockDepth = d →
      ∃ f1 f2, Reaches l1 k1 s1 l1.length f1 ∧ Reaches l2 k2 s2 l2.length f2 ∧
        f1.slide = f2.slide ∧ f1.bodyLines = f2.bodyLines := by
  induction rest with
  | nil =>
    intro inCode d kept k1 k2 s1 s2 h1 hk1 h2 hk2 hu hs hb _ _ _ _ _ _
    simp only [htmlUnclosed, Option.some.injEq] at hu
    subst hu
    have e1 : k1 = l1.length := by
      have := List.drop_eq_nil_iff.mp h1
      omega
    have e2 : k2 = l2.length := by
      have := List.drop_eq_nil_iff.mp h2
      omega
    subst e1 e2
    exact ⟨s1, s2, Reaches.refl _ _, Reaches.refl _ _, hs, hb⟩
  | cons x xs ih =>
    intro inCode d kept k1 k2 s1 s2 h1 hk1 h2 hk2 hu hs hb hc1 hc2 hlang hlines hh hd
    obtain ⟨hlt1, hx1, hd1⟩ := drop_eq_cons l1 k1 x xs h1
    unfold htmlUnclosed at hu
    by_cases hf : isFenceLine x = true
    · rw [if_pos hf] at hu
      cases hk : htmlUnclosed (!inCode) d xs with
      | none => rw [hk] at hu; exact absurd hu (by simp)
      | some kept' =>
        rw [hk] at hu
        simp only [Option.map_some', Option.some.injEq] at hu
        subst hu
        obtain ⟨hlt2, hx2, hd2⟩ := drop_eq_cons l2 k2 x kept' h2
        have hf1 : HasPrefix (TrimSpace l1[k1]) "```".toList = true := by rw [hx1]; exact hf
        have hf2 : HasPrefix (TrimSpace l2[k2]) "```".toList = true := by rw [hx2]; exact hf
        cases inCode with
        | false =>
          have st1 := parseSlideContent_step_fence_open l1 k1 s1 hlt1 hf1 hc1
          have st2 := parseSlideContent_step_fence_open l2 k2 s2 hlt2 hf2 hc2
          obtain ⟨f1, f2, r1, r2, e1, e2⟩ := ih true d kept' (k1 + 1) (k2 + 1)
            { s1 with inCodeBlock := true,
                      codeBlockLang := TrimPrefix (TrimSpace l1[k1]) "```".toList,
                      codeBlockLines := [] }
            { s2 with inCodeBlock := true,
                      codeBlockLang := TrimPrefix (TrimSpace l2[k2]) "```".toList,
                      codeBlockLines := [] }
            hd1 (by omega) hd2 (by omega) hk hs hb rfl rfl (by simp only [hx1, hx2]) rfl hh hd
          exact ⟨f1, f2, Reaches.step k1 k1 _ s1 _ f1 hlt1 st1 r1,
            Reaches.step k2 k2 _ s2 _ f2 hlt2 st2 r2, e1, e2⟩
        | true =>
          have st1 := parseSlideContent_step_fence_close l1 k1 s1 hlt1 hf1 hc1
          have st2 := parseSlideContent_step_fence_close l2 k2 s2 hlt2 hf2 hc2
          obtain ⟨f1, f2, r1, r2, e1, e2⟩ := ih false d kept' (k1 + 1) (k2 + 1)
            ({ s1 with inCodeBlock := false }.appendBody
              { Kind := BlockCode, Text := Join s1.codeBlockLines "\n".toList,
                Lang := s1.codeBlockLang })
            ({ s2 with inCodeBlock := false }.appendBody
              { Kind := BlockCode, Text := Join s2.codeBlockLines "\n".toList,
                Lang := s2.codeBlockLang })
            hd1 (by omega) hd2 (by omega) hk
            (by simp only [contentState.appendBody, hs, hlang, hlines]) hb rfl rfl hlang hlines
            hh hd
          exact ⟨f1, f2, Reaches.step k1 k1 _ s1 _ f1 hlt1 st1 r1,
            Reaches.step k2 k2 _ s2 _ f2 hlt2 st2 r2, e1, e2⟩
    · rw [if_neg hf] at hu
      have hf' : isFenceLine x = false := by simpa using hf
      have hf1 : HasPrefix (TrimSpace l1[k1]) "```".toList = false := by rw [hx1]; exact hf'
      by_cases hc : inCode = true
      · rw [if_pos hc] at hu
        subst hc
        cases hk : htmlUnclosed true d xs with
        | none => rw [hk] at hu; exact absurd hu (by simp)
        | some kept' =>
          rw [hk] at hu
          simp only [Option.map_some', Option.some.injEq] at hu
          subst hu
          obtain ⟨hlt2, hx2, hd2⟩ := drop_eq_cons l2 k2 x kept' h2
          have hf2 : HasPrefix (TrimSpace l2[k2]) "```".toList = false := by
            rw [hx2]; exact hf'
          have st1 := parseSlideContent_step_code_line l1 k1 s1 hlt1 hf1 hc1
          have st2 := parseSlideContent_step_code_line l2 k2 s2 hlt2 hf2 hc2
          obtain ⟨f1, f2, r1, r2, e1, e2⟩ := ih true d kept' (k1 + 1) (k2 + 1)
            { s1 with codeBlockLines := s1.codeBlockLines ++ [l1[k1]] }
            { s2 with codeBlockLines := s2.codeBlockLines ++ [l2[k2]] }
            hd1 (by omega) hd2 (by omega) hk hs hb hc1 hc2 hlang
            (by simp only [hlines, hx1, hx2]) hh hd
          exact ⟨f1, f2, Reaches.step k1 k1 _ s1 _ f1 hlt1 st1 r1,
            Reaches.step k2 k2 _ s2 _ f2 hlt2 st2 r2, e1, e2⟩
      · rw [if_neg hc] at hu
        have hc' : inCode = false := by simpa using hc
        subst hc'
        by_cases hdep : d + countHTMLOpens x - countHTMLCloses x ≤ 0
        · rw [if_pos hdep] at hu; exact absurd hu (by simp)
        · rw [if_neg hdep] at hu
          have st1 := parseSlideContent_step_html_line l1 k1 s1 hlt1 hf1 hc1 hh
          have hdep' : ¬ s1.htmlBlockDepth + countHTMLOpens l1[k1] - countHTMLCloses l1[k1] ≤ 0 := by
            rw [hd, hx1]; exact hdep
          rw [if_neg hdep'] at st1
          obtain ⟨f1, f2, r1, r2, e1, e2⟩ := ih false
            (d + countHTMLOpens x - countHTMLCloses x) kept (k1 + 1) k2
            { s1 with htmlBlockDepth :=
                        s1.htmlBlockDepth + countHTMLOpens l1[k1] - countHTMLCloses l1[k1],
                      htmlBlockLines := s1.htmlBlockLines ++ [l1[k1]] } s2
            hd1 (by omega) h2 hk2 hu hs hb hc1 hc2 hlang hlines hh
            (by simp only [hd, hx1])
          exact ⟨f1, f2, Reaches.step k1 k1 _ s1 _ f1 hlt1 st1 r1, r2, e1, e2⟩

/-- The slide that the end of `parseSlideContent` makes of a state depends on the
slide and the paragraph lines of the state only. -/
theorem flushBody_congr (s1 s2 : contentState) (hs : s1.slide = s2.slide)
    (hb : s1.bodyLines = s2.bodyLines) : s1.flushBody = s2.flushBody := by
  unfold contentState.flushBody
  rw [hs, hb]

/-- At the end of the text the loop stays in its state. -/
theorem Reaches_end (lines : List GoString) (i j : Nat) (st st' : contentState)
    (h : Reaches lines i st j st') (hi : lines.length ≤ i) : st' = st := by
  cases h with
  | refl => rfl
  | step i m j st st1 st2 hlt _ _ => omega

/-- The line after a list, in the list with lines appended. -/
theorem getElem_append_cons_length {α : Type} (a : List α) (x : α) (b : List α)
    (h : a.length < (a ++ x :: b).length) : (a ++ x :: b)[a.length] = x := by
  rw [List.getElem_append_right (le_refl _)]
  simp

/-- The lines of a content that ends in a code block that is not closed: the slide
is the one that the lines before the block give. -/
theorem parseSlideContent_code_unclosed (slide : Slide) (pre rest : List GoString)
    (op : GoString) (st : contentState)
    (hnl : ∀ l ∈ pre ++ op :: rest, '\n' ∉ l)
    (hpre : parseSlideContent.loop (pre.length + 1) pre 0 { slide := slide } = some st)
    (hc : st.inCodeBlock = false) (hop : isFenceLine op = true)
    (hrest : ∀ l ∈ rest, isFenceLine l = false) :
    parseSlideContent slide (Join (pre ++ op :: rest) "\n".toList) = some st.flushBody ∧
      parseSlideContent slide (Join pre "\n".toList) = some st.flushBody := by
  have hR0 : Reaches pre 0 { slide := slide } pre.length st := Reaches_of_loop pre _ st hpre
  refine ⟨?_, parseSlideContent_Join slide pre st
    (fun l hl => hnl l (List.mem_append_left _ hl)) hR0⟩
  have hR1 : Reaches (pre ++ op :: rest) 0 { slide := slide } pre.length st :=
    Reaches_append pre (op :: rest) 0 pre.length _ st hR0
      (by intro l hl
          simp only [List.head?_cons, Option.mem_def, Option.some.injEq] at hl
          subst hl
          exact isTableLine_of_fence _ hop)
  have hlt : pre.length < (pre ++ op :: rest).length := by
    rw [List.length_append, List.length_cons]; omega
  have hget : (pre ++ op :: rest)[pre.length] = op := getElem_append_cons_length pre op rest hlt
  have hstep := parseSlideContent_step_fence_open (pre ++ op :: rest) pre.length st hlt
    (by rw [hget]; exact hop) hc
  have hdrop : (pre ++ op :: rest).drop (pre.length + 1) = rest := by
    rw [List.drop_append_eq_append_drop, List.drop_of_length_le (by omega)]
    simp
  have hcode := Reaches_code_lines (pre ++ op :: rest) rest.length (pre.length + 1)
    { st with inCodeBlock := true,
              codeBlockLang := TrimPrefix (TrimSpace (pre ++ op :: rest)[pre.length]) "```".toList,
              codeBlockLines := [] }
    (by rw [List.length_append, List.length_cons]; omega) rfl
    (by rw [hdrop]; exact hrest)
  have hall := Reaches_trans _ _ _ _ _ _ _ hR1
    (Reaches.step pre.length pre.length _ st _ _ hlt hstep hcode)
  rw [parseSlideContent_Join slide _ _ hnl hall]
  exact congrArg some (flushBody_congr _ _ rfl rfl)

/-- The lines of a content that ends in an HTML block that is not closed: the slide
is the one that the content gives without the lines that the block accumulates. -/
theorem parseSlideContent_html_unclosed (slide : Slide) (pre rest kept : List GoString)
    (op : GoString) (st : contentState)
    (hnl : ∀ l ∈ pre ++ op :: rest, '\n' ∉ l)
    (hpre : parseSlideContent.loop (pre.length + 1) pre 0 { slide := slide } = some st)
    (hc : st.inCodeBlock = false) (hh : st.inHTMLBlock = false)
    (hop : isHTMLBlockStart (TrimSpace op) = true)
    (hd : 0 < countHTMLOpens op - countHTMLCloses op)
    (hu : htmlUnclosed false (countHTMLOpens op - countHTMLCloses op) rest = some kept) :
    ∃ s, parseSlideContent slide (Join (pre ++ op :: rest) "\n".toList) = some s ∧
      parseSlideContent slide (Join (pre ++ kept) "\n".toList) = some s ∧
      (kept = [] → s = st.flushBody) := by
  have hR0 : Reaches pre 0 { slide := slide } pre.length st := Reaches_of_loop pre _ st hpre
  have hhead := isHTMLBlockStart_head _ hop
  have hR1 : Reaches (pre ++ op :: rest) 0 { slide := slide } pre.length st :=
    Reaches_append pre (op :: rest) 0 pre.length _ st hR0
      (by intro l hl
          simp only [List.head?_cons, Option.mem_def, Option.some.injEq] at hl
          subst hl
          exact HasPrefix_head_ne _ '<' '|' _ _ hhead (by decide))
  have hR2 : Reaches (pre ++ kept) 0 { slide := slide } pre.length st :=
    Reaches_append pre kept 0 pre.length _ st hR0
      (fun l hl => isTableLine_of_fence l (htmlUnclosed_head rest _ kept hu l hl))
  have hlt : pre.length < (pre ++ op :: rest).length := by
    rw [List.length_append, List.length_cons]; omega
  have hget : (pre ++ op :: rest)[pre.length] = op := getElem_append_cons_length pre op rest hlt
  have hstep := parseSlideContent_step_html_start (pre ++ op :: rest) pre.length st hlt
    (by rw [hget]; exact HasPrefix_head_ne _ '<' '`' _ _ hhead (by decide)) hc hh
    (by rw [hget]; exact hop)
  have hdepth : htmlDepth [(pre ++ op :: rest)[pre.length]] =
      countHTMLOpens op - countHTMLCloses op := by
    rw [hget, htmlDepth_singleton]; omega
  rw [if_neg (by rw [hdepth]; omega)] at hstep
  have hdrop : (pre ++ op :: rest).drop (pre.length + 1) = rest := by
    rw [List.drop_append_eq_append_drop, List.drop_of_length_le (by omega)]
    simp
  have hdrop2 : (pre ++ kept).drop pre.length = kept := List.drop_left _ _
  obtain ⟨f1, f2, r1, r2, e1, e2⟩ := Reaches_htmlUnclosed (pre ++ op :: rest) (pre ++ kept)
    rest false (countHTMLOpens op - countHTMLCloses op) kept (pre.length + 1) pre.length
    { st with inHTMLBlock := true,
              htmlBlockDepth := htmlDepth [(pre ++ op :: rest)[pre.length]],
              htmlBlockLines := [(pre ++ op :: rest)[pre.length]] } st
    hdrop (by omega) hdrop2 (by rw [List.length_append]; omega) hu rfl rfl hc hc rfl rfl rfl
    hdepth
  have hall1 := Reaches_trans _ _ _ _ _ _ _ hR1
    (Reaches.step pre.length pre.length _ st _ _ hlt hstep r1)
  have hall2 := Reaches_trans _ _ _ _ _ _ _ hR2 r2
  have hnl2 : ∀ l ∈ pre ++ kept, '\n' ∉ l := by
    intro l hl
    rcases List.mem_append.mp hl with hl | hl
    · exact hnl l (List.mem_append_left _ hl)
    · exact hnl l (List.mem_append_right _
        (List.mem_cons_of_mem _ (htmlUnclosed_subset rest _ _ kept hu l hl)))
  refine ⟨f1.flushBody, parseSlideContent_Join slide _ _ hnl hall1, ?_, ?_⟩
  · rw [parseSlideContent_Join slide _ _ hnl2 hall2]
    exact congrArg some (flushBody_congr _ _ e1.symm e2.symm)
  · intro hk
    subst hk
    have := Reaches_end _ _ _ _ _ r2 (by simp)
    rw [flushBody_congr f1 f2 e1 e2, this]

/-- C36: for every slide and every content, split into the lines before a line, the
line and the lines after it, with the state in which the line loop of
`parseSlideContent` leaves the lines before, outside a code block.  When the line is
a fence line and no fence line follows, the code block that it opens is never
closed: `parseSlideContent` returns, and the slide it returns is the one made of the
lines before alone, with the paragraph lines left over as a last paragraph.  When
the state is outside an HTML block too, the line starts an HTML block, the depth
after it (its opening tags minus its closing tags) is positive and stays positive
after every later line outside a code block, the HTML block is never closed:
`parseSlideContent` returns, and the slide it returns is the one that it returns for
the lines before followed by the fence lines and code lines after the opening line
only, so the lines that the HTML block accumulates add nothing; with no fence line
after the opening line, it is the slide made of the lines before alone. -/
theorem unterminated_block_dropped (slide : Slide) (c : GoString) (pre rest : List GoString)
    (op : GoString) (st : contentState)
    (hsplit : Split c '\n' = pre ++ op :: rest)
    (hpre : parseSlideContent.loop (pre.length + 1) pre 0 { slide := slide } = some st)
    (hc : st.inCodeBlock = false) :
    (isFenceLine op = true → (∀ l ∈ rest, isFenceLine l = false) →
      parseSlideContent slide c = some st.flushBody ∧
      parseSlideContent slide (Join pre "\n".toList) = some st.flushBody) ∧
    (st.inHTMLBlock = false → isHTMLBlockStart (TrimSpace op) = true →
      0 < countHTMLOpens op - countHTMLCloses op →
      ∀ kept, htmlUnclosed false (countHTMLOpens op - countHTMLCloses op) rest = some kept →
      ∃ s, parseSlideContent slide c = some s ∧
        parseSlideContent slide (Join (pre ++ kept) "\n".toList) = some s ∧
        (kept = [] → s = st.flushBody)) := by
  have hc' : Join (pre ++ op :: rest) "\n".toList = c := by
    rw [← hsplit]; exact Join_Split c '\n'
  have hnl : ∀ l ∈ pre ++ op :: rest, '\n' ∉ l := by
    rw [← hsplit]; exact Split_not_mem c '\n'
  constructor
  · intro hop hrest
    have := parseSlideContent_code_unclosed slide pre rest op st hnl hpre hc hop hrest
    rw [hc'] at this
    exact this
  · intro hh hop hd kept hu
    have := parseSlideContent_html_unclosed slide pre rest kept op st hnl hpre hc hh hop hd hu
    rw [hc'] at this
    exact this

/-- C36 on a content that ends inside a code block and on one that ends inside an
HTML block with a code block in it: the slide has the title and the blocks of the
lines outside the open block only. -/
theorem unterminated_block_dropped_witness :
    (parseSlideContent {} unclosedCode = some beforeCode.flushBody ∧
      parseSlideContent {} "# T\nintro".toList = some beforeCode.flushBody ∧
      beforeCode.flushBody = { Title := "T".toList, Body := [NewParagraph "intro".toList] }) ∧
    (∃ s, parseSlideContent {} unclosedHTML = some s ∧
      parseSlideContent {} "# T\n```\ncode\n```".toList = some s ∧
      s = { Title := "T".toList, Body := [NewCode "code".toList []] }) := by
  constructor
  · have h := (unterminated_block_dropped {} unclosedCode ["# T".toList, "intro".toList]
      ["x := 1".toList, "# not a heading".toList] "```go".toList beforeCode
      (by decide) (by decide) (by decide)).1 (by decide) (by decide)
    exact ⟨h.1, h.2, by decide⟩
  · obtain ⟨s, h1, h2, _⟩ := (unterminated_block_dropped {} unclosedHTML ["# T".toList]
      ["- item".toList, "```".toList, "code".toList, "```".toList, "# late".toList]
      "<div class=\"a\">".toList beforeHTML
      (by decide) (by decide) (by decide)).2 (by decide) (by decide) (by decide)
      ["```".toList, "code".toList, "```".toList] (by decide)
    have h2' : parseSlideContent {} "# T\n```\ncode\n```".toList = some s := h2
    refine ⟨s, h1, h2', ?_⟩
    have e : parseSlideContent {} "# T\n```\ncode\n```".toList =
        some { Title := "T".toList, Body := [NewCode "code".toList []] } := by decide
    rw [h2'] at e
    exact Option.some.inj e

/-! ## The directive comments of a written slide -/

/-- A directive comment at the front of a text is the first match of the pattern of
directives, with its key and its value as groups; the search and the removal go on
after it. -/
theorem directive_at_front (w v B : GoString)
    (hw : w ≠ []) (hword : ∀ c ∈ w, reWord c = true)
    (hv : v ≠ []) (hnl : '\n' ∉ v) (htrim : TrimSpace v = v)
    (hclose : ¬ "-->".toList <:+: v) :
    FindAllStringSubmatch reDirective
        ("<!-- ".toList ++ ('_' :: w) ++ ": ".toList ++ v ++ " -->".toList ++ B) =
      ["<!-- ".toList ++ ('_' :: w) ++ ": ".toList ++ v ++ " -->".toList, '_' :: w, v] ::
        FindAllStringSubmatch reDirective B ∧
    ReplaceAllString reDirective
        ("<!-- ".toList ++ ('_' :: w) ++ ": ".toList ++ v ++ " -->".toList ++ B) =
      ReplaceAllString reDirective B := by
  obtain ⟨w0, ws, ew⟩ := List.exists_cons_of_ne_nil hw
  obtain ⟨v0, vs, ev⟩ := List.exists_cons_of_ne_nil hv
  obtain ⟨hhead, hlast⟩ := trimmed_ends v hv htrim
  subst ew ev
  have hplain : reDirective.all RE.isPlain = true := reDirective_shape.1
  have eT : "<!-- ".toList ++ ('_' :: w0 :: ws) ++ ": ".toList ++ (v0 :: vs) ++
      " -->".toList ++ B =
      [] ++ (("<!-- ".toList ++ (('_' :: w0 :: ws) ++ (": ".toList ++
        ((v0 :: vs) ++ " -->".toList)))) ++ B) := by
    simp
  have eM : ("<!-- ".toList ++ (('_' :: w0 :: ws) ++ (": ".toList ++
        ((v0 :: vs) ++ " -->".toList)))) ++ B =
      '<' :: '!' :: '-' :: '-' :: ' ' :: '_' :: w0 :: (ws ++ ':' :: ' ' :: v0 ::
        (vs ++ ' ' :: '-' :: '-' :: '>' :: B)) := by
    simp
  have eLen : ("<!-- ".toList ++ (('_' :: w0 :: ws) ++ (": ".toList ++
        ((v0 :: vs) ++ " -->".toList)))).length = 14 + ws.length + vs.length := by
    simp
    omega
  have eW : "<!-- ".toList ++ ('_' :: w0 :: ws) ++ ": ".toList ++ (v0 :: vs) ++
      " -->".toList = "<!-- ".toList ++ (('_' :: w0 :: ws) ++ (": ".toList ++
        ((v0 :: vs) ++ " -->".toList))) := by
    simp
  have hM := RE_run_directive w0 ws v0 vs B (hword w0 (by simp))
    (fun c hc => hword c (by simp [hc])) hnl (hhead v0 (by simp)) hlast hclose none
  rw [← eM, ← eLen] at hM
  have hfind := findAllFrom_match_at reDirective hplain [] _ B _
    (by intro A1 A2 e hne; exact absurd (List.append_eq_nil.mp e.symm).2 hne) hM
    (by simp) none
  have hrem := removeAllFrom_match_at reDirective hplain [] _ B _
    (by intro A1 A2 e hne; exact absurd (List.append_eq_nil.mp e.symm).2 hne) hM
    (by simp) none
  have hsub : submatches (("<!-- ".toList ++ (('_' :: w0 :: ws) ++ (": ".toList ++
        ((v0 :: vs) ++ " -->".toList)))) ++ B)
      [5, 7 + ws.length, 9 + ws.length, 10 + ws.length + vs.length]
      ("<!-- ".toList ++ (('_' :: w0 :: ws) ++ (": ".toList ++
        ((v0 :: vs) ++ " -->".toList)))).length =
      ["<!-- ".toList ++ (('_' :: w0 :: ws) ++ (": ".toList ++
        ((v0 :: vs) ++ " -->".toList))), '_' :: w0 :: ws, v0 :: vs] := by
    simp only [submatches, submatches.groups, List.take_left]
    have g1 := group_of_parts "<!-- ".toList ('_' :: w0 :: ws)
      (": ".toList ++ ((v0 :: vs) ++ " -->".toList) ++ B)
    have g2 := group_of_parts ("<!-- ".toList ++ ('_' :: w0 :: ws) ++ ": ".toList) (v0 :: vs)
      (" -->".toList ++ B)
    have l1 : "<!-- ".toList.length = 5 := rfl
    have l2 : "<!-- ".toList.length + ('_' :: w0 :: ws).length = 7 + ws.length := by
      simp only [l1, List.length_cons]
      omega
    have l3 : ("<!-- ".toList ++ ('_' :: w0 :: ws) ++ ": ".toList).length = 9 + ws.length := by
      simp
      omega
    have l4 : ("<!-- ".toList ++ ('_' :: w0 :: ws) ++ ": ".toList).length + (v0 :: vs).length =
        10 + ws.length + vs.length := by
      simp
      omega
    rw [l2, l1] at g1
    rw [l4, l3] at g2
    simp only [List.append_assoc] at g1 g2 ⊢
    rw [g1, g2]
  rw [hsub] at hfind
  rw [eW]
  constructor
  · rw [FindAllStringSubmatch, FindAllStringSubmatch]
    exact hfind
  · rw [ReplaceAllString, ReplaceAllString]
    exact hrem

/-- White space in front of a text changes no match of the pattern of directives and
stays in what the removal leaves. -/
theorem reDirective_padded_left (a core : GoString) (ha : ∀ c ∈ a, isSpace c = true) :
    FindAllStringSubmatch reDirective (a ++ core) = FindAllStringSubmatch reDirective core ∧
    ReplaceAllString reDirective (a ++ core) = a ++ ReplaceAllString reDirective core := by
  have h := search_padded reDirective reDirective_shape.1 reDirective_shape.2.1 reDirective_shape.2.2 a core []
    ha (by simp)
  exact ⟨h.1, h.2.1⟩

/-- White space in front of a text changes no match of the pattern of notes and stays
in what the removal leaves. -/
theorem reNoteBlock_padded_left (a core : GoString) (ha : ∀ c ∈ a, isSpace c = true) :
    FindAllStringSubmatch reNoteBlock (a ++ core) = FindAllStringSubmatch reNoteBlock core ∧
    ReplaceAllString reNoteBlock (a ++ core) = a ++ ReplaceAllString reNoteBlock core := by
  have h := search_padded reNoteBlock reNoteBlock_shape.1 reNoteBlock_shape.2.1 reNoteBlock_shape.2.2 a core []
    ha (by simp)
  exact ⟨h.1, h.2.1⟩

/-- The two directive comments that the writer emits for a class, in front of a text:
they are the first two matches of the pattern of directives, and the removal leaves
the three newlines around them. -/
theorem directive_lines (cls R : GoString)
    (hv : cls ≠ []) (hnl : '\n' ∉ cls) (htrim : TrimSpace cls = cls)
    (hclose : ¬ "-->".toList <:+: cls) :
    FindAllStringSubmatch reDirective
        ("<!-- _class: ".toList ++ cls ++ " -->\n".toList ++
          "<!-- _paginate: false -->\n\n".toList ++ R) =
      ["<!-- _class: ".toList ++ cls ++ " -->".toList, "_class".toList, cls] ::
      ["<!-- _paginate: false -->".toList, "_paginate".toList, "false".toList] ::
        FindAllStringSubmatch reDirective R ∧
    ReplaceAllString reDirective
        ("<!-- _class: ".toList ++ cls ++ " -->\n".toList ++
          "<!-- _paginate: false -->\n\n".toList ++ R) =
      "\n\n\n".toList ++ ReplaceAllString reDirective R := by
  have e1 : "<!-- _class: ".toList ++ cls ++ " -->\n".toList ++
      "<!-- _paginate: false -->\n\n".toList ++ R =
      "<!-- ".toList ++ ('_' :: "class".toList) ++ ": ".toList ++ cls ++ " -->".toList ++
        ("\n".toList ++ ("<!-- ".toList ++ ('_' :: "paginate".toList) ++ ": ".toList ++
          "false".toList ++ " -->".toList ++ ("\n\n".toList ++ R))) := by
    simp
  have h1 := directive_at_front "class".toList cls
    ("\n".toList ++ ("<!-- ".toList ++ ('_' :: "paginate".toList) ++ ": ".toList ++
          "false".toList ++ " -->".toList ++ ("\n\n".toList ++ R)))
    (by decide) (by decide) hv hnl htrim hclose
  have h2 := reDirective_padded_left "\n".toList
    ("<!-- ".toList ++ ('_' :: "paginate".toList) ++ ": ".toList ++
          "false".toList ++ " -->".toList ++ ("\n\n".toList ++ R)) (by decide)
  have h3 := directive_at_front "paginate".toList "false".toList ("\n\n".toList ++ R)
    (by decide) (by decide) (by decide) (by decide) (by decide) (by decide)
  have h4 := reDirective_padded_left "\n\n".toList R (by decide)
  rw [e1]
  constructor
  · rw [h1.1, h2.1, h3.1, h4.1]
    simp
  · rw [h1.2, h2.2, h3.2, h4.2]
    simp

/-- The text of `writeSlide`, in its parts. -/
theorem writeSlide_parts (slide : Slide) :
    writeSlide slide =
      (slide.Body.mapM writeBlock).map (fun ws =>
        slideDirectives slide.Layout ++ slideNotes slide.Notes ++
          slideHeadings slide.Title slide.Subtitle ++ ws.flatten) := by
  unfold writeSlide
  rw [foldlM_writeBlock]
  congr 1
  funext ws
  congr 1
  simp only [writeSlide_head]
  unfold slideDirectives slideHeadings
  by_cases ht : slide.Title = [] <;> by_cases hs : slide.Subtitle = [] <;>
    simp [ht, hs, List.append_assoc]

/-- The text that `writeSlide` emits is the directive lines of the layout followed by
what it emits for the slide without layout. -/
theorem writeSlide_noLayout (slide : Slide) :
    writeSlide slide =
      (writeSlide slide.noLayout).map fun r => slideDirectives slide.Layout ++ r := by
  rw [writeSlide_parts, writeSlide_parts slide.noLayout]
  simp only [Slide.noLayout, Option.map_map]
  congr 1
  funext ws
  have e : slideDirectives [] = [] := by decide
  simp only [Function.comp, e, List.nil_append, List.append_assoc]

/-- The text that `writeSlide` emits for a slide without layout is the comment of the
notes followed by what it emits for the slide without layout and notes. -/
theorem writeSlide_noNotes (slide : Slide) :
    writeSlide slide.noLayout =
      (writeSlide slide.noNotes).map fun t => slideNotes slide.Notes ++ t := by
  rw [writeSlide_parts, writeSlide_parts slide.noNotes]
  simp only [Slide.noLayout, Slide.noNotes, Option.map_map]
  congr 1
  funext ws
  have e : slideDirectives [] = [] := by decide
  have e2 : slideNotes [] = [] := by decide
  simp only [Function.comp, e, e2, List.nil_append, List.append_assoc]

/-! ## The title and the notes of a slide that was read -/

/-- The part of the loop body for plain lines keeps the notes, and keeps the title or
sets it, when it is empty, to what follows `# ` or `## ` on the trimmed line. -/
theorem plainLine_Title (lines : List GoString) (i : Int)
    (line trimmed : GoString) (st : contentState) (r : Int × contentState)
    (h : parseSlideContent.plainLine lines i line trimmed st = some r) :
    r.2.slide.Notes = st.slide.Notes ∧
    (r.2.slide.Title = st.slide.Title ∨
      (st.slide.Title = [] ∧
        ((HasPrefix trimmed "# ".toList = true ∧
            r.2.slide.Title = TrimPrefix trimmed "# ".toList) ∨
         (HasPrefix trimmed "## ".toList = true ∧
            r.2.slide.Title = TrimPrefix trimmed "## ".toList)))) := by
  unfold parseSlideContent.plainLine at h
  by_cases h1 : HasPrefix trimmed "# ".toList = true
  · rw [if_pos h1] at h
    by_cases ht : st.slide.Title = []
    · rw [if_pos ht] at h; cases h; exact ⟨rfl, Or.inr ⟨ht, Or.inl ⟨h1, rfl⟩⟩⟩
    · rw [if_neg ht] at h; cases h; exact ⟨rfl, Or.inl rfl⟩
  rw [if_neg h1] at h
  by_cases h2 : HasPrefix trimmed "## ".toList = true
  · rw [if_pos h2] at h
    by_cases ht : st.slide.Title = []
    · rw [if_pos ht] at h; cases h; exact ⟨rfl, Or.inr ⟨ht, Or.inr ⟨h2, rfl⟩⟩⟩
    · rw [if_neg ht] at h
      by_cases hs : st.slide.Subtitle = []
      · rw [if_pos hs] at h; cases h; exact ⟨rfl, Or.inl rfl⟩
      · rw [if_neg hs] at h; cases h; exact ⟨rfl, Or.inl rfl⟩
  rw [if_neg h2] at h
  by_cases h3 : HasPrefix trimmed "### ".toList = true
  · rw [if_pos h3] at h; cases h; exact ⟨rfl, Or.inl rfl⟩
  rw [if_neg h3] at h
  by_cases h4 : HasPrefix trimmed "- ".toList = true ∨ HasPrefix trimmed "* ".toList = true
  · rw [if_pos h4] at h
    cases hs : sliceFrom trimmed 2 with
    | none => rw [hs] at h; exact absurd h (by simp)
    | some t => rw [hs] at h; cases h; exact ⟨rfl, Or.inl rfl⟩
  rw [if_neg h4] at h
  by_cases h5 : isNumberedItem trimmed = true
  · rw [if_pos h5] at h
    cases hs : extractNumberedText trimmed with
    | none => rw [hs] at h; exact absurd h (by simp)
    | some t => rw [hs] at h; cases h; exact ⟨rfl, Or.inl rfl⟩
  rw [if_neg h5] at h
  by_cases h6 : HasPrefix trimmed "> ".toList = true
  · rw [if_pos h6] at h; cases h; exact ⟨rfl, Or.inl rfl⟩
  rw [if_neg h6] at h
  have himg : ∀ image : Option contentState,
      (if HasPrefix trimmed "![".toList = true then
        (parseImageLine trimmed).bind fun r =>
          if r.2 ≠ [] then some (some (st.appendBody (NewImage r.2 r.1))) else some none
       else some none) = some image →
      ∀ st', image = some st' →
        st'.slide.Notes = st.slide.Notes ∧ st'.slide.Title = st.slide.Title := by
    intro image hi st' hst
    subst hst
    by_cases h7 : HasPrefix trimmed "![".toList = true
    · rw [if_pos h7] at hi
      cases hp : parseImageLine trimmed with
      | none => rw [hp] at hi; exact absurd hi (by simp)
      | some q =>
        rw [hp] at hi
        simp only [Option.some_bind] at hi
        by_cases h8 : q.2 ≠ []
        · rw [if_pos h8] at hi; cases hi; exact ⟨rfl, rfl⟩
        · rw [if_neg h8] at hi; cases hi
    · rw [if_neg h7] at hi; cases hi
  cases hi : (if HasPrefix trimmed "![".toList = true then
        (parseImageLine trimmed).bind fun r =>
          if r.2 ≠ [] then some (some (st.appendBody (NewImage r.2 r.1))) else some none
       else some none) with
  | none => rw [hi] at h; exact absurd h (by simp)
  | some image =>
    rw [hi] at h
    simp only [Option.some_bind] at h
    cases image with
    | some st' =>
      simp only [Option.some.injEq] at h
      subst h
      exact ⟨(himg _ hi st' rfl).1, Or.inl (himg _ hi st' rfl).2⟩
    | none =>
      simp only at h
      by_cases ht : HasPrefix trimmed "|".toList = true
      · rw [if_pos ht] at h
        cases hl : parseSlideContent.tableLoop (lines.length + 1) lines i [] with
        | none => rw [hl] at h; exact absurd h (by simp)
        | some q => rw [hl] at h; cases h; exact ⟨rfl, Or.inl rfl⟩
      · rw [if_neg ht] at h; cases h; exact ⟨rfl, Or.inl rfl⟩

/-- A title was set from one of the lines: it is what follows `# ` or `## ` on the
trimmed line. -/
theorem step_Title (lines : List GoString) (i : Int) (st : contentState)
    (r : Int × contentState) (h : parseSlideContent.step lines i st = some r) :
    r.2.slide.Notes = st.slide.Notes ∧
    (r.2.slide.Title = st.slide.Title ∨
      (st.slide.Title = [] ∧ ∃ line ∈ lines,
        ((HasPrefix (TrimSpace line) "# ".toList = true ∧
            r.2.slide.Title = TrimPrefix (TrimSpace line) "# ".toList) ∨
         (HasPrefix (TrimSpace line) "## ".toList = true ∧
            r.2.slide.Title = TrimPrefix (TrimSpace line) "## ".toList)))) := by
  unfold parseSlideContent.step at h
  cases hl : index lines i with
  | none => rw [hl] at h; exact absurd h (by simp)
  | some line =>
    rw [hl] at h
    simp only [Option.some_bind] at h
    have hmem := index_mem _ _ _ hl
    split_ifs at h
    all_goals first
      | (cases h; exact ⟨rfl, Or.inl rfl⟩)
      | (obtain ⟨a, b⟩ := plainLine_Title _ _ _ _ _ _ h
         refine ⟨a, ?_⟩
         rcases b with b | ⟨b0, b⟩
         · exact Or.inl b
         · exact Or.inr ⟨b0, line, hmem, b⟩)

/-- The line loop keeps the notes, and keeps the title or sets it, when it is empty,
from one of the lines. -/
theorem loop_Title (fuel : Nat) (lines : List GoString) (i : Int)
    (st st' : contentState) (h : parseSlideContent.loop fuel lines i st = some st') :
    st'.slide.Notes = st.slide.Notes ∧
    (st'.slide.Title = st.slide.Title ∨
      (st.slide.Title = [] ∧ ∃ line ∈ lines,
        ((HasPrefix (TrimSpace line) "# ".toList = true ∧
            st'.slide.Title = TrimPrefix (TrimSpace line) "# ".toList) ∨
         (HasPrefix (TrimSpace line) "## ".toList = true ∧
            st'.slide.Title = TrimPrefix (TrimSpace line) "## ".toList)))) := by
  induction fuel generalizing i st with
  | zero => exact absurd h (by simp [parseSlideContent.loop])
  | succ fuel ih =>
    unfold parseSlideContent.loop at h
    split_ifs at h
    · cases hs : parseSlideContent.step lines i st with
      | none => rw [hs] at h; exact absurd h (by simp)
      | some r =>
        rw [hs] at h
        simp only [Option.some_bind] at h
        obtain ⟨a, b⟩ := step_Title _ _ _ _ hs
        obtain ⟨c, d⟩ := ih _ _ h
        refine ⟨c.trans a, ?_⟩
        rcases b with b | ⟨b0, line, hm, b⟩
        · rcases d with d | ⟨d0, d⟩
          · exact Or.inl (d.trans b)
          · exact Or.inr ⟨b ▸ d0, d⟩
        · rcases d with d | ⟨d0, d⟩
          · refine Or.inr ⟨b0, line, hm, ?_⟩
            rw [d]
            exact b
          · exact Or.inr ⟨b0, d⟩
    · cases h; exact ⟨rfl, Or.inl rfl⟩

/-- The function `parseSlideContent` keeps the notes, and keeps the title or sets it,
when it is empty, from one of the lines of the content. -/
theorem parseSlideContent_Title (slide slide' : Slide) (content : GoString)
    (h : parseSlideContent slide content = some slide') :
    slide'.Notes = slide.Notes ∧
    (slide'.Title = slide.Title ∨
      (slide.Title = [] ∧ ∃ line ∈ Split content '\n',
        ((HasPrefix (TrimSpace line) "# ".toList = true ∧
            slide'.Title = TrimPrefix (TrimSpace line) "# ".toList) ∨
         (HasPrefix (TrimSpace line) "## ".toList = true ∧
            slide'.Title = TrimPrefix (TrimSpace line) "## ".toList)))) := by
  unfold parseSlideContent at h
  simp only at h
  cases hl : parseSlideContent.loop ((Split content '\n').length + 1) (Split content '\n') 0
      { slide := slide } with
  | none => rw [hl] at h; exact absurd h (by simp)
  | some st =>
    rw [hl] at h
    simp only [Option.some_bind] at h
    have hf := loop_Title _ _ _ _ _ hl
    split_ifs at h
    all_goals (cases h; exact hf)

/-- The notes loop of `convertToSlide` keeps the title and appends one paragraph for
every note with a text. -/
theorem foldl_notes_Title (notes : List noteBlock) (slide : Slide) :
    (notes.foldl (fun (slide : Slide) nb =>
        if nb.text ≠ [] then
          { slide with Notes := slide.Notes ++ [{ Kind := BlockParagraph, Text := nb.text }] }
        else slide) slide).Title = slide.Title ∧
    (notes.foldl (fun (slide : Slide) nb =>
        if nb.text ≠ [] then
          { slide with Notes := slide.Notes ++ [{ Kind := BlockParagraph, Text := nb.text }] }
        else slide) slide).Notes =
      slide.Notes ++ (notes.filter fun nb => decide (nb.text ≠ [])).map fun nb =>
        ({ Kind := BlockParagraph, Text := nb.text } : Block) := by
  induction notes generalizing slide with
  | nil => exact ⟨rfl, by simp⟩
  | cons nb rest ih =>
    simp only [List.foldl_cons]
    by_cases hn : nb.text ≠ []
    · rw [if_pos hn]
      refine ⟨(ih _).1, ?_⟩
      rw [(ih _).2, List.filter_cons_of_pos (by simpa using hn)]
      simp
    · rw [if_neg hn]
      refine ⟨(ih _).1, ?_⟩
      rw [(ih _).2, List.filter_cons_of_neg (by simpa using hn)]

/-- The title and the notes of the slide that `convertToSlide` returns: the title is
empty or what follows `# ` or `## ` on a trimmed line of the content, and the notes
are the notes of the fragment that have a text. -/
theorem convertToSlide_Title (ps : parsedSlide) (i j : Nat) (slide : Slide)
    (h : convertToSlide ps i j = some slide) :
    slide.Notes = ((ps.notes.filter fun nb => decide (nb.text ≠ [])).map fun nb =>
        ({ Kind := BlockParagraph, Text := nb.text } : Block)) ∧
    (slide.Title = [] ∨ ∃ line ∈ Split ps.content '\n',
        ((HasPrefix (TrimSpace line) "# ".toList = true ∧
            slide.Title = TrimPrefix (TrimSpace line) "# ".toList) ∨
         (HasPrefix (TrimSpace line) "## ".toList = true ∧
            slide.Title = TrimPrefix (TrimSpace line) "## ".toList))) := by
  unfold convertToSlide at h
  simp only at h
  cases hp : parseSlideContent
      (if mapIndex ps.directives "_class".toList = "section-divider".toList then
        { ID := "s".toList ++ itoa i ++ "-".toList ++ itoa j, Layout := LayoutSection }
       else if mapIndex ps.directives "_class".toList = "lead".toList then
        { ID := "s".toList ++ itoa i ++ "-".toList ++ itoa j, Layout := LayoutTitle }
       else { ID := "s".toList ++ itoa i ++ "-".toList ++ itoa j, Layout := LayoutTitleBody })
      ps.content with
  | none => rw [hp] at h; exact absurd h (by simp)
  | some s1 =>
    rw [hp] at h
    simp only [Option.some_bind] at h
    obtain ⟨f1, f2⟩ := parseSlideContent_Title _ _ _ hp
    obtain ⟨g1, g2⟩ := foldl_notes_Title ps.notes s1
    have hN0 : s1.Notes = [] := by
      rw [f1]
      split_ifs <;> rfl
    have hT0 : s1.Title = [] ∨ ∃ line ∈ Split ps.content '\n',
        ((HasPrefix (TrimSpace line) "# ".toList = true ∧
            s1.Title = TrimPrefix (TrimSpace line) "# ".toList) ∨
         (HasPrefix (TrimSpace line) "## ".toList = true ∧
            s1.Title = TrimPrefix (TrimSpace line) "## ".toList)) := by
      rcases f2 with f2 | ⟨_, f2⟩
      · left
        rw [f2]
        split_ifs <;> rfl
      · exact Or.inr f2
    rw [hN0, List.nil_append] at g2
    split_ifs at h
    all_goals
      cases h
      refine ⟨g2, ?_⟩
      show (List.foldl _ s1 ps.notes).Title = [] ∨ _
      rw [g1]
      exact hT0

/-! ## Reading back the text of one slide -/

/-- The directives and the content of the fragment that `parseRawSlide` returns. -/
theorem parseRawSlide_parts (raw : GoString) (ps : parsedSlide)
    (h : parseRawSlide raw = some ps) :
    (FindAllStringSubmatch reDirective raw).foldlM
      (fun (directives : GoMap) m =>
        (index m 1).bind fun key =>
        (index m 2).bind fun value =>
          some (mapSet directives key value)) [] = some ps.directives ∧
    (FindAllStringSubmatch reNoteBlock (ReplaceAllString reDirective raw)).foldlM
      (fun (notes : List noteBlock) m =>
        (index m 1).bind fun noteText =>
          if Contains noteText "<script".toList then some notes
          else some (notes ++ [{ text := cleanNoteText noteText }])) [] = some ps.notes ∧
    ps.content = TrimSpace (ReplaceAllString reNoteBlock (ReplaceAllString reDirective raw)) := by
  unfold parseRawSlide at h
  simp only at h
  cases hd : (FindAllStringSubmatch reDirective raw).foldlM
      (fun (directives : GoMap) m =>
        (index m 1).bind fun key =>
        (index m 2).bind fun value =>
          some (mapSet directives key value)) [] with
  | none => rw [hd] at h; exact absurd h (by simp)
  | some d =>
    rw [hd] at h
    simp only [Option.some_bind] at h
    cases hn : (FindAllStringSubmatch reNoteBlock (ReplaceAllString reDirective raw)).foldlM
      (fun (notes : List noteBlock) m =>
        (index m 1).bind fun noteText =>
          if Contains noteText "<script".toList then some notes
          else some (notes ++ [{ text := cleanNoteText noteText }])) [] with
    | none => rw [hn] at h; exact absurd h (by simp)
    | some n =>
      rw [hn] at h
      simp only [Option.some_bind, Option.some.injEq] at h
      subst h
      exact ⟨rfl, rfl, rfl⟩

/-- Every note of a fragment is a cleaned text. -/
theorem foldlM_notes_clean (ms : List (List GoString)) (acc notes : List noteBlock)
    (hacc : ∀ nb ∈ acc, ∃ t, nb.text = cleanNoteText t)
    (h : ms.foldlM
      (fun (notes : List noteBlock) m =>
        (index m 1).bind fun noteText =>
          if Contains noteText "<script".toList then some notes
          else some (notes ++ [{ text := cleanNoteText noteText }])) acc = some notes) :
    ∀ nb ∈ notes, ∃ t, nb.text = cleanNoteText t := by
  induction ms generalizing acc with
  | nil =>
    simp only [List.foldlM_nil, Option.pure_def, Option.some.injEq] at h
    subst h
    exact hacc
  | cons m rest ih =>
    simp only [List.foldlM_cons, Option.bind_eq_bind] at h
    cases hi : index m 1 with
    | none => rw [hi] at h; exact absurd h (by simp)
    | some noteText =>
      rw [hi] at h
      simp only [Option.some_bind] at h
      by_cases hc : Contains noteText "<script".toList = true
      · rw [if_pos hc] at h
        simp only [Option.some_bind] at h
        exact ih acc hacc h
      · rw [if_neg hc] at h
        simp only [Option.some_bind] at h
        refine ih _ ?_ h
        intro nb hnb
        simp only [List.mem_append, List.mem_singleton] at hnb
        rcases hnb with hnb | hnb
        · exact hacc nb hnb
        · subst hnb
          exact ⟨noteText, rfl⟩

/-- The title that a line sets is not empty, is one line and does not end in white
space. -/
theorem title_of_line (line pre : GoString) (hpre : pre.getLast? = some ' ')
    (hnl : '\n' ∉ line) (h : HasPrefix (TrimSpace line) pre = true) :
    TrimPrefix (TrimSpace line) pre ≠ [] ∧ '\n' ∉ TrimPrefix (TrimSpace line) pre ∧
      ∀ c ∈ (TrimPrefix (TrimSpace line) pre).getLast?, isSpace c = false := by
  have hne := TrimPrefix_TrimSpace_ne_nil line pre hpre h
  have happ := TrimPrefix_append _ _ h
  refine ⟨hne, ?_, ?_⟩
  · intro hc
    apply hnl
    apply mem_of_mem_TrimSpace
    rw [← happ]
    exact List.mem_append_right _ hc
  · have hT : TrimSpace line ≠ [] := by
      rw [← happ]
      simp [hne]
    have := (trimmed_ends_isSpace _ hT (TrimSpace_idem line)).2
    rw [← happ, List.getLast?_append_of_ne_nil _ hne] at this
    exact this

/-! ## The title line of a written slide, read back -/

/-- The line `# <title>` has no white space around it. -/
theorem title_line_trimmed (T : GoString) (hT : T ≠ [])
    (hlast : ∀ c ∈ T.getLast?, isSpace c = false) :
    TrimSpace ('#' :: ' ' :: T) = '#' :: ' ' :: T := by
  apply TrimSpace_eq_self
  · intro c hc
    simp only [List.head?_cons, Option.mem_def, Option.some.injEq] at hc
    subst hc
    decide
  · intro c hc
    obtain ⟨t, ts, e⟩ := List.exists_cons_of_ne_nil hT
    subst e
    apply hlast
    simpa [List.getLast?_cons_cons] using hc

/-- The loop body on a first line `# <title>`, outside code and HTML blocks and with
no title yet: the line sets the title. -/
theorem step_title_line (T : GoString) (tl : List GoString) (st : contentState)
    (hc : st.inCodeBlock = false) (hh : st.inHTMLBlock = false) (ht : st.slide.Title = [])
    (hT : T ≠ []) (hlast : ∀ c ∈ T.getLast?, isSpace c = false) :
    parseSlideContent.step (('#' :: ' ' :: T) :: tl) 0 st =
      some (0, { st with slide := { st.slide with Title := T } }) := by
  have htrim := title_line_trimmed T hT hlast
  have h1 : HasPrefix ('#' :: ' ' :: T) "```".toList = false := rfl
  have h2 : isHTMLBlockStart ('#' :: ' ' :: T) = false := rfl
  have h3 : HasPrefix ('#' :: ' ' :: T) "# ".toList = true := by
    rw [HasPrefix_iff]
    exact ⟨T, rfl⟩
  have h4 : TrimPrefix ('#' :: ' ' :: T) "# ".toList = T := by
    rw [TrimPrefix_eq_drop _ _ h3]
    rfl
  unfold parseSlideContent.step
  rw [index_zero_cons]
  simp only [Option.some_bind, htrim, h1, hc, hh, h2]
  simp only [Bool.false_eq_true, if_false, Bool.not_false, and_false, and_true]
  rw [if_neg (by simp)]
  unfold parseSlideContent.plainLine
  rw [if_pos h3, if_pos ht, h4]
  simp only [hc, hh]

/-- On a content that begins with the line `# <title>`, `parseSlideContent` gives a
slide without title that title. -/
theorem parseSlideContent_first_title (s0 : Slide) (T rest : GoString) (h0 : s0.Title = [])
    (hT : T ≠ []) (hnl : '\n' ∉ T) (hlast : ∀ c ∈ T.getLast?, isSpace c = false)
    (s' : Slide)
    (h : parseSlideContent s0 (TrimSpace ("# ".toList ++ T ++ "\n".toList ++ rest)) = some s') :
    s'.Title = T := by
  have hXne : ('#' :: ' ' :: T) ≠ [] := by simp
  have hX : TrimSpace ("# ".toList ++ T ++ "\n".toList ++ rest) =
      ('#' :: ' ' :: T) ++ List.rdropWhile isSpace ('\n' :: rest) := by
    have := TrimSpace_append_right ('#' :: ' ' :: T) ('\n' :: rest) hXne
      (show isSpace '#' = false by decide)
      (by
        obtain ⟨t, ts, e⟩ := List.exists_cons_of_ne_nil hT
        subst e
        apply hlast
        simp [List.getLast?_cons_cons, List.getLast?_eq_getLast])
    rw [← this]
    simp
  have hXnl : '\n' ∉ ('#' :: ' ' :: T) := by
    intro hc
    simp only [List.mem_cons] at hc
    rcases hc with hc | hc | hc
    · exact absurd hc (by decide)
    · exact absurd hc (by decide)
    · exact hnl hc
  obtain ⟨tl, hlines⟩ : ∃ tl, Split (TrimSpace ("# ".toList ++ T ++ "\n".toList ++ rest)) '\n' =
      ('#' :: ' ' :: T) :: tl := by
    rw [hX]
    have hp : List.rdropWhile isSpace ('\n' :: rest) <+: '\n' :: rest :=
      List.rdropWhile_prefix _ _
    cases hY : List.rdropWhile isSpace ('\n' :: rest) with
    | nil =>
      rw [List.append_nil, Split_of_not_mem _ _ hXnl]
      exact ⟨[], rfl⟩
    | cons y ys =>
      rw [hY] at hp
      obtain ⟨z, hz⟩ := hp
      simp only [List.cons_append, List.cons.injEq] at hz
      rw [hz.1, Split_append_sep _ _ hXnl]
      exact ⟨_, rfl⟩
  unfold parseSlideContent at h
  simp only at h
  rw [hlines] at h
  cases hl : parseSlideContent.loop ((('#' :: ' ' :: T) :: tl).length + 1)
      (('#' :: ' ' :: T) :: tl) 0 { slide := s0 } with
  | none => rw [hl] at h; exact absurd h (by simp)
  | some st =>
    rw [hl] at h
    simp only [Option.some_bind] at h
    have hst : st.slide.Title = T := by
      unfold parseSlideContent.loop at hl
      rw [if_pos (by simp), step_title_line T tl _ rfl rfl h0 hT hlast] at hl
      simp only [Option.some_bind] at hl
      rcases (loop_Title _ _ _ _ _ hl).2 with e | ⟨e, _⟩
      · exact e
      · exact absurd e hT
    split_ifs at h
    all_goals (cases h; exact hst)

/-- On a content without a line that begins, after white space, with `# ` or `## `,
`parseSlideContent` leaves the title alone. -/
theorem parseSlideContent_no_title (s0 : Slide) (content : GoString)
    (hl : ∀ l ∈ Split content '\n', HasPrefix (TrimSpace l) "# ".toList = false ∧
      HasPrefix (TrimSpace l) "## ".toList = false)
    (s' : Slide) (h : parseSlideContent s0 content = some s') :
    s'.Title = s0.Title := by
  rcases (parseSlideContent_Title _ _ _ h).2 with e | ⟨_, line, hm, e⟩
  · exact e
  · rcases e with ⟨e, _⟩ | ⟨e, _⟩
    · rw [(hl line hm).1] at e
      exact absurd e (by simp)
    · rw [(hl line hm).2] at e
      exact absurd e (by simp)

/-! ## The flags of the line loop and the lines that set the title -/

theorem scanLines_append (f : scanState) (a b : List GoString) :
    scanLines f (a ++ b) = scanLines (scanLines f a) b := by
  unfold scanLines
  rw [List.foldl_append]

theorem titleFree_append (f : scanState) (a b : List GoString) :
    titleFree f (a ++ b) = (titleFree f a && titleFree (scanLines f a) b) := by
  induction a generalizing f with
  | nil => simp [titleFree, scanLines]
  | cons l ls ih =>
    rw [List.cons_append]
    simp only [titleFree]
    rw [ih]
    simp only [scanLines, List.foldl_cons, Bool.and_assoc]

/-- Outside code and HTML blocks, a line that is no fence line and starts no HTML
block leaves the flags alone. -/
theorem scanLine_plain (l : GoString) (hf : isFenceLine l = false)
    (hs : isHTMLBlockStart (TrimSpace l) = false) :
    scanLine (false, none) l = (false, none) := by
  unfold scanLine
  simp [hf, hs]

/-- Outside code and HTML blocks, a line that is no fence line, starts no HTML block
and is no title line is not read as a heading of the first or second level. -/
theorem titleMet_plain (f : scanState) (l : GoString) (ht : isTitleLine l = false) :
    titleMet f l = false := by
  unfold titleMet
  simp [ht]

/-- A table line is neither a fence line, nor the start of an HTML block, nor a title
line. -/
theorem tableLine_plain (l : GoString) (h : isTableLine l = true) :
    isFenceLine l = false ∧ isHTMLBlockStart (TrimSpace l) = false ∧ isTitleLine l = false := by
  obtain ⟨cs, hcs⟩ := isTableLine_head l h
  refine ⟨?_, ?_, ?_⟩
  · unfold isFenceLine
    rw [hcs]
    rfl
  · rw [hcs]
    rfl
  · unfold isTitleLine
    rw [hcs]
    rfl

/-- Table lines leave the flags outside code and HTML blocks and none of them is read
as a heading. -/
theorem titleFree_tableLines (tl rest : List GoString)
    (h : ∀ l ∈ tl, isTableLine l = true) :
    titleFree (false, none) (tl ++ rest) = titleFree (false, none) rest := by
  induction tl with
  | nil => rfl
  | cons l ls ih =>
    obtain ⟨h1, h2, h3⟩ := tableLine_plain l (h l (by simp))
    simp only [List.cons_append, titleFree, titleMet_plain _ l h3, scanLine_plain l h1 h2,
      Bool.not_false, Bool.true_and]
    exact ih (fun x hx => h x (by simp [hx]))

/-- The effect of a regular line that is no title line leaves the title alone. -/
theorem lineEffect_Title (line : GoString) (st : contentState)
    (ht : isTitleLine line = false) : (lineEffect line st).slide.Title = st.slide.Title := by
  unfold isTitleLine at ht
  simp only [Bool.or_eq_false_iff] at ht
  unfold lineEffect
  simp only [ht.1, ht.2, Bool.false_eq_true, if_false]
  split_ifs
  · rfl
  · split <;> rfl

theorem drop_length_takeWhile {α : Type} (p : α → Bool) (l : List α) :
    l.drop (l.takeWhile p).length = l.dropWhile p := by
  induction l with
  | nil => rfl
  | cons x xs ih =>
    by_cases hx : p x = true
    · rw [List.takeWhile_cons_of_pos hx, List.dropWhile_cons_of_pos hx, List.length_cons,
        List.drop_succ_cons, ih]
    · rw [List.takeWhile_cons_of_neg hx, List.dropWhile_cons_of_neg hx]
      rfl

/-- The loop body, on the flags and on the title: the flags after the iteration are
those of `scanLine`; the title is left alone by a line that is not read as a heading
of the first or second level; and the lines that the iteration jumps over are table
lines, met outside code and HTML blocks. -/
theorem step_scan (lines : List GoString) (i m : Nat) (st st1 : contentState)
    (hi : i < lines.length)
    (hs : parseSlideContent.step lines (i : Int) st = some ((m : Int), st1)) :
    flagsOf st1 = scanLine (flagsOf st) lines[i] ∧
    (titleMet (flagsOf st) lines[i] = false → st1.slide.Title = st.slide.Title) ∧
    ∃ tl, lines.drop (i + 1) = tl ++ lines.drop (m + 1) ∧
      (tl = [] ∨ flagsOf st1 = (false, none)) ∧ ∀ l ∈ tl, isTableLine l = true := by
  have same : ∀ (r : Int × contentState), some r = some ((m : Int), st1) →
      r.1 = (i : Int) → ∃ tl, lines.drop (i + 1) = tl ++ lines.drop (m + 1) ∧
      (tl = [] ∨ flagsOf st1 = (false, none)) ∧ ∀ l ∈ tl, isTableLine l = true := by
    intro r hr hr1
    have e : (i : Int) = (m : Int) := by
      rw [← hr1]
      exact congrArg Prod.fst (Option.some.inj hr)
    have e' : i = m := by exact_mod_cast e
    subst e'
    exact ⟨[], rfl, Or.inl rfl, by simp⟩
  by_cases hf : HasPrefix (TrimSpace lines[i]) "```".toList = true
  · have hfl : isFenceLine lines[i] = true := hf
    by_cases hc : st.inCodeBlock = true
    · rw [parseSlideContent_step_fence_close lines i st hi hf hc] at hs
      have hsame := same _ hs rfl
      have e2 := congrArg Prod.snd (Option.some.inj hs)
      simp only at e2
      subst e2
      refine ⟨?_, ?_, hsame⟩
      · unfold scanLine flagsOf
        simp [hfl, hc, contentState.appendBody]
      · intro _
        rfl
    · have hc' : st.inCodeBlock = false := by simpa using hc
      rw [parseSlideContent_step_fence_open lines i st hi hf hc'] at hs
      have hsame := same _ hs rfl
      have e2 := congrArg Prod.snd (Option.some.inj hs)
      simp only at e2
      subst e2
      refine ⟨?_, ?_, hsame⟩
      · unfold scanLine flagsOf
        simp [hfl, hc']
      · intro _
        rfl
  have hf' : HasPrefix (TrimSpace lines[i]) "```".toList = false := by simpa using hf
  have hfl : isFenceLine lines[i] = false := hf'
  by_cases hc : st.inCodeBlock = true
  · rw [parseSlideContent_step_code_line lines i st hi hf' hc] at hs
    have hsame := same _ hs rfl
    have e2 := congrArg Prod.snd (Option.some.inj hs)
    simp only at e2
    subst e2
    refine ⟨?_, ?_, hsame⟩
    · unfold scanLine flagsOf
      simp [hfl, hc]
    · intro _
      rfl
  have hc' : st.inCodeBlock = false := by simpa using hc
  by_cases hh : st.inHTMLBlock = true
  · rw [parseSlideContent_step_html_line lines i st hi hf' hc' hh] at hs
    have hsame := same _ hs rfl
    by_cases hle : st.htmlBlockDepth + countHTMLOpens lines[i] - countHTMLCloses lines[i] ≤ 0
    · rw [if_pos hle] at hs
      have e2 := congrArg Prod.snd (Option.some.inj hs)
      simp only at e2
      subst e2
      refine ⟨?_, ?_, hsame⟩
      · unfold scanLine flagsOf openDepth
        simp [hfl, hc', hh, hle, contentState.appendBody]
      · intro _
        rfl
    · rw [if_neg hle] at hs
      have e2 := congrArg Prod.snd (Option.some.inj hs)
      simp only at e2
      subst e2
      refine ⟨?_, ?_, hsame⟩
      · unfold scanLine flagsOf openDepth
        simp [hfl, hc', hh, hle]
      · intro _
        rfl
  have hh' : st.inHTMLBlock = false := by simpa using hh
  by_cases hst : isHTMLBlockStart (TrimSpace lines[i]) = true
  · rw [parseSlideContent_step_html_start lines i st hi hf' hc' hh' hst] at hs
    have hsame := same _ hs rfl
    have hd := htmlDepth_singleton lines[i]
    by_cases hle : htmlDepth [lines[i]] ≤ 0
    · rw [if_pos hle] at hs
      have e2 := congrArg Prod.snd (Option.some.inj hs)
      simp only at e2
      subst e2
      refine ⟨?_, ?_, hsame⟩
      · unfold scanLine flagsOf openDepth
        rw [← hd]
        simp [hfl, hc', hh', hst, hle, contentState.appendBody]
      · intro _
        rfl
    · rw [if_neg hle] at hs
      have e2 := congrArg Prod.snd (Option.some.inj hs)
      simp only at e2
      subst e2
      refine ⟨?_, ?_, hsame⟩
      · unfold scanLine flagsOf openDepth
        rw [← hd]
        simp [hfl, hc', hh', hst, hle]
      · intro _
        rfl
  have hst' : isHTMLBlockStart (TrimSpace lines[i]) = false := by simpa using hst
  have hflags : flagsOf st = (false, none) := by
    unfold flagsOf
    simp [hc', hh']
  by_cases hreg : isRegularLine lines[i] = true
  · rw [parseSlideContent_step_regular lines i st hi hc' hh' hreg] at hs
    have hsame := same _ hs rfl
    have e2 : lineEffect lines[i] st = st1 := congrArg Prod.snd (Option.some.inj hs)
    refine ⟨?_, ?_, hsame⟩
    · rw [← e2, hflags, scanLine_plain _ hfl hst']
      unfold flagsOf
      rw [(lineEffect_flags lines[i] st).1, (lineEffect_flags lines[i] st).2]
      simp [hc', hh']
    · intro hm
      rw [← e2]
      apply lineEffect_Title
      unfold titleMet at hm
      rw [hflags] at hm
      simpa [hfl, hst'] using hm
  · have ht := isTableLine_of_not_regular _ hf' hst' hreg
    rw [parseSlideContent_step_table lines i st hi hc' hh' ht] at hs
    have e1 : (((i + ((lines.drop i).takeWhile isTableLine).length - 1 : Nat) : Int)) = (m : Int) :=
      congrArg Prod.fst (Option.some.inj hs)
    have e1' : i + ((lines.drop i).takeWhile isTableLine).length - 1 = m := by exact_mod_cast e1
    have e2 := congrArg Prod.snd (Option.some.inj hs)
    simp only at e2
    have hflags1 : flagsOf st1 = (false, none) := by
      rw [← e2]
      unfold flagsOf
      simp [contentState.appendBody, hc', hh']
    have hdrop : lines.drop i = lines[i] :: lines.drop (i + 1) := by
      rw [List.drop_eq_getElem_cons hi]
    have htw : (lines.drop i).takeWhile isTableLine =
        lines[i] :: (lines.drop (i + 1)).takeWhile isTableLine := by
      rw [hdrop, List.takeWhile_cons, ht]
      simp
    have hm : m + 1 = (i + 1) + ((lines.drop (i + 1)).takeWhile isTableLine).length := by
      rw [htw, List.length_cons] at e1'
      omega
    refine ⟨?_, ?_, (lines.drop (i + 1)).takeWhile isTableLine, ?_, Or.inr hflags1, ?_⟩
    · rw [hflags1, hflags, scanLine_plain _ hfl hst']
    · intro _
      rw [← e2]
      rfl
    · have e3 : lines.drop (m + 1) = (lines.drop (i + 1)).dropWhile isTableLine := by
        rw [← drop_length_takeWhile isTableLine (lines.drop (i + 1)), List.drop_drop, hm]
      rw [e3]
      exact (List.takeWhile_append_dropWhile isTableLine (lines.drop (i + 1))).symm
    · intro l hl
      exact List.mem_takeWhile_imp hl

/-! ## A text without a line that is read as a title -/

/-- Along a stretch of the loop that starts without a title, over lines none of which
is read as a heading of the first or second level, the title stays empty. -/
theorem Reaches_titleFree (lines : List GoString) (i j : Nat) (st st' : contentState)
    (h : Reaches lines i st j st') (hT : st.slide.Title = [])
    (hfree : titleFree (flagsOf st) (lines.drop i) = true) : st'.slide.Title = [] := by
  induction h with
  | refl i st => exact hT
  | step i m j st st1 st2 hlt hs _ ih =>
    have hdrop : lines.drop i = lines[i] :: lines.drop (i + 1) := by
      rw [List.drop_eq_getElem_cons hlt]
    rw [hdrop] at hfree
    simp only [titleFree, Bool.and_eq_true, Bool.not_eq_true'] at hfree
    obtain ⟨hflags, htitle, tl, htl, hneutral, htable⟩ := step_scan lines i m st st1 hlt hs
    apply ih
    · rw [htitle hfree.1]
      exact hT
    · have h2 := hfree.2
      rw [← hflags, htl] at h2
      rcases hneutral with e | e
      · rw [e, List.nil_append] at h2
        exact h2
      · rw [e] at h2 ⊢
        rw [titleFree_tableLines tl _ htable] at h2
        exact h2

/-- On a content none of whose lines is read as a heading of the first or second
level, `parseSlideContent` leaves a slide without title without title. -/
theorem parseSlideContent_titleFree (s0 s1 : Slide) (content : GoString)
    (h0 : s0.Title = [])
    (hfree : titleFree (false, none) (Split content '\n') = true)
    (h : parseSlideContent s0 content = some s1) : s1.Title = [] := by
  unfold parseSlideContent at h
  simp only at h
  cases hl : parseSlideContent.loop ((Split content '\n').length + 1) (Split content '\n') 0
      { slide := s0 } with
  | none => rw [hl] at h; exact absurd h (by simp)
  | some st =>
    rw [hl] at h
    simp only [Option.some_bind] at h
    have hr := Reaches_of_loop _ _ _ hl
    have hst : st.slide.Title = [] :=
      Reaches_titleFree _ _ _ _ _ hr h0 (by simpa [flagsOf] using hfree)
    split_ifs at h
    all_goals (cases h; exact hst)

/-! ### White space around the text -/

/-- The matches of a pattern that begins with a character class do not depend on the
character before the text. -/
theorem findAllFrom_chr_prev (p : Char → Bool) (k : List RE) (prev1 prev2 : Option Char)
    (s : GoString) :
    findAllFrom (RE.chr p :: k) prev1 s 0 = findAllFrom (RE.chr p :: k) prev2 s 0 := by
  cases s with
  | nil => simp [findAllFrom, RE.run]
  | cons c cs => simp [findAllFrom, RE.run]

/-- A character outside the class that a pattern begins with, in front of a text,
adds no match. -/
theorem findAllFrom_chr_skip (p : Char → Bool) (k : List RE) (c : Char) (s : GoString)
    (hc : p c = false) :
    findAllFrom (RE.chr p :: k) none (c :: s) 0 = findAllFrom (RE.chr p :: k) none s 0 := by
  rw [findAllFrom]
  simp only [RE.run, hc, Bool.false_eq_true, if_false]
  exact findAllFrom_chr_prev p k _ _ s

theorem isSpace_ne_open (c : Char) (hc : isSpace c = true) : (c == '<') = false := by
  cases h : c == '<' with
  | false => rfl
  | true =>
    rw [beq_iff_eq] at h
    subst h
    exact absurd hc (by decide)

/-- White space in front of a line changes neither the count of opening HTML tags nor
the count of closing HTML tags. -/
theorem countHTML_cons_space (c : Char) (l : GoString) (hc : isSpace c = true) :
    countHTMLOpens (c :: l) = countHTMLOpens l ∧
      countHTMLCloses (c :: l) = countHTMLCloses l := by
  have h1 : FindAllStringSubmatch reHTMLOpen (c :: l) = FindAllStringSubmatch reHTMLOpen l :=
    findAllFrom_chr_skip _ _ c l (isSpace_ne_open c hc)
  have h2 : FindAllStringSubmatch reHTMLClose (c :: l) = FindAllStringSubmatch reHTMLClose l :=
    findAllFrom_chr_skip _ _ c l (isSpace_ne_open c hc)
  unfold countHTMLOpens countHTMLCloses FindAllString
  rw [h1, h2]
  exact ⟨rfl, rfl⟩

/-- White space in front of a line changes neither what the line does to the flags
nor whether it is read as a heading. -/
theorem scanLine_cons_space (f : scanState) (c : Char) (l : GoString) (hc : isSpace c = true) :
    scanLine f (c :: l) = scanLine f l ∧ titleMet f (c :: l) = titleMet f l := by
  obtain ⟨h1, h2⟩ := countHTML_cons_space c l hc
  unfold scanLine titleMet isFenceLine isTitleLine
  rw [TrimSpace_cons_space c l hc, h1, h2]
  exact ⟨rfl, rfl⟩

/-- White space at the end of a line does not change whether it is read as a
heading. -/
theorem titleMet_concat_space (f : scanState) (c : Char) (l : GoString) (hc : isSpace c = true) :
    titleMet f (l ++ [c]) = titleMet f l := by
  unfold titleMet isFenceLine isTitleLine
  rw [TrimSpace_concat_space l c hc]

theorem scanLine_nil (f : scanState) (hf : f = (false, none)) :
    scanLine f [] = f ∧ titleMet f [] = false := by
  subst hf
  exact ⟨by decide, by decide⟩

/-- Leading white space of a text can be removed without a line becoming a title. -/
theorem titleFree_dropWhile (s : GoString)
    (h : titleFree (false, none) (Split s '\n') = true) :
    titleFree (false, none) (Split (s.dropWhile isSpace) '\n') = true := by
  induction s with
  | nil => exact h
  | cons c cs ih =>
    by_cases hc : isSpace c = true
    · rw [List.dropWhile_cons_of_pos hc]
      apply ih
      by_cases hn : c = '\n'
      · subst hn
        rw [Split_cons_sep] at h
        simp only [titleFree, (scanLine_nil _ rfl).1, (scanLine_nil _ rfl).2, Bool.not_false,
          Bool.true_and] at h
        exact h
      · rw [Split_cons_ne c cs '\n' hn] at h
        obtain ⟨l, ls, e⟩ := List.exists_cons_of_ne_nil (Split_ne_nil cs '\n')
        rw [e] at h ⊢
        simp only [List.headD_cons, List.tail_cons, titleFree] at h ⊢
        rw [(scanLine_cons_space _ c l hc).1, (scanLine_cons_space _ c l hc).2] at h
        exact h
    · rw [List.dropWhile_cons_of_neg hc]
      exact h

/-- Trailing white space of a text can be removed without a line becoming a title. -/
theorem titleFree_rdropWhile (f : scanState) (s : GoString)
    (h : titleFree f (Split s '\n') = true) :
    titleFree f (Split (s.rdropWhile isSpace) '\n') = true := by
  induction s using List.reverseRecOn with
  | nil => exact h
  | append_singleton s' c ih =>
    by_cases hc : isSpace c = true
    · rw [List.rdropWhile_concat_pos _ _ _ hc]
      apply ih
      by_cases hn : c = '\n'
      · subst hn
        rw [Split_concat_sep, titleFree_append, Bool.and_eq_true] at h
        exact h.1
      · rw [Split_concat_ne s' c '\n' hn, titleFree_append, Bool.and_eq_true] at h
        have e := dropLast_append_getLastD (Split s' '\n') [] (Split_ne_nil s' '\n')
        rw [← e, titleFree_append, Bool.and_eq_true]
        refine ⟨h.1, ?_⟩
        have h2 := h.2
        simp only [titleFree, Bool.and_true] at h2 ⊢
        rw [titleMet_concat_space _ c _ hc] at h2
        exact h2
    · rw [List.rdropWhile_concat_neg _ _ _ hc]
      exact h

/-- White space around a text can be removed without a line becoming a title. -/
theorem titleFree_TrimSpace (t : GoString)
    (h : titleFree (false, none) (Split t '\n') = true) :
    titleFree (false, none) (Split (TrimSpace t) '\n') = true := by
  unfold TrimSpace
  exact titleFree_rdropWhile _ _ (titleFree_dropWhile t h)

/-! ## Blocks that are written as inert lines -/

/-- Lines that are no fence lines, start no HTML block and are no title lines are
inert. -/
theorem InertLines_plain (ls : List GoString) (hnl : ∀ l ∈ ls, '\n' ∉ l)
    (h : ∀ l ∈ ls, isFenceLine l = false ∧ isHTMLBlockStart (TrimSpace l) = false ∧
      isTitleLine l = false) : InertLines ls := by
  refine ⟨hnl, ?_, ?_⟩
  · clear hnl
    induction ls with
    | nil => rfl
    | cons l rest ih =>
      obtain ⟨h1, h2, h3⟩ := h l (by simp)
      simp only [titleFree, titleMet_plain _ l h3, scanLine_plain l h1 h2, Bool.not_false,
        Bool.true_and]
      exact ih (fun x hx => h x (by simp [hx]))
  · clear hnl
    induction ls with
    | nil => rfl
    | cons l rest ih =>
      obtain ⟨h1, h2, _⟩ := h l (by simp)
      simp only [scanLines, List.foldl_cons, scanLine_plain l h1 h2]
      exact ih (fun x hx => h x (by simp [hx]))

/-- A line whose trimmed text begins with a character other than a backtick, `<` and
`#` is no fence line, starts no HTML block and is no title line. -/
theorem plain_of_head (l : GoString) (a : Char) (as : GoString)
    (h : HasPrefix (TrimSpace l) (a :: as) = true)
    (h1 : a ≠ '`') (h2 : a ≠ '<') (h3 : a ≠ '#') :
    isFenceLine l = false ∧ isHTMLBlockStart (TrimSpace l) = false ∧ isTitleLine l = false := by
  refine ⟨HasPrefix_head_ne _ a '`' as _ h h1, isHTMLBlockStart_false_of_head _ a as h h2, ?_⟩
  unfold isTitleLine
  rw [show "# ".toList = '#' :: [' '] from rfl, show "## ".toList = '#' :: ['#', ' '] from rfl,
    HasPrefix_head_ne _ a '#' as _ h h3, HasPrefix_head_ne _ a '#' as _ h h3]
  rfl

/-- The empty line is no fence line, starts no HTML block and is no title line. -/
theorem plain_nil : isFenceLine [] = false ∧ isHTMLBlockStart (TrimSpace []) = false ∧
    isTitleLine [] = false := by
  decide

/-- A line that begins, after an indentation, with a character that is no white
space has a trimmed text that begins with that character. -/
theorem HasPrefix_TrimSpace_indent (n : Nat) (c : Char) (B : GoString)
    (hc : isSpace c = false) :
    HasPrefix (TrimSpace (Repeat "    ".toList n ++ c :: B)) [c] = true := by
  rw [TrimSpace_indent]
  have := TrimSpace_append_right [c] B (by simp) (by simpa using hc) (by simpa using hc)
  rw [List.singleton_append] at this
  rw [this, HasPrefix_iff]
  exact ⟨_, rfl⟩

/-- A block that is written as one line that is no fence line, starts no HTML block
and is no title line is inert. -/
theorem InertBlock_line (b : Block) (line : GoString)
    (hw : writeBlock b = some (line ++ "\n".toList)) (hnl : '\n' ∉ line)
    (hp : isFenceLine line = false ∧ isHTMLBlockStart (TrimSpace line) = false ∧
      isTitleLine line = false) : InertBlock b := by
  refine ⟨[line], ?_, InertLines_plain _ ?_ ?_⟩
  · rw [hw]
    simp
  · intro l hl
    simp only [List.mem_singleton] at hl
    rw [hl]
    exact hnl
  · intro l hl
    simp only [List.mem_singleton] at hl
    rw [hl]
    exact hp

theorem not_mem_indent (n : Nat) (w : GoString) (h : '\n' ∉ w) :
    '\n' ∉ Repeat "    ".toList n ++ w := by
  rw [Repeat_four_spaces]
  intro hc
  rcases List.mem_append.mp hc with hc | hc
  · exact replicate_space_not_newline _ hc
  · exact h hc

/-- Every block that `parseSlideContent` makes of a single line other than a heading
of the first or second level is inert. -/
theorem simpleBlock_inert (line : GoString) (b : Block) (hnl : '\n' ∉ line)
    (hb : simpleBlock line = some b) : InertBlock b := by
  have hidem : TrimSpace (TrimSpace line) = TrimSpace line := TrimSpace_idem line
  have htnl : '\n' ∉ TrimSpace line := fun h => hnl (mem_of_mem_TrimSpace _ _ h)
  obtain ⟨L, hlev⟩ : ∃ L : Nat, countIndentLevel line = (L : Int) :=
    ⟨_, (Int_toNat_of_nonneg _ (countIndentLevel_nonneg line)).symm⟩
  unfold simpleBlock at hb
  simp only at hb
  by_cases h0 : HasPrefix (TrimSpace line) "```".toList = true ∨
      isHTMLBlockStart (TrimSpace line) = true ∨ TrimSpace line = [] ∨
      HasPrefix (TrimSpace line) "# ".toList = true ∨
      HasPrefix (TrimSpace line) "## ".toList = true
  · rw [if_pos h0] at hb
    cases hb
  rw [if_neg h0] at hb
  by_cases h1 : HasPrefix (TrimSpace line) "### ".toList = true
  · rw [if_pos h1] at hb
    cases hb
    have hw : writeBlock (NewHeading (TrimPrefix (TrimSpace line) "### ".toList) 3) =
        some (('#' :: '#' :: '#' :: '#' :: ' ' :: TrimPrefix (TrimSpace line) "### ".toList) ++
          "\n".toList) := by
      unfold writeBlock
      simp [NewHeading, BlockNumbered, BlockBullet, BlockQuote, BlockParagraph, BlockCode,
        BlockImage, BlockHeading, RepeatInt, Repeat]
    apply InertBlock_line _ _ hw
    · intro h
      simp only [List.mem_cons] at h
      rcases h with h | h | h | h | h | h
      · exact absurd h (by decide)
      · exact absurd h (by decide)
      · exact absurd h (by decide)
      · exact absurd h (by decide)
      · exact absurd h (by decide)
      · exact htnl (mem_of_mem_TrimPrefix _ _ _ h)
    · have ht := TrimSpace_append_right ['#', '#', '#', '#']
        (' ' :: TrimPrefix (TrimSpace line) "### ".toList) (by simp) (by decide) (by decide)
      simp only [List.cons_append, List.nil_append] at ht
      unfold isFenceLine isTitleLine
      rw [ht]
      exact ⟨rfl, rfl, rfl⟩
  rw [if_neg h1] at hb
  by_cases h2 : HasPrefix (TrimSpace line) "- ".toList = true ∨
      HasPrefix (TrimSpace line) "* ".toList = true
  · rw [if_pos h2] at hb
    cases hb
    rw [hlev]
    have hw : writeBlock (NewBullet (TrimSpace ((TrimSpace line).drop 2)) (L : Int)) =
        some ((Repeat "    ".toList L ++
          '-' :: ' ' :: TrimSpace ((TrimSpace line).drop 2)) ++ "\n".toList) := by
      unfold writeBlock
      have hL : ¬ ((L : Int) < 0) := by omega
      simp [NewBullet, RepeatInt, hL]
    apply InertBlock_line _ _ hw
    · apply not_mem_indent
      intro h
      simp only [List.mem_cons] at h
      rcases h with h | h | h
      · exact absurd h (by decide)
      · exact absurd h (by decide)
      · exact htnl ((List.drop_sublist 2 _).subset (mem_of_mem_TrimSpace _ _ h))
    · exact plain_of_head _ '-' [] (HasPrefix_TrimSpace_indent _ '-' _ (by decide))
        (by decide) (by decide) (by decide)
  rw [if_neg h2] at hb
  by_cases h3 : isNumberedItem (TrimSpace line) = true
  · rw [if_pos h3] at hb
    obtain ⟨ds, ws, rest, e, hds, hdig, hws, hsp, hrest, hhead⟩ :=
      numbered_shape (TrimSpace line) h3 hidem
    have hrnl : '\n' ∉ rest := by
      intro h
      apply htnl
      rw [e]
      simp [h]
    have hn := numbered_of_parts ds ws rest hds hdig hws hsp hrest hhead hrnl
    rw [← e] at hn
    rw [hn.2] at hb
    cases hb
    rw [hlev]
    have hw : writeBlock (NewNumbered rest (L : Int)) =
        some ((Repeat "    ".toList L ++
          '1' :: '.' :: ' ' :: rest) ++ "\n".toList) := by
      unfold writeBlock
      have hL : ¬ ((L : Int) < 0) := by omega
      simp [NewNumbered, RepeatInt, BlockNumbered, BlockBullet, hL]
    apply InertBlock_line _ _ hw
    · apply not_mem_indent
      intro h
      simp only [List.mem_cons] at h
      rcases h with h | h | h | h
      · exact absurd h (by decide)
      · exact absurd h (by decide)
      · exact absurd h (by decide)
      · exact hrnl h
    · exact plain_of_head _ '1' [] (HasPrefix_TrimSpace_indent _ '1' _ (by decide))
        (by decide) (by decide) (by decide)
  rw [if_neg h3] at hb
  by_cases h4 : HasPrefix (TrimSpace line) "> ".toList = true
  · rw [if_pos h4] at hb
    cases hb
    have hw : writeBlock (NewQuote (TrimPrefix (TrimSpace line) "> ".toList)) =
        some (('>' :: ' ' :: TrimPrefix (TrimSpace line) "> ".toList) ++ "\n".toList) := by
      unfold writeBlock
      simp [NewQuote, BlockNumbered, BlockBullet, BlockQuote, BlockParagraph, BlockCode,
        BlockImage]
    apply InertBlock_line _ _ hw
    · intro h
      simp only [List.mem_cons] at h
      rcases h with h | h | h
      · exact absurd h (by decide)
      · exact absurd h (by decide)
      · exact htnl (mem_of_mem_TrimPrefix _ _ _ h)
    · exact plain_of_head _ '>' [] (HasPrefix_TrimSpace_indent 0 '>' _ (by decide))
        (by decide) (by decide) (by decide)
  rw [if_neg h4] at hb
  by_cases h5 : HasPrefix (TrimSpace line) "![".toList = true
  · rw [if_pos h5] at hb
    cases hp : parseImageLine (TrimSpace line) with
    | none => rw [hp] at hb; cases hb
    | some r =>
      rw [hp] at hb
      simp only [Option.some_bind] at hb
      by_cases hr : r.2 ≠ []
      · rw [if_pos hr] at hb
        cases hb
        obtain ⟨p1, p2, p3, p4⟩ := parseImageLine_parts _ r hp hr
        have hw : writeBlock (NewImage r.2 r.1) =
            some (('!' :: '[' :: (r.1 ++ ']' :: '(' :: (r.2 ++ [')']))) ++ "\n".toList) := by
          unfold writeBlock
          simp [NewImage, BlockNumbered, BlockBullet, BlockQuote, BlockParagraph, BlockCode,
            BlockImage]
        apply InertBlock_line _ _ hw
        · intro h
          simp only [List.mem_cons, List.mem_append, List.mem_singleton, List.not_mem_nil,
            or_false] at h
          rcases h with h | h | h | h | h | h | h
          · exact absurd h (by decide)
          · exact absurd h (by decide)
          · exact not_mem_of_subset p3 htnl h
          · exact absurd h (by decide)
          · exact absurd h (by decide)
          · exact not_mem_of_subset p4 htnl h
          · exact absurd h (by decide)
        · exact plain_of_head _ '!' [] (HasPrefix_TrimSpace_indent 0 '!' _ (by decide))
            (by decide) (by decide) (by decide)
      · rw [if_neg hr] at hb
        cases hb
  rw [if_neg h5] at hb
  cases hb

/-! ## Code blocks, HTML blocks, tables and paragraphs, written as inert lines -/

theorem flatten_lines_of_Join (ls : List GoString) (hne : ls ≠ []) :
    (ls.map fun l => l ++ "\n".toList).flatten = Join ls "\n".toList ++ "\n".toList := by
  rw [Join_append_sep ls _ hne]

/-- Inside a code block, lines that are no fence lines leave the flags alone and none
of them is read as a heading. -/
theorem scan_code_lines (h : Option Int) (ls : List GoString)
    (hf : ∀ l ∈ ls, isFenceLine l = false) :
    scanLines (true, h) ls = (true, h) ∧ titleFree (true, h) ls = true := by
  induction ls with
  | nil => exact ⟨rfl, rfl⟩
  | cons l rest ih =>
    have h1 := hf l (by simp)
    have e : scanLine (true, h) l = (true, h) := by
      unfold scanLine
      simp [h1]
    have e2 : titleMet (true, h) l = false := by
      unfold titleMet
      simp
    obtain ⟨i1, i2⟩ := ih (fun x hx => hf x (by simp [hx]))
    simp only [scanLines, List.foldl_cons, titleFree, e, e2, Bool.not_false, Bool.true_and]
    exact ⟨i1, i2⟩

/-- A blank line, a fence line, lines that are no fence lines and a closing fence
line are inert lines. -/
theorem fenced_inert (F : GoString) (hF : isFenceLine F = true) (hnl : '\n' ∉ F)
    (body : List GoString) (hbody : ∀ l ∈ body, '\n' ∉ l ∧ isFenceLine l = false) :
    InertLines ([[], F] ++ body ++ ["```".toList]) := by
  obtain ⟨s1, s2⟩ := scan_code_lines none body (fun l hl => (hbody l hl).2)
  have s1' : List.foldl scanLine (true, none) body = (true, none) := s1
  have e1 : scanLine (false, none) [] = (false, none) := by decide
  have e2 : scanLine (false, none) F = (true, none) := by
    unfold scanLine
    rw [if_pos hF]
    rfl
  have e3 : scanLine (true, none) "```".toList = (false, none) := by decide
  have t1 : titleMet (false, none) [] = false := by decide
  have t2 : titleMet (false, none) F = false := by
    unfold titleMet
    rw [hF]
    rfl
  have t3 : titleMet (true, none) "```".toList = false := by decide
  refine ⟨?_, ?_, ?_⟩
  · intro l hl
    simp only [List.mem_append, List.mem_cons, List.mem_singleton, List.not_mem_nil,
      or_false] at hl
    rcases hl with ((hl | hl) | hl) | hl
    · rw [hl]; simp
    · rw [hl]; exact hnl
    · exact (hbody l hl).1
    · rw [hl]; decide
  · rw [List.append_assoc, titleFree_append]
    simp only [titleFree, scanLines, List.foldl_cons, List.foldl_nil, e1, e2, t1, t2,
      Bool.not_false, Bool.true_and, Bool.and_true]
    rw [titleFree_append, s2]
    simp only [Bool.true_and, titleFree, Bool.and_true, scanLines]
    rw [s1', t3]
    rfl
  · rw [List.append_assoc, scanLines_append, scanLines_append]
    simp only [scanLines, List.foldl_cons, List.foldl_nil, e1, e2]
    rw [s1', e3]

/-- A code block whose language tag is what is left of a trimmed fence line and whose
lines are no fence lines is inert. -/
theorem code_inert (lang : GoString) (cls : List GoString)
    (c1 : TrimSpace ("```".toList ++ lang) = "```".toList ++ lang) (c2 : '\n' ∉ lang)
    (c3 : ∀ l ∈ cls, '\n' ∉ l ∧ HasPrefix (TrimSpace l) "```".toList = false) :
    InertBlock { Kind := BlockCode, Text := Join cls "\n".toList, Lang := lang } := by
  have hopen : isFenceLine ("```".toList ++ lang) = true := by
    unfold isFenceLine
    rw [c1, HasPrefix_iff]
    exact ⟨lang, rfl⟩
  have hnl : '\n' ∉ "```".toList ++ lang := by
    intro hc
    rcases List.mem_append.mp hc with hc | hc
    · exact absurd hc (by decide)
    · exact c2 hc
  by_cases hne : cls = []
  · subst hne
    refine ⟨[[], "```".toList ++ lang] ++ [[]] ++ ["```".toList], ?_,
      fenced_inert _ hopen hnl [[]] ?_⟩
    · rw [writeBlock_code, Join_nil]
      simp
    · intro l hl
      simp only [List.mem_singleton] at hl
      rw [hl]
      exact ⟨by simp, by decide⟩
  · refine ⟨[[], "```".toList ++ lang] ++ cls ++ ["```".toList], ?_,
      fenced_inert _ hopen hnl cls c3⟩
    rw [writeBlock_code]
    simp only [List.map_append, List.flatten_append, flatten_lines_of_Join cls hne]
    simp

/-- Inside an HTML block, lines that are no fence lines and keep the depth positive
until the last, which closes the block, leave the loop outside the block, and none of
them is read as a heading. -/
theorem scan_html_lines (d : Int) (ls : List GoString) (hne : ls ≠ [])
    (hf : ∀ l ∈ ls, isFenceLine l = false)
    (hpos : ∀ k, 0 < k → k < ls.length → 0 < d + htmlDepth (ls.take k))
    (hend : d + htmlDepth ls ≤ 0) :
    scanLines (false, some d) ls = (false, none) ∧ titleFree (false, some d) ls = true := by
  induction ls generalizing d with
  | nil => exact absurd rfl hne
  | cons l rest ih =>
    have h1 := hf l (by simp)
    have e2 : titleMet (false, some d) l = false := by
      unfold titleMet
      simp
    have e : scanLine (false, some d) l =
        (false, openDepth (d + countHTMLOpens l - countHTMLCloses l)) := by
      unfold scanLine
      simp [h1]
    have hcons : ∀ xs : List GoString, htmlDepth (l :: xs) =
        countHTMLOpens l - countHTMLCloses l + htmlDepth xs := by
      intro xs
      simp [htmlDepth]
    simp only [scanLines, List.foldl_cons, titleFree, e, e2, Bool.not_false, Bool.true_and]
    by_cases hr : rest = []
    · subst hr
      have : d + countHTMLOpens l - countHTMLCloses l ≤ 0 := by
        have := hend
        rw [hcons] at this
        simp [htmlDepth] at this
        omega
      unfold openDepth
      rw [if_pos this]
      exact ⟨rfl, rfl⟩
    · have hp1 : 0 < d + countHTMLOpens l - countHTMLCloses l := by
        have := hpos 1 (by omega) (by
          obtain ⟨x, xs, e'⟩ := List.exists_cons_of_ne_nil hr
          rw [e']
          simp)
        simp only [List.take_succ_cons, List.take_zero] at this
        rw [hcons] at this
        simp [htmlDepth] at this
        omega
      unfold openDepth
      rw [if_neg (by omega)]
      have := ih (d + countHTMLOpens l - countHTMLCloses l) hr
        (fun x hx => hf x (by simp [hx]))
        (by
          intro k hk1 hk2
          have := hpos (k + 1) (by omega) (by simp; omega)
          rw [List.take_succ_cons, hcons] at this
          omega)
        (by
          rw [hcons] at hend
          omega)
      unfold scanLines at this
      exact this

/-- A paragraph of the lines of an HTML block that the loop closed is inert. -/
theorem html_inert (ls : List GoString) (hne : ls ≠ [])
    (hl : ∀ l ∈ ls, '\n' ∉ l ∧ HasPrefix (TrimSpace l) "```".toList = false)
    (hstart : ∀ l ∈ ls.head?, isHTMLBlockStart (TrimSpace l) = true)
    (hpos : ∀ k, 0 < k → k < ls.length → 0 < htmlDepth (ls.take k))
    (hend : htmlDepth ls ≤ 0) :
    InertBlock { Kind := BlockParagraph, Text := Join ls "\n".toList } := by
  obtain ⟨l0, rest, e0⟩ := List.exists_cons_of_ne_nil hne
  have h0 : isHTMLBlockStart (TrimSpace l0) = true := hstart l0 (by rw [e0]; simp)
  have hf0 : isFenceLine l0 = false := (hl l0 (by rw [e0]; simp)).2
  have hpre : HasPrefix (TrimSpace (Join ls "\n".toList)) "<".toList = true := by
    rw [e0]
    cases rest with
    | nil => rw [Join_singleton]; exact isHTMLBlockStart_open _ h0
    | cons l1 rest' =>
      rw [Join_cons_cons, List.append_assoc]
      exact HasPrefix_TrimSpace_append _ _ '<' (isHTMLBlockStart_open _ h0)
  refine ⟨ls, ?_, fun l hl' => (hl l hl').1, ?_, ?_⟩
  · rw [writeBlock_paragraph_raw _ (Or.inl hpre), flatten_lines_of_Join ls hne]
  all_goals
    have e : scanLine (false, none) l0 = (false, openDepth (htmlDepth [l0])) := by
      unfold scanLine
      rw [htmlDepth_singleton]
      simp [hf0, h0]
    have e2 : titleMet (false, none) l0 = false := by
      unfold titleMet
      simp [h0]
    have hcons : ∀ xs : List GoString, htmlDepth (l0 :: xs) =
        htmlDepth [l0] + htmlDepth xs := by
      intro xs
      simp [htmlDepth]
    subst e0
    simp only [scanLines, List.foldl_cons, titleFree, e, e2, Bool.not_false, Bool.true_and]
    by_cases hr : rest = []
    · subst hr
      unfold openDepth
      rw [if_pos hend]
      rfl
    · have hp1 : 0 < htmlDepth [l0] := by
        have := hpos 1 (by omega) (by
          obtain ⟨x, xs, e'⟩ := List.exists_cons_of_ne_nil hr
          rw [e']
          simp)
        simpa using this
      unfold openDepth
      rw [if_neg (by omega)]
      have := scan_html_lines (htmlDepth [l0]) rest hr
        (fun x hx => (hl x (by simp [hx])).2)
        (by
          intro k hk1 hk2
          have := hpos (k + 1) (by omega) (by simp; omega)
          rw [List.take_succ_cons, hcons] at this
          exact this)
        (by
          rw [hcons] at hend
          exact hend)
      unfold scanLines at this
      first
        | exact this.2
        | exact this.1

/-- A paragraph of the lines of a table is inert. -/
theorem table_inert (tls : List GoString) (hne : tls ≠ [])
    (ht : ∀ l ∈ tls, isTableLine l = true ∧ '\n' ∉ l) :
    InertBlock { Kind := BlockParagraph, Text := Join tls "\n".toList } := by
  obtain ⟨l0, rest, e0⟩ := List.exists_cons_of_ne_nil hne
  have h0 : isTableLine l0 = true := (ht l0 (by rw [e0]; simp)).1
  have hpre : HasPrefix (TrimSpace (Join tls "\n".toList)) "|".toList = true := by
    rw [e0]
    cases rest with
    | nil => rw [Join_singleton]; exact h0
    | cons l1 rest' =>
      rw [Join_cons_cons, List.append_assoc]
      exact HasPrefix_TrimSpace_append _ _ '|' h0
  refine ⟨tls, ?_, InertLines_plain _ (fun l hl => (ht l hl).2)
    (fun l hl => tableLine_plain l (ht l hl).1)⟩
  rw [writeBlock_paragraph_raw _ (Or.inr hpre), flatten_lines_of_Join tls hne]

/-- A paragraph line is no fence line, starts no HTML block and is no title line. -/
theorem paragraphLine_plain (l : GoString) (h : isParagraphLine l = true) :
    isFenceLine l = false ∧ isHTMLBlockStart (TrimSpace l) = false ∧ isTitleLine l = false := by
  unfold isParagraphLine at h
  simp only [Bool.and_eq_true, Bool.not_eq_true', decide_eq_true_eq] at h
  obtain ⟨⟨⟨⟨⟨⟨_, p2⟩, p3⟩, p4⟩, p5⟩, _⟩, _⟩ := h
  refine ⟨p2, p3, ?_⟩
  unfold isTitleLine
  rw [p4, p5]
  rfl

/-- The paragraph of the paragraph lines of a content is inert. -/
theorem paragraph_inert (ls : List GoString) (hne : ls ≠ [])
    (hp : ∀ l ∈ ls, isParagraphLine l = true ∧ TrimSpace l = l ∧ '\n' ∉ l) :
    InertBlock (NewParagraph (Join ls "\n".toList)) := by
  by_cases h : HasPrefix (TrimSpace (Join ls "\n".toList)) "<".toList = true ∨
      HasPrefix (TrimSpace (Join ls "\n".toList)) "|".toList = true
  · refine ⟨ls, ?_, InertLines_plain _ (fun l hl => (hp l hl).2.2)
      (fun l hl => paragraphLine_plain l (hp l hl).1)⟩
    rw [flatten_lines_of_Join ls hne]
    exact writeBlock_paragraph_raw _ h
  · have h1 : HasPrefix (TrimSpace (Join ls "\n".toList)) "<".toList = false := by
      cases e : HasPrefix (TrimSpace (Join ls "\n".toList)) "<".toList with
      | false => rfl
      | true => exact absurd (Or.inl e) h
    have h2 : HasPrefix (TrimSpace (Join ls "\n".toList)) "|".toList = false := by
      cases e : HasPrefix (TrimSpace (Join ls "\n".toList)) "|".toList with
      | false => rfl
      | true => exact absurd (Or.inr e) h
    refine ⟨[] :: ls, ?_, InertLines_plain _ ?_ ?_⟩
    · rw [List.map_cons, List.flatten_cons, flatten_lines_of_Join ls hne]
      have := writeBlock_paragraph_plain _ h1 h2
      rw [List.append_assoc] at this
      exact this
    · intro l hl
      simp only [List.mem_cons] at hl
      rcases hl with hl | hl
      · rw [hl]; simp
      · exact (hp l hl).2.2
    · intro l hl
      simp only [List.mem_cons] at hl
      rcases hl with hl | hl
      · rw [hl]; exact plain_nil
      · exact paragraphLine_plain l (hp l hl).1

/-! ## The body of a slide without title is made of inert blocks -/

theorem bodyInert_appendBody (st : contentState) (b : Block) (h : bodyInert st.slide)
    (hb : st.slide.Title = [] → InertBlock b) : bodyInert (st.appendBody b).slide := by
  intro hT
  have hT' : st.slide.Title = [] := hT
  refine ⟨(h hT').1, ?_⟩
  intro b' hb'
  simp only [contentState.appendBody, List.mem_append, List.mem_singleton] at hb'
  rcases hb' with hb' | hb'
  · exact (h hT').2 b' hb'
  · rw [hb']
    exact hb hT'

/-- The effect of a regular line keeps the body of a slide without title inert. -/
theorem bodyInert_lineEffect (line : GoString) (st : contentState) (hnl : '\n' ∉ line)
    (h : bodyInert st.slide) : bodyInert (lineEffect line st).slide := by
  unfold lineEffect
  simp only
  by_cases h0 : TrimSpace line = []
  · rw [if_pos h0]; exact h
  rw [if_neg h0]
  by_cases h1 : HasPrefix (TrimSpace line) "# ".toList = true
  · rw [if_pos h1]
    by_cases ht : st.slide.Title = []
    · rw [if_pos ht]
      intro hT
      exact absurd hT (TrimPrefix_TrimSpace_ne_nil line "# ".toList rfl h1)
    · rw [if_neg ht]
      intro hT
      exact absurd hT ht
  rw [if_neg h1]
  by_cases h2 : HasPrefix (TrimSpace line) "## ".toList = true
  · rw [if_pos h2]
    by_cases ht : st.slide.Title = []
    · rw [if_pos ht]
      intro hT
      exact absurd hT (TrimPrefix_TrimSpace_ne_nil line "## ".toList rfl h2)
    · rw [if_neg ht]
      by_cases hs : st.slide.Subtitle = []
      · rw [if_pos hs]
        intro hT
        exact absurd hT ht
      · rw [if_neg hs]
        intro hT
        exact absurd hT ht
  rw [if_neg h2]
  cases hb : simpleBlock line with
  | some b =>
    simp only
    exact bodyInert_appendBody st b h (fun _ => simpleBlock_inert line b hnl hb)
  | none =>
    simp only
    exact h

/-- The loop body of `parseSlideContent` keeps the body of a slide without title
inert. -/
theorem bodyInert_step (lines : List GoString) (n : Nat) (st : contentState)
    (hn : n < lines.length) (hnl : ∀ l ∈ lines, '\n' ∉ l) (hinv : ContentInv st)
    (h : bodyInert st.slide)
    (r : Int × contentState) (hr : parseSlideContent.step lines (n : Int) st = some r) :
    bodyInert r.2.slide := by
  have hline : '\n' ∉ lines[n] := hnl _ (List.getElem_mem _)
  by_cases hf : HasPrefix (TrimSpace lines[n]) "```".toList = true
  · by_cases hc : st.inCodeBlock = true
    · rw [parseSlideContent_step_fence_close lines n st hn hf hc] at hr
      cases hr
      obtain ⟨c1, c2, c3⟩ := hinv.code hc
      exact bodyInert_appendBody { st with inCodeBlock := false } _ h
        (fun _ => code_inert _ _ c1 c2 c3)
    · have hc' : st.inCodeBlock = false := by simpa using hc
      rw [parseSlideContent_step_fence_open lines n st hn hf hc'] at hr
      cases hr
      exact h
  have hf' : HasPrefix (TrimSpace lines[n]) "```".toList = false := by simpa using hf
  by_cases hc : st.inCodeBlock = true
  · rw [parseSlideContent_step_code_line lines n st hn hf' hc] at hr
    cases hr
    exact h
  have hc' : st.inCodeBlock = false := by simpa using hc
  by_cases hh : st.inHTMLBlock = true
  · rw [parseSlideContent_step_html_line lines n st hn hf' hc' hh] at hr
    cases hr
    obtain ⟨d1, d2, d3, d4, d5⟩ := hinv.html hh
    have hdep : htmlDepth (st.htmlBlockLines ++ [lines[n]]) =
        st.htmlBlockDepth + countHTMLOpens lines[n] - countHTMLCloses lines[n] := by
      rw [htmlDepth_concat, d4]
    have hmem : ∀ l ∈ st.htmlBlockLines ++ [lines[n]],
        '\n' ∉ l ∧ HasPrefix (TrimSpace l) "```".toList = false := by
      intro l hl
      simp only [List.mem_append, List.mem_singleton] at hl
      rcases hl with hl | hl
      · exact d2 l hl
      · rw [hl]
        exact ⟨hline, hf'⟩
    have hhead : ∀ l ∈ (st.htmlBlockLines ++ [lines[n]]).head?,
        isHTMLBlockStart (TrimSpace l) = true := by
      rw [List.head?_append_of_ne_nil _ d1]
      exact d3
    simp only
    by_cases hle : st.htmlBlockDepth + countHTMLOpens lines[n] - countHTMLCloses lines[n] ≤ 0
    · rw [if_pos hle]
      apply bodyInert_appendBody _ _ h
      intro _
      apply html_inert _ (by simp) hmem hhead
      · intro k hk1 hk2
        rw [List.length_append, List.length_singleton] at hk2
        rw [take_append_of_le _ _ k (by omega)]
        exact d5 k hk1 (by omega)
      · rw [hdep]
        exact hle
    · rw [if_neg hle]
      exact h
  have hh' : st.inHTMLBlock = false := by simpa using hh
  by_cases hs : isHTMLBlockStart (TrimSpace lines[n]) = true
  · rw [parseSlideContent_step_html_start lines n st hn hf' hc' hh' hs] at hr
    cases hr
    have hmem : ∀ l ∈ [lines[n]], '\n' ∉ l ∧ HasPrefix (TrimSpace l) "```".toList = false := by
      intro l hl
      simp only [List.mem_singleton] at hl
      rw [hl]
      exact ⟨hline, hf'⟩
    have hhead : ∀ l ∈ [lines[n]].head?, isHTMLBlockStart (TrimSpace l) = true := by
      intro l hl
      simp only [List.head?_cons, Option.mem_def, Option.some.injEq] at hl
      rw [← hl]
      exact hs
    simp only
    by_cases hle : htmlDepth [lines[n]] ≤ 0
    · rw [if_pos hle]
      apply bodyInert_appendBody _ _ h
      intro _
      apply html_inert _ (by simp) hmem hhead
      · intro k hk1 hk2
        simp only [List.length_singleton] at hk2
        omega
      · exact hle
    · rw [if_neg hle]
      exact h
  have hs' : isHTMLBlockStart (TrimSpace lines[n]) = false := by simpa using hs
  by_cases hreg : isRegularLine lines[n] = true
  · rw [parseSlideContent_step_regular lines n st hn hc' hh' hreg] at hr
    cases hr
    exact bodyInert_lineEffect _ st hline h
  · have ht := isTableLine_of_not_regular _ hf' hs' hreg
    rw [parseSlideContent_step_table lines n st hn hc' hh' ht] at hr
    cases hr
    apply bodyInert_appendBody st _ h
    intro _
    have hdrop : lines.drop n = lines[n] :: lines.drop (n + 1) := by
      rw [List.drop_eq_getElem_cons hn]
    apply table_inert
    · rw [hdrop, List.takeWhile_cons, ht]
      simp
    · intro l hl
      refine ⟨?_, ?_⟩
      · exact (List.mem_takeWhile_imp hl)
      · exact hnl l ((List.drop_sublist _ _).subset ((List.takeWhile_sublist _).subset hl))

/-- The line loop of `parseSlideContent` keeps the body of a slide without title
inert. -/
theorem bodyInert_loop (fuel : Nat) (lines : List GoString) (n : Nat) (st st' : contentState)
    (hnl : ∀ l ∈ lines, '\n' ∉ l) (hinv : ContentInv st) (h : bodyInert st.slide)
    (hl : parseSlideContent.loop fuel lines (n : Int) st = some st') :
    ContentInv st' ∧ bodyInert st'.slide := by
  induction fuel generalizing n st with
  | zero => simp [parseSlideContent.loop] at hl
  | succ fuel ih =>
    unfold parseSlideContent.loop at hl
    by_cases hn : n < lines.length
    · have hlt : (n : Int) < (lines.length : Int) := by exact_mod_cast hn
      rw [if_pos hlt] at hl
      obtain ⟨n', st1, hs, _, _⟩ := parseSlideContent_step_progress lines n st hn
      rw [hs] at hl
      simp only [Option.some_bind] at hl
      have e : (n' : Int) + 1 = ((n' + 1 : Nat) : Int) := by push_cast; rfl
      rw [e] at hl
      exact ih (n' + 1) st1 (ContentInv_step lines n st hn hnl hinv _ hs)
        (bodyInert_step lines n st hn hnl hinv h _ hs) hl
    · have hlt : ¬ (n : Int) < (lines.length : Int) := by
        intro h'; exact hn (by exact_mod_cast h')
      rw [if_neg hlt] at hl
      cases hl
      exact ⟨hinv, h⟩

/-- The slide that `parseSlideContent` makes from a slide without subtitle and body
has, when it has no title, no subtitle and a body of inert blocks. -/
theorem parseSlideContent_bodyInert (slide slide' : Slide) (c : GoString)
    (h0 : slide.Body = []) (h1 : slide.Subtitle = [])
    (hp : parseSlideContent slide c = some slide') : bodyInert slide' := by
  unfold parseSlideContent at hp
  simp only at hp
  cases hl : parseSlideContent.loop ((Split c '\n').length + 1) (Split c '\n') 0
      { slide := slide } with
  | none => rw [hl] at hp; cases hp
  | some st =>
    rw [hl] at hp
    simp only [Option.some_bind] at hp
    have hinit : bodyInert ({ slide := slide } : contentState).slide := by
      intro _
      refine ⟨h1, ?_⟩
      intro b hb
      rw [h0] at hb
      cases hb
    obtain ⟨hinv, hin⟩ := bodyInert_loop _ (Split c '\n') 0 _ st (Split_not_mem c '\n')
      (ContentInv_init slide h0) hinit (by simpa using hl)
    by_cases hb : 0 < st.bodyLines.length
    · rw [if_pos hb] at hp
      by_cases ht : Join st.bodyLines "\n".toList ≠ []
      · rw [if_pos ht] at hp
        cases hp
        intro hT
        have hT' : st.slide.Title = [] := hT
        refine ⟨(hin hT').1, ?_⟩
        intro b hmem
        simp only [List.mem_append, List.mem_singleton] at hmem
        rcases hmem with hmem | hmem
        · exact (hin hT').2 b hmem
        · rw [hmem]
          exact paragraph_inert st.bodyLines (List.length_pos.mp hb) hinv.para
      · rw [if_neg ht] at hp
        cases hp
        exact hin
    · rw [if_neg hb] at hp
      cases hp
      exact hin

/-! ## The text of a slide without title, read back -/

theorem InertLines_nil : InertLines [] :=
  ⟨by simp, rfl, rfl⟩

theorem InertLines_append (a b : List GoString) (ha : InertLines a) (hb : InertLines b) :
    InertLines (a ++ b) := by
  obtain ⟨a1, a2, a3⟩ := ha
  obtain ⟨b1, b2, b3⟩ := hb
  refine ⟨?_, ?_, ?_⟩
  · intro l hl
    rcases List.mem_append.mp hl with hl | hl
    · exact a1 l hl
    · exact b1 l hl
  · rw [titleFree_append, a2, a3, b2]
    rfl
  · rw [scanLines_append, a3, b3]

/-- The texts that the writer emits for inert blocks are, one after the other, inert
lines, each ended by a newline. -/
theorem writeBlocks_inert (blocks : List Block) (ws : List GoString)
    (h : ∀ b ∈ blocks, InertBlock b) (hw : blocks.mapM writeBlock = some ws) :
    ∃ ls : List GoString, ws.flatten = (ls.map fun l => l ++ "\n".toList).flatten ∧
      InertLines ls := by
  induction blocks generalizing ws with
  | nil =>
    simp only [List.mapM_nil] at hw
    cases hw
    exact ⟨[], rfl, InertLines_nil⟩
  | cons b rest ih =>
    rw [mapM_option_cons] at hw
    obtain ⟨lb, hlb, hin⟩ := h b (by simp)
    rw [hlb] at hw
    simp only [Option.some_bind] at hw
    cases hr : rest.mapM writeBlock with
    | none => rw [hr] at hw; exact absurd hw (by simp)
    | some ws' =>
      rw [hr] at hw
      simp only [Option.some_bind, Option.some.injEq] at hw
      obtain ⟨lr, hlr, hinr⟩ := ih ws' (fun x hx => h x (by simp [hx])) hr
      refine ⟨lb ++ lr, ?_, InertLines_append _ _ hin hinr⟩
      rw [← hw, List.flatten_cons, hlr, List.map_append, List.flatten_append]

/-- The text that the writer emits for a slide without title, after the directive
lines and the comment of the notes, is made of inert lines. -/
theorem writeSlide_untitled_lines (slide : Slide) (h : bodyInert slide)
    (hT : slide.Title = []) (t : GoString) (ht : writeSlide slide.noNotes = some t) :
    ∃ ls : List GoString, t = (ls.map fun l => l ++ "\n".toList).flatten ∧ InertLines ls := by
  obtain ⟨hsub, hbody⟩ := h hT
  rw [writeSlide_parts] at ht
  cases hb : slide.noNotes.Body.mapM writeBlock with
  | none => rw [hb] at ht; exact absurd ht (by simp)
  | some ws =>
    rw [hb] at ht
    simp only [Option.map_some', Option.some.injEq] at ht
    have e1 : slideDirectives slide.noNotes.Layout = [] :=
      show slideDirectives [] = [] by decide
    have e2 : slideNotes slide.noNotes.Notes = [] :=
      show slideNotes [] = [] by decide
    have e3 : slideHeadings slide.noNotes.Title slide.noNotes.Subtitle = [] := by
      show slideHeadings slide.Title slide.Subtitle = []
      rw [hT, hsub]
      decide
    rw [e1, e2, e3] at ht
    simp only [List.nil_append] at ht
    obtain ⟨ls, hls, hin⟩ := writeBlocks_inert slide.Body ws hbody hb
    exact ⟨ls, by rw [← ht, hls], hin⟩

/-- The text that the writer emits for a slide without title that the reader returned
is read back without title. -/
theorem untitled_read_back (slide : Slide) (h : bodyInert slide) (hT : slide.Title = [])
    (t : GoString) (ht : writeSlide slide.noNotes = some t) (s0 s1 : Slide)
    (h0 : s0.Title = []) (hparse : parseSlideContent s0 (TrimSpace t) = some s1) :
    s1.Title = [] := by
  obtain ⟨ls, hls, hnl, hfree, hscan⟩ := writeSlide_untitled_lines slide h hT t ht
  apply parseSlideContent_titleFree s0 s1 _ h0 _ hparse
  apply titleFree_TrimSpace
  rw [hls, Split_lines ls hnl, titleFree_append, hfree, hscan]
  rfl

theorem foldl_notes_Subtitle (notes : List noteBlock) (slide : Slide) :
    (notes.foldl (fun (slide : Slide) nb =>
        if nb.text ≠ [] then
          { slide with Notes := slide.Notes ++ [{ Kind := BlockParagraph, Text := nb.text }] }
        else slide) slide).Subtitle = slide.Subtitle := by
  induction notes generalizing slide with
  | nil => rfl
  | cons nb rest ih =>
    simp only [List.foldl_cons]
    split_ifs
    · exact ih _
    · exact ih _

/-- The slide that `convertToSlide` returns has, when it has no title, no subtitle
and a body of inert blocks. -/
theorem convertToSlide_bodyInert (ps : parsedSlide) (i j : Nat) (slide : Slide)
    (h : convertToSlide ps i j = some slide) : bodyInert slide := by
  unfold convertToSlide at h
  simp only at h
  cases hp : parseSlideContent
      (if mapIndex ps.directives "_class".toList = "section-divider".toList then
        { ID := "s".toList ++ itoa i ++ "-".toList ++ itoa j, Layout := LayoutSection }
       else if mapIndex ps.directives "_class".toList = "lead".toList then
        { ID := "s".toList ++ itoa i ++ "-".toList ++ itoa j, Layout := LayoutTitle }
       else { ID := "s".toList ++ itoa i ++ "-".toList ++ itoa j, Layout := LayoutTitleBody })
      ps.content with
  | none => rw [hp] at h; exact absurd h (by simp)
  | some s1 =>
    rw [hp] at h
    simp only [Option.some_bind] at h
    have hb := parseSlideContent_bodyInert _ s1 ps.content (by split_ifs <;> rfl)
      (by split_ifs <;> rfl) hp
    have g1 := (foldl_notes_Title ps.notes s1).1
    have g2 := foldl_notes_Subtitle ps.notes s1
    have g3 := foldl_notes_Body ps.notes s1
    have key : bodyInert (List.foldl (fun (slide : Slide) nb =>
        if nb.text ≠ [] then
          { slide with Notes := slide.Notes ++ [{ Kind := BlockParagraph, Text := nb.text }] }
        else slide) s1 ps.notes) := by
      intro hT
      rw [g1] at hT
      rw [g2, g3]
      exact hb hT
    split_ifs at h
    all_goals
      cases h
      exact key

/-! ## The comment of the notes, read back -/

/-- The title, the notes and the body of a slide converted from a fragment of
`parseRawSlide` have the shape `readShape`. -/
theorem readShape_of_convert (raw : GoString) (ps : parsedSlide) (i j : Nat) (slide : Slide)
    (hraw : parseRawSlide raw = some ps) (hc : convertToSlide ps i j = some slide) :
    readShape slide := by
  obtain ⟨hN, hT⟩ := convertToSlide_Title ps i j slide hc
  refine ⟨?_, ?_, convertToSlide_bodyInert ps i j slide hc⟩
  · intro hne
    rcases hT with hT | ⟨line, hm, hT⟩
    · exact absurd hT hne
    · have hnl := Split_not_mem _ _ line hm
      rcases hT with ⟨hp, e⟩ | ⟨hp, e⟩
      · rw [e]
        exact (title_of_line line _ (by decide) hnl hp).2
      · rw [e]
        exact (title_of_line line _ (by decide) hnl hp).2
  · intro n hn
    rw [hN] at hn
    simp only [List.mem_map, List.mem_filter, decide_eq_true_eq] at hn
    obtain ⟨nb, ⟨hnb, hne⟩, e⟩ := hn
    subst e
    obtain ⟨t, ht⟩ := foldlM_notes_clean _ [] ps.notes (by simp)
      (parseRawSlide_parts raw ps hraw).2.1 nb hnb
    refine ⟨hne, ?_⟩
    show TrimSpace nb.text = nb.text
    rw [ht]
    exact (cleanNoteText_shape t).2

/-- The comment that the writer emits for the notes is removed as a note comment, and
white space is left in its place, when the texts of the notes hold no `-->` and the
text after the comment holds no note comment. -/
theorem slideNotes_removed (notes : List Block) (t : GoString)
    (hshape : ∀ n ∈ notes, n.Text ≠ [] ∧ TrimSpace n.Text = n.Text)
    (hclose : Contains (Join (notes.map fun n => n.Text) "\n".toList) "-->".toList = false)
    (ht : FindAllStringSubmatch reNoteBlock t = []) :
    ∃ a, (∀ c ∈ a, isSpace c = true) ∧
      ReplaceAllString reNoteBlock (slideNotes notes ++ t) = a ++ t := by
  have ht' : ReplaceAllString reNoteBlock t = t := removeAllFrom_of_no_match _ _ _ ht
  by_cases hn : notes = []
  · refine ⟨[], by simp, ?_⟩
    subst hn
    rw [show slideNotes [] = [] from by decide]
    exact ht'
  · obtain ⟨n0, nrest, e⟩ := List.exists_cons_of_ne_nil hn
    have htexts : (notes.map fun n => n.Text) ≠ [] := by simpa using hn
    have hallne : ∀ l ∈ notes.map fun n => n.Text, l ≠ [] := by
      intro l hl
      simp only [List.mem_map] at hl
      obtain ⟨n, hn', e'⟩ := hl
      rw [← e']
      exact (hshape n hn').1
    have hbody : (notes.map fun n => n.Text ++ "\n".toList).flatten =
        Join (notes.map fun n => n.Text) "\n".toList ++ "\n".toList := by
      rw [Join_append_sep _ _ htexts, List.map_map]
      rfl
    have hhead : (Join (notes.map fun n => n.Text) "\n".toList).head? = n0.Text.head? := by
      apply Join_head_eq _ _ n0.Text (nrest.map fun n => n.Text)
      · rw [e]; rfl
      · exact (hshape n0 (by rw [e]; simp)).1
    have hlast := Join_getLast_eq (notes.map fun n => n.Text) "\n".toList htexts hallne
    obtain ⟨b0, bs, hb⟩ : ∃ b0 bs, Join (notes.map fun n => n.Text) "\n".toList = b0 :: bs := by
      cases hJ : Join (notes.map fun n => n.Text) "\n".toList with
      | nil =>
        rw [hJ] at hhead
        have := (hshape n0 (by rw [e]; simp)).1
        cases hx : n0.Text with
        | nil => exact absurd hx this
        | cons x xs => rw [hx] at hhead; simp at hhead
      | cons b0 bs => exact ⟨b0, bs, rfl⟩
    have hsp0 : reSpace b0 = false := by
      have h0 := hshape n0 (by rw [e]; simp)
      have := (trimmed_ends_isSpace _ h0.1 h0.2).1 b0 (by rw [← hhead, hb]; simp)
      cases hr : reSpace b0 with
      | false => rfl
      | true => rw [reSpace_isSpace b0 hr] at this; exact absurd this (by simp)
    have hspl : ∀ c ∈ (b0 :: bs).getLast?, reSpace c = false := by
      intro c hc
      rw [← hb, hlast] at hc
      have hmem : (notes.map fun n => n.Text).getLast htexts ∈ notes.map fun n => n.Text :=
        List.getLast_mem _
      simp only [List.mem_map] at hmem
      obtain ⟨n, hn', e'⟩ := hmem
      rw [← e'] at hc
      have h0 := hshape n hn'
      have := (trimmed_ends_isSpace _ h0.1 h0.2).2 c hc
      cases hr : reSpace c with
      | false => rfl
      | true => rw [reSpace_isSpace c hr] at this; exact absurd this (by simp)
    have hcl : ¬ "-->".toList <:+: b0 :: bs := by
      intro hc
      rw [← hb] at hc
      rw [Contains_of_occurs _ _ hc] at hclose
      exact absurd hclose (by simp)
    have hM := RE_run_noteBlock b0 bs ('\n' :: '\n' :: t) hsp0 hspl hcl none
    have eM : '<' :: '!' :: '-' :: '-' :: '\n' ::
        ((b0 :: bs) ++ '\n' :: '-' :: '-' :: '>' :: '\n' :: '\n' :: t) =
        ("<!--\n".toList ++ (b0 :: bs) ++ "\n-->".toList) ++ ('\n' :: '\n' :: t) := by
      simp
    have eLen : 5 + (b0 :: bs).length + 4 =
        ("<!--\n".toList ++ (b0 :: bs) ++ "\n-->".toList).length := by
      simp
      omega
    rw [eM, eLen] at hM
    have hrem := removeAllFrom_match_at reNoteBlock reNoteBlock_shape.1 [] _ _ _
      (by intro A1 A2 e hne; exact absurd (List.append_eq_nil.mp e.symm).2 hne) hM
      (by simp) none
    have hpad := (reNoteBlock_padded_left "\n\n".toList t (by decide)).2
    refine ⟨"\n\n".toList, by decide, ?_⟩
    have eW : slideNotes notes ++ t =
        [] ++ (("<!--\n".toList ++ (b0 :: bs) ++ "\n-->".toList) ++ ('\n' :: '\n' :: t)) := by
      unfold slideNotes
      rw [if_pos hn, hbody, hb]
      simp
    rw [eW, ReplaceAllString, hrem, List.nil_append]
    rw [ReplaceAllString, ht'] at hpad
    exact hpad

/-! ## One written slide, read back -/

/-- The directives that the reader finds in the text of a slide are those that the
writer emitted for its layout, when the rest of the text holds no directive comment:
the fragment starts a section exactly for the layouts `section` and `title`, and the
removal of the directives leaves the rest of the text after white space. -/
theorem written_directives (slide : Slide) (w r : GoString) (ps : parsedSlide)
    (hw : writeSlide slide = some w) (hr : writeSlide slide.noLayout = some r)
    (hdir : FindAllStringSubmatch reDirective r = [])
    (hps : parseRawSlide w = some ps) :
    startsSection ps = decide (slide.Layout = LayoutSection ∨ slide.Layout = LayoutTitle) ∧
    ∃ a, (∀ c ∈ a, isSpace c = true) ∧ ReplaceAllString reDirective w = a ++ r := by
  have hr' : ReplaceAllString reDirective r = r := removeAllFrom_of_no_match _ _ _ hdir
  have hwr : w = slideDirectives slide.Layout ++ r := by
    have := writeSlide_noLayout slide
    rw [hw, hr] at this
    simpa using this
  obtain ⟨hfold, _, _⟩ := parseRawSlide_parts w ps hps
  by_cases h1 : slide.Layout = LayoutSection
  · have e : slideDirectives slide.Layout = "<!-- _class: ".toList ++ "section-divider".toList ++
        " -->\n".toList ++ "<!-- _paginate: false -->\n\n".toList := by
      rw [h1]; decide
    obtain ⟨hF, hR⟩ := directive_lines "section-divider".toList r (by decide) (by decide)
      (by decide) (by decide)
    rw [hwr, e] at hfold ⊢
    rw [hF, hdir] at hfold
    rw [hR, hr']
    have hd : ps.directives = mapSet (mapSet [] "_class".toList "section-divider".toList)
        "_paginate".toList "false".toList := by
      have : some (mapSet (mapSet [] "_class".toList "section-divider".toList)
        "_paginate".toList "false".toList) = some ps.directives := by
        rw [← hfold]; rfl
      exact (Option.some.inj this).symm
    refine ⟨?_, "\n\n\n".toList, by decide, rfl⟩
    unfold startsSection
    rw [hd]
    simp [h1]
    decide
  · by_cases h2 : slide.Layout = LayoutTitle
    · have e : slideDirectives slide.Layout = "<!-- _class: ".toList ++ "lead".toList ++
          " -->\n".toList ++ "<!-- _paginate: false -->\n\n".toList := by
        rw [h2]; decide
      obtain ⟨hF, hR⟩ := directive_lines "lead".toList r (by decide) (by decide)
        (by decide) (by decide)
      rw [hwr, e] at hfold ⊢
      rw [hF, hdir] at hfold
      rw [hR, hr']
      have hd : ps.directives = mapSet (mapSet [] "_class".toList "lead".toList)
          "_paginate".toList "false".toList := by
        have : some (mapSet (mapSet [] "_class".toList "lead".toList)
          "_paginate".toList "false".toList) = some ps.directives := by
          rw [← hfold]; rfl
        exact (Option.some.inj this).symm
      refine ⟨?_, "\n\n\n".toList, by decide, rfl⟩
      unfold startsSection
      rw [hd]
      simp [h2]
      decide
    · have e : slideDirectives slide.Layout = [] := by
        unfold slideDirectives
        rw [if_neg h1, if_neg h2]
      rw [hwr, e, List.nil_append] at hfold ⊢
      rw [hdir] at hfold
      have hd : ps.directives = [] := by
        have : some ([] : GoMap) = some ps.directives := by
          rw [← hfold]; rfl
        exact (Option.some.inj this).symm
      refine ⟨?_, [], by simp, by rw [hr']; rfl⟩
      unfold startsSection
      rw [hd]
      simp [h1, h2]
      decide

/-- The title of the slide that `convertToSlide` returns is the title that
`parseSlideContent` reads from the content, starting without a title. -/
theorem convertToSlide_reads_title (ps : parsedSlide) (i j : Nat) (slide : Slide)
    (h : convertToSlide ps i j = some slide) :
    ∃ s0 s1, s0.Title = [] ∧ parseSlideContent s0 ps.content = some s1 ∧
      slide.Title = s1.Title := by
  unfold convertToSlide at h
  simp only at h
  cases hp : parseSlideContent
      (if mapIndex ps.directives "_class".toList = "section-divider".toList then
        { ID := "s".toList ++ itoa i ++ "-".toList ++ itoa j, Layout := LayoutSection }
       else if mapIndex ps.directives "_class".toList = "lead".toList then
        { ID := "s".toList ++ itoa i ++ "-".toList ++ itoa j, Layout := LayoutTitle }
       else { ID := "s".toList ++ itoa i ++ "-".toList ++ itoa j, Layout := LayoutTitleBody })
      ps.content with
  | none => rw [hp] at h; exact absurd h (by simp)
  | some s1 =>
    rw [hp] at h
    simp only [Option.some_bind] at h
    refine ⟨_, s1, ?_, hp, ?_⟩
    · split_ifs <;> rfl
    · obtain ⟨g1, _⟩ := foldl_notes_Title ps.notes s1
      split_ifs at h
      all_goals
        cases h
        exact g1

/-- The text that the writer emits for a slide with a title, without layout and
notes, begins with the line `# <title>`. -/
theorem writeSlide_title_line (slide : Slide) (t : GoString) (hT : slide.Title ≠ [])
    (ht : writeSlide slide.noNotes = some t) :
    ∃ rest, t = "# ".toList ++ slide.Title ++ "\n".toList ++ rest := by
  rw [writeSlide_parts] at ht
  cases hb : slide.noNotes.Body.mapM writeBlock with
  | none => rw [hb] at ht; exact absurd ht (by simp)
  | some ws =>
    rw [hb] at ht
    simp only [Option.map_some', Option.some.injEq] at ht
    have e1 : slideDirectives slide.noNotes.Layout = [] :=
      show slideDirectives [] = [] by decide
    have e2 : slideNotes slide.noNotes.Notes = [] :=
      show slideNotes [] = [] by decide
    have e3 : slide.noNotes.Title = slide.Title := rfl
    rw [e1, e2, e3] at ht
    unfold slideHeadings at ht
    rw [if_pos hT] at ht
    refine ⟨((if slide.noNotes.Subtitle ≠ [] then
        "## ".toList ++ slide.noNotes.Subtitle ++ "\n".toList else []) ++
      (if slide.Title ≠ [] ∨ slide.noNotes.Subtitle ≠ [] then "\n".toList else [])) ++
      ws.flatten, ?_⟩
    rw [← ht]
    simp only [List.nil_append, List.append_assoc]

/-- The title of the first slide is read back: the fragment read from the text of a
slide that meets `titleSurvives` converts to a slide with the same title. -/
theorem written_title (slide : Slide) (w r : GoString) (ps : parsedSlide)
    (hshape : readShape slide)
    (hw : writeSlide slide = some w) (hr : writeSlide slide.noLayout = some r)
    (hdir : FindAllStringSubmatch reDirective r = [])
    (hps : parseRawSlide w = some ps) (htitle : titleSurvives slide = true) :
    (convertToSlide ps 0 0).map (fun s => s.Title) = some slide.Title := by
  unfold titleSurvives at htitle
  cases ht : writeSlide slide.noNotes with
  | none => rw [ht] at htitle; exact absurd htitle (by simp)
  | some t =>
    rw [ht] at htitle
    simp only [Bool.and_eq_true, Bool.not_eq_true', List.isEmpty_iff] at htitle
    obtain ⟨hclose, hnote⟩ := htitle
    have hrt : r = slideNotes slide.Notes ++ t := by
      have := writeSlide_noNotes slide
      rw [hr, ht] at this
      simpa using this
    obtain ⟨_, a, ha, hrem⟩ := written_directives slide w r ps hw hr hdir hps
    obtain ⟨a2, ha2, hrem2⟩ := slideNotes_removed slide.Notes t hshape.2.1 hclose hnote
    have hcontent : ps.content = TrimSpace t := by
      rw [(parseRawSlide_parts w ps hps).2.2, hrem,
        (reNoteBlock_padded_left a r ha).2, hrt, hrem2,
        TrimSpace_append_left a _ ha, TrimSpace_append_left a2 _ ha2]
    obtain ⟨s2, hs2⟩ := convertToSlide_total ps 0 0
    obtain ⟨s0, s1, h0, hparse, hti⟩ := convertToSlide_reads_title ps 0 0 s2 hs2
    rw [hs2]
    simp only [Option.map_some', Option.some.injEq]
    rw [hti]
    rw [hcontent] at hparse
    by_cases hT : slide.Title = []
    · rw [hT]
      exact untitled_read_back slide hshape.2.2 hT t ht s0 s1 h0 hparse
    · obtain ⟨rest, hrest⟩ := writeSlide_title_line slide t hT ht
      rw [hrest] at hparse
      exact parseSlideContent_first_title s0 slide.Title rest h0 hT (hshape.1 hT).1
        (hshape.1 hT).2 s1 hparse

/-- A slide that the reader returned and that meets `slideSurvives` at its position
survives being written and read back on its own. -/
theorem slideRoundTrips_of_survives (i j : Nat) (slide : Slide) (hshape : readShape slide)
    (hlay : j ≠ 0 → slide.Layout ≠ LayoutSection ∧ slide.Layout ≠ LayoutTitle)
    (hs : slideSurvives i j slide = true) : slideRoundTrips i j slide = true := by
  unfold slideSurvives at hs
  cases hw : writeSlide slide with
  | none => rw [hw] at hs; exact absurd hs (by simp)
  | some w =>
    cases hr : writeSlide slide.noLayout with
    | none => rw [hw, hr] at hs; exact absurd hs (by simp)
    | some r =>
      rw [hw, hr] at hs
      simp only [Bool.and_eq_true, Bool.or_eq_true, decide_eq_true_eq,
        List.isEmpty_iff] at hs
      obtain ⟨⟨⟨⟨hnb, hfence⟩, hdir⟩, hlayout⟩, htitle⟩ := hs
      obtain ⟨ps, hps, _⟩ := parseRawSlide_total w
      obtain ⟨hstart, _⟩ := written_directives slide w r ps hw hr hdir hps
      unfold slideRoundTrips
      rw [hw]
      simp only
      rw [hps]
      simp only [Bool.and_eq_true, decide_eq_true_eq]
      refine ⟨⟨⟨hnb, hfence⟩, ?_⟩, ?_⟩
      · by_cases hj : j = 0
        · rw [if_pos hj]
          rcases hlayout with hl | hl
          · rcases hl with hl | hl
            · exact absurd hj hl
            · simp [hl]
          · rw [hstart]
            simp [hl]
        · rw [if_neg hj, hstart]
          simp [(hlay hj).1, (hlay hj).2]
      · by_cases hij : i = 0 ∧ j = 0
        · rw [if_pos hij]
          rcases htitle with ht | ht
          · omega
          · rw [written_title slide w r ps hshape hw hr hdir hps ht]
            simp
        · rw [if_neg hij]

/-! ## The round trip of a parsed deck -/

/-- A slide converted from a fragment that does not start a section has neither the
layout `section` nor the layout `title`. -/
theorem layout_of_not_start (ps : parsedSlide) (i j : Nat) (slide : Slide)
    (h : convertToSlide ps i j = some slide) (hstart : startsSection ps = false) :
    slide.Layout ≠ LayoutSection ∧ slide.Layout ≠ LayoutTitle := by
  obtain ⟨s, hs, _, hL⟩ := convertToSlide_ID_Layout ps i j
  rw [h] at hs
  simp only [Option.some.injEq] at hs
  subst hs
  unfold startsSection at hstart
  simp only [decide_eq_false_iff_not, not_or] at hstart
  rw [hL]
  split_ifs with h1 h2 h3
  · exact ⟨by decide, by decide⟩
  · exact absurd h2 hstart.1
  · exact absurd h3 hstart.2
  · exact ⟨by decide, by decide⟩

/-- The slides of a section that were converted from fragments of `parseRawSlide`,
none of which after the first starts a section, survive being written and read back
on their own when they meet `slideSurvives`. -/
theorem slidesRoundTrip_of_survive (i : Nat) (slides : List Slide) (pss : List parsedSlide)
    (hF : List.Forall₂ (fun slide ps => ∃ a b, convertToSlide ps a b = some slide) slides pss) :
    (∀ ps ∈ pss, ∃ raw, parseRawSlide raw = some ps) →
    ∀ j, (∀ ps ∈ (if j = 0 then pss.tail else pss), startsSection ps = false) →
      slidesSurvive i j slides = true → slidesRoundTrip i j slides = true := by
  induction hF with
  | nil => intro _ j _ _; rfl
  | @cons slide ps slides' pss' hr _ ih =>
    intro hraw j hflag hs
    simp only [slidesSurvive, Bool.and_eq_true] at hs
    simp only [slidesRoundTrip, Bool.and_eq_true]
    obtain ⟨a, b, hconv⟩ := hr
    obtain ⟨raw, hrawps⟩ := hraw ps (by simp)
    refine ⟨slideRoundTrips_of_survives i j slide
      (readShape_of_convert raw ps a b slide hrawps hconv) ?_ hs.1, ?_⟩
    · intro hj
      apply layout_of_not_start ps a b slide hconv
      apply hflag
      rw [if_neg hj]
      simp
    · apply ih (fun q hq => hraw q (by simp [hq])) (j + 1) _ hs.2
      rw [if_neg (by omega)]
      intro q hq
      apply hflag
      by_cases hj : j = 0
      · rw [if_pos hj]
        simpa using hq
      · rw [if_neg hj]
        simp [hq]

/-- The sections of a parsed deck survive being written and read back slide by slide
when every slide meets `slideSurvives` at its position. -/
theorem sectionsRoundTrip_of_survive (secs : List Section) (runs : List (List parsedSlide))
    (hF : List.Forall₂ SectionOfRun secs runs) :
    (∀ run ∈ runs, ∀ ps ∈ run, ∃ raw, parseRawSlide raw = some ps) →
    (∀ run ∈ runs, ∀ ps ∈ run.tail, startsSection ps = false) →
    ∀ i, sectionsSurvive i secs = true → sectionsRoundTrip i secs = true := by
  induction hF with
  | nil => intro _ _ i _; rfl
  | @cons sec run secs' runs' hr _ ih =>
    intro hraw hgood i hs
    simp only [sectionsSurvive, Bool.and_eq_true] at hs
    simp only [sectionsRoundTrip, Bool.and_eq_true]
    refine ⟨slidesRoundTrip_of_survive i sec.Slides run hr.2 (hraw run (by simp)) 0 ?_ hs.1,
      ih (fun r hr' => hraw r (by simp [hr'])) (fun r hr' => hgood r (by simp [hr']))
        (i + 1) hs.2⟩
    rw [if_pos rfl]
    exact hgood run (by simp)

/-- A deck that `Parse` returned and that meets `deckSurvives` is read back, from the
text that `Encode` emits for it, as a deck with the same title, the same number of
sections and the same number of slides. -/
theorem roundTrip_of_deckSurvives (x : GoString) (d1 : Deck)
    (hP : Parse x = some (some d1, none)) (h : deckSurvives d1 = true) :
    ∃ d2, roundTrip x = some (d1, d2) ∧ d2.Title = d1.Title ∧
      d2.Sections.length = d1.Sections.length ∧ d2.SlideCount = d1.SlideCount := by
  obtain ⟨_, _, pss, deck, _, hpss, _, hP1, runs, hflat, hruns, hgood, hsec, _⟩ :=
    Parse_structure x
  rw [hP] at hP1
  simp only [Option.some.injEq, Prod.mk.injEq, and_true] at hP1
  subst hP1
  unfold deckSurvives at h
  simp only [Bool.and_eq_true] at h
  apply roundTrip_of_pieces x d1 hP h.1
  apply sectionsRoundTrip_of_survive d1.Sections runs hsec _ _ 0 h.2
  · intro run hrun ps hps
    have hmem : ps ∈ pss := by
      rw [← hflat]
      exact List.mem_flatten.mpr ⟨run, hrun, hps⟩
    exact forall₂_mem_left hpss ps hmem
  · intro run hrun ps hps
    rw [hruns] at hrun
    obtain ⟨g, hg, e⟩ := List.mem_map.mp hrun
    subst e
    exact (hgood.1 g hg).2.1 ps hps

/-- C1 (amended): for every input text `x` whose parsed deck `d1 = Parse(x)` meets
`deckSurvives`, the text `Encode(d1)` is parsed to a deck `d2` with the title, the
number of sections and the `SlideCount()` of `d1`.  The deck meets `deckSurvives`
when no header line that the writer emits contains a newline or starts with `---`,
and for every slide: the text `writeSlide` emits is not blank and has balanced code
fences with no `---` line outside them; the text emitted after the directive lines
holds no directive comment; the first slide of a section after the first has the
layout `section` or `title`; and for the first slide of the deck, the notes hold no
`-->` and the text emitted after the comment of the notes holds no note comment. -/
theorem roundTrip_preserves_structure (x : GoString) (h : parsedSurvives x = true) :
    ∃ d1 d2, Parse x = some (some d1, none) ∧ roundTrip x = some (d1, d2) ∧
      d2.Title = d1.Title ∧ d2.Sections.length = d1.Sections.length ∧
      d2.SlideCount = d1.SlideCount := by
  obtain ⟨_, _, _, d1, _, _, _, hP⟩ := Parse_eq x
  unfold parsedSurvives at h
  rw [hP] at h
  obtain ⟨d2, hrt, ht, hn, hc⟩ := roundTrip_of_deckSurvives x d1 hP h
  exact ⟨d1, d2, hP, hrt, ht, hn, hc⟩

set_option maxRecDepth 1000000 in
/-- The sample deck of the tests meets the conditions, and keeps its title, its three
sections and its nine slides. -/
theorem roundTrip_preserves_structure_witness :
    parsedSurvives sampleMarp = true ∧
    ∃ d1 d2, Parse sampleMarp = some (some d1, none) ∧ roundTrip sampleMarp = some (d1, d2) ∧
      d2.Title = d1.Title ∧ d2.Sections.length = d1.Sections.length ∧
      d2.SlideCount = d1.SlideCount :=
  ⟨by decide!, roundTrip_preserves_structure sampleMarp (by decide!)⟩

set_option maxRecDepth 1000000 in
/-- C1 as stated fails, in each of these ways (title, number of sections and number
of slides, of the deck read first and of the deck read back).  A single line opening
a code fence: the slide is written as nothing and is lost.  A `lead` slide with
columns after a first slide: it is written without its class and its section is
merged into the first.  A note `---` between code fences: the written note splits the
slide in two.  A note that becomes a class directive once its pause marker is
removed: the slide read back starts a section.  A style `---x`: the header read back
ends early and the title is lost.  A note that holds `-->` once its pause marker is
removed: the rest of the note is read back as the title.  A title that holds `<!--`
once a note inside it is removed: part of the title is read back as a note.  None of
the seven meets the conditions of the amended claim. -/
theorem roundTrip_loses_structure_counterexample :
    (roundTripShape "```".toList = some (([], 1, 1), ([], 0, 0)) ∧
      parsedSurvives "```".toList = false) ∧
    (roundTripShape
        "# A\n\n---\n\n<!-- _class: lead -->\n<div class=\"columns\"></div>".toList =
        some (("A".toList, 2, 2), ("A".toList, 1, 2)) ∧
      parsedSurvives
        "# A\n\n---\n\n<!-- _class: lead -->\n<div class=\"columns\"></div>".toList = false) ∧
    (roundTripShape "```\n<!--\n---\n-->\n```".toList = some (([], 1, 1), ([], 1, 2)) ∧
      parsedSurvives "```\n<!--\n---\n-->\n```".toList = false) ∧
    (roundTripShape "# A\n\n---\n\n<!--\n_cl[PAUSE:1]ass: lead\n-->\n# B".toList =
        some (("A".toList, 1, 2), ("A".toList, 2, 2)) ∧
      parsedSurvives "# A\n\n---\n\n<!--\n_cl[PAUSE:1]ass: lead\n-->\n# B".toList = false) ∧
    (roundTripShape "---\ntheme: a\nstyle: ---x\n---\n# T".toList =
        some (("T".toList, 1, 1), ([], 1, 2)) ∧
      parsedSurvives "---\ntheme: a\nstyle: ---x\n---\n# T".toList = false) ∧
    (roundTripShape "<!--\nn1\n-->\n<!--\n--[PAUSE:1]> # Fake\n-->\n# Real".toList =
        some (("Real".toList, 1, 1), ("Fake".toList, 1, 1)) ∧
      parsedSurvives "<!--\nn1\n-->\n<!--\n--[PAUSE:1]> # Fake\n-->\n# Real".toList = false) ∧
    (roundTripShape "# x <!<!--\nn\n-->--\npara\n-->".toList =
        some (("x <!--".toList, 1, 1), ("x".toList, 1, 1)) ∧
      parsedSurvives "# x <!<!--\nn\n-->--\npara\n-->".toList = false) := by
  refine ⟨⟨?_, ?_⟩, ⟨?_, ?_⟩, ⟨?_, ?_⟩, ⟨?_, ?_⟩, ⟨?_, ?_⟩, ⟨?_, ?_⟩, ⟨?_, ?_⟩⟩ <;> decide!

end Slidekit
